import Mathlib

/-!
# CppRStAX: a bidirectional XML pull reader

A shallow embedding of `XMLEventReader` (src/XMLEventReader.cpp) and of the event
value types it produces, followed by theorems about the reader.

Conventions of the embedding

* `std::string` is a `List Char`; a `Char` stands for one byte, classified as in the
  classic "C" locale (only ASCII bytes are letters, digits or whitespace).
* `std::istream` is a cursor into a finite byte string: the bytes before the get
  position (nearest first), the bytes from the get position on, and one error flag.
* A member function is a function from the reader state to a `Result`, which carries
  the reader state both when the call returns and when it throws.
* Every `while`/`do` loop of the source is a recursive function on a step budget; the
  member function starts its loop with a budget larger than the number of bytes the
  loop can read.
-/

set_option autoImplicit false

namespace cpprstax

/-- A `std::string`, byte by byte. -/
abbrev Str := List Char

/-- `std::isspace` in the classic locale: space, `\t`, `\n`, `\v`, `\f`, `\r`. -/
def isspace (c : Char) : Bool :=
  decide (c.toNat = 32) || (decide (9 ≤ c.toNat) && decide (c.toNat ≤ 13))

/-- `std::isalpha` in the classic locale: `A`-`Z` and `a`-`z`. -/
def isalpha (c : Char) : Bool :=
  (decide (65 ≤ c.toNat) && decide (c.toNat ≤ 90)) ||
  (decide (97 ≤ c.toNat) && decide (c.toNat ≤ 122))

/-- `std::isalnum` in the classic locale: a letter or `0`-`9`. -/
def isalnum (c : Char) : Bool :=
  isalpha c || (decide (48 ≤ c.toNat) && decide (c.toNat ≤ 57))

/-! ## Event value types -/

/-- `QName` (src/QName.h): namespace URI, local part, prefix. -/
structure QName where
  m_strNamespaceURI : Str
  m_strLocalPart : Str
  m_strPrefix : Str
deriving DecidableEq, Repr

/-- `QName::operator==`: local part, prefix and namespace URI compared in turn. -/
def QName.eq (lhs rhs : QName) : Bool :=
  decide (lhs.m_strLocalPart = rhs.m_strLocalPart) &&
  decide (lhs.m_strPrefix = rhs.m_strPrefix) &&
  decide (lhs.m_strNamespaceURI = rhs.m_strNamespaceURI)

/-- `Attribute` (src/Attribute.h): a name and a value, both present. -/
structure Attribute where
  m_pName : QName
  m_pValue : Str
deriving DecidableEq, Repr

/-- `Attribute::operator==`: compares the names only. -/
def Attribute.eq (lhs rhs : Attribute) : Bool :=
  QName.eq lhs.m_pName rhs.m_pName

/-- `StartElement` (src/StartElement.h): a name and the list of attributes. -/
structure StartElement where
  m_pName : QName
  m_pAttributes : List Attribute
deriving DecidableEq, Repr

/-- `StartElement::getAttributeByName`: the first attribute of the list whose name
equals `aName`, or `none` for the null pointer. -/
def StartElement.getAttributeByName (e : StartElement) (aName : QName) : Option Attribute :=
  e.m_pAttributes.find? (fun a => QName.eq a.m_pName aName)

/-- `EndElement` (src/EndElement.h). -/
structure EndElement where
  m_pName : QName
deriving DecidableEq, Repr

/-- `Characters` (src/Characters.h): the data and the whitespace flag. -/
structure Characters where
  m_pData : Str
  m_bIsWhiteSpace : Bool
deriving DecidableEq, Repr

/-- The loop of the `Characters` constructor: the flag starts `true` and is cleared at
the first byte that is not whitespace. -/
def Characters.scan : Str → Bool
  | [] => true
  | c :: cs => if isspace c = false then false else Characters.scan cs

/-- The `Characters` constructor on a non-null string. -/
def Characters.new (pData : Str) : Characters :=
  { m_pData := pData, m_bIsWhiteSpace := Characters.scan pData }

/-- `Comment` (src/Comment.h). -/
structure Comment where
  m_pText : Str
deriving DecidableEq, Repr

/-- `ProcessingInstruction` (src/ProcessingInstruction.h). -/
structure ProcessingInstruction where
  m_pTarget : Str
  m_pData : Str
deriving DecidableEq, Repr

/-- `XMLEvent` (src/XMLEvent.h): five payload pointers, `none` for `nullptr`. -/
structure XMLEvent where
  m_pStartElement : Option StartElement
  m_pEndElement : Option EndElement
  m_pCharacters : Option Characters
  m_pComment : Option Comment
  m_pProcessingInstruction : Option ProcessingInstruction
deriving DecidableEq, Repr

/-- What the source throws: `std::runtime_error`, `std::logic_error` and
`std::invalid_argument`, each with its message (a message the source builds from the
offending byte is given by its fixed part). -/
inductive Exception where
  | runtime_error (what : String)
  | logic_error (what : String)
  | invalid_argument (what : String)
deriving DecidableEq, Repr

/-- The event the reader builds around a `StartElement`. -/
def XMLEvent.ofStartElement (e : StartElement) : XMLEvent :=
  ⟨some e, none, none, none, none⟩

/-- The event the reader builds around an `EndElement`. -/
def XMLEvent.ofEndElement (e : EndElement) : XMLEvent :=
  ⟨none, some e, none, none, none⟩

/-- The event the reader builds around `Characters`. -/
def XMLEvent.ofCharacters (e : Characters) : XMLEvent :=
  ⟨none, none, some e, none, none⟩

/-- The event the reader builds around a `Comment`. -/
def XMLEvent.ofComment (e : Comment) : XMLEvent :=
  ⟨none, none, none, some e, none⟩

/-- The event the reader builds around a `ProcessingInstruction`. -/
def XMLEvent.ofProcessingInstruction (e : ProcessingInstruction) : XMLEvent :=
  ⟨none, none, none, none, some e⟩

/-- The constructor `Characters::Characters(std::unique_ptr<std::string>)`: a null
pointer is refused. -/
def Characters.ofPointer (pData : Option Str) : Except Exception Characters :=
  match pData with
  | none => .error (.invalid_argument "Nullptr passed.")
  | some strData => .ok (Characters.new strData)

/-- `Characters::getData`. -/
def Characters.getData (e : Characters) : Str := e.m_pData

/-- `Characters::isWhiteSpace`. -/
def Characters.isWhiteSpace (e : Characters) : Bool := e.m_bIsWhiteSpace

/-- The constructor `Attribute::Attribute`: both pointers have to be set. -/
def Attribute.new (pName : Option QName) (pValue : Option Str) : Except Exception Attribute :=
  match pName with
  | none => .error (.invalid_argument "Nullptr passed.")
  | some aName =>
    match pValue with
    | none => .error (.invalid_argument "Nullptr passed.")
    | some strValue => .ok ⟨aName, strValue⟩

/-- `Attribute::getName`. -/
def Attribute.getName (a : Attribute) : QName := a.m_pName

/-- `Attribute::getValue`. -/
def Attribute.getValue (a : Attribute) : Str := a.m_pValue

/-- The constructor `StartElement::StartElement`: the name has to be set; of the list,
which may be a null pointer, the entries that are set are taken over in their order. -/
def StartElement.new (pName : Option QName) (pAttributes : Option (List (Option Attribute))) :
    Except Exception StartElement :=
  match pName with
  | none => .error (.invalid_argument "Nullptr passed.")
  | some aName =>
    match pAttributes with
    | none => .ok ⟨aName, []⟩
    | some aList => .ok ⟨aName, aList.filterMap id⟩

/-- `StartElement::getAttributes`. -/
def StartElement.getAttributes (e : StartElement) : List Attribute := e.m_pAttributes

/-- `StartElement::getName`. -/
def StartElement.getName (e : StartElement) : QName := e.m_pName

/-- The counter `nPointerCount` of the `XMLEvent` constructor: one step per pointer
that is set. -/
def XMLEvent.pointerCount (e : XMLEvent) : Nat :=
  (if e.m_pStartElement.isSome then 1 else 0) +
  (if e.m_pEndElement.isSome then 1 else 0) +
  (if e.m_pCharacters.isSome then 1 else 0) +
  (if e.m_pComment.isSome then 1 else 0) +
  (if e.m_pProcessingInstruction.isSome then 1 else 0)

/-- The constructor `XMLEvent::XMLEvent` with its five pointers. -/
def XMLEvent.new (pStartElement : Option StartElement) (pEndElement : Option EndElement)
    (pCharacters : Option Characters) (pComment : Option Comment)
    (pProcessingInstruction : Option ProcessingInstruction) : Except Exception XMLEvent :=
  if XMLEvent.pointerCount
      ⟨pStartElement, pEndElement, pCharacters, pComment, pProcessingInstruction⟩ ≠ 1 then
    .error (.invalid_argument "XMLEvent constructor expects exactly 1 parameter to be set.")
  else .ok ⟨pStartElement, pEndElement, pCharacters, pComment, pProcessingInstruction⟩

/-- `XMLEvent::isStartElement`. -/
def XMLEvent.isStartElement (e : XMLEvent) : Bool := e.m_pStartElement.isSome

/-- `XMLEvent::asStartElement`. -/
def XMLEvent.asStartElement (e : XMLEvent) : Except Exception StartElement :=
  match e.m_pStartElement with
  | none => .error (.logic_error "Isn't a StartElement.")
  | some x => .ok x

/-- `XMLEvent::isEndElement`. -/
def XMLEvent.isEndElement (e : XMLEvent) : Bool := e.m_pEndElement.isSome

/-- `XMLEvent::asEndElement`. -/
def XMLEvent.asEndElement (e : XMLEvent) : Except Exception EndElement :=
  match e.m_pEndElement with
  | none => .error (.logic_error "Isn't an EndElement.")
  | some x => .ok x

/-- `XMLEvent::isCharacters`. -/
def XMLEvent.isCharacters (e : XMLEvent) : Bool := e.m_pCharacters.isSome

/-- `XMLEvent::asCharacters`. -/
def XMLEvent.asCharacters (e : XMLEvent) : Except Exception Characters :=
  match e.m_pCharacters with
  | none => .error (.logic_error "Isn't Characters.")
  | some x => .ok x

/-- `XMLEvent::isComment`. -/
def XMLEvent.isComment (e : XMLEvent) : Bool := e.m_pComment.isSome

/-- `XMLEvent::asComment`. -/
def XMLEvent.asComment (e : XMLEvent) : Except Exception Comment :=
  match e.m_pComment with
  | none => .error (.logic_error "Isn't Comment.")
  | some x => .ok x

/-- `XMLEvent::isProcessingInstruction`. -/
def XMLEvent.isProcessingInstruction (e : XMLEvent) : Bool := e.m_pProcessingInstruction.isSome

/-- `XMLEvent::asProcessingInstruction`. -/
def XMLEvent.asProcessingInstruction (e : XMLEvent) : Except Exception ProcessingInstruction :=
  match e.m_pProcessingInstruction with
  | none => .error (.logic_error "Isn't ProcessingInstruction.")
  | some x => .ok x

/-! ## The stream -/

/-- The `std::istream` the reader borrows. `before` holds the bytes in front of the get
position, nearest first; `after` the bytes from the get position on. `eof` stands for
`eofbit` and `failbit` together: the reader only ever leaves the stream good or failed
by a read at the end. `badbit` is never set on a byte string and its checks are left
out. -/
structure IStream where
  before : Str
  after : Str
  eof : Bool
deriving DecidableEq, Repr

/-- A stream over `data`, positioned at its start. -/
def IStream.ofData (data : Str) : IStream :=
  { before := [], after := data, eof := false }

/-- The whole byte string behind the stream. -/
def IStream.data (s : IStream) : Str := s.before.reverse ++ s.after

/-- `tellg()` on a stream that has not failed. -/
def IStream.tellg (s : IStream) : Nat := s.before.length

/-- `get(c)`: the next byte, or none and the error flag when the stream has failed or
is at its end. -/
def IStream.get (s : IStream) : Option Char × IStream :=
  if s.eof then (none, s)
  else
    match s.after with
    | [] => (none, { s with eof := true })
    | c :: rest => (some c, { s with before := c :: s.before, after := rest })

/-- `unget()`: one byte backwards. The source calls it only right after a `get` that
delivered a byte; on a failed stream, and at position 0, it does not move the
position. -/
def IStream.unget (s : IStream) : IStream :=
  if s.eof then s
  else
    match s.before with
    | [] => s
    | c :: rest => { s with before := rest, after := c :: s.after }

/-- `seekg(0, std::ios_base::end)` after `clear()`: the get position moves behind the
last byte and the error flag is clear. -/
def IStream.seekEnd (s : IStream) : IStream :=
  { before := s.after.reverse ++ s.before, after := [], eof := false }

/-! ## The reader -/

/-- `std::map<std::string, std::string>::find`: the replacement stored under a key. -/
def mapFind (m : List (Str × Str)) (key : Str) : Option Str :=
  match m with
  | [] => none
  | (k, v) :: rest => if k = key then some v else mapFind rest key

/-- The assignment `m[key] = value` of `std::map`: replaces the entry of an existing key
and adds an entry for a new one. -/
def mapAssign (m : List (Str × Str)) (key value : Str) : List (Str × Str) :=
  match m with
  | [] => [(key, value)]
  | (k, v) :: rest => if k = key then (k, value) :: rest else (k, v) :: mapAssign rest key value

/-- The members of `XMLEventReader` (src/XMLEventReader.h). The queue `m_aEvents` has
its front at the head of the list. -/
structure XMLEventReader where
  m_aStream : IStream
  m_bHasNextCalled : Bool
  m_bHasPreviousCalled : Bool
  m_aEvents : List XMLEvent
  m_bEventsAreForwardDirection : Bool
  m_aEntityReplacementDictionary : List (Str × Str)
  m_aREntityReplacementDictionary : List (Str × Str)
deriving DecidableEq, Repr

/-- The constructor `XMLEventReader::XMLEventReader(std::istream&)`. -/
def XMLEventReader.new (aStream : IStream) : XMLEventReader :=
  { m_aStream := aStream
    m_bHasNextCalled := false
    m_bHasPreviousCalled := false
    m_aEvents := []
    m_bEventsAreForwardDirection := true
    m_aEntityReplacementDictionary :=
      [("amp".toList, "&".toList), ("lt".toList, "<".toList), ("gt".toList, ">".toList),
       ("apos".toList, ['\'']), ("quot".toList, ['"'])]
    m_aREntityReplacementDictionary :=
      [("pma".toList, "&".toList), ("tl".toList, "<".toList), ("tg".toList, ">".toList),
       ("sopa".toList, ['\'']), ("touq".toList, ['"'])] }

/-- The outcome of a member function: it returns a value, or throws, in both cases
leaving a reader state; `exhausted` marks a loop that ran out of its step budget. -/
inductive Result (α : Type) where
  | ok (a : α) (r : XMLEventReader)
  | throw (e : Exception) (r : XMLEventReader)
  | exhausted
deriving DecidableEq, Repr

/-- Sequencing: continue with the value and state of a call that returned, pass a
throw on. -/
def Result.bind {α β : Type} (x : Result α) (f : α → XMLEventReader → Result β) : Result β :=
  match x with
  | .ok a r => f a r
  | .throw e r => .throw e r
  | .exhausted => .exhausted

/-- The reader with its stream replaced. -/
def XMLEventReader.setStream (r : XMLEventReader) (s : IStream) : XMLEventReader :=
  { r with m_aStream := s }

/-- `m_aEvents.push(...)`: the event joins the back of the queue. -/
def XMLEventReader.push (r : XMLEventReader) (e : XMLEvent) : XMLEventReader :=
  { r with m_aEvents := r.m_aEvents ++ [e] }

/-- `m_aStream.get(cByte)` on the reader. -/
def XMLEventReader.get (r : XMLEventReader) : Option Char × XMLEventReader :=
  ((r.m_aStream.get).1, r.setStream (r.m_aStream.get).2)

/-- `m_aStream.unget()` on the reader. -/
def XMLEventReader.unget (r : XMLEventReader) : XMLEventReader :=
  r.setStream r.m_aStream.unget

/-- The step budget of a forward loop: one more than the bytes left to read. -/
def XMLEventReader.budget (r : XMLEventReader) : Nat :=
  r.m_aStream.after.length + 1

/-- The `std::runtime_error` a handler throws. -/
def malformed {α : Type} (what : String) (r : XMLEventReader) : Result α :=
  .throw (.runtime_error what) r

/-! ## Forward direction -/

/-- The loop of `ConsumeWhitespace`. -/
def ConsumeWhitespaceLoop : Nat → XMLEventReader → Result Char
  | 0, _ => .exhausted
  | n + 1, r =>
    match r.get with
    | (none, r) => .ok '\x00' r
    | (some cByte, r) =>
      if isspace cByte = false then .ok cByte r
      else ConsumeWhitespaceLoop n r

/-- `XMLEventReader::ConsumeWhitespace`: the first byte that is not whitespace, or
`\0` at the end of the stream. -/
def ConsumeWhitespace (r : XMLEventReader) : Result Char :=
  ConsumeWhitespaceLoop r.budget r

/-- The `do` loop of `ResolveEntity`, which collects the entity name up to `;`. -/
def ResolveEntityLoop : Nat → Str → XMLEventReader → Result Str
  | 0, _, _ => .exhausted
  | n + 1, pEntityName, r =>
    match r.get with
    | (none, r) => malformed "Entity incomplete." r
    | (some cByte, r) =>
      if cByte = ';' then .ok pEntityName r
      else ResolveEntityLoop n (pEntityName ++ [cByte]) r

/-- `XMLEventReader::ResolveEntity`, called after `&` was read: the replacement text of
the entity named up to the next `;`. -/
def ResolveEntity (r : XMLEventReader) : Result Str :=
  match r.get with
  | (none, r) => malformed "Entity incomplete." r
  | (some cByte, r) =>
    if cByte = ';' then malformed "Entity has no name." r
    else
      (ResolveEntityLoop r.budget [cByte] r).bind fun pEntityName r =>
        match mapFind r.m_aEntityReplacementDictionary pEntityName with
        | some strReplacement => .ok strReplacement r
        | none => malformed "Unable to resolve entity." r

/-- The `do` loop of `HandleAttributeValue`. -/
def HandleAttributeValueLoop : Nat → Char → Str → XMLEventReader → Result Str
  | 0, _, _, _ => .exhausted
  | n + 1, cDelimiter, pValue, r =>
    match r.get with
    | (none, r) => malformed "Attribute value incomplete." r
    | (some cByte, r) =>
      if cByte = cDelimiter then .ok pValue r
      else if cByte = '&' then
        (ResolveEntity r).bind fun pResolvedText r =>
          HandleAttributeValueLoop n cDelimiter (pValue ++ pResolvedText) r
      else HandleAttributeValueLoop n cDelimiter (pValue ++ [cByte]) r

/-- `XMLEventReader::HandleAttributeValue`: the value between two equal delimiters,
with entities replaced. -/
def HandleAttributeValue (r : XMLEventReader) : Result Str :=
  (ConsumeWhitespace r).bind fun cDelimiter r =>
    if cDelimiter = '\x00' then malformed "Attribute is missing its value." r
    else if cDelimiter ≠ '\'' ∧ cDelimiter ≠ '"' then
      malformed "Attribute value doesn't start with a delimiter." r
    else HandleAttributeValueLoop r.budget cDelimiter [] r

/-- The `do` loop of `HandleAttributeName`; `pNamePrefix` is `none` while the pointer
is null. -/
def HandleAttributeNameLoop : Nat → Option Str → Str → XMLEventReader → Result QName
  | 0, _, _, _ => .exhausted
  | n + 1, pNamePrefix, pNameLocalPart, r =>
    match r.get with
    | (none, r) => malformed "Attribute name incomplete." r
    | (some cByte, r) =>
      if cByte = ':' then
        match pNamePrefix with
        | some _ => malformed "There can't be two prefixes in attribute name." r
        | none => HandleAttributeNameLoop n (some pNameLocalPart) [] r
      else if isspace cByte then
        (ConsumeWhitespace r).bind fun cByte r =>
          if cByte = '\x00' then malformed "Attribute incomplete." r
          else if cByte ≠ '=' then malformed "Attribute name is malformed." r
          else HandleAttributeNameLoop n pNamePrefix pNameLocalPart r.unget
      else if cByte = '=' then
        .ok (QName.mk [] pNameLocalPart (pNamePrefix.getD [])) r
      else if isalnum cByte ∨ cByte = '-' ∨ cByte = '_' ∨ cByte = '.' then
        HandleAttributeNameLoop n pNamePrefix (pNameLocalPart ++ [cByte]) r
      else malformed "Character not supported in an attribute name." r

/-- `XMLEventReader::HandleAttributeName`: the attribute name up to `=`. -/
def HandleAttributeName (cFirstByte : Char) (r : XMLEventReader) : Result QName :=
  if isalnum cFirstByte ∨ cFirstByte = '_' then
    HandleAttributeNameLoop r.budget none [cFirstByte] r
  else malformed "Character not supported as first character of an attribute name." r

/-- The `do` loop of `HandleAttributes`, entered after the first attribute. -/
def HandleAttributesLoop : Nat → List Attribute → XMLEventReader → Result (List Attribute)
  | 0, _, _ => .exhausted
  | n + 1, pAttributes, r =>
    match r.get with
    | (none, r) => malformed "Tag start incomplete." r
    | (some cByte, r) =>
      if cByte = '>' then .ok pAttributes r.unget
      else if cByte = '/' then
        match r.get with
        | (none, r) => malformed "Tag start incomplete." r
        | (some cByte, r) =>
          if cByte ≠ '>' then malformed "Empty start + end tag end without closing '>'." r
          else .ok pAttributes r.unget.unget
      else if isspace cByte then HandleAttributesLoop n pAttributes r
      else
        (HandleAttributeName cByte r).bind fun pAttributeName r =>
          (HandleAttributeValue r).bind fun pAttributeValue r =>
            HandleAttributesLoop n (pAttributes ++ [Attribute.mk pAttributeName pAttributeValue]) r

/-- `XMLEventReader::HandleAttributes`: the attributes of a start tag from the first
byte of the first name, stopping in front of `>` or `/>`. -/
def HandleAttributes (cFirstByte : Char) (pAttributes : List Attribute) (r : XMLEventReader) :
    Result (List Attribute) :=
  (HandleAttributeName cFirstByte r).bind fun pAttributeName r =>
    (HandleAttributeValue r).bind fun pAttributeValue r =>
      HandleAttributesLoop r.budget (pAttributes ++ [Attribute.mk pAttributeName pAttributeValue]) r

/-- The inner `while (true)` loop of `HandleTagStart`, entered after whitespace. -/
def HandleTagStartSpace : Nat → List Attribute → XMLEventReader → Result (List Attribute)
  | 0, _, _ => .exhausted
  | n + 1, pAttributes, r =>
    match r.get with
    | (none, r) => malformed "Tag start incomplete." r
    | (some cByte, r) =>
      if cByte = '>' then .ok pAttributes r
      else if isspace cByte then HandleTagStartSpace n pAttributes r
      else if cByte = '/' then .ok pAttributes r.unget
      else HandleAttributes cByte pAttributes r

/-- The event queued for a start tag. -/
def startEvent (pNamePrefix : Option Str) (pNameLocalPart : Str) (pAttributes : List Attribute) :
    XMLEvent :=
  XMLEvent.ofStartElement ⟨QName.mk [] pNameLocalPart (pNamePrefix.getD []), pAttributes⟩

/-- The event queued for an end tag. -/
def endEvent (pNamePrefix : Option Str) (pNameLocalPart : Str) : XMLEvent :=
  XMLEvent.ofEndElement ⟨QName.mk [] pNameLocalPart (pNamePrefix.getD [])⟩

/-- The outer `do` loop of `HandleTagStart`: one round per byte `cByte` already read. -/
def HandleTagStartLoop :
    Nat → Char → Option Str → Str → List Attribute → XMLEventReader → Result Bool
  | 0, _, _, _, _, _ => .exhausted
  | n + 1, cByte, pNamePrefix, pNameLocalPart, pAttributes, r =>
    if cByte = ':' then
      match pNamePrefix with
      | some _ => malformed "There can't be two prefixes in element name." r
      | none =>
        match r.get with
        | (none, r) => malformed "Tag start incomplete." r
        | (some cByte, r) => HandleTagStartLoop n cByte (some pNameLocalPart) [] pAttributes r
    else if cByte = '>' then
      .ok true (r.push (startEvent pNamePrefix pNameLocalPart pAttributes))
    else if cByte = '/' then
      match r.get with
      | (none, r) => malformed "Tag start incomplete." r
      | (some cByte, r) =>
        if cByte ≠ '>' then malformed "Empty start + end tag end without closing '>'." r
        else
          .ok true ((r.push (startEvent pNamePrefix pNameLocalPart pAttributes)).push
            (endEvent pNamePrefix pNameLocalPart))
    else if isspace cByte then
      if pNameLocalPart.length ≤ 0 then malformed "Start tag name begins with whitespace." r
      else
        (HandleTagStartSpace r.budget pAttributes r).bind fun pAttributes r =>
          match r.get with
          | (none, r) => malformed "Tag start incomplete." r
          | (some cByte, r) => HandleTagStartLoop n cByte pNamePrefix pNameLocalPart pAttributes r
    else if isalnum cByte ∨ cByte = '-' ∨ cByte = '_' ∨ cByte = '.' then
      match r.get with
      | (none, r) => malformed "Tag start incomplete." r
      | (some cByte', r) =>
        HandleTagStartLoop n cByte' pNamePrefix (pNameLocalPart ++ [cByte]) pAttributes r
    else malformed "Character not supported in a start tag name." r

/-- `XMLEventReader::HandleTagStart`, called with the first byte of the name. -/
def HandleTagStart (cFirstByte : Char) (r : XMLEventReader) : Result Bool :=
  match r.get with
  | (none, r) => malformed "Tag start incomplete." r
  | (some cByte, r) => HandleTagStartLoop r.budget cByte none [cFirstByte] [] r

/-- The `do` loop of `HandleTagEnd`: one round per byte `cByte` already read. -/
def HandleTagEndLoop : Nat → Char → Option Str → Str → XMLEventReader → Result Bool
  | 0, _, _, _, _ => .exhausted
  | n + 1, cByte, pNamePrefix, pNameLocalPart, r =>
    if cByte = ':' then
      match pNamePrefix with
      | some _ => malformed "There can't be two prefixes in the element name." r
      | none =>
        match r.get with
        | (none, r) => malformed "End tag incomplete." r
        | (some cByte, r) => HandleTagEndLoop n cByte (some pNameLocalPart) [] r
    else if cByte = '>' then
      .ok true (r.push (endEvent pNamePrefix pNameLocalPart))
    else if isalnum cByte ∨ cByte = '-' ∨ cByte = '_' ∨ cByte = '.' then
      match r.get with
      | (none, r) => malformed "End tag incomplete." r
      | (some cByte', r) => HandleTagEndLoop n cByte' pNamePrefix (pNameLocalPart ++ [cByte]) r
    else malformed "Character not supported in an end tag name." r

/-- `XMLEventReader::HandleTagEnd`, called after `</`. -/
def HandleTagEnd (r : XMLEventReader) : Result Bool :=
  match r.get with
  | (none, r) => malformed "Tag end incomplete." r
  | (some cByte, r) => HandleTagEndLoop r.budget cByte none [] r

/-- The event queued for character data. -/
def charactersEvent (pData : Str) : XMLEvent :=
  XMLEvent.ofCharacters (Characters.new pData)

/-- The `while (true)` loop of `HandleText`. -/
def HandleTextLoop : Nat → Str → XMLEventReader → Result Bool
  | 0, _, _ => .exhausted
  | n + 1, pData, r =>
    match r.get with
    | (none, r) => .ok true (r.push (charactersEvent pData))
    | (some cByte, r) =>
      if cByte = '<' then .ok true (r.unget.push (charactersEvent pData))
      else if cByte = '&' then
        (ResolveEntity r).bind fun pResolvedText r => HandleTextLoop n (pData ++ pResolvedText) r
      else HandleTextLoop n (pData ++ [cByte]) r

/-- `XMLEventReader::HandleText`, called with the first byte of the character data. -/
def HandleText (cFirstByte : Char) (r : XMLEventReader) : Result Bool :=
  if cFirstByte = '&' then
    (ResolveEntity r).bind fun pResolvedText r => HandleTextLoop r.budget pResolvedText r
  else HandleTextLoop r.budget [cFirstByte] r

/-- The loop of `HandleProcessingInstructionTarget`; the result is `pTarget`, `none`
while the pointer is null. -/
def HandleProcessingInstructionTargetLoop :
    Nat → Nat → Option Str → XMLEventReader → Result (Option Str)
  | 0, _, _, _ => .exhausted
  | n + 1, nMatchCount, pName, r =>
    if nMatchCount < 2 then
      match r.get with
      | (none, r) => malformed "Processing instruction target name incomplete." r
      | (some cByte, r) =>
        if cByte = '?' ∧ nMatchCount ≤ 0 then
          HandleProcessingInstructionTargetLoop n (nMatchCount + 1) pName r
        else if cByte = '>' ∧ nMatchCount ≤ 1 then
          malformed
            "Processing instruction ended before processing instruction target name could be read."
            r
        else if isspace cByte then
          match pName with
          | none => malformed "Processing instruction without target name." r
          | some strName => .ok (some strName) r
        else if nMatchCount > 0 then
          malformed "Processing instruction target name interrupted by '?'." r
        else
          match pName with
          | none =>
            if isalpha cByte ≠ true then
              malformed
                "Character not supported as first character of an processing instruction target name."
                r
            else HandleProcessingInstructionTargetLoop n nMatchCount (some [cByte]) r
          | some strName =>
            HandleProcessingInstructionTargetLoop n nMatchCount (some (strName ++ [cByte])) r
    else .ok none r

/-- `XMLEventReader::HandleProcessingInstructionTarget`, called after `<?`. -/
def HandleProcessingInstructionTarget (r : XMLEventReader) : Result (Option Str) :=
  HandleProcessingInstructionTargetLoop r.budget 0 none r

/-- The loop of `HandleProcessingInstruction` that consumes an XML declaration. -/
def HandleXmlDeclarationLoop : Nat → Nat → XMLEventReader → Result Bool
  | 0, _, _ => .exhausted
  | n + 1, nMatchCount, r =>
    if nMatchCount < 2 then
      match r.get with
      | (none, r) => malformed "XML declaration incomplete." r
      | (some cByte, r) =>
        if cByte = '?' ∧ nMatchCount ≤ 0 then HandleXmlDeclarationLoop n (nMatchCount + 1) r
        else if cByte = '>' ∧ nMatchCount ≤ 1 then .ok false r
        else HandleXmlDeclarationLoop n nMatchCount r
    else .ok false r

/-- The loop of `HandleProcessingInstruction` that collects the data. -/
def HandleProcessingInstructionLoop : Nat → Nat → Str → Str → XMLEventReader → Result Bool
  | 0, _, _, _, _ => .exhausted
  | n + 1, nMatchCount, pTarget, pData, r =>
    if nMatchCount < 2 then
      match r.get with
      | (none, r) => malformed "Processing instruction data incomplete." r
      | (some cByte, r) =>
        if cByte = '?' ∧ nMatchCount ≤ 0 then
          HandleProcessingInstructionLoop n (nMatchCount + 1) pTarget pData r
        else if cByte = '>' ∧ nMatchCount ≤ 1 then
          .ok true (r.push (XMLEvent.ofProcessingInstruction ⟨pTarget, pData⟩))
        else
          HandleProcessingInstructionLoop n 0 pTarget
            ((if nMatchCount > 0 then pData ++ ['?'] else pData) ++ [cByte]) r
    else .ok false r

/-- The test of `HandleProcessingInstruction` for the target of an XML declaration. -/
def isXmlTarget (pTarget : Str) : Bool :=
  match pTarget with
  | [c0, c1, c2] =>
    (decide (c0 = 'x') || decide (c0 = 'X')) && (decide (c1 = 'm') || decide (c1 = 'M')) &&
    (decide (c2 = 'l') || decide (c2 = 'L'))
  | _ => false

/-- `XMLEventReader::HandleProcessingInstruction`, called after `<?`: `false` when an XML
declaration was consumed, `true` when a processing instruction was queued. -/
def HandleProcessingInstruction (r : XMLEventReader) : Result Bool :=
  (HandleProcessingInstructionTarget r).bind fun pTarget r =>
    match pTarget with
    | none => malformed "Processing instruction without target name." r
    | some strTarget =>
      if isXmlTarget strTarget then HandleXmlDeclarationLoop r.budget 0 r
      else HandleProcessingInstructionLoop r.budget 0 strTarget [] r

/-- The loop of `HandleComment`; `cEndSequence` is `-->`. -/
def HandleCommentLoop : Nat → Nat → Str → XMLEventReader → Result Bool
  | 0, _, _, _ => .exhausted
  | n + 1, nMatchCount, pData, r =>
    match r.get with
    | (none, r) => malformed "Comment incomplete." r
    | (some cByte, r) =>
      if cByte = ['-', '-', '>'].getD nMatchCount '\x00' then
        if nMatchCount + 1 < 3 then HandleCommentLoop n (nMatchCount + 1) pData r
        else .ok true (r.push (XMLEvent.ofComment ⟨pData⟩))
      else if nMatchCount > 0 then
        HandleCommentLoop n 0 (pData ++ ['-', '-', '>'].take nMatchCount ++ [cByte]) r
      else HandleCommentLoop n nMatchCount (pData ++ [cByte]) r

/-- `XMLEventReader::HandleComment`, called after `<!-`. -/
def HandleComment (r : XMLEventReader) : Result Bool :=
  match r.get with
  | (none, r) => malformed "Comment incomplete." r
  | (some cByte, r) =>
    if cByte ≠ '-' then malformed "Comment malformed." r
    else HandleCommentLoop r.budget 0 [] r

/-- `XMLEventReader::HandleMarkupDeclaration`, called after `<!`. -/
def HandleMarkupDeclaration (r : XMLEventReader) : Result Bool :=
  match r.get with
  | (none, r) => malformed "Markup declaration incomplete." r
  | (some cByte, r) =>
    if cByte = '-' then HandleComment r
    else malformed "Markup declaration type not implemented yet." r

/-- `XMLEventReader::HandleTag`, called after `<`. The call of `hasNext()` after a
consumed XML declaration is the argument `hasNextAgain`. -/
def HandleTag (hasNextAgain : XMLEventReader → Result Bool) (r : XMLEventReader) : Result Bool :=
  match r.get with
  | (none, r) => malformed "Tag incomplete." r
  | (some cByte, r) =>
    if cByte = '?' then
      (HandleProcessingInstruction r).bind fun bResult r =>
        if bResult = true then .ok true r
        else hasNextAgain { r with m_bHasNextCalled := false }
    else if cByte = '/' then HandleTagEnd r
    else if cByte = '!' then HandleMarkupDeclaration r
    else if isalpha cByte = true ∨ cByte = '_' then HandleTagStart cByte r
    else malformed "Unknown byte within element." r

/-- The first statement of `hasNext`: after a `hasPrevious` call, or in the backward
direction, the queue is emptied and the direction becomes forward. -/
def XMLEventReader.turnForward (r : XMLEventReader) : XMLEventReader :=
  if r.m_bHasPreviousCalled = true ∨ r.m_bEventsAreForwardDirection ≠ true then
    { r with m_aEvents := [], m_bHasPreviousCalled := false,
             m_bEventsAreForwardDirection := true }
  else r

/-- The body of `XMLEventReader::hasNext`; the budget bounds the calls of `hasNext()`
from `HandleTag`. -/
def hasNextFuel : Nat → XMLEventReader → Result Bool
  | 0, _ => .exhausted
  | n + 1, r =>
    if r.turnForward.m_aEvents.length > 0 then .ok true r.turnForward
    else if r.turnForward.m_bHasNextCalled = true then .ok false r.turnForward
    else
      match ({ r.turnForward with m_bHasNextCalled := true } : XMLEventReader).get with
      | (none, r) => .ok false r
      | (some cByte, r) =>
        if cByte = '<' then HandleTag (hasNextFuel n) r
        else HandleText cByte r

/-- `XMLEventReader::hasNext`. -/
def hasNext (r : XMLEventReader) : Result Bool :=
  hasNextFuel r.budget r

/-- The `std::logic_error` a protocol violation throws. -/
def logicError {α : Type} (what : String) (r : XMLEventReader) : Result α :=
  .throw (.logic_error what) r

/-- The end of `nextEvent` and `previousEvent`: the front of the queue is taken out
and returned. -/
def popEvent (what : String) (r : XMLEventReader) : Result XMLEvent :=
  match r.m_aEvents with
  | [] => logicError what r
  | pEvent :: rest => .ok pEvent { r with m_aEvents := rest }

/-- `XMLEventReader::nextEvent`. -/
def nextEvent (r : XMLEventReader) : Result XMLEvent :=
  if r.m_bHasPreviousCalled = true ∨ r.m_bEventsAreForwardDirection ≠ true then
    logicError
      "Attempted XMLEventReader::nextEvent() without checking XMLEventReader::hasNext() first." r
  else if r.m_aEvents.length ≤ 0 ∧ r.m_bHasNextCalled = false then
    (hasNext r).bind fun bResult r =>
      if bResult ≠ true then
        logicError
          "Attempted XMLEventReader::nextEvent() while there isn't one instead of checking XMLEventReader::hasNext() first."
          r
      else
        popEvent
          "XMLEventReader::nextEvent() while there isn't one, ignoring XMLEventReader::hasNext() == false."
          { r with m_bHasNextCalled := false }
  else
    popEvent
      "XMLEventReader::nextEvent() while there isn't one, ignoring XMLEventReader::hasNext() == false."
      { r with m_bHasNextCalled := false }

/-! ## Backward direction -/

/-- `XMLEventReader::rget` on the stream: a stream flagged at its end is cleared and
positioned behind its last byte; then the byte in front of the get position is
delivered and the position is left on that byte. At position 0 nothing is delivered.
The seeks and the read of the source cannot fail on a byte string. -/
def IStream.rget (s : IStream) : Option Char × IStream :=
  match (if s.eof then s.seekEnd else s).before with
  | [] => (none, if s.eof then s.seekEnd else s)
  | c :: rest =>
    (some c, { before := rest, after := c :: (if s.eof then s.seekEnd else s).after, eof := false })

/-- `XMLEventReader::runget` on the stream: one byte forwards without reading, nothing on
a stream flagged at its end. The source calls it only behind an `rget` that delivered
a byte, where a byte lies behind the get position. -/
def IStream.runget (s : IStream) : IStream :=
  if s.eof then s
  else
    match s.after with
    | [] => s
    | c :: rest => { s with before := c :: s.before, after := rest }

/-- `rget(cByte)` on the reader. -/
def XMLEventReader.rget (r : XMLEventReader) : Option Char × XMLEventReader :=
  ((r.m_aStream.rget).1, r.setStream (r.m_aStream.rget).2)

/-- `runget()` on the reader. -/
def XMLEventReader.runget (r : XMLEventReader) : XMLEventReader :=
  r.setStream r.m_aStream.runget

/-- The step budget of a backward loop: one more than the bytes of the stream. -/
def XMLEventReader.rbudget (r : XMLEventReader) : Nat :=
  r.m_aStream.before.length + r.m_aStream.after.length + 1

/-- The loop of `ConsumeRWhitespace`. -/
def ConsumeRWhitespaceLoop : Nat → XMLEventReader → Result Char
  | 0, _ => .exhausted
  | n + 1, r =>
    match r.rget with
    | (none, r) => .ok '\x00' r
    | (some cByte, r) =>
      if isspace cByte = false then .ok cByte r
      else ConsumeRWhitespaceLoop n r

/-- `XMLEventReader::ConsumeRWhitespace`: reading backwards, the first byte that is not
whitespace, or `\0` at the begin of the stream. -/
def ConsumeRWhitespace (r : XMLEventReader) : Result Char :=
  ConsumeRWhitespaceLoop r.rbudget r

/-- The loop of `ResolveREntity(cDelimiter, pResolvedText)`; `pEntityName` holds the
bytes in the order read, that is the name reversed. -/
def ResolveREntityLoop : Nat → Char → Str → XMLEventReader → Result Str
  | 0, _, _, _ => .exhausted
  | n + 1, cDelimiter, pEntityName, r =>
    match r.rget with
    | (none, r) => .ok (';' :: pEntityName) r
    | (some cByte, r) =>
      if cByte = '&' then
        if pEntityName.length ≤ 0 then malformed "Entity has no name." r
        else
          match mapFind r.m_aREntityReplacementDictionary pEntityName with
          | some strReplacement => .ok strReplacement r
          | none => malformed "Unable to resolve entity." r
      else if cDelimiter ≠ '\x00' ∧ cByte = cDelimiter then .ok (';' :: pEntityName) r.runget
      else if cByte = '>' ∨ cByte = ';' then .ok (';' :: pEntityName) r.runget
      else ResolveREntityLoop n cDelimiter (pEntityName ++ [cByte]) r

/-- `XMLEventReader::ResolveREntity(cDelimiter, pResolvedText)`, called after `;` was
read backwards: the reversed replacement of the entity, or the bytes read with the `;`
in front when no `&` is met. -/
def ResolveREntity (cDelimiter : Char) (r : XMLEventReader) : Result Str :=
  ResolveREntityLoop r.rbudget cDelimiter [] r

/-- The `do` loop of `HandleRAttributeValue`. -/
def HandleRAttributeValueLoop : Nat → Char → Str → XMLEventReader → Result Str
  | 0, _, _, _ => .exhausted
  | n + 1, cDelimiter, pValue, r =>
    match r.rget with
    | (none, r) => malformed "Attribute value incomplete." r
    | (some cByte, r) =>
      if cByte = cDelimiter then
        (ConsumeRWhitespace r).bind fun cByte r =>
          if cByte = '\x00' then malformed "Attribute incomplete." r
          else if cByte ≠ '=' then malformed "Attribute value is malformed." r
          else .ok pValue.reverse r
      else if cByte = ';' then
        (ResolveREntity cDelimiter r).bind fun pResolvedText r =>
          HandleRAttributeValueLoop n cDelimiter (pValue ++ pResolvedText) r
      else HandleRAttributeValueLoop n cDelimiter (pValue ++ [cByte]) r

/-- `XMLEventReader::HandleRAttributeValue`, called after the closing delimiter. -/
def HandleRAttributeValue (cDelimiter : Char) (r : XMLEventReader) : Result Str :=
  HandleRAttributeValueLoop r.rbudget cDelimiter [] r

/-- The loop of `HandleRTagName`; `pNamePrefix` and `pNameLocalPart` hold the bytes in
the order read, and `pNamePrefix` is `none` while the pointer is null. -/
def HandleRTagNameLoop : Nat → Option Str → Str → XMLEventReader → Result QName
  | 0, _, _, _ => .exhausted
  | n + 1, pNamePrefix, pNameLocalPart, r =>
    match r.rget with
    | (none, r) => malformed "Tag name incomplete." r
    | (some cByte, r) =>
      if cByte = '<' ∨ cByte = '/' then
        if isalnum (pNameLocalPart.getLastD '\x00') ≠ true ∧ pNameLocalPart.getLastD '\x00' ≠ '_' then
          malformed "Tag name malformed." r
        else
          match pNamePrefix with
          | none => .ok (QName.mk [] pNameLocalPart.reverse []) r.runget
          | some strPrefix =>
            if strPrefix.reverse.length > 0 ∧ isalnum (strPrefix.reverse.headD '\x00') ≠ true ∧
                strPrefix.reverse.headD '\x00' ≠ '_' then
              malformed "Character not supported as first character of a prefix name." r
            else .ok (QName.mk [] pNameLocalPart.reverse strPrefix.reverse) r.runget
      else if isalnum cByte = true ∨ cByte = '-' ∨ cByte = '_' ∨ cByte = '.' then
        match pNamePrefix with
        | some strPrefix => HandleRTagNameLoop n (some (strPrefix ++ [cByte])) pNameLocalPart r
        | none => HandleRTagNameLoop n none (pNameLocalPart ++ [cByte]) r
      else if cByte = ':' then
        match pNamePrefix with
        | some _ => malformed "There can't be two prefixes in element name." r
        | none => HandleRTagNameLoop n (some []) pNameLocalPart r
      else malformed "Character not supported in element name." r

/-- `XMLEventReader::HandleRTagName`, called with the last byte of the name: the name,
with the get position left behind the `<` or `/` in front of it. -/
def HandleRTagName (cFirstByte : Char) (r : XMLEventReader) : Result QName :=
  if isalnum cFirstByte ≠ true ∧ cFirstByte ≠ '-' ∧ cFirstByte ≠ '_' ∧ cFirstByte ≠ '.' then
    malformed "Unknown byte within element name." r
  else HandleRTagNameLoop r.rbudget none [cFirstByte] r

/-- The `do` loop of `HandleRAttributeName`: one round per byte `cByte` already read. -/
def HandleRAttributeNameLoop : Nat → Char → Option Str → Str → XMLEventReader → Result QName
  | 0, _, _, _, _ => .exhausted
  | n + 1, cByte, pNamePrefix, pNameLocalPart, r =>
    if isspace cByte then
      (ConsumeRWhitespace r).bind fun cByte r =>
        if cByte = '\x00' then malformed "Attribute name incomplete." r
        else
          match pNamePrefix with
          | none =>
            if isalnum (pNameLocalPart.getLastD '\x00') ≠ true ∧
                pNameLocalPart.getLastD '\x00' ≠ '_' then
              malformed "Attribute name malformed." r.runget
            else .ok (QName.mk [] pNameLocalPart.reverse []) r.runget
          | some strPrefix =>
            if strPrefix.reverse.length > 0 ∧ isalnum (strPrefix.reverse.headD '\x00') ≠ true ∧
                strPrefix.reverse.headD '\x00' ≠ '_' then
              malformed "Character not supported as first character of an attribute prefix name."
                r.runget
            else if isalnum (pNameLocalPart.getLastD '\x00') ≠ true ∧
                pNameLocalPart.getLastD '\x00' ≠ '_' then
              malformed "Attribute name malformed." r.runget
            else .ok (QName.mk [] pNameLocalPart.reverse strPrefix.reverse) r.runget
    else if cByte = ':' then
      match pNamePrefix with
      | some _ => malformed "There can't be two prefixes in attribute name." r
      | none =>
        match r.rget with
        | (none, r) => malformed "Attribute name incomplete." r
        | (some cByte, r) => HandleRAttributeNameLoop n cByte (some []) pNameLocalPart r
    else if isalnum cByte = true ∨ cByte = '-' ∨ cByte = '_' ∨ cByte = '.' then
      match r.rget with
      | (none, r) => malformed "Attribute name incomplete." r
      | (some cByte', r) =>
        match pNamePrefix with
        | some strPrefix =>
          HandleRAttributeNameLoop n cByte' (some (strPrefix ++ [cByte])) pNameLocalPart r
        | none => HandleRAttributeNameLoop n cByte' none (pNameLocalPart ++ [cByte]) r
    else malformed "Character not supported in an attribute name." r

/-- `XMLEventReader::HandleRAttributeName`, called after the `=` was read backwards. -/
def HandleRAttributeName (r : XMLEventReader) : Result QName :=
  (ConsumeRWhitespace r).bind fun cByte r =>
    if cByte = '\x00' then malformed "Attribute incomplete." r
    else if cByte = ':' then malformed "Attribute name incomplete." r
    else HandleRAttributeNameLoop r.rbudget cByte none [] r

/-- The `do` loop of `HandleRAttributes`, entered after the last attribute of the tag. -/
def HandleRAttributesLoop : Nat → List Attribute → XMLEventReader → Result (List Attribute)
  | 0, _, _ => .exhausted
  | n + 1, pAttributes, r =>
    match r.rget with
    | (none, r) => malformed "Attributes incomplete." r
    | (some cByte, r) =>
      if isspace cByte then HandleRAttributesLoop n pAttributes r
      else if cByte = '"' ∨ cByte = '\'' then
        (HandleRAttributeValue cByte r).bind fun pAttributeValue r =>
          (HandleRAttributeName r).bind fun pAttributeName r =>
            HandleRAttributesLoop n (pAttributes ++ [Attribute.mk pAttributeName pAttributeValue]) r
      else .ok pAttributes r.runget

/-- `XMLEventReader::HandleRAttributes`, called with the closing delimiter of the last
attribute value: the attributes in the order read, last attribute of the tag first. -/
def HandleRAttributes (cFirstByte : Char) (pAttributes : List Attribute) (r : XMLEventReader) :
    Result (List Attribute) :=
  (HandleRAttributeValue cFirstByte r).bind fun pAttributeValue r =>
    (HandleRAttributeName r).bind fun pAttributeName r =>
      HandleRAttributesLoop r.rbudget (pAttributes ++ [Attribute.mk pAttributeName pAttributeValue]) r

/-- The second half of `HandleRTagStart`: the tag name from its last byte `cByte`, then
the `<` in front of it. -/
def HandleRTagStartName (cByte : Char) (pAttributes : List Attribute) (r : XMLEventReader) :
    Result StartElement :=
  (HandleRTagName cByte r).bind fun pName r =>
    match r.rget with
    | (none, r) => malformed "Start tag incomplete." r
    | (some cByte, r) =>
      if cByte ≠ '<' then malformed "Start tag incomplete." r
      else .ok (StartElement.mk pName pAttributes) r

/-- `XMLEventReader::HandleRTagStart`: the start element whose tag ends in front of
`cByte`, a delimiter of the last attribute value or the last byte of the name. -/
def HandleRTagStart (cByte : Char) (r : XMLEventReader) : Result StartElement :=
  if cByte = '"' ∨ cByte = '\'' then
    (HandleRAttributes cByte [] r).bind fun pAttributes r =>
      match r.rget with
      | (none, r) => malformed "Start tag incomplete." r
      | (some cByte, r) => HandleRTagStartName cByte pAttributes r
  else HandleRTagStartName cByte [] r

/-- `XMLEventReader::HandleRTagStartEnd`, called with the last byte of a tag name: a
start tag without attributes or an end tag. -/
def HandleRTagStartEnd (cFirstByte : Char) (r : XMLEventReader) : Result Bool :=
  (HandleRTagName cFirstByte r).bind fun pName r =>
    match r.rget with
    | (none, r) => malformed "Tag incomplete." r
    | (some cByte, r) =>
      if cByte = '<' then .ok true (r.push (XMLEvent.ofStartElement ⟨pName, []⟩))
      else if cByte = '/' then
        match r.rget with
        | (none, r) => malformed "End tag incomplete." r
        | (some cByte, r) =>
          if cByte ≠ '<' then malformed "End tag incomplete." r
          else .ok true (r.push (XMLEvent.ofEndElement ⟨pName⟩))
      else malformed "Character not supported in a tag." r

/-- The `while (true)` loop of `HandleRText`; `pData` holds the bytes in the order
read. -/
def HandleRTextLoop : Nat → Str → XMLEventReader → Result Bool
  | 0, _, _ => .exhausted
  | n + 1, pData, r =>
    match r.rget with
    | (none, r) => .ok true (r.push (charactersEvent pData.reverse))
    | (some cByte, r) =>
      if cByte = '>' then .ok true (r.runget.push (charactersEvent pData.reverse))
      else if cByte = ';' then
        (ResolveREntity '\x00' r).bind fun pResolvedText r =>
          HandleRTextLoop n (pData ++ pResolvedText) r
      else HandleRTextLoop n (pData ++ [cByte]) r

/-- `XMLEventReader::HandleRText`, called with the last byte of the character data. -/
def HandleRText (cFirstByte : Char) (r : XMLEventReader) : Result Bool :=
  if cFirstByte = ';' then
    (ResolveREntity '\x00' r).bind fun pResolvedText r => HandleRTextLoop r.rbudget pResolvedText r
  else HandleRTextLoop r.rbudget [cFirstByte] r

/-- The loop of `HandleRProcessingInstruction`; `pData` holds the bytes in the order
read. -/
def HandleRProcessingInstructionLoop :
    Nat → Nat → Nat → Nat → Str → XMLEventReader → Result Bool
  | 0, _, _, _, _, _ => .exhausted
  | n + 1, nMatchCount, nTargetCount, nSpaceCount, pData, r =>
    if nMatchCount < 2 then
      match r.rget with
      | (none, r) => malformed "Processing instruction target or data incomplete." r
      | (some cByte, r) =>
        if isspace cByte then
          HandleRProcessingInstructionLoop n nMatchCount 0
            (if nTargetCount > 0 then 1 else nSpaceCount + 1) (pData ++ [cByte]) r
        else if cByte = '?' ∧ nMatchCount ≤ 0 then
          HandleRProcessingInstructionLoop n (nMatchCount + 1) nTargetCount nSpaceCount pData r
        else if cByte = '<' ∧ nMatchCount ≤ 1 then
          if pData.length ≤ 0 then
            malformed
              "Processing instruction ended before processing instruction target name could be read."
              r
          else if nTargetCount ≤ 0 then malformed "Processing instruction without target name." r
          else if isXmlTarget (pData.reverse.take nTargetCount) then .ok false r
          else if isalpha ((pData.reverse.take nTargetCount).headD '\x00') ≠ true then
            malformed
              "Character not supported as first character of an processing instruction target name."
              r
          else
            .ok true (r.push (XMLEvent.ofProcessingInstruction
              ⟨pData.reverse.take nTargetCount, pData.reverse.drop (nTargetCount + nSpaceCount)⟩))
        else if nMatchCount > 0 then
          malformed "Processing instruction target name interrupted by '?'." r
        else
          HandleRProcessingInstructionLoop n 0 (nTargetCount + 1) nSpaceCount (pData ++ [cByte]) r
    else .ok false r

/-- `XMLEventReader::HandleRProcessingInstruction`, called after `?>` was read backwards. -/
def HandleRProcessingInstruction (r : XMLEventReader) : Result Bool :=
  HandleRProcessingInstructionLoop r.rbudget 0 0 0 [] r

/-- The loop of `HandleRComment`; `cEndSequence` is `--!<`. -/
def HandleRCommentLoop : Nat → Nat → Str → XMLEventReader → Result Bool
  | 0, _, _, _ => .exhausted
  | n + 1, nMatchCount, pData, r =>
    match r.rget with
    | (none, r) => malformed "Comment incomplete." r
    | (some cByte, r) =>
      if cByte = ['-', '-', '!', '<'].getD nMatchCount '\x00' then
        if nMatchCount + 1 < 4 then HandleRCommentLoop n (nMatchCount + 1) pData r
        else .ok true (r.push (XMLEvent.ofComment ⟨pData.reverse⟩))
      else if nMatchCount > 0 then
        HandleRCommentLoop n 0 (pData ++ ['-', '-', '!', '<'].take nMatchCount ++ [cByte]) r
      else HandleRCommentLoop n nMatchCount (pData ++ [cByte]) r

/-- `XMLEventReader::HandleRComment`, called after `-->` was read backwards. -/
def HandleRComment (r : XMLEventReader) : Result Bool :=
  HandleRCommentLoop r.rbudget 0 [] r

/-- `XMLEventReader::HandleRTag`, called after `>` was read backwards. The call of
`hasPrevious()` after a consumed XML declaration is the argument `hasPreviousAgain`. -/
def HandleRTag (hasPreviousAgain : XMLEventReader → Result Bool) (r : XMLEventReader) :
    Result Bool :=
  match r.rget with
  | (none, r) => malformed "Tag incomplete." r
  | (some cByte, r) =>
    if cByte = '?' then
      (HandleRProcessingInstruction r).bind fun bResult r =>
        if bResult = true then .ok true r
        else hasPreviousAgain { r with m_bHasPreviousCalled := false }
    else if isspace cByte then
      (ConsumeRWhitespace r).bind fun cByte r =>
        if cByte = '\x00' then malformed "Start tag incomplete." r
        else if cByte ≠ '"' ∧ cByte ≠ '\'' then
          malformed "Attribute value in start element doesn't start with a delimiter." r
        else
          (HandleRTagStart cByte r).bind fun pStartElement r =>
            .ok true (r.push (XMLEvent.ofStartElement pStartElement))
    else if cByte = '/' then
      (ConsumeRWhitespace r).bind fun cByte r =>
        if cByte = '\x00' then malformed "Start tag incomplete." r
        else if cByte ≠ '"' ∧ cByte ≠ '\'' then
          malformed "Attribute value doesn't start with a delimiter." r
        else
          (HandleRTagStart cByte r).bind fun pStartElement r =>
            .ok true ((r.push (XMLEvent.ofEndElement ⟨QName.mk
                pStartElement.m_pName.m_strNamespaceURI pStartElement.m_pName.m_strLocalPart
                pStartElement.m_pName.m_strPrefix⟩)).push
              (XMLEvent.ofStartElement pStartElement))
    else if cByte = '"' ∨ cByte = '\'' then
      (HandleRTagStart cByte r).bind fun pStartElement r =>
        .ok true (r.push (XMLEvent.ofStartElement pStartElement))
    else if cByte = '-' then
      match r.rget with
      | (none, r) => malformed "Tag incomplete." r
      | (some cByte, r) =>
        if cByte = '-' then HandleRComment r
        else HandleRTagStartEnd '-' r.runget
    else HandleRTagStartEnd cByte r

/-- The first statement of `hasPrevious`: after a `hasNext` call, or in the forward
direction, the queue is emptied and the direction becomes backward. -/
def XMLEventReader.turnBackward (r : XMLEventReader) : XMLEventReader :=
  if r.m_bHasNextCalled = true ∨ r.m_bEventsAreForwardDirection = true then
    { r with m_aEvents := [], m_bHasNextCalled := false,
             m_bEventsAreForwardDirection := false }
  else r

/-- The body of `XMLEventReader::hasPrevious`; the budget bounds the calls of
`hasPrevious()` from `HandleRTag`. -/
def hasPreviousFuel : Nat → XMLEventReader → Result Bool
  | 0, _ => .exhausted
  | n + 1, r =>
    if r.turnBackward.m_aEvents.length > 0 then .ok true r.turnBackward
    else if r.turnBackward.m_bHasPreviousCalled = true then .ok false r.turnBackward
    else
      match ({ r.turnBackward with m_bHasPreviousCalled := true } : XMLEventReader).rget with
      | (none, r) => .ok false r
      | (some cByte, r) =>
        if cByte = '>' then HandleRTag (hasPreviousFuel n) r
        else HandleRText cByte r

/-- `XMLEventReader::hasPrevious`. -/
def hasPrevious (r : XMLEventReader) : Result Bool :=
  hasPreviousFuel r.rbudget r

/-- `XMLEventReader::previousEvent`. -/
def previousEvent (r : XMLEventReader) : Result XMLEvent :=
  if r.m_bHasNextCalled = true ∨ r.m_bEventsAreForwardDirection = true then
    logicError
      "Attempted XMLEventReader::previousEvent() without checking XMLEventReader::hasPrevious() first."
      r
  else if r.m_aEvents.length ≤ 0 ∧ r.m_bHasPreviousCalled = false then
    (hasPrevious r).bind fun bResult r =>
      if bResult ≠ true then
        logicError
          "Attempted XMLEventReader::previousEvent() while there isn't one instead of checking XMLEventReader::hasPrevious() first."
          r
      else
        popEvent
          "XMLEventReader::previousEvent() while there isn't one, ignoring XMLEventReader::hasPrevious() == false."
          { r with m_bHasPreviousCalled := false }
  else
    popEvent
      "XMLEventReader::previousEvent() while there isn't one, ignoring XMLEventReader::hasPrevious() == false."
      { r with m_bHasPreviousCalled := false }

/-- `XMLEventReader::addToEntityReplacementDictionary`. -/
def addToEntityReplacementDictionary (strName strReplacementText : Str) (r : XMLEventReader) :
    Result Int :=
  if strName = "amp".toList ∨ strName = "lt".toList ∨ strName = "gt".toList ∨
      strName = "apos".toList ∨ strName = "quot".toList then
    .throw (.invalid_argument "Redefinition of built-in entity.") r
  else
    .ok 0 { r with
      m_aEntityReplacementDictionary :=
        mapAssign r.m_aEntityReplacementDictionary strName strReplacementText
      m_aREntityReplacementDictionary :=
        mapAssign r.m_aREntityReplacementDictionary strName.reverse strReplacementText.reverse }

/-! ## Traversals (src/cpprstax.cpp, `Run`) -/

/-- The first loop of `Run`: `while (pReader->hasNext() == true) pReader->nextEvent();`,
collecting the events handed out. -/
def RunForwardLoop : Nat → List XMLEvent → XMLEventReader → Result (List XMLEvent)
  | 0, _, _ => .exhausted
  | n + 1, aSeen, r =>
    (hasNext r).bind fun bResult r =>
      if bResult = true then
        (nextEvent r).bind fun pEvent r => RunForwardLoop n (aSeen ++ [pEvent]) r
      else .ok aSeen r

/-- A full forward traversal: every round hands out one event, and a stream of `k` unread
bytes holds at most `2 * k` events. -/
def forwardTraversal (r : XMLEventReader) : Result (List XMLEvent) :=
  RunForwardLoop (2 * r.m_aStream.after.length + 2) [] r

/-- The second loop of `Run`: `while (pReader->hasPrevious() == true)` with one
`previousEvent()` per round, collecting the events handed out. -/
def RunBackwardLoop : Nat → List XMLEvent → XMLEventReader → Result (List XMLEvent)
  | 0, _, _ => .exhausted
  | n + 1, aSeen, r =>
    (hasPrevious r).bind fun bResult r =>
      if bResult = true then
        (previousEvent r).bind fun pEvent r => RunBackwardLoop n (aSeen ++ [pEvent]) r
      else .ok aSeen r

/-- A full reverse traversal. -/
def backwardTraversal (r : XMLEventReader) : Result (List XMLEvent) :=
  RunBackwardLoop (2 * (r.m_aStream.before.length + r.m_aStream.after.length) + 2) [] r

/-! ## Vocabulary of the statements -/

/-- A byte the name loops accept inside a name: a letter, a digit, `-`, `_` or `.`. -/
def isNameByte (c : Char) : Bool :=
  isalnum c || decide (c = '-') || decide (c = '_') || decide (c = '.')

/-- An element name of the forward start-tag grammar: the first byte a letter or `_`,
further bytes name bytes, with at most one `:` among them. -/
def validName (n : Str) : Bool :=
  match n with
  | [] => false
  | c :: cs =>
    (isalpha c || decide (c = '_')) && cs.all (fun x => isNameByte x || decide (x = ':')) &&
    decide (cs.count ':' ≤ 1)

/-- The qualified name a tag name stands for: the bytes before the `:` are the prefix,
the bytes behind it the local part; without `:` the whole name is the local part. The
namespace URI is always empty. -/
def qnameOf (n : Str) : QName :=
  if ':' ∈ n then
    { m_strNamespaceURI := [], m_strLocalPart := (n.dropWhile (fun x => x ≠ ':')).drop 1,
      m_strPrefix := n.takeWhile (fun x => x ≠ ':') }
  else { m_strNamespaceURI := [], m_strLocalPart := n, m_strPrefix := [] }

/-- An attribute name of the forward grammar: the first byte a letter, a digit or `_`,
further bytes name bytes, with at most one `:` among them. -/
def validAttributeName (n : Str) : Bool :=
  match n with
  | [] => false
  | c :: cs =>
    (isalnum c || decide (c = '_')) && cs.all (fun x => isNameByte x || decide (x = ':')) &&
    decide (cs.count ':' ≤ 1)

/-- An attribute as it is written in a tag: a blank, the name, `=`, and the value between
two delimiters. -/
structure AttributeText where
  name : Str
  delimiter : Char
  value : Str
deriving DecidableEq, Repr

/-- The bytes of an attribute in a tag. -/
def AttributeText.render (x : AttributeText) : Str :=
  ' ' :: x.name ++ '=' :: x.delimiter :: x.value ++ [x.delimiter]

/-- The attribute the reader makes of it. -/
def AttributeText.attribute (x : AttributeText) : Attribute :=
  ⟨qnameOf x.name, x.value⟩

/-- An attribute the forward reader accepts: a valid name, a quote as delimiter, and a
value free of the delimiter and of `&`. -/
def AttributeText.wellFormed (x : AttributeText) : Bool :=
  validAttributeName x.name && (decide (x.delimiter = '"') || decide (x.delimiter = '\'')) &&
  x.value.all (fun c => decide (c ≠ x.delimiter) && decide (c ≠ '&'))

/-- The bytes of the attributes of a tag. -/
def renderAttributes (l : List AttributeText) : Str :=
  l.flatMap AttributeText.render

/-- An attribute name both directions read alike: a valid attribute name whose local
part is not empty and begins with a letter, a digit or `_`. -/
def reversibleAttributeName (n : Str) : Bool :=
  validAttributeName n &&
  (match (qnameOf n).m_strLocalPart with
   | [] => false
   | c :: _ => isalnum c || decide (c = '_'))

/-- An attribute both directions read alike: a reversible name, a quote as delimiter, and
a value free of the delimiter and of `&`. -/
def AttributeText.reversible (x : AttributeText) : Bool :=
  reversibleAttributeName x.name && (decide (x.delimiter = '"') || decide (x.delimiter = '\'')) &&
  x.value.all (fun c => decide (c ≠ x.delimiter) && decide (c ≠ '&'))

/-- No two hyphens stand next to each other and the last byte is not a hyphen. -/
def hyphensApart : Str → Bool
  | [] => true
  | [c] => decide (c ≠ '-')
  | c :: d :: rest => !(decide (c = '-') && decide (d = '-')) && hyphensApart (d :: rest)

/-- The five entities every reader knows from its construction. -/
inductive Entity where
  | amp
  | lt
  | gt
  | apos
  | quot
deriving DecidableEq, Repr

/-- The name of a built-in entity. -/
def Entity.name : Entity → Str
  | .amp => ['a', 'm', 'p']
  | .lt => ['l', 't']
  | .gt => ['g', 't']
  | .apos => ['a', 'p', 'o', 's']
  | .quot => ['q', 'u', 'o', 't']

/-- The replacement text of a built-in entity. -/
def Entity.replacement : Entity → Str
  | .amp => ['&']
  | .lt => ['<']
  | .gt => ['>']
  | .apos => ['\'']
  | .quot => ['"']

/-- The dictionaries hold the built-in entities, as those of every reader do: the
constructor enters them and `addToEntityReplacementDictionary` refuses their names. -/
def knowsEntities (d rd : List (Str × Str)) : Prop :=
  ∀ e : Entity, mapFind d e.name = some e.replacement ∧
    mapFind rd e.name.reverse = some e.replacement.reverse

/-- A piece of character data as it is written: a byte, or a reference `&name;` to a
built-in entity. -/
inductive TextPiece where
  | byte (c : Char)
  | reference (e : Entity)
deriving DecidableEq, Repr

/-- The bytes of a piece. -/
def TextPiece.render : TextPiece → Str
  | .byte c => [c]
  | .reference e => '&' :: e.name ++ [';']

/-- The character data a piece stands for. -/
def TextPiece.data : TextPiece → Str
  | .byte c => [c]
  | .reference e => e.replacement

/-- The bytes of a run of pieces. -/
def renderText (l : List TextPiece) : Str :=
  l.flatMap TextPiece.render

/-- The character data of a run of pieces. -/
def textData (l : List TextPiece) : Str :=
  l.flatMap TextPiece.data

/-- The bytes among the pieces all have the property `p`. -/
def bytesAll (p : Char → Bool) (l : List TextPiece) : Bool :=
  l.all fun x =>
    match x with
    | .byte c => p c
    | .reference _ => true

/-- The bytes of a run of pieces given in the order read backwards, in that order. -/
def rrenderText (rs : List TextPiece) : Str :=
  rs.flatMap fun p => p.render.reverse

/-- The character data of a run of pieces given in the order read backwards, in that
order. -/
def rtextData (rs : List TextPiece) : Str :=
  rs.flatMap fun p => p.data.reverse

/-- A target of a processing instruction the forward reader accepts: the first byte a
letter, further bytes other than `?`, `>` and whitespace, and not `xml` in any case. -/
def validTarget (pTarget : Str) : Bool :=
  match pTarget with
  | [] => false
  | c :: cs =>
    isalpha c && cs.all (fun x => decide (x ≠ '?') && decide (x ≠ '>') && !isspace x) &&
    !isXmlTarget pTarget

/-- The pieces a document is written from: tags with their attributes, text, comments and
processing instructions. -/
inductive Token where
  | startTag (n : Str) (l : List AttributeText)
  | endTag (n : Str)
  | emptyTag (n : Str) (l : List AttributeText)
  | text (l : List TextPiece)
  | comment (t : Str)
  | processingInstruction (pTarget pData : Str)
deriving DecidableEq, Repr

/-- The bytes of a token: `<n a="v">`, `</n>`, `<n a="v"/>`, the text as written,
`<!--t-->`, or `<?target data?>`. -/
def Token.render : Token → Str
  | .startTag n l => '<' :: n ++ (renderAttributes l ++ ['>'])
  | .endTag n => '<' :: '/' :: n ++ ['>']
  | .emptyTag n l => '<' :: n ++ (renderAttributes l ++ ['/', '>'])
  | .text l => renderText l
  | .comment t => '<' :: '!' :: '-' :: '-' :: (t ++ ['-', '-', '>'])
  | .processingInstruction pTarget pData => '<' :: '?' :: (pTarget ++ ' ' :: (pData ++ ['?', '>']))

/-- The events a token stands for, in document order. -/
def Token.events : Token → List XMLEvent
  | .startTag n l => [XMLEvent.ofStartElement ⟨qnameOf n, l.map AttributeText.attribute⟩]
  | .endTag n => [XMLEvent.ofEndElement ⟨qnameOf n⟩]
  | .emptyTag n l =>
    [XMLEvent.ofStartElement ⟨qnameOf n, l.map AttributeText.attribute⟩,
      XMLEvent.ofEndElement ⟨qnameOf n⟩]
  | .text l => [charactersEvent (textData l)]
  | .comment t => [XMLEvent.ofComment ⟨t⟩]
  | .processingInstruction pTarget pData => [XMLEvent.ofProcessingInstruction ⟨pTarget, pData⟩]

/-- The bytes of a document. -/
def render (doc : List Token) : Str :=
  doc.flatMap Token.render

/-- The events of a document, in document order. -/
def events (doc : List Token) : List XMLEvent :=
  doc.flatMap Token.events

/-- A token is a text run. -/
def Token.isText : Token → Bool
  | .text _ => true
  | _ => false

/-- A token the forward reader accepts: a tag with a valid name and accepted attributes,
where a name with attributes behind it has a local part; a non-empty text whose bytes
are free of `<` and `&`; a comment with its hyphens apart; a processing instruction with
a valid target and data free of `?` and `>`. -/
def Token.wellFormed : Token → Bool
  | .startTag n l =>
    validName n && l.all AttributeText.wellFormed &&
    (l.isEmpty || !(qnameOf n).m_strLocalPart.isEmpty)
  | .endTag n => validName n
  | .emptyTag n l =>
    validName n && l.all AttributeText.wellFormed &&
    (l.isEmpty || !(qnameOf n).m_strLocalPart.isEmpty)
  | .text l => !l.isEmpty && bytesAll (fun c => decide (c ≠ '<') && decide (c ≠ '&')) l
  | .comment t => hyphensApart t
  | .processingInstruction pTarget pData =>
    validTarget pTarget && pData.all (fun c => decide (c ≠ '?') && decide (c ≠ '>'))

/-- Text stands between tags: no two text runs follow each other. -/
def textBetweenTags : List Token → Bool
  | [] => true
  | [_] => true
  | a :: b :: rest => !(a.isText && b.isText) && textBetweenTags (b :: rest)

/-- Proper nesting, checked with the stack of the names of the open elements: an end tag
closes the innermost open element and no element stays open. -/
def properlyNested : List Str → List Token → Bool
  | aOpen, [] => aOpen.isEmpty
  | aOpen, .startTag n _ :: rest => properlyNested (n :: aOpen) rest
  | aOpen, .endTag n :: rest =>
    match aOpen with
    | [] => false
    | m :: aOuter => decide (n = m) && properlyNested aOuter rest
  | aOpen, .emptyTag _ _ :: rest => properlyNested aOpen rest
  | aOpen, .text _ :: rest => properlyNested aOpen rest
  | aOpen, .comment _ :: rest => properlyNested aOpen rest
  | aOpen, .processingInstruction _ _ :: rest => properlyNested aOpen rest

/-- A well-formed document: accepted tokens, text between tags, properly nested. -/
def wellFormedDocument (doc : List Token) : Bool :=
  doc.all Token.wellFormed && textBetweenTags doc && properlyNested [] doc

/-- A balanced event sequence, checked with the stack of the names of the unmatched
start elements: every `EndElement` carries the name of the most recent unmatched
`StartElement`, and no `StartElement` is left unmatched at the end. -/
def balancedEvents : List QName → List XMLEvent → Bool
  | aOpen, [] => aOpen.isEmpty
  | aOpen, e :: rest =>
    match e.m_pStartElement, e.m_pEndElement with
    | some aStart, _ => balancedEvents (aStart.m_pName :: aOpen) rest
    | none, some aEnd =>
      match aOpen with
      | [] => false
      | q :: aOuter => decide (aEnd.m_pName = q) && balancedEvents aOuter rest
    | none, none => balancedEvents aOpen rest

/-- A name both directions read alike: a valid name whose local part is not empty and
begins with a letter, a digit or `_`, and which does not end in `--`. -/
def reversibleName (n : Str) : Bool :=
  validName n &&
  (match (qnameOf n).m_strLocalPart with
   | [] => false
   | c :: _ => isalnum c || decide (c = '_')) &&
  !(['-', '-'].isPrefixOf n.reverse)

/-- The event with the attribute list of its `StartElement`, if it is one, reversed. -/
def XMLEvent.reverseAttributes (e : XMLEvent) : XMLEvent :=
  { e with m_pStartElement :=
      e.m_pStartElement.map fun s => { s with m_pAttributes := s.m_pAttributes.reverse } }

/-- The stream is in one of the two states the reader leaves it in: good, or failed by a
read at its end. -/
def IStream.consistent (s : IStream) : Prop :=
  s.eof = true → s.after = []

/-- The reader states a caller can bring about: construction over a consistent stream,
followed by public calls none of which threw. -/
inductive Reachable : XMLEventReader → Prop where
  | new (aStream : IStream) (h : aStream.consistent) : Reachable (XMLEventReader.new aStream)
  | hasNext {r r' : XMLEventReader} {b : Bool} :
      Reachable r → hasNext r = .ok b r' → Reachable r'
  | nextEvent {r r' : XMLEventReader} {e : XMLEvent} :
      Reachable r → nextEvent r = .ok e r' → Reachable r'
  | hasPrevious {r r' : XMLEventReader} {b : Bool} :
      Reachable r → hasPrevious r = .ok b r' → Reachable r'
  | previousEvent {r r' : XMLEventReader} {e : XMLEvent} :
      Reachable r → previousEvent r = .ok e r' → Reachable r'
  | addToEntityReplacementDictionary {r r' : XMLEventReader} {strName strText : Str} {n : Int} :
      Reachable r → addToEntityReplacementDictionary strName strText r = .ok n r' →
      Reachable r'

/-- What holds of every reachable reader: the stream is consistent; a set has-next latch
goes with the forward direction and a clear has-previous latch, and the other way
round; and a set latch over an empty queue means the stream is at its end, or at its
begin, in the direction of the latch. -/
def ReaderInvariant (r : XMLEventReader) : Prop :=
  r.m_aStream.consistent ∧
  (r.m_bHasNextCalled = true →
    r.m_bEventsAreForwardDirection = true ∧ r.m_bHasPreviousCalled = false) ∧
  (r.m_bHasPreviousCalled = true →
    r.m_bEventsAreForwardDirection = false ∧ r.m_bHasNextCalled = false) ∧
  (r.m_bHasNextCalled = true → r.m_aEvents = [] → r.m_aStream.after = []) ∧
  (r.m_bHasPreviousCalled = true → r.m_aEvents = [] → r.m_aStream.before = [])

/-- What reading leaves alone: the latches, the direction flag, the dictionaries and the
queue stay, the bytes of the stream stay, and a consistent stream stays consistent; only
the get position moves. -/
structure Frame (r r' : XMLEventReader) : Prop where
  hasNextCalled : r'.m_bHasNextCalled = r.m_bHasNextCalled
  hasPreviousCalled : r'.m_bHasPreviousCalled = r.m_bHasPreviousCalled
  direction : r'.m_bEventsAreForwardDirection = r.m_bEventsAreForwardDirection
  dictionary : r'.m_aEntityReplacementDictionary = r.m_aEntityReplacementDictionary
  rdictionary : r'.m_aREntityReplacementDictionary = r.m_aREntityReplacementDictionary
  events : r'.m_aEvents = r.m_aEvents
  data : r.m_aStream.consistent → r'.m_aStream.data = r.m_aStream.data
  consistent : r.m_aStream.consistent → r'.m_aStream.consistent

/-- The events one token adds to the queue: a single event, or the pair of a self-closing
tag, a `StartElement` and an `EndElement` of the same name, the `StartElement` first when
reading forwards and the `EndElement` first when reading backwards. -/
def Emitted (bForward : Bool) (aNew : List XMLEvent) : Prop :=
  (∃ e, aNew = [e]) ∨
  ∃ (q : QName) (l : List Attribute),
    aNew = if bForward = true then
        [XMLEvent.ofStartElement ⟨q, l⟩, XMLEvent.ofEndElement ⟨q⟩]
      else [XMLEvent.ofEndElement ⟨q⟩, XMLEvent.ofStartElement ⟨q, l⟩]

/-- What a handler that queues a token does: it reads, and then adds the events of one
token to the back of the queue. -/
def Produces (bForward : Bool) (r r' : XMLEventReader) : Prop :=
  ∃ (r1 : XMLEventReader) (aNew : List XMLEvent),
    Frame r r1 ∧ Emitted bForward aNew ∧ r' = { r1 with m_aEvents := r1.m_aEvents ++ aNew }

/-- The tail of a round of `HandleTagStartLoop`: the next byte is read and handled. -/
def HandleTagStartNext (n : Nat) (pNamePrefix : Option Str) (pNameLocalPart : Str)
    (pAttributes : List Attribute) (r : XMLEventReader) : Result Bool :=
  match r.get with
  | (none, r) => malformed "Tag start incomplete." r
  | (some cByte, r) => HandleTagStartLoop n cByte pNamePrefix pNameLocalPart pAttributes r

/-- The tail of a round of `HandleTagEndLoop`: the next byte is read and handled. -/
def HandleTagEndNext (n : Nat) (pNamePrefix : Option Str) (pNameLocalPart : Str)
    (r : XMLEventReader) : Result Bool :=
  match r.get with
  | (none, r) => malformed "End tag incomplete." r
  | (some cByte, r) => HandleTagEndLoop n cByte pNamePrefix pNameLocalPart r

/-- The tail of a round of `HandleRAttributeNameLoop`: the byte in front is read and
handled. -/
def HandleRAttributeNameNext (n : Nat) (pNamePrefix : Option Str) (pNameLocalPart : Str)
    (r : XMLEventReader) : Result QName :=
  match r.rget with
  | (none, r) => malformed "Attribute name incomplete." r
  | (some cByte, r) => HandleRAttributeNameLoop n cByte pNamePrefix pNameLocalPart r

/-- The queue holds events of the current direction only: it is what is left of the
queue that one `hasNext` call, when the direction flag is forward, or one `hasPrevious`
call, when it is backward, built up from the empty queue on a reachable reader, and
that queue is what one token yields in that direction. -/
def QueueOfCurrentDirection (r : XMLEventReader) : Prop :=
  ∃ r0 r1 : XMLEventReader, Reachable r0 ∧
    (if r.m_bEventsAreForwardDirection = true then
      r0.turnForward.m_aEvents = [] ∧ hasNext r0 = .ok true r1
    else r0.turnBackward.m_aEvents = [] ∧ hasPrevious r0 = .ok true r1) ∧
    Emitted r.m_bEventsAreForwardDirection r1.m_aEvents ∧
    List.IsSuffix r.m_aEvents r1.m_aEvents

/-- The reader a sequence of registrations leaves behind, each call
`addToEntityReplacementDictionary(name, text)` taken whether it returns or throws. -/
def registerAll : List (Str × Str) → XMLEventReader → XMLEventReader
  | [], r => r
  | (strName, strText) :: rest, r =>
    match addToEntityReplacementDictionary strName strText r with
    | .ok _ r' => registerAll rest r'
    | .throw _ r' => registerAll rest r'
    | .exhausted => r

/-- The entries of the built-in entities as the constructor makes them: the forward
dictionary maps `amp`, `lt`, `gt`, `apos`, `quot` to `&`, `<`, `>`, `'`, `"`, and the
reverse dictionary maps `pma`, `tl`, `tg`, `sopa`, `touq` to the same bytes. -/
def holdsBuiltins (d rd : List (Str × Str)) : Prop :=
  mapFind d ['a', 'm', 'p'] = some ['&'] ∧ mapFind d ['l', 't'] = some ['<'] ∧
  mapFind d ['g', 't'] = some ['>'] ∧ mapFind d ['a', 'p', 'o', 's'] = some ['\''] ∧
  mapFind d ['q', 'u', 'o', 't'] = some ['"'] ∧
  mapFind rd ['p', 'm', 'a'] = some ['&'] ∧ mapFind rd ['t', 'l'] = some ['<'] ∧
  mapFind rd ['t', 'g'] = some ['>'] ∧ mapFind rd ['s', 'o', 'p', 'a'] = some ['\''] ∧
  mapFind rd ['t', 'o', 'u', 'q'] = some ['"']

/-- The two dictionaries hold the same entities: what the forward dictionary maps a name
to, the reverse dictionary maps the reversed name to, reversed. -/
def mirrored (d rd : List (Str × Str)) : Prop :=
  ∀ strName strText : Str, mapFind d strName = some strText →
    mapFind rd strName.reverse = some strText.reverse

/-- A piece of character data or of an attribute value as it is written: a byte, or a
reference `&name;` to the entity of that name. -/
inductive Piece where
  | byte (c : Char)
  | reference (strName : Str)
deriving DecidableEq, Repr

/-- The bytes of a piece. -/
def Piece.render : Piece → Str
  | .byte c => [c]
  | .reference strName => '&' :: strName ++ [';']

/-- What a piece stands for under the dictionary `d`: a byte itself, a reference the
replacement text of its name (nothing when `d` does not hold the name). -/
def Piece.data (d : List (Str × Str)) : Piece → Str
  | .byte c => [c]
  | .reference strName => (mapFind d strName).getD []

/-- The bytes of a run of pieces. -/
def renderPieces (l : List Piece) : Str :=
  l.flatMap Piece.render

/-- What a run of pieces stands for under the dictionary `d`. -/
def dataPieces (d : List (Str × Str)) (l : List Piece) : Str :=
  l.flatMap (Piece.data d)

/-- A piece the forward reader resolves: a byte other than `&` that `p` admits, or a
reference whose name is not empty, has no `;` and is a key of the dictionary `d`. -/
def Piece.resolvable (d : List (Str × Str)) (p : Char → Bool) : Piece → Bool
  | .byte c => p c && decide (c ≠ '&')
  | .reference strName =>
    !strName.isEmpty && strName.all (fun c => decide (c ≠ ';')) && (mapFind d strName).isSome

/-- An attribute as it stands in a tag: the whitespace in front of it, the name, `=`,
and the value, written in pieces, between two delimiters. -/
structure AttributeSource where
  space : Str
  name : Str
  delimiter : Char
  value : List Piece
deriving DecidableEq, Repr

/-- The bytes of an attribute with the whitespace in front of it. -/
def AttributeSource.render (x : AttributeSource) : Str :=
  x.space ++ (x.name ++ '=' :: x.delimiter :: (renderPieces x.value ++ [x.delimiter]))

/-- The attribute it stands for under the dictionary `d`. -/
def AttributeSource.attribute (d : List (Str × Str)) (x : AttributeSource) : Attribute :=
  ⟨qnameOf x.name, dataPieces d x.value⟩

/-- An attribute the forward reader accepts: whitespace in front, at least one byte of
it; a valid attribute name; a quote as delimiter; and a value whose bytes are neither
the delimiter nor `&` and whose references the dictionary `d` resolves. -/
def AttributeSource.accepted (d : List (Str × Str)) (x : AttributeSource) : Bool :=
  !x.space.isEmpty && x.space.all isspace && validAttributeName x.name &&
  (decide (x.delimiter = '"') || decide (x.delimiter = '\'')) &&
  x.value.all (Piece.resolvable d fun c => decide (c ≠ x.delimiter))

/-- The bytes of the attributes of a tag. -/
def renderSources (l : List AttributeSource) : Str :=
  l.flatMap AttributeSource.render

/-- A name without a colon, as a prefix or a local part is one: the first byte a letter
or `_`, further bytes letters, digits, `-`, `_` or `.`. -/
def validNCName (n : Str) : Bool :=
  match n with
  | [] => false
  | c :: cs => (isalpha c || decide (c = '_')) && cs.all isNameByte

/-- An attribute written without entity references, with the whitespace `s` in front of
it. -/
def AttributeText.source (s : Str) (x : AttributeText) : AttributeSource :=
  ⟨s, x.name, x.delimiter, x.value.map Piece.byte⟩

/-- A run of whitespace: at least one byte, all of them whitespace. -/
def isSpaceRun (s : Str) : Bool :=
  !s.isEmpty && s.all isspace

/-- The bytes of attributes written without entity references, each with its whitespace
in front of it. -/
def renderSpaced (l : List (Str × AttributeText)) : Str :=
  l.flatMap fun sx =>
    sx.1 ++ (sx.2.name ++ '=' :: sx.2.delimiter :: (sx.2.value ++ [sx.2.delimiter]))

/-- The offset of the first occurrence of `pat` in a byte string. -/
def firstOccurrence (pat : Str) : Str → Option Nat
  | [] => if pat = [] then some 0 else none
  | c :: s =>
    if pat.isPrefixOf (c :: s) then some 0 else (firstOccurrence pat s).map fun i => i + 1

/-- A piece the backward reader takes for what it stands for, in character data when
`cDelimiter` is `\0` and in an attribute value otherwise: a byte other than `&`, `;` and
the byte the reader stops at, or a reference to an entity both dictionaries know, the
reverse one in mirror writing, with a name that is not empty and holds none of `&`, `;`,
`>` and the delimiter of the value. -/
def Piece.reversible (d rd : List (Str × Str)) (cDelimiter : Char) : Piece → Bool
  | .byte c =>
    decide (c ≠ '&') && decide (c ≠ ';') &&
    (if cDelimiter = '\x00' then decide (c ≠ '>') else decide (c ≠ cDelimiter))
  | .reference strName =>
    !strName.isEmpty &&
    strName.all (fun c => decide (c ≠ '&') && decide (c ≠ ';') && decide (c ≠ '>') &&
      (decide (cDelimiter = '\x00') || decide (c ≠ cDelimiter))) &&
    (mapFind d strName).isSome &&
    decide (mapFind rd strName.reverse = (mapFind d strName).map List.reverse)

/-- An attribute the backward reader accepts as written: whitespace in front, a name
each part of which begins with a letter, a digit or `_`, a quote as delimiter, and a
value of pieces it resolves. -/
def AttributeSource.reversible (d rd : List (Str × Str)) (x : AttributeSource) : Bool :=
  isSpaceRun x.space && reversibleAttributeName x.name &&
  (decide (x.delimiter = '"') || decide (x.delimiter = '\'')) &&
  x.value.all (Piece.reversible d rd x.delimiter)

/-- A tag name the backward reader accepts in front of attributes: a name the forward
reader accepts whose local part begins with a letter, a digit or `_`. -/
def backwardName (n : Str) : Bool :=
  validName n &&
  (match (qnameOf n).m_strLocalPart with
   | [] => false
   | c :: _ => isalnum c || decide (c = '_'))

/-- The reader `r'` is the reader `r` with the bytes `l` read: the get position has
moved forward over `l`, and the queue is as it was. -/
def AdvancesBy (l : Str) (r r' : XMLEventReader) : Prop :=
  r.m_aStream.after = l ++ r'.m_aStream.after ∧
  r'.m_aStream.before = l.reverse ++ r.m_aStream.before ∧
  r'.m_aEvents = r.m_aEvents

/-- The reader `r'` is the reader `r` with some bytes read. -/
def Advances (r r' : XMLEventReader) : Prop :=
  ∃ l, AdvancesBy l r r'

/-- A call on the reader `r` that ends without an event: it returns with the get
position at or behind where it was and the queue as it was, or it throws
`std::runtime_error` with the queue as it was. -/
def Result.Steps {α : Type} (r : XMLEventReader) : Result α → Prop
  | .ok _ r' => Advances r r'
  | .throw e r' => (∃ what, e = .runtime_error what) ∧ r'.m_aEvents = r.m_aEvents
  | .exhausted => False

/-- A call on the reader `r` that throws `std::runtime_error` with the queue as it
was. -/
def Result.Fails {α : Type} (r : XMLEventReader) (x : Result α) : Prop :=
  ∃ what r', x = .throw (.runtime_error what) r' ∧ r'.m_aEvents = r.m_aEvents

/-- None of the bytes left to read is the byte `c`. -/
def XMLEventReader.lacks (r : XMLEventReader) (c : Char) : Prop :=
  ∀ x ∈ r.m_aStream.after, x ≠ c

/-- Two readers that differ at most in the bytes in front of the get position, with the
direction forward and the has-previous latch clear, as `hasNext` has them when it
reads. -/
structure SameAhead (r1 r2 : XMLEventReader) : Prop where
  after : r1.m_aStream.after = r2.m_aStream.after
  eof : r1.m_aStream.eof = r2.m_aStream.eof
  hasNextCalled : r1.m_bHasNextCalled = r2.m_bHasNextCalled
  events : r1.m_aEvents = r2.m_aEvents
  dictionary : r1.m_aEntityReplacementDictionary = r2.m_aEntityReplacementDictionary
  rdictionary : r1.m_aREntityReplacementDictionary = r2.m_aREntityReplacementDictionary
  latch1 : r1.m_bHasPreviousCalled = false
  latch2 : r2.m_bHasPreviousCalled = false
  direction1 : r1.m_bEventsAreForwardDirection = true
  direction2 : r2.m_bEventsAreForwardDirection = true

/-- Two runs of forward reading side by side, one from `r1` to `r1'` and one from `r2`
to `r2'`: both passed the same bytes `l`, which now stand in front of the get position,
and the readers reached differ at most in the bytes in front of the get position. -/
def ReadAlike (r1 r2 r1' r2' : XMLEventReader) : Prop :=
  SameAhead r1' r2' ∧
  ∃ l : Str, r1.m_aStream.after = l ++ r1'.m_aStream.after ∧
    r1'.m_aStream.before = l.reverse ++ r1.m_aStream.before ∧
    r2'.m_aStream.before = l.reverse ++ r2.m_aStream.before

/-- Two outcomes of forward reading side by side: both calls returned the same value, or
both threw the same exception, after passing the same bytes; neither ran out of its
budget. -/
def Result.Alike {α : Type} (r1 r2 : XMLEventReader) : Result α → Result α → Prop
  | .ok v1 r1', .ok v2 r2' => v1 = v2 ∧ ReadAlike r1 r2 r1' r2'
  | .throw e1 r1', .throw e2 r2' => e1 = e2 ∧ ReadAlike r1 r2 r1' r2'
  | _, _ => False

/-- Two readers that differ at most in the bytes from the get position on, with the
stream not flagged at its end, the direction backward and the has-next latch clear, as
`hasPrevious` has them when it reads. -/
structure SameBehind (r1 r2 : XMLEventReader) : Prop where
  before : r1.m_aStream.before = r2.m_aStream.before
  eof1 : r1.m_aStream.eof = false
  eof2 : r2.m_aStream.eof = false
  hasPreviousCalled : r1.m_bHasPreviousCalled = r2.m_bHasPreviousCalled
  events : r1.m_aEvents = r2.m_aEvents
  dictionary : r1.m_aEntityReplacementDictionary = r2.m_aEntityReplacementDictionary
  rdictionary : r1.m_aREntityReplacementDictionary = r2.m_aREntityReplacementDictionary
  latch1 : r1.m_bHasNextCalled = false
  latch2 : r2.m_bHasNextCalled = false
  direction1 : r1.m_bEventsAreForwardDirection = false
  direction2 : r2.m_bEventsAreForwardDirection = false

/-- Two runs of backward reading side by side, one from `r1` to `r1'` and one from `r2`
to `r2'`: both passed the same bytes, `l` in the order read, which now stand behind the
get position, and the readers reached differ at most in the bytes from the get position
of the start on. -/
def RReadAlike (r1 r2 r1' r2' : XMLEventReader) : Prop :=
  SameBehind r1' r2' ∧
  ∃ l : Str, r1.m_aStream.before = l ++ r1'.m_aStream.before ∧
    r1'.m_aStream.after = l.reverse ++ r1.m_aStream.after ∧
    r2'.m_aStream.after = l.reverse ++ r2.m_aStream.after

/-- Two outcomes of backward reading side by side: both calls returned the same value,
or both threw the same exception, after passing the same bytes; neither ran out of its
budget. -/
def Result.RAlike {α : Type} (r1 r2 : XMLEventReader) : Result α → Result α → Prop
  | .ok v1 r1', .ok v2 r2' => v1 = v2 ∧ RReadAlike r1 r2 r1' r2'
  | .throw e1 r1', .throw e2 r2' => e1 = e2 ∧ RReadAlike r1 r2 r1' r2'
  | _, _ => False

/-- `ForwardRuns k r r'`: calls of `hasNext` and `nextEvent` that returned lead from `r`
to `r'`, and `k` of them ran the forward tokenizer with success: they were calls of
`hasNext` that found the queue empty, or emptied it for the change of direction, and
returned `true`. The other calls are those of `hasNext` that found events in the queue or
returned `false`, and those of `nextEvent` on a queue that is not empty. -/
inductive ForwardRuns : Nat → XMLEventReader → XMLEventReader → Prop where
  | done (r : XMLEventReader) : ForwardRuns 0 r r
  | run {k : Nat} {r r1 r2 : XMLEventReader} :
      r.turnForward.m_aEvents = [] → hasNext r = .ok true r1 → ForwardRuns k r1 r2 →
      ForwardRuns (k + 1) r r2
  | call {k : Nat} {r r1 r2 : XMLEventReader} {b : Bool} :
      r.turnForward.m_aEvents ≠ [] ∨ b = false → hasNext r = .ok b r1 → ForwardRuns k r1 r2 →
      ForwardRuns k r r2
  | pop {k : Nat} {r r1 r2 : XMLEventReader} {e : XMLEvent} :
      r.m_aEvents ≠ [] → nextEvent r = .ok e r1 → ForwardRuns k r1 r2 → ForwardRuns k r r2

/-- `BackwardRuns k r r'`: calls of `hasPrevious` and `previousEvent` that returned lead
from `r` to `r'`, and `k` of them ran the backward tokenizer with success: they were calls
of `hasPrevious` that found the queue empty, or emptied it for the change of direction,
and returned `true`. -/
inductive BackwardRuns : Nat → XMLEventReader → XMLEventReader → Prop where
  | done (r : XMLEventReader) : BackwardRuns 0 r r
  | run {k : Nat} {r r1 r2 : XMLEventReader} :
      r.turnBackward.m_aEvents = [] → hasPrevious r = .ok true r1 → BackwardRuns k r1 r2 →
      BackwardRuns (k + 1) r r2
  | call {k : Nat} {r r1 r2 : XMLEventReader} {b : Bool} :
      r.turnBackward.m_aEvents ≠ [] ∨ b = false → hasPrevious r = .ok b r1 →
      BackwardRuns k r1 r2 → BackwardRuns k r r2
  | pop {k : Nat} {r r1 r2 : XMLEventReader} {e : XMLEvent} :
      r.m_aEvents ≠ [] → previousEvent r = .ok e r1 → BackwardRuns k r1 r2 →
      BackwardRuns k r r2

/-- A call leaves the reader `r'` behind: it returned or threw with the reader in that
state. -/
def Result.leaves {α : Type} (x : Result α) (r' : XMLEventReader) : Prop :=
  (∃ a, x = .ok a r') ∨ ∃ e, x = .throw e r'

/-- The reader states a caller can bring about when calls that throw are counted in:
construction over any stream, followed by public calls, each of which returned or
threw. -/
inductive ReachableByCalls : XMLEventReader → Prop where
  | new (aStream : IStream) : ReachableByCalls (XMLEventReader.new aStream)
  | hasNext {r r' : XMLEventReader} :
      ReachableByCalls r → (hasNext r).leaves r' → ReachableByCalls r'
  | nextEvent {r r' : XMLEventReader} :
      ReachableByCalls r → (nextEvent r).leaves r' → ReachableByCalls r'
  | hasPrevious {r r' : XMLEventReader} :
      ReachableByCalls r → (hasPrevious r).leaves r' → ReachableByCalls r'
  | previousEvent {r r' : XMLEventReader} :
      ReachableByCalls r → (previousEvent r).leaves r' → ReachableByCalls r'
  | addToEntityReplacementDictionary {r r' : XMLEventReader} {strName strText : Str} :
      ReachableByCalls r → (addToEntityReplacementDictionary strName strText r).leaves r' →
      ReachableByCalls r'

/-- An attribute as it stands in a tag, with all the whitespace the readers allow: the
whitespace in front of the name, the name, whitespace, `=`, whitespace, and the value,
written in pieces, between two delimiters. -/
structure AttributeWritten where
  space : Str
  name : Str
  spaceBeforeEquals : Str
  spaceAfterEquals : Str
  delimiter : Char
  value : List TextPiece
deriving DecidableEq, Repr

/-- The bytes of an attribute with its whitespace. -/
def AttributeWritten.render (x : AttributeWritten) : Str :=
  x.space ++ (x.name ++ (x.spaceBeforeEquals ++ '=' :: (x.spaceAfterEquals ++
    x.delimiter :: (renderText x.value ++ [x.delimiter]))))

/-- The attribute the reader makes of it. -/
def AttributeWritten.attribute (x : AttributeWritten) : Attribute :=
  ⟨qnameOf x.name, textData x.value⟩

/-- An attribute both directions read alike: at least one byte of whitespace in front; a
name the forward reader accepts whose local part is not empty and begins with a letter, a
digit or `_`; nothing but whitespace on either side of the `=`; a quote as delimiter; and
a value made of bytes other than the delimiter and `&` and of references to the built-in
entities. -/
def AttributeWritten.reversible (x : AttributeWritten) : Bool :=
  isSpaceRun x.space && reversibleAttributeName x.name && x.spaceBeforeEquals.all isspace &&
  x.spaceAfterEquals.all isspace &&
  (decide (x.delimiter = '"') || decide (x.delimiter = '\'')) &&
  bytesAll (fun c => decide (c ≠ x.delimiter) && decide (c ≠ '&')) x.value

/-- The bytes of the attributes of a tag, each with its whitespace. -/
def renderWritten (l : List AttributeWritten) : Str :=
  l.flatMap AttributeWritten.render

/-- A name both directions read alike in an end tag: name bytes with at most one `:`
among them, a local part that is not empty and begins with a letter, a digit or `_`, a
prefix that is empty or begins so, and no `--` at the end. -/
def reversibleEndName (n : Str) : Bool :=
  n.all (fun x => isNameByte x || decide (x = ':')) && decide (n.count ':' ≤ 1) &&
  (match (qnameOf n).m_strLocalPart with
   | [] => false
   | c :: _ => isalnum c || decide (c = '_')) &&
  (match (qnameOf n).m_strPrefix with
   | [] => true
   | c :: _ => isalnum c || decide (c = '_')) &&
  !(['-', '-'].isPrefixOf n.reverse)

/-- The pieces an input is written from, with all the whitespace the readers allow: tags
with their attributes and the whitespace in front of the `>` or `/>`, text, comments,
processing instructions with the whitespace byte that ends the target, and XML
declarations. -/
inductive Lexeme where
  | startTag (n : Str) (l : List AttributeWritten) (space : Str)
  | endTag (n : Str)
  | emptyTag (n : Str) (l : List AttributeWritten) (space : Str)
  | text (l : List TextPiece)
  | comment (t : Str)
  | processingInstruction (pTarget : Str) (cSeparator : Char) (pData : Str)
  | xmlDeclaration (pTarget : Str) (cSeparator : Char) (pBody : Str)
deriving DecidableEq, Repr

/-- The bytes of a lexeme. -/
def Lexeme.render : Lexeme → Str
  | .startTag n l space => '<' :: n ++ (renderWritten l ++ (space ++ ['>']))
  | .endTag n => '<' :: '/' :: n ++ ['>']
  | .emptyTag n l space => '<' :: n ++ (renderWritten l ++ (space ++ ['/', '>']))
  | .text l => renderText l
  | .comment t => '<' :: '!' :: '-' :: '-' :: (t ++ ['-', '-', '>'])
  | .processingInstruction pTarget cSeparator pData =>
    '<' :: '?' :: (pTarget ++ cSeparator :: (pData ++ ['?', '>']))
  | .xmlDeclaration pTarget cSeparator pBody =>
    '<' :: '?' :: (pTarget ++ cSeparator :: (pBody ++ ['?', '>']))

/-- The events a lexeme stands for, in document order; an XML declaration stands for
none. -/
def Lexeme.events : Lexeme → List XMLEvent
  | .startTag n l _ => [XMLEvent.ofStartElement ⟨qnameOf n, l.map AttributeWritten.attribute⟩]
  | .endTag n => [XMLEvent.ofEndElement ⟨qnameOf n⟩]
  | .emptyTag n l _ =>
    [XMLEvent.ofStartElement ⟨qnameOf n, l.map AttributeWritten.attribute⟩,
      XMLEvent.ofEndElement ⟨qnameOf n⟩]
  | .text l => [charactersEvent (textData l)]
  | .comment t => [XMLEvent.ofComment ⟨t⟩]
  | .processingInstruction pTarget _ pData =>
    [XMLEvent.ofProcessingInstruction ⟨pTarget, pData⟩]
  | .xmlDeclaration _ _ _ => []

/-- A lexeme is a text run. -/
def Lexeme.isText : Lexeme → Bool
  | .text _ => true
  | _ => false

/-- A lexeme the forward reader accepts and the backward reader reads alike.
* A start tag without attributes: a name the forward reader accepts whose local part is
  not empty and begins with a letter, a digit or `_` and which does not end in `--`, and
  no whitespace in front of the `>`.
* A start tag with attributes: such a name, which may end in `--`, attributes both
  directions read alike, and any whitespace in front of the `>`.
* A self-closing tag: as a start tag with attributes; it has at least one.
* An end tag: a name of name bytes with at most one `:` whose local part is not empty
  and begins with a letter, a digit or `_`, whose prefix is empty or begins so, and which
  does not end in `--`.
* A text: not empty, of bytes other than `<`, `>` and `&` and of references to the
  built-in entities.
* A comment `<!--t-->`: `t` does not end in a hyphen and holds no `-->`, it begins neither
  with a hyphen nor with `!--`, and it holds no `<!--`.
* A processing instruction: a target that begins with a letter, holds none of `?`, `<`,
  `>` and whitespace and is not `xml` in any case, one whitespace byte, and data that
  holds none of `?`, `<` and `>` and does not begin with whitespace.
* An XML declaration: the target `xml` in any case, one whitespace byte, and a body that
  holds none of `?`, `<` and `>`. -/
def Lexeme.reversible : Lexeme → Bool
  | .startTag n l space =>
    if l.isEmpty then reversibleName n && space.isEmpty
    else backwardName n && l.all AttributeWritten.reversible && space.all isspace
  | .endTag n => reversibleEndName n
  | .emptyTag n l space =>
    !l.isEmpty && backwardName n && l.all AttributeWritten.reversible && space.all isspace
  | .text l =>
    !l.isEmpty &&
    bytesAll (fun c => decide (c ≠ '<') && decide (c ≠ '>') && decide (c ≠ '&')) l
  | .comment t =>
    decide (t.getLast? ≠ some '-') &&
    decide (firstOccurrence ['-', '-', '>'] (t ++ ['-', '-', '>']) = some t.length) &&
    decide (t.head? ≠ some '-') && !(['!', '-', '-'].isPrefixOf t) &&
    decide (firstOccurrence ['<', '!', '-', '-'] t = none)
  | .processingInstruction pTarget cSeparator pData =>
    validTarget pTarget && pTarget.all (fun c => decide (c ≠ '<')) && isspace cSeparator &&
    pData.all (fun c => decide (c ≠ '?') && decide (c ≠ '>') && decide (c ≠ '<')) &&
    (match pData with
     | [] => true
     | c :: _ => !isspace c)
  | .xmlDeclaration pTarget cSeparator pBody =>
    isXmlTarget pTarget && isspace cSeparator &&
    pBody.all (fun c => decide (c ≠ '?') && decide (c ≠ '>') && decide (c ≠ '<'))

/-- The bytes of a sequence of lexemes. -/
def renderLexemes (doc : List Lexeme) : Str :=
  doc.flatMap Lexeme.render

/-- The events of a sequence of lexemes, in document order. -/
def eventsOfLexemes (doc : List Lexeme) : List XMLEvent :=
  doc.flatMap Lexeme.events

/-- No two text runs follow each other: what stands between two tags, comments,
processing instructions or declarations, or at an end of the input, is one text. -/
def textApart : List Lexeme → Bool
  | [] => true
  | [_] => true
  | a :: b :: rest => !(a.isText && b.isText) && textApart (b :: rest)

/-- An input both directions read alike: lexemes both directions read alike, no two text
runs next to each other. -/
def reversibleLexemes (doc : List Lexeme) : Bool :=
  doc.all Lexeme.reversible && textApart doc

/-- The events a lexeme stands for when it is read backwards: the events of the lexeme in
reverse order, with the attributes of a `StartElement` in reverse order. -/
def Lexeme.revents : Lexeme → List XMLEvent
  | .startTag n l _ =>
    [XMLEvent.ofStartElement ⟨qnameOf n, (l.map AttributeWritten.attribute).reverse⟩]
  | .endTag n => [XMLEvent.ofEndElement ⟨qnameOf n⟩]
  | .emptyTag n l _ =>
    [XMLEvent.ofEndElement ⟨qnameOf n⟩,
      XMLEvent.ofStartElement ⟨qnameOf n, (l.map AttributeWritten.attribute).reverse⟩]
  | .text l => [charactersEvent (textData l)]
  | .comment t => [XMLEvent.ofComment ⟨t⟩]
  | .processingInstruction pTarget _ pData =>
    [XMLEvent.ofProcessingInstruction ⟨pTarget, pData⟩]
  | .xmlDeclaration _ _ _ => []

/-! ## Basic facts -/

theorem bind_ok {α β : Type} (a : α) (r : XMLEventReader) (f : α → XMLEventReader → Result β) :
    (Result.ok a r).bind f = f a r := rfl

theorem bind_throw {α β : Type} (e : Exception) (r : XMLEventReader)
    (f : α → XMLEventReader → Result β) :
    (Result.throw e r : Result α).bind f = .throw e r := rfl

theorem bind_exhausted {α β : Type} (f : α → XMLEventReader → Result β) :
    (Result.exhausted : Result α).bind f = .exhausted := rfl

theorem bind_eq_ok {α β : Type} {x : Result α} {f : α → XMLEventReader → Result β} {b : β}
    {r' : XMLEventReader} (h : x.bind f = .ok b r') :
    ∃ a r1, x = .ok a r1 ∧ f a r1 = .ok b r' := by
  cases x with
  | ok a r1 => exact ⟨a, r1, rfl, h⟩
  | throw e r1 => simp [Result.bind] at h
  | exhausted => simp [Result.bind] at h

/-! ## The pull protocol: `nextEvent` and `previousEvent` -/

/-- C8. With the direction flag forward, the has-previous latch clear and a non-empty
queue, `nextEvent` returns the head of the queue, leaves the remaining events in their
order, clears the has-next latch and changes nothing else (direction flag, has-previous
latch, stream, dictionaries). `previousEvent` does the same for the backward direction
with the has-next latch clear. -/
theorem event_calls_hand_out_queue_head (r : XMLEventReader) (pEvent : XMLEvent)
    (aRest : List XMLEvent) (hq : r.m_aEvents = pEvent :: aRest) :
    (r.m_bEventsAreForwardDirection = true ∧ r.m_bHasPreviousCalled = false →
      nextEvent r = .ok pEvent { r with m_aEvents := aRest, m_bHasNextCalled := false }) ∧
    (r.m_bEventsAreForwardDirection = false ∧ r.m_bHasNextCalled = false →
      previousEvent r =
        .ok pEvent { r with m_aEvents := aRest, m_bHasPreviousCalled := false }) := by
  constructor
  · rintro ⟨hd, hp⟩
    simp [nextEvent, hd, hp, hq, popEvent]
  · rintro ⟨hd, hn⟩
    simp [previousEvent, hd, hn, hq, popEvent]

/-- The reader of the witnesses: forward direction, two events queued. -/
theorem event_calls_hand_out_queue_head_witness :
    nextEvent { XMLEventReader.new (IStream.ofData ['<', 'a', '/', '>']) with
        m_aEvents := [startEvent none ['a'] [], endEvent none ['a']] } =
      .ok (startEvent none ['a'] [])
        { XMLEventReader.new (IStream.ofData ['<', 'a', '/', '>']) with
          m_aEvents := [endEvent none ['a']] } ∧
    previousEvent { XMLEventReader.new (IStream.ofData ['<', 'a', '/', '>']) with
        m_aEvents := [endEvent none ['a'], startEvent none ['a'] []],
        m_bEventsAreForwardDirection := false } =
      .ok (endEvent none ['a'])
        { XMLEventReader.new (IStream.ofData ['<', 'a', '/', '>']) with
          m_aEvents := [startEvent none ['a'] []], m_bEventsAreForwardDirection := false } :=
  ⟨(event_calls_hand_out_queue_head _ _ _ rfl).1 ⟨rfl, rfl⟩,
   (event_calls_hand_out_queue_head _ _ _ rfl).2 ⟨rfl, rfl⟩⟩

/-- C9. When the direction flag is backward or the has-previous latch is set, `nextEvent`
throws `std::logic_error` and leaves the reader as it was; when the direction flag is
forward or the has-next latch is set, `previousEvent` throws `std::logic_error` and
leaves the reader as it was, in particular on a newly constructed reader. -/
theorem event_calls_reject_other_direction (r : XMLEventReader) :
    (r.m_bEventsAreForwardDirection = false ∨ r.m_bHasPreviousCalled = true →
      ∃ what, nextEvent r = .throw (.logic_error what) r) ∧
    (r.m_bEventsAreForwardDirection = true ∨ r.m_bHasNextCalled = true →
      ∃ what, previousEvent r = .throw (.logic_error what) r) ∧
    (∀ aStream : IStream, ∃ what,
      previousEvent (XMLEventReader.new aStream) =
        .throw (.logic_error what) (XMLEventReader.new aStream)) := by
  refine ⟨?_, ?_, ?_⟩
  · intro h
    refine ⟨"Attempted XMLEventReader::nextEvent() without checking XMLEventReader::hasNext() first.", ?_⟩
    unfold nextEvent
    rw [if_pos (by rcases h with h | h <;> simp [h])]
    rfl
  · intro h
    refine ⟨"Attempted XMLEventReader::previousEvent() without checking XMLEventReader::hasPrevious() first.", ?_⟩
    unfold previousEvent
    rw [if_pos (by rcases h with h | h <;> simp [h])]
    rfl
  · intro aStream
    exact ⟨_, rfl⟩

/-- A reader right after a `hasPrevious` call at the begin of the stream refuses
`nextEvent`, and a new reader refuses `previousEvent`. -/
theorem event_calls_reject_other_direction_witness :
    (∃ what, nextEvent { XMLEventReader.new (IStream.ofData ['<', 'a', '>']) with
        m_bHasPreviousCalled := true, m_bEventsAreForwardDirection := false } =
      .throw (.logic_error what)
        { XMLEventReader.new (IStream.ofData ['<', 'a', '>']) with
          m_bHasPreviousCalled := true, m_bEventsAreForwardDirection := false }) ∧
    (∃ what, previousEvent (XMLEventReader.new (IStream.ofData ['<', 'a', '>'])) =
      .throw (.logic_error what) (XMLEventReader.new (IStream.ofData ['<', 'a', '>']))) :=
  ⟨(event_calls_reject_other_direction _).1 (Or.inl rfl),
   (event_calls_reject_other_direction _).2.1 (Or.inl rfl)⟩

/-! ## What the loops leave alone -/

theorem Frame.refl (r : XMLEventReader) : Frame r r :=
  ⟨rfl, rfl, rfl, rfl, rfl, rfl, fun _ => rfl, id⟩

theorem Frame.trans {a b c : XMLEventReader} (h1 : Frame a b) (h2 : Frame b c) : Frame a c :=
  ⟨h2.hasNextCalled.trans h1.hasNextCalled, h2.hasPreviousCalled.trans h1.hasPreviousCalled,
    h2.direction.trans h1.direction, h2.dictionary.trans h1.dictionary,
    h2.rdictionary.trans h1.rdictionary, h2.events.trans h1.events,
    fun h => (h2.data (h1.consistent h)).trans (h1.data h),
    fun h => h2.consistent (h1.consistent h)⟩

theorem frame_setStream (r : XMLEventReader) (s : IStream)
    (hd : r.m_aStream.consistent → s.data = r.m_aStream.data)
    (hc : r.m_aStream.consistent → s.consistent) : Frame r (r.setStream s) :=
  ⟨rfl, rfl, rfl, rfl, rfl, rfl, hd, hc⟩

theorem frame_get {r r1 : XMLEventReader} {o : Option Char} (h : r.get = (o, r1)) :
    Frame r r1 := by
  have h2 : r1 = r.setStream (r.m_aStream.get).2 := by
    simp only [XMLEventReader.get, Prod.mk.injEq] at h
    exact h.2.symm
  subst h2
  apply frame_setStream
  · intro hc
    unfold IStream.get
    split
    · rfl
    · split <;> simp_all [IStream.data]
  · intro hc
    unfold IStream.get
    split
    · exact hc
    · split <;> simp_all [IStream.consistent]

theorem frame_get_right {r0 r r1 : XMLEventReader} {o : Option Char} (h0 : Frame r0 r)
    (h : r.get = (o, r1)) : Frame r0 r1 :=
  h0.trans (frame_get h)

theorem frame_unget {r0 r : XMLEventReader} (h0 : Frame r0 r) : Frame r0 r.unget := by
  refine h0.trans (frame_setStream _ _ ?_ ?_)
  · intro hc
    unfold IStream.unget
    split
    · rfl
    · split <;> simp_all [IStream.data]
  · intro hc
    unfold IStream.unget
    split
    · exact hc
    · split <;> simp_all [IStream.consistent]

theorem produces_push {bForward : Bool} {r0 r : XMLEventReader} (e : XMLEvent) (h0 : Frame r0 r) :
    Produces bForward r0 (r.push e) :=
  ⟨r, [e], h0, Or.inl ⟨e, rfl⟩, rfl⟩

theorem produces_push_pair {r0 r : XMLEventReader} (q : QName) (l : List Attribute)
    (h0 : Frame r0 r) :
    Produces true r0
      ((r.push (XMLEvent.ofStartElement ⟨q, l⟩)).push (XMLEvent.ofEndElement ⟨q⟩)) := by
  refine ⟨r, [XMLEvent.ofStartElement ⟨q, l⟩, XMLEvent.ofEndElement ⟨q⟩], h0, Or.inr ⟨q, l, rfl⟩, ?_⟩
  simp [XMLEventReader.push]

theorem produces_rpush_pair {r0 r : XMLEventReader} (q : QName) (l : List Attribute)
    (h0 : Frame r0 r) :
    Produces false r0
      ((r.push (XMLEvent.ofEndElement ⟨q⟩)).push (XMLEvent.ofStartElement ⟨q, l⟩)) := by
  refine ⟨r, [XMLEvent.ofEndElement ⟨q⟩, XMLEvent.ofStartElement ⟨q, l⟩], h0, Or.inr ⟨q, l, rfl⟩, ?_⟩
  simp [XMLEventReader.push]

theorem Produces.of_frame {bForward : Bool} {a b c : XMLEventReader} (h1 : Frame a b)
    (h2 : Produces bForward b c) : Produces bForward a c := by
  obtain ⟨r1, aNew, hf, he, hr⟩ := h2
  exact ⟨r1, aNew, h1.trans hf, he, hr⟩

theorem frame_rget {r r1 : XMLEventReader} {o : Option Char} (h : r.rget = (o, r1)) :
    Frame r r1 := by
  have h2 : r1 = r.setStream (r.m_aStream.rget).2 := by
    simp only [XMLEventReader.rget, Prod.mk.injEq] at h
    exact h.2.symm
  subst h2
  obtain ⟨⟨b, a, e⟩, hn, hp, q, d, m1, m2⟩ := r
  apply frame_setStream
  · intro hc
    cases e <;> cases b <;>
      simp_all [IStream.rget, IStream.data, IStream.seekEnd, IStream.consistent]
  · intro hc
    cases e <;> cases b <;>
      simp_all [IStream.rget, IStream.data, IStream.seekEnd, IStream.consistent]

theorem frame_rget_right {r0 r r1 : XMLEventReader} {o : Option Char} (h0 : Frame r0 r)
    (h : r.rget = (o, r1)) : Frame r0 r1 :=
  h0.trans (frame_rget h)

theorem frame_runget {r0 r : XMLEventReader} (h0 : Frame r0 r) : Frame r0 r.runget := by
  refine h0.trans (frame_setStream _ _ ?_ ?_)
  · intro hc
    unfold IStream.runget
    split
    · rfl
    · split <;> simp_all [IStream.data]
  · intro hc
    unfold IStream.runget
    split
    · exact hc
    · split <;> simp_all [IStream.consistent]

theorem frame_ConsumeWhitespaceLoop : ∀ (n : Nat) (r : XMLEventReader) (a : Char)
    (r' : XMLEventReader), ConsumeWhitespaceLoop n r = .ok a r' → Frame r r' := by
  intro n
  induction n with
  | zero => intro r a r' h; simp [ConsumeWhitespaceLoop] at h
  | succ n ih =>
    intro r a r' h
    simp only [ConsumeWhitespaceLoop] at h
    split at h
    · cases h; exact frame_get (by assumption)
    · split at h
      · cases h; exact frame_get (by assumption)
      · exact (frame_get (by assumption)).trans (ih _ _ _ h)

theorem frame_ConsumeWhitespace {r : XMLEventReader} {a : Char} {r' : XMLEventReader}
    (h : ConsumeWhitespace r = .ok a r') : Frame r r' :=
  frame_ConsumeWhitespaceLoop _ _ _ _ h

theorem frame_ResolveEntityLoop : ∀ (n : Nat) (nm : Str) (r : XMLEventReader) (a : Str)
    (r' : XMLEventReader), ResolveEntityLoop n nm r = .ok a r' → Frame r r' := by
  intro n
  induction n with
  | zero => intro nm r a r' h; simp [ResolveEntityLoop] at h
  | succ n ih =>
    intro nm r a r' h
    simp only [ResolveEntityLoop] at h
    split at h
    · simp [malformed] at h
    · split at h
      · cases h; exact frame_get (by assumption)
      · exact (frame_get (by assumption)).trans (ih _ _ _ _ h)

theorem frame_ResolveEntity {r : XMLEventReader} {a : Str} {r' : XMLEventReader}
    (h : ResolveEntity r = .ok a r') : Frame r r' := by
  simp only [ResolveEntity] at h
  split at h
  · simp [malformed] at h
  · split at h
    · simp [malformed] at h
    · obtain ⟨nm, r2, h1, h2⟩ := bind_eq_ok h
      split at h2
      · cases h2
        exact (frame_get (by assumption)).trans (frame_ResolveEntityLoop _ _ _ _ _ h1)
      · simp [malformed] at h2

theorem frame_HandleAttributeValueLoop : ∀ (n : Nat) (c : Char) (v : Str) (r : XMLEventReader)
    (a : Str) (r' : XMLEventReader),
    HandleAttributeValueLoop n c v r = .ok a r' → Frame r r' := by
  intro n
  induction n with
  | zero => intro c v r a r' h; simp [HandleAttributeValueLoop] at h
  | succ n ih =>
    intro c v r a r' h
    simp only [HandleAttributeValueLoop] at h
    split at h
    · simp [malformed] at h
    · split at h
      · cases h; exact frame_get (by assumption)
      · split at h
        · obtain ⟨t, r2, h1, h2⟩ := bind_eq_ok h
          exact (frame_get (by assumption)).trans
            ((frame_ResolveEntity h1).trans (ih _ _ _ _ _ h2))
        · exact (frame_get (by assumption)).trans (ih _ _ _ _ _ h)

theorem frame_HandleAttributeValue {r : XMLEventReader} {a : Str} {r' : XMLEventReader}
    (h : HandleAttributeValue r = .ok a r') : Frame r r' := by
  simp only [HandleAttributeValue] at h
  obtain ⟨c, r1, h1, h2⟩ := bind_eq_ok h
  split at h2
  · simp [malformed] at h2
  · split at h2
    · simp [malformed] at h2
    · exact (frame_ConsumeWhitespace h1).trans (frame_HandleAttributeValueLoop _ _ _ _ _ _ h2)

theorem frame_HandleAttributeNameLoop : ∀ (n : Nat) (p : Option Str) (l : Str)
    (r : XMLEventReader) (a : QName) (r' : XMLEventReader),
    HandleAttributeNameLoop n p l r = .ok a r' → Frame r r' := by
  intro n
  induction n with
  | zero => intro p l r a r' h; simp [HandleAttributeNameLoop] at h
  | succ n ih =>
    intro p l r a r' h
    simp only [HandleAttributeNameLoop] at h
    split at h
    · simp [malformed] at h
    · split at h
      · split at h
        · simp [malformed] at h
        · exact (frame_get (by assumption)).trans (ih _ _ _ _ _ h)
      · split at h
        · obtain ⟨c, r2, h1, h2⟩ := bind_eq_ok h
          split at h2
          · simp [malformed] at h2
          · split at h2
            · simp [malformed] at h2
            · exact (frame_get (by assumption)).trans
                ((frame_unget (frame_ConsumeWhitespace h1)).trans (ih _ _ _ _ _ h2))
        · split at h
          · cases h; exact frame_get (by assumption)
          · split at h
            · exact (frame_get (by assumption)).trans (ih _ _ _ _ _ h)
            · simp [malformed] at h

theorem frame_HandleAttributeName {c : Char} {r : XMLEventReader} {a : QName}
    {r' : XMLEventReader} (h : HandleAttributeName c r = .ok a r') : Frame r r' := by
  simp only [HandleAttributeName] at h
  split at h
  · exact frame_HandleAttributeNameLoop _ _ _ _ _ _ h
  · simp [malformed] at h

theorem frame_HandleAttributesLoop : ∀ (n : Nat) (l : List Attribute) (r : XMLEventReader)
    (a : List Attribute) (r' : XMLEventReader),
    HandleAttributesLoop n l r = .ok a r' → Frame r r' := by
  intro n
  induction n with
  | zero => intro l r a r' h; simp [HandleAttributesLoop] at h
  | succ n ih =>
    intro l r a r' h
    simp only [HandleAttributesLoop] at h
    split at h
    · simp [malformed] at h
    · split at h
      · cases h; exact frame_unget (frame_get (by assumption))
      · split at h
        · split at h
          · simp [malformed] at h
          · split at h
            · simp [malformed] at h
            · cases h
              exact frame_unget (frame_unget
                ((frame_get (by assumption)).trans (frame_get (by assumption))))
        · split at h
          · exact (frame_get (by assumption)).trans (ih _ _ _ _ h)
          · obtain ⟨q, r2, h1, h2⟩ := bind_eq_ok h
            obtain ⟨v, r3, h3, h4⟩ := bind_eq_ok h2
            exact (frame_get (by assumption)).trans ((frame_HandleAttributeName h1).trans
              ((frame_HandleAttributeValue h3).trans (ih _ _ _ _ h4)))

theorem frame_HandleAttributes {c : Char} {l : List Attribute} {r : XMLEventReader}
    {a : List Attribute} {r' : XMLEventReader} (h : HandleAttributes c l r = .ok a r') :
    Frame r r' := by
  simp only [HandleAttributes] at h
  obtain ⟨q, r2, h1, h2⟩ := bind_eq_ok h
  obtain ⟨v, r3, h3, h4⟩ := bind_eq_ok h2
  exact (frame_HandleAttributeName h1).trans
    ((frame_HandleAttributeValue h3).trans (frame_HandleAttributesLoop _ _ _ _ _ h4))

theorem frame_HandleTagStartSpace : ∀ (n : Nat) (l : List Attribute) (r : XMLEventReader)
    (a : List Attribute) (r' : XMLEventReader),
    HandleTagStartSpace n l r = .ok a r' → Frame r r' := by
  intro n
  induction n with
  | zero => intro l r a r' h; simp [HandleTagStartSpace] at h
  | succ n ih =>
    intro l r a r' h
    simp only [HandleTagStartSpace] at h
    split at h
    · simp [malformed] at h
    · split at h
      · cases h; exact frame_get (by assumption)
      · split at h
        · exact (frame_get (by assumption)).trans (ih _ _ _ _ h)
        · split at h
          · cases h; exact frame_unget (frame_get (by assumption))
          · exact (frame_get (by assumption)).trans (frame_HandleAttributes h)

theorem produces_HandleTagStartLoop : ∀ (n : Nat) (c : Char) (p : Option Str) (l : Str)
    (at_ : List Attribute) (r : XMLEventReader) (b : Bool) (r' : XMLEventReader),
    HandleTagStartLoop n c p l at_ r = .ok b r' → b = true ∧ Produces true r r' := by
  intro n
  induction n with
  | zero => intro c p l at_ r b r' h; simp [HandleTagStartLoop] at h
  | succ n ih =>
    intro c p l at_ r b r' h
    simp only [HandleTagStartLoop] at h
    split at h
    · split at h
      · simp [malformed] at h
      · split at h
        · simp [malformed] at h
        · have := ih _ _ _ _ _ _ _ h
          exact ⟨this.1, Produces.of_frame (frame_get (by assumption)) this.2⟩
    · split at h
      · cases h; exact ⟨rfl, produces_push _ (Frame.refl _)⟩
      · split at h
        · split at h
          · simp [malformed] at h
          · split at h
            · simp [malformed] at h
            · cases h
              exact ⟨rfl, produces_push_pair _ _ (frame_get (by assumption))⟩
        · split at h
          · split at h
            · simp [malformed] at h
            · obtain ⟨l2, r2, h1, h2⟩ := bind_eq_ok h
              split at h2
              · simp [malformed] at h2
              · have := ih _ _ _ _ _ _ _ h2
                exact ⟨this.1, Produces.of_frame ((frame_HandleTagStartSpace _ _ _ _ _ h1).trans
                  (frame_get (by assumption))) this.2⟩
          · split at h
            · split at h
              · simp [malformed] at h
              · have := ih _ _ _ _ _ _ _ h
                exact ⟨this.1, Produces.of_frame (frame_get (by assumption)) this.2⟩
            · simp [malformed] at h

theorem produces_HandleTagStart {c : Char} {r : XMLEventReader} {b : Bool} {r' : XMLEventReader}
    (h : HandleTagStart c r = .ok b r') : b = true ∧ Produces true r r' := by
  simp only [HandleTagStart] at h
  split at h
  · simp [malformed] at h
  · have := produces_HandleTagStartLoop _ _ _ _ _ _ _ _ h
    exact ⟨this.1, Produces.of_frame (frame_get (by assumption)) this.2⟩

theorem produces_HandleTagEndLoop : ∀ (n : Nat) (c : Char) (p : Option Str) (l : Str)
    (r : XMLEventReader) (b : Bool) (r' : XMLEventReader),
    HandleTagEndLoop n c p l r = .ok b r' → b = true ∧ Produces true r r' := by
  intro n
  induction n with
  | zero => intro c p l r b r' h; simp [HandleTagEndLoop] at h
  | succ n ih =>
    intro c p l r b r' h
    simp only [HandleTagEndLoop] at h
    split at h
    · split at h
      · simp [malformed] at h
      · split at h
        · simp [malformed] at h
        · have := ih _ _ _ _ _ _ h
          exact ⟨this.1, Produces.of_frame (frame_get (by assumption)) this.2⟩
    · split at h
      · cases h; exact ⟨rfl, produces_push _ (Frame.refl _)⟩
      · split at h
        · split at h
          · simp [malformed] at h
          · have := ih _ _ _ _ _ _ h
            exact ⟨this.1, Produces.of_frame (frame_get (by assumption)) this.2⟩
        · simp [malformed] at h

theorem produces_HandleTagEnd {r : XMLEventReader} {b : Bool} {r' : XMLEventReader}
    (h : HandleTagEnd r = .ok b r') : b = true ∧ Produces true r r' := by
  simp only [HandleTagEnd] at h
  split at h
  · simp [malformed] at h
  · have := produces_HandleTagEndLoop _ _ _ _ _ _ _ h
    exact ⟨this.1, Produces.of_frame (frame_get (by assumption)) this.2⟩

theorem produces_HandleTextLoop : ∀ (n : Nat) (d : Str) (r : XMLEventReader) (b : Bool)
    (r' : XMLEventReader), HandleTextLoop n d r = .ok b r' → b = true ∧ Produces true r r' := by
  intro n
  induction n with
  | zero => intro d r b r' h; simp [HandleTextLoop] at h
  | succ n ih =>
    intro d r b r' h
    simp only [HandleTextLoop] at h
    split at h
    · cases h; exact ⟨rfl, produces_push _ (frame_get (by assumption))⟩
    · split at h
      · cases h; exact ⟨rfl, produces_push _ (frame_unget (frame_get (by assumption)))⟩
      · split at h
        · obtain ⟨t, r2, h1, h2⟩ := bind_eq_ok h
          have := ih _ _ _ _ h2
          exact ⟨this.1, Produces.of_frame ((frame_get (by assumption)).trans
            (frame_ResolveEntity h1)) this.2⟩
        · have := ih _ _ _ _ h
          exact ⟨this.1, Produces.of_frame (frame_get (by assumption)) this.2⟩

theorem produces_HandleText {c : Char} {r : XMLEventReader} {b : Bool} {r' : XMLEventReader}
    (h : HandleText c r = .ok b r') : b = true ∧ Produces true r r' := by
  simp only [HandleText] at h
  split at h
  · obtain ⟨t, r2, h1, h2⟩ := bind_eq_ok h
    have := produces_HandleTextLoop _ _ _ _ _ h2
    exact ⟨this.1, Produces.of_frame (frame_ResolveEntity h1) this.2⟩
  · exact produces_HandleTextLoop _ _ _ _ _ h

theorem frame_HandleProcessingInstructionTargetLoop : ∀ (n m : Nat) (p : Option Str)
    (r : XMLEventReader) (a : Option Str) (r' : XMLEventReader),
    HandleProcessingInstructionTargetLoop n m p r = .ok a r' → Frame r r' := by
  intro n
  induction n with
  | zero => intro m p r a r' h; simp [HandleProcessingInstructionTargetLoop] at h
  | succ n ih =>
    intro m p r a r' h
    simp only [HandleProcessingInstructionTargetLoop] at h
    split at h
    · split at h
      · simp [malformed] at h
      · split at h
        · exact (frame_get (by assumption)).trans (ih _ _ _ _ _ h)
        · split at h
          · simp [malformed] at h
          · split at h
            · split at h
              · simp [malformed] at h
              · cases h; exact frame_get (by assumption)
            · split at h
              · simp [malformed] at h
              · split at h
                · split at h
                  · simp [malformed] at h
                  · exact (frame_get (by assumption)).trans (ih _ _ _ _ _ h)
                · exact (frame_get (by assumption)).trans (ih _ _ _ _ _ h)
    · cases h; exact Frame.refl _

theorem frame_HandleXmlDeclarationLoop : ∀ (n m : Nat) (r : XMLEventReader) (b : Bool)
    (r' : XMLEventReader),
    HandleXmlDeclarationLoop n m r = .ok b r' → b = false ∧ Frame r r' := by
  intro n
  induction n with
  | zero => intro m r b r' h; simp [HandleXmlDeclarationLoop] at h
  | succ n ih =>
    intro m r b r' h
    simp only [HandleXmlDeclarationLoop] at h
    split at h
    · split at h
      · simp [malformed] at h
      · split at h
        · have := ih _ _ _ _ h
          exact ⟨this.1, (frame_get (by assumption)).trans this.2⟩
        · split at h
          · cases h; exact ⟨rfl, frame_get (by assumption)⟩
          · have := ih _ _ _ _ h
            exact ⟨this.1, (frame_get (by assumption)).trans this.2⟩
    · cases h; exact ⟨rfl, Frame.refl _⟩

theorem produces_HandleProcessingInstructionLoop : ∀ (n m : Nat) (t d : Str)
    (r : XMLEventReader) (b : Bool) (r' : XMLEventReader),
    HandleProcessingInstructionLoop n m t d r = .ok b r' →
      (b = true ∧ Produces true r r') ∨ (b = false ∧ Frame r r') := by
  intro n
  induction n with
  | zero => intro m t d r b r' h; simp [HandleProcessingInstructionLoop] at h
  | succ n ih =>
    intro m t d r b r' h
    simp only [HandleProcessingInstructionLoop] at h
    split at h
    · split at h
      · simp [malformed] at h
      · have hg : Frame r _ := frame_get (by assumption)
        split at h
        · rcases ih _ _ _ _ _ _ h with ⟨h1, h2⟩ | ⟨h1, h2⟩
          · exact Or.inl ⟨h1, Produces.of_frame hg h2⟩
          · exact Or.inr ⟨h1, hg.trans h2⟩
        · split at h
          · cases h; exact Or.inl ⟨rfl, produces_push _ hg⟩
          · rcases ih _ _ _ _ _ _ h with ⟨h1, h2⟩ | ⟨h1, h2⟩
            · exact Or.inl ⟨h1, Produces.of_frame hg h2⟩
            · exact Or.inr ⟨h1, hg.trans h2⟩
    · cases h; exact Or.inr ⟨rfl, Frame.refl _⟩

theorem produces_HandleProcessingInstruction {r : XMLEventReader} {b : Bool}
    {r' : XMLEventReader} (h : HandleProcessingInstruction r = .ok b r') :
    (b = true ∧ Produces true r r') ∨ (b = false ∧ Frame r r') := by
  simp only [HandleProcessingInstruction, HandleProcessingInstructionTarget] at h
  obtain ⟨t, r1, h1, h2⟩ := bind_eq_ok h
  have hf := frame_HandleProcessingInstructionTargetLoop _ _ _ _ _ _ h1
  split at h2
  · simp [malformed] at h2
  · split at h2
    · have := frame_HandleXmlDeclarationLoop _ _ _ _ _ h2
      exact Or.inr ⟨this.1, hf.trans this.2⟩
    · rcases produces_HandleProcessingInstructionLoop _ _ _ _ _ _ _ h2 with ⟨h3, h4⟩ | ⟨h3, h4⟩
      · exact Or.inl ⟨h3, Produces.of_frame hf h4⟩
      · exact Or.inr ⟨h3, hf.trans h4⟩

theorem produces_HandleCommentLoop : ∀ (n m : Nat) (d : Str) (r : XMLEventReader) (b : Bool)
    (r' : XMLEventReader),
    HandleCommentLoop n m d r = .ok b r' → b = true ∧ Produces true r r' := by
  intro n
  induction n with
  | zero => intro m d r b r' h; simp [HandleCommentLoop] at h
  | succ n ih =>
    intro m d r b r' h
    simp only [HandleCommentLoop] at h
    split at h
    · simp [malformed] at h
    · have hg : Frame r _ := frame_get (by assumption)
      split at h
      · split at h
        · have := ih _ _ _ _ _ h
          exact ⟨this.1, Produces.of_frame hg this.2⟩
        · cases h; exact ⟨rfl, produces_push _ hg⟩
      · split at h
        · have := ih _ _ _ _ _ h
          exact ⟨this.1, Produces.of_frame hg this.2⟩
        · have := ih _ _ _ _ _ h
          exact ⟨this.1, Produces.of_frame hg this.2⟩

theorem produces_HandleComment {r : XMLEventReader} {b : Bool} {r' : XMLEventReader}
    (h : HandleComment r = .ok b r') : b = true ∧ Produces true r r' := by
  simp only [HandleComment] at h
  split at h
  · simp [malformed] at h
  · split at h
    · simp [malformed] at h
    · have := produces_HandleCommentLoop _ _ _ _ _ _ h
      exact ⟨this.1, Produces.of_frame (frame_get (by assumption)) this.2⟩

theorem produces_HandleMarkupDeclaration {r : XMLEventReader} {b : Bool} {r' : XMLEventReader}
    (h : HandleMarkupDeclaration r = .ok b r') : b = true ∧ Produces true r r' := by
  simp only [HandleMarkupDeclaration] at h
  split at h
  · simp [malformed] at h
  · split at h
    · have := produces_HandleComment h
      exact ⟨this.1, Produces.of_frame (frame_get (by assumption)) this.2⟩
    · simp [malformed] at h

/-- `HandleTag` either queues a token, or has consumed an XML declaration and hands over
to the next `hasNext()` with the has-next latch cleared. -/
theorem produces_HandleTag {K : XMLEventReader → Result Bool} {r : XMLEventReader} {b : Bool}
    {r' : XMLEventReader} (h : HandleTag K r = .ok b r') :
    (b = true ∧ Produces true r r') ∨
    ∃ r2, Frame r r2 ∧ K { r2 with m_bHasNextCalled := false } = .ok b r' := by
  simp only [HandleTag] at h
  split at h
  · simp [malformed] at h
  · have hg : Frame r _ := frame_get (by assumption)
    split at h
    · obtain ⟨b1, r1, h1, h2⟩ := bind_eq_ok h
      rcases produces_HandleProcessingInstruction h1 with ⟨h3, h4⟩ | ⟨h3, h4⟩
      · subst h3
        simp only [if_true] at h2
        cases h2
        exact Or.inl ⟨rfl, Produces.of_frame hg h4⟩
      · subst h3
        simp only [Bool.false_eq_true, if_false] at h2
        exact Or.inr ⟨r1, hg.trans h4, h2⟩
    · split at h
      · have := produces_HandleTagEnd h
        exact Or.inl ⟨this.1, Produces.of_frame hg this.2⟩
      · split at h
        · have := produces_HandleMarkupDeclaration h
          exact Or.inl ⟨this.1, Produces.of_frame hg this.2⟩
        · split at h
          · have := produces_HandleTagStart h
            exact Or.inl ⟨this.1, Produces.of_frame hg this.2⟩
          · simp [malformed] at h

theorem frame_ConsumeRWhitespaceLoop : ∀ (n : Nat) (r : XMLEventReader) (a : Char)
    (r' : XMLEventReader), ConsumeRWhitespaceLoop n r = .ok a r' → Frame r r' := by
  intro n
  induction n with
  | zero => intro r a r' h; simp [ConsumeRWhitespaceLoop] at h
  | succ n ih =>
    intro r a r' h
    simp only [ConsumeRWhitespaceLoop] at h
    split at h
    · cases h; exact frame_rget (by assumption)
    · split at h
      · cases h; exact frame_rget (by assumption)
      · exact (frame_rget (by assumption)).trans (ih _ _ _ h)

theorem frame_ConsumeRWhitespace {r : XMLEventReader} {a : Char} {r' : XMLEventReader}
    (h : ConsumeRWhitespace r = .ok a r') : Frame r r' :=
  frame_ConsumeRWhitespaceLoop _ _ _ _ h

theorem frame_ResolveREntityLoop : ∀ (n : Nat) (c : Char) (nm : Str) (r : XMLEventReader)
    (a : Str) (r' : XMLEventReader), ResolveREntityLoop n c nm r = .ok a r' → Frame r r' := by
  intro n
  induction n with
  | zero => intro c nm r a r' h; simp [ResolveREntityLoop] at h
  | succ n ih =>
    intro c nm r a r' h
    simp only [ResolveREntityLoop] at h
    split at h
    · cases h; exact frame_rget (by assumption)
    · have hg : Frame r _ := frame_rget (by assumption)
      split at h
      · split at h
        · simp [malformed] at h
        · split at h
          · cases h; exact hg
          · simp [malformed] at h
      · split at h
        · cases h; exact frame_runget hg
        · split at h
          · cases h; exact frame_runget hg
          · exact hg.trans (ih _ _ _ _ _ h)

theorem frame_ResolveREntity {c : Char} {r : XMLEventReader} {a : Str} {r' : XMLEventReader}
    (h : ResolveREntity c r = .ok a r') : Frame r r' :=
  frame_ResolveREntityLoop _ _ _ _ _ _ h

theorem frame_HandleRAttributeValueLoop : ∀ (n : Nat) (c : Char) (v : Str)
    (r : XMLEventReader) (a : Str) (r' : XMLEventReader),
    HandleRAttributeValueLoop n c v r = .ok a r' → Frame r r' := by
  intro n
  induction n with
  | zero => intro c v r a r' h; simp [HandleRAttributeValueLoop] at h
  | succ n ih =>
    intro c v r a r' h
    simp only [HandleRAttributeValueLoop] at h
    split at h
    · simp [malformed] at h
    · have hg : Frame r _ := frame_rget (by assumption)
      split at h
      · obtain ⟨c2, r2, h1, h2⟩ := bind_eq_ok h
        split at h2
        · simp [malformed] at h2
        · split at h2
          · simp [malformed] at h2
          · cases h2; exact hg.trans (frame_ConsumeRWhitespace h1)
      · split at h
        · obtain ⟨t, r2, h1, h2⟩ := bind_eq_ok h
          exact hg.trans ((frame_ResolveREntity h1).trans (ih _ _ _ _ _ h2))
        · exact hg.trans (ih _ _ _ _ _ h)

theorem frame_HandleRAttributeValue {c : Char} {r : XMLEventReader} {a : Str}
    {r' : XMLEventReader} (h : HandleRAttributeValue c r = .ok a r') : Frame r r' :=
  frame_HandleRAttributeValueLoop _ _ _ _ _ _ h

theorem frame_HandleRTagNameLoop : ∀ (n : Nat) (p : Option Str) (l : Str)
    (r : XMLEventReader) (a : QName) (r' : XMLEventReader),
    HandleRTagNameLoop n p l r = .ok a r' → Frame r r' := by
  intro n
  induction n with
  | zero => intro p l r a r' h; simp [HandleRTagNameLoop] at h
  | succ n ih =>
    intro p l r a r' h
    simp only [HandleRTagNameLoop] at h
    split at h
    · simp [malformed] at h
    · have hg : Frame r _ := frame_rget (by assumption)
      split at h
      · split at h
        · simp [malformed] at h
        · split at h
          · cases h; exact frame_runget hg
          · split at h
            · simp [malformed] at h
            · cases h; exact frame_runget hg
      · split at h
        · split at h
          · exact hg.trans (ih _ _ _ _ _ h)
          · exact hg.trans (ih _ _ _ _ _ h)
        · split at h
          · split at h
            · simp [malformed] at h
            · exact hg.trans (ih _ _ _ _ _ h)
          · simp [malformed] at h

theorem frame_HandleRTagName {c : Char} {r : XMLEventReader} {a : QName} {r' : XMLEventReader}
    (h : HandleRTagName c r = .ok a r') : Frame r r' := by
  simp only [HandleRTagName] at h
  split at h
  · simp [malformed] at h
  · exact frame_HandleRTagNameLoop _ _ _ _ _ _ h

theorem frame_HandleRAttributeNameLoop : ∀ (n : Nat) (c : Char) (p : Option Str) (l : Str)
    (r : XMLEventReader) (a : QName) (r' : XMLEventReader),
    HandleRAttributeNameLoop n c p l r = .ok a r' → Frame r r' := by
  intro n
  induction n with
  | zero => intro c p l r a r' h; simp [HandleRAttributeNameLoop] at h
  | succ n ih =>
    intro c p l r a r' h
    simp only [HandleRAttributeNameLoop] at h
    split at h
    · obtain ⟨c2, r2, h1, h2⟩ := bind_eq_ok h
      have hw := frame_ConsumeRWhitespace h1
      split at h2
      · simp [malformed] at h2
      · split at h2
        · split at h2
          · simp [malformed] at h2
          · cases h2; exact frame_runget hw
        · split at h2
          · simp [malformed] at h2
          · split at h2
            · simp [malformed] at h2
            · cases h2; exact frame_runget hw
    · split at h
      · split at h
        · simp [malformed] at h
        · split at h
          · simp [malformed] at h
          · exact (frame_rget (by assumption)).trans (ih _ _ _ _ _ _ h)
      · split at h
        · split at h
          · simp [malformed] at h
          · split at h
            · exact (frame_rget (by assumption)).trans (ih _ _ _ _ _ _ h)
            · exact (frame_rget (by assumption)).trans (ih _ _ _ _ _ _ h)
        · simp [malformed] at h

theorem frame_HandleRAttributeName {r : XMLEventReader} {a : QName} {r' : XMLEventReader}
    (h : HandleRAttributeName r = .ok a r') : Frame r r' := by
  simp only [HandleRAttributeName] at h
  obtain ⟨c, r1, h1, h2⟩ := bind_eq_ok h
  split at h2
  · simp [malformed] at h2
  · split at h2
    · simp [malformed] at h2
    · exact (frame_ConsumeRWhitespace h1).trans (frame_HandleRAttributeNameLoop _ _ _ _ _ _ _ h2)

theorem frame_HandleRAttributesLoop : ∀ (n : Nat) (l : List Attribute) (r : XMLEventReader)
    (a : List Attribute) (r' : XMLEventReader),
    HandleRAttributesLoop n l r = .ok a r' → Frame r r' := by
  intro n
  induction n with
  | zero => intro l r a r' h; simp [HandleRAttributesLoop] at h
  | succ n ih =>
    intro l r a r' h
    simp only [HandleRAttributesLoop] at h
    split at h
    · simp [malformed] at h
    · have hg : Frame r _ := frame_rget (by assumption)
      split at h
      · exact hg.trans (ih _ _ _ _ h)
      · split at h
        · obtain ⟨v, r2, h1, h2⟩ := bind_eq_ok h
          obtain ⟨q, r3, h3, h4⟩ := bind_eq_ok h2
          exact hg.trans ((frame_HandleRAttributeValue h1).trans
            ((frame_HandleRAttributeName h3).trans (ih _ _ _ _ h4)))
        · cases h; exact frame_runget hg

theorem frame_HandleRAttributes {c : Char} {l : List Attribute} {r : XMLEventReader}
    {a : List Attribute} {r' : XMLEventReader} (h : HandleRAttributes c l r = .ok a r') :
    Frame r r' := by
  simp only [HandleRAttributes] at h
  obtain ⟨v, r2, h1, h2⟩ := bind_eq_ok h
  obtain ⟨q, r3, h3, h4⟩ := bind_eq_ok h2
  exact (frame_HandleRAttributeValue h1).trans
    ((frame_HandleRAttributeName h3).trans (frame_HandleRAttributesLoop _ _ _ _ _ h4))

theorem frame_HandleRTagStartName {c : Char} {l : List Attribute} {r : XMLEventReader}
    {a : StartElement} {r' : XMLEventReader} (h : HandleRTagStartName c l r = .ok a r') :
    Frame r r' := by
  simp only [HandleRTagStartName] at h
  obtain ⟨q, r2, h1, h2⟩ := bind_eq_ok h
  split at h2
  · simp [malformed] at h2
  · split at h2
    · simp [malformed] at h2
    · cases h2; exact (frame_HandleRTagName h1).trans (frame_rget (by assumption))

theorem frame_HandleRTagStart {c : Char} {r : XMLEventReader} {a : StartElement}
    {r' : XMLEventReader} (h : HandleRTagStart c r = .ok a r') : Frame r r' := by
  simp only [HandleRTagStart] at h
  split at h
  · obtain ⟨l, r2, h1, h2⟩ := bind_eq_ok h
    split at h2
    · simp [malformed] at h2
    · exact (frame_HandleRAttributes h1).trans
        ((frame_rget (by assumption)).trans (frame_HandleRTagStartName h2))
  · exact frame_HandleRTagStartName h

theorem produces_HandleRTagStartEnd {c : Char} {r : XMLEventReader} {b : Bool}
    {r' : XMLEventReader} (h : HandleRTagStartEnd c r = .ok b r') :
    b = true ∧ Produces false r r' := by
  simp only [HandleRTagStartEnd] at h
  obtain ⟨q, r2, h1, h2⟩ := bind_eq_ok h
  have hn := frame_HandleRTagName h1
  split at h2
  · simp [malformed] at h2
  · have hg := hn.trans (frame_rget (by assumption))
    split at h2
    · cases h2; exact ⟨rfl, produces_push _ hg⟩
    · split at h2
      · split at h2
        · simp [malformed] at h2
        · split at h2
          · simp [malformed] at h2
          · cases h2; exact ⟨rfl, produces_push _ (hg.trans (frame_rget (by assumption)))⟩
      · simp [malformed] at h2

theorem produces_HandleRTextLoop : ∀ (n : Nat) (d : Str) (r : XMLEventReader) (b : Bool)
    (r' : XMLEventReader),
    HandleRTextLoop n d r = .ok b r' → b = true ∧ Produces false r r' := by
  intro n
  induction n with
  | zero => intro d r b r' h; simp [HandleRTextLoop] at h
  | succ n ih =>
    intro d r b r' h
    simp only [HandleRTextLoop] at h
    split at h
    · cases h; exact ⟨rfl, produces_push _ (frame_rget (by assumption))⟩
    · have hg : Frame r _ := frame_rget (by assumption)
      split at h
      · cases h; exact ⟨rfl, produces_push _ (frame_runget hg)⟩
      · split at h
        · obtain ⟨t, r2, h1, h2⟩ := bind_eq_ok h
          have := ih _ _ _ _ h2
          exact ⟨this.1, Produces.of_frame (hg.trans (frame_ResolveREntity h1)) this.2⟩
        · have := ih _ _ _ _ h
          exact ⟨this.1, Produces.of_frame hg this.2⟩

theorem produces_HandleRText {c : Char} {r : XMLEventReader} {b : Bool} {r' : XMLEventReader}
    (h : HandleRText c r = .ok b r') : b = true ∧ Produces false r r' := by
  simp only [HandleRText] at h
  split at h
  · obtain ⟨t, r2, h1, h2⟩ := bind_eq_ok h
    have := produces_HandleRTextLoop _ _ _ _ _ h2
    exact ⟨this.1, Produces.of_frame (frame_ResolveREntity h1) this.2⟩
  · exact produces_HandleRTextLoop _ _ _ _ _ h

theorem produces_HandleRProcessingInstructionLoop : ∀ (n m t s : Nat) (d : Str)
    (r : XMLEventReader) (b : Bool) (r' : XMLEventReader),
    HandleRProcessingInstructionLoop n m t s d r = .ok b r' →
      (b = true ∧ Produces false r r') ∨ (b = false ∧ Frame r r') := by
  intro n
  induction n with
  | zero => intro m t s d r b r' h; simp [HandleRProcessingInstructionLoop] at h
  | succ n ih =>
    intro m t s d r b r' h
    simp only [HandleRProcessingInstructionLoop] at h
    have step : ∀ {m t s d r1}, Frame r r1 →
        HandleRProcessingInstructionLoop n m t s d r1 = .ok b r' →
        (b = true ∧ Produces false r r') ∨ (b = false ∧ Frame r r') := by
      intro m t s d r1 hg h
      rcases ih _ _ _ _ _ _ _ h with ⟨h1, h2⟩ | ⟨h1, h2⟩
      · exact Or.inl ⟨h1, Produces.of_frame hg h2⟩
      · exact Or.inr ⟨h1, hg.trans h2⟩
    split at h
    · split at h
      · simp [malformed] at h
      · have hg : Frame r _ := frame_rget (by assumption)
        split at h
        · exact step hg h
        · split at h
          · exact step hg h
          · split at h
            · split at h
              · simp [malformed] at h
              · split at h
                · simp [malformed] at h
                · split at h
                  · cases h; exact Or.inr ⟨rfl, hg⟩
                  · split at h
                    · simp [malformed] at h
                    · cases h; exact Or.inl ⟨rfl, produces_push _ hg⟩
            · split at h
              · simp [malformed] at h
              · exact step hg h
    · cases h; exact Or.inr ⟨rfl, Frame.refl _⟩

theorem produces_HandleRProcessingInstruction {r : XMLEventReader} {b : Bool}
    {r' : XMLEventReader} (h : HandleRProcessingInstruction r = .ok b r') :
    (b = true ∧ Produces false r r') ∨ (b = false ∧ Frame r r') :=
  produces_HandleRProcessingInstructionLoop _ _ _ _ _ _ _ _ h

theorem produces_HandleRCommentLoop : ∀ (n m : Nat) (d : Str) (r : XMLEventReader) (b : Bool)
    (r' : XMLEventReader),
    HandleRCommentLoop n m d r = .ok b r' → b = true ∧ Produces false r r' := by
  intro n
  induction n with
  | zero => intro m d r b r' h; simp [HandleRCommentLoop] at h
  | succ n ih =>
    intro m d r b r' h
    simp only [HandleRCommentLoop] at h
    split at h
    · simp [malformed] at h
    · have hg : Frame r _ := frame_rget (by assumption)
      split at h
      · split at h
        · have := ih _ _ _ _ _ h
          exact ⟨this.1, Produces.of_frame hg this.2⟩
        · cases h; exact ⟨rfl, produces_push _ hg⟩
      · split at h
        · have := ih _ _ _ _ _ h
          exact ⟨this.1, Produces.of_frame hg this.2⟩
        · have := ih _ _ _ _ _ h
          exact ⟨this.1, Produces.of_frame hg this.2⟩

theorem produces_HandleRComment {r : XMLEventReader} {b : Bool} {r' : XMLEventReader}
    (h : HandleRComment r = .ok b r') : b = true ∧ Produces false r r' :=
  produces_HandleRCommentLoop _ _ _ _ _ _ h

/-- `HandleRTag` either queues a token, or has consumed an XML declaration and hands over
to the next `hasPrevious()` with the has-previous latch cleared. -/
theorem produces_HandleRTag {K : XMLEventReader → Result Bool} {r : XMLEventReader} {b : Bool}
    {r' : XMLEventReader} (h : HandleRTag K r = .ok b r') :
    (b = true ∧ Produces false r r') ∨
    ∃ r2, Frame r r2 ∧ K { r2 with m_bHasPreviousCalled := false } = .ok b r' := by
  simp only [HandleRTag] at h
  split at h
  · simp [malformed] at h
  · have hg : Frame r _ := frame_rget (by assumption)
    split at h
    · obtain ⟨b1, r1, h1, h2⟩ := bind_eq_ok h
      rcases produces_HandleRProcessingInstruction h1 with ⟨h3, h4⟩ | ⟨h3, h4⟩
      · subst h3
        simp only [if_true] at h2
        cases h2
        exact Or.inl ⟨rfl, Produces.of_frame hg h4⟩
      · subst h3
        simp only [Bool.false_eq_true, if_false] at h2
        exact Or.inr ⟨r1, hg.trans h4, h2⟩
    · split at h
      · obtain ⟨c1, r1, h1, h2⟩ := bind_eq_ok h
        have hw := hg.trans (frame_ConsumeRWhitespace h1)
        split at h2
        · simp [malformed] at h2
        · split at h2
          · simp [malformed] at h2
          · obtain ⟨e, r3, h3, h4⟩ := bind_eq_ok h2
            cases h4
            exact Or.inl ⟨rfl, produces_push _ (hw.trans (frame_HandleRTagStart h3))⟩
      · split at h
        · obtain ⟨c1, r1, h1, h2⟩ := bind_eq_ok h
          have hw := hg.trans (frame_ConsumeRWhitespace h1)
          split at h2
          · simp [malformed] at h2
          · split at h2
            · simp [malformed] at h2
            · obtain ⟨e, r3, h3, h4⟩ := bind_eq_ok h2
              cases h4
              exact Or.inl ⟨rfl, produces_rpush_pair _ _ (hw.trans (frame_HandleRTagStart h3))⟩
        · split at h
          · obtain ⟨e, r3, h3, h4⟩ := bind_eq_ok h
            cases h4
            exact Or.inl ⟨rfl, produces_push _ (hg.trans (frame_HandleRTagStart h3))⟩
          · split at h
            · split at h
              · simp [malformed] at h
              · have hg2 := hg.trans (frame_rget (by assumption))
                split at h
                · have := produces_HandleRComment h
                  exact Or.inl ⟨this.1, Produces.of_frame hg2 this.2⟩
                · have := produces_HandleRTagStartEnd h
                  exact Or.inl ⟨this.1, Produces.of_frame (frame_runget hg2) this.2⟩
            · have := produces_HandleRTagStartEnd h
              exact Or.inl ⟨this.1, Produces.of_frame hg this.2⟩

theorem Produces.events_ne {bForward : Bool} {r r' : XMLEventReader}
    (h : Produces bForward r r') : r'.m_aEvents ≠ [] := by
  obtain ⟨r1, aNew, hf, he, rfl⟩ := h
  have hne : aNew ≠ [] := by
    rcases he with ⟨e, rfl⟩ | ⟨q, l, rfl⟩
    · simp
    · split <;> simp
  simp [hne]

theorem Produces.frame {bForward : Bool} {r r' : XMLEventReader}
    (h : Produces bForward r r') : Frame r { r' with m_aEvents := r.m_aEvents } := by
  obtain ⟨r1, aNew, hf, he, rfl⟩ := h
  exact ⟨hf.hasNextCalled, hf.hasPreviousCalled, hf.direction, hf.dictionary, hf.rdictionary,
    rfl, hf.data, hf.consistent⟩

theorem get_none_after {r r1 : XMLEventReader} (h : r.get = (none, r1))
    (hc : r.m_aStream.consistent) : r1.m_aStream.after = [] := by
  obtain ⟨⟨b, a, e⟩, hn, hp, q, d, m1, m2⟩ := r
  simp only [XMLEventReader.get, IStream.get, XMLEventReader.setStream] at h
  cases e
  · cases a
    · simp at h; rw [← h]
    · simp at h
  · simp at h
    rw [← h]
    exact hc rfl

theorem rget_none_before {r r1 : XMLEventReader} (h : r.rget = (none, r1)) :
    r1.m_aStream.before = [] := by
  obtain ⟨⟨b, a, e⟩, hn, hp, q, d, m1, m2⟩ := r
  simp only [XMLEventReader.rget, IStream.rget, XMLEventReader.setStream] at h
  split at h
  · rename_i hb
    simp at h
    rw [← h]
    exact hb
  · simp at h

theorem turnForward_frame (r : XMLEventReader) :
    r.turnForward.m_bEventsAreForwardDirection = true ∧
    r.turnForward.m_bHasPreviousCalled = false ∧
    r.turnForward.m_bHasNextCalled = r.m_bHasNextCalled ∧
    r.turnForward.m_aEntityReplacementDictionary = r.m_aEntityReplacementDictionary ∧
    r.turnForward.m_aREntityReplacementDictionary = r.m_aREntityReplacementDictionary ∧
    r.turnForward.m_aStream = r.m_aStream := by
  unfold XMLEventReader.turnForward
  split
  · simp
  · rename_i h
    simp only [not_or, Bool.not_eq_true, Decidable.not_not] at h
    simp [h.1, h.2]

theorem turnBackward_frame (r : XMLEventReader) :
    r.turnBackward.m_bEventsAreForwardDirection = false ∧
    r.turnBackward.m_bHasNextCalled = false ∧
    r.turnBackward.m_bHasPreviousCalled = r.m_bHasPreviousCalled ∧
    r.turnBackward.m_aEntityReplacementDictionary = r.m_aEntityReplacementDictionary ∧
    r.turnBackward.m_aREntityReplacementDictionary = r.m_aREntityReplacementDictionary ∧
    r.turnBackward.m_aStream = r.m_aStream := by
  unfold XMLEventReader.turnBackward
  split
  · simp
  · rename_i h
    simp only [not_or, Bool.not_eq_true] at h
    simp [h.1, h.2]

/-- What a returning `hasNext` leaves behind. -/
theorem hasNextFuel_ok : ∀ (n : Nat) (r : XMLEventReader) (b : Bool) (r' : XMLEventReader),
    hasNextFuel n r = .ok b r' →
      r'.m_bEventsAreForwardDirection = true ∧ r'.m_bHasPreviousCalled = false ∧
      r'.m_aEntityReplacementDictionary = r.m_aEntityReplacementDictionary ∧
      r'.m_aREntityReplacementDictionary = r.m_aREntityReplacementDictionary ∧
      (r.m_aStream.consistent →
        r'.m_aStream.consistent ∧ r'.m_aStream.data = r.m_aStream.data) ∧
      (b = true → r'.m_aEvents ≠ []) ∧
      (b = false → r'.m_aEvents = [] ∧ r'.m_bHasNextCalled = true ∧
        ((r.m_bHasNextCalled = true ∧ r' = r.turnForward) ∨
          (r.m_aStream.consistent → r'.m_aStream.after = []))) := by
  intro n
  induction n with
  | zero => intro r b r' h; simp [hasNextFuel] at h
  | succ n ih =>
    intro r b r' h
    obtain ⟨t1, t2, t3, t4, t5, t6⟩ := turnForward_frame r
    simp only [hasNextFuel] at h
    split at h
    · rename_i hq
      cases h
      refine ⟨t1, t2, t4, t5, fun hc => ⟨by rw [t6]; exact hc, by rw [t6]⟩, fun _ => ?_, by simp⟩
      intro h0; rw [h0] at hq; simp at hq
    · rename_i hq
      have hq0 : r.turnForward.m_aEvents = [] := by
        cases hq' : r.turnForward.m_aEvents with
        | nil => rfl
        | cons a l => rw [hq'] at hq; simp at hq
      split at h
      · rename_i hl
        cases h
        refine ⟨t1, t2, t4, t5, fun hc => ⟨by rw [t6]; exact hc, by rw [t6]⟩, by simp,
          fun _ => ⟨hq0, hl, Or.inl ⟨by rw [← t3]; exact hl, rfl⟩⟩⟩
      · split at h
        · rename_i r1 hg
          cases h
          have hf := frame_get hg
          refine ⟨hf.direction.trans t1, hf.hasPreviousCalled.trans t2, hf.dictionary.trans t4,
            hf.rdictionary.trans t5, fun hc => ?_, by simp, fun _ => ⟨hf.events.trans hq0,
              hf.hasNextCalled, Or.inr fun hc => get_none_after hg (by simpa [t6] using hc)⟩⟩
          have hc' : ({ r.turnForward with m_bHasNextCalled := true } :
              XMLEventReader).m_aStream.consistent := by simpa [t6] using hc
          exact ⟨hf.consistent hc', by rw [hf.data hc']; simp [t6]⟩
        · rename_i c r1 hg
          have hf := frame_get hg
          have base : ∀ {r2 : XMLEventReader}, Produces true r1 r2 →
              r2.m_bEventsAreForwardDirection = true ∧ r2.m_bHasPreviousCalled = false ∧
              r2.m_aEntityReplacementDictionary = r.m_aEntityReplacementDictionary ∧
              r2.m_aREntityReplacementDictionary = r.m_aREntityReplacementDictionary ∧
              (r.m_aStream.consistent →
                r2.m_aStream.consistent ∧ r2.m_aStream.data = r.m_aStream.data) ∧
              r2.m_aEvents ≠ [] := by
            intro r2 hp
            have hf2 := hf.trans hp.frame
            refine ⟨hf2.direction.trans t1, hf2.hasPreviousCalled.trans t2,
              hf2.dictionary.trans t4, hf2.rdictionary.trans t5, fun hc => ?_, hp.events_ne⟩
            have hc' : ({ r.turnForward with m_bHasNextCalled := true } :
                XMLEventReader).m_aStream.consistent := by simpa [t6] using hc
            exact ⟨hf2.consistent hc', by rw [hf2.data hc']; simp [t6]⟩
          split at h
          · rcases produces_HandleTag h with ⟨hb, hp⟩ | ⟨r2, hf2, hk⟩
            · subst hb
              obtain ⟨b1, b2, b3, b4, b5, b6⟩ := base hp
              exact ⟨b1, b2, b3, b4, b5, fun _ => b6, by simp⟩
            · obtain ⟨i1, i2, i3, i4, i5, i6, i7⟩ := ih _ _ _ hk
              have hf3 := hf.trans hf2
              have hcons : r.m_aStream.consistent → r2.m_aStream.consistent ∧
                  r2.m_aStream.data = r.m_aStream.data := by
                intro hc
                have hc' : ({ r.turnForward with m_bHasNextCalled := true } :
                    XMLEventReader).m_aStream.consistent := by simpa [t6] using hc
                exact ⟨hf3.consistent hc', by rw [hf3.data hc']; simp [t6]⟩
              refine ⟨i1, i2, i3.trans (hf3.dictionary.trans t4),
                i4.trans (hf3.rdictionary.trans t5), fun hc => ?_, i6, fun hb => ?_⟩
              · obtain ⟨j1, j2⟩ := i5 (hcons hc).1
                exact ⟨j1, j2.trans (hcons hc).2⟩
              · obtain ⟨j1, j2, j3⟩ := i7 hb
                refine ⟨j1, j2, Or.inr fun hc => ?_⟩
                rcases j3 with ⟨j4, _⟩ | j4
                · simp at j4
                · exact j4 (hcons hc).1
          · have := produces_HandleText h
            obtain ⟨b1, b2, b3, b4, b5, b6⟩ := base this.2
            refine ⟨b1, b2, b3, b4, b5, fun _ => b6, ?_⟩
            intro hb; rw [this.1] at hb; simp at hb

/-- What a returning `hasPrevious` leaves behind. -/
theorem hasPreviousFuel_ok : ∀ (n : Nat) (r : XMLEventReader) (b : Bool)
    (r' : XMLEventReader),
    hasPreviousFuel n r = .ok b r' →
      r'.m_bEventsAreForwardDirection = false ∧ r'.m_bHasNextCalled = false ∧
      r'.m_aEntityReplacementDictionary = r.m_aEntityReplacementDictionary ∧
      r'.m_aREntityReplacementDictionary = r.m_aREntityReplacementDictionary ∧
      (r.m_aStream.consistent →
        r'.m_aStream.consistent ∧ r'.m_aStream.data = r.m_aStream.data) ∧
      (b = true → r'.m_aEvents ≠ []) ∧
      (b = false → r'.m_aEvents = [] ∧ r'.m_bHasPreviousCalled = true ∧
        ((r.m_bHasPreviousCalled = true ∧ r' = r.turnBackward) ∨
          r'.m_aStream.before = [])) := by
  intro n
  induction n with
  | zero => intro r b r' h; simp [hasPreviousFuel] at h
  | succ n ih =>
    intro r b r' h
    obtain ⟨t1, t2, t3, t4, t5, t6⟩ := turnBackward_frame r
    simp only [hasPreviousFuel] at h
    split at h
    · rename_i hq
      cases h
      refine ⟨t1, t2, t4, t5, fun hc => ⟨by rw [t6]; exact hc, by rw [t6]⟩, fun _ => ?_, by simp⟩
      intro h0; rw [h0] at hq; simp at hq
    · rename_i hq
      have hq0 : r.turnBackward.m_aEvents = [] := by
        cases hq' : r.turnBackward.m_aEvents with
        | nil => rfl
        | cons a l => rw [hq'] at hq; simp at hq
      split at h
      · rename_i hl
        cases h
        refine ⟨t1, t2, t4, t5, fun hc => ⟨by rw [t6]; exact hc, by rw [t6]⟩, by simp,
          fun _ => ⟨hq0, hl, Or.inl ⟨by rw [← t3]; exact hl, rfl⟩⟩⟩
      · split at h
        · rename_i r1 hg
          cases h
          have hf := frame_rget hg
          refine ⟨hf.direction.trans t1, hf.hasNextCalled.trans t2, hf.dictionary.trans t4,
            hf.rdictionary.trans t5, fun hc => ?_, by simp, fun _ => ⟨hf.events.trans hq0,
              hf.hasPreviousCalled, Or.inr (rget_none_before hg)⟩⟩
          have hc' : ({ r.turnBackward with m_bHasPreviousCalled := true } :
              XMLEventReader).m_aStream.consistent := by simpa [t6] using hc
          exact ⟨hf.consistent hc', by rw [hf.data hc']; simp [t6]⟩
        · rename_i c r1 hg
          have hf := frame_rget hg
          have base : ∀ {r2 : XMLEventReader}, Produces false r1 r2 →
              r2.m_bEventsAreForwardDirection = false ∧ r2.m_bHasNextCalled = false ∧
              r2.m_aEntityReplacementDictionary = r.m_aEntityReplacementDictionary ∧
              r2.m_aREntityReplacementDictionary = r.m_aREntityReplacementDictionary ∧
              (r.m_aStream.consistent →
                r2.m_aStream.consistent ∧ r2.m_aStream.data = r.m_aStream.data) ∧
              r2.m_aEvents ≠ [] := by
            intro r2 hp
            have hf2 := hf.trans hp.frame
            refine ⟨hf2.direction.trans t1, hf2.hasNextCalled.trans t2,
              hf2.dictionary.trans t4, hf2.rdictionary.trans t5, fun hc => ?_, hp.events_ne⟩
            have hc' : ({ r.turnBackward with m_bHasPreviousCalled := true } :
                XMLEventReader).m_aStream.consistent := by simpa [t6] using hc
            exact ⟨hf2.consistent hc', by rw [hf2.data hc']; simp [t6]⟩
          split at h
          · rcases produces_HandleRTag h with ⟨hb, hp⟩ | ⟨r2, hf2, hk⟩
            · subst hb
              obtain ⟨b1, b2, b3, b4, b5, b6⟩ := base hp
              exact ⟨b1, b2, b3, b4, b5, fun _ => b6, by simp⟩
            · obtain ⟨i1, i2, i3, i4, i5, i6, i7⟩ := ih _ _ _ hk
              have hf3 := hf.trans hf2
              have hcons : r.m_aStream.consistent → r2.m_aStream.consistent ∧
                  r2.m_aStream.data = r.m_aStream.data := by
                intro hc
                have hc' : ({ r.turnBackward with m_bHasPreviousCalled := true } :
                    XMLEventReader).m_aStream.consistent := by simpa [t6] using hc
                exact ⟨hf3.consistent hc', by rw [hf3.data hc']; simp [t6]⟩
              refine ⟨i1, i2, i3.trans (hf3.dictionary.trans t4),
                i4.trans (hf3.rdictionary.trans t5), fun hc => ?_, i6, fun hb => ?_⟩
              · obtain ⟨j1, j2⟩ := i5 (hcons hc).1
                exact ⟨j1, j2.trans (hcons hc).2⟩
              · obtain ⟨j1, j2, j3⟩ := i7 hb
                refine ⟨j1, j2, Or.inr ?_⟩
                rcases j3 with ⟨j4, _⟩ | j4
                · simp at j4
                · exact j4
          · have := produces_HandleRText h
            obtain ⟨b1, b2, b3, b4, b5, b6⟩ := base this.2
            refine ⟨b1, b2, b3, b4, b5, fun _ => b6, ?_⟩
            intro hb; rw [this.1] at hb; simp at hb

/-- C7. `hasNext` is idempotent: when `hasNext` returns, an immediately repeated
`hasNext` returns the same boolean and leaves the reader (queue, both latches,
direction flag, stream, dictionaries) exactly as the first call left it; likewise for
`hasPrevious`. This holds in every reader state, reachable or not. -/
theorem has_calls_idempotent (r : XMLEventReader) (b : Bool) (r' : XMLEventReader) :
    (hasNext r = .ok b r' → hasNext r' = .ok b r') ∧
    (hasPrevious r = .ok b r' → hasPrevious r' = .ok b r') := by
  constructor
  · intro h
    obtain ⟨h1, h2, -, -, -, h6, h7⟩ := hasNextFuel_ok _ _ _ _ h
    have ht : r'.turnForward = r' := by
      simp [XMLEventReader.turnForward, h1, h2]
    simp only [hasNext, XMLEventReader.budget, hasNextFuel, ht]
    cases b
    · obtain ⟨j1, j2, -⟩ := h7 rfl
      simp [j1, j2]
    · have := h6 rfl
      rw [if_pos (List.length_pos.mpr this)]
  · intro h
    obtain ⟨h1, h2, -, -, -, h6, h7⟩ := hasPreviousFuel_ok _ _ _ _ h
    have ht : r'.turnBackward = r' := by
      simp [XMLEventReader.turnBackward, h1, h2]
    simp only [hasPrevious, XMLEventReader.rbudget, hasPreviousFuel, ht]
    cases b
    · obtain ⟨j1, j2, -⟩ := h7 rfl
      simp [j1, j2]
    · have := h6 rfl
      rw [if_pos (List.length_pos.mpr this)]

theorem popEvent_ok {what : String} {r : XMLEventReader} {e : XMLEvent} {r' : XMLEventReader}
    (h : popEvent what r = .ok e r') :
    ∃ rest, r.m_aEvents = e :: rest ∧ r' = { r with m_aEvents := rest } := by
  unfold popEvent at h
  split at h
  · simp [logicError] at h
  · rename_i e1 rest hq
    cases h
    exact ⟨rest, hq, rfl⟩

theorem invariant_hasNext {r : XMLEventReader} {b : Bool} {r' : XMLEventReader}
    (hi : ReaderInvariant r) (h : hasNext r = .ok b r') : ReaderInvariant r' := by
  obtain ⟨c, i2, i3, i1, i1'⟩ := hi
  obtain ⟨h1, h2, -, -, h5, h6, h7⟩ := hasNextFuel_ok _ _ _ _ h
  refine ⟨(h5 c).1, fun _ => ⟨h1, h2⟩, fun hp => by rw [h2] at hp; simp at hp, ?_,
    fun hp => by rw [h2] at hp; simp at hp⟩
  intro hn hq
  cases b
  · obtain ⟨-, -, j3⟩ := h7 rfl
    rcases j3 with ⟨j4, j5⟩ | j4
    · have ht : r.turnForward = r := by
        simp [XMLEventReader.turnForward, (i2 j4).1, (i2 j4).2]
      rw [ht] at j5
      subst j5
      exact i1 hn hq
    · exact j4 c
  · exact absurd hq (h6 rfl)

theorem invariant_hasPrevious {r : XMLEventReader} {b : Bool} {r' : XMLEventReader}
    (hi : ReaderInvariant r) (h : hasPrevious r = .ok b r') : ReaderInvariant r' := by
  obtain ⟨c, i2, i3, i1, i1'⟩ := hi
  obtain ⟨h1, h2, -, -, h5, h6, h7⟩ := hasPreviousFuel_ok _ _ _ _ h
  refine ⟨(h5 c).1, fun hn => by rw [h2] at hn; simp at hn, fun _ => ⟨h1, h2⟩,
    fun hn => by rw [h2] at hn; simp at hn, ?_⟩
  intro hp hq
  cases b
  · obtain ⟨-, -, j3⟩ := h7 rfl
    rcases j3 with ⟨j4, j5⟩ | j4
    · have ht : r.turnBackward = r := by
        simp [XMLEventReader.turnBackward, (i3 j4).1, (i3 j4).2]
      rw [ht] at j5
      subst j5
      exact i1' hp hq
    · exact j4
  · exact absurd hq (h6 rfl)

theorem invariant_nextEvent {r : XMLEventReader} {e : XMLEvent} {r' : XMLEventReader}
    (hi : ReaderInvariant r) (h : nextEvent r = .ok e r') : ReaderInvariant r' := by
  unfold nextEvent at h
  split at h
  · simp [logicError] at h
  · rename_i hc
    simp only [not_or, Bool.not_eq_true, ne_eq, Decidable.not_not] at hc
    split at h
    · obtain ⟨b, r1, h1, h2⟩ := bind_eq_ok h
      have hi1 := invariant_hasNext hi h1
      obtain ⟨k1, k2, -⟩ := hasNextFuel_ok _ _ _ _ h1
      split at h2
      · simp [logicError] at h2
      · obtain ⟨rest, -, rfl⟩ := popEvent_ok h2
        exact ⟨hi1.1, by simp, by simp [k2], by simp, by simp [k2]⟩
    · obtain ⟨rest, -, rfl⟩ := popEvent_ok h
      exact ⟨hi.1, by simp, by simp [hc.1], by simp, by simp [hc.1]⟩

theorem invariant_previousEvent {r : XMLEventReader} {e : XMLEvent} {r' : XMLEventReader}
    (hi : ReaderInvariant r) (h : previousEvent r = .ok e r') : ReaderInvariant r' := by
  unfold previousEvent at h
  split at h
  · simp [logicError] at h
  · rename_i hc
    simp only [not_or, Bool.not_eq_true] at hc
    split at h
    · obtain ⟨b, r1, h1, h2⟩ := bind_eq_ok h
      have hi1 := invariant_hasPrevious hi h1
      obtain ⟨k1, k2, -⟩ := hasPreviousFuel_ok _ _ _ _ h1
      split at h2
      · simp [logicError] at h2
      · obtain ⟨rest, -, rfl⟩ := popEvent_ok h2
        exact ⟨hi1.1, by simp [k2], by simp, by simp [k2], by simp⟩
    · obtain ⟨rest, -, rfl⟩ := popEvent_ok h
      exact ⟨hi.1, by simp [hc.1], by simp, by simp [hc.1], by simp⟩

theorem invariant_addToEntityReplacementDictionary {r : XMLEventReader} {strName strText : Str}
    {n : Int} {r' : XMLEventReader} (hi : ReaderInvariant r)
    (h : addToEntityReplacementDictionary strName strText r = .ok n r') :
    ReaderInvariant r' := by
  unfold addToEntityReplacementDictionary at h
  split at h
  · simp at h
  · cases h
    exact hi

/-- Every reachable reader satisfies the invariant. -/
theorem invariant_of_reachable {r : XMLEventReader} (h : Reachable r) : ReaderInvariant r := by
  induction h with
  | new aStream hc =>
    exact ⟨hc, by simp [XMLEventReader.new], by simp [XMLEventReader.new],
      by simp [XMLEventReader.new], by simp [XMLEventReader.new]⟩
  | hasNext _ h ih => exact invariant_hasNext ih h
  | nextEvent _ h ih => exact invariant_nextEvent ih h
  | hasPrevious _ h ih => exact invariant_hasPrevious ih h
  | previousEvent _ h ih => exact invariant_previousEvent ih h
  | addToEntityReplacementDictionary _ h ih =>
    exact invariant_addToEntityReplacementDictionary ih h

/-- C6. In every reader state reachable from construction through public calls that did
not throw: when `hasNext` returns true the queue is non-empty afterwards, and when it
returns false the queue is empty and no byte is left behind the get position; when
`hasPrevious` returns true the queue is non-empty afterwards, and when it returns false
the queue is empty and no byte is left in front of the get position. -/
theorem has_calls_report_queue_and_stream_end (r : XMLEventReader) (hr : Reachable r) :
    (∀ (b : Bool) (r' : XMLEventReader), hasNext r = .ok b r' →
      (b = true → r'.m_aEvents ≠ []) ∧
      (b = false → r'.m_aEvents = [] ∧ r'.m_aStream.after = [])) ∧
    (∀ (b : Bool) (r' : XMLEventReader), hasPrevious r = .ok b r' →
      (b = true → r'.m_aEvents ≠ []) ∧
      (b = false → r'.m_aEvents = [] ∧ r'.m_aStream.before = [])) := by
  have hi := invariant_of_reachable hr
  constructor
  · intro b r' h
    obtain ⟨-, -, -, -, -, h6, h7⟩ := hasNextFuel_ok _ _ _ _ h
    have hi' := invariant_hasNext hi h
    exact ⟨h6, fun hb => ⟨(h7 hb).1, hi'.2.2.2.1 (h7 hb).2.1 (h7 hb).1⟩⟩
  · intro b r' h
    obtain ⟨-, -, -, -, -, h6, h7⟩ := hasPreviousFuel_ok _ _ _ _ h
    have hi' := invariant_hasPrevious hi h
    exact ⟨h6, fun hb => ⟨(h7 hb).1, hi'.2.2.2.2 (h7 hb).2.1 (h7 hb).1⟩⟩

/-! ## The queue and the direction -/

theorem turnForward_events_nil {r : XMLEventReader} (h : r.m_aEvents = []) :
    r.turnForward.m_aEvents = [] := by
  unfold XMLEventReader.turnForward
  split
  · rfl
  · exact h

theorem turnBackward_events_nil {r : XMLEventReader} (h : r.m_aEvents = []) :
    r.turnBackward.m_aEvents = [] := by
  unfold XMLEventReader.turnBackward
  split
  · rfl
  · exact h

theorem turnForward_eq_self {r : XMLEventReader} (h : r.turnForward.m_aEvents ≠ []) :
    r.turnForward = r := by
  unfold XMLEventReader.turnForward at h ⊢
  split
  · rename_i hc
    rw [if_pos hc] at h
    exact absurd rfl h
  · rfl

theorem turnBackward_eq_self {r : XMLEventReader} (h : r.turnBackward.m_aEvents ≠ []) :
    r.turnBackward = r := by
  unfold XMLEventReader.turnBackward at h ⊢
  split
  · rename_i hc
    rw [if_pos hc] at h
    exact absurd rfl h
  · rfl

theorem Produces.emitted {bForward : Bool} {r r' : XMLEventReader}
    (h : Produces bForward r r') (hq : r.m_aEvents = []) : Emitted bForward r'.m_aEvents := by
  obtain ⟨r1, aNew, hf, he, rfl⟩ := h
  have h1 : r1.m_aEvents = [] := hf.events.trans hq
  simpa [h1] using he

/-- A `hasNext` call that starts on the empty queue and returns `true` leaves the events
of one token in the queue. -/
theorem hasNextFuel_emitted : ∀ (n : Nat) (r : XMLEventReader) (r' : XMLEventReader),
    hasNextFuel n r = .ok true r' → r.turnForward.m_aEvents = [] →
      Emitted true r'.m_aEvents := by
  intro n
  induction n with
  | zero => intro r r' h; simp [hasNextFuel] at h
  | succ n ih =>
    intro r r' h hq0
    simp only [hasNextFuel] at h
    split at h
    · rename_i hq; rw [hq0] at hq; simp at hq
    · split at h
      · simp at h
      · split at h
        · simp at h
        · rename_i c r1 hg
          have hf := frame_get hg
          have h1 : r1.m_aEvents = [] := hf.events.trans hq0
          split at h
          · rcases produces_HandleTag h with ⟨-, hp⟩ | ⟨r2, hf2, hk⟩
            · exact hp.emitted h1
            · exact ih _ _ hk (turnForward_events_nil (hf2.events.trans h1))
          · exact (produces_HandleText h).2.emitted h1

/-- A `hasPrevious` call that starts on the empty queue and returns `true` leaves the
events of one token in the queue. -/
theorem hasPreviousFuel_emitted : ∀ (n : Nat) (r : XMLEventReader) (r' : XMLEventReader),
    hasPreviousFuel n r = .ok true r' → r.turnBackward.m_aEvents = [] →
      Emitted false r'.m_aEvents := by
  intro n
  induction n with
  | zero => intro r r' h; simp [hasPreviousFuel] at h
  | succ n ih =>
    intro r r' h hq0
    simp only [hasPreviousFuel] at h
    split at h
    · rename_i hq; rw [hq0] at hq; simp at hq
    · split at h
      · simp at h
      · split at h
        · simp at h
        · rename_i c r1 hg
          have hf := frame_rget hg
          have h1 : r1.m_aEvents = [] := hf.events.trans hq0
          split at h
          · rcases produces_HandleRTag h with ⟨-, hp⟩ | ⟨r2, hf2, hk⟩
            · exact hp.emitted h1
            · exact ih _ _ hk (turnBackward_events_nil (hf2.events.trans h1))
          · exact (produces_HandleRText h).2.emitted h1

theorem queue_hasNext {r r' : XMLEventReader} {b : Bool} (hr : Reachable r)
    (ih : r.m_aEvents ≠ [] → QueueOfCurrentDirection r)
    (h : hasNext r = .ok b r') (hq : r'.m_aEvents ≠ []) : QueueOfCurrentDirection r' := by
  by_cases h0 : r.turnForward.m_aEvents = []
  · obtain ⟨k1, -, -, -, -, -, k7⟩ := hasNextFuel_ok _ _ _ _ h
    have hb : b = true := by
      cases b
      · exact absurd (k7 rfl).1 hq
      · rfl
    subst hb
    refine ⟨r, r', hr, ?_, ?_, List.suffix_refl _⟩
    · rw [if_pos k1]; exact ⟨h0, h⟩
    · rw [k1]; exact hasNextFuel_emitted _ _ _ h h0
  · have hs := turnForward_eq_self h0
    simp only [hasNext, XMLEventReader.budget, hasNextFuel] at h
    rw [if_pos (List.length_pos.mpr h0)] at h
    cases h
    rw [hs] at h0 ⊢
    exact ih h0

theorem queue_hasPrevious {r r' : XMLEventReader} {b : Bool} (hr : Reachable r)
    (ih : r.m_aEvents ≠ [] → QueueOfCurrentDirection r)
    (h : hasPrevious r = .ok b r') (hq : r'.m_aEvents ≠ []) : QueueOfCurrentDirection r' := by
  by_cases h0 : r.turnBackward.m_aEvents = []
  · obtain ⟨k1, -, -, -, -, -, k7⟩ := hasPreviousFuel_ok _ _ _ _ h
    have hb : b = true := by
      cases b
      · exact absurd (k7 rfl).1 hq
      · rfl
    subst hb
    refine ⟨r, r', hr, ?_, ?_, List.suffix_refl _⟩
    · rw [if_neg (by simp [k1])]; exact ⟨h0, h⟩
    · rw [k1]; exact hasPreviousFuel_emitted _ _ _ h h0
  · have hs := turnBackward_eq_self h0
    simp only [hasPrevious, XMLEventReader.rbudget, hasPreviousFuel] at h
    rw [if_pos (List.length_pos.mpr h0)] at h
    cases h
    rw [hs] at h0 ⊢
    exact ih h0

theorem queue_nextEvent {r r' : XMLEventReader} {e : XMLEvent} (hr : Reachable r)
    (ih : r.m_aEvents ≠ [] → QueueOfCurrentDirection r)
    (h : nextEvent r = .ok e r') : QueueOfCurrentDirection r' := by
  unfold nextEvent at h
  split at h
  · simp [logicError] at h
  · split at h
    · rename_i he
      obtain ⟨b, r1, h1, h2⟩ := bind_eq_ok h
      split at h2
      · simp [logicError] at h2
      · rename_i hb
        have hb' : b = true := by simpa using hb
        subst hb'
        obtain ⟨rest, hr1, rfl⟩ := popEvent_ok h2
        obtain ⟨k1, -⟩ := hasNextFuel_ok _ _ _ _ h1
        have h0 : r.turnForward.m_aEvents = [] :=
          turnForward_events_nil (List.length_eq_zero.mp (Nat.le_zero.mp he.1))
        have hr1' : r1.m_aEvents = e :: rest := hr1
        refine ⟨r, r1, hr, ?_, ?_, ?_⟩
        · show (if r1.m_bEventsAreForwardDirection = true then _ else _)
          rw [if_pos k1]; exact ⟨h0, h1⟩
        · show Emitted r1.m_bEventsAreForwardDirection r1.m_aEvents
          rw [k1]; exact hasNextFuel_emitted _ _ _ h1 h0
        · show List.IsSuffix rest r1.m_aEvents
          rw [hr1']; exact List.suffix_cons e rest
    · obtain ⟨rest, hr1, rfl⟩ := popEvent_ok h
      have hr1' : r.m_aEvents = e :: rest := hr1
      obtain ⟨r0, r1, hr0, hd, hem, hs⟩ := ih (by rw [hr1']; simp)
      refine ⟨r0, r1, hr0, hd, hem, ?_⟩
      show List.IsSuffix rest r1.m_aEvents
      rw [hr1'] at hs
      exact (List.suffix_cons e rest).trans hs

theorem queue_previousEvent {r r' : XMLEventReader} {e : XMLEvent} (hr : Reachable r)
    (ih : r.m_aEvents ≠ [] → QueueOfCurrentDirection r)
    (h : previousEvent r = .ok e r') : QueueOfCurrentDirection r' := by
  unfold previousEvent at h
  split at h
  · simp [logicError] at h
  · split at h
    · rename_i he
      obtain ⟨b, r1, h1, h2⟩ := bind_eq_ok h
      split at h2
      · simp [logicError] at h2
      · rename_i hb
        have hb' : b = true := by simpa using hb
        subst hb'
        obtain ⟨rest, hr1, rfl⟩ := popEvent_ok h2
        obtain ⟨k1, -⟩ := hasPreviousFuel_ok _ _ _ _ h1
        have h0 : r.turnBackward.m_aEvents = [] :=
          turnBackward_events_nil (List.length_eq_zero.mp (Nat.le_zero.mp he.1))
        have hr1' : r1.m_aEvents = e :: rest := hr1
        refine ⟨r, r1, hr, ?_, ?_, ?_⟩
        · show (if r1.m_bEventsAreForwardDirection = true then _ else _)
          rw [if_neg (by simp [k1])]; exact ⟨h0, h1⟩
        · show Emitted r1.m_bEventsAreForwardDirection r1.m_aEvents
          rw [k1]; exact hasPreviousFuel_emitted _ _ _ h1 h0
        · show List.IsSuffix rest r1.m_aEvents
          rw [hr1']; exact List.suffix_cons e rest
    · obtain ⟨rest, hr1, rfl⟩ := popEvent_ok h
      have hr1' : r.m_aEvents = e :: rest := hr1
      obtain ⟨r0, r1, hr0, hd, hem, hs⟩ := ih (by rw [hr1']; simp)
      refine ⟨r0, r1, hr0, hd, hem, ?_⟩
      show List.IsSuffix rest r1.m_aEvents
      rw [hr1'] at hs
      exact (List.suffix_cons e rest).trans hs

/-- In every reachable reader a non-empty queue holds events of the current direction
only. -/
theorem queue_of_reachable {r : XMLEventReader} (h : Reachable r) :
    r.m_aEvents ≠ [] → QueueOfCurrentDirection r := by
  induction h with
  | new aStream hc => intro h; simp [XMLEventReader.new] at h
  | hasNext hr h ih => exact queue_hasNext hr ih h
  | nextEvent hr h ih => exact fun _ => queue_nextEvent hr ih h
  | hasPrevious hr h ih => exact queue_hasPrevious hr ih h
  | previousEvent hr h ih => exact fun _ => queue_previousEvent hr ih h
  | addToEntityReplacementDictionary hr h ih =>
    intro hq
    unfold addToEntityReplacementDictionary at h
    split at h
    · simp at h
    · cases h
      exact ih hq

/-- A has-call on a reader whose queue the call empties first: the queue afterwards is
empty with `false`, and holds the events of one token with `true`. -/
theorem hasPrevious_queue_after_flip {r r' : XMLEventReader} {b : Bool}
    (h0 : r.turnBackward.m_aEvents = []) (h : hasPrevious r = .ok b r') :
    (b = true ∧ Emitted false r'.m_aEvents) ∨ (b = false ∧ r'.m_aEvents = []) := by
  cases b
  · exact Or.inr ⟨rfl, ((hasPreviousFuel_ok _ _ _ _ h).2.2.2.2.2.2 rfl).1⟩
  · exact Or.inl ⟨rfl, hasPreviousFuel_emitted _ _ _ h h0⟩

theorem hasNext_queue_after_flip {r r' : XMLEventReader} {b : Bool}
    (h0 : r.turnForward.m_aEvents = []) (h : hasNext r = .ok b r') :
    (b = true ∧ Emitted true r'.m_aEvents) ∨ (b = false ∧ r'.m_aEvents = []) := by
  cases b
  · exact Or.inr ⟨rfl, ((hasNextFuel_ok _ _ _ _ h).2.2.2.2.2.2 rfl).1⟩
  · exact Or.inl ⟨rfl, hasNextFuel_emitted _ _ _ h h0⟩

/-- C10. A direction flip discards the queue. Called while the direction flag is forward
or the has-next latch is set, `hasPrevious` gives the result and the final reader it
gives when the queue is empty before the call, whatever was queued, and the queue it
leaves is empty or holds the events the backward reading of one token yields; and so
does `hasNext` called while the direction flag is backward or the has-previous latch is
set, with the forward reading. Hence in every reachable reader a non-empty queue holds
events of the current direction only: it is what is left of the queue one `hasNext`
call, in the forward direction, or one `hasPrevious` call, in the backward direction,
built up from the empty queue. -/
theorem direction_flip_discards_queue (r : XMLEventReader) :
    (r.m_bEventsAreForwardDirection = true ∨ r.m_bHasNextCalled = true →
      hasPrevious r = hasPrevious { r with m_aEvents := [] } ∧
      ∀ (b : Bool) (r' : XMLEventReader), hasPrevious r = .ok b r' →
        (b = true ∧ Emitted false r'.m_aEvents) ∨ (b = false ∧ r'.m_aEvents = [])) ∧
    (r.m_bEventsAreForwardDirection = false ∨ r.m_bHasPreviousCalled = true →
      hasNext r = hasNext { r with m_aEvents := [] } ∧
      ∀ (b : Bool) (r' : XMLEventReader), hasNext r = .ok b r' →
        (b = true ∧ Emitted true r'.m_aEvents) ∨ (b = false ∧ r'.m_aEvents = [])) ∧
    (Reachable r → r.m_aEvents ≠ [] → QueueOfCurrentDirection r) := by
  refine ⟨?_, ?_, queue_of_reachable⟩
  · intro h
    have hc : r.m_bHasNextCalled = true ∨ r.m_bEventsAreForwardDirection = true := h.symm
    have ht : ({ r with m_aEvents := [] } : XMLEventReader).turnBackward = r.turnBackward := by
      simp only [XMLEventReader.turnBackward]
      rw [if_pos hc, if_pos hc]
    have h0 : r.turnBackward.m_aEvents = [] := by
      simp only [XMLEventReader.turnBackward]
      rw [if_pos hc]
    refine ⟨?_, fun b r' hh => hasPrevious_queue_after_flip h0 hh⟩
    simp only [hasPrevious, XMLEventReader.rbudget, hasPreviousFuel, ht]
  · intro h
    have hc : r.m_bHasPreviousCalled = true ∨ r.m_bEventsAreForwardDirection ≠ true := by
      rcases h with h | h
      · exact Or.inr (by simp [h])
      · exact Or.inl h
    have ht : ({ r with m_aEvents := [] } : XMLEventReader).turnForward = r.turnForward := by
      simp only [XMLEventReader.turnForward]
      rw [if_pos hc, if_pos hc]
    have h0 : r.turnForward.m_aEvents = [] := by
      simp only [XMLEventReader.turnForward]
      rw [if_pos hc]
    refine ⟨?_, fun b r' hh => hasNext_queue_after_flip h0 hh⟩
    simp only [hasNext, XMLEventReader.budget, hasNextFuel, ht]

/-- After `hasNext` on `<a>x` the start event is queued; `hasPrevious` then behaves as on
the empty queue, and that reader is reachable with a queue of the forward direction. -/
theorem direction_flip_discards_queue_witness :
    (hasPrevious { XMLEventReader.new ⟨['>', 'a', '<'], ['x'], false⟩ with
        m_aEvents := [startEvent none ['a'] []], m_bHasNextCalled := true } =
      hasPrevious { XMLEventReader.new ⟨['>', 'a', '<'], ['x'], false⟩ with
        m_aEvents := [], m_bHasNextCalled := true } ∧
      ∀ (b : Bool) (r' : XMLEventReader),
        hasPrevious { XMLEventReader.new ⟨['>', 'a', '<'], ['x'], false⟩ with
          m_aEvents := [startEvent none ['a'] []], m_bHasNextCalled := true } = .ok b r' →
        (b = true ∧ Emitted false r'.m_aEvents) ∨ (b = false ∧ r'.m_aEvents = [])) ∧
    QueueOfCurrentDirection { XMLEventReader.new ⟨['>', 'a', '<'], ['x'], false⟩ with
        m_aEvents := [startEvent none ['a'] []], m_bHasNextCalled := true } :=
  ⟨(direction_flip_discards_queue _).1 (Or.inl rfl),
   (direction_flip_discards_queue _).2.2
     (Reachable.hasNext (b := true)
       (Reachable.new (IStream.ofData ['<', 'a', '>', 'x'])
         (by simp [IStream.consistent, IStream.ofData]))
       (by decide))
     (by simp)⟩

/-! ## Bytes of names -/

theorem isNameByte_cases {c : Char} (h : isNameByte c = true) :
    isalnum c = true ∨ c = '-' ∨ c = '_' ∨ c = '.' := by
  simpa [isNameByte, or_assoc] using h

theorem isalnum_not_special {c : Char} (h : isalnum c = true) :
    isspace c = false ∧ c ≠ '<' ∧ c ≠ '>' ∧ c ≠ '/' ∧ c ≠ ':' ∧ c ≠ '"' ∧ c ≠ '\'' ∧
    c ≠ '\x00' ∧ c ≠ '?' ∧ c ≠ '&' ∧ c ≠ ';' ∧ c ≠ '=' ∧ c ≠ '!' ∧ c ≠ '-' ∧ c ≠ '_' ∧ c ≠ '.' := by
  refine ⟨?_, ?_, ?_, ?_, ?_, ?_, ?_, ?_, ?_, ?_, ?_, ?_, ?_, ?_, ?_, ?_⟩
  · simp only [isalnum, isalpha, Bool.or_eq_true, Bool.and_eq_true, decide_eq_true_eq] at h
    simp only [isspace, Bool.or_eq_false_iff, Bool.and_eq_false_iff, decide_eq_false_iff_not]
    omega
  all_goals (rintro rfl; revert h; decide)

theorem isNameByte_not_special {c : Char} (h : isNameByte c = true) :
    isspace c = false ∧ c ≠ '<' ∧ c ≠ '>' ∧ c ≠ '/' ∧ c ≠ ':' ∧ c ≠ '"' ∧ c ≠ '\'' ∧
    c ≠ '\x00' ∧ c ≠ '?' ∧ c ≠ '&' ∧ c ≠ ';' ∧ c ≠ '=' ∧ c ≠ '!' := by
  rcases isNameByte_cases h with h | rfl | rfl | rfl
  · obtain ⟨h1, h2, h3, h4, h5, h6, h7, h8, h9, h10, h11, h12, h13, -⟩ := isalnum_not_special h
    exact ⟨h1, h2, h3, h4, h5, h6, h7, h8, h9, h10, h11, h12, h13⟩
  all_goals decide


/-! ## Protocol claims about `nextEvent` on its own -/

/-- C3, counterexample. On a newly constructed reader over `<a>`, `nextEvent` without any
`hasNext` call before it throws nothing: it returns the event `StartElement(a)`. -/
theorem nextEvent_on_new_reader_returns_event :
    nextEvent (XMLEventReader.new (IStream.ofData ['<', 'a', '>'])) =
      .ok (startEvent none ['a'] [])
        { XMLEventReader.new ⟨['>', 'a', '<'], [], false⟩ with m_bHasNextCalled := false } := by
  decide

/-- C3, amended. `nextEvent` throws `std::logic_error` whenever the direction flag is
backward or the has-previous latch is set, and whenever the queue is empty while the
has-next latch is set (a `hasNext` has returned false). With the queue empty and the
has-next latch clear, as on a newly constructed reader, `nextEvent` calls `hasNext`
itself: it throws `std::logic_error` when that call returns false, returns the first
queued event when it returns true, and passes the error on when it throws. -/
theorem nextEvent_calls_hasNext_itself (r : XMLEventReader) :
    (r.m_bHasPreviousCalled = true ∨ r.m_bEventsAreForwardDirection = false →
      ∃ what, nextEvent r = .throw (.logic_error what) r) ∧
    (r.m_bHasPreviousCalled = false → r.m_bEventsAreForwardDirection = true →
      r.m_aEvents = [] → r.m_bHasNextCalled = true →
      ∃ what, nextEvent r = .throw (.logic_error what) { r with m_bHasNextCalled := false }) ∧
    (r.m_bHasPreviousCalled = false → r.m_bEventsAreForwardDirection = true →
      r.m_aEvents = [] → r.m_bHasNextCalled = false →
      (∀ r', hasNext r = .ok false r' → ∃ what, nextEvent r = .throw (.logic_error what) r') ∧
      (∀ r', hasNext r = .ok true r' →
        ∃ pEvent aRest, r'.m_aEvents = pEvent :: aRest ∧
          nextEvent r = .ok pEvent { r' with m_aEvents := aRest, m_bHasNextCalled := false }) ∧
      (∀ e r', hasNext r = .throw e r' → nextEvent r = .throw e r')) := by
  refine ⟨?_, ?_, ?_⟩
  · intro h
    refine ⟨"Attempted XMLEventReader::nextEvent() without checking XMLEventReader::hasNext() first.", ?_⟩
    unfold nextEvent
    rw [if_pos (by rcases h with h | h <;> simp [h])]
    rfl
  · intro hp hd hq hn
    refine ⟨"XMLEventReader::nextEvent() while there isn't one, ignoring XMLEventReader::hasNext() == false.", ?_⟩
    simp [nextEvent, hp, hd, hq, hn, popEvent, logicError]
  · intro hp hd hq hn
    refine ⟨?_, ?_, ?_⟩
    · intro r' h
      refine ⟨"Attempted XMLEventReader::nextEvent() while there isn't one instead of checking XMLEventReader::hasNext() first.", ?_⟩
      simp [nextEvent, hp, hd, hq, hn, h, Result.bind, logicError]
    · intro r' h
      obtain ⟨-, -, -, -, -, h6, -⟩ := hasNextFuel_ok _ _ _ _ h
      cases hq' : r'.m_aEvents with
      | nil => exact absurd hq' (h6 rfl)
      | cons pEvent aRest =>
        refine ⟨pEvent, aRest, rfl, ?_⟩
        simp [nextEvent, hp, hd, hq, hn, h, Result.bind, popEvent, hq']
    · intro e r' h
      simp [nextEvent, hp, hd, hq, hn, h, Result.bind]

/-- On the empty input a new reader throws `std::logic_error`, on `<a>` it returns an
event. -/
theorem nextEvent_calls_hasNext_itself_witness :
    (∃ what, nextEvent (XMLEventReader.new (IStream.ofData [])) =
      .throw (.logic_error what)
        { XMLEventReader.new ⟨[], [], true⟩ with m_bHasNextCalled := true }) ∧
    (∃ pEvent aRest,
      ({ XMLEventReader.new ⟨['>', 'a', '<'], [], false⟩ with
          m_bHasNextCalled := true,
          m_aEvents := [startEvent none ['a'] []] } : XMLEventReader).m_aEvents =
        pEvent :: aRest ∧
      nextEvent (XMLEventReader.new (IStream.ofData ['<', 'a', '>'])) =
        .ok pEvent
          { XMLEventReader.new ⟨['>', 'a', '<'], [], false⟩ with
            m_aEvents := aRest, m_bHasNextCalled := false }) :=
  ⟨((nextEvent_calls_hasNext_itself _).2.2 rfl rfl rfl rfl).1 _ (by decide),
   ((nextEvent_calls_hasNext_itself _).2.2 rfl rfl rfl rfl).2.1 _ (by decide)⟩

/-- The reader states of the witnesses are reachable, for instance the new reader over
`<a>` and the one over the empty input. -/
theorem has_calls_report_queue_and_stream_end_witness :
    ({ XMLEventReader.new ⟨['>', 'a', '<'], [], false⟩ with
        m_bHasNextCalled := true,
        m_aEvents := [startEvent none ['a'] []] } : XMLEventReader).m_aEvents ≠ [] ∧
    (({ XMLEventReader.new ⟨[], [], true⟩ with
        m_bHasNextCalled := true } : XMLEventReader).m_aEvents = [] ∧
      ({ XMLEventReader.new ⟨[], [], true⟩ with
        m_bHasNextCalled := true } : XMLEventReader).m_aStream.after = []) ∧
    ({ XMLEventReader.new ⟨[], ['<', 'a', '>'], false⟩ with
        m_bHasPreviousCalled := true, m_bEventsAreForwardDirection := false,
        m_aEvents := [XMLEvent.ofStartElement ⟨⟨[], ['a'], []⟩, []⟩] } :
          XMLEventReader).m_aEvents ≠ [] :=
  ⟨((has_calls_report_queue_and_stream_end (XMLEventReader.new (IStream.ofData ['<', 'a', '>']))
      (Reachable.new _ (by intro h; simp [IStream.ofData] at h))).1 true _ (by decide)).1 rfl,
   ((has_calls_report_queue_and_stream_end (XMLEventReader.new (IStream.ofData []))
      (Reachable.new _ (by intro h; simp [IStream.ofData] at h))).1 false _ (by decide)).2 rfl,
   ((has_calls_report_queue_and_stream_end (XMLEventReader.new ⟨['>', 'a', '<'], [], false⟩)
      (Reachable.new _ (by intro h; simp at h))).2 true
        { XMLEventReader.new ⟨[], ['<', 'a', '>'], false⟩ with
          m_bHasPreviousCalled := true, m_bEventsAreForwardDirection := false,
          m_aEvents := [XMLEvent.ofStartElement ⟨⟨[], ['a'], []⟩, []⟩] } (by decide)).1 rfl⟩

/-- A second `hasNext` on `<a>` and a second `hasPrevious` behind `<a>` repeat the
first. -/
theorem has_calls_idempotent_witness :
    hasNext { XMLEventReader.new ⟨['>', 'a', '<'], [], false⟩ with
        m_bHasNextCalled := true, m_aEvents := [startEvent none ['a'] []] } =
      .ok true { XMLEventReader.new ⟨['>', 'a', '<'], [], false⟩ with
        m_bHasNextCalled := true, m_aEvents := [startEvent none ['a'] []] } ∧
    hasPrevious { XMLEventReader.new ⟨[], ['<', 'a', '>'], false⟩ with
        m_bHasPreviousCalled := true, m_bEventsAreForwardDirection := false,
        m_aEvents := [XMLEvent.ofStartElement ⟨⟨[], ['a'], []⟩, []⟩] } =
      .ok true { XMLEventReader.new ⟨[], ['<', 'a', '>'], false⟩ with
        m_bHasPreviousCalled := true, m_bEventsAreForwardDirection := false,
        m_aEvents := [XMLEvent.ofStartElement ⟨⟨[], ['a'], []⟩, []⟩] } :=
  ⟨(has_calls_idempotent (XMLEventReader.new (IStream.ofData ['<', 'a', '>'])) true _).1
      (by decide),
   (has_calls_idempotent (XMLEventReader.new ⟨['>', 'a', '<'], [], false⟩) true _).2
      (by decide)⟩


theorem isalpha_isalnum {c : Char} (h : isalpha c = true) : isalnum c = true := by
  simp [isalnum, h]

theorem nameStart_isNameByte {c : Char} (h : isalpha c = true ∨ c = '_') :
    isNameByte c = true := by
  rcases h with h | rfl
  · simp [isNameByte, isalpha_isalnum h]
  · decide

theorem validName_cons {n : Str} (h : validName n = true) :
    ∃ c cs, n = c :: cs ∧ (isalpha c = true ∨ c = '_') ∧
      (∀ x ∈ cs, isNameByte x = true ∨ x = ':') ∧ cs.count ':' ≤ 1 := by
  cases n with
  | nil => simp [validName] at h
  | cons c cs =>
    simp only [validName, Bool.and_eq_true, Bool.or_eq_true, decide_eq_true_eq,
      List.all_eq_true] at h
    exact ⟨c, cs, rfl, h.1.1, h.1.2, h.2⟩

theorem validName_last {n : Str} (h : validName n = true) :
    ∃ c rest, n.reverse = c :: rest ∧ (isNameByte c = true ∨ c = ':') := by
  obtain ⟨c0, cs, rfl, h0, hcs, -⟩ := validName_cons h
  cases hr : cs.reverse with
  | nil =>
    refine ⟨c0, [], by simp [hr], Or.inl (nameStart_isNameByte h0)⟩
  | cons c rest =>
    refine ⟨c, rest ++ [c0], by simp [hr], hcs c ?_⟩
    have : c ∈ cs.reverse := by rw [hr]; simp
    simpa using this

/-- C5, the failing input. For every valid element name `n`, `hasPrevious` with the get
position at the end of `<n/>` throws `std::runtime_error` ("Attribute value doesn't
start with a delimiter."): after `>` and `/` it expects the delimiter of an attribute
value and meets the last byte of the name. No event is queued. -/
theorem hasPrevious_rejects_empty_tag (n : Str) (hn : validName n = true) :
    ∃ r', hasPrevious (XMLEventReader.new ⟨('<' :: n ++ ['/', '>']).reverse, [], false⟩) =
        .throw (.runtime_error "Attribute value doesn't start with a delimiter.") r' ∧
      r'.m_aEvents = [] := by
  obtain ⟨c, rest, hrev, hc⟩ := validName_last hn
  have hsp : isspace c = false ∧ c ≠ '"' ∧ c ≠ '\'' ∧ c ≠ '\x00' := by
    rcases hc with hc | rfl
    · obtain ⟨h1, -, -, -, -, h6, h7, h8, -⟩ := isNameByte_not_special hc
      exact ⟨h1, h6, h7, h8⟩
    · decide
  obtain ⟨h1, h2, h3, h4⟩ := hsp
  refine ⟨{ XMLEventReader.new ⟨rest ++ ['<'], [c, '/', '>'], false⟩ with
    m_bHasPreviousCalled := true, m_bEventsAreForwardDirection := false }, ?_, rfl⟩
  · simp [hasPrevious, XMLEventReader.rbudget, hasPreviousFuel, XMLEventReader.turnBackward,
      XMLEventReader.new, XMLEventReader.rget, IStream.rget, XMLEventReader.setStream, hrev,
      HandleRTag, ConsumeRWhitespace, ConsumeRWhitespaceLoop, Result.bind, h1, h2, h3, h4,
      malformed, (by decide : isspace '/' = false)]

/-- The input `<a/>` of scenario S1. -/
theorem hasPrevious_rejects_empty_tag_witness :
    ∃ r', hasPrevious (XMLEventReader.new ⟨('<' :: ['a'] ++ ['/', '>']).reverse, [], false⟩) =
        .throw (.runtime_error "Attribute value doesn't start with a delimiter.") r' ∧
      r'.m_aEvents = [] :=
  hasPrevious_rejects_empty_tag ['a'] (by decide)


/-! ## Forward reading of tags and text -/

theorem HandleTagStartLoop_nameByte {c : Char} (hc : isNameByte c = true) (m : Nat)
    (p : Option Str) (loc : Str) (at_ : List Attribute) (r : XMLEventReader) :
    HandleTagStartLoop (m + 1) c p loc at_ r = HandleTagStartNext m p (loc ++ [c]) at_ r := by
  obtain ⟨h1, -, h3, h4, h5, -⟩ := isNameByte_not_special hc
  have h6 := isNameByte_cases hc
  simp only [HandleTagStartLoop, HandleTagStartNext, h3, h4, h5, h1, if_false, h6, if_true]
  simp

theorem HandleTagStartNext_skip (l : Str) (hl : ∀ x ∈ l, isNameByte x = true) :
    ∀ (m : Nat) (p : Option Str) (loc : Str) (at_ : List Attribute) (b rest : Str)
      (hn hp : Bool) (q : List XMLEvent) (dir : Bool) (d rd : List (Str × Str)),
      HandleTagStartNext (m + l.length) p loc at_ ⟨⟨b, l ++ rest, false⟩, hn, hp, q, dir, d, rd⟩ =
        HandleTagStartNext m p (loc ++ l) at_
          ⟨⟨l.reverse ++ b, rest, false⟩, hn, hp, q, dir, d, rd⟩ := by
  induction l with
  | nil => intros; simp
  | cons c l ih =>
    intro m p loc at_ b rest hn hp q dir d rd
    have hc := hl c (by simp)
    have ih' := ih (fun x hx => hl x (by simp [hx])) m p (loc ++ [c]) at_ (c :: b) rest hn hp q
      dir d rd
    rw [show m + (c :: l).length = (m + l.length) + 1 by simp; omega]
    conv_lhs => unfold HandleTagStartNext
    simp only [XMLEventReader.get, IStream.get, XMLEventReader.setStream, List.cons_append,
      Bool.false_eq_true, if_false]
    rw [HandleTagStartLoop_nameByte hc, ih']
    simp

theorem HandleTagStartNext_close (m : Nat) (p : Option Str) (loc : Str) (at_ : List Attribute)
    (b rest : Str) (hn hp : Bool) (q : List XMLEvent) (dir : Bool) (d rd : List (Str × Str)) :
    HandleTagStartNext (m + 1) p loc at_ ⟨⟨b, '>' :: rest, false⟩, hn, hp, q, dir, d, rd⟩ =
      .ok true ⟨⟨'>' :: b, rest, false⟩, hn, hp, q ++ [startEvent p loc at_], dir, d, rd⟩ := by
  simp [HandleTagStartNext, HandleTagStartLoop, XMLEventReader.get, IStream.get,
    XMLEventReader.setStream, XMLEventReader.push]

theorem HandleTagStartNext_empty (m : Nat) (p : Option Str) (loc : Str) (at_ : List Attribute)
    (b rest : Str) (hn hp : Bool) (q : List XMLEvent) (dir : Bool) (d rd : List (Str × Str)) :
    HandleTagStartNext (m + 1) p loc at_
        ⟨⟨b, '/' :: '>' :: rest, false⟩, hn, hp, q, dir, d, rd⟩ =
      .ok true ⟨⟨'>' :: '/' :: b, rest, false⟩, hn, hp,
        q ++ [startEvent p loc at_, endEvent p loc], dir, d, rd⟩ := by
  simp [HandleTagStartNext, HandleTagStartLoop, XMLEventReader.get, IStream.get,
    XMLEventReader.setStream, XMLEventReader.push]

theorem HandleTagStartNext_colon (m : Nat) (loc : Str) (at_ : List Attribute)
    (b rest : Str) (hn hp : Bool) (q : List XMLEvent) (dir : Bool) (d rd : List (Str × Str)) :
    HandleTagStartNext (m + 1) none loc at_ ⟨⟨b, ':' :: rest, false⟩, hn, hp, q, dir, d, rd⟩ =
      HandleTagStartNext m (some loc) [] at_ ⟨⟨':' :: b, rest, false⟩, hn, hp, q, dir, d, rd⟩ := by
  simp [HandleTagStartNext, HandleTagStartLoop, XMLEventReader.get, IStream.get,
    XMLEventReader.setStream]

theorem HandleTagEndLoop_nameByte {c : Char} (hc : isNameByte c = true) (m : Nat)
    (p : Option Str) (loc : Str) (r : XMLEventReader) :
    HandleTagEndLoop (m + 1) c p loc r = HandleTagEndNext m p (loc ++ [c]) r := by
  obtain ⟨h1, -, h3, h4, h5, -⟩ := isNameByte_not_special hc
  have h6 := isNameByte_cases hc
  simp only [HandleTagEndLoop, HandleTagEndNext, h3, h5, if_false, h6, if_true]

theorem HandleTagEndNext_skip (l : Str) (hl : ∀ x ∈ l, isNameByte x = true) :
    ∀ (m : Nat) (p : Option Str) (loc : Str) (b rest : Str)
      (hn hp : Bool) (q : List XMLEvent) (dir : Bool) (d rd : List (Str × Str)),
      HandleTagEndNext (m + l.length) p loc ⟨⟨b, l ++ rest, false⟩, hn, hp, q, dir, d, rd⟩ =
        HandleTagEndNext m p (loc ++ l) ⟨⟨l.reverse ++ b, rest, false⟩, hn, hp, q, dir, d, rd⟩ := by
  induction l with
  | nil => intros; simp
  | cons c l ih =>
    intro m p loc b rest hn hp q dir d rd
    have hc := hl c (by simp)
    have ih' := ih (fun x hx => hl x (by simp [hx])) m p (loc ++ [c]) (c :: b) rest hn hp q
      dir d rd
    rw [show m + (c :: l).length = (m + l.length) + 1 by simp; omega]
    conv_lhs => unfold HandleTagEndNext
    simp only [XMLEventReader.get, IStream.get, XMLEventReader.setStream, List.cons_append,
      Bool.false_eq_true, if_false]
    rw [HandleTagEndLoop_nameByte hc, ih']
    simp

theorem HandleTagEndNext_close (m : Nat) (p : Option Str) (loc : Str)
    (b rest : Str) (hn hp : Bool) (q : List XMLEvent) (dir : Bool) (d rd : List (Str × Str)) :
    HandleTagEndNext (m + 1) p loc ⟨⟨b, '>' :: rest, false⟩, hn, hp, q, dir, d, rd⟩ =
      .ok true ⟨⟨'>' :: b, rest, false⟩, hn, hp, q ++ [endEvent p loc], dir, d, rd⟩ := by
  simp [HandleTagEndNext, HandleTagEndLoop, XMLEventReader.get, IStream.get,
    XMLEventReader.setStream, XMLEventReader.push]

theorem HandleTagEndNext_colon (m : Nat) (loc : Str)
    (b rest : Str) (hn hp : Bool) (q : List XMLEvent) (dir : Bool) (d rd : List (Str × Str)) :
    HandleTagEndNext (m + 1) none loc ⟨⟨b, ':' :: rest, false⟩, hn, hp, q, dir, d, rd⟩ =
      HandleTagEndNext m (some loc) [] ⟨⟨':' :: b, rest, false⟩, hn, hp, q, dir, d, rd⟩ := by
  simp [HandleTagEndNext, HandleTagEndLoop, XMLEventReader.get, IStream.get,
    XMLEventReader.setStream]


theorem validName_split {n : Str} (h : validName n = true) :
    ∃ c0 cs, n = c0 :: cs ∧ (isalpha c0 = true ∨ c0 = '_') ∧
      ((∀ x ∈ cs, isNameByte x = true) ∨
        ∃ pre l, cs = pre ++ ':' :: l ∧ (∀ x ∈ pre, isNameByte x = true) ∧
          (∀ x ∈ l, isNameByte x = true)) := by
  obtain ⟨c0, cs, rfl, h0, hcs, hcount⟩ := validName_cons h
  refine ⟨c0, cs, rfl, h0, ?_⟩
  by_cases hmem : ':' ∈ cs
  · right
    obtain ⟨pre, l, rfl⟩ := List.append_of_mem hmem
    have hcnt : List.count ':' pre + (List.count ':' l + 1) ≤ 1 := by
      simpa [List.count_append, List.count_cons] using hcount
    have hpre : List.count ':' pre = 0 := by omega
    have hl : List.count ':' l = 0 := by omega
    rw [List.count_eq_zero] at hpre hl
    refine ⟨pre, l, rfl, fun x hx => ?_, fun x hx => ?_⟩
    · rcases hcs x (by simp [hx]) with h1 | rfl
      · exact h1
      · exact absurd hx hpre
    · rcases hcs x (by simp [hx]) with h1 | rfl
      · exact h1
      · exact absurd hx hl
  · left
    intro x hx
    rcases hcs x hx with h1 | rfl
    · exact h1
    · exact absurd hx hmem

theorem qnameOf_plain {n : Str} (h : ∀ x ∈ n, isNameByte x = true) :
    qnameOf n = ⟨[], n, []⟩ := by
  have : ':' ∉ n := fun hm => absurd (h _ hm) (by decide)
  simp [qnameOf, this]

theorem takeWhile_colon (pre l : Str) (hne : ∀ x ∈ pre, x ≠ ':') :
    (pre ++ ':' :: l).takeWhile (fun x => decide (x ≠ ':')) = pre := by
  induction pre with
  | nil => simp
  | cons c pre ih =>
    have hc := hne c (by simp)
    simp [List.takeWhile_cons, hc]
    simpa using ih (fun x hx => hne x (by simp [hx]))

theorem dropWhile_colon (pre l : Str) (hne : ∀ x ∈ pre, x ≠ ':') :
    (pre ++ ':' :: l).dropWhile (fun x => decide (x ≠ ':')) = ':' :: l := by
  induction pre with
  | nil => simp
  | cons c pre ih =>
    have hc := hne c (by simp)
    simp [List.dropWhile_cons, hc]
    simpa using ih (fun x hx => hne x (by simp [hx]))

theorem qnameOf_colon {pre : Str} (l : Str) (h : ∀ x ∈ pre, isNameByte x = true) :
    qnameOf (pre ++ ':' :: l) = ⟨[], l, pre⟩ := by
  have hne : ∀ x ∈ pre, x ≠ ':' := fun x hx => (isNameByte_not_special (h x hx)).2.2.2.2.1
  have h1 := takeWhile_colon pre l hne
  have h2 := dropWhile_colon pre l hne
  unfold qnameOf
  rw [if_pos (by simp), h1, h2]
  rfl

/-- The forward start-tag loop reads a valid name into the prefix and local part that
`qnameOf` gives. -/
theorem HandleTagStartNext_name {c0 : Char} {cs : Str} (h : validName (c0 :: cs) = true) :
    ∃ (p : Option Str) (loc : Str), QName.mk [] loc (p.getD []) = qnameOf (c0 :: cs) ∧
      ∀ (m : Nat) (at_ : List Attribute) (b rest : Str) (hn hp : Bool) (q : List XMLEvent)
        (dir : Bool) (d rd : List (Str × Str)),
        HandleTagStartNext (m + cs.length) none [c0] at_
            ⟨⟨b, cs ++ rest, false⟩, hn, hp, q, dir, d, rd⟩ =
          HandleTagStartNext m p loc at_ ⟨⟨cs.reverse ++ b, rest, false⟩, hn, hp, q, dir, d, rd⟩ := by
  obtain ⟨c, cs', heq, h0, hsplit⟩ := validName_split h
  cases heq
  have hc0 := nameStart_isNameByte h0
  rcases hsplit with hall | ⟨pre, l, rfl, hpre, hl⟩
  · refine ⟨none, c0 :: cs, ?_, ?_⟩
    · rw [qnameOf_plain]
      · rfl
      · intro x hx
        rcases List.mem_cons.mp hx with rfl | hx
        · exact hc0
        · exact hall x hx
    · intro m at_ b rest hn hp q dir d rd
      rw [HandleTagStartNext_skip cs hall]
      rfl
  · refine ⟨some (c0 :: pre), l, ?_, ?_⟩
    · have := @qnameOf_colon (c0 :: pre) l (by
        intro x hx
        rcases List.mem_cons.mp hx with rfl | hx
        · exact hc0
        · exact hpre x hx)
      simpa using this.symm
    · intro m at_ b rest hn hp q dir d rd
      rw [show m + (pre ++ ':' :: l).length = (m + l.length + 1) + pre.length by simp; omega]
      rw [List.append_assoc, HandleTagStartNext_skip pre hpre]
      simp only [List.cons_append, List.nil_append]
      rw [HandleTagStartNext_colon, HandleTagStartNext_skip l hl]
      simp

/-- The forward end-tag loop reads a valid name into the prefix and local part that
`qnameOf` gives. -/
theorem HandleTagEndNext_name {n : Str} (h : validName n = true) :
    ∃ (p : Option Str) (loc : Str), QName.mk [] loc (p.getD []) = qnameOf n ∧
      ∀ (m : Nat) (b rest : Str) (hn hp : Bool) (q : List XMLEvent)
        (dir : Bool) (d rd : List (Str × Str)),
        HandleTagEndNext (m + n.length) none []
            ⟨⟨b, n ++ rest, false⟩, hn, hp, q, dir, d, rd⟩ =
          HandleTagEndNext m p loc ⟨⟨n.reverse ++ b, rest, false⟩, hn, hp, q, dir, d, rd⟩ := by
  obtain ⟨c0, cs, rfl, h0, hsplit⟩ := validName_split h
  have hc0 := nameStart_isNameByte h0
  rcases hsplit with hall | ⟨pre, l, rfl, hpre, hl⟩
  · have hall' : ∀ x ∈ c0 :: cs, isNameByte x = true := by
      intro x hx
      rcases List.mem_cons.mp hx with rfl | hx
      · exact hc0
      · exact hall x hx
    refine ⟨none, c0 :: cs, ?_, ?_⟩
    · rw [qnameOf_plain hall']; rfl
    · intro m b rest hn hp q dir d rd
      rw [HandleTagEndNext_skip (c0 :: cs) hall']
      rfl
  · have hpre' : ∀ x ∈ c0 :: pre, isNameByte x = true := by
      intro x hx
      rcases List.mem_cons.mp hx with rfl | hx
      · exact hc0
      · exact hpre x hx
    refine ⟨some (c0 :: pre), l, ?_, ?_⟩
    · have := @qnameOf_colon (c0 :: pre) l hpre'
      simpa using this.symm
    · intro m b rest hn hp q dir d rd
      rw [show m + (c0 :: (pre ++ ':' :: l)).length = (m + l.length + 1) + (c0 :: pre).length by
        simp; omega]
      rw [show c0 :: (pre ++ ':' :: l) ++ rest = (c0 :: pre) ++ (':' :: (l ++ rest)) by simp]
      rw [HandleTagEndNext_skip (c0 :: pre) hpre', HandleTagEndNext_colon,
        HandleTagEndNext_skip l hl]
      simp

theorem HandleTagStart_eq_next (c : Char) (b a : Str) (hn hp : Bool) (q : List XMLEvent)
    (dir : Bool) (d rd : List (Str × Str)) :
    HandleTagStart c ⟨⟨b, a, false⟩, hn, hp, q, dir, d, rd⟩ =
      HandleTagStartNext a.length none [c] [] ⟨⟨b, a, false⟩, hn, hp, q, dir, d, rd⟩ := by
  cases a with
  | nil =>
    simp [HandleTagStart, HandleTagStartNext, XMLEventReader.get, IStream.get,
      XMLEventReader.setStream]
  | cons x a =>
    simp [HandleTagStart, HandleTagStartNext, XMLEventReader.get, IStream.get,
      XMLEventReader.setStream, XMLEventReader.budget]

theorem HandleTagEnd_eq_next (x : Char) (b a : Str) (hn hp : Bool) (q : List XMLEvent)
    (dir : Bool) (d rd : List (Str × Str)) :
    HandleTagEnd ⟨⟨b, x :: a, false⟩, hn, hp, q, dir, d, rd⟩ =
      HandleTagEndNext (a.length + 1) none [] ⟨⟨b, x :: a, false⟩, hn, hp, q, dir, d, rd⟩ := by
  simp [HandleTagEnd, HandleTagEndNext, XMLEventReader.get, IStream.get,
    XMLEventReader.setStream, XMLEventReader.budget]

theorem nameStart_not_special {c : Char} (h : isalpha c = true ∨ c = '_') :
    c ≠ '<' ∧ c ≠ '?' ∧ c ≠ '/' ∧ c ≠ '!' ∧ c ≠ '&' := by
  obtain ⟨-, h2, -, h4, -, -, -, -, h9, h10, -, -, h13⟩ :=
    isNameByte_not_special (nameStart_isNameByte h)
  exact ⟨h2, h9, h4, h13, h10⟩

theorem hasNext_step (c : Char) (b a : Str) (d rd : List (Str × Str)) :
    hasNext ⟨⟨b, c :: a, false⟩, false, false, [], true, d, rd⟩ =
      if c = '<' then
        HandleTag (hasNextFuel (a.length + 1)) ⟨⟨c :: b, a, false⟩, true, false, [], true, d, rd⟩
      else HandleText c ⟨⟨c :: b, a, false⟩, true, false, [], true, d, rd⟩ := by
  simp [hasNext, XMLEventReader.budget, hasNextFuel, XMLEventReader.turnForward,
    XMLEventReader.get, IStream.get, XMLEventReader.setStream]

theorem HandleTag_nameStart (K : XMLEventReader → Result Bool) {c : Char}
    (h : isalpha c = true ∨ c = '_') (b a : Str) (hn hp : Bool) (q : List XMLEvent)
    (dir : Bool) (d rd : List (Str × Str)) :
    HandleTag K ⟨⟨b, c :: a, false⟩, hn, hp, q, dir, d, rd⟩ =
      HandleTagStart c ⟨⟨c :: b, a, false⟩, hn, hp, q, dir, d, rd⟩ := by
  obtain ⟨h1, h2, h3, h4, -⟩ := nameStart_not_special h
  simp [HandleTag, XMLEventReader.get, IStream.get, XMLEventReader.setStream, h2, h3, h4, h]

theorem HandleTag_slash (K : XMLEventReader → Result Bool) (b a : Str) (hn hp : Bool)
    (q : List XMLEvent) (dir : Bool) (d rd : List (Str × Str)) :
    HandleTag K ⟨⟨b, '/' :: a, false⟩, hn, hp, q, dir, d, rd⟩ =
      HandleTagEnd ⟨⟨'/' :: b, a, false⟩, hn, hp, q, dir, d, rd⟩ := by
  simp [HandleTag, XMLEventReader.get, IStream.get, XMLEventReader.setStream]

/-- Forward `hasNext` in front of a start tag `<n>`. -/
theorem hasNext_startTag {n : Str} (h : validName n = true) (b rest : Str)
    (d rd : List (Str × Str)) :
    hasNext ⟨⟨b, '<' :: n ++ '>' :: rest, false⟩, false, false, [], true, d, rd⟩ =
      .ok true ⟨⟨'>' :: n.reverse ++ '<' :: b, rest, false⟩, true, false,
        [XMLEvent.ofStartElement ⟨qnameOf n, []⟩], true, d, rd⟩ := by
  obtain ⟨c0, cs, rfl, h0, -⟩ := validName_split h
  obtain ⟨p, loc, hq, hscan⟩ := HandleTagStartNext_name h
  rw [List.cons_append, hasNext_step, if_pos rfl, List.cons_append, HandleTag_nameStart _ h0,
    HandleTagStart_eq_next]
  rw [show (cs ++ '>' :: rest).length = (rest.length + 1) + cs.length by simp; omega, hscan,
    HandleTagStartNext_close]
  simp [startEvent, hq]

/-- Forward `hasNext` in front of a self-closing tag `<n/>`. -/
theorem hasNext_emptyTag {n : Str} (h : validName n = true) (b rest : Str)
    (d rd : List (Str × Str)) :
    hasNext ⟨⟨b, '<' :: n ++ '/' :: '>' :: rest, false⟩, false, false, [], true, d, rd⟩ =
      .ok true ⟨⟨'>' :: '/' :: n.reverse ++ '<' :: b, rest, false⟩, true, false,
        [XMLEvent.ofStartElement ⟨qnameOf n, []⟩, XMLEvent.ofEndElement ⟨qnameOf n⟩], true,
        d, rd⟩ := by
  obtain ⟨c0, cs, rfl, h0, -⟩ := validName_split h
  obtain ⟨p, loc, hq, hscan⟩ := HandleTagStartNext_name h
  rw [List.cons_append, hasNext_step, if_pos rfl, List.cons_append, HandleTag_nameStart _ h0,
    HandleTagStart_eq_next]
  rw [show (cs ++ '/' :: '>' :: rest).length = (rest.length + 1 + 1) + cs.length by simp; omega,
    hscan, HandleTagStartNext_empty]
  simp [startEvent, endEvent, hq]

/-- Forward `hasNext` in front of an end tag `</n>`. -/
theorem hasNext_endTag {n : Str} (h : validName n = true) (b rest : Str)
    (d rd : List (Str × Str)) :
    hasNext ⟨⟨b, '<' :: '/' :: n ++ '>' :: rest, false⟩, false, false, [], true, d, rd⟩ =
      .ok true ⟨⟨'>' :: n.reverse ++ '/' :: '<' :: b, rest, false⟩, true, false,
        [XMLEvent.ofEndElement ⟨qnameOf n⟩], true, d, rd⟩ := by
  obtain ⟨p, loc, hq, hscan⟩ := HandleTagEndNext_name h
  obtain ⟨c0, cs, rfl, h0, -⟩ := validName_split h
  rw [List.cons_append, List.cons_append, hasNext_step, if_pos rfl, HandleTag_slash,
    List.cons_append, HandleTagEnd_eq_next]
  have := hscan (rest.length + 1) ('/' :: '<' :: b) ('>' :: rest) true false [] true d rd
  rw [List.cons_append] at this
  rw [show (cs ++ '>' :: rest).length + 1 = rest.length + 1 + (c0 :: cs).length by simp; omega,
    this, HandleTagEndNext_close]
  simp [endEvent, hq]

/-- C4. For every valid element name `n` and whatever bytes follow, forward `hasNext` of a
new reader over `<n/>` returns true, queues exactly two events in this order,
`StartElement` of `n` without attributes and `EndElement` of `n`, both with the prefix
and local part of `n`, and leaves the get position just behind the `>`. -/
theorem hasNext_reads_empty_tag (n : Str) (hn : validName n = true) (rest : Str) :
    hasNext (XMLEventReader.new (IStream.ofData ('<' :: n ++ ['/', '>'] ++ rest))) =
      .ok true
        { XMLEventReader.new ⟨('<' :: n ++ ['/', '>']).reverse, rest, false⟩ with
          m_bHasNextCalled := true,
          m_aEvents :=
            [XMLEvent.ofStartElement ⟨qnameOf n, []⟩, XMLEvent.ofEndElement ⟨qnameOf n⟩] } := by
  have := hasNext_emptyTag hn [] rest
    (XMLEventReader.new (IStream.ofData rest)).m_aEntityReplacementDictionary
    (XMLEventReader.new (IStream.ofData rest)).m_aREntityReplacementDictionary
  simpa [XMLEventReader.new, IStream.ofData] using this

/-- The tag `<p:x/>` in front of `y`. -/
theorem hasNext_reads_empty_tag_witness :
    hasNext (XMLEventReader.new (IStream.ofData ('<' :: ['p', ':', 'x'] ++ ['/', '>'] ++ ['y']))) =
      .ok true
        { XMLEventReader.new ⟨('<' :: ['p', ':', 'x'] ++ ['/', '>']).reverse, ['y'], false⟩ with
          m_bHasNextCalled := true,
          m_aEvents :=
            [XMLEvent.ofStartElement ⟨qnameOf ['p', ':', 'x'], []⟩,
              XMLEvent.ofEndElement ⟨qnameOf ['p', ':', 'x']⟩] } :=
  hasNext_reads_empty_tag ['p', ':', 'x'] (by decide) ['y']


/-! ## Backward reading of tags and text -/

theorem HandleRTagNameLoop_skip_local (l : Str) (hl : ∀ x ∈ l, isNameByte x = true) :
    ∀ (m : Nat) (loc : Str) (b a : Str) (hn hp : Bool) (q : List XMLEvent) (dir : Bool)
      (d rd : List (Str × Str)),
      HandleRTagNameLoop (m + l.length) none loc ⟨⟨l ++ b, a, false⟩, hn, hp, q, dir, d, rd⟩ =
        HandleRTagNameLoop m none (loc ++ l) ⟨⟨b, l.reverse ++ a, false⟩, hn, hp, q, dir, d, rd⟩ := by
  induction l with
  | nil => intros; simp
  | cons c l ih =>
    intro m loc b a hn hp q dir d rd
    have hc := hl c (by simp)
    obtain ⟨-, h2, -, h4, h5, -⟩ := isNameByte_not_special hc
    have h6 := isNameByte_cases hc
    have ih' := ih (fun x hx => hl x (by simp [hx])) m (loc ++ [c]) b (c :: a) hn hp q dir d rd
    rw [show m + (c :: l).length = (m + l.length) + 1 by simp; omega, HandleRTagNameLoop]
    simp only [XMLEventReader.rget, IStream.rget, XMLEventReader.setStream, List.cons_append,
      Bool.false_eq_true, if_false, h2, h4, false_or, h6, if_true]
    simpa using ih'

theorem HandleRTagNameLoop_skip_prefix (l : Str) (hl : ∀ x ∈ l, isNameByte x = true) :
    ∀ (m : Nat) (p loc : Str) (b a : Str) (hn hp : Bool) (q : List XMLEvent) (dir : Bool)
      (d rd : List (Str × Str)),
      HandleRTagNameLoop (m + l.length) (some p) loc
          ⟨⟨l ++ b, a, false⟩, hn, hp, q, dir, d, rd⟩ =
        HandleRTagNameLoop m (some (p ++ l)) loc
          ⟨⟨b, l.reverse ++ a, false⟩, hn, hp, q, dir, d, rd⟩ := by
  induction l with
  | nil => intros; simp
  | cons c l ih =>
    intro m p loc b a hn hp q dir d rd
    have hc := hl c (by simp)
    obtain ⟨-, h2, -, h4, h5, -⟩ := isNameByte_not_special hc
    have h6 := isNameByte_cases hc
    have ih' := ih (fun x hx => hl x (by simp [hx])) m (p ++ [c]) loc b (c :: a) hn hp q dir d rd
    rw [show m + (c :: l).length = (m + l.length) + 1 by simp; omega, HandleRTagNameLoop]
    simp only [XMLEventReader.rget, IStream.rget, XMLEventReader.setStream, List.cons_append,
      Bool.false_eq_true, if_false, h2, h4, false_or, h6, if_true]
    simpa using ih'

theorem HandleRTagNameLoop_colon (m : Nat) (loc : Str) (b a : Str) (hn hp : Bool)
    (q : List XMLEvent) (dir : Bool) (d rd : List (Str × Str)) :
    HandleRTagNameLoop (m + 1) none loc ⟨⟨':' :: b, a, false⟩, hn, hp, q, dir, d, rd⟩ =
      HandleRTagNameLoop m (some []) loc ⟨⟨b, ':' :: a, false⟩, hn, hp, q, dir, d, rd⟩ := by
  simp [HandleRTagNameLoop, XMLEventReader.rget, IStream.rget, XMLEventReader.setStream,
    isalnum, isalpha]

theorem HandleRTagNameLoop_finish_local (m : Nat) {x : Char} (hx : x = '<' ∨ x = '/')
    (loc : Str) (c : Char) (hc : isalnum c = true ∨ c = '_') (b a : Str) (hn hp : Bool)
    (q : List XMLEvent) (dir : Bool) (d rd : List (Str × Str)) :
    HandleRTagNameLoop (m + 1) none (loc ++ [c]) ⟨⟨x :: b, a, false⟩, hn, hp, q, dir, d, rd⟩ =
      .ok (QName.mk [] (c :: loc.reverse) [])
        ⟨⟨x :: b, a, false⟩, hn, hp, q, dir, d, rd⟩ := by
  have hc' : ¬(isalnum c ≠ true ∧ c ≠ '_') := by
    rcases hc with h | h <;> simp [h]
  simp only [HandleRTagNameLoop, XMLEventReader.rget, IStream.rget, XMLEventReader.setStream,
    Bool.false_eq_true, if_false, hx, if_true, List.getLastD_concat, hc']
  simp [XMLEventReader.runget, IStream.runget, XMLEventReader.setStream]

theorem HandleRTagNameLoop_finish_prefix (m : Nat) {x : Char} (hx : x = '<' ∨ x = '/')
    (loc : Str) (c : Char) (hc : isalnum c = true ∨ c = '_') (p : Str) (c0 : Char)
    (hc0 : isalnum c0 = true ∨ c0 = '_') (b a : Str) (hn hp : Bool)
    (q : List XMLEvent) (dir : Bool) (d rd : List (Str × Str)) :
    HandleRTagNameLoop (m + 1) (some (p ++ [c0])) (loc ++ [c])
        ⟨⟨x :: b, a, false⟩, hn, hp, q, dir, d, rd⟩ =
      .ok (QName.mk [] (c :: loc.reverse) (c0 :: p.reverse))
        ⟨⟨x :: b, a, false⟩, hn, hp, q, dir, d, rd⟩ := by
  have hc' : ¬(isalnum c ≠ true ∧ c ≠ '_') := by
    rcases hc with h | h <;> simp [h]
  have hc0' : ¬((p ++ [c0]).reverse.length > 0 ∧ isalnum ((p ++ [c0]).reverse.headD '\x00') ≠ true ∧
      (p ++ [c0]).reverse.headD '\x00' ≠ '_') := by
    rcases hc0 with h | h <;> simp [h]
  simp only [HandleRTagNameLoop, XMLEventReader.rget, IStream.rget, XMLEventReader.setStream,
    Bool.false_eq_true, if_false, hx, if_true, List.getLastD_concat, hc', hc0']
  simp [XMLEventReader.runget, IStream.runget, XMLEventReader.setStream]


theorem HandleRTag_nameByte (K : XMLEventReader → Result Bool) {cl : Char}
    (hcl : isNameByte cl = true) (r1 a : Str)
    (h : cl = '-' → ∃ c2 r2, r1 = c2 :: r2 ∧ c2 ≠ '-') (hn hp : Bool) (q : List XMLEvent)
    (dir : Bool) (d rd : List (Str × Str)) :
    HandleRTag K ⟨⟨cl :: r1, a, false⟩, hn, hp, q, dir, d, rd⟩ =
      HandleRTagStartEnd cl ⟨⟨r1, cl :: a, false⟩, hn, hp, q, dir, d, rd⟩ := by
  obtain ⟨h1, -, -, h4, -, h6, h7, -, h9, -⟩ := isNameByte_not_special hcl
  by_cases hd : cl = '-'
  · obtain ⟨c2, r2, rfl, hc2⟩ := h hd
    subst hd
    simp [HandleRTag, XMLEventReader.rget, IStream.rget, XMLEventReader.setStream, hc2,
      XMLEventReader.runget, IStream.runget, (by decide : isspace '-' = false)]
  · simp [HandleRTag, XMLEventReader.rget, IStream.rget, XMLEventReader.setStream, h1, h4, h6,
      h7, h9, hd]

theorem reversibleName_split {n : Str} (h : reversibleName n = true) :
    validName n = true ∧ ¬ (['-', '-'].isPrefixOf n.reverse = true) ∧
    ((∃ c0 cs, n = c0 :: cs ∧ (isalpha c0 = true ∨ c0 = '_') ∧
        ∀ x ∈ cs, isNameByte x = true) ∨
      ∃ c0 pre c1 l, n = (c0 :: pre) ++ ':' :: (c1 :: l) ∧ (isalpha c0 = true ∨ c0 = '_') ∧
        (∀ x ∈ pre, isNameByte x = true) ∧ (isalnum c1 = true ∨ c1 = '_') ∧
        (∀ x ∈ l, isNameByte x = true)) := by
  simp only [reversibleName, Bool.and_eq_true, Bool.not_eq_true'] at h
  obtain ⟨⟨hv, hloc⟩, hdash⟩ := h
  refine ⟨hv, by simp [hdash], ?_⟩
  obtain ⟨c0, cs, rfl, h0, hsplit⟩ := validName_split hv
  rcases hsplit with hall | ⟨pre, l, rfl, hpre, hl⟩
  · exact Or.inl ⟨c0, cs, rfl, h0, hall⟩
  · right
    have hq := @qnameOf_colon (c0 :: pre) l (by
      intro x hx
      rcases List.mem_cons.mp hx with rfl | hx
      · exact nameStart_isNameByte h0
      · exact hpre x hx)
    rw [show c0 :: (pre ++ ':' :: l) = (c0 :: pre) ++ ':' :: l by simp, hq] at hloc
    cases l with
    | nil => simp at hloc
    | cons c1 l =>
      simp only [Bool.or_eq_true, decide_eq_true_eq] at hloc
      exact ⟨c0, pre, c1, l, by simp, h0, hpre, hloc, fun x hx => hl x (by simp [hx])⟩

/-- Backward `HandleRTagName` over a name whose parts begin as the backward reader asks,
from its last byte `cl`: the name `qnameOf` gives, with the get position behind the `<`
or `/` in front of the name. -/
theorem HandleRTagName_parts {n : Str} (hv : validName n = true)
    (hsplit : (∃ c0 cs, n = c0 :: cs ∧ (isalpha c0 = true ∨ c0 = '_') ∧
        ∀ x ∈ cs, isNameByte x = true) ∨
      ∃ c0 pre c1 l, n = (c0 :: pre) ++ ':' :: (c1 :: l) ∧ (isalpha c0 = true ∨ c0 = '_') ∧
        (∀ x ∈ pre, isNameByte x = true) ∧ (isalnum c1 = true ∨ c1 = '_') ∧
        (∀ x ∈ l, isNameByte x = true)) {cl : Char} {r1 : Str}
    (hrev : n.reverse = cl :: r1) {x : Char} (hx : x = '<' ∨ x = '/') (b a : Str)
    (hn hp : Bool) (q : List XMLEvent) (dir : Bool) (d rd : List (Str × Str)) :
    HandleRTagName cl ⟨⟨r1 ++ x :: b, cl :: a, false⟩, hn, hp, q, dir, d, rd⟩ =
      .ok (qnameOf n) ⟨⟨x :: b, n ++ a, false⟩, hn, hp, q, dir, d, rd⟩ := by
  have hmem : ∀ y ∈ n, isNameByte y = true ∨ y = ':' := by
    obtain ⟨c0, cs, rfl, h0, hcs, -⟩ := validName_cons hv
    intro y hy
    rcases List.mem_cons.mp hy with rfl | hy
    · exact Or.inl (nameStart_isNameByte h0)
    · exact hcs y hy
  have hn_eq : n = r1.reverse ++ [cl] := by
    have := congrArg List.reverse hrev
    simpa using this
  rcases hsplit with ⟨c0, cs, rfl, h0, hall⟩ | ⟨c0, pre, c1, l, rfl, h0, hpre, hc1, hl⟩
  · have hall' : ∀ y ∈ c0 :: cs, isNameByte y = true := by
      intro y hy
      rcases List.mem_cons.mp hy with rfl | hy
      · exact nameStart_isNameByte h0
      · exact hall y hy
    have hcl : isNameByte cl = true := hall' cl (by
      have : cl ∈ (c0 :: cs).reverse := by rw [hrev]; simp
      exact List.mem_reverse.mp this)
    have hr1 : ∀ y ∈ r1, isNameByte y = true := by
      intro y hy
      apply hall'
      have : y ∈ (c0 :: cs).reverse := by rw [hrev]; simp [hy]
      exact List.mem_reverse.mp this
    have hcl' : ¬(isalnum cl ≠ true ∧ cl ≠ '-' ∧ cl ≠ '_' ∧ cl ≠ '.') := by
      rcases isNameByte_cases hcl with h | h | h | h <;> simp [h]
    have hshape : [cl] ++ r1 = cs.reverse ++ [c0] := by
      have : (c0 :: cs).reverse = cs.reverse ++ [c0] := by simp
      rw [← this, hrev]; rfl
    simp only [HandleRTagName, hcl', if_false, XMLEventReader.rbudget, List.length_append,
      List.length_cons]
    rw [show r1.length + (b.length + 1) + (a.length + 1) + 1 = (b.length + a.length + 2 + 1) + r1.length
      by omega, HandleRTagNameLoop_skip_local r1 hr1, hshape,
      HandleRTagNameLoop_finish_local _ hx _ _ (h0.imp_left isalpha_isalnum),
      qnameOf_plain hall']
    simp [hn_eq]
  · have hP : ∀ y ∈ pre.reverse ++ [c0], isNameByte y = true := by
      intro y hy
      rcases List.mem_append.mp hy with hy | hy
      · exact hpre y (List.mem_reverse.mp hy)
      · rw [List.mem_singleton.mp hy]; exact nameStart_isNameByte h0
    have hc1' : isNameByte c1 = true := by
      rcases hc1 with h | h
      · simp [isNameByte, h]
      · subst h; decide
    have hL : ∀ y ∈ l.reverse ++ [c1], isNameByte y = true := by
      intro y hy
      rcases List.mem_append.mp hy with hy | hy
      · exact hl y (List.mem_reverse.mp hy)
      · rw [List.mem_singleton.mp hy]; exact hc1'
    have hrev' : (l.reverse ++ [c1]) ++ ':' :: (pre.reverse ++ [c0]) = cl :: r1 := by
      rw [← hrev]; simp
    obtain ⟨L', hLeq, hr1⟩ : ∃ L', l.reverse ++ [c1] = cl :: L' ∧
        r1 = L' ++ ':' :: (pre.reverse ++ [c0]) := by
      cases hl' : l.reverse ++ [c1] with
      | nil => simp at hl'
      | cons y L' =>
        rw [hl'] at hrev'
        simp only [List.cons_append, List.cons.injEq] at hrev'
        exact ⟨L', by rw [hrev'.1], hrev'.2.symm⟩
    have hcl : isNameByte cl = true := hL cl (by rw [hLeq]; simp)
    have hL' : ∀ y ∈ L', isNameByte y = true := fun y hy => hL y (by rw [hLeq]; simp [hy])
    have hcl' : ¬(isalnum cl ≠ true ∧ cl ≠ '-' ∧ cl ≠ '_' ∧ cl ≠ '.') := by
      rcases isNameByte_cases hcl with h | h | h | h <;> simp [h]
    have hq := @qnameOf_colon (c0 :: pre) (c1 :: l) (by
      intro y hy
      rcases List.mem_cons.mp hy with rfl | hy
      · exact nameStart_isNameByte h0
      · exact hpre y hy)
    subst hr1
    unfold HandleRTagName
    rw [if_neg hcl']
    obtain ⟨m, hm⟩ : ∃ m, XMLEventReader.rbudget
        ⟨⟨(L' ++ ':' :: (pre.reverse ++ [c0])) ++ x :: b, cl :: a, false⟩, hn, hp, q, dir, d, rd⟩ =
        ((m + 1) + (pre.reverse ++ [c0]).length + 1) + L'.length :=
      ⟨b.length + a.length + 2, by simp [XMLEventReader.rbudget]; omega⟩
    rw [hm, show (L' ++ ':' :: (pre.reverse ++ [c0])) ++ x :: b =
      L' ++ (':' :: ((pre.reverse ++ [c0]) ++ x :: b)) by simp]
    rw [HandleRTagNameLoop_skip_local L' hL', HandleRTagNameLoop_colon,
      HandleRTagNameLoop_skip_prefix (pre.reverse ++ [c0]) hP]
    rw [show [cl] ++ L' = l.reverse ++ [c1] by rw [hLeq]; rfl, List.nil_append,
      HandleRTagNameLoop_finish_prefix _ hx _ _ hc1 _ _ (h0.imp_left isalpha_isalnum)]
    rw [show (c0 :: pre ++ ':' :: c1 :: l) = (c0 :: pre) ++ ':' :: (c1 :: l) by simp, hq]
    have e1 : L'.reverse ++ [cl] = c1 :: l := by
      have := congrArg List.reverse hLeq
      simpa using this.symm
    simp [← e1]

/-- Backward `HandleRTagName` over a reversible name, from its last byte `cl`: the name
`qnameOf` gives, with the get position behind the `<` or `/` in front of the name. -/
theorem HandleRTagName_name {n : Str} (h : reversibleName n = true) {cl : Char} {r1 : Str}
    (hrev : n.reverse = cl :: r1) {x : Char} (hx : x = '<' ∨ x = '/') (b a : Str)
    (hn hp : Bool) (q : List XMLEvent) (dir : Bool) (d rd : List (Str × Str)) :
    HandleRTagName cl ⟨⟨r1 ++ x :: b, cl :: a, false⟩, hn, hp, q, dir, d, rd⟩ =
      .ok (qnameOf n) ⟨⟨x :: b, n ++ a, false⟩, hn, hp, q, dir, d, rd⟩ :=
  HandleRTagName_parts (reversibleName_split h).1 (reversibleName_split h).2.2 hrev hx b a
    hn hp q dir d rd

theorem reversibleName_last {n : Str} (h : reversibleName n = true) :
    ∃ cl r1, n.reverse = cl :: r1 ∧ isNameByte cl = true ∧
      (cl = '-' → ∃ c2 r2, r1 = c2 :: r2 ∧ c2 ≠ '-') := by
  obtain ⟨hv, hdash, hsplit⟩ := reversibleName_split h
  have key : ∃ cl r1, n.reverse = cl :: r1 ∧ isNameByte cl = true ∧ (r1 = [] → cl ≠ '-') := by
    rcases hsplit with ⟨c0, cs, rfl, h0, hall⟩ | ⟨c0, pre, c1, l, rfl, h0, hpre, hc1, hl⟩
    · cases hr : cs.reverse with
      | nil =>
        refine ⟨c0, [], by simp [hr], nameStart_isNameByte h0, fun _ => ?_⟩
        rcases h0 with h0 | h0
        · rintro rfl; revert h0; decide
        · rw [h0]; decide
      | cons cl r =>
        refine ⟨cl, r ++ [c0], by simp [hr], hall cl ?_, by simp⟩
        exact List.mem_reverse.mp (by rw [hr]; simp)
    · have hc1' : isNameByte c1 = true := by
        rcases hc1 with h | h
        · simp [isNameByte, h]
        · subst h; decide
      cases hr : l.reverse with
      | nil =>
        exact ⟨c1, ':' :: (pre.reverse ++ [c0]), by simp [hr], hc1', by simp⟩
      | cons cl r =>
        refine ⟨cl, r ++ c1 :: ':' :: (pre.reverse ++ [c0]), by simp [hr], hl cl ?_, by simp⟩
        exact List.mem_reverse.mp (by rw [hr]; simp)
  obtain ⟨cl, r1, hrev, hcl, hone⟩ := key
  refine ⟨cl, r1, hrev, hcl, fun hd => ?_⟩
  cases r1 with
  | nil => exact absurd hd (hone rfl)
  | cons c2 r2 =>
    refine ⟨c2, r2, rfl, fun hc2 => hdash ?_⟩
    rw [hrev, hd, hc2]
    simp [List.isPrefixOf]

theorem hasPrevious_step (c : Char) (b a : Str) (d rd : List (Str × Str)) :
    ∃ K, hasPrevious ⟨⟨c :: b, a, false⟩, false, false, [], false, d, rd⟩ =
      if c = '>' then HandleRTag K ⟨⟨b, c :: a, false⟩, false, true, [], false, d, rd⟩
      else HandleRText c ⟨⟨b, c :: a, false⟩, false, true, [], false, d, rd⟩ := by
  refine ⟨hasPreviousFuel (b.length + 1 + a.length), ?_⟩
  simp [hasPrevious, XMLEventReader.rbudget, hasPreviousFuel, XMLEventReader.turnBackward,
    XMLEventReader.rget, IStream.rget, XMLEventReader.setStream]

/-- Backward `hasPrevious` behind a start tag `<n>`. -/
theorem hasPrevious_startTag {n : Str} (h : reversibleName n = true) (b a : Str)
    (d rd : List (Str × Str)) :
    hasPrevious ⟨⟨'>' :: n.reverse ++ '<' :: b, a, false⟩, false, false, [], false, d, rd⟩ =
      .ok true ⟨⟨b, '<' :: n ++ '>' :: a, false⟩, false, true,
        [XMLEvent.ofStartElement ⟨qnameOf n, []⟩], false, d, rd⟩ := by
  obtain ⟨cl, r1, hrev, hcl, hdash⟩ := reversibleName_last h
  obtain ⟨K, hK⟩ := hasPrevious_step '>' (n.reverse ++ '<' :: b) a d rd
  rw [List.cons_append, hK, if_pos rfl, hrev, List.cons_append,
    HandleRTag_nameByte K hcl _ _ (by
      intro hd
      obtain ⟨c2, r2, rfl, hc2⟩ := hdash hd
      exact ⟨c2, r2 ++ '<' :: b, rfl, hc2⟩)]
  unfold HandleRTagStartEnd
  rw [HandleRTagName_name h hrev (Or.inl rfl)]
  simp [Result.bind, XMLEventReader.rget, IStream.rget, XMLEventReader.setStream,
    XMLEventReader.push]

/-- Backward `hasPrevious` behind an end tag `</n>`. -/
theorem hasPrevious_endTag {n : Str} (h : reversibleName n = true) (b a : Str)
    (d rd : List (Str × Str)) :
    hasPrevious ⟨⟨'>' :: n.reverse ++ '/' :: '<' :: b, a, false⟩, false, false, [], false, d, rd⟩ =
      .ok true ⟨⟨b, '<' :: '/' :: n ++ '>' :: a, false⟩, false, true,
        [XMLEvent.ofEndElement ⟨qnameOf n⟩], false, d, rd⟩ := by
  obtain ⟨cl, r1, hrev, hcl, hdash⟩ := reversibleName_last h
  obtain ⟨K, hK⟩ := hasPrevious_step '>' (n.reverse ++ '/' :: '<' :: b) a d rd
  rw [List.cons_append, hK, if_pos rfl, hrev, List.cons_append,
    HandleRTag_nameByte K hcl _ _ (by
      intro hd
      obtain ⟨c2, r2, rfl, hc2⟩ := hdash hd
      exact ⟨c2, r2 ++ '/' :: '<' :: b, rfl, hc2⟩)]
  unfold HandleRTagStartEnd
  rw [HandleRTagName_name h hrev (Or.inr rfl)]
  simp [Result.bind, XMLEventReader.rget, IStream.rget, XMLEventReader.setStream,
    XMLEventReader.push]

/-! ## Attributes -/

theorem nameTail_split {cs : Str} (hcs : ∀ x ∈ cs, isNameByte x = true ∨ x = ':')
    (hcount : cs.count ':' ≤ 1) :
    (∀ x ∈ cs, isNameByte x = true) ∨
      ∃ pre l, cs = pre ++ ':' :: l ∧ (∀ x ∈ pre, isNameByte x = true) ∧
        (∀ x ∈ l, isNameByte x = true) := by
  by_cases hmem : ':' ∈ cs
  · right
    obtain ⟨pre, l, rfl⟩ := List.append_of_mem hmem
    have hcnt : List.count ':' pre + (List.count ':' l + 1) ≤ 1 := by
      simpa [List.count_append, List.count_cons] using hcount
    have hpre : List.count ':' pre = 0 := by omega
    have hl : List.count ':' l = 0 := by omega
    rw [List.count_eq_zero] at hpre hl
    refine ⟨pre, l, rfl, fun x hx => ?_, fun x hx => ?_⟩
    · rcases hcs x (by simp [hx]) with h1 | rfl
      · exact h1
      · exact absurd hx hpre
    · rcases hcs x (by simp [hx]) with h1 | rfl
      · exact h1
      · exact absurd hx hl
  · left
    intro x hx
    rcases hcs x hx with h1 | rfl
    · exact h1
    · exact absurd hx hmem

theorem validAttributeName_split {n : Str} (h : validAttributeName n = true) :
    ∃ c0 cs, n = c0 :: cs ∧ (isalnum c0 = true ∨ c0 = '_') ∧
      ((∀ x ∈ cs, isNameByte x = true) ∨
        ∃ pre l, cs = pre ++ ':' :: l ∧ (∀ x ∈ pre, isNameByte x = true) ∧
          (∀ x ∈ l, isNameByte x = true)) := by
  cases n with
  | nil => simp [validAttributeName] at h
  | cons c cs =>
    simp only [validAttributeName, Bool.and_eq_true, Bool.or_eq_true, decide_eq_true_eq,
      List.all_eq_true] at h
    exact ⟨c, cs, rfl, h.1.1, nameTail_split h.1.2 h.2⟩

theorem attributeStart_isNameByte {c : Char} (h : isalnum c = true ∨ c = '_') :
    isNameByte c = true := by
  rcases h with h | rfl
  · simp [isNameByte, h]
  · decide

theorem HandleAttributeNameLoop_skip (l : Str) (hl : ∀ x ∈ l, isNameByte x = true) :
    ∀ (m : Nat) (p : Option Str) (loc : Str) (b rest : Str)
      (hn hp : Bool) (q : List XMLEvent) (dir : Bool) (d rd : List (Str × Str)),
      HandleAttributeNameLoop (m + l.length) p loc
          ⟨⟨b, l ++ rest, false⟩, hn, hp, q, dir, d, rd⟩ =
        HandleAttributeNameLoop m p (loc ++ l)
          ⟨⟨l.reverse ++ b, rest, false⟩, hn, hp, q, dir, d, rd⟩ := by
  induction l with
  | nil => intros; simp
  | cons c l ih =>
    intro m p loc b rest hn hp q dir d rd
    have hc := hl c (by simp)
    obtain ⟨h1, -, -, -, h5, -, -, -, -, -, -, h12, -⟩ := isNameByte_not_special hc
    have h6 := isNameByte_cases hc
    have ih' := ih (fun x hx => hl x (by simp [hx])) m p (loc ++ [c]) (c :: b) rest hn hp q
      dir d rd
    rw [show m + (c :: l).length = (m + l.length) + 1 by simp; omega]
    conv_lhs => unfold HandleAttributeNameLoop
    simp only [XMLEventReader.get, IStream.get, XMLEventReader.setStream, List.cons_append,
      Bool.false_eq_true, if_false, h5, h1, h12, h6, if_true]
    rw [ih']
    simp

theorem HandleAttributeNameLoop_colon (m : Nat) (loc : Str) (b rest : Str)
    (hn hp : Bool) (q : List XMLEvent) (dir : Bool) (d rd : List (Str × Str)) :
    HandleAttributeNameLoop (m + 1) none loc ⟨⟨b, ':' :: rest, false⟩, hn, hp, q, dir, d, rd⟩ =
      HandleAttributeNameLoop m (some loc) [] ⟨⟨':' :: b, rest, false⟩, hn, hp, q, dir, d, rd⟩ := by
  simp [HandleAttributeNameLoop, XMLEventReader.get, IStream.get, XMLEventReader.setStream]

theorem HandleAttributeNameLoop_equals (m : Nat) (p : Option Str) (loc : Str) (b rest : Str)
    (hn hp : Bool) (q : List XMLEvent) (dir : Bool) (d rd : List (Str × Str)) :
    HandleAttributeNameLoop (m + 1) p loc ⟨⟨b, '=' :: rest, false⟩, hn, hp, q, dir, d, rd⟩ =
      .ok (QName.mk [] loc (p.getD [])) ⟨⟨'=' :: b, rest, false⟩, hn, hp, q, dir, d, rd⟩ := by
  simp [HandleAttributeNameLoop, XMLEventReader.get, IStream.get, XMLEventReader.setStream,
    (by decide : isspace '=' = false)]

/-- The forward reader reads a valid attribute name up to and including the `=`. -/
theorem HandleAttributeName_name {c0 : Char} {cs : Str}
    (h : validAttributeName (c0 :: cs) = true) (b rest : Str)
    (hn hp : Bool) (q : List XMLEvent) (dir : Bool) (d rd : List (Str × Str)) :
    HandleAttributeName c0 ⟨⟨b, cs ++ '=' :: rest, false⟩, hn, hp, q, dir, d, rd⟩ =
      .ok (qnameOf (c0 :: cs))
        ⟨⟨'=' :: cs.reverse ++ b, rest, false⟩, hn, hp, q, dir, d, rd⟩ := by
  obtain ⟨c, cs', heq, h0, hsplit⟩ := validAttributeName_split h
  cases heq
  have hc0 := attributeStart_isNameByte h0
  unfold HandleAttributeName
  rw [if_pos h0]
  rcases hsplit with hall | ⟨pre, l, rfl, hpre, hl⟩
  · obtain ⟨m, hm⟩ : ∃ m, XMLEventReader.budget
        ⟨⟨b, cs ++ '=' :: rest, false⟩, hn, hp, q, dir, d, rd⟩ = (m + 1) + cs.length :=
      ⟨rest.length + 1, by simp [XMLEventReader.budget]; omega⟩
    rw [hm, HandleAttributeNameLoop_skip cs hall, HandleAttributeNameLoop_equals, qnameOf_plain]
    · rfl
    · intro x hx
      rcases List.mem_cons.mp hx with rfl | hx
      · exact hc0
      · exact hall x hx
  · have hq := @qnameOf_colon (c0 :: pre) l (by
      intro x hx
      rcases List.mem_cons.mp hx with rfl | hx
      · exact hc0
      · exact hpre x hx)
    obtain ⟨m, hm⟩ : ∃ m, XMLEventReader.budget
        ⟨⟨b, pre ++ ':' :: l ++ '=' :: rest, false⟩, hn, hp, q, dir, d, rd⟩ =
          ((m + 1) + l.length + 1) + pre.length :=
      ⟨rest.length + 1, by simp [XMLEventReader.budget]; omega⟩
    rw [hm, show pre ++ ':' :: l ++ '=' :: rest = pre ++ (':' :: (l ++ '=' :: rest)) by simp,
      HandleAttributeNameLoop_skip pre hpre, HandleAttributeNameLoop_colon,
      HandleAttributeNameLoop_skip l hl, HandleAttributeNameLoop_equals]
    simp only [List.cons_append] at hq
    rw [hq]
    simp

theorem HandleAttributeValueLoop_value (cDelimiter : Char) (v : Str)
    (hv : ∀ c ∈ v, c ≠ cDelimiter ∧ c ≠ '&') :
    ∀ (n : Nat) (pValue b rest : Str) (hn hp : Bool) (q : List XMLEvent) (dir : Bool)
      (d rd : List (Str × Str)), v.length < n →
      HandleAttributeValueLoop n cDelimiter pValue
          ⟨⟨b, v ++ cDelimiter :: rest, false⟩, hn, hp, q, dir, d, rd⟩ =
        .ok (pValue ++ v)
          ⟨⟨cDelimiter :: v.reverse ++ b, rest, false⟩, hn, hp, q, dir, d, rd⟩ := by
  induction v with
  | nil =>
    intro n pValue b rest hn hp q dir d rd hlt
    cases n with
    | zero => omega
    | succ n =>
      simp [HandleAttributeValueLoop, XMLEventReader.get, IStream.get, XMLEventReader.setStream]
  | cons c v ih =>
    intro n pValue b rest hn hp q dir d rd hlt
    cases n with
    | zero => omega
    | succ n =>
      have hc := hv c (by simp)
      have ih' := ih (fun x hx => hv x (by simp [hx])) n (pValue ++ [c]) (c :: b) rest hn hp q
        dir d rd (by simp at hlt ⊢; omega)
      simp [HandleAttributeValueLoop, XMLEventReader.get, IStream.get, XMLEventReader.setStream,
        hc.1, hc.2]
      simpa using ih'

/-- The forward reader reads a delimited value free of the delimiter and of `&`. -/
theorem HandleAttributeValue_value {cDelimiter : Char}
    (hd : cDelimiter = '"' ∨ cDelimiter = '\'') (v : Str)
    (hv : ∀ c ∈ v, c ≠ cDelimiter ∧ c ≠ '&') (b rest : Str)
    (hn hp : Bool) (q : List XMLEvent) (dir : Bool) (d rd : List (Str × Str)) :
    HandleAttributeValue
        ⟨⟨b, cDelimiter :: v ++ cDelimiter :: rest, false⟩, hn, hp, q, dir, d, rd⟩ =
      .ok v ⟨⟨cDelimiter :: v.reverse ++ cDelimiter :: b, rest, false⟩, hn, hp, q, dir, d, rd⟩ := by
  have hs : isspace cDelimiter = false := by rcases hd with rfl | rfl <;> decide
  have h0 : cDelimiter ≠ '\x00' := by rcases hd with rfl | rfl <;> decide
  have hq : ¬ (cDelimiter ≠ '\'' ∧ cDelimiter ≠ '"') := by rcases hd with rfl | rfl <;> decide
  have := HandleAttributeValueLoop_value cDelimiter v hv (v.length + rest.length + 2) []
    (cDelimiter :: b) rest hn hp q dir d rd (by omega)
  simp only [HandleAttributeValue, ConsumeWhitespace, XMLEventReader.budget, List.cons_append,
    List.length_cons, ConsumeWhitespaceLoop, XMLEventReader.get, IStream.get,
    XMLEventReader.setStream, Bool.false_eq_true, if_false, hs, if_true, Result.bind, h0, hq]
  simpa [Nat.add_assoc] using this

theorem AttributeText.wellFormed_split {x : AttributeText} (h : x.wellFormed = true) :
    validAttributeName x.name = true ∧ (x.delimiter = '"' ∨ x.delimiter = '\'') ∧
      ∀ c ∈ x.value, c ≠ x.delimiter ∧ c ≠ '&' := by
  simpa [AttributeText.wellFormed, and_assoc] using h

theorem renderAttributes_cons (x : AttributeText) (l : List AttributeText) :
    renderAttributes (x :: l) =
      ' ' :: x.name ++ '=' :: x.delimiter :: x.value ++ x.delimiter :: renderAttributes l := by
  simp [renderAttributes, AttributeText.render]

theorem validAttributeName_first {n : Str} (h : validAttributeName n = true) :
    ∃ c0 cs, n = c0 :: cs ∧ isspace c0 = false ∧ c0 ≠ '>' ∧ c0 ≠ '/' := by
  obtain ⟨c0, cs, rfl, h0, -⟩ := validAttributeName_split h
  obtain ⟨h1, -, h3, h4, -⟩ := isNameByte_not_special (attributeStart_isNameByte h0)
  exact ⟨c0, cs, rfl, h1, h3, h4⟩

/-- The forward loop over the attributes of a tag reads one attribute in two rounds. -/
theorem HandleAttributesLoop_step {x : AttributeText} (h : x.wellFormed = true) (n : Nat)
    (acc : List Attribute) (b rest : Str)
    (hn hp : Bool) (q : List XMLEvent) (dir : Bool) (d rd : List (Str × Str)) :
    HandleAttributesLoop (n + 2) acc ⟨⟨b, x.render ++ rest, false⟩, hn, hp, q, dir, d, rd⟩ =
      HandleAttributesLoop n (acc ++ [x.attribute])
        ⟨⟨x.render.reverse ++ b, rest, false⟩, hn, hp, q, dir, d, rd⟩ := by
  obtain ⟨h1, h2, h3⟩ := AttributeText.wellFormed_split h
  obtain ⟨c0, cs, hcs, hs0, hgt0, hsl0⟩ := validAttributeName_first h1
  rw [hcs] at h1
  have e1 := HandleAttributeName_name h1 (c0 :: ' ' :: b)
    (x.delimiter :: (x.value ++ x.delimiter :: rest)) hn hp q dir d rd
  have e2 := HandleAttributeValue_value h2 x.value h3 ('=' :: (cs.reverse ++ c0 :: ' ' :: b)) rest
    hn hp q dir d rd
  simp only [List.cons_append, List.append_assoc] at e1 e2
  simp only [AttributeText.render, hcs, HandleAttributesLoop, XMLEventReader.get, IStream.get,
    XMLEventReader.setStream, List.cons_append, List.append_assoc, Bool.false_eq_true, if_false,
    (by decide : isspace ' ' = true), (by decide : ¬ (' ' = '>')), (by decide : ¬ (' ' = '/')),
    hs0, hgt0, hsl0, if_true, List.nil_append]
  rw [e1, bind_ok, e2, bind_ok]
  simp [AttributeText.attribute, hcs]

theorem HandleAttributesLoop_attributes (l : List AttributeText)
    (hl : ∀ x ∈ l, x.wellFormed = true) :
    ∀ (n : Nat) (acc : List Attribute) (b rest : Str) (hn hp : Bool) (q : List XMLEvent)
      (dir : Bool) (d rd : List (Str × Str)),
      (∃ rest', rest = '>' :: rest' ∨ rest = '/' :: '>' :: rest') →
      (renderAttributes l).length < n →
      HandleAttributesLoop n acc ⟨⟨b, renderAttributes l ++ rest, false⟩, hn, hp, q, dir, d, rd⟩ =
        .ok (acc ++ l.map AttributeText.attribute)
          ⟨⟨(renderAttributes l).reverse ++ b, rest, false⟩, hn, hp, q, dir, d, rd⟩ := by
  induction l with
  | nil =>
    intro n acc b rest hn hp q dir d rd hrest hlt
    cases n with
    | zero => omega
    | succ n =>
      obtain ⟨rest', rfl | rfl⟩ := hrest
      · simp [renderAttributes, HandleAttributesLoop, XMLEventReader.get, IStream.get,
          XMLEventReader.setStream, XMLEventReader.unget, IStream.unget]
      · simp [renderAttributes, HandleAttributesLoop, XMLEventReader.get, IStream.get,
          XMLEventReader.setStream, XMLEventReader.unget, IStream.unget]
  | cons x l ih =>
    intro n acc b rest hn hp q dir d rd hrest hlt
    have hx := hl x (by simp)
    have hlen : 2 ≤ x.render.length := by simp [AttributeText.render]; omega
    have hr : renderAttributes (x :: l) = x.render ++ renderAttributes l := by
      simp [renderAttributes]
    rw [hr] at hlt ⊢
    match n, hlt with
    | n + 2, hlt =>
      rw [List.append_assoc, HandleAttributesLoop_step hx,
        ih (fun y hy => hl y (by simp [hy])) n _ _ rest hn hp q dir d rd hrest
          (by simp at hlt ⊢; omega)]
      simp

/-- Behind the blank that ends the tag name, the forward reader reads the attributes of
the tag up to the `>` or `/>`. -/
theorem HandleTagStartSpace_attributes (x : AttributeText) (l : List AttributeText)
    (hl : ∀ y ∈ x :: l, y.wellFormed = true) (n : Nat) (b rest : Str)
    (hrest : ∃ rest', rest = '>' :: rest' ∨ rest = '/' :: '>' :: rest')
    (hn hp : Bool) (q : List XMLEvent) (dir : Bool) (d rd : List (Str × Str)) :
    HandleTagStartSpace (n + 1) []
        ⟨⟨' ' :: b, x.name ++ '=' :: x.delimiter :: (x.value ++ x.delimiter ::
          (renderAttributes l ++ rest)), false⟩, hn, hp, q, dir, d, rd⟩ =
      .ok ((x :: l).map AttributeText.attribute)
        ⟨⟨(renderAttributes (x :: l)).reverse ++ b, rest, false⟩, hn, hp, q, dir, d, rd⟩ := by
  have hx := hl x (by simp)
  obtain ⟨h1, h2, h3⟩ := AttributeText.wellFormed_split hx
  obtain ⟨c0, cs, hcs, hs0, hgt0, hsl0⟩ := validAttributeName_first h1
  rw [hcs] at h1
  have e1 := HandleAttributeName_name h1 (c0 :: ' ' :: b)
    (x.delimiter :: (x.value ++ x.delimiter :: (renderAttributes l ++ rest))) hn hp q dir d rd
  have e2 := HandleAttributeValue_value h2 x.value h3 ('=' :: (cs.reverse ++ c0 :: ' ' :: b))
    (renderAttributes l ++ rest) hn hp q dir d rd
  have e3 := HandleAttributesLoop_attributes l (fun y hy => hl y (by simp [hy]))
    ((renderAttributes l ++ rest).length + 1) [x.attribute]
    (x.delimiter :: (x.value.reverse ++ x.delimiter :: '=' :: (cs.reverse ++ c0 :: ' ' :: b)))
    rest hn hp q dir d rd hrest (by
      obtain ⟨rest', rfl | rfl⟩ := hrest <;> simp <;> omega)
  simp only [List.cons_append, List.append_assoc] at e1 e2 e3
  simp only [renderAttributes_cons, hcs, List.cons_append, List.append_assoc,
    HandleTagStartSpace, XMLEventReader.get, IStream.get,
    XMLEventReader.setStream, Bool.false_eq_true, if_false, hs0, hgt0, hsl0, HandleAttributes,
    List.nil_append]
  rw [e1, bind_ok, e2, bind_ok]
  simp only [XMLEventReader.budget, List.nil_append]
  have ha : x.attribute = Attribute.mk (qnameOf (c0 :: cs)) x.value := by
    simp [AttributeText.attribute, hcs]
  rw [ha] at e3
  rw [e3]
  simp [ha, hcs]

/-- The forward start-tag loop behind a name with attributes: `>` ends a start tag. -/
theorem HandleTagStartNext_attributes_close (x : AttributeText) (l : List AttributeText)
    (hl : ∀ y ∈ x :: l, y.wellFormed = true) (m : Nat) (p : Option Str) {loc : Str}
    (hloc : loc ≠ []) (b rest : Str)
    (hn hp : Bool) (q : List XMLEvent) (dir : Bool) (d rd : List (Str × Str)) :
    HandleTagStartNext (m + 2) p loc []
        ⟨⟨b, renderAttributes (x :: l) ++ '>' :: rest, false⟩, hn, hp, q, dir, d, rd⟩ =
      .ok true ⟨⟨'>' :: (renderAttributes (x :: l)).reverse ++ b, rest, false⟩, hn, hp,
        q ++ [startEvent p loc ((x :: l).map AttributeText.attribute)], dir, d, rd⟩ := by
  have e := HandleTagStartSpace_attributes x l hl
    (x.name ++ '=' :: x.delimiter :: (x.value ++ x.delimiter ::
      (renderAttributes l ++ '>' :: rest))).length b ('>' :: rest) ⟨rest, Or.inl rfl⟩
    hn hp q dir d rd
  have hlen : ¬ loc.length ≤ 0 := by
    have := List.length_pos.mpr hloc
    omega
  simp only [HandleTagStartNext, renderAttributes_cons, List.cons_append, List.append_assoc,
    XMLEventReader.get, IStream.get, XMLEventReader.setStream, Bool.false_eq_true, if_false,
    HandleTagStartLoop, (by decide : ¬ (' ' = ':')), (by decide : ¬ (' ' = '>')),
    (by decide : ¬ (' ' = '/')), (by decide : isspace ' ' = true), if_true, hlen,
    XMLEventReader.budget]
  rw [e, bind_ok]
  simp [XMLEventReader.get, IStream.get, XMLEventReader.setStream, HandleTagStartLoop,
    XMLEventReader.push, renderAttributes_cons]

/-- The forward start-tag loop behind a name with attributes: `/>` ends a self-closing
tag. -/
theorem HandleTagStartNext_attributes_empty (x : AttributeText) (l : List AttributeText)
    (hl : ∀ y ∈ x :: l, y.wellFormed = true) (m : Nat) (p : Option Str) {loc : Str}
    (hloc : loc ≠ []) (b rest : Str)
    (hn hp : Bool) (q : List XMLEvent) (dir : Bool) (d rd : List (Str × Str)) :
    HandleTagStartNext (m + 2) p loc []
        ⟨⟨b, renderAttributes (x :: l) ++ '/' :: '>' :: rest, false⟩, hn, hp, q, dir, d, rd⟩ =
      .ok true ⟨⟨'>' :: '/' :: (renderAttributes (x :: l)).reverse ++ b, rest, false⟩, hn, hp,
        q ++ [startEvent p loc ((x :: l).map AttributeText.attribute), endEvent p loc],
        dir, d, rd⟩ := by
  have e := HandleTagStartSpace_attributes x l hl
    (x.name ++ '=' :: x.delimiter :: (x.value ++ x.delimiter ::
      (renderAttributes l ++ '/' :: '>' :: rest))).length b ('/' :: '>' :: rest)
    ⟨rest, Or.inr rfl⟩ hn hp q dir d rd
  have hlen : ¬ loc.length ≤ 0 := by
    have := List.length_pos.mpr hloc
    omega
  simp only [HandleTagStartNext, renderAttributes_cons, List.cons_append, List.append_assoc,
    XMLEventReader.get, IStream.get, XMLEventReader.setStream, Bool.false_eq_true, if_false,
    HandleTagStartLoop, (by decide : ¬ (' ' = ':')), (by decide : ¬ (' ' = '>')),
    (by decide : ¬ (' ' = '/')), (by decide : isspace ' ' = true), if_true, hlen,
    XMLEventReader.budget]
  rw [e, bind_ok]
  simp [XMLEventReader.get, IStream.get, XMLEventReader.setStream, HandleTagStartLoop,
    XMLEventReader.push, renderAttributes_cons]

/-- Reading backwards behind a `;` that ends no entity: up to the next `;`, `>` or
delimiter, or the begin of the stream, the bytes read are handed back with the `;` in
front. -/
theorem ResolveREntityLoop_literal (cDelimiter : Char) (hd : cDelimiter ≠ '&') (l : Str)
    (hl : ∀ c ∈ l, c ≠ '&' ∧ ¬ (cDelimiter ≠ '\x00' ∧ c = cDelimiter) ∧ c ≠ '>' ∧ c ≠ ';') :
    ∀ (n : Nat) (pEntityName b a : Str) (hn hp : Bool) (q : List XMLEvent) (dir : Bool)
      (d rd : List (Str × Str)),
      (b = [] ∨ ∃ s b', b = s :: b' ∧ ((cDelimiter ≠ '\x00' ∧ s = cDelimiter) ∨ s = '>' ∨ s = ';')) →
      l.length < n →
      ResolveREntityLoop n cDelimiter pEntityName
          ⟨⟨l ++ b, a, false⟩, hn, hp, q, dir, d, rd⟩ =
        .ok (';' :: (pEntityName ++ l))
          ⟨⟨b, l.reverse ++ a, false⟩, hn, hp, q, dir, d, rd⟩ := by
  induction l with
  | nil =>
    intro n pEntityName b a hn hp q dir d rd hb hlt
    cases n with
    | zero => omega
    | succ n =>
      rcases hb with rfl | ⟨s, b', rfl, hs⟩
      · simp [ResolveREntityLoop, XMLEventReader.rget, IStream.rget, XMLEventReader.setStream]
      · rcases hs with ⟨h0, rfl⟩ | rfl | rfl
        · simp [ResolveREntityLoop, XMLEventReader.rget, IStream.rget,
            XMLEventReader.setStream, h0, hd, XMLEventReader.runget, IStream.runget]
        · simp [ResolveREntityLoop, XMLEventReader.rget, IStream.rget,
            XMLEventReader.setStream, XMLEventReader.runget, IStream.runget]
        · simp [ResolveREntityLoop, XMLEventReader.rget, IStream.rget,
            XMLEventReader.setStream, XMLEventReader.runget, IStream.runget]
  | cons c l ih =>
    intro n pEntityName b a hn hp q dir d rd hb hlt
    cases n with
    | zero => omega
    | succ n =>
      obtain ⟨h1, h2, h3, h4⟩ := hl c (by simp)
      have ih' := ih (fun x hx => hl x (by simp [hx])) n (pEntityName ++ [c]) b (c :: a) hn hp q
        dir d rd hb (by simp at hlt ⊢; omega)
      simp [ResolveREntityLoop, XMLEventReader.rget, IStream.rget, XMLEventReader.setStream,
        h1, h2, h3, h4]
      simpa using ih'

/-- A byte string splits at its first byte with a given property. -/
theorem split_at_first (p : Char → Prop) [DecidablePred p] (l : Str) :
    ∃ chunk rest, l = chunk ++ rest ∧ (∀ x ∈ chunk, ¬ p x) ∧
      (rest = [] ∨ ∃ s t, rest = s :: t ∧ p s) := by
  induction l with
  | nil => exact ⟨[], [], rfl, by simp, Or.inl rfl⟩
  | cons c l ih =>
    by_cases hc : p c
    · exact ⟨[], c :: l, rfl, by simp, Or.inr ⟨c, l, rfl, hc⟩⟩
    · obtain ⟨chunk, rest, rfl, h1, h2⟩ := ih
      refine ⟨c :: chunk, rest, rfl, ?_, h2⟩
      intro x hx
      rcases List.mem_cons.mp hx with rfl | hx
      · exact hc
      · exact h1 x hx

/-- Reading backwards, the bytes of an attribute value free of its delimiter and of `&`
are read up to the delimiter and the `=` in front of it. -/
theorem HandleRAttributeValueLoop_value {cDelimiter : Char}
    (hd : cDelimiter = '"' ∨ cDelimiter = '\'') :
    ∀ (n : Nat) (l : Str), (∀ c ∈ l, c ≠ cDelimiter ∧ c ≠ '&') → l.length < n →
      ∀ (pValue b a : Str) (hn hp : Bool) (q : List XMLEvent) (dir : Bool)
        (d rd : List (Str × Str)),
        HandleRAttributeValueLoop n cDelimiter pValue
            ⟨⟨l ++ cDelimiter :: '=' :: b, a, false⟩, hn, hp, q, dir, d, rd⟩ =
          .ok (pValue ++ l).reverse
            ⟨⟨b, '=' :: cDelimiter :: (l.reverse ++ a), false⟩, hn, hp, q, dir, d, rd⟩ := by
  have hd0 : cDelimiter ≠ '\x00' := by rcases hd with rfl | rfl <;> decide
  have hda : cDelimiter ≠ '&' := by rcases hd with rfl | rfl <;> decide
  have hds : cDelimiter ≠ ';' := by rcases hd with rfl | rfl <;> decide
  intro n
  induction n with
  | zero => intro l _ hlt; omega
  | succ n ih =>
    intro l hl hlt pValue b a hn hp q dir d rd
    cases l with
    | nil =>
      simp [HandleRAttributeValueLoop, XMLEventReader.rget, IStream.rget,
        XMLEventReader.setStream, ConsumeRWhitespace, XMLEventReader.rbudget,
        ConsumeRWhitespaceLoop, Result.bind, (by decide : isspace '=' = false)]
    | cons c l =>
      obtain ⟨h1, h2⟩ := hl c (by simp)
      have hl' : ∀ x ∈ l, x ≠ cDelimiter ∧ x ≠ '&' := fun x hx => hl x (by simp [hx])
      by_cases hc : c = ';'
      · subst hc
        obtain ⟨chunk, rest, rfl, hchunk, hrest⟩ := split_at_first (fun x => x = '>' ∨ x = ';') l
        have hchunk' : ∀ x ∈ chunk,
            x ≠ '&' ∧ ¬ (cDelimiter ≠ '\x00' ∧ x = cDelimiter) ∧ x ≠ '>' ∧ x ≠ ';' := by
          intro x hx
          have hm := hl' x (by simp [hx])
          have hp := hchunk x hx
          exact ⟨hm.2, fun h => hm.1 h.2, fun h => hp (Or.inl h), fun h => hp (Or.inr h)⟩
        have hstop : (rest ++ cDelimiter :: '=' :: b = [] ∨
            ∃ s b', rest ++ cDelimiter :: '=' :: b = s :: b' ∧
              ((cDelimiter ≠ '\x00' ∧ s = cDelimiter) ∨ s = '>' ∨ s = ';')) := by
          right
          rcases hrest with rfl | ⟨s, t, rfl, hs⟩
          · exact ⟨cDelimiter, '=' :: b, by simp, Or.inl ⟨hd0, rfl⟩⟩
          · exact ⟨s, t ++ cDelimiter :: '=' :: b, by simp, Or.inr hs⟩
        have e := ResolveREntityLoop_literal cDelimiter hda chunk hchunk'
          ((chunk ++ rest ++ cDelimiter :: '=' :: b).length + (';' :: a).length + 1) []
          (rest ++ cDelimiter :: '=' :: b) (';' :: a) hn hp q dir d rd hstop (by simp; omega)
        have ih' := ih rest (fun x hx => hl' x (by simp [hx])) (by simp at hlt; omega)
          (pValue ++ ';' :: chunk) b (chunk.reverse ++ ';' :: a) hn hp q dir d rd
        simp only [HandleRAttributeValueLoop, XMLEventReader.rget, IStream.rget,
          XMLEventReader.setStream, List.cons_append, Bool.false_eq_true, if_false, hds.symm,
          if_true, ResolveREntity, XMLEventReader.rbudget, List.append_assoc]
        simp only [List.append_assoc, List.nil_append] at e
        rw [e, bind_ok, ih']
        simp
      · have ih' := ih l hl' (by simp at hlt; omega) (pValue ++ [c]) b (c :: a) hn hp q dir d rd
        simp [HandleRAttributeValueLoop, XMLEventReader.rget, IStream.rget,
          XMLEventReader.setStream, h1, hc]
        simpa using ih'

theorem HandleRAttributeNameLoop_localByte {c : Char} (hc : isNameByte c = true) (m : Nat)
    (loc : Str) (r : XMLEventReader) :
    HandleRAttributeNameLoop (m + 1) c none loc r =
      HandleRAttributeNameNext m none (loc ++ [c]) r := by
  obtain ⟨h1, -, -, -, h5, -⟩ := isNameByte_not_special hc
  have h6 := isNameByte_cases hc
  simp only [HandleRAttributeNameLoop, HandleRAttributeNameNext, h1, h5, if_false, h6, if_true,
    Bool.false_eq_true]

theorem HandleRAttributeNameLoop_prefixByte {c : Char} (hc : isNameByte c = true) (m : Nat)
    (p loc : Str) (r : XMLEventReader) :
    HandleRAttributeNameLoop (m + 1) c (some p) loc r =
      HandleRAttributeNameNext m (some (p ++ [c])) loc r := by
  obtain ⟨h1, -, -, -, h5, -⟩ := isNameByte_not_special hc
  have h6 := isNameByte_cases hc
  simp only [HandleRAttributeNameLoop, HandleRAttributeNameNext, h1, h5, if_false, h6, if_true,
    Bool.false_eq_true]

theorem HandleRAttributeNameNext_skip_local (l : Str) (hl : ∀ x ∈ l, isNameByte x = true) :
    ∀ (m : Nat) (loc : Str) (b a : Str) (hn hp : Bool) (q : List XMLEvent) (dir : Bool)
      (d rd : List (Str × Str)),
      HandleRAttributeNameNext (m + l.length) none loc
          ⟨⟨l ++ b, a, false⟩, hn, hp, q, dir, d, rd⟩ =
        HandleRAttributeNameNext m none (loc ++ l)
          ⟨⟨b, l.reverse ++ a, false⟩, hn, hp, q, dir, d, rd⟩ := by
  induction l with
  | nil => intros; simp
  | cons c l ih =>
    intro m loc b a hn hp q dir d rd
    have hc := hl c (by simp)
    have ih' := ih (fun x hx => hl x (by simp [hx])) m (loc ++ [c]) b (c :: a) hn hp q dir d rd
    rw [show m + (c :: l).length = (m + l.length) + 1 by simp; omega]
    conv_lhs => unfold HandleRAttributeNameNext
    simp only [XMLEventReader.rget, IStream.rget, XMLEventReader.setStream, List.cons_append,
      Bool.false_eq_true, if_false]
    rw [HandleRAttributeNameLoop_localByte hc, ih']
    simp

theorem HandleRAttributeNameNext_skip_prefix (l : Str) (hl : ∀ x ∈ l, isNameByte x = true) :
    ∀ (m : Nat) (p loc : Str) (b a : Str) (hn hp : Bool) (q : List XMLEvent) (dir : Bool)
      (d rd : List (Str × Str)),
      HandleRAttributeNameNext (m + l.length) (some p) loc
          ⟨⟨l ++ b, a, false⟩, hn, hp, q, dir, d, rd⟩ =
        HandleRAttributeNameNext m (some (p ++ l)) loc
          ⟨⟨b, l.reverse ++ a, false⟩, hn, hp, q, dir, d, rd⟩ := by
  induction l with
  | nil => intros; simp
  | cons c l ih =>
    intro m p loc b a hn hp q dir d rd
    have hc := hl c (by simp)
    have ih' := ih (fun x hx => hl x (by simp [hx])) m (p ++ [c]) loc b (c :: a) hn hp q dir d rd
    rw [show m + (c :: l).length = (m + l.length) + 1 by simp; omega]
    conv_lhs => unfold HandleRAttributeNameNext
    simp only [XMLEventReader.rget, IStream.rget, XMLEventReader.setStream, List.cons_append,
      Bool.false_eq_true, if_false]
    rw [HandleRAttributeNameLoop_prefixByte hc, ih']
    simp

theorem HandleRAttributeNameNext_colon (m : Nat) (loc : Str) (b a : Str) (hn hp : Bool)
    (q : List XMLEvent) (dir : Bool) (d rd : List (Str × Str)) :
    HandleRAttributeNameNext (m + 1) none loc ⟨⟨':' :: b, a, false⟩, hn, hp, q, dir, d, rd⟩ =
      HandleRAttributeNameNext m (some []) loc ⟨⟨b, ':' :: a, false⟩, hn, hp, q, dir, d, rd⟩ := by
  simp [HandleRAttributeNameNext, HandleRAttributeNameLoop, XMLEventReader.rget, IStream.rget,
    XMLEventReader.setStream, (by decide : isspace ':' = false)]

theorem HandleRAttributeNameNext_finish_local (m : Nat) (loc : Str) (c : Char)
    (hc : isalnum c = true ∨ c = '_') {y : Char} (hy : isspace y = false) (hy0 : y ≠ '\x00')
    (b a : Str) (hn hp : Bool) (q : List XMLEvent) (dir : Bool) (d rd : List (Str × Str)) :
    HandleRAttributeNameNext (m + 1) none (loc ++ [c])
        ⟨⟨' ' :: y :: b, a, false⟩, hn, hp, q, dir, d, rd⟩ =
      .ok (QName.mk [] (c :: loc.reverse) [])
        ⟨⟨y :: b, ' ' :: a, false⟩, hn, hp, q, dir, d, rd⟩ := by
  have hc' : ¬(isalnum c ≠ true ∧ c ≠ '_') := by
    rcases hc with h | h <;> simp [h]
  simp only [HandleRAttributeNameNext, HandleRAttributeNameLoop, XMLEventReader.rget,
    IStream.rget, XMLEventReader.setStream, Bool.false_eq_true, if_false,
    (by decide : isspace ' ' = true), if_true, ConsumeRWhitespace, XMLEventReader.rbudget,
    ConsumeRWhitespaceLoop, hy, bind_ok, hy0, List.getLastD_concat, hc']
  simp [XMLEventReader.runget, IStream.runget, XMLEventReader.setStream]

theorem HandleRAttributeNameNext_finish_prefix (m : Nat) (loc : Str) (c : Char)
    (hc : isalnum c = true ∨ c = '_') (p : Str) (c0 : Char)
    (hc0 : isalnum c0 = true ∨ c0 = '_') {y : Char} (hy : isspace y = false)
    (hy0 : y ≠ '\x00') (b a : Str) (hn hp : Bool) (q : List XMLEvent) (dir : Bool)
    (d rd : List (Str × Str)) :
    HandleRAttributeNameNext (m + 1) (some (p ++ [c0])) (loc ++ [c])
        ⟨⟨' ' :: y :: b, a, false⟩, hn, hp, q, dir, d, rd⟩ =
      .ok (QName.mk [] (c :: loc.reverse) (c0 :: p.reverse))
        ⟨⟨y :: b, ' ' :: a, false⟩, hn, hp, q, dir, d, rd⟩ := by
  have hc' : ¬(isalnum c ≠ true ∧ c ≠ '_') := by
    rcases hc with h | h <;> simp [h]
  have hc0' : ¬((p ++ [c0]).reverse.length > 0 ∧ isalnum ((p ++ [c0]).reverse.headD '\x00') ≠ true ∧
      (p ++ [c0]).reverse.headD '\x00' ≠ '_') := by
    rcases hc0 with h | h <;> simp [h]
  simp only [HandleRAttributeNameNext, HandleRAttributeNameLoop, XMLEventReader.rget,
    IStream.rget, XMLEventReader.setStream, Bool.false_eq_true, if_false,
    (by decide : isspace ' ' = true), if_true, ConsumeRWhitespace, XMLEventReader.rbudget,
    ConsumeRWhitespaceLoop, hy, bind_ok, hy0, List.getLastD_concat, hc', hc0']
  simp [XMLEventReader.runget, IStream.runget, XMLEventReader.setStream]

theorem HandleRAttributeName_eq_next (bf : Str)
    (h : ∃ cl r1, bf = cl :: r1 ∧ isNameByte cl = true) (a : Str)
    (hn hp : Bool) (q : List XMLEvent) (dir : Bool) (d rd : List (Str × Str)) :
    HandleRAttributeName ⟨⟨bf, a, false⟩, hn, hp, q, dir, d, rd⟩ =
      HandleRAttributeNameNext (bf.length + a.length + 1) none []
        ⟨⟨bf, a, false⟩, hn, hp, q, dir, d, rd⟩ := by
  obtain ⟨cl, r1, rfl, hcl⟩ := h
  obtain ⟨h1, -, -, -, h5, -, -, h8, -⟩ := isNameByte_not_special hcl
  simp [HandleRAttributeName, HandleRAttributeNameNext, ConsumeRWhitespace,
    XMLEventReader.rbudget, ConsumeRWhitespaceLoop, XMLEventReader.rget, IStream.rget,
    XMLEventReader.setStream, h1, Result.bind, h8, h5, Nat.add_assoc]
  congr 1
  omega

theorem reversibleAttributeName_split {n : Str} (h : reversibleAttributeName n = true) :
    validAttributeName n = true ∧
    ((∃ c0 cs, n = c0 :: cs ∧ (isalnum c0 = true ∨ c0 = '_') ∧
        ∀ x ∈ cs, isNameByte x = true) ∨
      ∃ c0 pre c1 l, n = (c0 :: pre) ++ ':' :: (c1 :: l) ∧ (isalnum c0 = true ∨ c0 = '_') ∧
        (∀ x ∈ pre, isNameByte x = true) ∧ (isalnum c1 = true ∨ c1 = '_') ∧
        (∀ x ∈ l, isNameByte x = true)) := by
  simp only [reversibleAttributeName, Bool.and_eq_true] at h
  obtain ⟨hv, hloc⟩ := h
  refine ⟨hv, ?_⟩
  obtain ⟨c0, cs, rfl, h0, hsplit⟩ := validAttributeName_split hv
  rcases hsplit with hall | ⟨pre, l, rfl, hpre, hl⟩
  · exact Or.inl ⟨c0, cs, rfl, h0, hall⟩
  · right
    have hq := @qnameOf_colon (c0 :: pre) l (by
      intro x hx
      rcases List.mem_cons.mp hx with rfl | hx
      · exact attributeStart_isNameByte h0
      · exact hpre x hx)
    rw [show c0 :: (pre ++ ':' :: l) = (c0 :: pre) ++ ':' :: l by simp, hq] at hloc
    cases l with
    | nil => simp at hloc
    | cons c1 l =>
      simp only [Bool.or_eq_true, decide_eq_true_eq] at hloc
      exact ⟨c0, pre, c1, l, by simp, h0, hpre, hloc, fun x hx => hl x (by simp [hx])⟩

/-- Backward `HandleRAttributeName` over a reversible attribute name behind a blank: the
name `qnameOf` gives, with the get position in front of the blank. -/
theorem HandleRAttributeName_name {n : Str} (h : reversibleAttributeName n = true) {y : Char}
    (hy : isspace y = false) (hy0 : y ≠ '\x00') (b a : Str)
    (hn hp : Bool) (q : List XMLEvent) (dir : Bool) (d rd : List (Str × Str)) :
    HandleRAttributeName ⟨⟨n.reverse ++ ' ' :: y :: b, a, false⟩, hn, hp, q, dir, d, rd⟩ =
      .ok (qnameOf n) ⟨⟨y :: b, ' ' :: n ++ a, false⟩, hn, hp, q, dir, d, rd⟩ := by
  obtain ⟨hv, hsplit⟩ := reversibleAttributeName_split h
  have hhead : ∃ cl r1, n.reverse ++ ' ' :: y :: b = cl :: r1 ∧ isNameByte cl = true := by
    rcases hsplit with ⟨c0, cs, rfl, h0, hall⟩ | ⟨c0, pre, c1, l, rfl, h0, hpre, hc1, hl⟩
    · cases hr : cs.reverse with
      | nil => exact ⟨c0, ' ' :: y :: b, by simp [hr], attributeStart_isNameByte h0⟩
      | cons cl r1 =>
        refine ⟨cl, r1 ++ c0 :: ' ' :: y :: b, by simp [hr], hall cl ?_⟩
        have : cl ∈ cs.reverse := by rw [hr]; simp
        exact List.mem_reverse.mp this
    · cases hr : l.reverse with
      | nil =>
        exact ⟨c1, ':' :: (pre.reverse ++ c0 :: ' ' :: y :: b), by simp [hr],
          attributeStart_isNameByte hc1⟩
      | cons cl r1 =>
        refine ⟨cl, r1 ++ c1 :: ':' :: (pre.reverse ++ c0 :: ' ' :: y :: b), by simp [hr],
          hl cl ?_⟩
        have : cl ∈ l.reverse := by rw [hr]; simp
        exact List.mem_reverse.mp this
  rw [HandleRAttributeName_eq_next _ hhead]
  rcases hsplit with ⟨c0, cs, rfl, h0, hall⟩ | ⟨c0, pre, c1, l, rfl, h0, hpre, hc1, hl⟩
  · have hall' : ∀ y ∈ c0 :: cs, isNameByte y = true := by
      intro y hy
      rcases List.mem_cons.mp hy with rfl | hy
      · exact attributeStart_isNameByte h0
      · exact hall y hy
    have hrev : ∀ y ∈ cs.reverse, isNameByte y = true :=
      fun y hy => hall y (List.mem_reverse.mp hy)
    rw [show ((c0 :: cs).reverse ++ ' ' :: y :: b).length + a.length + 1 =
      ((b.length + a.length + 2) + 1 + 1) + cs.reverse.length by simp; omega]
    rw [show (c0 :: cs).reverse ++ ' ' :: y :: b = cs.reverse ++ (c0 :: ' ' :: y :: b) by simp]
    rw [HandleRAttributeNameNext_skip_local _ hrev]
    rw [show ((b.length + a.length + 2) + 1 + 1) = ((b.length + a.length + 2) + 1) + [c0].length
      from rfl]
    rw [show c0 :: ' ' :: y :: b = [c0] ++ (' ' :: y :: b) from rfl]
    rw [HandleRAttributeNameNext_skip_local [c0] (by simpa using attributeStart_isNameByte h0)]
    rw [List.nil_append, HandleRAttributeNameNext_finish_local _ _ _ h0 hy hy0,
      qnameOf_plain hall']
    simp
  · have hP : ∀ y ∈ (c0 :: pre).reverse, isNameByte y = true := by
      intro y hy
      rcases List.mem_cons.mp (List.mem_reverse.mp hy) with rfl | hy
      · exact attributeStart_isNameByte h0
      · exact hpre y hy
    have hL : ∀ y ∈ (c1 :: l).reverse, isNameByte y = true := by
      intro y hy
      rcases List.mem_cons.mp (List.mem_reverse.mp hy) with rfl | hy
      · exact attributeStart_isNameByte hc1
      · exact hl y hy
    have hq := @qnameOf_colon (c0 :: pre) (c1 :: l) (by
      intro y hy
      rcases List.mem_cons.mp hy with rfl | hy
      · exact attributeStart_isNameByte h0
      · exact hpre y hy)
    rw [show (((c0 :: pre) ++ ':' :: (c1 :: l)).reverse ++ ' ' :: y :: b).length + a.length + 1 =
      ((((b.length + a.length + 2) + 1) + (c0 :: pre).reverse.length) + 1) +
        (c1 :: l).reverse.length by simp; omega]
    rw [show ((c0 :: pre) ++ ':' :: (c1 :: l)).reverse ++ ' ' :: y :: b =
      (c1 :: l).reverse ++ (':' :: ((c0 :: pre).reverse ++ (' ' :: y :: b))) by simp]
    rw [HandleRAttributeNameNext_skip_local _ hL, HandleRAttributeNameNext_colon,
      HandleRAttributeNameNext_skip_prefix _ hP]
    rw [show [] ++ (c1 :: l).reverse = l.reverse ++ [c1] by simp,
      show [] ++ (c0 :: pre).reverse = pre.reverse ++ [c0] by simp,
      HandleRAttributeNameNext_finish_prefix _ _ _ hc1 _ _ h0 hy hy0, hq]
    simp

theorem AttributeText.reversible_split {x : AttributeText} (h : x.reversible = true) :
    reversibleAttributeName x.name = true ∧ (x.delimiter = '"' ∨ x.delimiter = '\'') ∧
      ∀ c ∈ x.value, c ≠ x.delimiter ∧ c ≠ '&' := by
  simpa [AttributeText.reversible, and_assoc] using h

theorem AttributeText.render_reverse (x : AttributeText) :
    x.render.reverse =
      x.delimiter :: (x.value.reverse ++ x.delimiter :: '=' :: (x.name.reverse ++ [' '])) := by
  simp [AttributeText.render]

/-- Reading backwards behind the closing delimiter of an attribute: value and name are
read, and the get position is left in front of the blank before the name. -/
theorem HandleRAttribute_one {x : AttributeText} (h : x.reversible = true) {y : Char}
    (hy : isspace y = false) (hy0 : y ≠ '\x00') (b a : Str)
    (hn hp : Bool) (q : List XMLEvent) (dir : Bool) (d rd : List (Str × Str))
    (K : Attribute → XMLEventReader → Result (List Attribute)) :
    ((HandleRAttributeValue x.delimiter
        ⟨⟨x.value.reverse ++ x.delimiter :: '=' :: (x.name.reverse ++ ' ' :: y :: b),
          x.delimiter :: a, false⟩, hn, hp, q, dir, d, rd⟩).bind fun pAttributeValue r =>
        (HandleRAttributeName r).bind fun pAttributeName r =>
          K (Attribute.mk pAttributeName pAttributeValue) r) =
      K x.attribute ⟨⟨y :: b, x.render ++ a, false⟩, hn, hp, q, dir, d, rd⟩ := by
  obtain ⟨h1, h2, h3⟩ := AttributeText.reversible_split h
  have e1 := HandleRAttributeValueLoop_value h2
    ((x.value.reverse ++ x.delimiter :: '=' :: (x.name.reverse ++ ' ' :: y :: b)).length +
      (x.delimiter :: a).length + 1) x.value.reverse
    (fun c hc => h3 c (List.mem_reverse.mp hc)) (by simp; omega) []
    (x.name.reverse ++ ' ' :: y :: b) (x.delimiter :: a) hn hp q dir d rd
  have e2 := HandleRAttributeName_name h1 hy hy0 b
    ('=' :: x.delimiter :: (x.value ++ x.delimiter :: a)) hn hp q dir d rd
  simp only [List.reverse_reverse, List.nil_append] at e1
  unfold HandleRAttributeValue
  simp only [XMLEventReader.rbudget]
  rw [e1, bind_ok, e2, bind_ok]
  simp [AttributeText.attribute, AttributeText.render]

theorem HandleRAttributesLoop_step {x : AttributeText} (h : x.reversible = true) {y : Char}
    (hy : isspace y = false) (hy0 : y ≠ '\x00') (n : Nat) (acc : List Attribute) (b a : Str)
    (hn hp : Bool) (q : List XMLEvent) (dir : Bool) (d rd : List (Str × Str)) :
    HandleRAttributesLoop (n + 1) acc
        ⟨⟨x.render.reverse ++ y :: b, a, false⟩, hn, hp, q, dir, d, rd⟩ =
      HandleRAttributesLoop n (acc ++ [x.attribute])
        ⟨⟨y :: b, x.render ++ a, false⟩, hn, hp, q, dir, d, rd⟩ := by
  obtain ⟨h1, h2, h3⟩ := AttributeText.reversible_split h
  have hs : isspace x.delimiter = false := by rcases h2 with h | h <;> rw [h] <;> decide
  have one := HandleRAttribute_one h hy hy0 b a hn hp q dir d rd
    (fun e r => HandleRAttributesLoop n (acc ++ [e]) r)
  rw [AttributeText.render_reverse]
  simp only [HandleRAttributesLoop, XMLEventReader.rget, IStream.rget, XMLEventReader.setStream,
    List.cons_append, List.append_assoc, Bool.false_eq_true, if_false, hs, h2, if_true,
    List.nil_append]
  exact one

theorem renderAttributes_append (l1 l2 : List AttributeText) :
    renderAttributes (l1 ++ l2) = renderAttributes l1 ++ renderAttributes l2 := by
  simp [renderAttributes]

/-- The backward loop over the attributes of a tag reads them from the last to the first
and stops in front of the blank behind the tag name. -/
theorem HandleRAttributesLoop_attributes {y : Char} (hy : isNameByte y = true) :
    ∀ (xs : List AttributeText), (∀ x ∈ xs, x.reversible = true) →
      ∀ (n : Nat) (acc : List Attribute) (b a : Str) (hn hp : Bool) (q : List XMLEvent)
        (dir : Bool) (d rd : List (Str × Str)), xs.length < n →
        HandleRAttributesLoop n acc
            ⟨⟨(renderAttributes xs.reverse).reverse ++ y :: b, a, false⟩,
              hn, hp, q, dir, d, rd⟩ =
          .ok (acc ++ xs.map AttributeText.attribute)
            ⟨⟨y :: b, renderAttributes xs.reverse ++ a, false⟩, hn, hp, q, dir, d, rd⟩ := by
  obtain ⟨hy1, -, -, -, -, hy6, hy7, hy8, -⟩ := isNameByte_not_special hy
  intro xs
  induction xs with
  | nil =>
    intro _ n acc b a hn hp q dir d rd hlt
    cases n with
    | zero => omega
    | succ n =>
      simp [renderAttributes, HandleRAttributesLoop, XMLEventReader.rget, IStream.rget,
        XMLEventReader.setStream, hy1, hy6, hy7, XMLEventReader.runget, IStream.runget]
  | cons x xs ih =>
    intro hxs n acc b a hn hp q dir d rd hlt
    cases n with
    | zero => omega
    | succ n =>
      have hx := hxs x (by simp)
      have hxs' : ∀ z ∈ xs, z.reversible = true := fun z hz => hxs z (by simp [hz])
      have hr : (renderAttributes (x :: xs).reverse).reverse =
          x.render.reverse ++ (renderAttributes xs.reverse).reverse := by
        simp [renderAttributes_append, renderAttributes]
      have hr2 : renderAttributes (x :: xs).reverse =
          renderAttributes xs.reverse ++ x.render := by
        simp [renderAttributes_append, renderAttributes]
      rw [hr, hr2, List.append_assoc]
      cases xs with
      | nil =>
        simp only [List.reverse_nil, renderAttributes, List.flatMap_nil, List.nil_append]
        rw [HandleRAttributesLoop_step hx hy1 hy8]
        have := ih hxs' n (acc ++ [x.attribute]) b (x.render ++ a) hn hp q dir d rd
          (by simp at hlt ⊢; omega)
        simpa [renderAttributes] using this
      | cons x2 xs2 =>
        have hx2 := hxs' x2 (by simp)
        obtain ⟨-, h2, -⟩ := AttributeText.reversible_split hx2
        have hs : isspace x2.delimiter = false := by rcases h2 with h | h <;> rw [h] <;> decide
        have h0 : x2.delimiter ≠ '\x00' := by rcases h2 with h | h <;> rw [h] <;> decide
        have hr3 : (renderAttributes (x2 :: xs2).reverse).reverse =
            x2.delimiter :: ((x2.value.reverse ++ x2.delimiter :: '=' ::
              (x2.name.reverse ++ [' '])) ++ (renderAttributes xs2.reverse).reverse) := by
          simp [renderAttributes_append, renderAttributes, AttributeText.render]
        have ih' := ih hxs' n (acc ++ [x.attribute]) b (x.render ++ a) hn hp q dir d rd
          (by simp at hlt ⊢; omega)
        rw [hr3] at ih' ⊢
        rw [List.cons_append, HandleRAttributesLoop_step hx hs h0, ← List.cons_append, ih']
        simp

theorem attributes_rest_head (xs : List AttributeText) (hxs : ∀ x ∈ xs, x.reversible = true)
    {y : Char} (hy : isspace y = false) (hy0 : y ≠ '\x00') (t : Str) :
    ∃ y' b', (renderAttributes xs.reverse).reverse ++ y :: t = y' :: b' ∧
      isspace y' = false ∧ y' ≠ '\x00' := by
  cases xs with
  | nil => exact ⟨y, t, by simp [renderAttributes], hy, hy0⟩
  | cons x xs =>
    obtain ⟨-, h2, -⟩ := AttributeText.reversible_split (hxs x (by simp))
    refine ⟨x.delimiter, x.value.reverse ++ x.delimiter :: '=' :: (x.name.reverse ++ ' ' ::
      ((renderAttributes xs.reverse).reverse ++ y :: t)), ?_, ?_, ?_⟩
    · rw [List.reverse_cons, renderAttributes_append, List.reverse_append]
      simp [renderAttributes, AttributeText.render]
    · rcases h2 with h | h <;> rw [h] <;> decide
    · rcases h2 with h | h <;> rw [h] <;> decide

theorem renderAttributes_length_ge (l : List AttributeText) :
    l.length ≤ (renderAttributes l).length := by
  induction l with
  | nil => simp
  | cons x l ih =>
    rw [renderAttributes_cons]
    simp
    omega

/-- Backward `HandleRTagStart` behind the closing delimiter of the last attribute: the
attributes from the last to the first, then the tag name and the `<`. -/
theorem HandleRTagStart_attributes {n : Str} (h : reversibleName n = true) (x : AttributeText)
    (xs : List AttributeText) (hxs : ∀ z ∈ x :: xs, z.reversible = true) (b a : Str)
    (hn hp : Bool) (q : List XMLEvent) (dir : Bool) (d rd : List (Str × Str)) :
    HandleRTagStart x.delimiter
        ⟨⟨x.value.reverse ++ x.delimiter :: '=' :: (x.name.reverse ++ ' ' ::
            ((renderAttributes xs.reverse).reverse ++ (n.reverse ++ '<' :: b))),
          x.delimiter :: a, false⟩, hn, hp, q, dir, d, rd⟩ =
      .ok ⟨qnameOf n, (x :: xs).map AttributeText.attribute⟩
        ⟨⟨b, '<' :: (n ++ (renderAttributes (x :: xs).reverse ++ a)), false⟩,
          hn, hp, q, dir, d, rd⟩ := by
  have hx := hxs x (by simp)
  have hxs' : ∀ z ∈ xs, z.reversible = true := fun z hz => hxs z (by simp [hz])
  obtain ⟨-, h2, -⟩ := AttributeText.reversible_split hx
  obtain ⟨cl, r1, hrev, hcl, -⟩ := reversibleName_last h
  obtain ⟨hcl1, -, -, -, -, -, -, hcl8, -⟩ := isNameByte_not_special hcl
  obtain ⟨y', b', hrest, hy', hy0'⟩ := attributes_rest_head xs hxs' hcl1 hcl8 (r1 ++ '<' :: b)
  have one := HandleRAttribute_one hx hy' hy0' b' a hn hp q dir d rd
    (fun e r => HandleRAttributesLoop r.rbudget ([] ++ [e]) r)
  have loop := HandleRAttributesLoop_attributes hcl xs hxs'
    (((renderAttributes xs.reverse).reverse ++ cl :: (r1 ++ '<' :: b)).length +
      (x.render ++ a).length + 1) [x.attribute] (r1 ++ '<' :: b)
    (x.render ++ a) hn hp q dir d rd (by
      have := renderAttributes_length_ge xs.reverse
      simp at this ⊢
      omega)
  have name := HandleRTagName_name h hrev (Or.inl rfl) b (renderAttributes xs.reverse ++
    (x.render ++ a)) hn hp q dir d rd
  unfold HandleRTagStart
  rw [if_pos h2]
  unfold HandleRAttributes
  rw [hrev, List.cons_append, hrest, one]
  simp only [XMLEventReader.rbudget, List.nil_append]
  rw [← hrest, loop, bind_ok]
  simp only [XMLEventReader.rget, IStream.rget, XMLEventReader.setStream, Bool.false_eq_true,
    if_false, HandleRTagStartName]
  rw [name, bind_ok]
  simp [XMLEventReader.rget, IStream.rget, XMLEventReader.setStream, renderAttributes_append,
    renderAttributes]

theorem exists_last_attribute {l : List AttributeText} (hne : l ≠ []) :
    ∃ (x : AttributeText) (xs : List AttributeText), l = xs.reverse ++ [x] := by
  cases hr : l.reverse with
  | nil => simp at hr; exact absurd hr hne
  | cons x xs =>
    refine ⟨x, xs, ?_⟩
    have := congrArg List.reverse hr
    simpa using this

/-- Backward `hasPrevious` behind a start tag with attributes: the attributes come in
reverse order. -/
theorem hasPrevious_startTag_attributes {n : Str} (h : reversibleName n = true)
    (l : List AttributeText) (hl : ∀ z ∈ l, z.reversible = true) (hne : l ≠ []) (b a : Str)
    (d rd : List (Str × Str)) :
    hasPrevious ⟨⟨'>' :: ((renderAttributes l).reverse ++ (n.reverse ++ '<' :: b)), a, false⟩,
        false, false, [], false, d, rd⟩ =
      .ok true ⟨⟨b, '<' :: (n ++ (renderAttributes l ++ '>' :: a)), false⟩, false, true,
        [XMLEvent.ofStartElement ⟨qnameOf n, (l.map AttributeText.attribute).reverse⟩],
        false, d, rd⟩ := by
  obtain ⟨x, xs, rfl⟩ := exists_last_attribute hne
  have hxs : ∀ z ∈ x :: xs, z.reversible = true := by
    intro z hz
    apply hl
    rcases List.mem_cons.mp hz with rfl | hz
    · simp
    · simp [hz]
  obtain ⟨-, h2, -⟩ := AttributeText.reversible_split (hxs x (by simp))
  have hs : isspace x.delimiter = false := by rcases h2 with h | h <;> rw [h] <;> decide
  have hq : x.delimiter ≠ '?' := by rcases h2 with h | h <;> rw [h] <;> decide
  have hsl : x.delimiter ≠ '/' := by rcases h2 with h | h <;> rw [h] <;> decide
  obtain ⟨K, hK⟩ := hasPrevious_step '>'
    ((renderAttributes (xs.reverse ++ [x])).reverse ++ (n.reverse ++ '<' :: b)) a d rd
  have e := HandleRTagStart_attributes h x xs hxs b ('>' :: a) false true [] false d rd
  have hb : (renderAttributes (xs.reverse ++ [x])).reverse ++ (n.reverse ++ '<' :: b) =
      x.delimiter :: (x.value.reverse ++ x.delimiter :: '=' :: (x.name.reverse ++ ' ' ::
        ((renderAttributes xs.reverse).reverse ++ (n.reverse ++ '<' :: b)))) := by
    simp [renderAttributes_append, renderAttributes, AttributeText.render]
  rw [hK, if_pos rfl, hb]
  simp only [HandleRTag, XMLEventReader.rget, IStream.rget, XMLEventReader.setStream,
    Bool.false_eq_true, if_false, hq, hs, hsl, h2, if_true]
  rw [e, bind_ok]
  simp [XMLEventReader.push]

/-- Backward `hasPrevious` behind a self-closing tag with attributes: the `EndElement`
comes first, then the `StartElement` with the attributes in reverse order. -/
theorem hasPrevious_emptyTag_attributes {n : Str} (h : reversibleName n = true)
    (l : List AttributeText) (hl : ∀ z ∈ l, z.reversible = true) (hne : l ≠ []) (b a : Str)
    (d rd : List (Str × Str)) :
    hasPrevious ⟨⟨'>' :: '/' :: ((renderAttributes l).reverse ++ (n.reverse ++ '<' :: b)), a,
        false⟩, false, false, [], false, d, rd⟩ =
      .ok true ⟨⟨b, '<' :: (n ++ (renderAttributes l ++ '/' :: '>' :: a)), false⟩, false, true,
        [XMLEvent.ofEndElement ⟨qnameOf n⟩,
          XMLEvent.ofStartElement ⟨qnameOf n, (l.map AttributeText.attribute).reverse⟩],
        false, d, rd⟩ := by
  obtain ⟨x, xs, rfl⟩ := exists_last_attribute hne
  have hxs : ∀ z ∈ x :: xs, z.reversible = true := by
    intro z hz
    apply hl
    rcases List.mem_cons.mp hz with rfl | hz
    · simp
    · simp [hz]
  obtain ⟨-, h2, -⟩ := AttributeText.reversible_split (hxs x (by simp))
  have hs : isspace x.delimiter = false := by rcases h2 with h | h <;> rw [h] <;> decide
  have h0 : x.delimiter ≠ '\x00' := by rcases h2 with h | h <;> rw [h] <;> decide
  have h2' : ¬ (x.delimiter ≠ '"' ∧ x.delimiter ≠ '\'') := by
    rcases h2 with h | h <;> rw [h] <;> decide
  obtain ⟨K, hK⟩ := hasPrevious_step '>'
    ('/' :: ((renderAttributes (xs.reverse ++ [x])).reverse ++ (n.reverse ++ '<' :: b))) a d rd
  have e := HandleRTagStart_attributes h x xs hxs b ('/' :: '>' :: a) false true [] false d rd
  have hb : (renderAttributes (xs.reverse ++ [x])).reverse ++ (n.reverse ++ '<' :: b) =
      x.delimiter :: (x.value.reverse ++ x.delimiter :: '=' :: (x.name.reverse ++ ' ' ::
        ((renderAttributes xs.reverse).reverse ++ (n.reverse ++ '<' :: b)))) := by
    simp [renderAttributes_append, renderAttributes, AttributeText.render]
  rw [hK, if_pos rfl, hb]
  simp only [HandleRTag, XMLEventReader.rget, IStream.rget, XMLEventReader.setStream,
    Bool.false_eq_true, if_false, (by decide : ¬ ('/' = '?')), (by decide : isspace '/' = false),
    if_true, ConsumeRWhitespace, XMLEventReader.rbudget,
    ConsumeRWhitespaceLoop, hs, bind_ok, h0, h2']
  rw [e, bind_ok]
  simp [XMLEventReader.push]

theorem exists_first_attribute {l : List AttributeText} (hne : l ≠ []) :
    ∃ (x : AttributeText) (xs : List AttributeText), l = x :: xs := by
  cases l with
  | nil => exact absurd rfl hne
  | cons x xs => exact ⟨x, xs, rfl⟩

/-- Forward `hasNext` in front of a start tag with attributes. -/
theorem hasNext_startTag_attributes {n : Str} (h : validName n = true)
    (hloc : (qnameOf n).m_strLocalPart ≠ []) (l : List AttributeText)
    (hl : ∀ y ∈ l, y.wellFormed = true) (hne : l ≠ []) (b rest : Str)
    (d rd : List (Str × Str)) :
    hasNext ⟨⟨b, '<' :: n ++ (renderAttributes l ++ '>' :: rest), false⟩,
        false, false, [], true, d, rd⟩ =
      .ok true ⟨⟨'>' :: ((renderAttributes l).reverse ++ (n.reverse ++ '<' :: b)), rest, false⟩,
        true, false, [XMLEvent.ofStartElement ⟨qnameOf n, l.map AttributeText.attribute⟩], true,
        d, rd⟩ := by
  obtain ⟨x, xs, rfl⟩ := exists_first_attribute hne
  obtain ⟨c0, cs, rfl, h0, -⟩ := validName_split h
  obtain ⟨p, loc, hq, hscan⟩ := HandleTagStartNext_name h
  have hloc' : loc ≠ [] := by
    have := congrArg QName.m_strLocalPart hq
    simp only at this
    rw [this]
    exact hloc
  rw [List.cons_append, hasNext_step, if_pos rfl, List.cons_append, HandleTag_nameStart _ h0,
    HandleTagStart_eq_next]
  obtain ⟨m, hm⟩ : ∃ m, (cs ++ (renderAttributes (x :: xs) ++ '>' :: rest)).length =
      (m + 2) + cs.length := ⟨(renderAttributes xs).length + x.name.length + x.value.length +
        rest.length + 3, by simp [renderAttributes_cons]; omega⟩
  rw [hm, hscan, HandleTagStartNext_attributes_close x xs hl m p hloc']
  simp [startEvent, hq]

/-- Forward `hasNext` in front of a self-closing tag with attributes. -/
theorem hasNext_emptyTag_attributes {n : Str} (h : validName n = true)
    (hloc : (qnameOf n).m_strLocalPart ≠ []) (l : List AttributeText)
    (hl : ∀ y ∈ l, y.wellFormed = true) (hne : l ≠ []) (b rest : Str)
    (d rd : List (Str × Str)) :
    hasNext ⟨⟨b, '<' :: n ++ (renderAttributes l ++ '/' :: '>' :: rest), false⟩,
        false, false, [], true, d, rd⟩ =
      .ok true ⟨⟨'>' :: '/' :: ((renderAttributes l).reverse ++ (n.reverse ++ '<' :: b)), rest,
          false⟩, true, false,
        [XMLEvent.ofStartElement ⟨qnameOf n, l.map AttributeText.attribute⟩,
          XMLEvent.ofEndElement ⟨qnameOf n⟩], true, d, rd⟩ := by
  obtain ⟨x, xs, rfl⟩ := exists_first_attribute hne
  obtain ⟨c0, cs, rfl, h0, -⟩ := validName_split h
  obtain ⟨p, loc, hq, hscan⟩ := HandleTagStartNext_name h
  have hloc' : loc ≠ [] := by
    have := congrArg QName.m_strLocalPart hq
    simp only at this
    rw [this]
    exact hloc
  rw [List.cons_append, hasNext_step, if_pos rfl, List.cons_append, HandleTag_nameStart _ h0,
    HandleTagStart_eq_next]
  obtain ⟨m, hm⟩ : ∃ m, (cs ++ (renderAttributes (x :: xs) ++ '/' :: '>' :: rest)).length =
      (m + 2) + cs.length := ⟨(renderAttributes xs).length + x.name.length + x.value.length +
        rest.length + 4, by simp [renderAttributes_cons]; omega⟩
  rw [hm, hscan, HandleTagStartNext_attributes_empty x xs hl m p hloc']
  simp [startEvent, endEvent, hq]

/-! ## Comments, processing instructions and entity references -/

theorem hyphensApart_tail {c : Char} {l : Str} (h : hyphensApart (c :: l) = true) :
    hyphensApart l = true := by
  cases l with
  | nil => rfl
  | cons d rest =>
    simp only [hyphensApart, Bool.and_eq_true] at h
    exact h.2

theorem hyphensApart_hyphen {l : Str} (h : hyphensApart ('-' :: l) = true) :
    ∃ d rest, l = d :: rest ∧ d ≠ '-' := by
  cases l with
  | nil => simp [hyphensApart] at h
  | cons d rest =>
    simp only [hyphensApart, Bool.and_eq_true, Bool.not_eq_true', Bool.and_eq_false_iff,
      decide_eq_false_iff_not, decide_eq_true_eq] at h
    refine ⟨d, rest, rfl, ?_⟩
    rcases h.1 with h1 | h1
    · exact absurd trivial h1
    · exact h1

/-- The forward comment loop reads a body with its hyphens apart up to the `-->`. -/
theorem HandleCommentLoop_body :
    ∀ (k : Nat) (body : Str), body.length ≤ k → hyphensApart body = true →
      ∀ (n : Nat) (pData b rest : Str) (hn hp : Bool) (q : List XMLEvent) (dir : Bool)
        (d rd : List (Str × Str)), body.length + 3 ≤ n →
        HandleCommentLoop n 0 pData
            ⟨⟨b, body ++ '-' :: '-' :: '>' :: rest, false⟩, hn, hp, q, dir, d, rd⟩ =
          .ok true ⟨⟨'>' :: '-' :: '-' :: (body.reverse ++ b), rest, false⟩, hn, hp,
            q ++ [XMLEvent.ofComment ⟨pData ++ body⟩], dir, d, rd⟩ := by
  intro k
  induction k with
  | zero =>
    intro body hk _ n pData b rest hn hp q dir d rd hlt
    have : body = [] := List.length_eq_zero.mp (Nat.le_zero.mp hk)
    subst this
    match n, hlt with
    | n + 3, _ =>
      simp [HandleCommentLoop, XMLEventReader.get, IStream.get, XMLEventReader.setStream,
        XMLEventReader.push]
  | succ k ih =>
    intro body hk hb n pData b rest hn hp q dir d rd hlt
    cases body with
    | nil =>
      match n, hlt with
      | n + 3, _ =>
        simp [HandleCommentLoop, XMLEventReader.get, IStream.get, XMLEventReader.setStream,
          XMLEventReader.push]
    | cons c body =>
      by_cases hc : c = '-'
      · subst hc
        obtain ⟨x, body', rfl, hx⟩ := hyphensApart_hyphen hb
        have hb' := hyphensApart_tail (hyphensApart_tail hb)
        match n, hlt with
        | n + 2, hlt =>
          have := ih body' (by simp at hk; omega) hb' n (pData ++ ['-', x]) (x :: '-' :: b) rest
            hn hp q dir d rd (by simp at hlt ⊢; omega)
          simp [HandleCommentLoop, XMLEventReader.get, IStream.get, XMLEventReader.setStream,
            hx]
          simpa using this
      · match n, hlt with
        | n + 1, hlt =>
          have := ih body (by simp at hk; omega) (hyphensApart_tail hb) n (pData ++ [c])
            (c :: b) rest hn hp q dir d rd (by simp at hlt ⊢; omega)
          simp [HandleCommentLoop, XMLEventReader.get, IStream.get, XMLEventReader.setStream,
            hc]
          simpa using this

/-- Forward `hasNext` in front of a comment. -/
theorem hasNext_comment {body : Str} (h : hyphensApart body = true) (b rest : Str)
    (d rd : List (Str × Str)) :
    hasNext ⟨⟨b, '<' :: '!' :: '-' :: '-' :: (body ++ '-' :: '-' :: '>' :: rest), false⟩,
        false, false, [], true, d, rd⟩ =
      .ok true ⟨⟨'>' :: '-' :: '-' :: (body.reverse ++ '-' :: '-' :: '!' :: '<' :: b), rest,
          false⟩, true, false, [XMLEvent.ofComment ⟨body⟩], true, d, rd⟩ := by
  have := HandleCommentLoop_body body.length body (Nat.le_refl _) h
    ((body ++ '-' :: '-' :: '>' :: rest).length + 1) [] ('-' :: '-' :: '!' :: '<' :: b) rest
    true false [] true d rd (by simp)
  rw [hasNext_step, if_pos rfl]
  simp only [HandleTag, HandleMarkupDeclaration, HandleComment, XMLEventReader.get, IStream.get,
    XMLEventReader.setStream, Bool.false_eq_true, if_false, (by decide : ¬ ('!' = '?')),
    (by decide : ¬ ('!' = '/')), if_true, ne_eq, not_true_eq_false, XMLEventReader.budget]
  simpa using this

/-- The backward comment loop reads a body with its hyphens apart up to the `<!--`. -/
theorem HandleRCommentLoop_body :
    ∀ (k : Nat) (l : Str), l.length ≤ k → hyphensApart l = true →
      ∀ (n : Nat) (pData b a : Str) (hn hp : Bool) (q : List XMLEvent) (dir : Bool)
        (d rd : List (Str × Str)), l.length + 4 ≤ n →
        HandleRCommentLoop n 0 pData
            ⟨⟨l ++ '-' :: '-' :: '!' :: '<' :: b, a, false⟩, hn, hp, q, dir, d, rd⟩ =
          .ok true ⟨⟨b, '<' :: '!' :: '-' :: '-' :: (l.reverse ++ a), false⟩, hn, hp,
            q ++ [XMLEvent.ofComment ⟨(pData ++ l).reverse⟩], dir, d, rd⟩ := by
  intro k
  induction k with
  | zero =>
    intro l hk _ n pData b a hn hp q dir d rd hlt
    have : l = [] := List.length_eq_zero.mp (Nat.le_zero.mp hk)
    subst this
    match n, hlt with
    | n + 4, _ =>
      simp [HandleRCommentLoop, XMLEventReader.rget, IStream.rget, XMLEventReader.setStream,
        XMLEventReader.push]
  | succ k ih =>
    intro l hk hb n pData b a hn hp q dir d rd hlt
    cases l with
    | nil =>
      match n, hlt with
      | n + 4, _ =>
        simp [HandleRCommentLoop, XMLEventReader.rget, IStream.rget, XMLEventReader.setStream,
          XMLEventReader.push]
    | cons c l =>
      by_cases hc : c = '-'
      · subst hc
        obtain ⟨x, l', rfl, hx⟩ := hyphensApart_hyphen hb
        have hb' := hyphensApart_tail (hyphensApart_tail hb)
        match n, hlt with
        | n + 2, hlt =>
          have := ih l' (by simp at hk; omega) hb' n (pData ++ ['-', x]) b (x :: '-' :: a)
            hn hp q dir d rd (by simp at hlt ⊢; omega)
          simp [HandleRCommentLoop, XMLEventReader.rget, IStream.rget,
            XMLEventReader.setStream, hx]
          simpa using this
      · match n, hlt with
        | n + 1, hlt =>
          have := ih l (by simp at hk; omega) (hyphensApart_tail hb) n (pData ++ [c])
            b (c :: a) hn hp q dir d rd (by simp at hlt ⊢; omega)
          simp [HandleRCommentLoop, XMLEventReader.rget, IStream.rget,
            XMLEventReader.setStream, hc]
          simpa using this

/-- Backward `hasPrevious` behind a comment. -/
theorem hasPrevious_comment {body : Str} (h : hyphensApart body.reverse = true) (b a : Str)
    (d rd : List (Str × Str)) :
    hasPrevious ⟨⟨'>' :: '-' :: '-' :: (body.reverse ++ '-' :: '-' :: '!' :: '<' :: b), a,
        false⟩, false, false, [], false, d, rd⟩ =
      .ok true ⟨⟨b, '<' :: '!' :: '-' :: '-' :: (body ++ '-' :: '-' :: '>' :: a), false⟩,
        false, true, [XMLEvent.ofComment ⟨body⟩], false, d, rd⟩ := by
  have := HandleRCommentLoop_body body.reverse.length body.reverse (Nat.le_refl _) h
    ((body.reverse ++ '-' :: '-' :: '!' :: '<' :: b).length + ('-' :: '-' :: '>' :: a).length + 1)
    [] b ('-' :: '-' :: '>' :: a) false true [] false d rd (by simp; omega)
  obtain ⟨K, hK⟩ := hasPrevious_step '>'
    ('-' :: '-' :: (body.reverse ++ '-' :: '-' :: '!' :: '<' :: b)) a d rd
  rw [hK, if_pos rfl]
  simp only [HandleRTag, HandleRComment, XMLEventReader.rget, IStream.rget,
    XMLEventReader.setStream, Bool.false_eq_true, if_false, (by decide : ¬ ('-' = '?')),
    (by decide : isspace '-' = false), (by decide : ¬ ('-' = '/')),
    (by decide : ¬ ('-' = '"' ∨ '-' = '\'')), if_true, XMLEventReader.rbudget]
  simpa using this

theorem HandleProcessingInstructionTargetLoop_skip (l : Str)
    (hl : ∀ x ∈ l, x ≠ '?' ∧ x ≠ '>' ∧ isspace x = false) :
    ∀ (m : Nat) (strName b rest : Str) (hn hp : Bool) (q : List XMLEvent) (dir : Bool)
      (d rd : List (Str × Str)),
      HandleProcessingInstructionTargetLoop (m + l.length) 0 (some strName)
          ⟨⟨b, l ++ rest, false⟩, hn, hp, q, dir, d, rd⟩ =
        HandleProcessingInstructionTargetLoop m 0 (some (strName ++ l))
          ⟨⟨l.reverse ++ b, rest, false⟩, hn, hp, q, dir, d, rd⟩ := by
  induction l with
  | nil => intros; simp
  | cons c l ih =>
    intro m strName b rest hn hp q dir d rd
    obtain ⟨h1, h2, h3⟩ := hl c (by simp)
    have ih' := ih (fun x hx => hl x (by simp [hx])) m (strName ++ [c]) (c :: b) rest hn hp q
      dir d rd
    rw [show m + (c :: l).length = (m + l.length) + 1 by simp; omega]
    conv_lhs => unfold HandleProcessingInstructionTargetLoop
    simp only [XMLEventReader.get, IStream.get, XMLEventReader.setStream, List.cons_append,
      Bool.false_eq_true, if_false, h1, h2, h3, false_and, Nat.lt_irrefl,
      (by decide : (0 : Nat) < 2), if_true, (by decide : ¬ ((0 : Nat) > 0))]
    rw [ih']
    simp

/-- The forward reader reads the target of a processing instruction up to the blank
behind it. -/
theorem HandleProcessingInstructionTarget_target {t0 : Char} (h0 : isalpha t0 = true)
    (ts : Str) (hts : ∀ x ∈ ts, x ≠ '?' ∧ x ≠ '>' ∧ isspace x = false) (b rest : Str)
    (hn hp : Bool) (q : List XMLEvent) (dir : Bool) (d rd : List (Str × Str)) :
    HandleProcessingInstructionTarget
        ⟨⟨b, t0 :: (ts ++ ' ' :: rest), false⟩, hn, hp, q, dir, d, rd⟩ =
      .ok (some (t0 :: ts))
        ⟨⟨' ' :: (ts.reverse ++ t0 :: b), rest, false⟩, hn, hp, q, dir, d, rd⟩ := by
  obtain ⟨h1, h2, h3, -, -, -, -, -, h9, -⟩ := isalnum_not_special (isalpha_isalnum h0)
  have e := HandleProcessingInstructionTargetLoop_skip ts hts (rest.length + 2) [t0] (t0 :: b)
    (' ' :: rest) hn hp q dir d rd
  simp only [HandleProcessingInstructionTarget, XMLEventReader.budget, List.length_cons,
    List.length_append]
  rw [show ts.length + (rest.length + 1) + 1 + 1 = (rest.length + 2 + ts.length) + 1 by omega]
  conv_lhs => unfold HandleProcessingInstructionTargetLoop
  simp only [XMLEventReader.get, IStream.get, XMLEventReader.setStream,
    Bool.false_eq_true, if_false, h9, h3, h1, false_and, h0, ne_eq, not_true_eq_false,
    (by decide : (0 : Nat) < 2), if_true, (by decide : ¬ ((0 : Nat) > 0))]
  rw [e]
  simp [HandleProcessingInstructionTargetLoop, XMLEventReader.get, IStream.get,
    XMLEventReader.setStream, (by decide : isspace ' ' = true)]

theorem HandleProcessingInstructionLoop_data (l : Str) (hl : ∀ x ∈ l, x ≠ '?' ∧ x ≠ '>') :
    ∀ (n : Nat) (pTarget pData b rest : Str) (hn hp : Bool) (q : List XMLEvent) (dir : Bool)
      (d rd : List (Str × Str)), l.length + 2 ≤ n →
      HandleProcessingInstructionLoop n 0 pTarget pData
          ⟨⟨b, l ++ '?' :: '>' :: rest, false⟩, hn, hp, q, dir, d, rd⟩ =
        .ok true ⟨⟨'>' :: '?' :: (l.reverse ++ b), rest, false⟩, hn, hp,
          q ++ [XMLEvent.ofProcessingInstruction ⟨pTarget, pData ++ l⟩], dir, d, rd⟩ := by
  induction l with
  | nil =>
    intro n pTarget pData b rest hn hp q dir d rd hlt
    match n, hlt with
    | n + 2, _ =>
      simp [HandleProcessingInstructionLoop, XMLEventReader.get, IStream.get,
        XMLEventReader.setStream, XMLEventReader.push]
  | cons c l ih =>
    intro n pTarget pData b rest hn hp q dir d rd hlt
    obtain ⟨h1, h2⟩ := hl c (by simp)
    match n, hlt with
    | n + 1, hlt =>
      have := ih (fun x hx => hl x (by simp [hx])) n pTarget (pData ++ [c]) (c :: b) rest
        hn hp q dir d rd (by simp at hlt ⊢; omega)
      simp [HandleProcessingInstructionLoop, XMLEventReader.get, IStream.get,
        XMLEventReader.setStream, h1, h2]
      simpa using this

/-- Forward `hasNext` in front of a processing instruction. -/
theorem hasNext_processingInstruction {t0 : Char} (h0 : isalpha t0 = true) (ts : Str)
    (hts : ∀ x ∈ ts, x ≠ '?' ∧ x ≠ '>' ∧ isspace x = false)
    (hxml : isXmlTarget (t0 :: ts) = false) (data : Str)
    (hdata : ∀ x ∈ data, x ≠ '?' ∧ x ≠ '>') (b rest : Str) (d rd : List (Str × Str)) :
    hasNext ⟨⟨b, '<' :: '?' :: t0 :: (ts ++ ' ' :: (data ++ '?' :: '>' :: rest)), false⟩,
        false, false, [], true, d, rd⟩ =
      .ok true ⟨⟨'>' :: '?' :: (data.reverse ++ ' ' :: (ts.reverse ++ t0 :: '?' :: '<' :: b)),
          rest, false⟩, true, false,
        [XMLEvent.ofProcessingInstruction ⟨t0 :: ts, data⟩], true, d, rd⟩ := by
  have e1 := HandleProcessingInstructionTarget_target h0 ts hts ('?' :: '<' :: b)
    (data ++ '?' :: '>' :: rest) true false [] true d rd
  have e2 := HandleProcessingInstructionLoop_data data hdata
    ((data ++ '?' :: '>' :: rest).length + 1) (t0 :: ts) []
    (' ' :: (ts.reverse ++ t0 :: '?' :: '<' :: b)) rest true false [] true d rd (by simp)
  rw [hasNext_step, if_pos rfl]
  simp only [HandleTag, XMLEventReader.get, IStream.get, XMLEventReader.setStream,
    Bool.false_eq_true, if_false, if_true, HandleProcessingInstruction]
  rw [e1, bind_ok]
  simp only [hxml, Bool.false_eq_true, if_false, XMLEventReader.budget]
  rw [e2, bind_ok]
  simp

theorem HandleRProcessingInstructionLoop_skip_data (l : Str)
    (hl : ∀ x ∈ l, x ≠ '?' ∧ x ≠ '<') :
    ∀ (m t s : Nat) (pData b a : Str) (hn hp : Bool) (q : List XMLEvent) (dir : Bool)
      (d rd : List (Str × Str)),
      ∃ t' s', HandleRProcessingInstructionLoop (m + l.length) 0 t s pData
          ⟨⟨l ++ b, a, false⟩, hn, hp, q, dir, d, rd⟩ =
        HandleRProcessingInstructionLoop m 0 t' s' (pData ++ l)
          ⟨⟨b, l.reverse ++ a, false⟩, hn, hp, q, dir, d, rd⟩ := by
  induction l with
  | nil => intro m t s pData b a hn hp q dir d rd; exact ⟨t, s, by simp⟩
  | cons c l ih =>
    intro m t s pData b a hn hp q dir d rd
    obtain ⟨h1, h2⟩ := hl c (by simp)
    rw [show m + (c :: l).length = (m + l.length) + 1 by simp; omega]
    by_cases hs : isspace c = true
    · obtain ⟨t', s', e⟩ := ih (fun x hx => hl x (by simp [hx])) m 0
        (if t > 0 then 1 else s + 1) (pData ++ [c]) b (c :: a) hn hp q dir d rd
      refine ⟨t', s', ?_⟩
      conv_lhs => unfold HandleRProcessingInstructionLoop
      simp only [XMLEventReader.rget, IStream.rget, XMLEventReader.setStream, List.cons_append,
        Bool.false_eq_true, if_false, hs, if_true, (by decide : (0 : Nat) < 2)]
      rw [e]
      simp
    · obtain ⟨t', s', e⟩ := ih (fun x hx => hl x (by simp [hx])) m (t + 1) s (pData ++ [c]) b
        (c :: a) hn hp q dir d rd
      refine ⟨t', s', ?_⟩
      conv_lhs => unfold HandleRProcessingInstructionLoop
      simp only [XMLEventReader.rget, IStream.rget, XMLEventReader.setStream, List.cons_append,
        Bool.false_eq_true, if_false, hs, if_true, (by decide : (0 : Nat) < 2), h1, h2,
        false_and, (by decide : ¬ ((0 : Nat) > 0))]
      rw [e]
      simp

theorem HandleRProcessingInstructionLoop_skip_target (l : Str)
    (hl : ∀ x ∈ l, x ≠ '?' ∧ x ≠ '<' ∧ isspace x = false) :
    ∀ (m t s : Nat) (pData b a : Str) (hn hp : Bool) (q : List XMLEvent) (dir : Bool)
      (d rd : List (Str × Str)),
      HandleRProcessingInstructionLoop (m + l.length) 0 t s pData
          ⟨⟨l ++ b, a, false⟩, hn, hp, q, dir, d, rd⟩ =
        HandleRProcessingInstructionLoop m 0 (t + l.length) s (pData ++ l)
          ⟨⟨b, l.reverse ++ a, false⟩, hn, hp, q, dir, d, rd⟩ := by
  induction l with
  | nil => intros; simp
  | cons c l ih =>
    intro m t s pData b a hn hp q dir d rd
    obtain ⟨h1, h2, h3⟩ := hl c (by simp)
    have e := ih (fun x hx => hl x (by simp [hx])) m (t + 1) s (pData ++ [c]) b
      (c :: a) hn hp q dir d rd
    rw [show m + (c :: l).length = (m + l.length) + 1 by simp; omega]
    conv_lhs => unfold HandleRProcessingInstructionLoop
    simp only [XMLEventReader.rget, IStream.rget, XMLEventReader.setStream, List.cons_append,
      Bool.false_eq_true, if_false, h3, if_true, (by decide : (0 : Nat) < 2), h1, h2,
      false_and, (by decide : ¬ ((0 : Nat) > 0))]
    rw [e]
    simp [Nat.add_assoc, Nat.add_comm 1]

theorem HandleRProcessingInstructionLoop_blank (m t s : Nat) (pData b a : Str) (hn hp : Bool)
    (q : List XMLEvent) (dir : Bool) (d rd : List (Str × Str)) :
    HandleRProcessingInstructionLoop (m + 1) 0 t s pData
        ⟨⟨' ' :: b, a, false⟩, hn, hp, q, dir, d, rd⟩ =
      HandleRProcessingInstructionLoop m 0 0 (if t > 0 then 1 else s + 1) (pData ++ [' '])
        ⟨⟨b, ' ' :: a, false⟩, hn, hp, q, dir, d, rd⟩ := by
  conv_lhs => unfold HandleRProcessingInstructionLoop
  simp only [XMLEventReader.rget, IStream.rget, XMLEventReader.setStream,
    Bool.false_eq_true, if_false, (by decide : isspace ' ' = true), if_true,
    (by decide : (0 : Nat) < 2)]

/-- Reading backwards from the `?>`, the data of a processing instruction and the blank
in front of it are read; one blank is counted. -/
theorem HandleRProcessingInstructionLoop_data (data : Str)
    (hdata : ∀ x ∈ data, x ≠ '?' ∧ x ≠ '<')
    (hhead : ∀ c ∈ data.head?, isspace c = false) (m : Nat) (b a : Str) (hn hp : Bool)
    (q : List XMLEvent) (dir : Bool) (d rd : List (Str × Str)) :
    HandleRProcessingInstructionLoop (m + 1 + data.length) 0 0 0 []
        ⟨⟨data.reverse ++ ' ' :: b, a, false⟩, hn, hp, q, dir, d, rd⟩ =
      HandleRProcessingInstructionLoop m 0 0 1 (data.reverse ++ [' '])
        ⟨⟨b, ' ' :: (data ++ a), false⟩, hn, hp, q, dir, d, rd⟩ := by
  cases data with
  | nil =>
    simp only [List.reverse_nil, List.nil_append, List.length_nil, Nat.add_zero]
    rw [HandleRProcessingInstructionLoop_blank]
    simp
  | cons d0 ds =>
    have h0 : isspace d0 = false := hhead d0 (by simp)
    obtain ⟨h1, h2⟩ := hdata d0 (by simp)
    obtain ⟨t', s', e⟩ := HandleRProcessingInstructionLoop_skip_data ds.reverse
      (fun x hx => hdata x (by simp [List.mem_reverse.mp hx])) (m + 1 + 1) 0 0 []
      (d0 :: ' ' :: b) a hn hp q dir d rd
    have e2 := HandleRProcessingInstructionLoop_skip_target [d0] (by simpa using ⟨h1, h2, h0⟩)
      (m + 1) t' s' ([] ++ ds.reverse) (' ' :: b) (ds.reverse.reverse ++ a) hn hp q dir d rd
    rw [show m + 1 + (d0 :: ds).length = (m + 1 + 1) + ds.reverse.length by simp; omega,
      show (d0 :: ds).reverse ++ ' ' :: b = ds.reverse ++ (d0 :: ' ' :: b) by simp, e]
    rw [show m + 1 + 1 = (m + 1) + [d0].length from rfl,
      show d0 :: ' ' :: b = [d0] ++ ' ' :: b from rfl, e2,
      HandleRProcessingInstructionLoop_blank]
    simp

theorem HandleRProcessingInstructionLoop_finish (m : Nat) {t0 : Char} (h0 : isalpha t0 = true)
    (ts data : Str) (hxml : isXmlTarget (t0 :: ts) = false) (b a : Str) (hn hp : Bool)
    (q : List XMLEvent) (dir : Bool) (d rd : List (Str × Str)) :
    HandleRProcessingInstructionLoop (m + 2) 0 (t0 :: ts).length 1
        (data.reverse ++ [' '] ++ (t0 :: ts).reverse)
        ⟨⟨'?' :: '<' :: b, a, false⟩, hn, hp, q, dir, d, rd⟩ =
      .ok true ⟨⟨b, '<' :: '?' :: a, false⟩, hn, hp,
        q ++ [XMLEvent.ofProcessingInstruction ⟨t0 :: ts, data⟩], dir, d, rd⟩ := by
  have hrev : (data.reverse ++ [' '] ++ (t0 :: ts).reverse).reverse = (t0 :: ts) ++ ' ' :: data := by
    simp
  have htake : ((t0 :: ts) ++ ' ' :: data).take (t0 :: ts).length = t0 :: ts :=
    List.take_left' rfl
  have hdrop : ((t0 :: ts) ++ ' ' :: data).drop ((t0 :: ts).length + 1) = data := by
    rw [← List.drop_drop, List.drop_left' rfl]
    rfl
  have hlen : ¬ (data.reverse ++ [' '] ++ (t0 :: ts).reverse).length ≤ 0 := by simp
  conv_lhs => unfold HandleRProcessingInstructionLoop
  simp only [XMLEventReader.rget, IStream.rget, XMLEventReader.setStream,
    Bool.false_eq_true, if_false, (by decide : isspace '?' = false), if_true,
    (by decide : (0 : Nat) < 2), Nat.le_refl, and_self]
  conv_lhs => unfold HandleRProcessingInstructionLoop
  simp only [XMLEventReader.rget, IStream.rget, XMLEventReader.setStream,
    Bool.false_eq_true, if_false, (by decide : isspace '<' = false), if_true,
    (by decide : (0 + 1 : Nat) < 2), (by decide : ¬ ('<' = '?')), false_and,
    (by decide : (0 + 1 : Nat) ≤ 1), and_self, hlen, hrev, htake, hdrop, hxml]
  simp [h0, XMLEventReader.push]

/-- Backward `hasPrevious` behind a processing instruction. -/
theorem hasPrevious_processingInstruction {t0 : Char} (h0 : isalpha t0 = true) (ts : Str)
    (hts : ∀ x ∈ ts, x ≠ '?' ∧ x ≠ '<' ∧ isspace x = false)
    (hxml : isXmlTarget (t0 :: ts) = false) (data : Str)
    (hdata : ∀ x ∈ data, x ≠ '?' ∧ x ≠ '<')
    (hhead : ∀ c ∈ data.head?, isspace c = false) (b a : Str) (d rd : List (Str × Str)) :
    hasPrevious ⟨⟨'>' :: '?' :: (data.reverse ++ ' ' :: ((t0 :: ts).reverse ++ '?' :: '<' :: b)),
        a, false⟩, false, false, [], false, d, rd⟩ =
      .ok true ⟨⟨b, '<' :: '?' :: t0 :: (ts ++ ' ' :: (data ++ '?' :: '>' :: a)), false⟩,
        false, true, [XMLEvent.ofProcessingInstruction ⟨t0 :: ts, data⟩], false, d, rd⟩ := by
  have ht : ∀ x ∈ (t0 :: ts).reverse, x ≠ '?' ∧ x ≠ '<' ∧ isspace x = false := by
    intro x hx
    rcases List.mem_cons.mp (List.mem_reverse.mp hx) with rfl | hx
    · obtain ⟨h1, h2, -, -, -, -, -, -, h9, -⟩ := isalnum_not_special (isalpha_isalnum h0)
      exact ⟨h9, h2, h1⟩
    · exact hts x hx
  have e1 := HandleRProcessingInstructionLoop_data data hdata hhead
    ((b.length + a.length + 3) + 2 + (t0 :: ts).reverse.length)
    ((t0 :: ts).reverse ++ '?' :: '<' :: b) ('?' :: '>' :: a) false true [] false d rd
  have e2 := HandleRProcessingInstructionLoop_skip_target (t0 :: ts).reverse ht
    ((b.length + a.length + 3) + 2) 0 1 (data.reverse ++ [' ']) ('?' :: '<' :: b)
    (' ' :: (data ++ '?' :: '>' :: a)) false true [] false d rd
  have e3 := HandleRProcessingInstructionLoop_finish (b.length + a.length + 3) h0 ts data hxml b
    ((t0 :: ts).reverse.reverse ++ ' ' :: (data ++ '?' :: '>' :: a)) false true [] false d rd
  obtain ⟨K, hK⟩ := hasPrevious_step '>'
    ('?' :: (data.reverse ++ ' ' :: ((t0 :: ts).reverse ++ '?' :: '<' :: b))) a d rd
  rw [hK, if_pos rfl]
  simp only [HandleRTag, HandleRProcessingInstruction, XMLEventReader.rget, IStream.rget,
    XMLEventReader.setStream, Bool.false_eq_true, if_false, if_true, XMLEventReader.rbudget]
  rw [show (data.reverse ++ ' ' :: ((t0 :: ts).reverse ++ '?' :: '<' :: b)).length +
      ('?' :: '>' :: a).length + 1 =
      (b.length + a.length + 3) + 2 + (t0 :: ts).reverse.length + 1 + data.length by
    simp; omega]
  rw [e1, e2]
  rw [show 0 + (t0 :: ts).reverse.length = (t0 :: ts).length by simp, e3, bind_ok]
  simp

theorem Entity.name_bytes (e : Entity) :
    ∀ x ∈ e.name, x ≠ ';' ∧ x ≠ '&' ∧ x ≠ '>' ∧ x ≠ '"' ∧ x ≠ '\'' ∧ x ≠ '\x00' := by
  cases e <;> decide

theorem Entity.name_ne_nil (e : Entity) : e.name ≠ [] := by
  cases e <;> decide

theorem ResolveEntityLoop_name (l : Str) (hl : ∀ x ∈ l, x ≠ ';') :
    ∀ (n : Nat) (pEntityName b rest : Str) (hn hp : Bool) (q : List XMLEvent) (dir : Bool)
      (d rd : List (Str × Str)), l.length < n →
      ResolveEntityLoop n pEntityName ⟨⟨b, l ++ ';' :: rest, false⟩, hn, hp, q, dir, d, rd⟩ =
        .ok (pEntityName ++ l) ⟨⟨';' :: (l.reverse ++ b), rest, false⟩, hn, hp, q, dir, d, rd⟩ := by
  induction l with
  | nil =>
    intro n pEntityName b rest hn hp q dir d rd hlt
    match n, hlt with
    | n + 1, _ =>
      simp [ResolveEntityLoop, XMLEventReader.get, IStream.get, XMLEventReader.setStream]
  | cons c l ih =>
    intro n pEntityName b rest hn hp q dir d rd hlt
    match n, hlt with
    | n + 1, hlt =>
      have := ih (fun x hx => hl x (by simp [hx])) n (pEntityName ++ [c]) (c :: b) rest hn hp q
        dir d rd (by simp at hlt ⊢; omega)
      simp [ResolveEntityLoop, XMLEventReader.get, IStream.get, XMLEventReader.setStream,
        hl c (by simp)]
      simpa using this

/-- Behind a `&`, the forward reader replaces a reference to a built-in entity. -/
theorem ResolveEntity_reference (e : Entity) (b rest : Str) (hn hp : Bool) (q : List XMLEvent)
    (dir : Bool) {d rd : List (Str × Str)} (hd : knowsEntities d rd) :
    ResolveEntity ⟨⟨b, e.name ++ ';' :: rest, false⟩, hn, hp, q, dir, d, rd⟩ =
      .ok e.replacement ⟨⟨';' :: (e.name.reverse ++ b), rest, false⟩, hn, hp, q, dir, d, rd⟩ := by
  obtain ⟨c, cs, hcs⟩ : ∃ c cs, e.name = c :: cs := by
    cases h : e.name with
    | nil => exact absurd h e.name_ne_nil
    | cons c cs => exact ⟨c, cs, rfl⟩
  have hb := e.name_bytes
  rw [hcs] at hb
  have e1 := ResolveEntityLoop_name cs (fun x hx => (hb x (by simp [hx])).1)
    ((cs ++ ';' :: rest).length + 1) [c] (c :: b) rest hn hp q dir d rd (by simp; omega)
  have hfind := (hd e).1
  rw [hcs] at hfind
  simp only [hcs, ResolveEntity, List.cons_append, XMLEventReader.get, IStream.get,
    XMLEventReader.setStream, Bool.false_eq_true, if_false, (hb c (by simp)).1,
    XMLEventReader.budget]
  rw [e1, bind_ok]
  simp [hfind]

/-- The forward text loop reads a run of pieces free of `<` up to the `<` behind it or the
end of the stream. -/
theorem HandleTextLoop_pieces {d rd : List (Str × Str)} (hd : knowsEntities d rd)
    (l : List TextPiece)
    (hl : bytesAll (fun c => decide (c ≠ '<') && decide (c ≠ '&')) l = true) :
    ∀ (n : Nat) (pData b rest : Str) (hn hp : Bool) (q : List XMLEvent) (dir : Bool),
      (rest = [] ∨ ∃ rest', rest = '<' :: rest') → l.length + rest.length < n →
      HandleTextLoop n pData ⟨⟨b, renderText l ++ rest, false⟩, hn, hp, q, dir, d, rd⟩ =
        .ok true ⟨⟨(renderText l).reverse ++ b, rest, rest.isEmpty⟩, hn, hp,
          q ++ [charactersEvent (pData ++ textData l)], dir, d, rd⟩ := by
  induction l with
  | nil =>
    intro n pData b rest hn hp q dir hrest hlt
    cases n with
    | zero => omega
    | succ n =>
      rcases hrest with rfl | ⟨rest', rfl⟩
      · simp [renderText, textData, HandleTextLoop, XMLEventReader.get, IStream.get,
          XMLEventReader.setStream, XMLEventReader.push]
      · simp [renderText, textData, HandleTextLoop, XMLEventReader.get, IStream.get,
          XMLEventReader.setStream, XMLEventReader.push, XMLEventReader.unget, IStream.unget]
  | cons x l ih =>
    intro n pData b rest hn hp q dir hrest hlt
    have hl' : bytesAll (fun c => decide (c ≠ '<') && decide (c ≠ '&')) l = true := by
      simp only [bytesAll, List.all_cons, Bool.and_eq_true] at hl ⊢
      exact hl.2
    cases n with
    | zero => omega
    | succ n =>
      cases x with
      | byte c =>
        have hc : c ≠ '<' ∧ c ≠ '&' := by
          simp only [bytesAll, List.all_cons, Bool.and_eq_true, decide_eq_true_eq] at hl
          exact hl.1
        have ih' := ih hl' n (pData ++ [c]) (c :: b) rest hn hp q dir hrest
          (by simp at hlt ⊢; omega)
        simp [renderText, textData, TextPiece.render, TextPiece.data, HandleTextLoop,
          XMLEventReader.get, IStream.get, XMLEventReader.setStream, hc.1, hc.2] at ih' ⊢
        exact ih'
      | reference e =>
        have ih' := ih hl' n (pData ++ e.replacement) (';' :: (e.name.reverse ++ '&' :: b)) rest
          hn hp q dir hrest (by simp at hlt ⊢; omega)
        have e1 := ResolveEntity_reference e ('&' :: b) (renderText l ++ rest) hn hp q dir hd
        simp only [renderText, textData, TextPiece.render, TextPiece.data, List.flatMap_cons,
          List.cons_append, List.append_assoc, HandleTextLoop, XMLEventReader.get, IStream.get,
          XMLEventReader.setStream, Bool.false_eq_true, if_false, (by decide : ¬ ('&' = '<')),
          if_true, List.nil_append, List.singleton_append] at ih' e1 ⊢
        rw [e1, bind_ok, ih']
        simp

theorem renderText_length_ge (l : List TextPiece) : l.length ≤ (renderText l).length := by
  induction l with
  | nil => simp
  | cons y l ih =>
    cases y <;> simp [renderText, TextPiece.render] at ih ⊢ <;> omega

/-- Forward `hasNext` in front of a run of pieces that ends at the end of the stream or in
front of a `<`. -/
theorem hasNext_pieces {d rd : List (Str × Str)} (hd : knowsEntities d rd)
    {l : List TextPiece} (hne : l ≠ [])
    (hl : bytesAll (fun c => decide (c ≠ '<') && decide (c ≠ '&')) l = true)
    (b rest : Str) (hrest : rest = [] ∨ ∃ rest', rest = '<' :: rest') :
    hasNext ⟨⟨b, renderText l ++ rest, false⟩, false, false, [], true, d, rd⟩ =
      .ok true ⟨⟨(renderText l).reverse ++ b, rest, rest.isEmpty⟩, true, false,
        [charactersEvent (textData l)], true, d, rd⟩ := by
  cases l with
  | nil => exact absurd rfl hne
  | cons x l =>
    have hl' : bytesAll (fun c => decide (c ≠ '<') && decide (c ≠ '&')) l = true := by
      simp only [bytesAll, List.all_cons, Bool.and_eq_true] at hl ⊢
      exact hl.2
    have hlen := renderText_length_ge l
    cases x with
    | byte c =>
      have hc : c ≠ '<' ∧ c ≠ '&' := by
        simp only [bytesAll, List.all_cons, Bool.and_eq_true, decide_eq_true_eq] at hl
        exact hl.1
      have := HandleTextLoop_pieces hd l hl' ((renderText l ++ rest).length + 1) [c] (c :: b)
        rest true false [] true hrest (by simp; omega)
      simp only [renderText, textData, TextPiece.render, TextPiece.data, List.flatMap_cons,
        List.cons_append, List.nil_append] at this ⊢
      rw [hasNext_step, if_neg hc.1]
      simpa [HandleText, hc.2, XMLEventReader.budget] using this
    | reference e =>
      have e1 := ResolveEntity_reference e ('&' :: b) (renderText l ++ rest) true false [] true hd
      have := HandleTextLoop_pieces hd l hl' ((renderText l ++ rest).length + 1) e.replacement
        (';' :: (e.name.reverse ++ '&' :: b)) rest true false [] true hrest (by simp; omega)
      simp only [renderText, textData, TextPiece.render, TextPiece.data, List.flatMap_cons,
        List.cons_append, List.nil_append, List.append_assoc] at this e1 ⊢
      rw [hasNext_step, if_neg (by decide)]
      simp only [HandleText, if_true]
      rw [e1, bind_ok]
      simp only [XMLEventReader.budget]
      rw [this]
      simp

theorem rrenderText_eq (rs : List TextPiece) :
    rrenderText rs = (renderText rs.reverse).reverse := by
  simp only [rrenderText, renderText, List.reverse_flatMap, List.reverse_reverse]
  rfl

theorem rtextData_eq (rs : List TextPiece) :
    rtextData rs = (textData rs.reverse).reverse := by
  simp only [rtextData, textData, List.reverse_flatMap, List.reverse_reverse]
  rfl

theorem rrenderText_bytes (chunk : Str) (rest : List TextPiece) :
    rrenderText (chunk.map TextPiece.byte ++ rest) = chunk ++ rrenderText rest := by
  induction chunk with
  | nil => simp
  | cons c chunk ih =>
    simp only [rrenderText, List.map_cons, List.cons_append, List.flatMap_cons] at ih ⊢
    rw [ih]
    simp [TextPiece.render]

theorem rtextData_bytes (chunk : Str) (rest : List TextPiece) :
    rtextData (chunk.map TextPiece.byte ++ rest) = chunk ++ rtextData rest := by
  induction chunk with
  | nil => simp
  | cons c chunk ih =>
    simp only [rtextData, List.map_cons, List.cons_append, List.flatMap_cons] at ih ⊢
    rw [ih]
    simp [TextPiece.data]

/-- A run of pieces splits at its first piece that begins, read backwards, with `;` or
`>`. -/
theorem pieces_split (rs : List TextPiece) :
    ∃ (chunk : Str) (rest : List TextPiece), rs = chunk.map TextPiece.byte ++ rest ∧
      (∀ x ∈ chunk, x ≠ ';' ∧ x ≠ '>') ∧
      (rest = [] ∨ ∃ s t, rrenderText rest = s :: t ∧ (s = '>' ∨ s = ';')) := by
  induction rs with
  | nil => exact ⟨[], [], rfl, by simp, Or.inl rfl⟩
  | cons p rs ih =>
    cases p with
    | reference e =>
      refine ⟨[], .reference e :: rs, rfl, by simp,
        Or.inr ⟨';', e.name.reverse ++ '&' :: rrenderText rs, ?_, Or.inr rfl⟩⟩
      simp [rrenderText, TextPiece.render]
    | byte c =>
      by_cases hc : c = ';' ∨ c = '>'
      · refine ⟨[], .byte c :: rs, rfl, by simp, Or.inr ⟨c, rrenderText rs, ?_, hc.symm⟩⟩
        simp [rrenderText, TextPiece.render]
      · obtain ⟨chunk, rest, rfl, h1, h2⟩ := ih
        refine ⟨c :: chunk, rest, rfl, ?_, h2⟩
        intro x hx
        rcases List.mem_cons.mp hx with rfl | hx
        · exact ⟨fun h => hc (Or.inl h), fun h => hc (Or.inr h)⟩
        · exact h1 x hx

theorem ResolveREntityLoop_scan (cDelimiter : Char) (l : Str)
    (hl : ∀ c ∈ l, c ≠ '&' ∧ ¬ (cDelimiter ≠ '\x00' ∧ c = cDelimiter) ∧ c ≠ '>' ∧ c ≠ ';') :
    ∀ (n : Nat) (pEntityName b a : Str) (hn hp : Bool) (q : List XMLEvent) (dir : Bool)
      (d rd : List (Str × Str)) (strReplacement : Str), l.length < n →
      pEntityName ++ l ≠ [] → mapFind rd (pEntityName ++ l) = some strReplacement →
      ResolveREntityLoop n cDelimiter pEntityName
          ⟨⟨l ++ '&' :: b, a, false⟩, hn, hp, q, dir, d, rd⟩ =
        .ok strReplacement ⟨⟨b, '&' :: (l.reverse ++ a), false⟩, hn, hp, q, dir, d, rd⟩ := by
  induction l with
  | nil =>
    intro n pEntityName b a hn hp q dir d rd rep hlt hne hfind
    match n, hlt with
    | n + 1, _ =>
      have hlen : ¬ pEntityName.length ≤ 0 := by
        have := List.length_pos.mpr (by simpa using hne)
        omega
      simp only [List.append_nil] at hfind
      simp [ResolveREntityLoop, XMLEventReader.rget, IStream.rget, XMLEventReader.setStream,
        hlen, hfind]
  | cons c l ih =>
    intro n pEntityName b a hn hp q dir d rd rep hlt hne hfind
    match n, hlt with
    | n + 1, hlt =>
      obtain ⟨h1, h2, h3, h4⟩ := hl c (by simp)
      have := ih (fun x hx => hl x (by simp [hx])) n (pEntityName ++ [c]) b (c :: a) hn hp q
        dir d rd rep (by simp at hlt ⊢; omega) (by simp) (by simpa using hfind)
      simp only [ResolveREntityLoop, XMLEventReader.rget, IStream.rget,
        XMLEventReader.setStream, List.cons_append, Bool.false_eq_true, if_false, h1, h2, h3,
        h4, false_or]
      simpa using this

/-- Reading backwards behind the `;` of a reference to a built-in entity: the replacement
text, reversed. -/
theorem ResolveREntity_reference (e : Entity) {cDelimiter : Char}
    (hdl : cDelimiter = '\x00' ∨ cDelimiter = '"' ∨ cDelimiter = '\'') (b a : Str)
    (hn hp : Bool) (q : List XMLEvent) (dir : Bool) {d rd : List (Str × Str)}
    (hd : knowsEntities d rd) :
    ResolveREntity cDelimiter ⟨⟨e.name.reverse ++ '&' :: b, a, false⟩, hn, hp, q, dir, d, rd⟩ =
      .ok e.replacement.reverse ⟨⟨b, '&' :: (e.name ++ a), false⟩, hn, hp, q, dir, d, rd⟩ := by
  have hb : ∀ c ∈ e.name.reverse,
      c ≠ '&' ∧ ¬ (cDelimiter ≠ '\x00' ∧ c = cDelimiter) ∧ c ≠ '>' ∧ c ≠ ';' := by
    intro c hc
    obtain ⟨h1, h2, h3, h4, h5, h6⟩ := e.name_bytes c (List.mem_reverse.mp hc)
    refine ⟨h2, ?_, h3, h1⟩
    rintro ⟨hne, rfl⟩
    rcases hdl with h | h | h
    · exact hne h
    · exact h4 h
    · exact h5 h
  have := ResolveREntityLoop_scan cDelimiter e.name.reverse hb
    ((e.name.reverse ++ '&' :: b).length + a.length + 1) [] b a hn hp q dir d rd
    e.replacement.reverse (by simp; omega) (by simpa using e.name_ne_nil)
    (by simpa using (hd e).2)
  simpa [ResolveREntity, XMLEventReader.rbudget] using this

theorem bytesAll_cons {p : Char → Bool} {x : TextPiece} {l : List TextPiece}
    (h : bytesAll p (x :: l) = true) : bytesAll p l = true := by
  simp only [bytesAll, List.all_cons, Bool.and_eq_true] at h ⊢
  exact h.2

theorem bytesAll_byte {p : Char → Bool} {c : Char} {l : List TextPiece}
    (h : bytesAll p (.byte c :: l) = true) : p c = true := by
  simp only [bytesAll, List.all_cons, Bool.and_eq_true] at h
  exact h.1

theorem bytesAll_append {p : Char → Bool} {l1 l2 : List TextPiece}
    (h : bytesAll p (l1 ++ l2) = true) : bytesAll p l1 = true ∧ bytesAll p l2 = true := by
  simpa [bytesAll] using h

theorem bytesAll_bytes {p : Char → Bool} {chunk : Str}
    (h : bytesAll p (chunk.map TextPiece.byte) = true) : ∀ c ∈ chunk, p c = true := by
  simpa [bytesAll] using h

theorem bytesAll_reverse {p : Char → Bool} {l : List TextPiece}
    (h : bytesAll p l = true) : bytesAll p l.reverse = true := by
  simp only [bytesAll, List.all_eq_true] at h ⊢
  exact fun x hx => h x (List.mem_reverse.mp hx)

/-- Reading backwards behind a `;` that is a byte of the text: the bytes up to the next
`;` or `>`, the delimiter or the begin of the stream are handed back with the `;` in
front. -/
theorem ResolveREntity_semicolon {cDelimiter : Char} (hda : cDelimiter ≠ '&')
    (rs : List TextPiece)
    (hrs : bytesAll (fun c => decide (c ≠ '&') &&
      decide (cDelimiter = '\x00' ∨ c ≠ cDelimiter)) rs = true)
    (b a : Str)
    (hb : b = [] ∨ ∃ s b', b = s :: b' ∧ ((cDelimiter ≠ '\x00' ∧ s = cDelimiter) ∨ s = '>' ∨ s = ';'))
    (hn hp : Bool) (q : List XMLEvent) (dir : Bool) (d rd : List (Str × Str)) :
    ∃ (chunk : Str) (rest : List TextPiece), rs = chunk.map TextPiece.byte ++ rest ∧
      ResolveREntity cDelimiter ⟨⟨rrenderText rs ++ b, a, false⟩, hn, hp, q, dir, d, rd⟩ =
        .ok (';' :: chunk)
          ⟨⟨rrenderText rest ++ b, chunk.reverse ++ a, false⟩, hn, hp, q, dir, d, rd⟩ := by
  obtain ⟨chunk, rest, rfl, hchunk, hrest⟩ := pieces_split rs
  refine ⟨chunk, rest, rfl, ?_⟩
  have hc := bytesAll_bytes (bytesAll_append hrs).1
  have hchunk' : ∀ x ∈ chunk,
      x ≠ '&' ∧ ¬ (cDelimiter ≠ '\x00' ∧ x = cDelimiter) ∧ x ≠ '>' ∧ x ≠ ';' := by
    intro x hx
    have h1 := hc x hx
    simp only [Bool.and_eq_true, decide_eq_true_eq] at h1
    refine ⟨h1.1, ?_, (hchunk x hx).2, (hchunk x hx).1⟩
    rintro ⟨h0, hx⟩
    rcases h1.2 with h2 | h2
    · exact h0 h2
    · exact h2 hx
  have hstop : (rrenderText rest ++ b = [] ∨ ∃ s b', rrenderText rest ++ b = s :: b' ∧
      ((cDelimiter ≠ '\x00' ∧ s = cDelimiter) ∨ s = '>' ∨ s = ';')) := by
    rcases hrest with rfl | ⟨s, t, hst, hs⟩
    · simpa [rrenderText] using hb
    · exact Or.inr ⟨s, t ++ b, by simp [hst], Or.inr hs⟩
  have e := ResolveREntityLoop_literal cDelimiter hda chunk hchunk'
    ((chunk ++ (rrenderText rest ++ b)).length + a.length + 1) []
    (rrenderText rest ++ b) a hn hp q dir d rd hstop (by simp; omega)
  rw [rrenderText_bytes, List.append_assoc]
  simpa [ResolveREntity, XMLEventReader.rbudget] using e

theorem textBytes_resolvable {rs : List TextPiece}
    (h : bytesAll (fun c => decide (c ≠ '>') && decide (c ≠ '&')) rs = true) :
    bytesAll (fun c => decide (c ≠ '&') &&
      decide (('\x00' : Char) = '\x00' ∨ c ≠ '\x00')) rs = true := by
  simp only [bytesAll, List.all_eq_true] at h ⊢
  intro x hx
  have := h x hx
  cases x with
  | byte c => simp only [Bool.and_eq_true, decide_eq_true_eq] at this ⊢; exact ⟨this.2, Or.inl trivial⟩
  | reference e => rfl

/-- Reading backwards, the pieces of a text free of `>` are read up to the `>` in front
of them or the begin of the stream. -/
theorem HandleRTextLoop_pieces {d rd : List (Str × Str)} (hd : knowsEntities d rd) :
    ∀ (n : Nat) (rs : List TextPiece),
      bytesAll (fun c => decide (c ≠ '>') && decide (c ≠ '&')) rs = true → rs.length < n →
      ∀ (pData b a : Str) (hn hp : Bool) (q : List XMLEvent) (dir : Bool),
        (b = [] ∨ ∃ b', b = '>' :: b') →
        HandleRTextLoop n pData ⟨⟨rrenderText rs ++ b, a, false⟩, hn, hp, q, dir, d, rd⟩ =
          .ok true ⟨⟨b, (rrenderText rs).reverse ++ a, false⟩, hn, hp,
            q ++ [charactersEvent (pData ++ rtextData rs).reverse], dir, d, rd⟩ := by
  intro n
  induction n with
  | zero => intro rs _ hlt; omega
  | succ n ih =>
    intro rs hrs hlt pData b a hn hp q dir hb
    have hb' : b = [] ∨ ∃ s b', b = s :: b' ∧
        (((('\x00' : Char) ≠ '\x00') ∧ s = '\x00') ∨ s = '>' ∨ s = ';') := by
      rcases hb with rfl | ⟨b', rfl⟩
      · exact Or.inl rfl
      · exact Or.inr ⟨'>', b', rfl, Or.inr (Or.inl rfl)⟩
    cases rs with
    | nil =>
      rcases hb with rfl | ⟨b', rfl⟩
      · simp [rrenderText, rtextData, HandleRTextLoop, XMLEventReader.rget, IStream.rget,
          XMLEventReader.setStream, XMLEventReader.push]
      · simp [rrenderText, rtextData, HandleRTextLoop, XMLEventReader.rget, IStream.rget,
          XMLEventReader.setStream, XMLEventReader.push, XMLEventReader.runget,
          IStream.runget]
    | cons p rs =>
      have hrs' := bytesAll_cons hrs
      cases p with
      | byte c =>
        have hc := bytesAll_byte hrs
        simp only [Bool.and_eq_true, decide_eq_true_eq] at hc
        by_cases hs : c = ';'
        · subst hs
          obtain ⟨chunk, rest, hsplit, e⟩ := ResolveREntity_semicolon (by decide) rs
            (textBytes_resolvable hrs') b (';' :: a) hb' hn hp q dir d rd
          have ih' := ih rest (bytesAll_append (hsplit ▸ hrs')).2 (by
              have := congrArg List.length hsplit
              simp at this hlt
              omega)
            (pData ++ ';' :: chunk) b (chunk.reverse ++ ';' :: a) hn hp q dir hb
          have h1 : rrenderText (TextPiece.byte ';' :: rs) = ';' :: rrenderText rs := rfl
          have h2 : rtextData (TextPiece.byte ';' :: rs) = ';' :: (chunk ++ rtextData rest) := by
            rw [hsplit, show TextPiece.byte ';' :: (chunk.map TextPiece.byte ++ rest) =
              (';' :: chunk).map TextPiece.byte ++ rest from rfl, rtextData_bytes]
            rfl
          have h3 : rrenderText rs = chunk ++ rrenderText rest := by
            rw [hsplit, rrenderText_bytes]
          rw [h1, h2]
          simp only [HandleRTextLoop, XMLEventReader.rget, IStream.rget,
            XMLEventReader.setStream, List.cons_append, Bool.false_eq_true, if_false,
            (by decide : ¬ (';' = '>')), if_true]
          rw [e, bind_ok, ih', h3]
          simp
        · have ih' := ih rs hrs' (by simp at hlt; omega) (pData ++ [c]) b (c :: a) hn hp q dir hb
          simp [rrenderText, rtextData, TextPiece.render, TextPiece.data, HandleRTextLoop,
            XMLEventReader.rget, IStream.rget, XMLEventReader.setStream, hc.1, hs] at ih' ⊢
          exact ih'
      | reference e =>
        have e1 := ResolveREntity_reference e (Or.inl rfl) (rrenderText rs ++ b) (';' :: a)
          hn hp q dir hd
        have ih' := ih rs hrs' (by simp at hlt; omega) (pData ++ e.replacement.reverse) b
          ('&' :: (e.name ++ ';' :: a)) hn hp q dir hb
        simp only [rrenderText, rtextData, TextPiece.render, TextPiece.data, List.flatMap_cons,
          List.reverse_append, List.reverse_cons, List.reverse_nil, List.nil_append,
          List.cons_append, List.append_assoc, HandleRTextLoop, XMLEventReader.rget,
          IStream.rget, XMLEventReader.setStream, Bool.false_eq_true, if_false,
          (by decide : ¬ (';' = '>')), if_true, List.singleton_append] at ih' e1 ⊢
        rw [e1, bind_ok, ih']
        simp

/-- Backward `hasPrevious` behind a run of pieces free of `>`. -/
theorem hasPrevious_pieces {d rd : List (Str × Str)} (hd : knowsEntities d rd)
    {l : List TextPiece} (hne : l ≠ [])
    (hl : bytesAll (fun c => decide (c ≠ '>') && decide (c ≠ '&')) l = true)
    (b a : Str) (hb : b = [] ∨ ∃ b', b = '>' :: b') :
    hasPrevious ⟨⟨(renderText l).reverse ++ b, a, false⟩, false, false, [], false, d, rd⟩ =
      .ok true ⟨⟨b, renderText l ++ a, false⟩, false, true, [charactersEvent (textData l)],
        false, d, rd⟩ := by
  have hb' : b = [] ∨ ∃ s b', b = s :: b' ∧
      (((('\x00' : Char) ≠ '\x00') ∧ s = '\x00') ∨ s = '>' ∨ s = ';') := by
    rcases hb with rfl | ⟨b', rfl⟩
    · exact Or.inl rfl
    · exact Or.inr ⟨'>', b', rfl, Or.inr (Or.inl rfl)⟩
  have hrr : (renderText l).reverse = rrenderText l.reverse := by
    rw [rrenderText_eq, List.reverse_reverse]
  have hdd : textData l = (rtextData l.reverse).reverse := by
    rw [rtextData_eq, List.reverse_reverse, List.reverse_reverse]
  have hra : renderText l = (rrenderText l.reverse).reverse := by
    rw [← hrr, List.reverse_reverse]
  have hl' := bytesAll_reverse hl
  have hne' : l.reverse ≠ [] := by simpa using hne
  rw [hrr, hdd, hra]
  generalize l.reverse = rs at hl' hne' ⊢
  cases rs with
  | nil => exact absurd rfl hne'
  | cons p rs =>
    have hrs' := bytesAll_cons hl'
    cases p with
    | byte c =>
      have hc := bytesAll_byte hl'
      simp only [Bool.and_eq_true, decide_eq_true_eq] at hc
      have h1 : rrenderText (TextPiece.byte c :: rs) = c :: rrenderText rs := rfl
      obtain ⟨K, hK⟩ := hasPrevious_step c (rrenderText rs ++ b) a d rd
      rw [h1, List.cons_append, hK, if_neg hc.1]
      by_cases hs : c = ';'
      · subst hs
        obtain ⟨chunk, rest, hsplit, e⟩ := ResolveREntity_semicolon (by decide) rs
          (textBytes_resolvable hrs') b (';' :: a) hb' false true [] false d rd
        have e2 := HandleRTextLoop_pieces hd
          ((rrenderText rest ++ b).length + (chunk.reverse ++ ';' :: a).length + 1) rest
          (bytesAll_append (hsplit ▸ hrs')).2 (by
            have := renderText_length_ge rest.reverse
            rw [rrenderText_eq]
            simp at this ⊢
            omega)
          (';' :: chunk) b (chunk.reverse ++ ';' :: a) false true [] false hb
        have h2 : rtextData (TextPiece.byte ';' :: rs) = ';' :: (chunk ++ rtextData rest) := by
          rw [hsplit, show TextPiece.byte ';' :: (chunk.map TextPiece.byte ++ rest) =
            (';' :: chunk).map TextPiece.byte ++ rest from rfl, rtextData_bytes]
          rfl
        have h3 : rrenderText rs = chunk ++ rrenderText rest := by
          rw [hsplit, rrenderText_bytes]
        simp only [HandleRText, if_true]
        rw [e, bind_ok]
        simp only [XMLEventReader.rbudget]
        rw [e2, h2, h3]
        simp
      · have e2 := HandleRTextLoop_pieces hd
          ((rrenderText rs ++ b).length + (c :: a).length + 1) rs hrs' (by
            have := renderText_length_ge rs.reverse
            rw [rrenderText_eq]
            simp at this ⊢
            omega)
          [c] b (c :: a) false true [] false hb
        simp only [HandleRText, hs, if_false, XMLEventReader.rbudget]
        rw [e2]
        simp [rtextData, TextPiece.data]
    | reference e =>
      have h1 : rrenderText (TextPiece.reference e :: rs) =
          ';' :: (e.name.reverse ++ '&' :: rrenderText rs) := by
        simp [rrenderText, TextPiece.render]
      have h2 : rtextData (TextPiece.reference e :: rs) =
          e.replacement.reverse ++ rtextData rs := rfl
      obtain ⟨K, hK⟩ := hasPrevious_step ';' (e.name.reverse ++ '&' :: (rrenderText rs ++ b)) a d rd
      have e1 := ResolveREntity_reference e (Or.inl rfl) (rrenderText rs ++ b) (';' :: a)
        false true [] false hd
      have e2 := HandleRTextLoop_pieces hd
        ((rrenderText rs ++ b).length + ('&' :: (e.name ++ ';' :: a)).length + 1) rs hrs' (by
          have := renderText_length_ge rs.reverse
          rw [rrenderText_eq]
          simp at this ⊢
          omega)
        e.replacement.reverse b ('&' :: (e.name ++ ';' :: a)) false true [] false hb
      rw [h1, h2]
      simp only [List.cons_append, List.append_assoc] at hK ⊢
      rw [hK, if_neg (by decide)]
      simp only [HandleRText, if_true]
      rw [e1, bind_ok]
      simp only [XMLEventReader.rbudget]
      rw [e2]
      simp

/-! ## Forward traversal of a document -/

/-- Forward `hasNext` in front of a well-formed token. -/
theorem Token.wellFormed_tag {n : Str} {l : List AttributeText}
    (h : (validName n && l.all AttributeText.wellFormed &&
      (l.isEmpty || !(qnameOf n).m_strLocalPart.isEmpty)) = true) :
    validName n = true ∧ (∀ y ∈ l, y.wellFormed = true) ∧
      (l ≠ [] → (qnameOf n).m_strLocalPart ≠ []) := by
  simp only [Bool.and_eq_true, List.all_eq_true, Bool.or_eq_true, List.isEmpty_iff,
    Bool.not_eq_true', List.isEmpty_eq_false] at h
  refine ⟨h.1.1, h.1.2, fun hne => ?_⟩
  rcases h.2 with h2 | h2
  · exact absurd h2 hne
  · exact h2

theorem validTarget_split {pTarget : Str} (h : validTarget pTarget = true) :
    ∃ t0 ts, pTarget = t0 :: ts ∧ isalpha t0 = true ∧
      (∀ x ∈ ts, x ≠ '?' ∧ x ≠ '>' ∧ isspace x = false) ∧ isXmlTarget (t0 :: ts) = false := by
  cases pTarget with
  | nil => simp [validTarget] at h
  | cons t0 ts =>
    simp only [validTarget, Bool.and_eq_true, List.all_eq_true, decide_eq_true_eq,
      Bool.not_eq_true'] at h
    exact ⟨t0, ts, rfl, h.1.1, fun x hx => ⟨(h.1.2 x hx).1.1, (h.1.2 x hx).1.2, (h.1.2 x hx).2⟩,
      h.2⟩

theorem hasNext_token {d rd : List (Str × Str)} (hd : knowsEntities d rd) {t : Token}
    (ht : t.wellFormed = true) (b rest : Str)
    (hrest : t.isText = true → rest = [] ∨ ∃ rest', rest = '<' :: rest') :
    hasNext ⟨⟨b, t.render ++ rest, false⟩, false, false, [], true, d, rd⟩ =
      .ok true ⟨⟨t.render.reverse ++ b, rest, t.isText && rest.isEmpty⟩, true, false,
        t.events, true, d, rd⟩ := by
  cases t with
  | startTag n l =>
    obtain ⟨h1, h2, h3⟩ := Token.wellFormed_tag ht
    by_cases hl : l = []
    · subst hl
      have := hasNext_startTag (n := n) h1 b rest d rd
      simpa [Token.render, Token.events, Token.isText, renderAttributes] using this
    · have := hasNext_startTag_attributes h1 (h3 hl) l h2 hl b rest d rd
      simpa [Token.render, Token.events, Token.isText] using this
  | endTag n =>
    have := hasNext_endTag (n := n) ht b rest d rd
    simpa [Token.render, Token.events, Token.isText] using this
  | emptyTag n l =>
    obtain ⟨h1, h2, h3⟩ := Token.wellFormed_tag ht
    by_cases hl : l = []
    · subst hl
      have := hasNext_emptyTag (n := n) h1 b rest d rd
      simpa [Token.render, Token.events, Token.isText, renderAttributes] using this
    · have := hasNext_emptyTag_attributes h1 (h3 hl) l h2 hl b rest d rd
      simpa [Token.render, Token.events, Token.isText] using this
  | text l =>
    simp only [Token.wellFormed, Bool.and_eq_true, Bool.not_eq_true', List.isEmpty_eq_false]
      at ht
    have := hasNext_pieces hd ht.1 ht.2 b rest (hrest rfl)
    simpa [Token.render, Token.events, Token.isText] using this
  | comment c =>
    have := @hasNext_comment c ht b rest d rd
    simpa [Token.render, Token.events, Token.isText] using this
  | processingInstruction pTarget pData =>
    simp only [Token.wellFormed, Bool.and_eq_true, List.all_eq_true, decide_eq_true_eq] at ht
    obtain ⟨t0, ts, rfl, h0, hts, hxml⟩ := validTarget_split ht.1
    have := hasNext_processingInstruction h0 ts hts hxml pData ht.2 b rest d rd
    simpa [Token.render, Token.events, Token.isText] using this

theorem hasNext_queued (s : IStream) (hn : Bool) (e : XMLEvent) (q : List XMLEvent)
    (d rd : List (Str × Str)) :
    hasNext ⟨s, hn, false, e :: q, true, d, rd⟩ = .ok true ⟨s, hn, false, e :: q, true, d, rd⟩ := by
  simp [hasNext, XMLEventReader.budget, hasNextFuel, XMLEventReader.turnForward]

theorem nextEvent_queued (s : IStream) (hn : Bool) (e : XMLEvent) (q : List XMLEvent)
    (d rd : List (Str × Str)) :
    nextEvent ⟨s, hn, false, e :: q, true, d, rd⟩ = .ok e ⟨s, false, false, q, true, d, rd⟩ := by
  simp [nextEvent, popEvent]

theorem RunForwardLoop_pop (n : Nat) (acc : List XMLEvent) (e : XMLEvent) (q : List XMLEvent)
    (s : IStream) (hn : Bool) (d rd : List (Str × Str)) :
    RunForwardLoop (n + 1) acc ⟨s, hn, false, e :: q, true, d, rd⟩ =
      RunForwardLoop n (acc ++ [e]) ⟨s, false, false, q, true, d, rd⟩ := by
  rw [RunForwardLoop, hasNext_queued]
  simp [Result.bind, nextEvent_queued]

/-- The traversal loop hands out what is queued, in order, before it reads on. -/
theorem RunForwardLoop_drain (q : List XMLEvent) :
    ∀ (n : Nat) (acc : List XMLEvent) (s : IStream) (d rd : List (Str × Str)),
      RunForwardLoop (n + q.length) acc ⟨s, false, false, q, true, d, rd⟩ =
        RunForwardLoop n (acc ++ q) ⟨s, false, false, [], true, d, rd⟩ := by
  induction q with
  | nil => intro n acc s d rd; simp
  | cons e q ih =>
    intro n acc s d rd
    rw [show n + (e :: q).length = (n + q.length) + 1 by simp; omega, RunForwardLoop_pop, ih]
    simp

/-- One round of reading and the rounds that hand out what it queued. -/
theorem RunForwardLoop_token {r : XMLEventReader} {s : IStream} {hn : Bool} {ev : XMLEvent}
    {q : List XMLEvent} {d rd : List (Str × Str)}
    (h : hasNext r = .ok true ⟨s, hn, false, ev :: q, true, d, rd⟩) (n : Nat)
    (acc : List XMLEvent) :
    RunForwardLoop (n + (ev :: q).length) acc r =
      RunForwardLoop n (acc ++ ev :: q) ⟨s, false, false, [], true, d, rd⟩ := by
  rw [show n + (ev :: q).length = (n + q.length) + 1 by simp; omega, RunForwardLoop, h]
  simp only [Result.bind, if_true, nextEvent_queued]
  rw [RunForwardLoop_drain]
  simp

theorem Token.render_ne_nil {t : Token} (ht : t.wellFormed = true) : t.render ≠ [] := by
  cases t with
  | startTag n l => simp [Token.render]
  | endTag n => simp [Token.render]
  | emptyTag n l => simp [Token.render]
  | text l =>
    simp only [Token.wellFormed, Bool.and_eq_true, Bool.not_eq_true', List.isEmpty_eq_false] at ht
    intro h
    have := renderText_length_ge l
    rw [show Token.render (.text l) = renderText l from rfl] at h
    rw [h] at this
    exact ht.1 (List.length_eq_zero.mp (Nat.le_zero.mp this))
  | comment c => simp [Token.render]
  | processingInstruction pTarget pData => simp [Token.render]

theorem Token.events_ne_nil (t : Token) : t.events ≠ [] := by
  cases t <;> simp [Token.events]

theorem render_cons (t : Token) (doc : List Token) : render (t :: doc) = t.render ++ render doc := by
  simp [render]

theorem events_cons (t : Token) (doc : List Token) : events (t :: doc) = t.events ++ events doc := by
  simp [events]

theorem render_eq_nil {doc : List Token} (hwf : ∀ t ∈ doc, t.wellFormed = true)
    (h : render doc = []) : doc = [] := by
  cases doc with
  | nil => rfl
  | cons t doc =>
    rw [render_cons] at h
    exact absurd (List.append_eq_nil.mp h).1 (Token.render_ne_nil (hwf t (by simp)))

theorem render_after_text {t : Token} {doc : List Token}
    (hwf : ∀ x ∈ doc, x.wellFormed = true) (htb : textBetweenTags (t :: doc) = true)
    (ht : t.isText = true) : render doc = [] ∨ ∃ rest', render doc = '<' :: rest' := by
  cases doc with
  | nil => left; rfl
  | cons u doc =>
    right
    simp only [textBetweenTags, ht, Bool.true_and, Bool.and_eq_true, Bool.not_eq_true'] at htb
    rw [render_cons]
    cases u with
    | startTag n l => exact ⟨_, by simp [Token.render]; rfl⟩
    | endTag n => exact ⟨_, by simp [Token.render]; rfl⟩
    | emptyTag n l => exact ⟨_, by simp [Token.render]; rfl⟩
    | text s => simp [Token.isText] at htb
    | comment c => exact ⟨_, by simp [Token.render]; rfl⟩
    | processingInstruction pTarget pData => exact ⟨_, by simp [Token.render]; rfl⟩

theorem textBetweenTags_tail {t : Token} {doc : List Token}
    (h : textBetweenTags (t :: doc) = true) : textBetweenTags doc = true := by
  cases doc with
  | nil => rfl
  | cons u doc =>
    simp only [textBetweenTags, Bool.and_eq_true] at h
    exact h.2

/-- The forward traversal of a well-formed token sequence hands out the events of the
tokens in order and ends at the end of the stream. -/
theorem RunForwardLoop_doc {d rd : List (Str × Str)} (hd : knowsEntities d rd)
    (doc : List Token) :
    (∀ t ∈ doc, t.wellFormed = true) → textBetweenTags doc = true →
    ∀ (n : Nat) (acc : List XMLEvent) (b : Str) (e : Bool),
      (e = true → doc = []) → (events doc).length < n →
      RunForwardLoop n acc ⟨⟨b, render doc, e⟩, false, false, [], true, d, rd⟩ =
        .ok (acc ++ events doc)
          ⟨⟨(render doc).reverse ++ b, [], true⟩, true, false, [], true, d, rd⟩ := by
  induction doc with
  | nil =>
    intro _ _ n acc b e _ hlt
    cases n with
    | zero => omega
    | succ n =>
      cases e <;>
        simp [RunForwardLoop, render, events, hasNext, XMLEventReader.budget, hasNextFuel,
          XMLEventReader.turnForward, XMLEventReader.get, IStream.get, XMLEventReader.setStream,
          Result.bind]
  | cons t doc ih =>
    intro hwf htb n acc b e he hlt
    have he' : e = false := by
      cases e
      · rfl
      · exact absurd (he rfl) (by simp)
    subst he'
    have hwt := hwf t (by simp)
    have hwd : ∀ x ∈ doc, x.wellFormed = true := fun x hx => hwf x (by simp [hx])
    have hstep := hasNext_token hd hwt b (render doc)
      (fun htx => render_after_text hwd htb htx)
    obtain ⟨ev, q, hev⟩ : ∃ ev q, t.events = ev :: q := by
      cases hq : t.events with
      | nil => exact absurd hq (Token.events_ne_nil t)
      | cons ev q => exact ⟨ev, q, rfl⟩
    rw [events_cons, hev] at hlt
    obtain ⟨m, rfl⟩ : ∃ m, n = (m + 1) + (ev :: q).length := ⟨n - q.length - 2, by
      simp at hlt ⊢; omega⟩
    rw [render_cons, events_cons, hev]
    rw [hev] at hstep
    rw [RunForwardLoop_token hstep]
    have := ih hwd (textBetweenTags_tail htb) (m + 1) (acc ++ ev :: q) (t.render.reverse ++ b)
      (t.isText && (render doc).isEmpty) (by
        intro h
        simp only [Bool.and_eq_true, List.isEmpty_iff] at h
        exact render_eq_nil hwd h.2) (by simp at hlt ⊢; omega)
    rw [this]
    simp


/-- The dictionaries of a new reader hold the built-in entities. -/
theorem new_knowsEntities :
    knowsEntities
      [(['a', 'm', 'p'], ['&']), (['l', 't'], ['<']), (['g', 't'], ['>']),
        (['a', 'p', 'o', 's'], ['\'']), (['q', 'u', 'o', 't'], ['"'])]
      [(['p', 'm', 'a'], ['&']), (['t', 'l'], ['<']), (['t', 'g'], ['>']),
        (['s', 'o', 'p', 'a'], ['\'']), (['t', 'o', 'u', 'q'], ['"'])] := by
  intro e
  cases e <;> exact ⟨rfl, rfl⟩

theorem events_length_le {doc : List Token} (hwf : ∀ t ∈ doc, t.wellFormed = true) :
    (events doc).length ≤ 2 * (render doc).length := by
  induction doc with
  | nil => simp [events, render]
  | cons t doc ih =>
    have h1 := ih (fun x hx => hwf x (by simp [hx]))
    have h2 : t.events.length ≤ 2 := by cases t <;> simp [Token.events]
    have h3 : 1 ≤ t.render.length := by
      have := Token.render_ne_nil (hwf t (by simp))
      cases h : t.render with
      | nil => exact absurd h this
      | cons c l => simp
    rw [events_cons, render_cons, List.length_append, List.length_append]
    omega

theorem balancedEvents_of_properlyNested (doc : List Token) :
    ∀ (aOpen : List Str), properlyNested aOpen doc = true →
      balancedEvents (aOpen.map qnameOf) (events doc) = true := by
  induction doc with
  | nil =>
    intro aOpen h
    cases aOpen <;> simp_all [properlyNested, balancedEvents, events]
  | cons t doc ih =>
    intro aOpen h
    rw [events_cons]
    cases t with
    | startTag n l =>
      have := ih (n :: aOpen) (by simpa [properlyNested] using h)
      simpa [Token.events, balancedEvents, XMLEvent.ofStartElement] using this
    | endTag n =>
      cases aOpen with
      | nil => simp [properlyNested] at h
      | cons m aOuter =>
        simp only [properlyNested, Bool.and_eq_true, decide_eq_true_eq] at h
        have := ih aOuter h.2
        simpa [Token.events, balancedEvents, XMLEvent.ofEndElement, h.1] using this
    | emptyTag n l =>
      have := ih aOpen (by simpa [properlyNested] using h)
      simpa [Token.events, balancedEvents, XMLEvent.ofStartElement, XMLEvent.ofEndElement]
        using this
    | text s =>
      have := ih aOpen (by simpa [properlyNested] using h)
      simpa [Token.events, balancedEvents, charactersEvent, XMLEvent.ofCharacters] using this
    | comment c =>
      have := ih aOpen (by simpa [properlyNested] using h)
      simpa [Token.events, balancedEvents, XMLEvent.ofComment] using this
    | processingInstruction pTarget pData =>
      have := ih aOpen (by simpa [properlyNested] using h)
      simpa [Token.events, balancedEvents, XMLEvent.ofProcessingInstruction] using this

/-- C2. For every well-formed document (start tags `<n>`, end tags `</n>` and self-closing
tags `<n/>` with valid names, with or without attributes, properly nested, and non-empty
text free of `<` and `&` between tags, also with references to the built-in entities,
comments or processing instructions among them), the forward traversal of a new reader
over its bytes completes at the end of the stream and hands out exactly the events of
its tokens in document order: one `StartElement` per start tag, one `EndElement` per end
tag, a `StartElement` immediately followed by an `EndElement` of the same name per
self-closing tag, one `Characters` per text. That sequence is balanced: every
`EndElement` carries the name of the most recent unmatched `StartElement` and no
`StartElement` is left unmatched. -/
theorem forward_traversal_of_well_formed_document (doc : List Token)
    (h : wellFormedDocument doc = true) :
    forwardTraversal (XMLEventReader.new (IStream.ofData (render doc))) =
      .ok (events doc)
        { XMLEventReader.new ⟨(render doc).reverse, [], true⟩ with m_bHasNextCalled := true } ∧
    balancedEvents [] (events doc) = true := by
  simp only [wellFormedDocument, Bool.and_eq_true, List.all_eq_true] at h
  obtain ⟨⟨hwf, htb⟩, hnest⟩ := h
  constructor
  · have hlen := events_length_le hwf
    have := RunForwardLoop_doc new_knowsEntities doc hwf htb (2 * (render doc).length + 2) [] []
      false (by simp) (by omega)
    simpa [forwardTraversal, XMLEventReader.new, IStream.ofData] using this
  · exact balancedEvents_of_properlyNested doc [] hnest

/-- The document `<a>x<b/></a>`. -/
theorem forward_traversal_of_well_formed_document_witness :
    forwardTraversal (XMLEventReader.new (IStream.ofData
        (render [.startTag ['a'] [], .text [.byte 'x'], .emptyTag ['b'] [], .endTag ['a']]))) =
      .ok (events [.startTag ['a'] [], .text [.byte 'x'], .emptyTag ['b'] [], .endTag ['a']])
        { XMLEventReader.new
            ⟨(render [.startTag ['a'] [], .text [.byte 'x'], .emptyTag ['b'] [],
              .endTag ['a']]).reverse, [], true⟩ with m_bHasNextCalled := true } ∧
    balancedEvents []
        (events [.startTag ['a'] [], .text [.byte 'x'], .emptyTag ['b'] [], .endTag ['a']]) =
      true :=
  forward_traversal_of_well_formed_document _ (by decide)

/-! ## Backward traversal of a document -/

theorem hasPrevious_queued (s : IStream) (hp : Bool) (e : XMLEvent) (q : List XMLEvent)
    (d rd : List (Str × Str)) :
    hasPrevious ⟨s, false, hp, e :: q, false, d, rd⟩ =
      .ok true ⟨s, false, hp, e :: q, false, d, rd⟩ := by
  simp [hasPrevious, XMLEventReader.rbudget, hasPreviousFuel, XMLEventReader.turnBackward]

theorem previousEvent_queued (s : IStream) (hp : Bool) (e : XMLEvent) (q : List XMLEvent)
    (d rd : List (Str × Str)) :
    previousEvent ⟨s, false, hp, e :: q, false, d, rd⟩ =
      .ok e ⟨s, false, false, q, false, d, rd⟩ := by
  simp [previousEvent, popEvent]

theorem RunBackwardLoop_pop (n : Nat) (acc : List XMLEvent) (e : XMLEvent) (q : List XMLEvent)
    (s : IStream) (hp : Bool) (d rd : List (Str × Str)) :
    RunBackwardLoop (n + 1) acc ⟨s, false, hp, e :: q, false, d, rd⟩ =
      RunBackwardLoop n (acc ++ [e]) ⟨s, false, false, q, false, d, rd⟩ := by
  rw [RunBackwardLoop, hasPrevious_queued]
  simp [Result.bind, previousEvent_queued]

theorem RunBackwardLoop_drain (q : List XMLEvent) :
    ∀ (n : Nat) (acc : List XMLEvent) (s : IStream) (d rd : List (Str × Str)),
      RunBackwardLoop (n + q.length) acc ⟨s, false, false, q, false, d, rd⟩ =
        RunBackwardLoop n (acc ++ q) ⟨s, false, false, [], false, d, rd⟩ := by
  induction q with
  | nil => intro n acc s d rd; simp
  | cons e q ih =>
    intro n acc s d rd
    rw [show n + (e :: q).length = (n + q.length) + 1 by simp; omega, RunBackwardLoop_pop, ih]
    simp

theorem RunBackwardLoop_token {r : XMLEventReader} {s : IStream} {hp : Bool} {ev : XMLEvent}
    {q : List XMLEvent} {d rd : List (Str × Str)}
    (h : hasPrevious r = .ok true ⟨s, false, hp, ev :: q, false, d, rd⟩) (n : Nat)
    (acc : List XMLEvent) :
    RunBackwardLoop (n + (ev :: q).length) acc r =
      RunBackwardLoop n (acc ++ ev :: q) ⟨s, false, false, [], false, d, rd⟩ := by
  rw [show n + (ev :: q).length = (n + q.length) + 1 by simp; omega, RunBackwardLoop, h]
  simp only [Result.bind, if_true, previousEvent_queued]
  rw [RunBackwardLoop_drain]
  simp

theorem hasPrevious_after_forward (bf : Str) (d rd : List (Str × Str)) :
    hasPrevious ⟨⟨bf, [], true⟩, true, false, [], true, d, rd⟩ =
      hasPrevious ⟨⟨bf, [], false⟩, false, false, [], false, d, rd⟩ := by
  simp [hasPrevious, XMLEventReader.rbudget, hasPreviousFuel, XMLEventReader.turnBackward,
    XMLEventReader.rget, IStream.rget, IStream.seekEnd, XMLEventReader.setStream]

/-! ## The entity dictionaries -/

theorem mapFind_mapAssign_self (m : List (Str × Str)) (k v : Str) :
    mapFind (mapAssign m k v) k = some v := by
  induction m with
  | nil => simp [mapAssign, mapFind]
  | cons x m ih =>
    obtain ⟨k1, v1⟩ := x
    by_cases h : k1 = k
    · simp [mapAssign, mapFind, h]
    · simp [mapAssign, mapFind, h, ih]

theorem mapFind_mapAssign_other (m : List (Str × Str)) (k v : Str) {k' : Str} (h : k' ≠ k) :
    mapFind (mapAssign m k v) k' = mapFind m k' := by
  induction m with
  | nil => simp [mapAssign, mapFind, Ne.symm h]
  | cons x m ih =>
    obtain ⟨k1, v1⟩ := x
    by_cases h1 : k1 = k
    · subst h1
      simp [mapAssign, mapFind, Ne.symm h]
    · by_cases h2 : k1 = k'
      · subst h2
        simp [mapAssign, mapFind, h]
      · simp [mapAssign, mapFind, h1, h2, ih]

theorem addToEntityReplacementDictionary_builtin {strName : Str} (strText : Str)
    (r : XMLEventReader)
    (h : strName = "amp".toList ∨ strName = "lt".toList ∨ strName = "gt".toList ∨
      strName = "apos".toList ∨ strName = "quot".toList) :
    addToEntityReplacementDictionary strName strText r =
      .throw (.invalid_argument "Redefinition of built-in entity.") r := by
  unfold addToEntityReplacementDictionary
  rw [if_pos h]

theorem addToEntityReplacementDictionary_other {strName : Str} (strText : Str)
    (r : XMLEventReader)
    (h : ¬ (strName = "amp".toList ∨ strName = "lt".toList ∨ strName = "gt".toList ∨
      strName = "apos".toList ∨ strName = "quot".toList)) :
    addToEntityReplacementDictionary strName strText r =
      .ok 0 { r with
        m_aEntityReplacementDictionary :=
          mapAssign r.m_aEntityReplacementDictionary strName strText
        m_aREntityReplacementDictionary :=
          mapAssign r.m_aREntityReplacementDictionary strName.reverse strText.reverse } := by
  unfold addToEntityReplacementDictionary
  rw [if_neg h]

theorem Entity.name_builtin (e : Entity) :
    e.name = "amp".toList ∨ e.name = "lt".toList ∨ e.name = "gt".toList ∨
      e.name = "apos".toList ∨ e.name = "quot".toList := by
  cases e <;> decide

theorem knowsEntities_mapAssign {d rd : List (Str × Str)} (hk : knowsEntities d rd)
    {strName : Str} (strText : Str)
    (h : ¬ (strName = "amp".toList ∨ strName = "lt".toList ∨ strName = "gt".toList ∨
      strName = "apos".toList ∨ strName = "quot".toList)) :
    knowsEntities (mapAssign d strName strText)
      (mapAssign rd strName.reverse strText.reverse) := by
  intro e
  have hne : e.name ≠ strName := by
    intro he
    exact h (he ▸ e.name_builtin)
  have hne' : e.name.reverse ≠ strName.reverse := fun he => hne (List.reverse_injective he)
  rw [mapFind_mapAssign_other _ _ _ hne, mapFind_mapAssign_other _ _ _ hne']
  exact hk e

theorem mirrored_mapAssign {d rd : List (Str × Str)} (hm : mirrored d rd)
    (strName strText : Str) :
    mirrored (mapAssign d strName strText)
      (mapAssign rd strName.reverse strText.reverse) := by
  intro n t hf
  by_cases hn : n = strName
  · subst hn
    rw [mapFind_mapAssign_self] at hf
    cases hf
    exact mapFind_mapAssign_self _ _ _
  · have hn' : n.reverse ≠ strName.reverse := fun he => hn (List.reverse_injective he)
    rw [mapFind_mapAssign_other _ _ _ hn] at hf
    rw [mapFind_mapAssign_other _ _ _ hn']
    exact hm n t hf

theorem new_mirrored (aStream : IStream) :
    mirrored (XMLEventReader.new aStream).m_aEntityReplacementDictionary
      (XMLEventReader.new aStream).m_aREntityReplacementDictionary := by
  intro n t hf
  simp only [XMLEventReader.new, mapFind] at hf ⊢
  split at hf
  · rename_i h; cases hf; subst h; decide
  · split at hf
    · rename_i h; cases hf; subst h; decide
    · split at hf
      · rename_i h; cases hf; subst h; decide
      · split at hf
        · rename_i h; cases hf; subst h; decide
        · split at hf
          · rename_i h; cases hf; subst h; decide
          · cases hf

theorem holdsBuiltins_of_knowsEntities {d rd : List (Str × Str)} (hk : knowsEntities d rd) :
    holdsBuiltins d rd :=
  ⟨(hk .amp).1, (hk .lt).1, (hk .gt).1, (hk .apos).1, (hk .quot).1,
    (hk .amp).2, (hk .lt).2, (hk .gt).2, (hk .apos).2, (hk .quot).2⟩

/-- What a sequence of registrations keeps: the built-in entries and the mirroring of the
two dictionaries; the stream, the latches, the direction and the queue stay as they
are. -/
theorem registerAll_keeps (calls : List (Str × Str)) :
    ∀ r : XMLEventReader,
      knowsEntities r.m_aEntityReplacementDictionary r.m_aREntityReplacementDictionary →
      mirrored r.m_aEntityReplacementDictionary r.m_aREntityReplacementDictionary →
      knowsEntities (registerAll calls r).m_aEntityReplacementDictionary
          (registerAll calls r).m_aREntityReplacementDictionary ∧
        mirrored (registerAll calls r).m_aEntityReplacementDictionary
          (registerAll calls r).m_aREntityReplacementDictionary ∧
        (registerAll calls r).m_aStream = r.m_aStream ∧
        (registerAll calls r).m_bHasNextCalled = r.m_bHasNextCalled ∧
        (registerAll calls r).m_bHasPreviousCalled = r.m_bHasPreviousCalled ∧
        (registerAll calls r).m_aEvents = r.m_aEvents ∧
        (registerAll calls r).m_bEventsAreForwardDirection = r.m_bEventsAreForwardDirection := by
  induction calls with
  | nil => intro r hk hm; exact ⟨hk, hm, rfl, rfl, rfl, rfl, rfl⟩
  | cons c calls ih =>
    intro r hk hm
    obtain ⟨strName, strText⟩ := c
    by_cases h : strName = "amp".toList ∨ strName = "lt".toList ∨ strName = "gt".toList ∨
        strName = "apos".toList ∨ strName = "quot".toList
    · simp only [registerAll, addToEntityReplacementDictionary_builtin strText r h]
      exact ih r hk hm
    · simp only [registerAll, addToEntityReplacementDictionary_other strText r h]
      exact ih _ (knowsEntities_mapAssign hk strText h) (mirrored_mapAssign hm strName strText)

/-- C11. For each of the five names `amp`, `lt`, `gt`, `apos`, `quot` and every
replacement text, `addToEntityReplacementDictionary` throws `std::invalid_argument` and
leaves the reader, with both dictionaries, as it was. For every other name it returns 0;
the forward dictionary then maps the name to the text, the reverse dictionary maps the
reversed name to the reversed text, and nothing else of the reader changes. -/
theorem registration_rejects_builtin_names (strName strText : Str) (r : XMLEventReader) :
    (strName = "amp".toList ∨ strName = "lt".toList ∨ strName = "gt".toList ∨
        strName = "apos".toList ∨ strName = "quot".toList →
      addToEntityReplacementDictionary strName strText r =
        .throw (.invalid_argument "Redefinition of built-in entity.") r) ∧
    (¬ (strName = "amp".toList ∨ strName = "lt".toList ∨ strName = "gt".toList ∨
        strName = "apos".toList ∨ strName = "quot".toList) →
      ∃ d rd, addToEntityReplacementDictionary strName strText r =
          .ok 0 { r with m_aEntityReplacementDictionary := d,
                         m_aREntityReplacementDictionary := rd } ∧
        mapFind d strName = some strText ∧
        mapFind rd strName.reverse = some strText.reverse ∧
        (∀ strOther, strOther ≠ strName →
          mapFind d strOther = mapFind r.m_aEntityReplacementDictionary strOther ∧
          mapFind rd strOther.reverse =
            mapFind r.m_aREntityReplacementDictionary strOther.reverse)) := by
  constructor
  · exact addToEntityReplacementDictionary_builtin strText r
  · intro h
    refine ⟨_, _, addToEntityReplacementDictionary_other strText r h,
      mapFind_mapAssign_self _ _ _, mapFind_mapAssign_self _ _ _, fun o ho => ⟨?_, ?_⟩⟩
    · exact mapFind_mapAssign_other _ _ _ ho
    · exact mapFind_mapAssign_other _ _ _ (fun he => ho (List.reverse_injective he))

/-- A new reader refuses `amp` and accepts `nbsp`, which both dictionaries then hold. -/
theorem registration_rejects_builtin_names_witness :
    addToEntityReplacementDictionary "amp".toList "and".toList
        (XMLEventReader.new (IStream.ofData [])) =
      .throw (.invalid_argument "Redefinition of built-in entity.")
        (XMLEventReader.new (IStream.ofData [])) ∧
    ∃ d rd, addToEntityReplacementDictionary "nbsp".toList "xy".toList
          (XMLEventReader.new (IStream.ofData [])) =
        .ok 0 { XMLEventReader.new (IStream.ofData []) with
          m_aEntityReplacementDictionary := d, m_aREntityReplacementDictionary := rd } ∧
      mapFind d "nbsp".toList = some "xy".toList ∧
      mapFind rd "nbsp".toList.reverse = some "xy".toList.reverse ∧
      (∀ strOther, strOther ≠ "nbsp".toList →
        mapFind d strOther =
          mapFind (XMLEventReader.new (IStream.ofData [])).m_aEntityReplacementDictionary
            strOther ∧
        mapFind rd strOther.reverse =
          mapFind (XMLEventReader.new (IStream.ofData [])).m_aREntityReplacementDictionary
            strOther.reverse) :=
  ⟨(registration_rejects_builtin_names _ _ _).1 (Or.inl rfl),
   (registration_rejects_builtin_names _ _ _).2 (by decide)⟩

/-- C12. After any sequence of `addToEntityReplacementDictionary` calls on a new reader,
each taken whether it returned or threw, the forward dictionary maps `amp`, `lt`, `gt`,
`apos`, `quot` to `&`, `<`, `>`, `'`, `"` and the reverse dictionary maps `pma`, `tl`,
`tg`, `sopa`, `touq` to the same bytes; and the two dictionaries mirror each other. -/
theorem builtin_entities_survive_registrations (aStream : IStream)
    (calls : List (Str × Str)) :
    holdsBuiltins
        (registerAll calls (XMLEventReader.new aStream)).m_aEntityReplacementDictionary
        (registerAll calls (XMLEventReader.new aStream)).m_aREntityReplacementDictionary ∧
      mirrored
        (registerAll calls (XMLEventReader.new aStream)).m_aEntityReplacementDictionary
        (registerAll calls (XMLEventReader.new aStream)).m_aREntityReplacementDictionary := by
  have h := registerAll_keeps calls (XMLEventReader.new aStream) new_knowsEntities
    (new_mirrored aStream)
  exact ⟨holdsBuiltins_of_knowsEntities h.1, h.2.1⟩

/-! ## Entity references to any name, forwards -/

theorem renderPieces_bytes (x : Str) : renderPieces (x.map Piece.byte) = x := by
  induction x with
  | nil => rfl
  | cons c x ih =>
    simp only [renderPieces, List.map_cons, List.flatMap_cons, Piece.render] at ih ⊢
    rw [ih]; rfl

theorem dataPieces_bytes (d : List (Str × Str)) (x : Str) :
    dataPieces d (x.map Piece.byte) = x := by
  induction x with
  | nil => rfl
  | cons c x ih =>
    simp only [dataPieces, List.map_cons, List.flatMap_cons, Piece.data] at ih ⊢
    rw [ih]; rfl

theorem renderPieces_append (l1 l2 : List Piece) :
    renderPieces (l1 ++ l2) = renderPieces l1 ++ renderPieces l2 := by
  simp [renderPieces]

theorem dataPieces_append (d : List (Str × Str)) (l1 l2 : List Piece) :
    dataPieces d (l1 ++ l2) = dataPieces d l1 ++ dataPieces d l2 := by
  simp [dataPieces]

theorem renderPieces_length_ge (l : List Piece) : l.length ≤ (renderPieces l).length := by
  induction l with
  | nil => simp
  | cons y l ih =>
    cases y <;> simp [renderPieces, Piece.render] at ih ⊢ <;> omega

/-- Behind a `&`, the forward reader replaces the reference to a name the dictionary
holds by the text stored for it. -/
theorem ResolveEntity_name {strName strText : Str} (hne : strName ≠ [])
    (hs : ∀ c ∈ strName, c ≠ ';') (b rest : Str) (hn hp : Bool) (q : List XMLEvent)
    (dir : Bool) {d : List (Str × Str)} (rd : List (Str × Str))
    (hf : mapFind d strName = some strText) :
    ResolveEntity ⟨⟨b, strName ++ ';' :: rest, false⟩, hn, hp, q, dir, d, rd⟩ =
      .ok strText ⟨⟨';' :: (strName.reverse ++ b), rest, false⟩, hn, hp, q, dir, d, rd⟩ := by
  cases strName with
  | nil => exact absurd rfl hne
  | cons c cs =>
    have e1 := ResolveEntityLoop_name cs (fun x hx => hs x (by simp [hx]))
      ((cs ++ ';' :: rest).length + 1) [c] (c :: b) rest hn hp q dir d rd (by simp; omega)
    simp only [ResolveEntity, List.cons_append, XMLEventReader.get, IStream.get,
      XMLEventReader.setStream, Bool.false_eq_true, if_false, hs c (by simp),
      XMLEventReader.budget]
    rw [e1, bind_ok]
    simp only [List.singleton_append] at hf ⊢
    simp [hf]

/-- Behind a `&`, a reference to a name the dictionary does not hold makes the forward
reader throw, with the reference read. -/
theorem ResolveEntity_unknown {strName : Str} (hne : strName ≠ [])
    (hs : ∀ c ∈ strName, c ≠ ';') (b rest : Str) (hn hp : Bool) (q : List XMLEvent)
    (dir : Bool) {d : List (Str × Str)} (rd : List (Str × Str))
    (hf : mapFind d strName = none) :
    ResolveEntity ⟨⟨b, strName ++ ';' :: rest, false⟩, hn, hp, q, dir, d, rd⟩ =
      .throw (.runtime_error "Unable to resolve entity.")
        ⟨⟨';' :: (strName.reverse ++ b), rest, false⟩, hn, hp, q, dir, d, rd⟩ := by
  cases strName with
  | nil => exact absurd rfl hne
  | cons c cs =>
    have e1 := ResolveEntityLoop_name cs (fun x hx => hs x (by simp [hx]))
      ((cs ++ ';' :: rest).length + 1) [c] (c :: b) rest hn hp q dir d rd (by simp; omega)
    simp only [ResolveEntity, List.cons_append, XMLEventReader.get, IStream.get,
      XMLEventReader.setStream, Bool.false_eq_true, if_false, hs c (by simp),
      XMLEventReader.budget]
    rw [e1, bind_ok]
    simp only [List.singleton_append] at hf ⊢
    simp [hf, malformed]

/-- Behind a `&`, a `;` at once makes the forward reader throw. -/
theorem ResolveEntity_noName (b rest : Str) (hn hp : Bool) (q : List XMLEvent)
    (dir : Bool) (d rd : List (Str × Str)) :
    ResolveEntity ⟨⟨b, ';' :: rest, false⟩, hn, hp, q, dir, d, rd⟩ =
      .throw (.runtime_error "Entity has no name.")
        ⟨⟨';' :: b, rest, false⟩, hn, hp, q, dir, d, rd⟩ := by
  simp [ResolveEntity, XMLEventReader.get, IStream.get, XMLEventReader.setStream, malformed]

theorem ResolveEntityLoop_incomplete (l : Str) (hl : ∀ x ∈ l, x ≠ ';') :
    ∀ (n : Nat) (pEntityName b : Str) (hn hp : Bool) (q : List XMLEvent) (dir : Bool)
      (d rd : List (Str × Str)), l.length < n →
      ResolveEntityLoop n pEntityName ⟨⟨b, l, false⟩, hn, hp, q, dir, d, rd⟩ =
        .throw (.runtime_error "Entity incomplete.")
          ⟨⟨l.reverse ++ b, [], true⟩, hn, hp, q, dir, d, rd⟩ := by
  induction l with
  | nil =>
    intro n pEntityName b hn hp q dir d rd hlt
    match n, hlt with
    | n + 1, _ =>
      simp [ResolveEntityLoop, XMLEventReader.get, IStream.get, XMLEventReader.setStream,
        malformed]
  | cons c l ih =>
    intro n pEntityName b hn hp q dir d rd hlt
    match n, hlt with
    | n + 1, hlt =>
      have := ih (fun x hx => hl x (by simp [hx])) n (pEntityName ++ [c]) (c :: b) hn hp q
        dir d rd (by simp at hlt ⊢; omega)
      simp [ResolveEntityLoop, XMLEventReader.get, IStream.get, XMLEventReader.setStream,
        hl c (by simp)]
      simpa using this

/-- Behind a `&`, the end of the stream in front of any `;` makes the forward reader
throw. -/
theorem ResolveEntity_incomplete (l : Str) (hl : ∀ x ∈ l, x ≠ ';') (b : Str)
    (hn hp : Bool) (q : List XMLEvent) (dir : Bool) (d rd : List (Str × Str)) :
    ResolveEntity ⟨⟨b, l, false⟩, hn, hp, q, dir, d, rd⟩ =
      .throw (.runtime_error "Entity incomplete.")
        ⟨⟨l.reverse ++ b, [], true⟩, hn, hp, q, dir, d, rd⟩ := by
  cases l with
  | nil =>
    simp [ResolveEntity, XMLEventReader.get, IStream.get, XMLEventReader.setStream, malformed]
  | cons c cs =>
    have e1 := ResolveEntityLoop_incomplete cs (fun x hx => hl x (by simp [hx]))
      (cs.length + 1) [c] (c :: b) hn hp q dir d rd (by omega)
    simp only [ResolveEntity, XMLEventReader.get, IStream.get,
      XMLEventReader.setStream, Bool.false_eq_true, if_false, hl c (by simp),
      XMLEventReader.budget]
    rw [e1, bind_throw]
    simp

theorem Piece.resolvable_reference {d : List (Str × Str)} {p : Char → Bool} {strName : Str}
    (h : Piece.resolvable d p (.reference strName) = true) :
    strName ≠ [] ∧ (∀ c ∈ strName, c ≠ ';') ∧
      mapFind d strName = some ((mapFind d strName).getD []) := by
  simp only [Piece.resolvable, Bool.and_eq_true, Bool.not_eq_true', List.isEmpty_eq_false,
    List.all_eq_true, decide_eq_true_eq] at h
  refine ⟨h.1.1, h.1.2, ?_⟩
  cases hf : mapFind d strName with
  | none => rw [hf] at h; simp at h
  | some t => rfl

/-- The forward text loop reads a run of resolvable pieces free of `<` up to the `<`
behind it or the end of the stream. -/
theorem HandleTextLoop_resolvable {d : List (Str × Str)} (rd : List (Str × Str))
    (l : List Piece)
    (hl : ∀ x ∈ l, Piece.resolvable d (fun c => decide (c ≠ '<')) x = true) :
    ∀ (n : Nat) (pData b rest : Str) (hn hp : Bool) (q : List XMLEvent) (dir : Bool),
      (rest = [] ∨ ∃ rest', rest = '<' :: rest') → l.length + rest.length < n →
      HandleTextLoop n pData ⟨⟨b, renderPieces l ++ rest, false⟩, hn, hp, q, dir, d, rd⟩ =
        .ok true ⟨⟨(renderPieces l).reverse ++ b, rest, rest.isEmpty⟩, hn, hp,
          q ++ [charactersEvent (pData ++ dataPieces d l)], dir, d, rd⟩ := by
  induction l with
  | nil =>
    intro n pData b rest hn hp q dir hrest hlt
    cases n with
    | zero => omega
    | succ n =>
      rcases hrest with rfl | ⟨rest', rfl⟩
      · simp [renderPieces, dataPieces, HandleTextLoop, XMLEventReader.get, IStream.get,
          XMLEventReader.setStream, XMLEventReader.push]
      · simp [renderPieces, dataPieces, HandleTextLoop, XMLEventReader.get, IStream.get,
          XMLEventReader.setStream, XMLEventReader.push, XMLEventReader.unget, IStream.unget]
  | cons x l ih =>
    intro n pData b rest hn hp q dir hrest hlt
    have hl' : ∀ y ∈ l, Piece.resolvable d (fun c => decide (c ≠ '<')) y = true :=
      fun y hy => hl y (by simp [hy])
    have hx := hl x (by simp)
    cases n with
    | zero => omega
    | succ n =>
      cases x with
      | byte c =>
        have hc : c ≠ '<' ∧ c ≠ '&' := by
          simpa [Piece.resolvable] using hx
        have ih' := ih hl' n (pData ++ [c]) (c :: b) rest hn hp q dir hrest
          (by simp at hlt ⊢; omega)
        simp [renderPieces, dataPieces, Piece.render, Piece.data, HandleTextLoop,
          XMLEventReader.get, IStream.get, XMLEventReader.setStream, hc.1, hc.2] at ih' ⊢
        exact ih'
      | reference strName =>
        obtain ⟨h1, h2, h3⟩ := Piece.resolvable_reference hx
        have ih' := ih hl' n (pData ++ (mapFind d strName).getD [])
          (';' :: (strName.reverse ++ '&' :: b)) rest
          hn hp q dir hrest (by simp at hlt ⊢; omega)
        have e1 := ResolveEntity_name h1 h2 ('&' :: b) (renderPieces l ++ rest) hn hp q dir rd h3
        simp only [renderPieces, dataPieces, Piece.render, Piece.data, List.flatMap_cons,
          List.cons_append, List.append_assoc, HandleTextLoop, XMLEventReader.get, IStream.get,
          XMLEventReader.setStream, Bool.false_eq_true, if_false, (by decide : ¬ ('&' = '<')),
          if_true, List.nil_append, List.singleton_append] at ih' e1 ⊢
        rw [e1, bind_ok, ih']
        simp

/-- Forward `hasNext` in front of a run of resolvable pieces that ends at the end of the
stream or in front of a `<`. -/
theorem hasNext_resolvable {d : List (Str × Str)} (rd : List (Str × Str))
    {l : List Piece} (hne : l ≠ [])
    (hl : ∀ x ∈ l, Piece.resolvable d (fun c => decide (c ≠ '<')) x = true)
    (b rest : Str) (hrest : rest = [] ∨ ∃ rest', rest = '<' :: rest') :
    hasNext ⟨⟨b, renderPieces l ++ rest, false⟩, false, false, [], true, d, rd⟩ =
      .ok true ⟨⟨(renderPieces l).reverse ++ b, rest, rest.isEmpty⟩, true, false,
        [charactersEvent (dataPieces d l)], true, d, rd⟩ := by
  cases l with
  | nil => exact absurd rfl hne
  | cons x l =>
    have hl' : ∀ y ∈ l, Piece.resolvable d (fun c => decide (c ≠ '<')) y = true :=
      fun y hy => hl y (by simp [hy])
    have hx := hl x (by simp)
    have hlen := renderPieces_length_ge l
    cases x with
    | byte c =>
      have hc : c ≠ '<' ∧ c ≠ '&' := by
        simpa [Piece.resolvable] using hx
      have := HandleTextLoop_resolvable rd l hl' ((renderPieces l ++ rest).length + 1) [c]
        (c :: b) rest true false [] true hrest (by simp; omega)
      simp only [renderPieces, dataPieces, Piece.render, Piece.data, List.flatMap_cons,
        List.cons_append, List.nil_append] at this ⊢
      rw [hasNext_step, if_neg hc.1]
      simpa [HandleText, hc.2, XMLEventReader.budget] using this
    | reference strName =>
      obtain ⟨h1, h2, h3⟩ := Piece.resolvable_reference hx
      have e1 := ResolveEntity_name h1 h2 ('&' :: b) (renderPieces l ++ rest) true false []
        true rd h3
      have := HandleTextLoop_resolvable rd l hl' ((renderPieces l ++ rest).length + 1)
        ((mapFind d strName).getD [])
        (';' :: (strName.reverse ++ '&' :: b)) rest true false [] true hrest (by simp; omega)
      simp only [renderPieces, dataPieces, Piece.render, Piece.data, List.flatMap_cons,
        List.cons_append, List.nil_append, List.append_assoc] at this e1 ⊢
      rw [hasNext_step, if_neg (by decide)]
      simp only [HandleText, if_true]
      rw [e1, bind_ok]
      simp only [XMLEventReader.budget]
      rw [this]
      simp

theorem HandleTextLoop_skip (x : Str) (hx : ∀ c ∈ x, c ≠ '<' ∧ c ≠ '&') :
    ∀ (n : Nat) (pData b rest : Str) (hn hp : Bool) (q : List XMLEvent) (dir : Bool)
      (d rd : List (Str × Str)),
      HandleTextLoop (n + x.length) pData ⟨⟨b, x ++ rest, false⟩, hn, hp, q, dir, d, rd⟩ =
        HandleTextLoop n (pData ++ x) ⟨⟨x.reverse ++ b, rest, false⟩, hn, hp, q, dir, d, rd⟩ := by
  induction x with
  | nil => intros; simp
  | cons c x ih =>
    intro n pData b rest hn hp q dir d rd
    have hc := hx c (by simp)
    have ih' := ih (fun y hy => hx y (by simp [hy])) n (pData ++ [c]) (c :: b) rest hn hp q
      dir d rd
    rw [show n + (c :: x).length = (n + x.length) + 1 by simp; omega]
    conv_lhs => unfold HandleTextLoop
    simp only [XMLEventReader.get, IStream.get, XMLEventReader.setStream, List.cons_append,
      Bool.false_eq_true, if_false, hc.1, hc.2]
    rw [ih']
    simp

/-- A reference the forward reader throws on makes `hasNext` throw the same, whatever
text free of `<` and `&` stands in front of it. -/
theorem hasNext_reference_throws (x : Str) (hx : ∀ c ∈ x, c ≠ '<' ∧ c ≠ '&')
    (b tail : Str) (d rd : List (Str × Str)) {e : Exception} {r' : XMLEventReader}
    (h : ResolveEntity ⟨⟨'&' :: (x.reverse ++ b), tail, false⟩, true, false, [], true, d, rd⟩ =
      .throw e r') :
    hasNext ⟨⟨b, x ++ '&' :: tail, false⟩, false, false, [], true, d, rd⟩ = .throw e r' := by
  cases x with
  | nil =>
    simp only [List.nil_append, List.reverse_nil] at h ⊢
    rw [hasNext_step, if_neg (by decide)]
    simp only [HandleText, if_true]
    rw [h, bind_throw]
  | cons c x =>
    have hc := hx c (by simp)
    have hs := HandleTextLoop_skip x (fun y hy => hx y (by simp [hy])) (tail.length + 2) [c]
      (c :: b) ('&' :: tail) true false [] true d rd
    rw [List.cons_append, hasNext_step, if_neg hc.1]
    simp only [HandleText, if_neg hc.2, XMLEventReader.budget]
    rw [show (x ++ '&' :: tail).length + 1 = tail.length + 2 + x.length by simp; omega, hs]
    simp only [List.reverse_cons, List.append_assoc, List.singleton_append] at h
    simp only [HandleTextLoop, XMLEventReader.get, IStream.get, XMLEventReader.setStream,
      Bool.false_eq_true, if_false, (by decide : ¬ ('&' = '<')), if_true]
    rw [h, bind_throw]

/-- C15. Behind a `&`, forward entity resolution of `name;` returns iff the name is not
empty and is a key of the forward dictionary. In character data, behind text free of `<`
and `&`, the reference `&;`, a reference to a name the dictionary does not hold, and a
reference the end of the stream cuts off in front of its `;` each make `hasNext` throw
`std::runtime_error` with the queue left empty: no `Characters` event is queued. On
`<r>&unknown;</r>` the first `hasNext` and `nextEvent` deliver `StartElement(r)` and the
second `hasNext` throws. -/
theorem forward_entity_needs_known_name (strName x b rest : Str) (d rd : List (Str × Str))
    (hs : ∀ c ∈ strName, c ≠ ';') (hx : ∀ c ∈ x, c ≠ '<' ∧ c ≠ '&') :
    (∀ (hn hp : Bool) (q : List XMLEvent) (dir : Bool),
      (∃ t r', ResolveEntity ⟨⟨b, strName ++ ';' :: rest, false⟩, hn, hp, q, dir, d, rd⟩ =
          .ok t r') ↔
        (strName ≠ [] ∧ ∃ t, mapFind d strName = some t)) ∧
    (strName = [] ∨ mapFind d strName = none →
      ∃ what,
        hasNext ⟨⟨b, x ++ '&' :: (strName ++ ';' :: rest), false⟩, false, false, [], true,
            d, rd⟩ =
          .throw (.runtime_error what)
            ⟨⟨';' :: (strName.reverse ++ '&' :: (x.reverse ++ b)), rest, false⟩, true, false,
              [], true, d, rd⟩) ∧
    hasNext ⟨⟨b, x ++ '&' :: strName, false⟩, false, false, [], true, d, rd⟩ =
      .throw (.runtime_error "Entity incomplete.")
        ⟨⟨strName.reverse ++ '&' :: (x.reverse ++ b), [], true⟩, true, false, [], true, d, rd⟩ ∧
    hasNext (XMLEventReader.new (IStream.ofData "<r>&unknown;</r>".toList)) =
      .ok true { XMLEventReader.new ⟨"<r>".toList.reverse, "&unknown;</r>".toList, false⟩ with
        m_aEvents := [startEvent none ['r'] []], m_bHasNextCalled := true } ∧
    nextEvent { XMLEventReader.new ⟨"<r>".toList.reverse, "&unknown;</r>".toList, false⟩ with
        m_aEvents := [startEvent none ['r'] []], m_bHasNextCalled := true } =
      .ok (startEvent none ['r'] [])
        (XMLEventReader.new ⟨"<r>".toList.reverse, "&unknown;</r>".toList, false⟩) ∧
    hasNext (XMLEventReader.new ⟨"<r>".toList.reverse, "&unknown;</r>".toList, false⟩) =
      .throw (.runtime_error "Unable to resolve entity.")
        { XMLEventReader.new ⟨"<r>&unknown;".toList.reverse, "</r>".toList, false⟩ with
          m_bHasNextCalled := true } := by
  refine ⟨?_, ?_, ?_, by decide, by decide, by decide⟩
  · intro hn hp q dir
    constructor
    · rintro ⟨t, r', h⟩
      by_cases hne : strName = []
      · subst hne
        rw [List.nil_append, ResolveEntity_noName] at h
        cases h
      · cases hf : mapFind d strName with
        | none =>
          rw [ResolveEntity_unknown hne hs b rest hn hp q dir rd hf] at h
          cases h
        | some t' => exact ⟨hne, t', rfl⟩
    · rintro ⟨hne, t, hf⟩
      exact ⟨t, _, ResolveEntity_name hne hs b rest hn hp q dir rd hf⟩
  · intro h
    by_cases hne : strName = []
    · subst hne
      exact ⟨_, hasNext_reference_throws x hx b _ d rd (ResolveEntity_noName _ _ _ _ _ _ _ _)⟩
    · have hf : mapFind d strName = none := by
        rcases h with h | h
        · exact absurd h hne
        · exact h
      exact ⟨_, hasNext_reference_throws x hx b _ d rd
        (ResolveEntity_unknown hne hs _ rest true false [] true rd hf)⟩
  · exact hasNext_reference_throws x hx b _ d rd
      (ResolveEntity_incomplete strName hs _ true false [] true d rd)

/-- In `a&unknown;b` and in `a&;b` the reference cannot be resolved on a new reader, and
`a&unknown` ends in front of the `;`. -/
theorem forward_entity_needs_known_name_witness :
    (∃ what,
      hasNext ⟨⟨[], "a&unknown;b".toList, false⟩, false, false, [], true,
          (XMLEventReader.new (IStream.ofData [])).m_aEntityReplacementDictionary,
          (XMLEventReader.new (IStream.ofData [])).m_aREntityReplacementDictionary⟩ =
        .throw (.runtime_error what)
          ⟨⟨"a&unknown;".toList.reverse, ['b'], false⟩, true, false, [], true,
            (XMLEventReader.new (IStream.ofData [])).m_aEntityReplacementDictionary,
            (XMLEventReader.new (IStream.ofData [])).m_aREntityReplacementDictionary⟩) ∧
    hasNext ⟨⟨[], "a&unknown".toList, false⟩, false, false, [], true,
        (XMLEventReader.new (IStream.ofData [])).m_aEntityReplacementDictionary,
        (XMLEventReader.new (IStream.ofData [])).m_aREntityReplacementDictionary⟩ =
      .throw (.runtime_error "Entity incomplete.")
        ⟨⟨"a&unknown".toList.reverse, [], true⟩, true, false, [], true,
          (XMLEventReader.new (IStream.ofData [])).m_aEntityReplacementDictionary,
          (XMLEventReader.new (IStream.ofData [])).m_aREntityReplacementDictionary⟩ :=
  ⟨(forward_entity_needs_known_name "unknown".toList ['a'] [] ['b'] _ _ (by decide)
      (by decide)).2.1 (Or.inr (by decide)),
   (forward_entity_needs_known_name "unknown".toList ['a'] [] ['b'] _ _ (by decide)
      (by decide)).2.2.1⟩

/-! ## Attributes with any whitespace and with entity references, forwards -/

theorem HandleAttributeValueLoop_resolvable {cDelimiter : Char}
    (hd : cDelimiter = '"' ∨ cDelimiter = '\'') {d : List (Str × Str)}
    (rd : List (Str × Str)) (v : List Piece)
    (hv : ∀ x ∈ v, Piece.resolvable d (fun c => decide (c ≠ cDelimiter)) x = true) :
    ∀ (n : Nat) (pValue b rest : Str) (hn hp : Bool) (q : List XMLEvent) (dir : Bool),
      v.length < n →
      HandleAttributeValueLoop n cDelimiter pValue
          ⟨⟨b, renderPieces v ++ cDelimiter :: rest, false⟩, hn, hp, q, dir, d, rd⟩ =
        .ok (pValue ++ dataPieces d v)
          ⟨⟨cDelimiter :: ((renderPieces v).reverse ++ b), rest, false⟩, hn, hp, q, dir, d, rd⟩ := by
  induction v with
  | nil =>
    intro n pValue b rest hn hp q dir hlt
    cases n with
    | zero => omega
    | succ n =>
      simp [renderPieces, dataPieces, HandleAttributeValueLoop, XMLEventReader.get,
        IStream.get, XMLEventReader.setStream]
  | cons x v ih =>
    intro n pValue b rest hn hp q dir hlt
    have hv' : ∀ y ∈ v, Piece.resolvable d (fun c => decide (c ≠ cDelimiter)) y = true :=
      fun y hy => hv y (by simp [hy])
    have hx := hv x (by simp)
    cases n with
    | zero => omega
    | succ n =>
      cases x with
      | byte c =>
        have hc : c ≠ cDelimiter ∧ c ≠ '&' := by
          simpa [Piece.resolvable] using hx
        have ih' := ih hv' n (pValue ++ [c]) (c :: b) rest hn hp q dir
          (by simp at hlt ⊢; omega)
        simp [renderPieces, dataPieces, Piece.render, Piece.data, HandleAttributeValueLoop,
          XMLEventReader.get, IStream.get, XMLEventReader.setStream, hc.1, hc.2] at ih' ⊢
        exact ih'
      | reference strName =>
        obtain ⟨h1, h2, h3⟩ := Piece.resolvable_reference hx
        have ih' := ih hv' n (pValue ++ (mapFind d strName).getD [])
          (';' :: (strName.reverse ++ '&' :: b)) rest
          hn hp q dir (by simp at hlt ⊢; omega)
        have e1 := ResolveEntity_name h1 h2 ('&' :: b) (renderPieces v ++ cDelimiter :: rest)
          hn hp q dir rd h3
        have hda' : ¬ ('&' = cDelimiter) := by rcases hd with rfl | rfl <;> decide
        simp only [renderPieces, dataPieces, Piece.render, Piece.data, List.flatMap_cons,
          List.cons_append, List.append_assoc, HandleAttributeValueLoop, XMLEventReader.get,
          IStream.get, XMLEventReader.setStream, Bool.false_eq_true, if_false, hda',
          if_true, List.nil_append, List.singleton_append] at ih' e1 ⊢
        rw [e1, bind_ok, ih']
        simp

/-- The forward reader reads a delimited value of resolvable pieces. -/
theorem HandleAttributeValue_resolvable {cDelimiter : Char}
    (hd : cDelimiter = '"' ∨ cDelimiter = '\'') {d : List (Str × Str)}
    (rd : List (Str × Str)) (v : List Piece)
    (hv : ∀ x ∈ v, Piece.resolvable d (fun c => decide (c ≠ cDelimiter)) x = true)
    (b rest : Str) (hn hp : Bool) (q : List XMLEvent) (dir : Bool) :
    HandleAttributeValue
        ⟨⟨b, cDelimiter :: (renderPieces v ++ cDelimiter :: rest), false⟩, hn, hp, q, dir,
          d, rd⟩ =
      .ok (dataPieces d v)
        ⟨⟨cDelimiter :: ((renderPieces v).reverse ++ cDelimiter :: b), rest, false⟩,
          hn, hp, q, dir, d, rd⟩ := by
  have hs : isspace cDelimiter = false := by rcases hd with rfl | rfl <;> decide
  have h0 : cDelimiter ≠ '\x00' := by rcases hd with rfl | rfl <;> decide
  have hq : ¬ (cDelimiter ≠ '\'' ∧ cDelimiter ≠ '"') := by rcases hd with rfl | rfl <;> decide
  have hlen := renderPieces_length_ge v
  have := HandleAttributeValueLoop_resolvable hd rd v hv
    ((renderPieces v ++ cDelimiter :: rest).length + 1) []
    (cDelimiter :: b) rest hn hp q dir (by simp; omega)
  simp only [HandleAttributeValue, ConsumeWhitespace, XMLEventReader.budget, List.cons_append,
    List.length_cons, ConsumeWhitespaceLoop, XMLEventReader.get, IStream.get,
    XMLEventReader.setStream, Bool.false_eq_true, if_false, hs, if_true, Result.bind, h0, hq]
  simpa using this

theorem HandleAttributesLoop_space (s : Str) (hs : ∀ c ∈ s, isspace c = true) :
    ∀ (n : Nat) (acc : List Attribute) (b rest : Str) (hn hp : Bool) (q : List XMLEvent)
      (dir : Bool) (d rd : List (Str × Str)),
      HandleAttributesLoop (n + s.length) acc ⟨⟨b, s ++ rest, false⟩, hn, hp, q, dir, d, rd⟩ =
        HandleAttributesLoop n acc ⟨⟨s.reverse ++ b, rest, false⟩, hn, hp, q, dir, d, rd⟩ := by
  induction s with
  | nil => intros; simp
  | cons c s ih =>
    intro n acc b rest hn hp q dir d rd
    have hc := hs c (by simp)
    have hgt : c ≠ '>' := by rintro rfl; revert hc; decide
    have hsl : c ≠ '/' := by rintro rfl; revert hc; decide
    have ih' := ih (fun y hy => hs y (by simp [hy])) n acc (c :: b) rest hn hp q dir d rd
    rw [show n + (c :: s).length = (n + s.length) + 1 by simp; omega]
    conv_lhs => unfold HandleAttributesLoop
    simp only [XMLEventReader.get, IStream.get, XMLEventReader.setStream, List.cons_append,
      Bool.false_eq_true, if_false, hgt, hsl, hc, if_true]
    rw [ih']
    simp

theorem AttributeSource.accepted_split {d : List (Str × Str)} {x : AttributeSource}
    (h : x.accepted d = true) :
    x.space ≠ [] ∧ (∀ c ∈ x.space, isspace c = true) ∧ validAttributeName x.name = true ∧
      (x.delimiter = '"' ∨ x.delimiter = '\'') ∧
      ∀ y ∈ x.value, Piece.resolvable d (fun c => decide (c ≠ x.delimiter)) y = true := by
  simp only [AttributeSource.accepted, Bool.and_eq_true, Bool.not_eq_true',
    List.isEmpty_eq_false, List.all_eq_true, Bool.or_eq_true, decide_eq_true_eq] at h
  exact ⟨h.1.1.1.1, h.1.1.1.2, h.1.1.2, h.1.2, h.2⟩

/-- Behind the first byte of its name, the forward reader reads an attribute up to the
closing delimiter of its value. -/
theorem HandleAttribute_source {d : List (Str × Str)} {x : AttributeSource}
    (h : x.accepted d = true) {c0 : Char} {cs : Str} (hcs : x.name = c0 :: cs)
    (b rest : Str) (hn hp : Bool) (q : List XMLEvent) (dir : Bool) (rd : List (Str × Str))
    (K : Attribute → XMLEventReader → Result (List Attribute)) :
    ((HandleAttributeName c0
        ⟨⟨c0 :: b, cs ++ '=' :: x.delimiter :: (renderPieces x.value ++ x.delimiter :: rest),
          false⟩, hn, hp, q, dir, d, rd⟩).bind fun pAttributeName r =>
        (HandleAttributeValue r).bind fun pAttributeValue r =>
          K (Attribute.mk pAttributeName pAttributeValue) r) =
      K (x.attribute d)
        ⟨⟨x.delimiter :: ((renderPieces x.value).reverse ++ x.delimiter :: '=' ::
          (x.name.reverse ++ b)), rest, false⟩, hn, hp, q, dir, d, rd⟩ := by
  obtain ⟨-, -, h1, h2, h3⟩ := AttributeSource.accepted_split h
  rw [hcs] at h1
  have e1 := HandleAttributeName_name h1 (c0 :: b)
    (x.delimiter :: (renderPieces x.value ++ x.delimiter :: rest)) hn hp q dir d rd
  have e2 := HandleAttributeValue_resolvable h2 rd x.value h3 ('=' :: (cs.reverse ++ c0 :: b))
    rest hn hp q dir
  simp only [List.cons_append, List.append_assoc] at e1 e2
  rw [e1, bind_ok, e2, bind_ok]
  simp [AttributeSource.attribute, hcs]

/-- The forward loop over the attributes of a tag reads the whitespace and one
attribute. -/
theorem HandleAttributesLoop_source {d : List (Str × Str)} {x : AttributeSource}
    (h : x.accepted d = true) (n : Nat)
    (acc : List Attribute) (b rest : Str)
    (hn hp : Bool) (q : List XMLEvent) (dir : Bool) (rd : List (Str × Str)) :
    HandleAttributesLoop (n + 1 + x.space.length) acc
        ⟨⟨b, x.render ++ rest, false⟩, hn, hp, q, dir, d, rd⟩ =
      HandleAttributesLoop n (acc ++ [x.attribute d])
        ⟨⟨x.render.reverse ++ b, rest, false⟩, hn, hp, q, dir, d, rd⟩ := by
  obtain ⟨-, hsp, h1, -, -⟩ := AttributeSource.accepted_split h
  obtain ⟨c0, cs, hcs, hs0, hgt0, hsl0⟩ := validAttributeName_first h1
  have one := HandleAttribute_source h hcs (x.space.reverse ++ b) rest hn hp q dir rd
    (fun a r => HandleAttributesLoop n (acc ++ [a]) r)
  simp only [AttributeSource.render, List.append_assoc, List.singleton_append,
    List.cons_append, List.nil_append]
  rw [HandleAttributesLoop_space x.space hsp, hcs]
  conv_lhs => unfold HandleAttributesLoop
  simp only [XMLEventReader.get, IStream.get, XMLEventReader.setStream, List.cons_append,
    Bool.false_eq_true, if_false, hgt0, hsl0, hs0, List.nil_append]
  simp only [List.cons_append, List.append_assoc] at one
  rw [one]
  simp [hcs]

theorem renderSources_cons (x : AttributeSource) (l : List AttributeSource) :
    renderSources (x :: l) = x.render ++ renderSources l := by
  simp [renderSources]

theorem AttributeSource.render_length (x : AttributeSource) :
    x.space.length + 3 ≤ x.render.length := by
  simp [AttributeSource.render]; omega

theorem HandleAttributesLoop_sources {d : List (Str × Str)} (rd : List (Str × Str))
    (l : List AttributeSource) (hl : ∀ x ∈ l, x.accepted d = true) :
    ∀ (n : Nat) (acc : List Attribute) (b rest : Str) (hn hp : Bool) (q : List XMLEvent)
      (dir : Bool),
      (∃ rest', rest = '>' :: rest' ∨ rest = '/' :: '>' :: rest') →
      (renderSources l).length < n →
      HandleAttributesLoop n acc ⟨⟨b, renderSources l ++ rest, false⟩, hn, hp, q, dir, d, rd⟩ =
        .ok (acc ++ l.map (AttributeSource.attribute d))
          ⟨⟨(renderSources l).reverse ++ b, rest, false⟩, hn, hp, q, dir, d, rd⟩ := by
  induction l with
  | nil =>
    intro n acc b rest hn hp q dir hrest hlt
    cases n with
    | zero => omega
    | succ n =>
      obtain ⟨rest', rfl | rfl⟩ := hrest
      · simp [renderSources, HandleAttributesLoop, XMLEventReader.get, IStream.get,
          XMLEventReader.setStream, XMLEventReader.unget, IStream.unget]
      · simp [renderSources, HandleAttributesLoop, XMLEventReader.get, IStream.get,
          XMLEventReader.setStream, XMLEventReader.unget, IStream.unget]
  | cons x l ih =>
    intro n acc b rest hn hp q dir hrest hlt
    have hx := hl x (by simp)
    have hlen := AttributeSource.render_length x
    rw [renderSources_cons] at hlt ⊢
    obtain ⟨m, rfl⟩ : ∃ m, n = m + 1 + x.space.length :=
      ⟨n - 1 - x.space.length, by simp at hlt; omega⟩
    rw [List.append_assoc, HandleAttributesLoop_source hx,
      ih (fun y hy => hl y (by simp [hy])) m _ _ rest hn hp q dir hrest
        (by simp at hlt ⊢; omega)]
    simp

theorem HandleTagStartSpace_space (s : Str) (hs : ∀ c ∈ s, isspace c = true) :
    ∀ (n : Nat) (acc : List Attribute) (b rest : Str) (hn hp : Bool) (q : List XMLEvent)
      (dir : Bool) (d rd : List (Str × Str)),
      HandleTagStartSpace (n + s.length) acc ⟨⟨b, s ++ rest, false⟩, hn, hp, q, dir, d, rd⟩ =
        HandleTagStartSpace n acc ⟨⟨s.reverse ++ b, rest, false⟩, hn, hp, q, dir, d, rd⟩ := by
  induction s with
  | nil => intros; simp
  | cons c s ih =>
    intro n acc b rest hn hp q dir d rd
    have hc := hs c (by simp)
    have hgt : c ≠ '>' := by rintro rfl; revert hc; decide
    have ih' := ih (fun y hy => hs y (by simp [hy])) n acc (c :: b) rest hn hp q dir d rd
    rw [show n + (c :: s).length = (n + s.length) + 1 by simp; omega]
    conv_lhs => unfold HandleTagStartSpace
    simp only [XMLEventReader.get, IStream.get, XMLEventReader.setStream, List.cons_append,
      Bool.false_eq_true, if_false, hgt, hc, if_true]
    rw [ih']
    simp

/-- Behind the first whitespace byte that ends the tag name, the forward reader reads the
attributes of the tag up to the `>` or `/>`. -/
theorem HandleTagStartSpace_sources {d : List (Str × Str)} (rd : List (Str × Str))
    (x : AttributeSource) (l : List AttributeSource)
    (hl : ∀ y ∈ x :: l, y.accepted d = true) {c : Char} {s : Str} (hsp : x.space = c :: s)
    (n : Nat) (b rest : Str)
    (hrest : ∃ rest', rest = '>' :: rest' ∨ rest = '/' :: '>' :: rest')
    (hn hp : Bool) (q : List XMLEvent) (dir : Bool) :
    HandleTagStartSpace (n + 1 + s.length) []
        ⟨⟨c :: b, s ++ (x.name ++ '=' :: x.delimiter :: (renderPieces x.value ++ x.delimiter ::
          (renderSources l ++ rest))), false⟩, hn, hp, q, dir, d, rd⟩ =
      .ok ((x :: l).map (AttributeSource.attribute d))
        ⟨⟨(renderSources (x :: l)).reverse ++ b, rest, false⟩, hn, hp, q, dir, d, rd⟩ := by
  have hx := hl x (by simp)
  obtain ⟨-, hspace, h1, -, -⟩ := AttributeSource.accepted_split hx
  have hs : ∀ y ∈ s, isspace y = true := fun y hy => hspace y (by rw [hsp]; simp [hy])
  obtain ⟨c0, cs, hcs, hs0, hgt0, hsl0⟩ := validAttributeName_first h1
  have one := HandleAttribute_source hx hcs (s.reverse ++ c :: b) (renderSources l ++ rest)
    hn hp q dir rd (fun a r => HandleAttributesLoop r.budget ([] ++ [a]) r)
  have e3 := HandleAttributesLoop_sources rd l (fun y hy => hl y (by simp [hy]))
    ((renderSources l ++ rest).length + 1) [x.attribute d]
    (x.delimiter :: ((renderPieces x.value).reverse ++ x.delimiter :: '=' ::
      (x.name.reverse ++ (s.reverse ++ c :: b))))
    rest hn hp q dir hrest (by
      obtain ⟨rest', rfl | rfl⟩ := hrest <;> simp <;> omega)
  rw [HandleTagStartSpace_space s hs, hcs]
  conv_lhs => unfold HandleTagStartSpace
  simp only [XMLEventReader.get, IStream.get, XMLEventReader.setStream, List.cons_append,
    Bool.false_eq_true, if_false, hgt0, hsl0, hs0, HandleAttributes]
  simp only [List.cons_append, List.append_assoc] at one
  rw [one]
  simp only [XMLEventReader.budget, List.nil_append]
  rw [e3]
  simp [renderSources_cons, AttributeSource.render, hsp, hcs]

theorem space_first {c : Char} (hc : isspace c = true) : c ≠ ':' ∧ c ≠ '>' ∧ c ≠ '/' := by
  refine ⟨?_, ?_, ?_⟩ <;> (rintro rfl; revert hc; decide)

theorem AttributeSource.space_cons {d : List (Str × Str)} {x : AttributeSource}
    (h : x.accepted d = true) : ∃ c s, x.space = c :: s ∧ isspace c = true := by
  obtain ⟨h1, h2, -⟩ := AttributeSource.accepted_split h
  cases hs : x.space with
  | nil => exact absurd hs h1
  | cons c s => exact ⟨c, s, rfl, h2 c (by rw [hs]; simp)⟩

/-- The forward start-tag loop behind a name with attributes: `>` ends a start tag. -/
theorem HandleTagStartNext_sources_close {d : List (Str × Str)} (rd : List (Str × Str))
    (x : AttributeSource) (l : List AttributeSource)
    (hl : ∀ y ∈ x :: l, y.accepted d = true) (m : Nat) (p : Option Str) {loc : Str}
    (hloc : loc ≠ []) (b rest : Str) (hn hp : Bool) (q : List XMLEvent) (dir : Bool) :
    HandleTagStartNext (m + 2) p loc []
        ⟨⟨b, renderSources (x :: l) ++ '>' :: rest, false⟩, hn, hp, q, dir, d, rd⟩ =
      .ok true ⟨⟨'>' :: ((renderSources (x :: l)).reverse ++ b), rest, false⟩, hn, hp,
        q ++ [startEvent p loc ((x :: l).map (AttributeSource.attribute d))], dir, d, rd⟩ := by
  obtain ⟨c, s, hsp, hc⟩ := AttributeSource.space_cons (hl x (by simp))
  obtain ⟨hc1, hc2, hc3⟩ := space_first hc
  have e := HandleTagStartSpace_sources rd x l hl hsp
    (x.name ++ '=' :: x.delimiter :: (renderPieces x.value ++ x.delimiter ::
      (renderSources l ++ '>' :: rest))).length b ('>' :: rest) ⟨rest, Or.inl rfl⟩
    hn hp q dir
  have hlen : ¬ loc.length ≤ 0 := by
    have := List.length_pos.mpr hloc
    omega
  simp only [HandleTagStartNext, renderSources_cons, AttributeSource.render, hsp,
    List.cons_append, List.append_assoc, List.singleton_append, List.nil_append,
    XMLEventReader.get, IStream.get, XMLEventReader.setStream, Bool.false_eq_true, if_false,
    HandleTagStartLoop, hc1, hc2, hc3, hc, if_true, hlen, XMLEventReader.budget]
  rw [show (s ++ (x.name ++ '=' :: x.delimiter :: (renderPieces x.value ++ x.delimiter ::
      (renderSources l ++ '>' :: rest)))).length + 1 =
      (x.name ++ '=' :: x.delimiter :: (renderPieces x.value ++ x.delimiter ::
      (renderSources l ++ '>' :: rest))).length + 1 + s.length by simp; omega, e, bind_ok]
  simp [XMLEventReader.get, IStream.get, XMLEventReader.setStream, HandleTagStartLoop,
    XMLEventReader.push, renderSources_cons, AttributeSource.render, hsp]

/-- The forward start-tag loop behind a name with attributes: `/>` ends a self-closing
tag. -/
theorem HandleTagStartNext_sources_empty {d : List (Str × Str)} (rd : List (Str × Str))
    (x : AttributeSource) (l : List AttributeSource)
    (hl : ∀ y ∈ x :: l, y.accepted d = true) (m : Nat) (p : Option Str) {loc : Str}
    (hloc : loc ≠ []) (b rest : Str) (hn hp : Bool) (q : List XMLEvent) (dir : Bool) :
    HandleTagStartNext (m + 2) p loc []
        ⟨⟨b, renderSources (x :: l) ++ '/' :: '>' :: rest, false⟩, hn, hp, q, dir, d, rd⟩ =
      .ok true ⟨⟨'>' :: '/' :: ((renderSources (x :: l)).reverse ++ b), rest, false⟩, hn, hp,
        q ++ [startEvent p loc ((x :: l).map (AttributeSource.attribute d)), endEvent p loc],
        dir, d, rd⟩ := by
  obtain ⟨c, s, hsp, hc⟩ := AttributeSource.space_cons (hl x (by simp))
  obtain ⟨hc1, hc2, hc3⟩ := space_first hc
  have e := HandleTagStartSpace_sources rd x l hl hsp
    (x.name ++ '=' :: x.delimiter :: (renderPieces x.value ++ x.delimiter ::
      (renderSources l ++ '/' :: '>' :: rest))).length b ('/' :: '>' :: rest)
    ⟨rest, Or.inr rfl⟩ hn hp q dir
  have hlen : ¬ loc.length ≤ 0 := by
    have := List.length_pos.mpr hloc
    omega
  simp only [HandleTagStartNext, renderSources_cons, AttributeSource.render, hsp,
    List.cons_append, List.append_assoc, List.singleton_append, List.nil_append,
    XMLEventReader.get, IStream.get, XMLEventReader.setStream, Bool.false_eq_true, if_false,
    HandleTagStartLoop, hc1, hc2, hc3, hc, if_true, hlen, XMLEventReader.budget]
  rw [show (s ++ (x.name ++ '=' :: x.delimiter :: (renderPieces x.value ++ x.delimiter ::
      (renderSources l ++ '/' :: '>' :: rest)))).length + 1 =
      (x.name ++ '=' :: x.delimiter :: (renderPieces x.value ++ x.delimiter ::
      (renderSources l ++ '/' :: '>' :: rest))).length + 1 + s.length by simp; omega, e, bind_ok]
  simp [XMLEventReader.get, IStream.get, XMLEventReader.setStream, HandleTagStartLoop,
    XMLEventReader.push, renderSources_cons, AttributeSource.render, hsp]

theorem exists_first_source {l : List AttributeSource} (hne : l ≠ []) :
    ∃ (x : AttributeSource) (xs : List AttributeSource), l = x :: xs := by
  cases l with
  | nil => exact absurd rfl hne
  | cons x xs => exact ⟨x, xs, rfl⟩

/-- Forward `hasNext` in front of a start tag with attributes, written with any
whitespace in front of each and with entity references in the values. -/
theorem hasNext_startTag_sources {n : Str} (h : validName n = true)
    (hloc : (qnameOf n).m_strLocalPart ≠ []) {d : List (Str × Str)} (rd : List (Str × Str))
    (l : List AttributeSource) (hl : ∀ y ∈ l, y.accepted d = true) (hne : l ≠ [])
    (b rest : Str) :
    hasNext ⟨⟨b, '<' :: n ++ (renderSources l ++ '>' :: rest), false⟩,
        false, false, [], true, d, rd⟩ =
      .ok true ⟨⟨'>' :: ((renderSources l).reverse ++ (n.reverse ++ '<' :: b)), rest, false⟩,
        true, false,
        [XMLEvent.ofStartElement ⟨qnameOf n, l.map (AttributeSource.attribute d)⟩], true,
        d, rd⟩ := by
  obtain ⟨x, xs, rfl⟩ := exists_first_source hne
  obtain ⟨c0, cs, rfl, h0, -⟩ := validName_split h
  obtain ⟨p, loc, hq, hscan⟩ := HandleTagStartNext_name h
  have hloc' : loc ≠ [] := by
    have := congrArg QName.m_strLocalPart hq
    simp only at this
    rw [this]
    exact hloc
  have hlen := AttributeSource.render_length x
  rw [List.cons_append, hasNext_step, if_pos rfl, List.cons_append, HandleTag_nameStart _ h0,
    HandleTagStart_eq_next]
  obtain ⟨m, hm⟩ : ∃ m, (cs ++ (renderSources (x :: xs) ++ '>' :: rest)).length =
      (m + 2) + cs.length :=
    ⟨(renderSources (x :: xs) ++ '>' :: rest).length - 2, by
      simp [renderSources_cons] at hlen ⊢; omega⟩
  rw [hm, hscan, HandleTagStartNext_sources_close rd x xs hl m p hloc']
  simp [startEvent, hq]

/-- Forward `hasNext` in front of a self-closing tag with attributes, written with any
whitespace in front of each and with entity references in the values. -/
theorem hasNext_emptyTag_sources {n : Str} (h : validName n = true)
    (hloc : (qnameOf n).m_strLocalPart ≠ []) {d : List (Str × Str)} (rd : List (Str × Str))
    (l : List AttributeSource) (hl : ∀ y ∈ l, y.accepted d = true) (hne : l ≠ [])
    (b rest : Str) :
    hasNext ⟨⟨b, '<' :: n ++ (renderSources l ++ '/' :: '>' :: rest), false⟩,
        false, false, [], true, d, rd⟩ =
      .ok true ⟨⟨'>' :: '/' :: ((renderSources l).reverse ++ (n.reverse ++ '<' :: b)), rest,
          false⟩, true, false,
        [XMLEvent.ofStartElement ⟨qnameOf n, l.map (AttributeSource.attribute d)⟩,
          XMLEvent.ofEndElement ⟨qnameOf n⟩], true, d, rd⟩ := by
  obtain ⟨x, xs, rfl⟩ := exists_first_source hne
  obtain ⟨c0, cs, rfl, h0, -⟩ := validName_split h
  obtain ⟨p, loc, hq, hscan⟩ := HandleTagStartNext_name h
  have hloc' : loc ≠ [] := by
    have := congrArg QName.m_strLocalPart hq
    simp only at this
    rw [this]
    exact hloc
  have hlen := AttributeSource.render_length x
  rw [List.cons_append, hasNext_step, if_pos rfl, List.cons_append, HandleTag_nameStart _ h0,
    HandleTagStart_eq_next]
  obtain ⟨m, hm⟩ : ∃ m, (cs ++ (renderSources (x :: xs) ++ '/' :: '>' :: rest)).length =
      (m + 2) + cs.length :=
    ⟨(renderSources (x :: xs) ++ '/' :: '>' :: rest).length - 2, by
      simp [renderSources_cons] at hlen ⊢; omega⟩
  rw [hm, hscan, HandleTagStartNext_sources_empty rd x xs hl m p hloc']
  simp [startEvent, endEvent, hq]

/-! ## Forward claims about entities and attributes -/

theorem reference_resolvable {d : List (Str × Str)} {p : Char → Bool} {strName strText : Str}
    (hne : strName ≠ []) (hs : ∀ c ∈ strName, c ≠ ';') (hf : mapFind d strName = some strText)
    {x y : Str} (hx : ∀ c ∈ x, p c = true ∧ c ≠ '&') (hy : ∀ c ∈ y, p c = true ∧ c ≠ '&') :
    ∀ z ∈ x.map Piece.byte ++ Piece.reference strName :: y.map Piece.byte,
      Piece.resolvable d p z = true := by
  intro z hz
  rcases List.mem_append.mp hz with hz | hz
  · obtain ⟨c, hc, rfl⟩ := List.mem_map.mp hz
    simpa [Piece.resolvable] using hx c hc
  · rcases List.mem_cons.mp hz with rfl | hz
    · simp [Piece.resolvable, hne, hf]
      exact hs
    · obtain ⟨c, hc, rfl⟩ := List.mem_map.mp hz
      simpa [Piece.resolvable] using hy c hc

theorem renderPieces_reference (strName x y : Str) :
    renderPieces (x.map Piece.byte ++ Piece.reference strName :: y.map Piece.byte) =
      x ++ '&' :: (strName ++ ';' :: y) := by
  rw [renderPieces_append, renderPieces_bytes]
  simp only [renderPieces, List.flatMap_cons, Piece.render]
  have := renderPieces_bytes y
  simp only [renderPieces] at this
  rw [this]
  simp

theorem dataPieces_reference {d : List (Str × Str)} {strName strText : Str}
    (hf : mapFind d strName = some strText) (x y : Str) :
    dataPieces d (x.map Piece.byte ++ Piece.reference strName :: y.map Piece.byte) =
      x ++ strText ++ y := by
  rw [dataPieces_append, dataPieces_bytes]
  simp only [dataPieces, List.flatMap_cons, Piece.data, hf, Option.getD_some]
  have := dataPieces_bytes d y
  simp only [dataPieces] at this
  rw [this]
  simp

/-- C13. Forward entity round trip. For every name that is not one of the five built-in
names, is not empty and has no `;`, and every replacement text,
`addToEntityReplacementDictionary(name, text)` returns 0, and with the dictionaries it
leaves: forward `hasNext` on the character data `x&name;y`, with `x` and `y` free of `<`
and `&`, followed by `<` or the end of the stream, queues `Characters` with the data
`x ++ text ++ y`; and forward `hasNext` on a start tag with the attribute value
`"x&name;y"`, `x` and `y` free of `"` as well, queues a `StartElement` whose attribute
has the value `x ++ text ++ y`. The text is taken as it is, whatever bytes it holds. -/
theorem forward_entity_round_trip (strName strText x y : Str)
    (hname : ¬ (strName = "amp".toList ∨ strName = "lt".toList ∨ strName = "gt".toList ∨
      strName = "apos".toList ∨ strName = "quot".toList))
    (hne : strName ≠ []) (hs : ∀ c ∈ strName, c ≠ ';')
    (hx : ∀ c ∈ x, c ≠ '<' ∧ c ≠ '&') (hy : ∀ c ∈ y, c ≠ '<' ∧ c ≠ '&')
    (b rest : Str) (hrest : rest = [] ∨ ∃ rest', rest = '<' :: rest')
    (d rd : List (Str × Str)) :
    (∀ (aStream : IStream) (hn hp : Bool) (q : List XMLEvent) (dir : Bool),
      addToEntityReplacementDictionary strName strText ⟨aStream, hn, hp, q, dir, d, rd⟩ =
        .ok 0 ⟨aStream, hn, hp, q, dir, mapAssign d strName strText,
          mapAssign rd strName.reverse strText.reverse⟩) ∧
    hasNext ⟨⟨b, x ++ '&' :: (strName ++ ';' :: y) ++ rest, false⟩, false, false, [], true,
        mapAssign d strName strText, mapAssign rd strName.reverse strText.reverse⟩ =
      .ok true ⟨⟨(x ++ '&' :: (strName ++ ';' :: y)).reverse ++ b, rest, rest.isEmpty⟩,
        true, false, [charactersEvent (x ++ strText ++ y)], true,
        mapAssign d strName strText, mapAssign rd strName.reverse strText.reverse⟩ ∧
    (∀ (n a tail : Str), validName n = true → (qnameOf n).m_strLocalPart ≠ [] →
      validAttributeName a = true → (∀ c ∈ x ++ y, c ≠ '"') →
      hasNext ⟨⟨b, '<' :: n ++ (' ' :: a ++ '=' :: '"' :: (x ++ '&' :: (strName ++ ';' :: y)) ++
            '"' :: '>' :: tail), false⟩, false, false, [], true,
          mapAssign d strName strText, mapAssign rd strName.reverse strText.reverse⟩ =
        .ok true ⟨⟨('<' :: n ++ (' ' :: a ++ '=' :: '"' :: (x ++ '&' :: (strName ++ ';' :: y)) ++
            ['"', '>'])).reverse ++ b, tail, false⟩, true, false,
          [XMLEvent.ofStartElement ⟨qnameOf n, [⟨qnameOf a, x ++ strText ++ y⟩]⟩], true,
          mapAssign d strName strText, mapAssign rd strName.reverse strText.reverse⟩) := by
  have hf : mapFind (mapAssign d strName strText) strName = some strText :=
    mapFind_mapAssign_self _ _ _
  refine ⟨fun aStream hn hp q dir => addToEntityReplacementDictionary_other strText _ hname,
    ?_, ?_⟩
  · have hl := @reference_resolvable (mapAssign d strName strText)
      (fun c => decide (c ≠ '<')) strName strText hne hs hf x y
      (fun c hc => ⟨by simpa using (hx c hc).1, (hx c hc).2⟩)
      (fun c hc => ⟨by simpa using (hy c hc).1, (hy c hc).2⟩)
    have := hasNext_resolvable (mapAssign rd strName.reverse strText.reverse) (by simp) hl b
      rest hrest
    rw [renderPieces_reference, dataPieces_reference hf] at this
    exact this
  · intro n a tail hn hloc ha hq
    have hl := @reference_resolvable (mapAssign d strName strText)
      (fun c => decide (c ≠ '"')) strName strText hne hs hf x y
      (fun c hc => ⟨by simpa using hq c (by simp [hc]), (hx c hc).2⟩)
      (fun c hc => ⟨by simpa using hq c (by simp [hc]), (hy c hc).2⟩)
    have hacc : ∀ z ∈ [(⟨[' '], a, '"',
        x.map Piece.byte ++ Piece.reference strName :: y.map Piece.byte⟩ : AttributeSource)],
        z.accepted (mapAssign d strName strText) = true := by
      intro z hz
      rw [List.mem_singleton] at hz
      subst hz
      simp only [AttributeSource.accepted, Bool.and_eq_true, Bool.not_eq_true',
        List.isEmpty_eq_false, List.all_eq_true, Bool.or_eq_true, decide_eq_true_eq]
      exact ⟨⟨⟨⟨by simp, by decide⟩, ha⟩, by simp⟩, hl⟩
    have := hasNext_startTag_sources hn hloc (mapAssign rd strName.reverse strText.reverse) _
      hacc (by simp) b tail
    simp only [renderSources, List.flatMap_cons, List.flatMap_nil, List.append_nil,
      AttributeSource.render, renderPieces_reference, List.map_cons, List.map_nil,
      AttributeSource.attribute, dataPieces_reference hf] at this
    simp only [List.cons_append, List.append_assoc, List.nil_append, List.singleton_append,
      List.reverse_cons, List.reverse_append] at this ⊢
    simpa using this

/-- The entity `nbsp` registered with the text `<&>` on a reader over `a&nbsp;b`, and
the attribute value `"a&nbsp;b"` in the tag `r`. -/
theorem forward_entity_round_trip_witness :
    hasNext ⟨⟨[], "a&nbsp;b".toList, false⟩, false, false, [], true,
        mapAssign [] "nbsp".toList "<&>".toList,
        mapAssign [] "nbsp".toList.reverse "<&>".toList.reverse⟩ =
      .ok true ⟨⟨"a&nbsp;b".toList.reverse, [], true⟩, true, false,
        [charactersEvent "a<&>b".toList], true,
        mapAssign [] "nbsp".toList "<&>".toList,
        mapAssign [] "nbsp".toList.reverse "<&>".toList.reverse⟩ ∧
    hasNext ⟨⟨[], "<r k=\"a&nbsp;b\">".toList, false⟩, false, false, [], true,
        mapAssign [] "nbsp".toList "<&>".toList,
        mapAssign [] "nbsp".toList.reverse "<&>".toList.reverse⟩ =
      .ok true ⟨⟨"<r k=\"a&nbsp;b\">".toList.reverse, [], false⟩, true, false,
        [XMLEvent.ofStartElement ⟨qnameOf ['r'], [⟨qnameOf ['k'], "a<&>b".toList⟩]⟩], true,
        mapAssign [] "nbsp".toList "<&>".toList,
        mapAssign [] "nbsp".toList.reverse "<&>".toList.reverse⟩ :=
  ⟨(forward_entity_round_trip "nbsp".toList "<&>".toList ['a'] ['b'] (by decide) (by decide)
      (by decide) (by decide) (by decide) [] [] (Or.inl rfl) [] []).2.1,
   (forward_entity_round_trip "nbsp".toList "<&>".toList ['a'] ['b'] (by decide) (by decide)
      (by decide) (by decide) (by decide) [] [] (Or.inl rfl) [] []).2.2 ['r'] ['k'] []
      (by decide) (by decide) (by decide) (by decide)⟩

theorem validNCName_split {n : Str} (h : validNCName n = true) :
    ∃ c cs, n = c :: cs ∧ (isalpha c = true ∨ c = '_') ∧ ∀ x ∈ cs, isNameByte x = true := by
  cases n with
  | nil => simp [validNCName] at h
  | cons c cs =>
    simp only [validNCName, Bool.and_eq_true, Bool.or_eq_true, decide_eq_true_eq,
      List.all_eq_true] at h
    exact ⟨c, cs, rfl, h.1, h.2⟩

theorem validNCName_bytes {n : Str} (h : validNCName n = true) :
    ∀ x ∈ n, isNameByte x = true := by
  obtain ⟨c, cs, rfl, h0, hcs⟩ := validNCName_split h
  intro x hx
  rcases List.mem_cons.mp hx with rfl | hx
  · exact nameStart_isNameByte h0
  · exact hcs x hx

theorem count_colon_nameBytes {l : Str} (h : ∀ x ∈ l, isNameByte x = true) :
    l.count ':' = 0 := by
  rw [List.count_eq_zero]
  intro hm
  exact absurd (h _ hm) (by decide)

/-- A prefix and a local part, both names without a colon, make a valid element name. -/
theorem validName_prefixed {p l : Str} (hp : validNCName p = true) (hl : validNCName l = true) :
    validName (p ++ ':' :: l) = true ∧ qnameOf (p ++ ':' :: l) = ⟨[], l, p⟩ ∧ l ≠ [] := by
  have hlb := validNCName_bytes hl
  have hpb := validNCName_bytes hp
  obtain ⟨c, cs, rfl, h0, hcs⟩ := validNCName_split hp
  obtain ⟨c1, cs1, rfl, -, -⟩ := validNCName_split hl
  refine ⟨?_, qnameOf_colon _ hpb, by simp⟩
  simp only [List.cons_append, validName, Bool.and_eq_true, Bool.or_eq_true,
    decide_eq_true_eq, List.all_eq_true]
  refine ⟨⟨h0, ?_⟩, ?_⟩
  · intro x hx
    rcases List.mem_append.mp hx with hx | hx
    · exact Or.inl (hcs x hx)
    · rcases List.mem_cons.mp hx with rfl | hx
      · exact Or.inr rfl
      · exact Or.inl (hlb x hx)
  · have h1 := count_colon_nameBytes hcs
    have h2 := count_colon_nameBytes hlb
    simp only [List.count_append, List.count_cons_self, h1]
    omega

theorem validName_of_NCName {n : Str} (h : validNCName n = true) :
    validName n = true ∧ qnameOf n = ⟨[], n, []⟩ ∧ n ≠ [] := by
  have hb := validNCName_bytes h
  obtain ⟨c, cs, rfl, h0, hcs⟩ := validNCName_split h
  refine ⟨?_, qnameOf_plain hb, by simp⟩
  simp only [validName, Bool.and_eq_true, Bool.or_eq_true, decide_eq_true_eq,
    List.all_eq_true]
  exact ⟨⟨h0, fun x hx => Or.inl (hcs x hx)⟩, by rw [count_colon_nameBytes hcs]; omega⟩

theorem validAttributeName_of_NCName {n : Str} (h : validNCName n = true) :
    validAttributeName n = true ∧ qnameOf n = ⟨[], n, []⟩ := by
  have hb := validNCName_bytes h
  obtain ⟨c, cs, rfl, h0, hcs⟩ := validNCName_split h
  refine ⟨?_, qnameOf_plain hb⟩
  simp only [validAttributeName, Bool.and_eq_true, Bool.or_eq_true, decide_eq_true_eq,
    List.all_eq_true]
  refine ⟨⟨?_, fun x hx => Or.inl (hcs x hx)⟩, by rw [count_colon_nameBytes hcs]; omega⟩
  rcases h0 with h0 | h0
  · exact Or.inl (isalpha_isalnum h0)
  · exact Or.inr h0

/-- C16. For all names `p`, `l`, `a` without a colon (the first byte a letter or `_`,
further bytes letters, digits, `-`, `_`, `.`) and every attribute value `v` between
double quotes, written in bytes other than `"` and `&` and in references to entities of
the dictionary, forward `hasNext` on `<p:l a="v">` queues one `StartElement` with prefix
`p`, local part `l`, empty namespace URI and the attribute list `[(a, v with every
reference replaced)]`, and forward `hasNext` on `</p:l>` queues `EndElement` with prefix
`p` and local part `l`. On `<p:x attr="1&amp;2">hi</p:x>` a full forward traversal hands
out `StartElement(p, x, [(attr, "1&2")])`, `Characters("hi")` with the whitespace flag
clear, and `EndElement(p, x)`. -/
theorem forward_prefixed_tag_with_attribute (p l a : Str) (v : List Piece)
    (d rd : List (Str × Str)) (b rest : Str)
    (hp : validNCName p = true) (hl : validNCName l = true) (ha : validNCName a = true)
    (hv : ∀ x ∈ v, Piece.resolvable d (fun c => decide (c ≠ '"')) x = true) :
    hasNext ⟨⟨b, '<' :: (p ++ ':' :: l) ++
          (' ' :: a ++ '=' :: '"' :: renderPieces v ++ '"' :: '>' :: rest), false⟩,
        false, false, [], true, d, rd⟩ =
      .ok true ⟨⟨('<' :: (p ++ ':' :: l) ++
          (' ' :: a ++ '=' :: '"' :: renderPieces v ++ ['"', '>'])).reverse ++ b, rest, false⟩,
        true, false,
        [XMLEvent.ofStartElement ⟨QName.mk [] l p, [⟨QName.mk [] a [], dataPieces d v⟩]⟩],
        true, d, rd⟩ ∧
    hasNext ⟨⟨b, '<' :: '/' :: (p ++ ':' :: l) ++ '>' :: rest, false⟩,
        false, false, [], true, d, rd⟩ =
      .ok true ⟨⟨('<' :: '/' :: (p ++ ':' :: l) ++ ['>']).reverse ++ b, rest, false⟩,
        true, false, [XMLEvent.ofEndElement ⟨QName.mk [] l p⟩], true, d, rd⟩ ∧
    forwardTraversal
        (XMLEventReader.new (IStream.ofData "<p:x attr=\"1&amp;2\">hi</p:x>".toList)) =
      .ok [XMLEvent.ofStartElement
            ⟨QName.mk [] ['x'] ['p'], [⟨QName.mk [] "attr".toList [], "1&2".toList⟩]⟩,
          XMLEvent.ofCharacters ⟨"hi".toList, false⟩,
          XMLEvent.ofEndElement ⟨QName.mk [] ['x'] ['p']⟩]
        { XMLEventReader.new ⟨"<p:x attr=\"1&amp;2\">hi</p:x>".toList.reverse, [], true⟩ with
          m_bHasNextCalled := true } := by
  obtain ⟨hn, hq, hlne⟩ := validName_prefixed hp hl
  obtain ⟨han, haq⟩ := validAttributeName_of_NCName ha
  refine ⟨?_, ?_, by decide⟩
  · have hacc : ∀ z ∈ [(⟨[' '], a, '"', v⟩ : AttributeSource)], z.accepted d = true := by
      intro z hz
      rw [List.mem_singleton] at hz
      subst hz
      simp only [AttributeSource.accepted, Bool.and_eq_true, Bool.not_eq_true',
        List.isEmpty_eq_false, List.all_eq_true, Bool.or_eq_true, decide_eq_true_eq]
      exact ⟨⟨⟨⟨by simp, by decide⟩, han⟩, by simp⟩, hv⟩
    have := hasNext_startTag_sources hn (by rw [hq]; exact hlne) rd _ hacc (by simp) b rest
    simp only [renderSources, List.flatMap_cons, List.flatMap_nil, List.append_nil,
      AttributeSource.render, List.map_cons, List.map_nil, AttributeSource.attribute, hq, haq]
      at this
    simp only [List.cons_append, List.append_assoc, List.nil_append, List.singleton_append,
      List.reverse_cons, List.reverse_append] at this ⊢
    simpa using this
  · have := hasNext_endTag hn b rest d rd
    rw [hq] at this
    simp only [List.cons_append, List.append_assoc, List.nil_append, List.singleton_append,
      List.reverse_cons, List.reverse_append] at this ⊢
    simpa using this

/-- The tag `<p:x attr="1&amp;2">` and the end tag `</p:x>` on a new reader. -/
theorem forward_prefixed_tag_with_attribute_witness :
    hasNext (XMLEventReader.new (IStream.ofData "<p:x attr=\"1&amp;2\">".toList)) =
      .ok true { XMLEventReader.new ⟨"<p:x attr=\"1&amp;2\">".toList.reverse, [], false⟩ with
        m_bHasNextCalled := true
        m_aEvents := [XMLEvent.ofStartElement
          ⟨QName.mk [] ['x'] ['p'], [⟨QName.mk [] "attr".toList [], "1&2".toList⟩]⟩] } ∧
    hasNext (XMLEventReader.new (IStream.ofData "</p:x>".toList)) =
      .ok true { XMLEventReader.new ⟨"</p:x>".toList.reverse, [], false⟩ with
        m_bHasNextCalled := true
        m_aEvents := [XMLEvent.ofEndElement ⟨QName.mk [] ['x'] ['p']⟩] } :=
  ⟨(forward_prefixed_tag_with_attribute ['p'] ['x'] "attr".toList
      [.byte '1', .reference "amp".toList, .byte '2'] _ _ [] [] (by decide) (by decide)
      (by decide) (by decide)).1,
   (forward_prefixed_tag_with_attribute ['p'] ['x'] "attr".toList
      [.byte '1', .reference "amp".toList, .byte '2']
      (XMLEventReader.new (IStream.ofData [])).m_aEntityReplacementDictionary
      (XMLEventReader.new (IStream.ofData [])).m_aREntityReplacementDictionary [] []
      (by decide) (by decide) (by decide) (by decide)).2.1⟩

theorem renderSources_spaced (l : List (Str × AttributeText)) :
    renderSources (l.map fun sx => sx.2.source sx.1) = renderSpaced l := by
  induction l with
  | nil => rfl
  | cons sx l ih =>
    simp only [renderSources, renderSpaced, List.map_cons, List.flatMap_cons] at ih ⊢
    rw [ih]
    simp [AttributeSource.render, AttributeText.source, renderPieces_bytes]

theorem attribute_spaced (d : List (Str × Str)) (l : List (Str × AttributeText)) :
    (l.map fun sx => sx.2.source sx.1).map (AttributeSource.attribute d) =
      l.map fun sx => sx.2.attribute := by
  simp [AttributeSource.attribute, AttributeText.source, AttributeText.attribute,
    dataPieces_bytes]

theorem accepted_spaced (d : List (Str × Str)) {l : List (Str × AttributeText)}
    (hl : ∀ sx ∈ l, isSpaceRun sx.1 = true ∧ sx.2.wellFormed = true) :
    ∀ y ∈ l.map fun sx => sx.2.source sx.1, y.accepted d = true := by
  intro y hy
  obtain ⟨sx, hsx, rfl⟩ := List.mem_map.mp hy
  obtain ⟨h1, h2⟩ := hl sx hsx
  obtain ⟨w1, w2, w3⟩ := AttributeText.wellFormed_split h2
  simp only [isSpaceRun, Bool.and_eq_true, Bool.not_eq_true', List.isEmpty_eq_false,
    List.all_eq_true] at h1
  simp only [AttributeSource.accepted, AttributeText.source, Bool.and_eq_true,
    Bool.not_eq_true', List.isEmpty_eq_false, List.all_eq_true, Bool.or_eq_true,
    decide_eq_true_eq]
  refine ⟨⟨⟨⟨h1.1, h1.2⟩, w1⟩, w2⟩, ?_⟩
  intro z hz
  obtain ⟨c, hc, rfl⟩ := List.mem_map.mp hz
  simpa [Piece.resolvable] using w3 c hc

/-- C17. For every start tag, plain or self-closing, whose element name is valid with a
local part that is not empty, with `k ≥ 1` attributes `name_i=value_i`, each behind a
run of whitespace, each name a valid attribute name, each value between two `"` or two
`'` and free of its own delimiter and of `&`, forward `hasNext` queues a `StartElement`
(and behind it the `EndElement` for a self-closing tag) whose attribute list is
`[(name_1, value_1), ..., (name_k, value_k)]` in document order. On `<r a="x" b='y'/>`
the list is `[(a, "x"), (b, "y")]`. -/
theorem forward_attributes_in_document_order (n : Str) (l : List (Str × AttributeText))
    (b rest : Str) (d rd : List (Str × Str))
    (hn : validName n = true) (hloc : (qnameOf n).m_strLocalPart ≠ [])
    (hl : ∀ sx ∈ l, isSpaceRun sx.1 = true ∧ sx.2.wellFormed = true) (hne : l ≠ []) :
    hasNext ⟨⟨b, '<' :: n ++ (renderSpaced l ++ '>' :: rest), false⟩,
        false, false, [], true, d, rd⟩ =
      .ok true ⟨⟨'>' :: ((renderSpaced l).reverse ++ (n.reverse ++ '<' :: b)), rest, false⟩,
        true, false,
        [XMLEvent.ofStartElement ⟨qnameOf n, l.map fun sx => sx.2.attribute⟩], true, d, rd⟩ ∧
    hasNext ⟨⟨b, '<' :: n ++ (renderSpaced l ++ '/' :: '>' :: rest), false⟩,
        false, false, [], true, d, rd⟩ =
      .ok true ⟨⟨'>' :: '/' :: ((renderSpaced l).reverse ++ (n.reverse ++ '<' :: b)), rest,
          false⟩, true, false,
        [XMLEvent.ofStartElement ⟨qnameOf n, l.map fun sx => sx.2.attribute⟩,
          XMLEvent.ofEndElement ⟨qnameOf n⟩], true, d, rd⟩ ∧
    hasNext (XMLEventReader.new (IStream.ofData "<r a=\"x\" b='y'/>".toList)) =
      .ok true { XMLEventReader.new ⟨"<r a=\"x\" b='y'/>".toList.reverse, [], false⟩ with
        m_bHasNextCalled := true
        m_aEvents := [XMLEvent.ofStartElement ⟨QName.mk [] ['r'] [],
            [⟨QName.mk [] ['a'] [], ['x']⟩, ⟨QName.mk [] ['b'] [], ['y']⟩]⟩,
          XMLEvent.ofEndElement ⟨QName.mk [] ['r'] []⟩] } := by
  have hacc := accepted_spaced d hl
  have hne' : (l.map fun sx => sx.2.source sx.1) ≠ [] := by simpa using hne
  have h1 := hasNext_startTag_sources hn hloc rd _ hacc hne' b rest
  have h2 := hasNext_emptyTag_sources hn hloc rd _ hacc hne' b rest
  rw [renderSources_spaced, attribute_spaced] at h1 h2
  exact ⟨h1, h2, by decide⟩

/-- The tag `r` with an attribute behind a blank and one behind a tab and a line feed,
the second with `"` inside a value between two `'`. -/
theorem forward_attributes_in_document_order_witness :
    hasNext ⟨⟨[], "<r a=\"x\"\t\nb='\"y'>".toList, false⟩, false, false, [], true, [], []⟩ =
      .ok true ⟨⟨"<r a=\"x\"\t\nb='\"y'>".toList.reverse, [], false⟩, true, false,
        [XMLEvent.ofStartElement ⟨qnameOf ['r'],
          [⟨qnameOf ['a'], ['x']⟩, ⟨qnameOf ['b'], ['"', 'y']⟩]⟩], true, [], []⟩ :=
  (forward_attributes_in_document_order ['r']
    [([' '], ⟨['a'], '"', ['x']⟩), (['\t', '\n'], ⟨['b'], '\'', ['"', 'y']⟩)] [] [] [] []
    (by decide) (by decide) (by decide) (by decide)).1

/-! ## Comments with any body, forwards -/

theorem firstOccurrence_cons_succ {pat : Str} {c : Char} {s : Str} {k : Nat}
    (h : firstOccurrence pat (c :: s) = some (k + 1)) :
    firstOccurrence pat s = some k ∧ pat.isPrefixOf (c :: s) = false := by
  unfold firstOccurrence at h
  split at h
  · cases h
  · rename_i hp
    cases hf : firstOccurrence pat s with
    | none => rw [hf] at h; simp at h
    | some i =>
      rw [hf] at h
      simp only [Option.map_some', Option.some.injEq] at h
      exact ⟨by rw [show i = k by omega], (Bool.not_eq_true _).mp hp⟩

theorem firstOccurrence_drop {pat : Str} (p : Str) {t : Str} {m : Nat} :
    firstOccurrence pat (p ++ t) = some (p.length + m) → firstOccurrence pat t = some m := by
  induction p with
  | nil => intro h; simpa using h
  | cons c p ih =>
    intro h
    apply ih
    have h' : firstOccurrence pat (c :: (p ++ t)) = some ((p.length + m) + 1) := by
      rw [← List.cons_append, h]
      simp only [List.length_cons]
      congr 1
      omega
    exact (firstOccurrence_cons_succ h').1

theorem HandleCommentLoop_end (n : Nat) (pData b rest : Str) (hn hp : Bool)
    (q : List XMLEvent) (dir : Bool) (d rd : List (Str × Str)) :
    HandleCommentLoop (n + 3) 0 pData
        ⟨⟨b, '-' :: '-' :: '>' :: rest, false⟩, hn, hp, q, dir, d, rd⟩ =
      .ok true ⟨⟨'>' :: '-' :: '-' :: b, rest, false⟩, hn, hp,
        q ++ [XMLEvent.ofComment ⟨pData⟩], dir, d, rd⟩ := by
  simp [HandleCommentLoop, XMLEventReader.get, IStream.get, XMLEventReader.setStream,
    XMLEventReader.push]

/-- The forward comment loop, with `k` hyphens of the body read and held back, reads the
rest `s` of a body and the `-->` behind it, when the body does not end in a hyphen and
no `-->` stands in front of that one. -/
theorem HandleCommentLoop_scan :
    ∀ (s : Str) (k n : Nat) (pData b rest : Str) (hn hp : Bool) (q : List XMLEvent)
      (dir : Bool) (d rd : List (Str × Str)),
      k ≤ 2 → (s = [] → k = 0) → s.getLast? ≠ some '-' →
      firstOccurrence ['-', '-', '>'] (List.replicate k '-' ++ (s ++ ['-', '-', '>'])) =
        some (k + s.length) →
      s.length + 3 ≤ n →
      HandleCommentLoop n k pData
          ⟨⟨b, s ++ '-' :: '-' :: '>' :: rest, false⟩, hn, hp, q, dir, d, rd⟩ =
        .ok true ⟨⟨'>' :: '-' :: '-' :: (s.reverse ++ b), rest, false⟩, hn, hp,
          q ++ [XMLEvent.ofComment ⟨pData ++ (List.replicate k '-' ++ s)⟩], dir, d, rd⟩ := by
  intro s
  induction s with
  | nil =>
    intro k n pData b rest hn hp q dir d rd _ hk0 _ _ hlt
    have := hk0 rfl
    subst this
    obtain ⟨m, rfl⟩ : ∃ m, n = m + 3 := ⟨n - 3, by simp at hlt; omega⟩
    simpa using HandleCommentLoop_end m pData b rest hn hp q dir d rd
  | cons c s ih =>
    intro k n pData b rest hn hp q dir d rd hk hk0 hlast hfirst hlt
    obtain ⟨m, rfl⟩ : ∃ m, n = m + 1 := ⟨n - 1, by simp at hlt; omega⟩
    have hlt' : s.length + 3 ≤ m := by simp at hlt; omega
    have hlast' : s.getLast? ≠ some '-' := by
      cases s with
      | nil => simp
      | cons c' s' => simpa [List.getLast?_cons_cons] using hlast
    by_cases hc : c = '-'
    · subst hc
      have hs : s ≠ [] := by
        rintro rfl
        simp at hlast
      have hk0' : s = [] → k + 1 = 0 := fun h => absurd h hs
      rcases Nat.lt_or_ge k 2 with hk2 | hk2
      · -- the hyphen is held back
        have hrep : List.replicate (k + 1) '-' ++ (s ++ ['-', '-', '>']) =
            List.replicate k '-' ++ ('-' :: s ++ ['-', '-', '>']) := by
          rw [List.replicate_succ', List.append_assoc]; rfl
        have ih' := ih (k + 1) m pData ('-' :: b) rest hn hp q dir d rd (by omega)
          (fun h => absurd h hs) hlast' (by
            rw [hrep, hfirst]; simp; omega) hlt'
        have hidx : ['-', '-', '>'].getD k '\x00' = '-' := by
          interval_cases k <;> rfl
        conv_lhs => unfold HandleCommentLoop
        simp only [XMLEventReader.get, IStream.get, XMLEventReader.setStream, List.cons_append,
          Bool.false_eq_true, if_false, hidx, if_true, show k + 1 < 3 by omega]
        rw [ih']
        have hrep2 : List.replicate (k + 1) '-' ++ s = List.replicate k '-' ++ '-' :: s := by
          rw [List.replicate_succ', List.append_assoc]; rfl
        simp [hrep2]
      · -- the third hyphen in a row: the two held back and this one join the body
        have hk2' : k = 2 := by omega
        subst hk2'
        have h3 : firstOccurrence ['-', '-', '>'] (s ++ ['-', '-', '>']) = some s.length := by
          apply firstOccurrence_drop (List.replicate 2 '-' ++ ['-'])
          have e1 : (List.replicate 2 '-' ++ ['-']) ++ (s ++ ['-', '-', '>']) =
              List.replicate 2 '-' ++ ('-' :: s ++ ['-', '-', '>']) := by simp
          have e2 : (List.replicate 2 '-' ++ ['-']).length + s.length = 2 + ('-' :: s).length := by
            simp; omega
          rw [e1, e2]
          exact hfirst
        have ih' := ih 0 m (pData ++ ['-', '-', '-']) ('-' :: b) rest hn hp q dir d rd
          (by omega) (fun _ => rfl) hlast' (by simpa using h3) hlt'
        conv_lhs => unfold HandleCommentLoop
        simp only [XMLEventReader.get, IStream.get, XMLEventReader.setStream, List.cons_append,
          Bool.false_eq_true, if_false, List.getD_cons_succ, List.getD_cons_zero,
          (by decide : ¬ ('-' = '>')), show (2 : Nat) > 0 by omega, if_true, List.take]
        simp only [List.append_assoc, List.cons_append, List.nil_append] at ih' ⊢
        rw [ih']
        simp [List.replicate]
    · -- a byte other than a hyphen: what was held back and this byte join the body
      have hfirst' : firstOccurrence ['-', '-', '>'] (s ++ ['-', '-', '>']) = some s.length := by
        apply firstOccurrence_drop (List.replicate k '-' ++ [c])
        have e1 : (List.replicate k '-' ++ [c]) ++ (s ++ ['-', '-', '>']) =
            List.replicate k '-' ++ (c :: s ++ ['-', '-', '>']) := by simp
        have e2 : (List.replicate k '-' ++ [c]).length + s.length = k + (c :: s).length := by
          simp; omega
        rw [e1, e2]
        exact hfirst
      have ih' := fun pData' => ih 0 m pData' (c :: b) rest hn hp q dir d rd (by omega)
        (fun _ => rfl) hlast' (by simpa using hfirst') hlt'
      have hkc : ¬ (c = ['-', '-', '>'].getD k '\x00') := by
        rcases Nat.lt_or_ge k 2 with hk2 | hk2
        · have : ['-', '-', '>'].getD k '\x00' = '-' := by interval_cases k <;> rfl
          rw [this]; exact hc
        · have hk2' : k = 2 := by omega
          subst hk2'
          intro hcz
          have hcg : c = '>' := hcz
          subst hcg
          exact absurd hfirst (by
            simp [firstOccurrence, List.replicate, List.isPrefixOf]
            omega)
      conv_lhs => unfold HandleCommentLoop
      simp only [XMLEventReader.get, IStream.get, XMLEventReader.setStream, List.cons_append,
        Bool.false_eq_true, if_false, hkc]
      by_cases hkp : k > 0
      · have htake : List.take k ['-', '-', '>'] = List.replicate k '-' := by
          interval_cases k <;> rfl
        rw [if_pos hkp, htake, ih']
        simp
      · have hk0'' : k = 0 := by omega
        subst hk0''
        rw [if_neg hkp, ih']
        simp

/-- Forward `hasNext` in front of a comment whose body does not end in a hyphen and
holds no `-->` in front of the one that ends the comment. -/
theorem hasNext_comment_body {body : Str} (hlast : body.getLast? ≠ some '-')
    (hfirst : firstOccurrence ['-', '-', '>'] (body ++ ['-', '-', '>']) = some body.length)
    (b rest : Str) (d rd : List (Str × Str)) :
    hasNext ⟨⟨b, '<' :: '!' :: '-' :: '-' :: (body ++ '-' :: '-' :: '>' :: rest), false⟩,
        false, false, [], true, d, rd⟩ =
      .ok true ⟨⟨'>' :: '-' :: '-' :: (body.reverse ++ '-' :: '-' :: '!' :: '<' :: b), rest,
          false⟩, true, false, [XMLEvent.ofComment ⟨body⟩], true, d, rd⟩ := by
  have := HandleCommentLoop_scan body 0 ((body ++ '-' :: '-' :: '>' :: rest).length + 1) []
    ('-' :: '-' :: '!' :: '<' :: b) rest true false [] true d rd (by omega) (fun _ => rfl)
    hlast (by simpa using hfirst) (by simp)
  rw [hasNext_step, if_pos rfl]
  simp only [HandleTag, HandleMarkupDeclaration, HandleComment, XMLEventReader.get, IStream.get,
    XMLEventReader.setStream, Bool.false_eq_true, if_false, (by decide : ¬ ('!' = '?')),
    (by decide : ¬ ('!' = '/')), if_true, ne_eq, not_true_eq_false, XMLEventReader.budget]
  simpa using this

/-- C19. For every comment body that does not end in a hyphen and is such that the first
`-->` in the body followed by `-->` stands behind the whole body, forward `hasNext` on
`<!--`, the body and `-->`, whatever follows, queues exactly the event `Comment` with
the body as its text, every `-` and `--` of the body in it, and leaves the get position
just behind the `-->`. On `<!-- c --><r>t</r>` a full forward traversal hands out
`Comment(" c ")`, `StartElement(r)`, `Characters("t")`, `EndElement(r)`. A body that ends
in a hyphen is read otherwise: on `<!--a--->`, whose body `a-` holds no `-->` early,
`hasNext` throws, and with more bytes behind it the comment runs on to a later `-->`. -/
theorem forward_comment_keeps_body (body : Str) (hlast : body.getLast? ≠ some '-')
    (hfirst : firstOccurrence ['-', '-', '>'] (body ++ ['-', '-', '>']) = some body.length)
    (b rest : Str) (d rd : List (Str × Str)) :
    hasNext ⟨⟨b, '<' :: '!' :: '-' :: '-' :: (body ++ '-' :: '-' :: '>' :: rest), false⟩,
        false, false, [], true, d, rd⟩ =
      .ok true ⟨⟨'>' :: '-' :: '-' :: (body.reverse ++ '-' :: '-' :: '!' :: '<' :: b), rest,
          false⟩, true, false, [XMLEvent.ofComment ⟨body⟩], true, d, rd⟩ ∧
    forwardTraversal (XMLEventReader.new (IStream.ofData "<!-- c --><r>t</r>".toList)) =
      .ok [XMLEvent.ofComment ⟨" c ".toList⟩,
          XMLEvent.ofStartElement ⟨QName.mk [] ['r'] [], []⟩,
          XMLEvent.ofCharacters ⟨['t'], false⟩,
          XMLEvent.ofEndElement ⟨QName.mk [] ['r'] []⟩]
        { XMLEventReader.new ⟨"<!-- c --><r>t</r>".toList.reverse, [], true⟩ with
          m_bHasNextCalled := true } ∧
    firstOccurrence ['-', '-', '>'] ("a-".toList ++ ['-', '-', '>']) = some "a-".toList.length ∧
    hasNext (XMLEventReader.new (IStream.ofData "<!--a--->".toList)) =
      .throw (.runtime_error "Comment incomplete.")
        { XMLEventReader.new ⟨"<!--a--->".toList.reverse, [], true⟩ with
          m_bHasNextCalled := true } ∧
    hasNext (XMLEventReader.new (IStream.ofData "<!--a---><r/>-->".toList)) =
      .ok true { XMLEventReader.new ⟨"<!--a---><r/>-->".toList.reverse, [], false⟩ with
        m_bHasNextCalled := true
        m_aEvents := [XMLEvent.ofComment ⟨"a---><r/>".toList⟩] } :=
  ⟨hasNext_comment_body hlast hfirst b rest d rd, by decide, by decide, by decide, by decide⟩

/-- The comment `<!--a--b-c-->` in front of `<r/>`: the hyphens of the body stay. -/
theorem forward_comment_keeps_body_witness :
    hasNext ⟨⟨[], "<!--a--b-c--><r/>".toList, false⟩, false, false, [], true, [], []⟩ =
      .ok true ⟨⟨"<!--a--b-c-->".toList.reverse, "<r/>".toList, false⟩, true, false,
        [XMLEvent.ofComment ⟨"a--b-c".toList⟩], true, [], []⟩ :=
  (forward_comment_keeps_body "a--b-c".toList (by decide) (by decide) [] "<r/>".toList
    [] []).1

/-! ## The XML declaration -/

theorem get_after_length {r r1 : XMLEventReader} {o : Option Char} (h : r.get = (o, r1)) :
    r1.m_aStream.after.length ≤ r.m_aStream.after.length ∧
      (o ≠ none → r1.m_aStream.after.length + 1 = r.m_aStream.after.length) := by
  obtain ⟨⟨b, a, e⟩, hn, hp, q, d, m1, m2⟩ := r
  simp only [XMLEventReader.get, IStream.get, XMLEventReader.setStream] at h
  cases e
  · cases a with
    | nil =>
      simp only [Bool.false_eq_true, if_false, Prod.mk.injEq] at h
      obtain ⟨rfl, rfl⟩ := h
      simp
    | cons c a =>
      simp only [Bool.false_eq_true, if_false, Prod.mk.injEq] at h
      obtain ⟨rfl, rfl⟩ := h
      simp
  · simp only [if_true, Prod.mk.injEq] at h
    obtain ⟨rfl, rfl⟩ := h
    simp

theorem after_HandleProcessingInstructionTargetLoop : ∀ (n m : Nat) (p : Option Str)
    (r : XMLEventReader) (a : Option Str) (r' : XMLEventReader),
    HandleProcessingInstructionTargetLoop n m p r = .ok a r' →
      r'.m_aStream.after.length ≤ r.m_aStream.after.length := by
  intro n
  induction n with
  | zero => intro m p r a r' h; simp [HandleProcessingInstructionTargetLoop] at h
  | succ n ih =>
    intro m p r a r' h
    unfold HandleProcessingInstructionTargetLoop at h
    split at h
    · split at h
      · simp [malformed] at h
      · rename_i c r1 hg
        have hle := (get_after_length hg).1
        split at h
        · exact Nat.le_trans (ih _ _ _ _ _ h) hle
        · split at h
          · simp [malformed] at h
          · split at h
            · split at h
              · simp [malformed] at h
              · cases h; exact hle
            · split at h
              · simp [malformed] at h
              · split at h
                · split at h
                  · simp [malformed] at h
                  · exact Nat.le_trans (ih _ _ _ _ _ h) hle
                · exact Nat.le_trans (ih _ _ _ _ _ h) hle
    · cases h; exact Nat.le_refl _

theorem after_HandleXmlDeclarationLoop : ∀ (n m : Nat) (r : XMLEventReader) (a : Bool)
    (r' : XMLEventReader), HandleXmlDeclarationLoop n m r = .ok a r' →
      r'.m_aStream.after.length ≤ r.m_aStream.after.length := by
  intro n
  induction n with
  | zero => intro m r a r' h; simp [HandleXmlDeclarationLoop] at h
  | succ n ih =>
    intro m r a r' h
    unfold HandleXmlDeclarationLoop at h
    split at h
    · split at h
      · simp [malformed] at h
      · rename_i c r1 hg
        have hle := (get_after_length hg).1
        split at h
        · exact Nat.le_trans (ih _ _ _ _ h) hle
        · split at h
          · cases h; exact hle
          · exact Nat.le_trans (ih _ _ _ _ h) hle
    · cases h; exact Nat.le_refl _

theorem after_HandleProcessingInstructionLoop : ∀ (n m : Nat) (t dd : Str)
    (r : XMLEventReader) (a : Bool) (r' : XMLEventReader),
    HandleProcessingInstructionLoop n m t dd r = .ok a r' →
      r'.m_aStream.after.length ≤ r.m_aStream.after.length := by
  intro n
  induction n with
  | zero => intro m t dd r a r' h; simp [HandleProcessingInstructionLoop] at h
  | succ n ih =>
    intro m t dd r a r' h
    unfold HandleProcessingInstructionLoop at h
    split at h
    · split at h
      · simp [malformed] at h
      · rename_i c r1 hg
        have hle := (get_after_length hg).1
        split at h
        · exact Nat.le_trans (ih _ _ _ _ _ _ h) hle
        · split at h
          · cases h; exact hle
          · exact Nat.le_trans (ih _ _ _ _ _ _ h) hle
    · cases h; exact Nat.le_refl _

theorem after_HandleProcessingInstruction {r : XMLEventReader} {a : Bool}
    {r' : XMLEventReader} (h : HandleProcessingInstruction r = .ok a r') :
    r'.m_aStream.after.length ≤ r.m_aStream.after.length := by
  unfold HandleProcessingInstruction at h
  obtain ⟨t, r1, h1, h2⟩ := bind_eq_ok h
  have hle := after_HandleProcessingInstructionTargetLoop _ _ _ _ _ _ h1
  split at h2
  · simp [malformed] at h2
  · split at h2
    · exact Nat.le_trans (after_HandleXmlDeclarationLoop _ _ _ _ _ h2) hle
    · exact Nat.le_trans (after_HandleProcessingInstructionLoop _ _ _ _ _ _ _ h2) hle

/-- `HandleTag` gives the same with two continuations that agree on every reader with no
more bytes left to read. -/
theorem HandleTag_congr {K K' : XMLEventReader → Result Bool} {r : XMLEventReader}
    (h : ∀ r2 : XMLEventReader, r2.m_aStream.after.length ≤ r.m_aStream.after.length →
      K r2 = K' r2) :
    HandleTag K r = HandleTag K' r := by
  unfold HandleTag
  cases hg : r.get with
  | mk o r1 =>
    have hle := (get_after_length hg).1
    cases o with
    | none => rfl
    | some c =>
      simp only
      by_cases hc : c = '?'
      · rw [if_pos hc, if_pos hc]
        cases hpi : HandleProcessingInstruction r1 with
        | ok bResult r2 =>
          have hle2 := after_HandleProcessingInstruction hpi
          simp only [Result.bind]
          cases bResult
          · simp only [Bool.false_eq_true, if_false]
            exact h _ (Nat.le_trans hle2 hle)
          · rfl
        | throw e r2 => rfl
        | exhausted => rfl
      · rw [if_neg hc, if_neg hc]

/-- The result of `hasNext` does not depend on the budget for the calls of `hasNext()`
from `HandleTag`, once that is more than the bytes left to read. -/
theorem hasNextFuel_budget : ∀ (n m : Nat) (r : XMLEventReader),
    r.m_aStream.after.length < n → r.m_aStream.after.length < m →
      hasNextFuel n r = hasNextFuel m r := by
  intro n
  induction n with
  | zero => intro m r h; omega
  | succ n ih =>
    intro m r hn hm
    cases m with
    | zero => omega
    | succ m =>
      have hs : r.turnForward.m_aStream = r.m_aStream := (turnForward_frame r).2.2.2.2.2
      simp only [hasNextFuel]
      split
      · rfl
      · split
        · rfl
        · cases hg : ({ r.turnForward with m_bHasNextCalled := true } : XMLEventReader).get with
          | mk o r1 =>
            cases o with
            | none => rfl
            | some c =>
              simp only
              have hlen := (get_after_length hg).2 (by simp)
              simp only [hs] at hlen
              by_cases hc : c = '<'
              · rw [if_pos hc, if_pos hc]
                apply HandleTag_congr
                intro r2 hr2
                exact ih m r2 (by omega) (by omega)
              · rw [if_neg hc, if_neg hc]

theorem HandleXmlDeclarationLoop_body (s : Str) (hs : ∀ c ∈ s, c ≠ '>') :
    ∀ (n k : Nat) (b rest : Str) (hn hp : Bool) (q : List XMLEvent) (dir : Bool)
      (d rd : List (Str × Str)), k ≤ 1 → s.length < n →
      HandleXmlDeclarationLoop n k ⟨⟨b, s ++ '>' :: rest, false⟩, hn, hp, q, dir, d, rd⟩ =
        .ok false ⟨⟨'>' :: (s.reverse ++ b), rest, false⟩, hn, hp, q, dir, d, rd⟩ := by
  induction s with
  | nil =>
    intro n k b rest hn hp q dir d rd hk hlt
    match n, hlt with
    | n + 1, _ =>
      have h1 : k < 2 := by omega
      by_cases hk0 : k ≤ 0
      · simp [HandleXmlDeclarationLoop, XMLEventReader.get, IStream.get,
          XMLEventReader.setStream, h1, hk]
      · simp [HandleXmlDeclarationLoop, XMLEventReader.get, IStream.get,
          XMLEventReader.setStream, h1, hk]
  | cons c s ih =>
    intro n k b rest hn hp q dir d rd hk hlt
    have hc := hs c (by simp)
    match n, hlt with
    | n + 1, hlt =>
      have h1 : k < 2 := by omega
      have ih0 := ih (fun x hx => hs x (by simp [hx])) n k (c :: b) rest hn hp q dir d rd hk
        (by simp at hlt ⊢; omega)
      have ih1 := ih (fun x hx => hs x (by simp [hx])) n (k + 1) (c :: b) rest hn hp q dir d rd
      conv_lhs => unfold HandleXmlDeclarationLoop
      simp only [XMLEventReader.get, IStream.get, XMLEventReader.setStream, List.cons_append,
        Bool.false_eq_true, if_false, h1, if_true, hc, false_and]
      by_cases hq : c = '?' ∧ k ≤ 0
      · rw [if_pos hq, ih1 (by omega) (by simp at hlt ⊢; omega)]
        simp
      · rw [if_neg hq, ih0]
        simp

theorem HandleProcessingInstructionTarget_space {t0 : Char} (h0 : isalpha t0 = true)
    (ts : Str) (hts : ∀ x ∈ ts, x ≠ '?' ∧ x ≠ '>' ∧ isspace x = false) {w : Char}
    (hw : isspace w = true) (b rest : Str)
    (hn hp : Bool) (q : List XMLEvent) (dir : Bool) (d rd : List (Str × Str)) :
    HandleProcessingInstructionTarget
        ⟨⟨b, t0 :: (ts ++ w :: rest), false⟩, hn, hp, q, dir, d, rd⟩ =
      .ok (some (t0 :: ts))
        ⟨⟨w :: (ts.reverse ++ t0 :: b), rest, false⟩, hn, hp, q, dir, d, rd⟩ := by
  obtain ⟨h1, h2, h3, -, -, -, -, -, h9, -⟩ := isalnum_not_special (isalpha_isalnum h0)
  have hw1 : w ≠ '?' := by rintro rfl; revert hw; decide
  have hw2 : w ≠ '>' := by rintro rfl; revert hw; decide
  have e := HandleProcessingInstructionTargetLoop_skip ts hts (rest.length + 2) [t0] (t0 :: b)
    (w :: rest) hn hp q dir d rd
  simp only [HandleProcessingInstructionTarget, XMLEventReader.budget, List.length_cons,
    List.length_append]
  rw [show ts.length + (rest.length + 1) + 1 + 1 = (rest.length + 2 + ts.length) + 1 by omega]
  conv_lhs => unfold HandleProcessingInstructionTargetLoop
  simp only [XMLEventReader.get, IStream.get, XMLEventReader.setStream,
    Bool.false_eq_true, if_false, h9, h3, h1, false_and, h0, ne_eq, not_true_eq_false,
    (by decide : (0 : Nat) < 2), if_true, (by decide : ¬ ((0 : Nat) > 0))]
  rw [e]
  simp [HandleProcessingInstructionTargetLoop, XMLEventReader.get, IStream.get,
    XMLEventReader.setStream, hw, hw1, hw2]

theorem isXmlTarget_split {pTarget : Str} (h : isXmlTarget pTarget = true) :
    ∃ t0 t1 t2, pTarget = [t0, t1, t2] ∧ isalpha t0 = true ∧
      ∀ x ∈ [t1, t2], x ≠ '?' ∧ x ≠ '>' ∧ isspace x = false := by
  match pTarget, h with
  | [t0, t1, t2], h =>
    simp only [isXmlTarget, Bool.and_eq_true, Bool.or_eq_true, decide_eq_true_eq] at h
    refine ⟨t0, t1, t2, rfl, ?_, ?_⟩
    · rcases h.1.1 with rfl | rfl <;> decide
    · intro x hx
      simp only [List.mem_cons, List.mem_singleton, List.not_mem_nil, or_false] at hx
      rcases hx with rfl | rfl
      · rcases h.1.2 with rfl | rfl <;> decide
      · rcases h.2 with rfl | rfl <;> decide

/-- C20, counterexample. On `<?xml?>`, a declaration with an empty body and nothing behind
it, forward `hasNext` does not return false: it throws, because no whitespace ends the
target. -/
theorem xml_declaration_without_space_throws :
    hasNext (XMLEventReader.new (IStream.ofData "<?xml?>".toList)) =
      .throw (.runtime_error
          "Processing instruction ended before processing instruction target name could be read.")
        { XMLEventReader.new ⟨"<?xml?>".toList.reverse, [], false⟩ with
          m_bHasNextCalled := true } := by
  decide

/-- C20, amended. For every target spelled with `x`/`X`, `m`/`M`, `l`/`L` and every
declaration body that begins with a whitespace byte and holds no `>`, forward `hasNext`
on `<?xml`, the body and `?>`, with `rest` behind it, gives the result, the queue and
the reader that `hasNext` gives with the get position at the start of `rest`: no
`ProcessingInstruction` is queued for the declaration. It returns false when `rest` is
empty. On `<?xml version="1.0"?><r/>` a full forward traversal hands out exactly
`StartElement(r)`, `EndElement(r)`. -/
theorem xml_declaration_is_skipped (pTarget : Str) (w : Char) (body b rest : Str)
    (d rd : List (Str × Str)) (ht : isXmlTarget pTarget = true) (hw : isspace w = true)
    (hbody : ∀ c ∈ body, c ≠ '>') :
    hasNext ⟨⟨b, '<' :: '?' :: (pTarget ++ w :: (body ++ '?' :: '>' :: rest)), false⟩,
        false, false, [], true, d, rd⟩ =
      hasNext ⟨⟨('<' :: '?' :: (pTarget ++ w :: (body ++ ['?', '>']))).reverse ++ b, rest,
        false⟩, false, false, [], true, d, rd⟩ ∧
    (rest = [] →
      hasNext ⟨⟨b, '<' :: '?' :: (pTarget ++ w :: (body ++ '?' :: '>' :: rest)), false⟩,
          false, false, [], true, d, rd⟩ =
        .ok false ⟨⟨('<' :: '?' :: (pTarget ++ w :: (body ++ ['?', '>']))).reverse ++ b, [],
          true⟩, true, false, [], true, d, rd⟩) ∧
    forwardTraversal
        (XMLEventReader.new (IStream.ofData "<?xml version=\"1.0\"?><r/>".toList)) =
      .ok [XMLEvent.ofStartElement ⟨QName.mk [] ['r'] [], []⟩,
          XMLEvent.ofEndElement ⟨QName.mk [] ['r'] []⟩]
        { XMLEventReader.new ⟨"<?xml version=\"1.0\"?><r/>".toList.reverse, [], true⟩ with
          m_bHasNextCalled := true } := by
  obtain ⟨t0, t1, t2, rfl, h0, hts⟩ := isXmlTarget_split ht
  have e1 := HandleProcessingInstructionTarget_space h0 [t1, t2] hts hw ('?' :: '<' :: b)
    (body ++ '?' :: '>' :: rest) true false [] true d rd
  have e2 := HandleXmlDeclarationLoop_body (body ++ ['?']) (by
      intro c hc
      rcases List.mem_append.mp hc with hc | hc
      · exact hbody c hc
      · rw [List.mem_singleton] at hc; subst hc; decide)
    ((body ++ '?' :: '>' :: rest).length + 1) 0 (w :: t2 :: t1 :: t0 :: '?' :: '<' :: b) rest
    true false [] true d rd (by omega) (by simp)
  have main : hasNext ⟨⟨b, '<' :: '?' :: ([t0, t1, t2] ++ w :: (body ++ '?' :: '>' :: rest)),
        false⟩, false, false, [], true, d, rd⟩ =
      hasNext ⟨⟨('<' :: '?' :: ([t0, t1, t2] ++ w :: (body ++ ['?', '>']))).reverse ++ b, rest,
        false⟩, false, false, [], true, d, rd⟩ := by
    rw [hasNext_step, if_pos rfl]
    simp only [HandleTag, XMLEventReader.get, IStream.get, XMLEventReader.setStream,
      Bool.false_eq_true, if_false, if_true, HandleProcessingInstruction, List.cons_append,
      List.nil_append]
    simp only [List.cons_append, List.nil_append, List.reverse_cons, List.reverse_nil,
      List.append_assoc, List.singleton_append] at e1 e2
    rw [e1, bind_ok]
    simp only [ht, if_true, XMLEventReader.budget]
    rw [e2, bind_ok]
    simp only [Bool.false_eq_true, if_false]
    rw [hasNextFuel_budget _ (rest.length + 1) _ (by simp; omega) (by simp)]
    simp [hasNext, XMLEventReader.budget]
  refine ⟨main, ?_, by decide⟩
  rintro rfl
  rw [main]
  simp [hasNext, XMLEventReader.budget, hasNextFuel, XMLEventReader.turnForward,
    XMLEventReader.get, IStream.get, XMLEventReader.setStream]

/-- The declaration `<?XML version="1.0" ?>` in front of `<r/>`. -/
theorem xml_declaration_is_skipped_witness :
    hasNext ⟨⟨[], "<?XML version=\"1.0\" ?><r/>".toList, false⟩, false, false, [], true,
        [], []⟩ =
      hasNext ⟨⟨"<?XML version=\"1.0\" ?>".toList.reverse, "<r/>".toList, false⟩, false,
        false, [], true, [], []⟩ :=
  (xml_declaration_is_skipped "XML".toList ' ' "version=\"1.0\" ".toList [] "<r/>".toList
    [] [] (by decide) (by decide) (by decide)).1

/-! ## Attributes behind any whitespace and with entity references, backwards -/

theorem ConsumeRWhitespaceLoop_run {y : Char} (hy : isspace y = false) :
    ∀ (s : Str), (∀ c ∈ s, isspace c = true) → ∀ (n : Nat), s.length < n →
      ∀ (b a : Str) (hn hp : Bool) (q : List XMLEvent) (dir : Bool) (d rd : List (Str × Str)),
        ConsumeRWhitespaceLoop n ⟨⟨s ++ y :: b, a, false⟩, hn, hp, q, dir, d, rd⟩ =
          .ok y ⟨⟨b, y :: (s.reverse ++ a), false⟩, hn, hp, q, dir, d, rd⟩ := by
  intro s
  induction s with
  | nil =>
    intro _ n hlt b a hn hp q dir d rd
    match n, hlt with
    | n + 1, _ =>
      simp [ConsumeRWhitespaceLoop, XMLEventReader.rget, IStream.rget,
        XMLEventReader.setStream, hy]
  | cons c s ih =>
    intro hs n hlt b a hn hp q dir d rd
    match n, hlt with
    | n + 1, hlt =>
      have hc := hs c (by simp)
      have ih' := ih (fun x hx => hs x (by simp [hx])) n (by simp at hlt; omega) b (c :: a)
        hn hp q dir d rd
      simp only [ConsumeRWhitespaceLoop, XMLEventReader.rget, IStream.rget,
        XMLEventReader.setStream, List.cons_append, Bool.false_eq_true, if_false, hc]
      rw [ih']
      simp

theorem ConsumeRWhitespace_run {y : Char} (hy : isspace y = false) (s : Str)
    (hs : ∀ c ∈ s, isspace c = true) (b a : Str) (hn hp : Bool) (q : List XMLEvent)
    (dir : Bool) (d rd : List (Str × Str)) :
    ConsumeRWhitespace ⟨⟨s ++ y :: b, a, false⟩, hn, hp, q, dir, d, rd⟩ =
      .ok y ⟨⟨b, y :: (s.reverse ++ a), false⟩, hn, hp, q, dir, d, rd⟩ :=
  ConsumeRWhitespaceLoop_run hy s hs _ (by simp [XMLEventReader.rbudget]; omega) b a hn hp q
    dir d rd

theorem HandleRAttributeNameNext_finish_local_run (m : Nat) (loc : Str) (c : Char)
    (hc : isalnum c = true ∨ c = '_') {w : Char} (hw : isspace w = true) (s : Str)
    (hs : ∀ c ∈ s, isspace c = true) {y : Char} (hy : isspace y = false) (hy0 : y ≠ '\x00')
    (b a : Str) (hn hp : Bool) (q : List XMLEvent) (dir : Bool) (d rd : List (Str × Str)) :
    HandleRAttributeNameNext (m + 1) none (loc ++ [c])
        ⟨⟨w :: (s ++ y :: b), a, false⟩, hn, hp, q, dir, d, rd⟩ =
      .ok (QName.mk [] (c :: loc.reverse) [])
        ⟨⟨y :: b, s.reverse ++ w :: a, false⟩, hn, hp, q, dir, d, rd⟩ := by
  have hc' : ¬(isalnum c ≠ true ∧ c ≠ '_') := by
    rcases hc with h | h <;> simp [h]
  simp only [HandleRAttributeNameNext, HandleRAttributeNameLoop, XMLEventReader.rget,
    IStream.rget, XMLEventReader.setStream, Bool.false_eq_true, if_false, hw, if_true]
  rw [ConsumeRWhitespace_run hy s hs, bind_ok]
  simp only [hy0, if_false, List.getLastD_concat, hc']
  simp [XMLEventReader.runget, IStream.runget, XMLEventReader.setStream]

theorem HandleRAttributeNameNext_finish_prefix_run (m : Nat) (loc : Str) (c : Char)
    (hc : isalnum c = true ∨ c = '_') (p : Str) (c0 : Char)
    (hc0 : isalnum c0 = true ∨ c0 = '_') {w : Char} (hw : isspace w = true) (s : Str)
    (hs : ∀ c ∈ s, isspace c = true) {y : Char} (hy : isspace y = false)
    (hy0 : y ≠ '\x00') (b a : Str) (hn hp : Bool) (q : List XMLEvent) (dir : Bool)
    (d rd : List (Str × Str)) :
    HandleRAttributeNameNext (m + 1) (some (p ++ [c0])) (loc ++ [c])
        ⟨⟨w :: (s ++ y :: b), a, false⟩, hn, hp, q, dir, d, rd⟩ =
      .ok (QName.mk [] (c :: loc.reverse) (c0 :: p.reverse))
        ⟨⟨y :: b, s.reverse ++ w :: a, false⟩, hn, hp, q, dir, d, rd⟩ := by
  have hc' : ¬(isalnum c ≠ true ∧ c ≠ '_') := by
    rcases hc with h | h <;> simp [h]
  have hc0' : ¬((p ++ [c0]).reverse.length > 0 ∧ isalnum ((p ++ [c0]).reverse.headD '\x00') ≠ true ∧
      (p ++ [c0]).reverse.headD '\x00' ≠ '_') := by
    rcases hc0 with h | h <;> simp [h]
  simp only [HandleRAttributeNameNext, HandleRAttributeNameLoop, XMLEventReader.rget,
    IStream.rget, XMLEventReader.setStream, Bool.false_eq_true, if_false, hw, if_true]
  rw [ConsumeRWhitespace_run hy s hs, bind_ok]
  simp only [hy0, if_false, List.getLastD_concat, hc0', hc']
  simp [XMLEventReader.runget, IStream.runget, XMLEventReader.setStream]

theorem isSpaceRun_split {s : Str} (h : isSpaceRun s = true) :
    ∃ w t, s.reverse = w :: t ∧ isspace w = true ∧ ∀ c ∈ t, isspace c = true := by
  simp only [isSpaceRun, Bool.and_eq_true, Bool.not_eq_true', List.isEmpty_eq_false,
    List.all_eq_true] at h
  obtain ⟨hne, hall⟩ := h
  cases hr : s.reverse with
  | nil => simp at hr; exact absurd hr (by simpa using hne)
  | cons w t =>
    refine ⟨w, t, rfl, hall w ?_, fun c hc => hall c ?_⟩
    · exact List.mem_reverse.mp (by rw [hr]; simp)
    · exact List.mem_reverse.mp (by rw [hr]; simp [hc])

/-- Backward `HandleRAttributeName` over a reversible attribute name behind a run of
whitespace: the name `qnameOf` gives, with the get position in front of the run. -/
theorem HandleRAttributeName_run {n : Str} (h : reversibleAttributeName n = true) {space : Str}
    (hspace : isSpaceRun space = true) {y : Char}
    (hy : isspace y = false) (hy0 : y ≠ '\x00') (b a : Str)
    (hn hp : Bool) (q : List XMLEvent) (dir : Bool) (d rd : List (Str × Str)) :
    HandleRAttributeName
        ⟨⟨n.reverse ++ (space.reverse ++ y :: b), a, false⟩, hn, hp, q, dir, d, rd⟩ =
      .ok (qnameOf n) ⟨⟨y :: b, space ++ (n ++ a), false⟩, hn, hp, q, dir, d, rd⟩ := by
  obtain ⟨w, s, hsr, hw, hs⟩ := isSpaceRun_split hspace
  have hsp : space = s.reverse ++ [w] := by
    have := congrArg List.reverse hsr
    simpa using this
  rw [hsr, hsp]
  obtain ⟨hv, hsplit⟩ := reversibleAttributeName_split h
  have hhead : ∃ cl r1, n.reverse ++ (w :: s ++ y :: b) = cl :: r1 ∧ isNameByte cl = true := by
    rcases hsplit with ⟨c0, cs, rfl, h0, hall⟩ | ⟨c0, pre, c1, l, rfl, h0, hpre, hc1, hl⟩
    · cases hr : cs.reverse with
      | nil => exact ⟨c0, w :: (s ++ y :: b), by simp [hr], attributeStart_isNameByte h0⟩
      | cons cl r1 =>
        refine ⟨cl, r1 ++ c0 :: w :: (s ++ y :: b), by simp [hr], hall cl ?_⟩
        have : cl ∈ cs.reverse := by rw [hr]; simp
        exact List.mem_reverse.mp this
    · cases hr : l.reverse with
      | nil =>
        exact ⟨c1, ':' :: (pre.reverse ++ c0 :: w :: (s ++ y :: b)), by simp [hr],
          attributeStart_isNameByte hc1⟩
      | cons cl r1 =>
        refine ⟨cl, r1 ++ c1 :: ':' :: (pre.reverse ++ c0 :: w :: (s ++ y :: b)), by simp [hr],
          hl cl ?_⟩
        have : cl ∈ l.reverse := by rw [hr]; simp
        exact List.mem_reverse.mp this
  rw [HandleRAttributeName_eq_next _ hhead]
  rcases hsplit with ⟨c0, cs, rfl, h0, hall⟩ | ⟨c0, pre, c1, l, rfl, h0, hpre, hc1, hl⟩
  · have hall' : ∀ y ∈ c0 :: cs, isNameByte y = true := by
      intro y hy
      rcases List.mem_cons.mp hy with rfl | hy
      · exact attributeStart_isNameByte h0
      · exact hall y hy
    have hrev : ∀ y ∈ cs.reverse, isNameByte y = true :=
      fun y hy => hall y (List.mem_reverse.mp hy)
    rw [show ((c0 :: cs).reverse ++ (w :: s ++ y :: b)).length + a.length + 1 =
      ((s.length + b.length + a.length + 2) + 1 + 1) + cs.reverse.length by simp; omega]
    rw [show (c0 :: cs).reverse ++ (w :: s ++ y :: b) = cs.reverse ++ (c0 :: w :: (s ++ y :: b))
      by simp]
    rw [HandleRAttributeNameNext_skip_local _ hrev]
    rw [show ((s.length + b.length + a.length + 2) + 1 + 1) =
      ((s.length + b.length + a.length + 2) + 1) + [c0].length from rfl]
    rw [show c0 :: w :: (s ++ y :: b) = [c0] ++ (w :: (s ++ y :: b)) from rfl]
    rw [HandleRAttributeNameNext_skip_local [c0] (by simpa using attributeStart_isNameByte h0)]
    rw [List.nil_append, HandleRAttributeNameNext_finish_local_run _ _ _ h0 hw s hs hy hy0,
      qnameOf_plain hall']
    simp
  · have hP : ∀ y ∈ (c0 :: pre).reverse, isNameByte y = true := by
      intro y hy
      rcases List.mem_cons.mp (List.mem_reverse.mp hy) with rfl | hy
      · exact attributeStart_isNameByte h0
      · exact hpre y hy
    have hL : ∀ y ∈ (c1 :: l).reverse, isNameByte y = true := by
      intro y hy
      rcases List.mem_cons.mp (List.mem_reverse.mp hy) with rfl | hy
      · exact attributeStart_isNameByte hc1
      · exact hl y hy
    have hq := @qnameOf_colon (c0 :: pre) (c1 :: l) (by
      intro y hy
      rcases List.mem_cons.mp hy with rfl | hy
      · exact attributeStart_isNameByte h0
      · exact hpre y hy)
    rw [show (((c0 :: pre) ++ ':' :: (c1 :: l)).reverse ++ (w :: s ++ y :: b)).length +
        a.length + 1 =
      ((((s.length + b.length + a.length + 2) + 1) + (c0 :: pre).reverse.length) + 1) +
        (c1 :: l).reverse.length by simp; omega]
    rw [show ((c0 :: pre) ++ ':' :: (c1 :: l)).reverse ++ (w :: s ++ y :: b) =
      (c1 :: l).reverse ++ (':' :: ((c0 :: pre).reverse ++ (w :: (s ++ y :: b)))) by simp]
    rw [HandleRAttributeNameNext_skip_local _ hL, HandleRAttributeNameNext_colon,
      HandleRAttributeNameNext_skip_prefix _ hP]
    rw [show [] ++ (c1 :: l).reverse = l.reverse ++ [c1] by simp,
      show [] ++ (c0 :: pre).reverse = pre.reverse ++ [c0] by simp,
      HandleRAttributeNameNext_finish_prefix_run _ _ _ hc1 _ _ h0 hw s hs hy hy0, hq]
    simp

theorem Piece.reversible_byte {d rd : List (Str × Str)} {cDelimiter c : Char}
    (h : (Piece.byte c).reversible d rd cDelimiter = true) :
    c ≠ '&' ∧ c ≠ ';' ∧ (cDelimiter = '\x00' → c ≠ '>') ∧
      (cDelimiter ≠ '\x00' → c ≠ cDelimiter) := by
  simp only [Piece.reversible, Bool.and_eq_true, decide_eq_true_eq] at h
  obtain ⟨⟨h1, h2⟩, h3⟩ := h
  refine ⟨h1, h2, fun h0 => ?_, fun h0 => ?_⟩
  · simpa [h0] using h3
  · simpa [h0] using h3

theorem Piece.reversible_name {d rd : List (Str × Str)} {cDelimiter : Char} {strName : Str}
    (h : (Piece.reference strName).reversible d rd cDelimiter = true) :
    strName ≠ [] ∧
      (∀ c ∈ strName.reverse,
        c ≠ '&' ∧ ¬ (cDelimiter ≠ '\x00' ∧ c = cDelimiter) ∧ c ≠ '>' ∧ c ≠ ';') ∧
      ∃ strText, mapFind d strName = some strText ∧
        mapFind rd strName.reverse = some strText.reverse := by
  simp only [Piece.reversible, Bool.and_eq_true, Bool.not_eq_true', List.isEmpty_eq_false,
    List.all_eq_true, decide_eq_true_eq, Option.isSome_iff_exists, Bool.or_eq_true] at h
  obtain ⟨⟨⟨hne, hall⟩, strText, hfind⟩, hrfind⟩ := h
  refine ⟨by simpa using hne, fun c hc => ?_, strText, hfind, by rw [hrfind, hfind]; rfl⟩
  obtain ⟨⟨⟨h1, h2⟩, h3⟩, h4⟩ := hall c (List.mem_reverse.mp hc)
  exact ⟨h1, fun h => h4.elim h.1 (fun h5 => h5 h.2), h3, h2⟩

/-- Backward `ResolveREntity` behind the `;` of a reference to a known entity: the
reversed replacement the reverse dictionary holds, with the get position in front of
the `&`. -/
theorem ResolveREntity_known {d rd : List (Str × Str)}
    {cDelimiter : Char} {strName : Str}
    (h : (Piece.reference strName).reversible d rd cDelimiter = true) (b a : Str)
    (hn hp : Bool) (q : List XMLEvent) (dir : Bool) :
    ResolveREntity cDelimiter
        ⟨⟨strName.reverse ++ '&' :: b, a, false⟩, hn, hp, q, dir, d, rd⟩ =
      .ok ((Piece.reference strName).data d).reverse
        ⟨⟨b, '&' :: (strName ++ a), false⟩, hn, hp, q, dir, d, rd⟩ := by
  obtain ⟨hne, hall, strText, hfind, hrfind⟩ := Piece.reversible_name h
  have e := ResolveREntityLoop_scan cDelimiter strName.reverse hall
    ((strName.reverse ++ '&' :: b).length + a.length + 1) [] b a hn hp q dir d rd
    strText.reverse (by simp; omega) (by simpa using hne) (by simpa using hrfind)
  simp only [ResolveREntity, XMLEventReader.rbudget]
  rw [e]
  simp [Piece.data, hfind]

theorem renderPieces_cons_reverse (p : Piece) (rs : List Piece) :
    (renderPieces (p :: rs).reverse).reverse =
      p.render.reverse ++ (renderPieces rs.reverse).reverse := by
  simp [renderPieces_append, renderPieces]

theorem dataPieces_cons_reverse (d : List (Str × Str)) (p : Piece) (rs : List Piece) :
    (dataPieces d (p :: rs).reverse).reverse =
      (p.data d).reverse ++ (dataPieces d rs.reverse).reverse := by
  simp [dataPieces_append, dataPieces]

/-- Reading backwards, the pieces of an attribute value are read up to the opening
delimiter and the `=` in front of it; `rs` holds the pieces from the last to the
first. -/
theorem HandleRAttributeValueLoop_pieces {d rd : List (Str × Str)}
    {cDelimiter : Char} (hd : cDelimiter = '"' ∨ cDelimiter = '\'') :
    ∀ (rs : List Piece), (∀ p ∈ rs, p.reversible d rd cDelimiter = true) →
      ∀ (n : Nat), rs.length < n →
      ∀ (pValue b a : Str) (hn hp : Bool) (q : List XMLEvent) (dir : Bool),
        HandleRAttributeValueLoop n cDelimiter pValue
            ⟨⟨(renderPieces rs.reverse).reverse ++ cDelimiter :: '=' :: b, a, false⟩,
              hn, hp, q, dir, d, rd⟩ =
          .ok (dataPieces d rs.reverse ++ pValue.reverse)
            ⟨⟨b, '=' :: cDelimiter :: (renderPieces rs.reverse ++ a), false⟩,
              hn, hp, q, dir, d, rd⟩ := by
  have hd0 : cDelimiter ≠ '\x00' := by rcases hd with rfl | rfl <;> decide
  have hds : cDelimiter ≠ ';' := by rcases hd with rfl | rfl <;> decide
  intro rs
  induction rs with
  | nil =>
    intro _ n hlt pValue b a hn hp q dir
    match n, hlt with
    | n + 1, _ =>
      simp [renderPieces, dataPieces, HandleRAttributeValueLoop, XMLEventReader.rget,
        IStream.rget, XMLEventReader.setStream, ConsumeRWhitespace, XMLEventReader.rbudget,
        ConsumeRWhitespaceLoop, Result.bind, (by decide : isspace '=' = false)]
  | cons p rs ih =>
    intro hrs n hlt pValue b a hn hp q dir
    match n, hlt with
    | n + 1, hlt =>
      have hp' := hrs p (by simp)
      have hrs' : ∀ z ∈ rs, z.reversible d rd cDelimiter = true := fun z hz => hrs z (by simp [hz])
      rw [renderPieces_cons_reverse, List.append_assoc]
      have hr2 : renderPieces (p :: rs).reverse = renderPieces rs.reverse ++ p.render := by
        simp [renderPieces_append, renderPieces]
      have hd2 : dataPieces d (p :: rs).reverse = dataPieces d rs.reverse ++ p.data d := by
        simp [dataPieces_append, dataPieces]
      rw [hr2, hd2]
      cases p with
      | byte c =>
        obtain ⟨-, h2, -, h4⟩ := Piece.reversible_byte hp'
        have ih' := ih hrs' n (by simp at hlt; omega) (pValue ++ [c]) b (c :: a) hn hp q dir
        simp only [Piece.render, Piece.data, List.reverse_cons, List.reverse_nil,
          List.nil_append, List.singleton_append, List.cons_append, HandleRAttributeValueLoop,
          XMLEventReader.rget, IStream.rget, XMLEventReader.setStream, Bool.false_eq_true,
          if_false, h4 hd0, h2]
        rw [ih']
        simp
      | reference strName =>
        have e := ResolveREntity_known hp'
          ((renderPieces rs.reverse).reverse ++ cDelimiter :: '=' :: b) (';' :: a) hn hp q dir
        have ih' := ih hrs' n (by simp at hlt; omega)
          (pValue ++ ((Piece.reference strName).data d).reverse) b
          ('&' :: (strName ++ ';' :: a)) hn hp q dir
        simp only [Piece.render, List.reverse_cons, List.reverse_append, List.reverse_nil,
          List.nil_append, List.singleton_append, List.cons_append, List.append_assoc,
          HandleRAttributeValueLoop, XMLEventReader.rget, IStream.rget,
          XMLEventReader.setStream, Bool.false_eq_true, if_false, hds.symm, if_true] at e ⊢
        rw [e, bind_ok, ih']
        simp

/-- Reading backwards, the pieces of character data are read up to the `>` in front of
them or the begin of the stream; `rs` holds the pieces from the last to the first. -/
theorem HandleRTextLoop_reversible {d rd : List (Str × Str)} :
    ∀ (rs : List Piece), (∀ p ∈ rs, p.reversible d rd '\x00' = true) →
      ∀ (n : Nat), rs.length < n →
      ∀ (pData b a : Str) (hn hp : Bool) (q : List XMLEvent) (dir : Bool),
        (b = [] ∨ ∃ b', b = '>' :: b') →
        HandleRTextLoop n pData
            ⟨⟨(renderPieces rs.reverse).reverse ++ b, a, false⟩, hn, hp, q, dir, d, rd⟩ =
          .ok true ⟨⟨b, renderPieces rs.reverse ++ a, false⟩, hn, hp,
            q ++ [charactersEvent (dataPieces d rs.reverse ++ pData.reverse)], dir, d, rd⟩ := by
  intro rs
  induction rs with
  | nil =>
    intro _ n hlt pData b a hn hp q dir hb
    match n, hlt with
    | n + 1, _ =>
      rcases hb with rfl | ⟨b', rfl⟩
      · simp [renderPieces, dataPieces, HandleRTextLoop, XMLEventReader.rget, IStream.rget,
          XMLEventReader.setStream, XMLEventReader.push]
      · simp [renderPieces, dataPieces, HandleRTextLoop, XMLEventReader.rget, IStream.rget,
          XMLEventReader.setStream, XMLEventReader.push, XMLEventReader.runget,
          IStream.runget]
  | cons p rs ih =>
    intro hrs n hlt pData b a hn hp q dir hb
    match n, hlt with
    | n + 1, hlt =>
      have hp' := hrs p (by simp)
      have hrs' : ∀ z ∈ rs, z.reversible d rd '\x00' = true := fun z hz => hrs z (by simp [hz])
      rw [renderPieces_cons_reverse, List.append_assoc]
      have hr2 : renderPieces (p :: rs).reverse = renderPieces rs.reverse ++ p.render := by
        simp [renderPieces_append, renderPieces]
      have hd2 : dataPieces d (p :: rs).reverse = dataPieces d rs.reverse ++ p.data d := by
        simp [dataPieces_append, dataPieces]
      rw [hr2, hd2]
      cases p with
      | byte c =>
        obtain ⟨-, h2, h3, -⟩ := Piece.reversible_byte hp'
        have ih' := ih hrs' n (by simp at hlt; omega) (pData ++ [c]) b (c :: a) hn hp q dir hb
        simp only [Piece.render, Piece.data, List.reverse_cons, List.reverse_nil,
          List.nil_append, List.singleton_append, List.cons_append, HandleRTextLoop,
          XMLEventReader.rget, IStream.rget, XMLEventReader.setStream, Bool.false_eq_true,
          if_false, h3 rfl, h2]
        rw [ih']
        simp
      | reference strName =>
        have e := ResolveREntity_known hp' ((renderPieces rs.reverse).reverse ++ b)
          (';' :: a) hn hp q dir
        have ih' := ih hrs' n (by simp at hlt; omega)
          (pData ++ ((Piece.reference strName).data d).reverse) b
          ('&' :: (strName ++ ';' :: a)) hn hp q dir hb
        simp only [Piece.render, List.reverse_cons, List.reverse_append, List.reverse_nil,
          List.nil_append, List.singleton_append, List.cons_append, List.append_assoc,
          HandleRTextLoop, XMLEventReader.rget, IStream.rget,
          XMLEventReader.setStream, Bool.false_eq_true, if_false,
          (by decide : ¬ (';' = '>')), if_true] at e ⊢
        rw [e, bind_ok, ih']
        simp

/-- Backward `hasPrevious` behind character data of pieces the backward reader
resolves, with a `>` or the begin of the stream in front of them. -/
theorem hasPrevious_reversible {d rd : List (Str × Str)}
    {l : List Piece} (hne : l ≠ []) (hl : ∀ p ∈ l, p.reversible d rd '\x00' = true)
    (b a : Str) (hb : b = [] ∨ ∃ b', b = '>' :: b') :
    hasPrevious ⟨⟨(renderPieces l).reverse ++ b, a, false⟩, false, false, [], false, d, rd⟩ =
      .ok true ⟨⟨b, renderPieces l ++ a, false⟩, false, true,
        [charactersEvent (dataPieces d l)], false, d, rd⟩ := by
  obtain ⟨rs, rfl⟩ : ∃ rs, l = rs.reverse := ⟨l.reverse, by simp⟩
  cases rs with
  | nil => simp at hne
  | cons p rs =>
    have hp' := hl p (by simp)
    have hrs' : ∀ z ∈ rs, z.reversible d rd '\x00' = true := fun z hz => hl z (by simp [hz])
    rw [renderPieces_cons_reverse, List.append_assoc]
    have hr2 : renderPieces (p :: rs).reverse = renderPieces rs.reverse ++ p.render := by
      simp [renderPieces_append, renderPieces]
    have hd2 : dataPieces d (p :: rs).reverse = dataPieces d rs.reverse ++ p.data d := by
      simp [dataPieces_append, dataPieces]
    have hlen := renderPieces_length_ge rs.reverse
    rw [hr2, hd2]
    cases p with
    | byte c =>
      obtain ⟨-, h2, h3, -⟩ := Piece.reversible_byte hp'
      obtain ⟨K, hK⟩ := hasPrevious_step c ((renderPieces rs.reverse).reverse ++ b) a d rd
      have e2 := HandleRTextLoop_reversible rs hrs'
        (((renderPieces rs.reverse).reverse ++ b).length + (c :: a).length + 1)
        (by simp at hlen ⊢; omega) [c] b (c :: a) false true [] false hb
      simp only [Piece.render, Piece.data, List.reverse_cons, List.reverse_nil,
        List.nil_append, List.singleton_append, List.cons_append]
      rw [hK, if_neg (h3 rfl)]
      simp only [HandleRText, h2, if_false, XMLEventReader.rbudget]
      rw [e2]
      simp
    | reference strName =>
      obtain ⟨K, hK⟩ := hasPrevious_step ';'
        (strName.reverse ++ '&' :: ((renderPieces rs.reverse).reverse ++ b)) a d rd
      have e := ResolveREntity_known hp' ((renderPieces rs.reverse).reverse ++ b)
        (';' :: a) false true [] false
      have e2 := HandleRTextLoop_reversible rs hrs'
        (((renderPieces rs.reverse).reverse ++ b).length +
          ('&' :: (strName ++ ';' :: a)).length + 1)
        (by simp at hlen ⊢; omega) ((Piece.reference strName).data d).reverse b
        ('&' :: (strName ++ ';' :: a)) false true [] false hb
      simp only [Piece.render, List.reverse_cons, List.reverse_append, List.reverse_nil,
        List.nil_append, List.singleton_append, List.cons_append, List.append_assoc] at hK ⊢
      rw [hK, if_neg (by decide)]
      simp only [HandleRText, if_true]
      rw [e, bind_ok]
      simp only [XMLEventReader.rbudget]
      rw [e2]
      simp

theorem AttributeSource.source_reversible_split {d rd : List (Str × Str)} {x : AttributeSource}
    (h : x.reversible d rd = true) :
    isSpaceRun x.space = true ∧ reversibleAttributeName x.name = true ∧
      (x.delimiter = '"' ∨ x.delimiter = '\'') ∧
      ∀ p ∈ x.value, p.reversible d rd x.delimiter = true := by
  simpa [AttributeSource.reversible, and_assoc] using h

theorem AttributeSource.source_render_reverse (x : AttributeSource) :
    x.render.reverse =
      x.delimiter :: ((renderPieces x.value).reverse ++ x.delimiter :: '=' ::
        (x.name.reverse ++ x.space.reverse)) := by
  simp [AttributeSource.render]

/-- Reading backwards behind the closing delimiter of an attribute: value and name are
read, and the get position is left in front of the whitespace before the name. -/
theorem HandleRAttribute_source {d rd : List (Str × Str)}
    {x : AttributeSource} (h : x.reversible d rd = true) {y : Char}
    (hy : isspace y = false) (hy0 : y ≠ '\x00') (b a : Str)
    (hn hp : Bool) (q : List XMLEvent) (dir : Bool)
    (K : Attribute → XMLEventReader → Result (List Attribute)) :
    ((HandleRAttributeValue x.delimiter
        ⟨⟨(renderPieces x.value).reverse ++ x.delimiter :: '=' ::
            (x.name.reverse ++ (x.space.reverse ++ y :: b)),
          x.delimiter :: a, false⟩, hn, hp, q, dir, d, rd⟩).bind fun pAttributeValue r =>
        (HandleRAttributeName r).bind fun pAttributeName r =>
          K (Attribute.mk pAttributeName pAttributeValue) r) =
      K (x.attribute d) ⟨⟨y :: b, x.render ++ a, false⟩, hn, hp, q, dir, d, rd⟩ := by
  obtain ⟨h0, h1, h2, h3⟩ := AttributeSource.source_reversible_split h
  have hlen := renderPieces_length_ge x.value
  have e1 := HandleRAttributeValueLoop_pieces h2 x.value.reverse
    (fun p hp => h3 p (List.mem_reverse.mp hp))
    (((renderPieces x.value).reverse ++ x.delimiter :: '=' ::
      (x.name.reverse ++ (x.space.reverse ++ y :: b))).length + (x.delimiter :: a).length + 1)
    (by simp at hlen ⊢; omega) []
    (x.name.reverse ++ (x.space.reverse ++ y :: b)) (x.delimiter :: a) hn hp q dir
  have e2 := HandleRAttributeName_run h1 h0 hy hy0 b
    ('=' :: x.delimiter :: (renderPieces x.value ++ x.delimiter :: a)) hn hp q dir d rd
  simp only [List.reverse_reverse, List.reverse_nil, List.append_nil] at e1
  unfold HandleRAttributeValue
  simp only [XMLEventReader.rbudget]
  rw [e1, bind_ok, e2, bind_ok]
  simp [AttributeSource.attribute, AttributeSource.render]

theorem HandleRAttributesLoop_source {d rd : List (Str × Str)}
    {x : AttributeSource} (h : x.reversible d rd = true) {y : Char}
    (hy : isspace y = false) (hy0 : y ≠ '\x00') (n : Nat) (acc : List Attribute) (b a : Str)
    (hn hp : Bool) (q : List XMLEvent) (dir : Bool) :
    HandleRAttributesLoop (n + 1) acc
        ⟨⟨x.render.reverse ++ y :: b, a, false⟩, hn, hp, q, dir, d, rd⟩ =
      HandleRAttributesLoop n (acc ++ [x.attribute d])
        ⟨⟨y :: b, x.render ++ a, false⟩, hn, hp, q, dir, d, rd⟩ := by
  obtain ⟨-, h1, h2, h3⟩ := AttributeSource.source_reversible_split h
  have hs : isspace x.delimiter = false := by rcases h2 with h | h <;> rw [h] <;> decide
  have one := HandleRAttribute_source h hy hy0 b a hn hp q dir
    (fun e r => HandleRAttributesLoop n (acc ++ [e]) r)
  rw [AttributeSource.source_render_reverse]
  simp only [HandleRAttributesLoop, XMLEventReader.rget, IStream.rget, XMLEventReader.setStream,
    List.cons_append, List.append_assoc, Bool.false_eq_true, if_false, hs, h2, if_true,
    List.nil_append]
  exact one

theorem renderSources_append (l1 l2 : List AttributeSource) :
    renderSources (l1 ++ l2) = renderSources l1 ++ renderSources l2 := by
  simp [renderSources]

theorem renderSources_length_ge (l : List AttributeSource) :
    l.length ≤ (renderSources l).length := by
  induction l with
  | nil => simp
  | cons x l ih =>
    simp [renderSources, AttributeSource.render] at ih ⊢
    omega

/-- The first byte read backwards behind a run of attributes the backward reader
accepts is the closing delimiter of the last one, or the byte in front of the run. -/
theorem sources_rest_head {d rd : List (Str × Str)} (xs : List AttributeSource)
    (hxs : ∀ x ∈ xs, x.reversible d rd = true)
    {y : Char} (hy : isspace y = false) (hy0 : y ≠ '\x00') (t : Str) :
    ∃ y' b', (renderSources xs.reverse).reverse ++ y :: t = y' :: b' ∧
      isspace y' = false ∧ y' ≠ '\x00' := by
  cases xs with
  | nil => exact ⟨y, t, by simp [renderSources], hy, hy0⟩
  | cons x xs =>
    obtain ⟨-, -, h2, -⟩ := AttributeSource.source_reversible_split (hxs x (by simp))
    refine ⟨x.delimiter, (renderPieces x.value).reverse ++ x.delimiter :: '=' ::
      (x.name.reverse ++ (x.space.reverse ++
        ((renderSources xs.reverse).reverse ++ y :: t))), ?_, ?_, ?_⟩
    · rw [List.reverse_cons, renderSources_append, List.reverse_append]
      simp [renderSources, AttributeSource.render]
    · rcases h2 with h | h <;> rw [h] <;> decide
    · rcases h2 with h | h <;> rw [h] <;> decide

/-- The backward loop over the attributes of a tag reads them from the last to the first
and stops in front of the whitespace behind the tag name. -/
theorem HandleRAttributesLoop_sources_back {d rd : List (Str × Str)}
    {y : Char} (hy : isNameByte y = true) :
    ∀ (xs : List AttributeSource), (∀ x ∈ xs, x.reversible d rd = true) →
      ∀ (n : Nat) (acc : List Attribute) (b a : Str) (hn hp : Bool) (q : List XMLEvent)
        (dir : Bool), xs.length < n →
        HandleRAttributesLoop n acc
            ⟨⟨(renderSources xs.reverse).reverse ++ y :: b, a, false⟩,
              hn, hp, q, dir, d, rd⟩ =
          .ok (acc ++ xs.map (AttributeSource.attribute d))
            ⟨⟨y :: b, renderSources xs.reverse ++ a, false⟩, hn, hp, q, dir, d, rd⟩ := by
  obtain ⟨hy1, -, -, -, -, hy6, hy7, hy8, -⟩ := isNameByte_not_special hy
  intro xs
  induction xs with
  | nil =>
    intro _ n acc b a hn hp q dir hlt
    cases n with
    | zero => omega
    | succ n =>
      simp [renderSources, HandleRAttributesLoop, XMLEventReader.rget, IStream.rget,
        XMLEventReader.setStream, hy1, hy6, hy7, XMLEventReader.runget, IStream.runget]
  | cons x xs ih =>
    intro hxs n acc b a hn hp q dir hlt
    cases n with
    | zero => omega
    | succ n =>
      have hx := hxs x (by simp)
      have hxs' : ∀ z ∈ xs, z.reversible d rd = true := fun z hz => hxs z (by simp [hz])
      have hr : (renderSources (x :: xs).reverse).reverse =
          x.render.reverse ++ (renderSources xs.reverse).reverse := by
        simp [renderSources_append, renderSources]
      have hr2 : renderSources (x :: xs).reverse =
          renderSources xs.reverse ++ x.render := by
        simp [renderSources_append, renderSources]
      obtain ⟨y', b', hrest, hy', hy0'⟩ := sources_rest_head xs hxs' hy1 hy8 b
      have ih' := ih hxs' n (acc ++ [x.attribute d]) b (x.render ++ a) hn hp q dir
        (by simp at hlt ⊢; omega)
      rw [hr, hr2, List.append_assoc, hrest, HandleRAttributesLoop_source hx hy' hy0',
        ← hrest, ih']
      simp

theorem backwardName_split {n : Str} (h : backwardName n = true) :
    validName n = true ∧
    ((∃ c0 cs, n = c0 :: cs ∧ (isalpha c0 = true ∨ c0 = '_') ∧
        ∀ x ∈ cs, isNameByte x = true) ∨
      ∃ c0 pre c1 l, n = (c0 :: pre) ++ ':' :: (c1 :: l) ∧ (isalpha c0 = true ∨ c0 = '_') ∧
        (∀ x ∈ pre, isNameByte x = true) ∧ (isalnum c1 = true ∨ c1 = '_') ∧
        (∀ x ∈ l, isNameByte x = true)) := by
  simp only [backwardName, Bool.and_eq_true] at h
  obtain ⟨hv, hloc⟩ := h
  refine ⟨hv, ?_⟩
  obtain ⟨c0, cs, rfl, h0, hsplit⟩ := validName_split hv
  rcases hsplit with hall | ⟨pre, l, rfl, hpre, hl⟩
  · exact Or.inl ⟨c0, cs, rfl, h0, hall⟩
  · right
    have hq := @qnameOf_colon (c0 :: pre) l (by
      intro x hx
      rcases List.mem_cons.mp hx with rfl | hx
      · exact nameStart_isNameByte h0
      · exact hpre x hx)
    rw [show c0 :: (pre ++ ':' :: l) = (c0 :: pre) ++ ':' :: l by simp, hq] at hloc
    cases l with
    | nil => simp at hloc
    | cons c1 l =>
      simp only [Bool.or_eq_true, decide_eq_true_eq] at hloc
      exact ⟨c0, pre, c1, l, by simp, h0, hpre, hloc, fun x hx => hl x (by simp [hx])⟩

theorem backwardName_last {n : Str} (h : backwardName n = true) :
    ∃ cl r1, n.reverse = cl :: r1 ∧ isNameByte cl = true := by
  obtain ⟨hv, hsplit⟩ := backwardName_split h
  rcases hsplit with ⟨c0, cs, rfl, h0, hall⟩ | ⟨c0, pre, c1, l, rfl, h0, hpre, hc1, hl⟩
  · cases hr : cs.reverse with
    | nil => exact ⟨c0, [], by simp [hr], nameStart_isNameByte h0⟩
    | cons cl r =>
      refine ⟨cl, r ++ [c0], by simp [hr], hall cl ?_⟩
      exact List.mem_reverse.mp (by rw [hr]; simp)
  · have hc1' : isNameByte c1 = true := by
      rcases hc1 with h | h
      · simp [isNameByte, h]
      · subst h; decide
    cases hr : l.reverse with
    | nil => exact ⟨c1, ':' :: (pre.reverse ++ [c0]), by simp [hr], hc1'⟩
    | cons cl r =>
      refine ⟨cl, r ++ c1 :: ':' :: (pre.reverse ++ [c0]), by simp [hr], hl cl ?_⟩
      exact List.mem_reverse.mp (by rw [hr]; simp)

theorem backwardName_of_reversibleName {n : Str} (h : reversibleName n = true) :
    backwardName n = true := by
  simp only [reversibleName, Bool.and_eq_true] at h
  simp only [backwardName, Bool.and_eq_true]
  exact h.1

/-- Backward `HandleRTagStart` behind the closing delimiter of the last attribute: the
attributes from the last to the first, then the tag name and the `<`. -/
theorem HandleRTagStart_sources {d rd : List (Str × Str)} {n : Str}
    (h : backwardName n = true) (x : AttributeSource)
    (xs : List AttributeSource) (hxs : ∀ z ∈ x :: xs, z.reversible d rd = true) (b a : Str)
    (hn hp : Bool) (q : List XMLEvent) (dir : Bool) :
    HandleRTagStart x.delimiter
        ⟨⟨(renderPieces x.value).reverse ++ x.delimiter :: '=' :: (x.name.reverse ++
            (x.space.reverse ++
              ((renderSources xs.reverse).reverse ++ (n.reverse ++ '<' :: b)))),
          x.delimiter :: a, false⟩, hn, hp, q, dir, d, rd⟩ =
      .ok ⟨qnameOf n, (x :: xs).map (AttributeSource.attribute d)⟩
        ⟨⟨b, '<' :: (n ++ (renderSources (x :: xs).reverse ++ a)), false⟩,
          hn, hp, q, dir, d, rd⟩ := by
  have hx := hxs x (by simp)
  have hxs' : ∀ z ∈ xs, z.reversible d rd = true := fun z hz => hxs z (by simp [hz])
  obtain ⟨-, -, h2, -⟩ := AttributeSource.source_reversible_split hx
  obtain ⟨cl, r1, hrev, hcl⟩ := backwardName_last h
  obtain ⟨hv, hsplit⟩ := backwardName_split h
  obtain ⟨hcl1, -, -, -, -, -, -, hcl8, -⟩ := isNameByte_not_special hcl
  obtain ⟨y', b', hrest, hy', hy0'⟩ := sources_rest_head xs hxs' hcl1 hcl8 (r1 ++ '<' :: b)
  have one := HandleRAttribute_source hx hy' hy0' b' a hn hp q dir
    (fun e r => HandleRAttributesLoop r.rbudget ([] ++ [e]) r)
  have loop := HandleRAttributesLoop_sources_back hcl xs hxs'
    (((renderSources xs.reverse).reverse ++ cl :: (r1 ++ '<' :: b)).length +
      (x.render ++ a).length + 1) [x.attribute d] (r1 ++ '<' :: b)
    (x.render ++ a) hn hp q dir (by
      have := renderSources_length_ge xs.reverse
      simp at this ⊢
      omega)
  have name := HandleRTagName_parts hv hsplit hrev (Or.inl rfl) b (renderSources xs.reverse ++
    (x.render ++ a)) hn hp q dir d rd
  unfold HandleRTagStart
  rw [if_pos h2]
  unfold HandleRAttributes
  rw [hrev, List.cons_append, hrest, one]
  simp only [XMLEventReader.rbudget, List.nil_append]
  rw [← hrest, loop, bind_ok]
  simp only [XMLEventReader.rget, IStream.rget, XMLEventReader.setStream, Bool.false_eq_true,
    if_false, HandleRTagStartName]
  rw [name, bind_ok]
  simp [XMLEventReader.rget, IStream.rget, XMLEventReader.setStream, renderSources_append,
    renderSources]

theorem exists_last_source {l : List AttributeSource} (hne : l ≠ []) :
    ∃ (x : AttributeSource) (xs : List AttributeSource), l = xs.reverse ++ [x] := by
  cases hr : l.reverse with
  | nil => simp at hr; exact absurd hr hne
  | cons x xs =>
    refine ⟨x, xs, ?_⟩
    have := congrArg List.reverse hr
    simpa using this

/-- Backward `hasPrevious` behind a start tag with attributes as written: the
attributes come in reverse order. -/
theorem hasPrevious_startTag_sources {d rd : List (Str × Str)}
    {n : Str} (h : backwardName n = true)
    (l : List AttributeSource) (hl : ∀ z ∈ l, z.reversible d rd = true) (hne : l ≠ [])
    (b a : Str) :
    hasPrevious ⟨⟨'>' :: ((renderSources l).reverse ++ (n.reverse ++ '<' :: b)), a, false⟩,
        false, false, [], false, d, rd⟩ =
      .ok true ⟨⟨b, '<' :: (n ++ (renderSources l ++ '>' :: a)), false⟩, false, true,
        [XMLEvent.ofStartElement ⟨qnameOf n, (l.map (AttributeSource.attribute d)).reverse⟩],
        false, d, rd⟩ := by
  obtain ⟨x, xs, rfl⟩ := exists_last_source hne
  have hxs : ∀ z ∈ x :: xs, z.reversible d rd = true := by
    intro z hz
    apply hl
    rcases List.mem_cons.mp hz with rfl | hz
    · simp
    · simp [hz]
  obtain ⟨-, -, h2, -⟩ := AttributeSource.source_reversible_split (hxs x (by simp))
  have hs : isspace x.delimiter = false := by rcases h2 with h | h <;> rw [h] <;> decide
  have hq : x.delimiter ≠ '?' := by rcases h2 with h | h <;> rw [h] <;> decide
  have hsl : x.delimiter ≠ '/' := by rcases h2 with h | h <;> rw [h] <;> decide
  obtain ⟨K, hK⟩ := hasPrevious_step '>'
    ((renderSources (xs.reverse ++ [x])).reverse ++ (n.reverse ++ '<' :: b)) a d rd
  have e := HandleRTagStart_sources h x xs hxs b ('>' :: a) false true [] false
  have hb : (renderSources (xs.reverse ++ [x])).reverse ++ (n.reverse ++ '<' :: b) =
      x.delimiter :: ((renderPieces x.value).reverse ++ x.delimiter :: '=' ::
        (x.name.reverse ++ (x.space.reverse ++
        ((renderSources xs.reverse).reverse ++ (n.reverse ++ '<' :: b))))) := by
    simp [renderSources_append, renderSources, AttributeSource.render]
  rw [hK, if_pos rfl, hb]
  simp only [HandleRTag, XMLEventReader.rget, IStream.rget, XMLEventReader.setStream,
    Bool.false_eq_true, if_false, hq, hs, hsl, h2, if_true]
  rw [e, bind_ok]
  simp [XMLEventReader.push]

theorem reversible_reference {d rd : List (Str × Str)} (hm : mirrored d rd)
    {cDelimiter : Char} {strName strText : Str} (hne : strName ≠ [])
    (hs : ∀ c ∈ strName, c ≠ '&' ∧ c ≠ ';' ∧ c ≠ '>' ∧ (cDelimiter ≠ '\x00' → c ≠ cDelimiter))
    (hf : mapFind d strName = some strText) {x y : Str}
    (hx : ∀ c ∈ x ++ y, c ≠ '&' ∧ c ≠ ';' ∧ (cDelimiter = '\x00' → c ≠ '>') ∧
      (cDelimiter ≠ '\x00' → c ≠ cDelimiter)) :
    ∀ z ∈ x.map Piece.byte ++ Piece.reference strName :: y.map Piece.byte,
      z.reversible d rd cDelimiter = true := by
  have hbyte : ∀ c ∈ x ++ y, (Piece.byte c).reversible d rd cDelimiter = true := by
    intro c hc
    obtain ⟨h1, h2, h3, h4⟩ := hx c hc
    simp only [Piece.reversible, Bool.and_eq_true, decide_eq_true_eq]
    refine ⟨⟨h1, h2⟩, ?_⟩
    split
    · rename_i h0; simpa using h3 h0
    · rename_i h0; simpa using h4 h0
  intro z hz
  rcases List.mem_append.mp hz with hz | hz
  · obtain ⟨c, hc, rfl⟩ := List.mem_map.mp hz
    exact hbyte c (by simp [hc])
  · rcases List.mem_cons.mp hz with rfl | hz
    · simp only [Piece.reversible, Bool.and_eq_true, Bool.not_eq_true', List.isEmpty_eq_false,
        List.all_eq_true, decide_eq_true_eq, hf, Option.isSome_some, hm _ _ hf,
        Option.map_some', Bool.or_eq_true]
      refine ⟨⟨⟨by simpa using hne, fun c hc => ⟨⟨⟨(hs c hc).1, (hs c hc).2.1⟩,
        (hs c hc).2.2.1⟩, ?_⟩⟩, trivial⟩, trivial⟩
      by_cases h0 : cDelimiter = '\x00'
      · exact Or.inl h0
      · exact Or.inr ((hs c hc).2.2.2 h0)
    · obtain ⟨c, hc, rfl⟩ := List.mem_map.mp hz
      exact hbyte c (by simp [hc])

theorem backwardName_forward {n : Str} (h : backwardName n = true) :
    validName n = true ∧ (qnameOf n).m_strLocalPart ≠ [] := by
  simp only [backwardName, Bool.and_eq_true] at h
  refine ⟨h.1, fun h0 => ?_⟩
  rw [h0] at h
  simp at h

/-- C14. Reverse entity round trip. With the dictionaries a new reader has after any
sequence of `addToEntityReplacementDictionary` calls, for every name the forward
dictionary maps to a text, built in or registered, the name not empty and free of `&`,
`;`, `<`, `>`, `'` and `"`, and all `x`, `y` free of `<`, `>`, `&`, `;` and quotes:
backward `hasPrevious` behind the character data `x&name;y`, with a `>` or the begin of
the stream in front of it, queues `Characters` with the data `x ++ text ++ y`, as forward
`hasNext` does in front of the same bytes; and backward `hasPrevious` behind a start
tag with the attribute value `"x&name;y"` queues a `StartElement` whose attribute has
the value `x ++ text ++ y`, as forward `hasNext` does in front of the same tag. The text
is any byte string. -/
theorem reverse_entity_round_trip (aStream : IStream) (calls : List (Str × Str))
    (r : XMLEventReader) (hr : r = registerAll calls (XMLEventReader.new aStream))
    (strName strText x y : Str)
    (hf : mapFind r.m_aEntityReplacementDictionary strName = some strText)
    (hne : strName ≠ [])
    (hs : ∀ c ∈ strName, c ≠ '&' ∧ c ≠ ';' ∧ c ≠ '<' ∧ c ≠ '>' ∧ c ≠ '\'' ∧ c ≠ '"')
    (hx : ∀ c ∈ x ++ y, c ≠ '<' ∧ c ≠ '>' ∧ c ≠ '&' ∧ c ≠ ';' ∧ c ≠ '\'' ∧ c ≠ '"')
    (b a : Str) :
    ((b = [] ∨ ∃ b', b = '>' :: b') →
      hasPrevious ⟨⟨(x ++ '&' :: (strName ++ ';' :: y)).reverse ++ b, a, false⟩, false, false,
          [], false, r.m_aEntityReplacementDictionary, r.m_aREntityReplacementDictionary⟩ =
        .ok true ⟨⟨b, (x ++ '&' :: (strName ++ ';' :: y)) ++ a, false⟩, false, true,
          [charactersEvent (x ++ strText ++ y)], false,
          r.m_aEntityReplacementDictionary, r.m_aREntityReplacementDictionary⟩) ∧
    ((a = [] ∨ ∃ a', a = '<' :: a') →
      hasNext ⟨⟨b, (x ++ '&' :: (strName ++ ';' :: y)) ++ a, false⟩, false, false,
          [], true, r.m_aEntityReplacementDictionary, r.m_aREntityReplacementDictionary⟩ =
        .ok true ⟨⟨(x ++ '&' :: (strName ++ ';' :: y)).reverse ++ b, a, a.isEmpty⟩, true,
          false, [charactersEvent (x ++ strText ++ y)], true,
          r.m_aEntityReplacementDictionary, r.m_aREntityReplacementDictionary⟩) ∧
    (∀ (n k : Str), backwardName n = true → reversibleAttributeName k = true →
      hasPrevious ⟨⟨('<' :: n ++ (' ' :: k ++ '=' :: '"' :: (x ++ '&' :: (strName ++ ';' :: y)) ++
            ['"', '>'])).reverse ++ b, a, false⟩, false, false, [], false,
          r.m_aEntityReplacementDictionary, r.m_aREntityReplacementDictionary⟩ =
        .ok true ⟨⟨b, ('<' :: n ++ (' ' :: k ++ '=' :: '"' ::
            (x ++ '&' :: (strName ++ ';' :: y)) ++ ['"', '>'])) ++ a, false⟩, false, true,
          [XMLEvent.ofStartElement ⟨qnameOf n, [⟨qnameOf k, x ++ strText ++ y⟩]⟩], false,
          r.m_aEntityReplacementDictionary, r.m_aREntityReplacementDictionary⟩ ∧
      hasNext ⟨⟨b, ('<' :: n ++ (' ' :: k ++ '=' :: '"' ::
            (x ++ '&' :: (strName ++ ';' :: y)) ++ ['"', '>'])) ++ a, false⟩, false, false,
          [], true, r.m_aEntityReplacementDictionary, r.m_aREntityReplacementDictionary⟩ =
        .ok true ⟨⟨('<' :: n ++ (' ' :: k ++ '=' :: '"' ::
            (x ++ '&' :: (strName ++ ';' :: y)) ++ ['"', '>'])).reverse ++ b, a, false⟩,
          true, false,
          [XMLEvent.ofStartElement ⟨qnameOf n, [⟨qnameOf k, x ++ strText ++ y⟩]⟩], true,
          r.m_aEntityReplacementDictionary, r.m_aREntityReplacementDictionary⟩) := by
  have hm : mirrored r.m_aEntityReplacementDictionary r.m_aREntityReplacementDictionary := by
    rw [hr]
    exact (registerAll_keeps calls (XMLEventReader.new aStream) new_knowsEntities
      (new_mirrored aStream)).2.1
  generalize r.m_aEntityReplacementDictionary = d at hf hm ⊢
  generalize r.m_aREntityReplacementDictionary = rd at hm ⊢
  have hsemi : ∀ c ∈ strName, c ≠ ';' := fun c hc => (hs c hc).2.1
  have hxs : ∀ c ∈ x, c ∈ x ++ y := fun c hc => by simp [hc]
  have hys : ∀ c ∈ y, c ∈ x ++ y := fun c hc => by simp [hc]
  refine ⟨fun hb => ?_, fun ha => ?_, fun n k hn hk => ⟨?_, ?_⟩⟩
  · have hl := @reversible_reference d rd hm '\x00' strName strText hne
      (fun c hc => ⟨(hs c hc).1, (hs c hc).2.1, (hs c hc).2.2.2.1, fun h0 => absurd rfl h0⟩)
      hf x y
      (fun c hc => ⟨(hx c hc).2.2.1, (hx c hc).2.2.2.1, fun _ => (hx c hc).2.1,
        fun h0 => absurd rfl h0⟩)
    have := hasPrevious_reversible (by simp) hl b a hb
    rw [renderPieces_reference, dataPieces_reference hf] at this
    exact this
  · have hl := @reference_resolvable d (fun c => decide (c ≠ '<')) strName strText hne hsemi
      hf x y
      (fun c hc => ⟨by simpa using (hx c (hxs c hc)).1, (hx c (hxs c hc)).2.2.1⟩)
      (fun c hc => ⟨by simpa using (hx c (hys c hc)).1, (hx c (hys c hc)).2.2.1⟩)
    have := hasNext_resolvable rd (by simp) hl b a ha
    rw [renderPieces_reference, dataPieces_reference hf] at this
    exact this
  · have hl := @reversible_reference d rd hm '"' strName strText hne
      (fun c hc => ⟨(hs c hc).1, (hs c hc).2.1, (hs c hc).2.2.2.1,
        fun _ => (hs c hc).2.2.2.2.2⟩) hf x y
      (fun c hc => ⟨(hx c hc).2.2.1, (hx c hc).2.2.2.1, fun h0 => absurd h0 (by decide),
        fun _ => (hx c hc).2.2.2.2.2⟩)
    have hrev : ∀ z ∈ [(⟨[' '], k, '"',
        x.map Piece.byte ++ Piece.reference strName :: y.map Piece.byte⟩ : AttributeSource)],
        z.reversible d rd = true := by
      intro z hz
      rw [List.mem_singleton.mp hz]
      simp only [AttributeSource.reversible, Bool.and_eq_true, List.all_eq_true,
        Bool.or_eq_true, decide_eq_true_eq]
      exact ⟨⟨⟨by decide, hk⟩, by simp⟩, hl⟩
    have := hasPrevious_startTag_sources hn _ hrev (by simp) b a
    simp only [renderSources, List.flatMap_cons, List.flatMap_nil, List.append_nil,
      AttributeSource.render, renderPieces_reference, List.map_cons, List.map_nil,
      AttributeSource.attribute, dataPieces_reference hf, List.reverse_cons,
      List.reverse_nil, List.nil_append] at this
    simp only [List.cons_append, List.append_assoc, List.nil_append, List.singleton_append,
      List.reverse_cons, List.reverse_append] at this ⊢
    simpa using this
  · have hl := @reference_resolvable d (fun c => decide (c ≠ '"')) strName strText hne hsemi
      hf x y
      (fun c hc => ⟨by simpa using (hx c (hxs c hc)).2.2.2.2.2, (hx c (hxs c hc)).2.2.1⟩)
      (fun c hc => ⟨by simpa using (hx c (hys c hc)).2.2.2.2.2, (hx c (hys c hc)).2.2.1⟩)
    have hacc : ∀ z ∈ [(⟨[' '], k, '"',
        x.map Piece.byte ++ Piece.reference strName :: y.map Piece.byte⟩ : AttributeSource)],
        z.accepted d = true := by
      intro z hz
      rw [List.mem_singleton.mp hz]
      simp only [AttributeSource.accepted, Bool.and_eq_true, Bool.not_eq_true',
        List.isEmpty_eq_false, List.all_eq_true, Bool.or_eq_true, decide_eq_true_eq]
      exact ⟨⟨⟨⟨by simp, by decide⟩, (reversibleAttributeName_split hk).1⟩, by simp⟩, hl⟩
    have := hasNext_startTag_sources (backwardName_forward hn).1 (backwardName_forward hn).2 rd
      _ hacc (by simp) b a
    simp only [renderSources, List.flatMap_cons, List.flatMap_nil, List.append_nil,
      AttributeSource.render, renderPieces_reference, List.map_cons, List.map_nil,
      AttributeSource.attribute, dataPieces_reference hf] at this
    simp only [List.cons_append, List.append_assoc, List.nil_append, List.singleton_append,
      List.reverse_cons, List.reverse_append] at this ⊢
    simpa using this

/-- The entity `copy` registered on a new reader with the text `(c)`, read backwards
behind `a&copy;b` and behind the tag `<r k="a&copy;b">`. -/
theorem reverse_entity_round_trip_witness :
    hasPrevious ⟨⟨"a&copy;b".toList.reverse, [], false⟩, false, false, [], false,
        (registerAll [("copy".toList, "(c)".toList)]
          (XMLEventReader.new (IStream.ofData []))).m_aEntityReplacementDictionary,
        (registerAll [("copy".toList, "(c)".toList)]
          (XMLEventReader.new (IStream.ofData []))).m_aREntityReplacementDictionary⟩ =
      .ok true ⟨⟨[], "a&copy;b".toList, false⟩, false, true,
        [charactersEvent "a(c)b".toList], false,
        (registerAll [("copy".toList, "(c)".toList)]
          (XMLEventReader.new (IStream.ofData []))).m_aEntityReplacementDictionary,
        (registerAll [("copy".toList, "(c)".toList)]
          (XMLEventReader.new (IStream.ofData []))).m_aREntityReplacementDictionary⟩ ∧
    hasPrevious ⟨⟨"<r k=\"a&copy;b\">".toList.reverse, [], false⟩, false, false, [], false,
        (registerAll [("copy".toList, "(c)".toList)]
          (XMLEventReader.new (IStream.ofData []))).m_aEntityReplacementDictionary,
        (registerAll [("copy".toList, "(c)".toList)]
          (XMLEventReader.new (IStream.ofData []))).m_aREntityReplacementDictionary⟩ =
      .ok true ⟨⟨[], "<r k=\"a&copy;b\">".toList, false⟩, false, true,
        [XMLEvent.ofStartElement ⟨qnameOf ['r'], [⟨qnameOf ['k'], "a(c)b".toList⟩]⟩], false,
        (registerAll [("copy".toList, "(c)".toList)]
          (XMLEventReader.new (IStream.ofData []))).m_aEntityReplacementDictionary,
        (registerAll [("copy".toList, "(c)".toList)]
          (XMLEventReader.new (IStream.ofData []))).m_aREntityReplacementDictionary⟩ :=
  ⟨(reverse_entity_round_trip (IStream.ofData []) [("copy".toList, "(c)".toList)]
      (registerAll [("copy".toList, "(c)".toList)] (XMLEventReader.new (IStream.ofData [])))
      rfl "copy".toList "(c)".toList ['a'] ['b'] (by decide) (by decide) (by decide)
      (by decide) [] []).1 (Or.inl rfl),
   ((reverse_entity_round_trip (IStream.ofData []) [("copy".toList, "(c)".toList)]
      (registerAll [("copy".toList, "(c)".toList)] (XMLEventReader.new (IStream.ofData [])))
      rfl "copy".toList "(c)".toList ['a'] ['b'] (by decide) (by decide) (by decide)
      (by decide) [] []).2.2 ['r'] ['k'] (by decide) (by decide)).1⟩

theorem Characters.scan_eq_all (pData : Str) :
    Characters.scan pData = pData.all isspace := by
  induction pData with
  | nil => rfl
  | cons c cs ih =>
    simp only [Characters.scan, List.all_cons, ih]
    cases isspace c <;> simp

/-- C27. For every byte string `d`, `Characters(d).isWhiteSpace()` is true if and only if
every byte of `d` is one of space, `\t`, `\n`, `\v`, `\f`, `\r`; it is true for the empty
string and false for every string that holds a byte which is not whitespace, wherever it
stands; and `getData()` returns `d`. -/
theorem characters_whitespace_flag (d : Str) :
    Characters.ofPointer (some d) = .ok (Characters.new d) ∧
    ((Characters.new d).isWhiteSpace = true ↔
      ∀ c ∈ d, c = ' ' ∨ c = '\t' ∨ c = '\n' ∨ c = '\x0b' ∨ c = '\x0c' ∨ c = '\r') ∧
    (Characters.new []).isWhiteSpace = true ∧
    (∀ (x y : Str) (c : Char), isspace c = false →
      (Characters.new (x ++ c :: y)).isWhiteSpace = false) ∧
    (Characters.new d).getData = d := by
  have hsp : ∀ c : Char, isspace c = true ↔
      (c = ' ' ∨ c = '\t' ∨ c = '\n' ∨ c = '\x0b' ∨ c = '\x0c' ∨ c = '\r') := by
    intro c
    constructor
    · intro h
      simp only [isspace, Bool.or_eq_true, Bool.and_eq_true, decide_eq_true_eq] at h
      have key : ∀ k : Nat, c.toNat = k → c = Char.ofNat k := by
        intro k hk
        rw [← hk, Char.ofNat_toNat]
      rcases h with h | ⟨h1, h2⟩
      · exact Or.inl (key 32 h)
      · have : c.toNat = 9 ∨ c.toNat = 10 ∨ c.toNat = 11 ∨ c.toNat = 12 ∨ c.toNat = 13 := by
          omega
        rcases this with h | h | h | h | h
        · exact Or.inr (Or.inl (key 9 h))
        · exact Or.inr (Or.inr (Or.inl (key 10 h)))
        · exact Or.inr (Or.inr (Or.inr (Or.inl (key 11 h))))
        · exact Or.inr (Or.inr (Or.inr (Or.inr (Or.inl (key 12 h)))))
        · exact Or.inr (Or.inr (Or.inr (Or.inr (Or.inr (key 13 h)))))
    · rintro (h | h | h | h | h | h) <;> subst h <;> decide
  refine ⟨rfl, ?_, rfl, ?_, rfl⟩
  · simp only [Characters.isWhiteSpace, Characters.new, Characters.scan_eq_all,
      List.all_eq_true]
    exact forall_congr' fun c => imp_congr_right fun _ => hsp c
  · intro x y c hc
    simp [Characters.isWhiteSpace, Characters.new, Characters.scan_eq_all, hc]

/-- The string of a tab and a blank is whitespace, and `a` between two blanks makes a
string that is not. -/
theorem characters_whitespace_flag_witness :
    (Characters.new ['\t', ' ']).isWhiteSpace = true ∧
    (Characters.new ([' '] ++ 'a' :: [' '])).isWhiteSpace = false :=
  ⟨(characters_whitespace_flag ['\t', ' ']).2.1.mpr (by decide),
   (characters_whitespace_flag []).2.2.2.1 [' '] [' '] 'a' (by decide)⟩

/-- C28. The constructor of `XMLEvent` returns if and only if exactly one of its five
pointers is set, and then the event holds the five pointers as passed; in every other
case, none set or two or more set, it throws `std::invalid_argument`. For every event
it returns, exactly one of `isStartElement`, `isEndElement`, `isCharacters`, `isComment`
and `isProcessingInstruction` is true; the accessor of that kind returns the payload
passed, and each accessor of a kind whose test is false throws `std::logic_error`. -/
theorem event_holds_exactly_one_payload (pStartElement : Option StartElement)
    (pEndElement : Option EndElement) (pCharacters : Option Characters)
    (pComment : Option Comment) (pProcessingInstruction : Option ProcessingInstruction) :
    ((∃ e, XMLEvent.new pStartElement pEndElement pCharacters pComment
        pProcessingInstruction = .ok e) ↔
      ((pStartElement ≠ none ∧ pEndElement = none ∧ pCharacters = none ∧ pComment = none ∧
          pProcessingInstruction = none) ∨
        (pStartElement = none ∧ pEndElement ≠ none ∧ pCharacters = none ∧ pComment = none ∧
          pProcessingInstruction = none) ∨
        (pStartElement = none ∧ pEndElement = none ∧ pCharacters ≠ none ∧ pComment = none ∧
          pProcessingInstruction = none) ∨
        (pStartElement = none ∧ pEndElement = none ∧ pCharacters = none ∧ pComment ≠ none ∧
          pProcessingInstruction = none) ∨
        (pStartElement = none ∧ pEndElement = none ∧ pCharacters = none ∧ pComment = none ∧
          pProcessingInstruction ≠ none))) ∧
    ((¬ ∃ e, XMLEvent.new pStartElement pEndElement pCharacters pComment
        pProcessingInstruction = .ok e) →
      ∃ what, XMLEvent.new pStartElement pEndElement pCharacters pComment
        pProcessingInstruction = .error (.invalid_argument what)) ∧
    (∀ e, XMLEvent.new pStartElement pEndElement pCharacters pComment
        pProcessingInstruction = .ok e →
      e = ⟨pStartElement, pEndElement, pCharacters, pComment, pProcessingInstruction⟩ ∧
      [e.isStartElement, e.isEndElement, e.isCharacters, e.isComment,
        e.isProcessingInstruction].count true = 1 ∧
      (e.isStartElement = true → ∃ x, pStartElement = some x ∧ e.asStartElement = .ok x) ∧
      (e.isEndElement = true → ∃ x, pEndElement = some x ∧ e.asEndElement = .ok x) ∧
      (e.isCharacters = true → ∃ x, pCharacters = some x ∧ e.asCharacters = .ok x) ∧
      (e.isComment = true → ∃ x, pComment = some x ∧ e.asComment = .ok x) ∧
      (e.isProcessingInstruction = true →
        ∃ x, pProcessingInstruction = some x ∧ e.asProcessingInstruction = .ok x) ∧
      (e.isStartElement = false → ∃ what, e.asStartElement = .error (.logic_error what)) ∧
      (e.isEndElement = false → ∃ what, e.asEndElement = .error (.logic_error what)) ∧
      (e.isCharacters = false → ∃ what, e.asCharacters = .error (.logic_error what)) ∧
      (e.isComment = false → ∃ what, e.asComment = .error (.logic_error what)) ∧
      (e.isProcessingInstruction = false →
        ∃ what, e.asProcessingInstruction = .error (.logic_error what))) := by
  cases pStartElement <;> cases pEndElement <;> cases pCharacters <;> cases pComment <;>
    cases pProcessingInstruction <;>
    simp [XMLEvent.new, XMLEvent.pointerCount, XMLEvent.isStartElement, XMLEvent.isEndElement,
      XMLEvent.isCharacters, XMLEvent.isComment, XMLEvent.isProcessingInstruction,
      XMLEvent.asStartElement, XMLEvent.asEndElement, XMLEvent.asCharacters,
      XMLEvent.asComment, XMLEvent.asProcessingInstruction]

/-- An event built around the comment `hi`: the constructor returns it, it is a comment
and nothing else, and asking it for its characters throws. -/
theorem event_holds_exactly_one_payload_witness :
    XMLEvent.new none none none (some ⟨['h', 'i']⟩) none = .ok (XMLEvent.ofComment ⟨['h', 'i']⟩) ∧
    (∃ x, (some (⟨['h', 'i']⟩ : Comment)) = some x ∧
      (XMLEvent.ofComment ⟨['h', 'i']⟩).asComment = .ok x) ∧
    ∃ what, (XMLEvent.ofComment ⟨['h', 'i']⟩).asCharacters = .error (.logic_error what) :=
  ⟨rfl,
   ((event_holds_exactly_one_payload none none none (some ⟨['h', 'i']⟩) none).2.2
      (XMLEvent.ofComment ⟨['h', 'i']⟩) rfl).2.2.2.2.2.1 rfl,
   ((event_holds_exactly_one_payload none none none (some ⟨['h', 'i']⟩) none).2.2
      (XMLEvent.ofComment ⟨['h', 'i']⟩) rfl).2.2.2.2.2.2.2.2.2.1 rfl⟩

/-- C29. For all attributes `a` and `b`, `a == b` holds if and only if their names agree
in namespace URI, local part and prefix, and `QName::operator==` holds if and only if
the three components agree; the values play no part: attributes with the same name
compare equal whatever their values are, and attributes whose names differ in one
component compare unequal, also when their values agree. -/
theorem attribute_equality_is_by_name (a b : Attribute) :
    (Attribute.eq a b = true ↔
      a.getName.m_strNamespaceURI = b.getName.m_strNamespaceURI ∧
      a.getName.m_strLocalPart = b.getName.m_strLocalPart ∧
      a.getName.m_strPrefix = b.getName.m_strPrefix) ∧
    (∀ p q : QName, QName.eq p q = true ↔
      p.m_strNamespaceURI = q.m_strNamespaceURI ∧ p.m_strLocalPart = q.m_strLocalPart ∧
      p.m_strPrefix = q.m_strPrefix) ∧
    (∀ (n : QName) (v w : Str), Attribute.eq ⟨n, v⟩ ⟨n, w⟩ = true) ∧
    (∀ (n m : QName) (v : Str),
      (n.m_strNamespaceURI ≠ m.m_strNamespaceURI ∨ n.m_strLocalPart ≠ m.m_strLocalPart ∨
        n.m_strPrefix ≠ m.m_strPrefix) → Attribute.eq ⟨n, v⟩ ⟨m, v⟩ = false) := by
  refine ⟨?_, ?_, ?_, ?_⟩
  · simp only [Attribute.eq, QName.eq, Attribute.getName, Bool.and_eq_true, decide_eq_true_eq]
    tauto
  · intro p q
    simp only [QName.eq, Bool.and_eq_true, decide_eq_true_eq]
    tauto
  · intro n v w
    simp [Attribute.eq, QName.eq]
  · intro n m v h
    simp only [Attribute.eq, QName.eq, Bool.and_eq_false_iff, decide_eq_false_iff_not]
    tauto

/-- The attributes `a="1"` and `a="2"` compare equal, and `a="1"` and `p:a="1"` do
not. -/
theorem attribute_equality_is_by_name_witness :
    Attribute.eq ⟨QName.mk [] ['a'] [], ['1']⟩ ⟨QName.mk [] ['a'] [], ['2']⟩ = true ∧
    Attribute.eq ⟨QName.mk [] ['a'] [], ['1']⟩ ⟨QName.mk [] ['a'] ['p'], ['1']⟩ = false :=
  ⟨(attribute_equality_is_by_name ⟨QName.mk [] ['a'] [], ['1']⟩
      ⟨QName.mk [] ['a'] [], ['2']⟩).2.2.1 (QName.mk [] ['a'] []) ['1'] ['2'],
   (attribute_equality_is_by_name ⟨QName.mk [] ['a'] [], ['1']⟩
      ⟨QName.mk [] ['a'] [], ['2']⟩).2.2.2 (QName.mk [] ['a'] []) (QName.mk [] ['a'] ['p'])
      ['1'] (by decide)⟩

theorem QName.eq_iff (p q : QName) : QName.eq p q = true ↔ p = q := by
  obtain ⟨p1, p2, p3⟩ := p
  obtain ⟨q1, q2, q3⟩ := q
  simp only [QName.eq, Bool.and_eq_true, decide_eq_true_eq, QName.mk.injEq]
  tauto

/-- C30. A `StartElement` built from a name and a list of attribute pointers holds the
attributes whose pointers are set, in their order (none for a null list). For every
`StartElement` and every name `q`: `getAttributeByName(q)` returns an attribute if and
only if the list splits into attributes with names other than `q`, that attribute with
a name equal to `q` in all three components, and a rest, so it returns the earliest
attribute of that name; and it returns the null pointer if and only if no attribute of
the list has the name `q`. -/
theorem getAttributeByName_returns_first_match (e : StartElement) (q : QName) :
    (∀ (n : QName) (aList : List (Option Attribute)),
      StartElement.new (some n) (some aList) = .ok ⟨n, aList.filterMap id⟩ ∧
      StartElement.new (some n) none = .ok ⟨n, []⟩ ∧
      (∀ l : List Attribute, (⟨n, (l.map some).filterMap id⟩ : StartElement).getAttributes = l)) ∧
    (∀ a : Attribute, e.getAttributeByName q = some a ↔
      ∃ l1 l2, e.getAttributes = l1 ++ a :: l2 ∧
        (a.getName.m_strNamespaceURI = q.m_strNamespaceURI ∧
          a.getName.m_strLocalPart = q.m_strLocalPart ∧
          a.getName.m_strPrefix = q.m_strPrefix) ∧
        ∀ x ∈ l1, x.getName ≠ q) ∧
    (e.getAttributeByName q = none ↔ ∀ x ∈ e.getAttributes, x.getName ≠ q) := by
  refine ⟨fun n aList => ⟨rfl, rfl, fun l => ?_⟩, fun a => ?_, ?_⟩
  · simp [StartElement.getAttributes]
  · have hq : (a.getName.m_strNamespaceURI = q.m_strNamespaceURI ∧
        a.getName.m_strLocalPart = q.m_strLocalPart ∧
        a.getName.m_strPrefix = q.m_strPrefix) ↔ a.m_pName = q := by
      obtain ⟨q1, q2, q3⟩ := q
      obtain ⟨⟨p1, p2, p3⟩, v⟩ := a
      simp [Attribute.getName]
    rw [hq]
    simp only [StartElement.getAttributeByName, StartElement.getAttributes, Attribute.getName]
    constructor
    · intro h
      obtain ⟨h1, l1, l2, h2, h3⟩ := List.find?_eq_some.mp h
      refine ⟨l1, l2, h2, (QName.eq_iff _ _).mp h1, fun x hx hxe => ?_⟩
      have := h3 x hx
      rw [(QName.eq_iff _ _).mpr hxe] at this
      simp at this
    · rintro ⟨l1, l2, h2, h1, h3⟩
      refine List.find?_eq_some.mpr ⟨(QName.eq_iff _ _).mpr h1, l1, l2, h2,
        fun x hx => ?_⟩
      have hne : QName.eq x.m_pName q ≠ true :=
        fun h => h3 x hx ((QName.eq_iff _ _).mp h)
      simpa using hne
  · simp only [StartElement.getAttributeByName, StartElement.getAttributes, Attribute.getName,
      List.find?_eq_none]
    exact forall_congr' fun x => imp_congr_right fun _ => by
      rw [QName.eq_iff]

/-- The element `r` with `a="1"`, `b="2"`, `a="3"`, built from a list with a null pointer
in it: asked for `a` it returns `a="1"`, and asked for `c` it returns the null pointer. -/
theorem getAttributeByName_returns_first_match_witness :
    StartElement.new (some (QName.mk [] ['r'] []))
        (some [some ⟨QName.mk [] ['a'] [], ['1']⟩, none, some ⟨QName.mk [] ['b'] [], ['2']⟩,
          some ⟨QName.mk [] ['a'] [], ['3']⟩]) =
      .ok ⟨QName.mk [] ['r'] [], [⟨QName.mk [] ['a'] [], ['1']⟩, ⟨QName.mk [] ['b'] [], ['2']⟩,
        ⟨QName.mk [] ['a'] [], ['3']⟩]⟩ ∧
    (⟨QName.mk [] ['r'] [], [⟨QName.mk [] ['a'] [], ['1']⟩, ⟨QName.mk [] ['b'] [], ['2']⟩,
        ⟨QName.mk [] ['a'] [], ['3']⟩]⟩ : StartElement).getAttributeByName
        (QName.mk [] ['a'] []) = some ⟨QName.mk [] ['a'] [], ['1']⟩ ∧
    (⟨QName.mk [] ['r'] [], [⟨QName.mk [] ['a'] [], ['1']⟩, ⟨QName.mk [] ['b'] [], ['2']⟩,
        ⟨QName.mk [] ['a'] [], ['3']⟩]⟩ : StartElement).getAttributeByName
        (QName.mk [] ['c'] []) = none :=
  ⟨rfl,
   ((getAttributeByName_returns_first_match
      ⟨QName.mk [] ['r'] [], [⟨QName.mk [] ['a'] [], ['1']⟩, ⟨QName.mk [] ['b'] [], ['2']⟩,
        ⟨QName.mk [] ['a'] [], ['3']⟩]⟩ (QName.mk [] ['a'] [])).2.1
      ⟨QName.mk [] ['a'] [], ['1']⟩).mpr
      ⟨[], [⟨QName.mk [] ['b'] [], ['2']⟩, ⟨QName.mk [] ['a'] [], ['3']⟩], rfl,
        ⟨rfl, rfl, rfl⟩, by simp⟩,
   (getAttributeByName_returns_first_match
      ⟨QName.mk [] ['r'] [], [⟨QName.mk [] ['a'] [], ['1']⟩, ⟨QName.mk [] ['b'] [], ['2']⟩,
        ⟨QName.mk [] ['a'] [], ['3']⟩]⟩ (QName.mk [] ['c'] [])).2.2.mpr (by decide)⟩

/-! ## Text, processing instructions and bytes behind `<`, forwards -/

theorem bytes_resolvable {d : List (Str × Str)} {p : Char → Bool} {t : Str}
    (ht : ∀ c ∈ t, p c = true ∧ c ≠ '&') :
    ∀ z ∈ t.map Piece.byte, Piece.resolvable d p z = true := by
  intro z hz
  obtain ⟨c, hc, rfl⟩ := List.mem_map.mp hz
  simpa [Piece.resolvable] using ht c hc

/-- C22. For every text `t` that is not empty and holds neither `<` nor `&`, and every
`rest` that is empty or begins with `<`, forward `hasNext` with the get position at the
start of `t ++ rest` returns true, queues the one event `Characters(t)` and leaves the
get position behind the last byte of `t`; when `rest` begins with `<`, that `<` is the
byte the next `get` delivers. -/
theorem forward_text_up_to_tag (t rest b : Str) (d rd : List (Str × Str)) (hne : t ≠ [])
    (ht : ∀ c ∈ t, c ≠ '<' ∧ c ≠ '&') (hrest : rest = [] ∨ ∃ rest', rest = '<' :: rest') :
    hasNext ⟨⟨b, t ++ rest, false⟩, false, false, [], true, d, rd⟩ =
      .ok true ⟨⟨t.reverse ++ b, rest, rest.isEmpty⟩, true, false, [charactersEvent t],
        true, d, rd⟩ ∧
    IStream.tellg ⟨t.reverse ++ b, rest, rest.isEmpty⟩ = b.length + t.length ∧
    (∀ rest', rest = '<' :: rest' →
      (XMLEventReader.get ⟨⟨t.reverse ++ b, rest, rest.isEmpty⟩, true, false,
        [charactersEvent t], true, d, rd⟩).1 = some '<') := by
  refine ⟨?_, by simp [IStream.tellg]; omega, ?_⟩
  · have hl := @bytes_resolvable d (fun c => decide (c ≠ '<')) t
      (fun c hc => ⟨by simpa using (ht c hc).1, (ht c hc).2⟩)
    have := hasNext_resolvable rd (by simpa using hne) hl b rest hrest
    rw [renderPieces_bytes, dataPieces_bytes] at this
    exact this
  · rintro rest' rfl
    simp [XMLEventReader.get, IStream.get]

/-- The text `hi` in front of `<a>`, and the text ` x>y ` up to the end of the stream. -/
theorem forward_text_up_to_tag_witness :
    hasNext ⟨⟨[], "hi<a>".toList, false⟩, false, false, [], true, [], []⟩ =
      .ok true ⟨⟨"hi".toList.reverse, "<a>".toList, false⟩, true, false,
        [charactersEvent "hi".toList], true, [], []⟩ ∧
    hasNext ⟨⟨[], " x>y ".toList, false⟩, false, false, [], true, [], []⟩ =
      .ok true ⟨⟨" x>y ".toList.reverse, [], true⟩, true, false,
        [charactersEvent " x>y ".toList], true, [], []⟩ :=
  ⟨(forward_text_up_to_tag "hi".toList "<a>".toList [] [] [] (by decide) (by decide)
      (Or.inr ⟨"a>".toList, rfl⟩)).1,
   (forward_text_up_to_tag " x>y ".toList [] [] [] [] (by decide) (by decide)
      (Or.inl rfl)).1⟩

/-- C24. For every byte `c` that is not `?`, `/`, `!`, `_` or a letter, forward `hasNext`
in front of `<` `c` throws `std::runtime_error`; and in front of `<!` that is not
followed by `--` it throws `std::runtime_error`, as on `<!DOCTYPE` and on `<![CDATA[`.
In both cases the queue is empty when it throws. -/
theorem forward_unknown_markup_throws (b rest : Str) (d rd : List (Str × Str)) :
    (∀ c : Char, c ≠ '?' → c ≠ '/' → c ≠ '!' → c ≠ '_' → isalpha c = false →
      hasNext ⟨⟨b, '<' :: c :: rest, false⟩, false, false, [], true, d, rd⟩ =
        .throw (.runtime_error "Unknown byte within element.")
          ⟨⟨c :: '<' :: b, rest, false⟩, true, false, [], true, d, rd⟩) ∧
    ((¬ ∃ rest', rest = '-' :: '-' :: rest') →
      ∃ what r', hasNext ⟨⟨b, '<' :: '!' :: rest, false⟩, false, false, [], true, d, rd⟩ =
        .throw (.runtime_error what) r' ∧ r'.m_aEvents = []) ∧
    hasNext (XMLEventReader.new (IStream.ofData "<!DOCTYPE r>".toList)) =
      .throw (.runtime_error "Markup declaration type not implemented yet.")
        { XMLEventReader.new ⟨"<!D".toList.reverse, "OCTYPE r>".toList, false⟩ with
          m_bHasNextCalled := true } ∧
    hasNext (XMLEventReader.new (IStream.ofData "<![CDATA[x]]>".toList)) =
      .throw (.runtime_error "Markup declaration type not implemented yet.")
        { XMLEventReader.new ⟨"<![".toList.reverse, "CDATA[x]]>".toList, false⟩ with
          m_bHasNextCalled := true } := by
  refine ⟨?_, ?_, by decide, by decide⟩
  · intro c h1 h2 h3 h4 h5
    rw [hasNext_step, if_pos rfl]
    simp [HandleTag, XMLEventReader.get, IStream.get, XMLEventReader.setStream, h1, h2, h3,
      h4, h5, malformed]
  · intro h
    rw [hasNext_step, if_pos rfl]
    cases rest with
    | nil =>
      exact ⟨_, _, by
        simp only [HandleTag, HandleMarkupDeclaration, XMLEventReader.get, IStream.get,
          XMLEventReader.setStream, Bool.false_eq_true, if_false,
          (by decide : ¬ ('!' = '?')), (by decide : ¬ ('!' = '/')), if_true, malformed]
        rfl, rfl⟩
    | cons c1 rest =>
      by_cases hc1 : c1 = '-'
      · subst hc1
        cases rest with
        | nil =>
          exact ⟨_, _, by
            simp only [HandleTag, HandleMarkupDeclaration, HandleComment, XMLEventReader.get,
              IStream.get, XMLEventReader.setStream, Bool.false_eq_true, if_false,
              (by decide : ¬ ('!' = '?')), (by decide : ¬ ('!' = '/')), if_true, malformed]
            rfl, rfl⟩
        | cons c2 rest =>
          have hc2 : c2 ≠ '-' := by
            rintro rfl
            exact h ⟨rest, rfl⟩
          exact ⟨_, _, by
            simp only [HandleTag, HandleMarkupDeclaration, HandleComment, XMLEventReader.get,
              IStream.get, XMLEventReader.setStream, Bool.false_eq_true, if_false,
              (by decide : ¬ ('!' = '?')), (by decide : ¬ ('!' = '/')), if_true, malformed,
              hc2, ne_eq, not_false_eq_true]
            rfl, rfl⟩
      · exact ⟨_, _, by
          simp only [HandleTag, HandleMarkupDeclaration, XMLEventReader.get, IStream.get,
            XMLEventReader.setStream, Bool.false_eq_true, if_false,
            (by decide : ¬ ('!' = '?')), (by decide : ¬ ('!' = '/')), if_true, malformed, hc1]
          rfl, rfl⟩

/-- The byte `1` behind `<`, and `<!-x`. -/
theorem forward_unknown_markup_throws_witness :
    hasNext ⟨⟨[], "<1>".toList, false⟩, false, false, [], true, [], []⟩ =
      .throw (.runtime_error "Unknown byte within element.")
        ⟨⟨['1', '<'], ['>'], false⟩, true, false, [], true, [], []⟩ ∧
    ∃ what r', hasNext ⟨⟨[], "<!-x-->".toList, false⟩, false, false, [], true, [], []⟩ =
      .throw (.runtime_error what) r' ∧ r'.m_aEvents = [] :=
  ⟨(forward_unknown_markup_throws [] ['>'] [] []).1 '1' (by decide) (by decide) (by decide)
      (by decide) (by decide),
   (forward_unknown_markup_throws [] "-x-->".toList [] []).2.1 (by simp)⟩

/-- The forward loop over the data of a processing instruction, with `k` question marks
read and held back, reads the rest `s` of the data and the `?>` behind it, when the
data holds no `>` and does not end in `?`. -/
theorem HandleProcessingInstructionLoop_scan :
    ∀ (s : Str) (k n : Nat) (pTarget pData b rest : Str) (hn hp : Bool) (q : List XMLEvent)
      (dir : Bool) (d rd : List (Str × Str)),
      k ≤ 1 → (s = [] → k = 0) → (∀ c ∈ s, c ≠ '>') → s.getLast? ≠ some '?' →
      s.length + 2 ≤ n →
      HandleProcessingInstructionLoop n k pTarget pData
          ⟨⟨b, s ++ '?' :: '>' :: rest, false⟩, hn, hp, q, dir, d, rd⟩ =
        .ok true ⟨⟨'>' :: '?' :: (s.reverse ++ b), rest, false⟩, hn, hp,
          q ++ [XMLEvent.ofProcessingInstruction ⟨pTarget, pData ++ (List.replicate k '?' ++ s)⟩],
          dir, d, rd⟩ := by
  intro s
  induction s with
  | nil =>
    intro k n pTarget pData b rest hn hp q dir d rd _ hk0 _ _ hlt
    have := hk0 rfl
    subst this
    obtain ⟨m, rfl⟩ : ∃ m, n = m + 2 := ⟨n - 2, by simp at hlt; omega⟩
    simp [HandleProcessingInstructionLoop, XMLEventReader.get, IStream.get,
      XMLEventReader.setStream, XMLEventReader.push]
  | cons c s ih =>
    intro k n pTarget pData b rest hn hp q dir d rd hk hk0 hgt hlast hlt
    obtain ⟨m, rfl⟩ : ∃ m, n = m + 1 := ⟨n - 1, by simp at hlt; omega⟩
    have hlt' : s.length + 2 ≤ m := by simp at hlt; omega
    have hgt' : ∀ x ∈ s, x ≠ '>' := fun x hx => hgt x (by simp [hx])
    have hcg : c ≠ '>' := hgt c (by simp)
    have hlast' : s.getLast? ≠ some '?' := by
      cases s with
      | nil => simp
      | cons c' s' => simpa [List.getLast?_cons_cons] using hlast
    have hk2 : k < 2 := by omega
    by_cases hc : c = '?'
    · subst hc
      have hs : s ≠ [] := by
        rintro rfl
        simp at hlast
      rcases Nat.eq_zero_or_pos k with hkz | hkp
      · subst hkz
        have ih' := ih 1 m pTarget pData ('?' :: b) rest hn hp q dir d rd (by omega)
          (fun h => absurd h hs) hgt' hlast' hlt'
        conv_lhs => unfold HandleProcessingInstructionLoop
        simp only [XMLEventReader.get, IStream.get, XMLEventReader.setStream, List.cons_append,
          Bool.false_eq_true, if_false, (by decide : (0 : Nat) < 2), if_true, true_and,
          Nat.le_refl, Nat.zero_add]
        rw [ih']
        simp [List.replicate]
      · have hk1 : k = 1 := by omega
        subst hk1
        have ih' := ih 0 m pTarget (pData ++ ['?'] ++ ['?']) ('?' :: b) rest hn hp q dir d rd
          (by omega) (fun _ => rfl) hgt' hlast' hlt'
        conv_lhs => unfold HandleProcessingInstructionLoop
        simp only [XMLEventReader.get, IStream.get, XMLEventReader.setStream, List.cons_append,
          Bool.false_eq_true, if_false, (by decide : (1 : Nat) < 2), if_true,
          (by decide : ¬ ((1 : Nat) ≤ 0)), and_false, (by decide : ¬ ('?' = '>')), false_and,
          (by decide : (1 : Nat) > 0)]
        rw [ih']
        simp [List.replicate]
    · have ih' := fun pData' => ih 0 m pTarget pData' (c :: b) rest hn hp q dir d rd
        (by omega) (fun _ => rfl) hgt' hlast' hlt'
      conv_lhs => unfold HandleProcessingInstructionLoop
      simp only [XMLEventReader.get, IStream.get, XMLEventReader.setStream, List.cons_append,
        Bool.false_eq_true, if_false, hk2, if_true, hc, hcg, false_and]
      rw [ih']
      rcases Nat.eq_zero_or_pos k with hkz | hkp
      · subst hkz
        simp [List.replicate]
      · have hk1 : k = 1 := by omega
        subst hk1
        simp [List.replicate]

/-- C21. For every target whose first byte is a letter, that holds no whitespace, `?` or
`>` and is not `xml` in any letter case, every whitespace byte `w` and every data string
that holds no `>` and does not end in `?`, forward `hasNext` on `<?`, the target, `w`,
the data and `?>`, whatever follows, queues exactly the event
`ProcessingInstruction(target, data)` and leaves the get position just behind the `?>`.
Data with a `>` in it or a `?` at its end is read otherwise, although no `?>` stands in
it: on `<?t a>b?>` the event carries the data `a` and the get position is left behind
the first `>`, and on `<?t a??>` the event carries the data `a??` for the data `a?`. -/
theorem forward_processing_instruction (pTarget data : Str) (w : Char) (b rest : Str)
    (d rd : List (Str × Str)) (ht : validTarget pTarget = true) (hw : isspace w = true)
    (hgt : ∀ c ∈ data, c ≠ '>') (hlast : data.getLast? ≠ some '?') :
    hasNext ⟨⟨b, '<' :: '?' :: (pTarget ++ w :: (data ++ '?' :: '>' :: rest)), false⟩,
        false, false, [], true, d, rd⟩ =
      .ok true ⟨⟨'>' :: '?' :: (data.reverse ++ w :: (pTarget.reverse ++ '?' :: '<' :: b)),
          rest, false⟩, true, false,
        [XMLEvent.ofProcessingInstruction ⟨pTarget, data⟩], true, d, rd⟩ ∧
    firstOccurrence ['?', '>'] ("a>b".toList ++ ['?', '>']) = some "a>b".toList.length ∧
    hasNext (XMLEventReader.new (IStream.ofData "<?t a>b?>".toList)) =
      .ok true { XMLEventReader.new ⟨"<?t a>".toList.reverse, "b?>".toList, false⟩ with
        m_bHasNextCalled := true
        m_aEvents := [XMLEvent.ofProcessingInstruction ⟨['t'], ['a']⟩] } ∧
    firstOccurrence ['?', '>'] ("a?".toList ++ ['?', '>']) = some "a?".toList.length ∧
    hasNext (XMLEventReader.new (IStream.ofData "<?t a??>".toList)) =
      .ok true { XMLEventReader.new ⟨"<?t a??>".toList.reverse, [], false⟩ with
        m_bHasNextCalled := true
        m_aEvents := [XMLEvent.ofProcessingInstruction ⟨['t'], "a??".toList⟩] } := by
  refine ⟨?_, by decide, by decide, by decide, by decide⟩
  obtain ⟨t0, ts, rfl, h0, hts, hxml⟩ := validTarget_split ht
  have e1 := HandleProcessingInstructionTarget_space h0 ts hts hw ('?' :: '<' :: b)
    (data ++ '?' :: '>' :: rest) true false [] true d rd
  have e2 := HandleProcessingInstructionLoop_scan data 0
    ((data ++ '?' :: '>' :: rest).length + 1) (t0 :: ts) []
    (w :: (ts.reverse ++ t0 :: '?' :: '<' :: b)) rest true false [] true d rd (by omega)
    (fun _ => rfl) hgt hlast (by simp)
  rw [hasNext_step, if_pos rfl]
  simp only [HandleTag, XMLEventReader.get, IStream.get, XMLEventReader.setStream,
    Bool.false_eq_true, if_false, if_true, HandleProcessingInstruction, List.cons_append]
  rw [e1, bind_ok]
  simp only [hxml, Bool.false_eq_true, if_false, XMLEventReader.budget]
  rw [e2, bind_ok]
  simp

/-- The processing instruction `<?pi a?b ??c?>` in front of `<r/>`: the question marks
inside the data stay. -/
theorem forward_processing_instruction_witness :
    hasNext ⟨⟨[], "<?pi\ta?b ??c?><r/>".toList, false⟩, false, false, [], true, [], []⟩ =
      .ok true ⟨⟨"<?pi\ta?b ??c?>".toList.reverse, "<r/>".toList, false⟩, true, false,
        [XMLEvent.ofProcessingInstruction ⟨"pi".toList, "a?b ??c".toList⟩], true, [], []⟩ :=
  (forward_processing_instruction "pi".toList "a?b ??c".toList '\t' [] "<r/>".toList [] []
    (by decide) (by decide) (by decide) (by decide)).1

/-! ## Whitespace in front of the `>` of a start tag -/

/-- Behind the name of a start tag, a run of whitespace and the `>` behind it are read
and the loop goes on with the byte behind that `>`. -/
theorem HandleTagStartNext_space_close (m : Nat) (p : Option Str) {loc : Str} (hloc : loc ≠ [])
    {w0 : Char} (hw0 : isspace w0 = true) (ws : Str) (hws : ∀ c ∈ ws, isspace c = true)
    (b rest : Str) (hn hp : Bool) (q : List XMLEvent) (dir : Bool) (d rd : List (Str × Str)) :
    HandleTagStartNext (m + 1) p loc []
        ⟨⟨b, w0 :: (ws ++ '>' :: rest), false⟩, hn, hp, q, dir, d, rd⟩ =
      HandleTagStartNext m p loc []
        ⟨⟨'>' :: (ws.reverse ++ w0 :: b), rest, false⟩, hn, hp, q, dir, d, rd⟩ := by
  have h1 : w0 ≠ ':' := by rintro rfl; revert hw0; decide
  have h2 : w0 ≠ '>' := by rintro rfl; revert hw0; decide
  have h3 : w0 ≠ '/' := by rintro rfl; revert hw0; decide
  have hlen : ¬ loc.length ≤ 0 := by
    have := List.length_pos.mpr hloc
    omega
  have e := HandleTagStartSpace_space ws hws (rest.length + 2) [] (w0 :: b) ('>' :: rest)
    hn hp q dir d rd
  have e2 : HandleTagStartSpace (rest.length + 2) []
      ⟨⟨ws.reverse ++ w0 :: b, '>' :: rest, false⟩, hn, hp, q, dir, d, rd⟩ =
      .ok [] ⟨⟨'>' :: (ws.reverse ++ w0 :: b), rest, false⟩, hn, hp, q, dir, d, rd⟩ := by
    simp [HandleTagStartSpace, XMLEventReader.get, IStream.get, XMLEventReader.setStream]
  conv_lhs => unfold HandleTagStartNext
  simp only [XMLEventReader.get, IStream.get, XMLEventReader.setStream, Bool.false_eq_true,
    if_false, HandleTagStartLoop, h1, h2, h3, hw0, if_true, hlen, XMLEventReader.budget,
    List.length_append, List.length_cons]
  rw [show ws.length + (rest.length + 1) + 1 = (rest.length + 2) + ws.length by omega, e, e2,
    bind_ok]
  rfl

theorem HandleTagStartNext_end (m : Nat) (p : Option Str) (loc : Str) (at_ : List Attribute)
    (b : Str) (hn hp : Bool) (q : List XMLEvent) (dir : Bool) (d rd : List (Str × Str)) :
    HandleTagStartNext m p loc at_ ⟨⟨b, [], false⟩, hn, hp, q, dir, d, rd⟩ =
      .throw (.runtime_error "Tag start incomplete.")
        ⟨⟨b, [], true⟩, hn, hp, q, dir, d, rd⟩ := by
  simp [HandleTagStartNext, XMLEventReader.get, IStream.get, XMLEventReader.setStream,
    malformed]

theorem HandleTagStartNext_unsupported (m : Nat) (p : Option Str) (loc : Str)
    (at_ : List Attribute) {c : Char} (h1 : c ≠ ':') (h2 : c ≠ '>') (h3 : c ≠ '/')
    (h4 : isspace c = false) (h5 : isNameByte c = false)
    (b rest : Str) (hn hp : Bool) (q : List XMLEvent) (dir : Bool) (d rd : List (Str × Str)) :
    HandleTagStartNext (m + 1) p loc at_ ⟨⟨b, c :: rest, false⟩, hn, hp, q, dir, d, rd⟩ =
      .throw (.runtime_error "Character not supported in a start tag name.")
        ⟨⟨c :: b, rest, false⟩, hn, hp, q, dir, d, rd⟩ := by
  have h6 : ¬ (isalnum c = true ∨ c = '-' ∨ c = '_' ∨ c = '.') := by
    intro h
    have : isNameByte c = true := by
      simp only [isNameByte, Bool.or_eq_true, decide_eq_true_eq]
      tauto
    rw [h5] at this
    cases this
  simp only [HandleTagStartNext, XMLEventReader.get, IStream.get, XMLEventReader.setStream,
    Bool.false_eq_true, if_false, HandleTagStartLoop, h1, h2, h3, h4, h6, malformed]

/-- C25. A start tag with whitespace between its name and its `>`. For every valid
element name `n` with a local part that is not empty and every run `w` of whitespace
that is not empty, forward `hasNext` on `<n`, `w`, `>` does not stop behind the `>`: it
reads the byte behind it as the next byte of the tag. At the end of the stream it
throws; in front of a second `>` it queues `StartElement(n)` and leaves the get
position behind that second `>`; in front of a byte that is no name byte, whitespace,
`:`, `/` or `>`, such as the `<` of the next tag, it throws. On `<a >x</a>` it throws,
and on `<a >x>` it queues a `StartElement` with the name `ax`. -/
theorem forward_start_tag_space_before_close (n w b rest : Str) (d rd : List (Str × Str))
    (hn : validName n = true) (hloc : (qnameOf n).m_strLocalPart ≠ [])
    (hw : isSpaceRun w = true) :
    hasNext ⟨⟨b, '<' :: n ++ (w ++ ['>']), false⟩, false, false, [], true, d, rd⟩ =
      .throw (.runtime_error "Tag start incomplete.")
        ⟨⟨'>' :: (w.reverse ++ (n.reverse ++ '<' :: b)), [], true⟩, true, false, [], true,
          d, rd⟩ ∧
    hasNext ⟨⟨b, '<' :: n ++ (w ++ '>' :: '>' :: rest), false⟩, false, false, [], true,
        d, rd⟩ =
      .ok true ⟨⟨'>' :: '>' :: (w.reverse ++ (n.reverse ++ '<' :: b)), rest, false⟩, true,
        false, [XMLEvent.ofStartElement ⟨qnameOf n, []⟩], true, d, rd⟩ ∧
    (∀ c : Char, c ≠ ':' → c ≠ '>' → c ≠ '/' → isspace c = false → isNameByte c = false →
      hasNext ⟨⟨b, '<' :: n ++ (w ++ '>' :: c :: rest), false⟩, false, false, [], true,
          d, rd⟩ =
        .throw (.runtime_error "Character not supported in a start tag name.")
          ⟨⟨c :: '>' :: (w.reverse ++ (n.reverse ++ '<' :: b)), rest, false⟩, true, false,
            [], true, d, rd⟩) ∧
    hasNext (XMLEventReader.new (IStream.ofData "<a >x</a>".toList)) =
      .throw (.runtime_error "Character not supported in a start tag name.")
        { XMLEventReader.new ⟨"<a >x<".toList.reverse, "/a>".toList, false⟩ with
          m_bHasNextCalled := true } ∧
    hasNext (XMLEventReader.new (IStream.ofData "<a >x>".toList)) =
      .ok true { XMLEventReader.new ⟨"<a >x>".toList.reverse, [], false⟩ with
        m_bHasNextCalled := true
        m_aEvents := [XMLEvent.ofStartElement ⟨QName.mk [] ['a', 'x'] [], []⟩] } := by
  refine ⟨?_, ?_, ?_, by decide, by decide⟩
  all_goals
    obtain ⟨c0, cs, rfl, h0, -⟩ := validName_split hn
    obtain ⟨p, loc, hq, hscan⟩ := HandleTagStartNext_name hn
    have hloc' : loc ≠ [] := by
      have := congrArg QName.m_strLocalPart hq
      simp only at this
      rw [this]
      exact hloc
    have hwne : w ≠ [] := by
      rintro rfl
      simp [isSpaceRun] at hw
    obtain ⟨w0, ws, rfl⟩ := List.exists_cons_of_ne_nil hwne
    have hw0 : isspace w0 = true := by
      simp only [isSpaceRun, Bool.and_eq_true, List.all_eq_true] at hw
      exact hw.2 w0 (by simp)
    have hws : ∀ c ∈ ws, isspace c = true := by
      simp only [isSpaceRun, Bool.and_eq_true, List.all_eq_true] at hw
      exact fun c hc => hw.2 c (by simp [hc])
  · rw [List.cons_append, hasNext_step, if_pos rfl, List.cons_append, HandleTag_nameStart _ h0,
      HandleTagStart_eq_next]
    rw [show (cs ++ (w0 :: ws ++ ['>'])).length = (ws.length + 1 + 1) + cs.length by
      simp; omega, hscan, List.cons_append,
      HandleTagStartNext_space_close _ p hloc' hw0 ws hws, HandleTagStartNext_end]
    simp
  · rw [List.cons_append, hasNext_step, if_pos rfl, List.cons_append, HandleTag_nameStart _ h0,
      HandleTagStart_eq_next]
    rw [show (cs ++ (w0 :: ws ++ '>' :: '>' :: rest)).length =
      (ws.length + rest.length + 1 + 1 + 1) + cs.length by simp; omega, hscan, List.cons_append,
      HandleTagStartNext_space_close _ p hloc' hw0 ws hws, HandleTagStartNext_close]
    simp [startEvent, hq]
  · intro c h1 h2 h3 h4 h5
    rw [List.cons_append, hasNext_step, if_pos rfl, List.cons_append, HandleTag_nameStart _ h0,
      HandleTagStart_eq_next]
    rw [show (cs ++ (w0 :: ws ++ '>' :: c :: rest)).length =
      (ws.length + rest.length + 1 + 1 + 1) + cs.length by simp; omega, hscan, List.cons_append,
      HandleTagStartNext_space_close _ p hloc' hw0 ws hws,
      HandleTagStartNext_unsupported _ p loc [] h1 h2 h3 h4 h5]
    simp

/-- The tag `<a >` at the end of the stream, and the tag `<b:c \t>` in front of `>`. -/
theorem forward_start_tag_space_before_close_witness :
    hasNext ⟨⟨[], "<a >".toList, false⟩, false, false, [], true, [], []⟩ =
      .throw (.runtime_error "Tag start incomplete.")
        ⟨⟨"<a >".toList.reverse, [], true⟩, true, false, [], true, [], []⟩ ∧
    hasNext ⟨⟨[], "<b:c \t>>".toList, false⟩, false, false, [], true, [], []⟩ =
      .ok true ⟨⟨"<b:c \t>>".toList.reverse, [], false⟩, true, false,
        [XMLEvent.ofStartElement ⟨qnameOf "b:c".toList, []⟩], true, [], []⟩ :=
  ⟨(forward_start_tag_space_before_close ['a'] [' '] [] [] [] [] (by decide) (by decide)
      (by decide)).1,
   (forward_start_tag_space_before_close "b:c".toList [' ', '\t'] [] [] [] [] (by decide)
      (by decide) (by decide)).2.1⟩

/-! ## Calls that end, forwards -/

theorem AdvancesBy.nil (r : XMLEventReader) : AdvancesBy [] r r :=
  ⟨rfl, rfl, rfl⟩

theorem AdvancesBy.append {l1 l2 : Str} {r r1 r2 : XMLEventReader} (h1 : AdvancesBy l1 r r1)
    (h2 : AdvancesBy l2 r1 r2) : AdvancesBy (l1 ++ l2) r r2 := by
  obtain ⟨a1, b1, e1⟩ := h1
  obtain ⟨a2, b2, e2⟩ := h2
  refine ⟨?_, ?_, e2.trans e1⟩
  · rw [a1, a2, List.append_assoc]
  · rw [b2, b1]; simp

theorem AdvancesBy.length_eq {l : Str} {r r' : XMLEventReader} (h : AdvancesBy l r r') :
    r'.m_aStream.after.length + l.length = r.m_aStream.after.length := by
  rw [h.1]; simp; omega

theorem Advances.self (r : XMLEventReader) : Advances r r := ⟨[], AdvancesBy.nil r⟩

theorem Advances.chain {r r1 r2 : XMLEventReader} (h1 : Advances r r1) (h2 : Advances r1 r2) :
    Advances r r2 := by
  obtain ⟨l1, h1⟩ := h1
  obtain ⟨l2, h2⟩ := h2
  exact ⟨l1 ++ l2, h1.append h2⟩

theorem Advances.length_le {r r' : XMLEventReader} (h : Advances r r') :
    r'.m_aStream.after.length ≤ r.m_aStream.after.length := by
  obtain ⟨l, h⟩ := h
  have := h.length_eq
  omega

theorem Advances.events {r r' : XMLEventReader} (h : Advances r r') :
    r'.m_aEvents = r.m_aEvents := by
  obtain ⟨l, h⟩ := h
  exact h.2.2

theorem Advances.lacks {r r' : XMLEventReader} (h : Advances r r') {c : Char}
    (hc : r.lacks c) : r'.lacks c := by
  obtain ⟨l, h⟩ := h
  intro x hx
  apply hc x
  rw [h.1]
  simp [hx]

/-- What `get` does: at the end of the stream, or on a failed stream, it delivers
nothing and does not move; otherwise it delivers the next byte, which `unget` gives
back. -/
theorem get_cases (r : XMLEventReader) :
    (∃ r1, r.get = (none, r1) ∧ AdvancesBy [] r r1) ∨
    ∃ c r1, r.get = (some c, r1) ∧ AdvancesBy [c] r r1 ∧ r1.unget = r := by
  obtain ⟨⟨b, a, e⟩, hn, hp, q, dir, d, rd⟩ := r
  cases e with
  | true => exact Or.inl ⟨_, rfl, rfl, rfl, rfl⟩
  | false =>
    cases a with
    | nil => exact Or.inl ⟨_, rfl, rfl, rfl, rfl⟩
    | cons c a => exact Or.inr ⟨c, _, rfl, ⟨rfl, rfl, rfl⟩, rfl⟩

theorem Result.Steps.behind {α : Type} {r r1 : XMLEventReader} {x : Result α}
    (h : Advances r r1) (hx : x.Steps r1) : x.Steps r := by
  cases x with
  | ok a r2 => exact h.chain hx
  | throw e r2 => exact ⟨hx.1, hx.2.trans h.events⟩
  | exhausted => exact hx

theorem Result.Steps.andThen {α β : Type} {r : XMLEventReader} {x : Result α}
    {f : α → XMLEventReader → Result β} (hx : x.Steps r)
    (hf : ∀ a r1, x = .ok a r1 → (f a r1).Steps r1) : (x.bind f).Steps r := by
  cases x with
  | ok a r1 => exact Result.Steps.behind hx (hf a r1 rfl)
  | throw e r1 => exact hx
  | exhausted => exact hx

theorem Result.Steps.of_malformed {α : Type} (r : XMLEventReader) (what : String) :
    (malformed what r : Result α).Steps r :=
  ⟨⟨what, rfl⟩, rfl⟩

theorem Result.Fails.past {α : Type} {r r1 : XMLEventReader} {x : Result α}
    (h : Advances r r1) (hx : x.Fails r1) : x.Fails r := by
  obtain ⟨what, r', hx, he⟩ := hx
  exact ⟨what, r', hx, he.trans h.events⟩

theorem Result.Fails.by_malformed {α : Type} (r : XMLEventReader) (what : String) :
    (malformed what r : Result α).Fails r :=
  ⟨what, r, rfl, rfl⟩

/-- A call that ends, followed by a call that throws whenever the first returns,
throws. -/
theorem Result.Fails.of_steps {α β : Type} {r : XMLEventReader} {x : Result α}
    {f : α → XMLEventReader → Result β} (hx : x.Steps r)
    (hf : ∀ a r1, x = .ok a r1 → (f a r1).Fails r1) : (x.bind f).Fails r := by
  cases x with
  | ok a r1 => exact Result.Fails.past hx (hf a r1 rfl)
  | throw e r1 =>
    obtain ⟨⟨what, rfl⟩, he⟩ := hx
    exact ⟨what, r1, rfl, he⟩
  | exhausted => exact absurd hx id

theorem Result.Fails.bind_left {α β : Type} {r : XMLEventReader} {x : Result α}
    (f : α → XMLEventReader → Result β) (hx : x.Fails r) : (x.bind f).Fails r := by
  obtain ⟨what, r', rfl, he⟩ := hx
  exact ⟨what, r', rfl, he⟩

/-- `ConsumeWhitespace` returns on every stream; the byte it returns, unless it is `\0`,
is the last byte it read, so that `unget` gives it back. -/
theorem steps_ConsumeWhitespaceLoop : ∀ (n : Nat) (r : XMLEventReader),
    r.m_aStream.after.length < n →
    ∃ c r', ConsumeWhitespaceLoop n r = .ok c r' ∧ Advances r r' ∧
      (c ≠ '\x00' → Advances r r'.unget ∧ r'.unget.m_aStream.after.head? = some c) := by
  intro n
  induction n with
  | zero => intro r h; omega
  | succ n ih =>
    intro r hlt
    rcases get_cases r with ⟨r1, hg, hadv⟩ | ⟨c, r1, hg, hadv, hun⟩
    · exact ⟨'\x00', r1, by simp [ConsumeWhitespaceLoop, hg], ⟨[], hadv⟩, fun h => absurd rfl h⟩
    · by_cases hs : isspace c = false
      · refine ⟨c, r1, by simp [ConsumeWhitespaceLoop, hg, hs], ⟨[c], hadv⟩, fun _ => ?_⟩
        rw [hun]
        exact ⟨Advances.self r, by rw [hadv.1]; rfl⟩
      · have hlen := hadv.length_eq
        obtain ⟨c', r', he, ha, hu⟩ := ih r1 (by simp at hlen; omega)
        refine ⟨c', r', by simp [ConsumeWhitespaceLoop, hg, hs, he], Advances.chain ⟨[c], hadv⟩ ha,
          fun h0 => ⟨Advances.chain ⟨[c], hadv⟩ (hu h0).1, (hu h0).2⟩⟩

theorem steps_ConsumeWhitespace (r : XMLEventReader) :
    ∃ c r', ConsumeWhitespace r = .ok c r' ∧ Advances r r' ∧
      (c ≠ '\x00' → Advances r r'.unget ∧ r'.unget.m_aStream.after.head? = some c) :=
  steps_ConsumeWhitespaceLoop _ r (by simp [XMLEventReader.budget])

theorem steps_ResolveEntityLoop : ∀ (n : Nat) (pEntityName : Str) (r : XMLEventReader),
    r.m_aStream.after.length < n → (ResolveEntityLoop n pEntityName r).Steps r := by
  intro n
  induction n with
  | zero => intro _ r h; omega
  | succ n ih =>
    intro pEntityName r hlt
    rcases get_cases r with ⟨r1, hg, hadv⟩ | ⟨c, r1, hg, hadv, hun⟩
    · simp only [ResolveEntityLoop, hg]
      exact Result.Steps.behind ⟨[], hadv⟩ (Result.Steps.of_malformed _ _)
    · have hlen := hadv.length_eq
      simp only [ResolveEntityLoop, hg]
      split
      · exact ⟨[c], hadv⟩
      · exact Result.Steps.behind ⟨[c], hadv⟩ (ih _ r1 (by simp at hlen; omega))

theorem steps_ResolveEntity (r : XMLEventReader) : (ResolveEntity r).Steps r := by
  rcases get_cases r with ⟨r1, hg, hadv⟩ | ⟨c, r1, hg, hadv, hun⟩
  · simp only [ResolveEntity, hg]
    exact Result.Steps.behind ⟨[], hadv⟩ (Result.Steps.of_malformed _ _)
  · simp only [ResolveEntity, hg]
    split
    · exact Result.Steps.behind ⟨[c], hadv⟩ (Result.Steps.of_malformed _ _)
    · refine Result.Steps.behind ⟨[c], hadv⟩ (Result.Steps.andThen
        (steps_ResolveEntityLoop _ _ r1 (by simp [XMLEventReader.budget])) ?_)
      intro a r2 _
      split
      · exact Advances.self r2
      · exact Result.Steps.of_malformed _ _

theorem steps_HandleAttributeValueLoop : ∀ (n : Nat) (cDelimiter : Char) (pValue : Str)
    (r : XMLEventReader), r.m_aStream.after.length < n →
    (HandleAttributeValueLoop n cDelimiter pValue r).Steps r := by
  intro n
  induction n with
  | zero => intro _ _ r h; omega
  | succ n ih =>
    intro cDelimiter pValue r hlt
    rcases get_cases r with ⟨r1, hg, hadv⟩ | ⟨c, r1, hg, hadv, hun⟩
    · simp only [HandleAttributeValueLoop, hg]
      exact Result.Steps.behind ⟨[], hadv⟩ (Result.Steps.of_malformed _ _)
    · have hlen := hadv.length_eq
      simp only [HandleAttributeValueLoop, hg]
      split
      · exact ⟨[c], hadv⟩
      · split
        · refine Result.Steps.behind ⟨[c], hadv⟩ (Result.Steps.andThen (steps_ResolveEntity r1) ?_)
          intro a r2 he
          have h2 := steps_ResolveEntity r1
          rw [he] at h2
          have := Advances.length_le h2
          exact ih _ _ r2 (by simp at hlen; omega)
        · exact Result.Steps.behind ⟨[c], hadv⟩ (ih _ _ r1 (by simp at hlen; omega))

theorem steps_HandleAttributeValue (r : XMLEventReader) : (HandleAttributeValue r).Steps r := by
  obtain ⟨c, r1, he, ha, -⟩ := steps_ConsumeWhitespace r
  simp only [HandleAttributeValue, he, bind_ok]
  refine Result.Steps.behind ha ?_
  split
  · exact Result.Steps.of_malformed _ _
  · split
    · exact Result.Steps.of_malformed _ _
    · exact steps_HandleAttributeValueLoop _ _ _ r1 (by simp [XMLEventReader.budget])

theorem steps_HandleAttributeNameLoop : ∀ (n : Nat) (pNamePrefix : Option Str)
    (pNameLocalPart : Str) (r : XMLEventReader), r.m_aStream.after.length < n →
    (HandleAttributeNameLoop n pNamePrefix pNameLocalPart r).Steps r := by
  intro n
  induction n with
  | zero => intro _ _ r h; omega
  | succ n ih =>
    intro pNamePrefix pNameLocalPart r hlt
    rcases get_cases r with ⟨r1, hg, hadv⟩ | ⟨c, r1, hg, hadv, hun⟩
    · simp only [HandleAttributeNameLoop, hg]
      exact Result.Steps.behind ⟨[], hadv⟩ (Result.Steps.of_malformed _ _)
    · have hlen := hadv.length_eq
      have hr1 : r1.m_aStream.after.length < n := by simp at hlen; omega
      simp only [HandleAttributeNameLoop, hg]
      refine Result.Steps.behind ⟨[c], hadv⟩ ?_
      split
      · cases pNamePrefix with
        | some p => exact Result.Steps.of_malformed _ _
        | none => exact ih _ _ r1 hr1
      · split
        · obtain ⟨c2, r2, he, ha, hu⟩ := steps_ConsumeWhitespace r1
          simp only [he, bind_ok]
          split
          · exact Result.Steps.behind ha (Result.Steps.of_malformed _ _)
          · split
            · exact Result.Steps.behind ha (Result.Steps.of_malformed _ _)
            · rename_i h0 _
              have hu' := (hu h0).1
              exact Result.Steps.behind hu' (ih _ _ r2.unget (by
                have := Advances.length_le hu'
                omega))
        · split
          · exact ⟨[], AdvancesBy.nil r1⟩
          · split
            · exact ih _ _ r1 hr1
            · exact Result.Steps.of_malformed _ _

theorem steps_HandleAttributeName (cFirstByte : Char) (r : XMLEventReader) :
    (HandleAttributeName cFirstByte r).Steps r := by
  simp only [HandleAttributeName]
  split
  · exact steps_HandleAttributeNameLoop _ _ _ r (by simp [XMLEventReader.budget])
  · exact Result.Steps.of_malformed _ _

theorem Result.Steps.after_le {α : Type} {r r1 : XMLEventReader} {x : Result α} {a : α}
    (hx : x.Steps r) (he : x = .ok a r1) :
    r1.m_aStream.after.length ≤ r.m_aStream.after.length := by
  subst he
  exact Advances.length_le hx

theorem steps_HandleAttributesLoop : ∀ (n : Nat) (pAttributes : List Attribute)
    (r : XMLEventReader), r.m_aStream.after.length < n →
    (HandleAttributesLoop n pAttributes r).Steps r := by
  intro n
  induction n with
  | zero => intro _ r h; omega
  | succ n ih =>
    intro pAttributes r hlt
    rcases get_cases r with ⟨r1, hg, hadv⟩ | ⟨c, r1, hg, hadv, hun⟩
    · simp only [HandleAttributesLoop, hg]
      exact Result.Steps.behind ⟨[], hadv⟩ (Result.Steps.of_malformed _ _)
    · have hlen := hadv.length_eq
      have hr1 : r1.m_aStream.after.length < n := by simp at hlen; omega
      simp only [HandleAttributesLoop, hg]
      split
      · rw [hun]; exact Advances.self r
      · split
        · rcases get_cases r1 with ⟨r2, hg2, hadv2⟩ | ⟨c2, r2, hg2, hadv2, hun2⟩
          · simp only [hg2]
            exact Result.Steps.behind (Advances.chain ⟨[c], hadv⟩ ⟨[], hadv2⟩)
              (Result.Steps.of_malformed _ _)
          · simp only [hg2]
            split
            · exact Result.Steps.behind (Advances.chain ⟨[c], hadv⟩ ⟨[c2], hadv2⟩)
                (Result.Steps.of_malformed _ _)
            · rw [hun2, hun]; exact Advances.self r
        · refine Result.Steps.behind ⟨[c], hadv⟩ ?_
          split
          · exact ih _ r1 hr1
          · refine Result.Steps.andThen (steps_HandleAttributeName c r1) ?_
            intro a r2 he
            have h2 := Result.Steps.after_le (steps_HandleAttributeName c r1) he
            refine Result.Steps.andThen (steps_HandleAttributeValue r2) ?_
            intro v r3 he3
            have h3 := Result.Steps.after_le (steps_HandleAttributeValue r2) he3
            exact ih _ r3 (by omega)

theorem steps_HandleAttributes (cFirstByte : Char) (pAttributes : List Attribute)
    (r : XMLEventReader) : (HandleAttributes cFirstByte pAttributes r).Steps r := by
  simp only [HandleAttributes]
  refine Result.Steps.andThen (steps_HandleAttributeName cFirstByte r) ?_
  intro a r2 _
  refine Result.Steps.andThen (steps_HandleAttributeValue r2) ?_
  intro v r3 _
  exact steps_HandleAttributesLoop _ _ r3 (by simp [XMLEventReader.budget])

theorem steps_HandleTagStartSpace : ∀ (n : Nat) (pAttributes : List Attribute)
    (r : XMLEventReader), r.m_aStream.after.length < n →
    (HandleTagStartSpace n pAttributes r).Steps r := by
  intro n
  induction n with
  | zero => intro _ r h; omega
  | succ n ih =>
    intro pAttributes r hlt
    rcases get_cases r with ⟨r1, hg, hadv⟩ | ⟨c, r1, hg, hadv, hun⟩
    · simp only [HandleTagStartSpace, hg]
      exact Result.Steps.behind ⟨[], hadv⟩ (Result.Steps.of_malformed _ _)
    · have hlen := hadv.length_eq
      have hr1 : r1.m_aStream.after.length < n := by simp at hlen; omega
      simp only [HandleTagStartSpace, hg]
      split
      · exact ⟨[c], hadv⟩
      · split
        · exact Result.Steps.behind ⟨[c], hadv⟩ (ih _ r1 hr1)
        · split
          · rw [hun]; exact Advances.self r
          · exact Result.Steps.behind ⟨[c], hadv⟩ (steps_HandleAttributes c _ r1)

theorem steps_HandleProcessingInstructionTargetLoop : ∀ (n nMatchCount : Nat)
    (pName : Option Str) (r : XMLEventReader), r.m_aStream.after.length < n →
    (HandleProcessingInstructionTargetLoop n nMatchCount pName r).Steps r := by
  intro n
  induction n with
  | zero => intro _ _ r h; omega
  | succ n ih =>
    intro nMatchCount pName r hlt
    simp only [HandleProcessingInstructionTargetLoop]
    split
    · rcases get_cases r with ⟨r1, hg, hadv⟩ | ⟨c, r1, hg, hadv, hun⟩
      · simp only [hg]
        exact Result.Steps.behind ⟨[], hadv⟩ (Result.Steps.of_malformed _ _)
      · have hlen := hadv.length_eq
        have hr1 : r1.m_aStream.after.length < n := by simp at hlen; omega
        simp only [hg]
        refine Result.Steps.behind ⟨[c], hadv⟩ ?_
        split
        · exact ih _ _ r1 hr1
        · split
          · exact Result.Steps.of_malformed _ _
          · split
            · cases pName with
              | none => exact Result.Steps.of_malformed _ _
              | some strName => exact Advances.self r1
            · split
              · exact Result.Steps.of_malformed _ _
              · cases pName with
                | none =>
                  simp only
                  split
                  · exact Result.Steps.of_malformed _ _
                  · exact ih _ _ r1 hr1
                | some strName => exact ih _ _ r1 hr1
    · exact Advances.self r

theorem steps_HandleProcessingInstructionTarget (r : XMLEventReader) :
    (HandleProcessingInstructionTarget r).Steps r :=
  steps_HandleProcessingInstructionTargetLoop _ _ _ r (by simp [XMLEventReader.budget])

/-! ## A tag cut off by the end of the stream -/

theorem AdvancesBy.head_mem {c : Char} {r r1 : XMLEventReader} (h : AdvancesBy [c] r r1) :
    c ∈ r.m_aStream.after := by
  rw [h.1]; simp

theorem fails_HandleTagStartLoop : ∀ (n : Nat) (cByte : Char) (pNamePrefix : Option Str)
    (pNameLocalPart : Str) (pAttributes : List Attribute) (r : XMLEventReader),
    r.m_aStream.after.length < n → r.lacks '>' → cByte ≠ '>' →
    (HandleTagStartLoop n cByte pNamePrefix pNameLocalPart pAttributes r).Fails r := by
  intro n
  induction n with
  | zero => intro _ _ _ _ r h; omega
  | succ n ih =>
    intro cByte pNamePrefix pNameLocalPart pAttributes r hlt hl hc
    have next : ∀ (r0 : XMLEventReader) (p : Option Str) (loc : Str) (at_ : List Attribute),
        Advances r r0 →
        (match r0.get with
          | (none, r) => (malformed "Tag start incomplete." r : Result Bool)
          | (some cByte, r) => HandleTagStartLoop n cByte p loc at_ r).Fails r := by
      intro r0 p loc at_ h0
      have hl0 := Advances.lacks h0 hl
      have hlen0 := Advances.length_le h0
      rcases get_cases r0 with ⟨r1, hg, hadv⟩ | ⟨c, r1, hg, hadv, hun⟩
      · simp only [hg]
        exact Result.Fails.past (h0.chain ⟨[], hadv⟩) (Result.Fails.by_malformed _ _)
      · have hlen := hadv.length_eq
        simp only [hg]
        exact Result.Fails.past (h0.chain ⟨[c], hadv⟩)
          (ih c _ _ _ r1 (by simp at hlen; omega) (Advances.lacks ⟨[c], hadv⟩ hl0)
            (hl0 c hadv.head_mem))
    have hgt : (cByte = '>') = False := eq_false hc
    simp only [HandleTagStartLoop, hgt, if_false]
    by_cases h1 : cByte = ':'
    · simp only [h1, if_true]
      cases pNamePrefix with
      | some p => exact Result.Fails.by_malformed _ _
      | none => exact next r _ _ _ (Advances.self r)
    · simp only [h1, if_false]
      by_cases h2 : cByte = '/'
      · simp only [h2, if_true]
        rcases get_cases r with ⟨r1, hg, hadv⟩ | ⟨c, r1, hg, hadv, hun⟩
        · simp only [hg]
          exact Result.Fails.past ⟨[], hadv⟩ (Result.Fails.by_malformed _ _)
        · simp only [hg, ne_eq, hl c hadv.head_mem, not_false_eq_true, if_true]
          exact Result.Fails.past ⟨[c], hadv⟩ (Result.Fails.by_malformed _ _)
      · simp only [h2, if_false]
        by_cases h3 : isspace cByte = true
        · simp only [h3, if_true]
          by_cases h4 : pNameLocalPart.length ≤ 0
          · simp only [h4, if_true]
            exact Result.Fails.by_malformed _ _
          · simp only [h4, if_false]
            refine Result.Fails.of_steps (steps_HandleTagStartSpace _ _ r
              (by simp [XMLEventReader.budget])) ?_
            intro a r1 he
            have h1 := steps_HandleTagStartSpace r.budget pAttributes r
              (by simp [XMLEventReader.budget])
            rw [he] at h1
            obtain ⟨what, r', hx, hev⟩ := next r1 pNamePrefix pNameLocalPart a h1
            exact ⟨what, r', hx, hev.trans (Advances.events h1).symm⟩
        · simp only [h3, Bool.false_eq_true, if_false]
          by_cases h5 : isalnum cByte = true ∨ cByte = '-' ∨ cByte = '_' ∨ cByte = '.'
          · simp only [h5, if_true]
            exact next r _ _ _ (Advances.self r)
          · simp only [h5, if_false]
            exact Result.Fails.by_malformed _ _

theorem fails_HandleTagStart (cFirstByte : Char) (r : XMLEventReader) (hl : r.lacks '>') :
    (HandleTagStart cFirstByte r).Fails r := by
  rcases get_cases r with ⟨r1, hg, hadv⟩ | ⟨c, r1, hg, hadv, hun⟩
  · simp only [HandleTagStart, hg]
    exact Result.Fails.past ⟨[], hadv⟩ (Result.Fails.by_malformed _ _)
  · simp only [HandleTagStart, hg]
    exact Result.Fails.past ⟨[c], hadv⟩
      (fails_HandleTagStartLoop _ c _ _ _ r1 (by simp [XMLEventReader.budget])
        (Advances.lacks ⟨[c], hadv⟩ hl) (hl c hadv.head_mem))

theorem fails_HandleTagEndLoop : ∀ (n : Nat) (cByte : Char) (pNamePrefix : Option Str)
    (pNameLocalPart : Str) (r : XMLEventReader),
    r.m_aStream.after.length < n → r.lacks '>' → cByte ≠ '>' →
    (HandleTagEndLoop n cByte pNamePrefix pNameLocalPart r).Fails r := by
  intro n
  induction n with
  | zero => intro _ _ _ r h; omega
  | succ n ih =>
    intro cByte pNamePrefix pNameLocalPart r hlt hl hc
    have next : ∀ (p : Option Str) (loc : Str),
        (match r.get with
          | (none, r) => (malformed "End tag incomplete." r : Result Bool)
          | (some cByte, r) => HandleTagEndLoop n cByte p loc r).Fails r := by
      intro p loc
      rcases get_cases r with ⟨r1, hg, hadv⟩ | ⟨c, r1, hg, hadv, hun⟩
      · simp only [hg]
        exact Result.Fails.past ⟨[], hadv⟩ (Result.Fails.by_malformed _ _)
      · have hlen := hadv.length_eq
        simp only [hg]
        exact Result.Fails.past ⟨[c], hadv⟩
          (ih c _ _ r1 (by simp at hlen; omega) (Advances.lacks ⟨[c], hadv⟩ hl)
            (hl c hadv.head_mem))
    have hgt : (cByte = '>') = False := eq_false hc
    simp only [HandleTagEndLoop, hgt, if_false]
    by_cases h1 : cByte = ':'
    · simp only [h1, if_true]
      cases pNamePrefix with
      | some p => exact Result.Fails.by_malformed _ _
      | none => exact next _ _
    · simp only [h1, if_false]
      by_cases h5 : isalnum cByte = true ∨ cByte = '-' ∨ cByte = '_' ∨ cByte = '.'
      · simp only [h5, if_true]
        exact next _ _
      · simp only [h5, if_false]
        exact Result.Fails.by_malformed _ _

theorem fails_HandleTagEnd (r : XMLEventReader) (hl : r.lacks '>') :
    (HandleTagEnd r).Fails r := by
  rcases get_cases r with ⟨r1, hg, hadv⟩ | ⟨c, r1, hg, hadv, hun⟩
  · simp only [HandleTagEnd, hg]
    exact Result.Fails.past ⟨[], hadv⟩ (Result.Fails.by_malformed _ _)
  · simp only [HandleTagEnd, hg]
    exact Result.Fails.past ⟨[c], hadv⟩
      (fails_HandleTagEndLoop _ c _ _ r1 (by simp [XMLEventReader.budget])
        (Advances.lacks ⟨[c], hadv⟩ hl) (hl c hadv.head_mem))

theorem fails_HandleXmlDeclarationLoop : ∀ (n nMatchCount : Nat) (r : XMLEventReader),
    r.m_aStream.after.length < n → r.lacks '>' → nMatchCount < 2 →
    (HandleXmlDeclarationLoop n nMatchCount r).Fails r := by
  intro n
  induction n with
  | zero => intro _ r h; omega
  | succ n ih =>
    intro nMatchCount r hlt hl hm
    simp only [HandleXmlDeclarationLoop, hm, if_true]
    rcases get_cases r with ⟨r1, hg, hadv⟩ | ⟨c, r1, hg, hadv, hun⟩
    · simp only [hg]
      exact Result.Fails.past ⟨[], hadv⟩ (Result.Fails.by_malformed _ _)
    · have hlen := hadv.length_eq
      have hr1 : r1.m_aStream.after.length < n := by simp at hlen; omega
      have hl1 := Advances.lacks ⟨[c], hadv⟩ hl
      have hc := hl c hadv.head_mem
      simp only [hg, hc, false_and, if_false]
      refine Result.Fails.past ⟨[c], hadv⟩ ?_
      split
      · rename_i h
        exact ih _ r1 hr1 hl1 (by omega)
      · exact ih _ r1 hr1 hl1 hm

theorem fails_HandleProcessingInstructionLoop : ∀ (n nMatchCount : Nat) (pTarget pData : Str)
    (r : XMLEventReader), r.m_aStream.after.length < n → r.lacks '>' → nMatchCount < 2 →
    (HandleProcessingInstructionLoop n nMatchCount pTarget pData r).Fails r := by
  intro n
  induction n with
  | zero => intro _ _ _ r h; omega
  | succ n ih =>
    intro nMatchCount pTarget pData r hlt hl hm
    simp only [HandleProcessingInstructionLoop, hm, if_true]
    rcases get_cases r with ⟨r1, hg, hadv⟩ | ⟨c, r1, hg, hadv, hun⟩
    · simp only [hg]
      exact Result.Fails.past ⟨[], hadv⟩ (Result.Fails.by_malformed _ _)
    · have hlen := hadv.length_eq
      have hr1 : r1.m_aStream.after.length < n := by simp at hlen; omega
      have hl1 := Advances.lacks ⟨[c], hadv⟩ hl
      have hc := hl c hadv.head_mem
      simp only [hg, hc, false_and, if_false]
      refine Result.Fails.past ⟨[c], hadv⟩ ?_
      split
      · rename_i h
        exact ih _ _ _ r1 hr1 hl1 (by omega)
      · exact ih _ _ _ r1 hr1 hl1 (by omega)

theorem fails_HandleProcessingInstruction (r : XMLEventReader) (hl : r.lacks '>') :
    (HandleProcessingInstruction r).Fails r := by
  simp only [HandleProcessingInstruction]
  refine Result.Fails.of_steps (steps_HandleProcessingInstructionTarget r) ?_
  intro a r1 he
  have h1 := steps_HandleProcessingInstructionTarget r
  rw [he] at h1
  have hl1 := Advances.lacks h1 hl
  cases a with
  | none => exact Result.Fails.by_malformed _ _
  | some strTarget =>
    simp only
    split
    · exact fails_HandleXmlDeclarationLoop _ _ r1 (by simp [XMLEventReader.budget]) hl1
        (by omega)
    · exact fails_HandleProcessingInstructionLoop _ _ _ _ r1 (by simp [XMLEventReader.budget])
        hl1 (by omega)

theorem fails_HandleCommentLoop : ∀ (n nMatchCount : Nat) (pData : Str) (r : XMLEventReader),
    r.m_aStream.after.length < n → r.lacks '>' → nMatchCount < 3 →
    (HandleCommentLoop n nMatchCount pData r).Fails r := by
  intro n
  induction n with
  | zero => intro _ _ r h; omega
  | succ n ih =>
    intro nMatchCount pData r hlt hl hm
    rcases get_cases r with ⟨r1, hg, hadv⟩ | ⟨c, r1, hg, hadv, hun⟩
    · simp only [HandleCommentLoop, hg]
      exact Result.Fails.past ⟨[], hadv⟩ (Result.Fails.by_malformed _ _)
    · have hlen := hadv.length_eq
      have hr1 : r1.m_aStream.after.length < n := by simp at hlen; omega
      have hl1 := Advances.lacks ⟨[c], hadv⟩ hl
      have hc := hl c hadv.head_mem
      simp only [HandleCommentLoop, hg]
      refine Result.Fails.past ⟨[c], hadv⟩ ?_
      split
      · rename_i heq
        split
        · exact ih _ _ r1 hr1 hl1 (by omega)
        · have h2 : nMatchCount = 2 := by omega
          subst h2
          exact absurd heq hc
      · split
        · exact ih _ _ r1 hr1 hl1 (by omega)
        · exact ih _ _ r1 hr1 hl1 hm

theorem fails_HandleComment (r : XMLEventReader) (hl : r.lacks '>') :
    (HandleComment r).Fails r := by
  rcases get_cases r with ⟨r1, hg, hadv⟩ | ⟨c, r1, hg, hadv, hun⟩
  · simp only [HandleComment, hg]
    exact Result.Fails.past ⟨[], hadv⟩ (Result.Fails.by_malformed _ _)
  · simp only [HandleComment, hg]
    refine Result.Fails.past ⟨[c], hadv⟩ ?_
    split
    · exact Result.Fails.by_malformed _ _
    · exact fails_HandleCommentLoop _ _ _ r1 (by simp [XMLEventReader.budget])
        (Advances.lacks ⟨[c], hadv⟩ hl) (by omega)

theorem fails_HandleMarkupDeclaration (r : XMLEventReader) (hl : r.lacks '>') :
    (HandleMarkupDeclaration r).Fails r := by
  rcases get_cases r with ⟨r1, hg, hadv⟩ | ⟨c, r1, hg, hadv, hun⟩
  · simp only [HandleMarkupDeclaration, hg]
    exact Result.Fails.past ⟨[], hadv⟩ (Result.Fails.by_malformed _ _)
  · simp only [HandleMarkupDeclaration, hg]
    refine Result.Fails.past ⟨[c], hadv⟩ ?_
    split
    · exact fails_HandleComment r1 (Advances.lacks ⟨[c], hadv⟩ hl)
    · exact Result.Fails.by_malformed _ _

/-- Behind a `<`, when no `>` is left in the stream, `HandleTag` throws, whatever the
call of `hasNext()` behind a declaration would do. -/
theorem fails_HandleTag (K : XMLEventReader → Result Bool) (r : XMLEventReader)
    (hl : r.lacks '>') : (HandleTag K r).Fails r := by
  rcases get_cases r with ⟨r1, hg, hadv⟩ | ⟨c, r1, hg, hadv, hun⟩
  · simp only [HandleTag, hg]
    exact Result.Fails.past ⟨[], hadv⟩ (Result.Fails.by_malformed _ _)
  · have hl1 := Advances.lacks ⟨[c], hadv⟩ hl
    simp only [HandleTag, hg]
    refine Result.Fails.past ⟨[c], hadv⟩ ?_
    split
    · exact Result.Fails.bind_left _ (fails_HandleProcessingInstruction r1 hl1)
    · split
      · exact fails_HandleTagEnd r1 hl1
      · split
        · exact fails_HandleMarkupDeclaration r1 hl1
        · split
          · exact fails_HandleTagStart c r1 hl1
          · exact Result.Fails.by_malformed _ _

/-- C23. For every byte string `s` that holds no `>`, forward `hasNext` in front of `<`
followed by `s` up to the end of the stream throws `std::runtime_error`: it returns
neither true nor false, and the queue is empty when it throws, so that a tag, a comment,
a processing instruction or an attribute the end of the stream cuts off gives no
event. -/
theorem forward_cut_off_tag_throws (s b : Str) (d rd : List (Str × Str))
    (hs : ∀ c ∈ s, c ≠ '>') :
    ∃ what r', hasNext ⟨⟨b, '<' :: s, false⟩, false, false, [], true, d, rd⟩ =
      .throw (.runtime_error what) r' ∧ r'.m_aEvents = [] := by
  rw [hasNext_step, if_pos rfl]
  exact fails_HandleTag _ _ hs

/-- The cut-off inputs `<a b="x`, `<!-- c --` and `<?pi d?`. -/
theorem forward_cut_off_tag_throws_witness :
    (∃ what r', hasNext ⟨⟨[], '<' :: "a b=\"x".toList, false⟩, false, false, [], true,
        [], []⟩ = .throw (.runtime_error what) r' ∧ r'.m_aEvents = []) ∧
    (∃ what r', hasNext ⟨⟨[], '<' :: "!-- c --".toList, false⟩, false, false, [], true,
        [], []⟩ = .throw (.runtime_error what) r' ∧ r'.m_aEvents = []) ∧
    ∃ what r', hasNext ⟨⟨[], '<' :: "?pi d?".toList, false⟩, false, false, [], true,
        [], []⟩ = .throw (.runtime_error what) r' ∧ r'.m_aEvents = [] :=
  ⟨forward_cut_off_tag_throws "a b=\"x".toList [] [] [] (by decide),
   forward_cut_off_tag_throws "!-- c --".toList [] [] [] (by decide),
   forward_cut_off_tag_throws "?pi d?".toList [] [] [] (by decide)⟩

/-! ## Attributes the forward reader refuses -/

theorem ConsumeWhitespaceLoop_run {y : Char} (hy : isspace y = false) :
    ∀ (s : Str), (∀ c ∈ s, isspace c = true) → ∀ (n : Nat), s.length < n →
      ∀ (b rest : Str) (hn hp : Bool) (q : List XMLEvent) (dir : Bool) (d rd : List (Str × Str)),
        ConsumeWhitespaceLoop n ⟨⟨b, s ++ y :: rest, false⟩, hn, hp, q, dir, d, rd⟩ =
          .ok y ⟨⟨y :: (s.reverse ++ b), rest, false⟩, hn, hp, q, dir, d, rd⟩ := by
  intro s
  induction s with
  | nil =>
    intro _ n hlt b rest hn hp q dir d rd
    match n, hlt with
    | n + 1, _ =>
      simp [ConsumeWhitespaceLoop, XMLEventReader.get, IStream.get, XMLEventReader.setStream, hy]
  | cons c s ih =>
    intro hs n hlt b rest hn hp q dir d rd
    match n, hlt with
    | n + 1, hlt =>
      have hc := hs c (by simp)
      have ih' := ih (fun x hx => hs x (by simp [hx])) n (by simp at hlt; omega) (c :: b) rest
        hn hp q dir d rd
      simp only [ConsumeWhitespaceLoop, XMLEventReader.get, IStream.get,
        XMLEventReader.setStream, List.cons_append, Bool.false_eq_true, if_false, hc]
      rw [ih']
      simp

theorem ConsumeWhitespace_run {y : Char} (hy : isspace y = false) (s : Str)
    (hs : ∀ c ∈ s, isspace c = true) (b rest : Str) (hn hp : Bool) (q : List XMLEvent)
    (dir : Bool) (d rd : List (Str × Str)) :
    ConsumeWhitespace ⟨⟨b, s ++ y :: rest, false⟩, hn, hp, q, dir, d, rd⟩ =
      .ok y ⟨⟨y :: (s.reverse ++ b), rest, false⟩, hn, hp, q, dir, d, rd⟩ :=
  ConsumeWhitespaceLoop_run hy s hs _ (by simp [XMLEventReader.budget]; omega) b rest hn hp q
    dir d rd

/-- The forward reader reads the bytes of a valid attribute name and goes on with what
stands behind them. -/
theorem HandleAttributeName_scan {c0 : Char} {cs : Str}
    (h : validAttributeName (c0 :: cs) = true) :
    ∃ (p : Option Str) (loc : Str), QName.mk [] loc (p.getD []) = qnameOf (c0 :: cs) ∧
      ∀ (b tail : Str) (hn hp : Bool) (q : List XMLEvent) (dir : Bool)
        (d rd : List (Str × Str)),
        HandleAttributeName c0 ⟨⟨b, cs ++ tail, false⟩, hn, hp, q, dir, d, rd⟩ =
          HandleAttributeNameLoop (tail.length + 1) p loc
            ⟨⟨cs.reverse ++ b, tail, false⟩, hn, hp, q, dir, d, rd⟩ := by
  obtain ⟨c, cs', heq, h0, hsplit⟩ := validAttributeName_split h
  cases heq
  have hc0 := attributeStart_isNameByte h0
  rcases hsplit with hall | ⟨pre, l, rfl, hpre, hl⟩
  · refine ⟨none, c0 :: cs, ?_, ?_⟩
    · rw [qnameOf_plain]
      · rfl
      · intro x hx
        rcases List.mem_cons.mp hx with rfl | hx
        · exact hc0
        · exact hall x hx
    · intro b tail hn hp q dir d rd
      unfold HandleAttributeName
      rw [if_pos h0]
      rw [show XMLEventReader.budget ⟨⟨b, cs ++ tail, false⟩, hn, hp, q, dir, d, rd⟩ =
        (tail.length + 1) + cs.length by simp [XMLEventReader.budget]; omega,
        HandleAttributeNameLoop_skip cs hall]
      rfl
  · have hq := @qnameOf_colon (c0 :: pre) l (by
      intro x hx
      rcases List.mem_cons.mp hx with rfl | hx
      · exact hc0
      · exact hpre x hx)
    refine ⟨some (c0 :: pre), l, ?_, ?_⟩
    · simp only [List.cons_append] at hq
      rw [hq]
      rfl
    · intro b tail hn hp q dir d rd
      unfold HandleAttributeName
      rw [if_pos h0]
      rw [show XMLEventReader.budget
          ⟨⟨b, pre ++ ':' :: l ++ tail, false⟩, hn, hp, q, dir, d, rd⟩ =
          (((tail.length + 1) + l.length) + 1) + pre.length by
        simp [XMLEventReader.budget]; omega,
        show pre ++ ':' :: l ++ tail = pre ++ (':' :: (l ++ tail)) by simp,
        HandleAttributeNameLoop_skip pre hpre, HandleAttributeNameLoop_colon,
        HandleAttributeNameLoop_skip l hl]
      simp

/-- Behind an attribute name, whitespace and then `=` end the name. -/
theorem HandleAttributeNameLoop_space_equals (m : Nat) (p : Option Str) (loc : Str)
    (ws : Str) (hws : ∀ c ∈ ws, isspace c = true) (b rest : Str)
    (hn hp : Bool) (q : List XMLEvent) (dir : Bool) (d rd : List (Str × Str)) :
    HandleAttributeNameLoop (m + 2) p loc
        ⟨⟨b, ws ++ '=' :: rest, false⟩, hn, hp, q, dir, d, rd⟩ =
      .ok (QName.mk [] loc (p.getD []))
        ⟨⟨'=' :: (ws.reverse ++ b), rest, false⟩, hn, hp, q, dir, d, rd⟩ := by
  cases ws with
  | nil => exact HandleAttributeNameLoop_equals (m + 1) p loc b rest hn hp q dir d rd
  | cons w0 ws =>
    have hw0 := hws w0 (by simp)
    have h1 : w0 ≠ ':' := by rintro rfl; revert hw0; decide
    have e := ConsumeWhitespace_run (by decide : isspace '=' = false) ws
      (fun c hc => hws c (by simp [hc])) (w0 :: b) rest hn hp q dir d rd
    have e2 := HandleAttributeNameLoop_equals m p loc (ws.reverse ++ w0 :: b) rest hn hp q dir
      d rd
    conv_lhs => unfold HandleAttributeNameLoop
    simp only [XMLEventReader.get, IStream.get,
      XMLEventReader.setStream, List.cons_append, Bool.false_eq_true, if_false, h1, hw0,
      if_true]
    rw [e, bind_ok]
    simp only [(by decide : ¬ ('=' = '\x00')), if_false, ne_eq, not_true_eq_false,
      XMLEventReader.unget, IStream.unget, XMLEventReader.setStream, Bool.false_eq_true]
    rw [e2]
    simp

/-- Behind an attribute name, a byte that neither goes on with the name nor is `=`, with
or without whitespace in front of it, makes the name loop throw. -/
theorem HandleAttributeNameLoop_refuses (m : Nat) (p : Option Str) (loc : Str) (ws : Str)
    (hws : ∀ c ∈ ws, isspace c = true) {c : Char} (h1 : c ≠ '=') (h2 : isspace c = false)
    (h3 : ws = [] → isNameByte c = false ∧ c ≠ ':') (b rest : Str)
    (hn hp : Bool) (q : List XMLEvent) (dir : Bool) (d rd : List (Str × Str)) :
    ∃ what r', HandleAttributeNameLoop (m + 1) p loc
        ⟨⟨b, ws ++ c :: rest, false⟩, hn, hp, q, dir, d, rd⟩ =
      .throw (.runtime_error what) r' ∧ r'.m_aEvents = q := by
  cases ws with
  | nil =>
    obtain ⟨h4, h5⟩ := h3 rfl
    have h6 : ¬ (isalnum c = true ∨ c = '-' ∨ c = '_' ∨ c = '.') := by
      intro h
      have : isNameByte c = true := by
        simp only [isNameByte, Bool.or_eq_true, decide_eq_true_eq]
        tauto
      rw [h4] at this
      cases this
    exact ⟨_, _, by
      simp only [HandleAttributeNameLoop, XMLEventReader.get, IStream.get,
        XMLEventReader.setStream, List.nil_append, Bool.false_eq_true, if_false, h5, h2, h1,
        h6, malformed]
      rfl, rfl⟩
  | cons w0 ws =>
    have hw0 := hws w0 (by simp)
    have h4 : w0 ≠ ':' := by rintro rfl; revert hw0; decide
    have e := ConsumeWhitespace_run h2 ws (fun c hc => hws c (by simp [hc])) (w0 :: b) rest
      hn hp q dir d rd
    by_cases h0 : c = '\x00'
    · exact ⟨_, _, by
        simp only [HandleAttributeNameLoop, XMLEventReader.get, IStream.get,
          XMLEventReader.setStream, List.cons_append, Bool.false_eq_true, if_false, h4, hw0,
          if_true]
        rw [e, bind_ok]
        simp only [h0, if_true, malformed]
        rfl, rfl⟩
    · exact ⟨_, _, by
        simp only [HandleAttributeNameLoop, XMLEventReader.get, IStream.get,
          XMLEventReader.setStream, List.cons_append, Bool.false_eq_true, if_false, h4, hw0,
          if_true]
        rw [e, bind_ok]
        simp only [h0, if_false, ne_eq, h1, not_false_eq_true, if_true, malformed]
        rfl, rfl⟩

/-- In front of a byte that is neither whitespace nor a quote, `HandleAttributeValue`
throws. -/
theorem HandleAttributeValue_refuses (ws : Str) (hws : ∀ c ∈ ws, isspace c = true) {c : Char}
    (h1 : isspace c = false) (h2 : c ≠ '\'') (h3 : c ≠ '"') (b rest : Str)
    (hn hp : Bool) (q : List XMLEvent) (dir : Bool) (d rd : List (Str × Str)) :
    ∃ what r', HandleAttributeValue ⟨⟨b, ws ++ c :: rest, false⟩, hn, hp, q, dir, d, rd⟩ =
      .throw (.runtime_error what) r' ∧ r'.m_aEvents = q := by
  have e := ConsumeWhitespace_run h1 ws hws b rest hn hp q dir d rd
  by_cases h0 : c = '\x00'
  · exact ⟨_, _, by
      simp only [HandleAttributeValue]
      rw [e, bind_ok]
      simp only [h0, if_true, malformed]
      rfl, rfl⟩
  · exact ⟨_, _, by
      simp only [HandleAttributeValue]
      rw [e, bind_ok]
      simp only [h0, if_false, ne_eq, h2, h3, not_false_eq_true, and_self, if_true, malformed]
      rfl, rfl⟩

theorem fails_HandleAttributeValueLoop : ∀ (n : Nat) (cDelimiter : Char) (pValue : Str)
    (r : XMLEventReader), r.m_aStream.after.length < n → r.lacks cDelimiter →
    (HandleAttributeValueLoop n cDelimiter pValue r).Fails r := by
  intro n
  induction n with
  | zero => intro _ _ r h; omega
  | succ n ih =>
    intro cDelimiter pValue r hlt hl
    rcases get_cases r with ⟨r1, hg, hadv⟩ | ⟨c, r1, hg, hadv, hun⟩
    · simp only [HandleAttributeValueLoop, hg]
      exact Result.Fails.past ⟨[], hadv⟩ (Result.Fails.by_malformed _ _)
    · have hlen := hadv.length_eq
      have hr1 : r1.m_aStream.after.length < n := by simp at hlen; omega
      have hl1 := Advances.lacks ⟨[c], hadv⟩ hl
      have hc : (c = cDelimiter) = False := eq_false (hl c hadv.head_mem)
      simp only [HandleAttributeValueLoop, hg, hc, if_false]
      refine Result.Fails.past ⟨[c], hadv⟩ ?_
      by_cases h2 : c = '&'
      · simp only [h2, if_true]
        refine Result.Fails.of_steps (steps_ResolveEntity r1) ?_
        intro a r2 he
        have h3 := steps_ResolveEntity r1
        rw [he] at h3
        have := Advances.length_le h3
        exact ih _ _ r2 (by omega) (Advances.lacks h3 hl1)
      · simp only [h2, if_false]
        exact ih _ _ r1 hr1 hl1

/-- Behind an opening quote that does not come again before the end of the stream,
`HandleAttributeValue` throws. -/
theorem HandleAttributeValue_open (ws : Str) (hws : ∀ c ∈ ws, isspace c = true)
    {cDelimiter : Char} (hd : cDelimiter = '"' ∨ cDelimiter = '\'') (v : Str)
    (hv : ∀ c ∈ v, c ≠ cDelimiter) (b : Str)
    (hn hp : Bool) (q : List XMLEvent) (dir : Bool) (d rd : List (Str × Str)) :
    ∃ what r', HandleAttributeValue
        ⟨⟨b, ws ++ cDelimiter :: v, false⟩, hn, hp, q, dir, d, rd⟩ =
      .throw (.runtime_error what) r' ∧ r'.m_aEvents = q := by
  have hs : isspace cDelimiter = false := by rcases hd with rfl | rfl <;> decide
  have h0 : cDelimiter ≠ '\x00' := by rcases hd with rfl | rfl <;> decide
  have hq : ¬ (cDelimiter ≠ '\'' ∧ cDelimiter ≠ '"') := by rcases hd with rfl | rfl <;> decide
  have e := ConsumeWhitespace_run hs ws hws b v hn hp q dir d rd
  obtain ⟨what, r', hx, hev⟩ := fails_HandleAttributeValueLoop (v.length + 1) cDelimiter []
    ⟨⟨cDelimiter :: (ws.reverse ++ b), v, false⟩, hn, hp, q, dir, d, rd⟩ (by simp) hv
  refine ⟨what, r', ?_, hev⟩
  simp only [HandleAttributeValue]
  rw [e, bind_ok]
  simp only [h0, if_false, hq, XMLEventReader.budget]
  exact hx

/-- The forward loop over the attributes of a tag throws when, behind attributes it
accepts, it comes to an attribute whose name or value throws. -/
theorem HandleAttributesLoop_refuses {d : List (Str × Str)} (rd : List (Str × Str))
    {c0 : Char} {tail : Str} (h0 : isspace c0 = false) (h1 : c0 ≠ '>') (h2 : c0 ≠ '/')
    (hbad : ∀ (b : Str) (hn hp : Bool) (q : List XMLEvent) (dir : Bool)
      (K : Attribute → XMLEventReader → Result (List Attribute)),
      ∃ what r', ((HandleAttributeName c0 ⟨⟨c0 :: b, tail, false⟩, hn, hp, q, dir, d, rd⟩).bind
          fun pAttributeName r => (HandleAttributeValue r).bind fun pAttributeValue r =>
            K (Attribute.mk pAttributeName pAttributeValue) r) =
        .throw (.runtime_error what) r' ∧ r'.m_aEvents = q)
    (w : Str) (hw : ∀ c ∈ w, isspace c = true) (l : List AttributeSource)
    (hl : ∀ x ∈ l, x.accepted d = true) :
    ∀ (n : Nat) (acc : List Attribute) (b : Str) (hn hp : Bool) (q : List XMLEvent)
      (dir : Bool), (renderSources l ++ (w ++ c0 :: tail)).length < n →
      ∃ what r', HandleAttributesLoop n acc
          ⟨⟨b, renderSources l ++ (w ++ c0 :: tail), false⟩, hn, hp, q, dir, d, rd⟩ =
        .throw (.runtime_error what) r' ∧ r'.m_aEvents = q := by
  induction l with
  | nil =>
    intro n acc b hn hp q dir hlt
    obtain ⟨m, rfl⟩ : ∃ m, n = (m + 1) + w.length :=
      ⟨n - 1 - w.length, by simp [renderSources] at hlt; omega⟩
    obtain ⟨what, r', hx, hev⟩ := hbad (w.reverse ++ b) hn hp q dir
      (fun a r => HandleAttributesLoop m (acc ++ [a]) r)
    refine ⟨what, r', ?_, hev⟩
    simp only [renderSources, List.flatMap_nil, List.nil_append]
    rw [HandleAttributesLoop_space w hw]
    conv_lhs => unfold HandleAttributesLoop
    simp only [XMLEventReader.get, IStream.get, XMLEventReader.setStream, Bool.false_eq_true,
      if_false, h1, h2, h0]
    exact hx
  | cons x l ih =>
    intro n acc b hn hp q dir hlt
    have hx := hl x (by simp)
    have hlen := AttributeSource.render_length x
    rw [renderSources_cons] at hlt ⊢
    obtain ⟨m, rfl⟩ : ∃ m, n = m + 1 + x.space.length :=
      ⟨n - 1 - x.space.length, by simp at hlt; omega⟩
    rw [List.append_assoc, HandleAttributesLoop_source hx]
    exact ih (fun y hy => hl y (by simp [hy])) m _ _ hn hp q dir (by simp at hlt ⊢; omega)

/-- The loop behind the whitespace that follows a tag name throws when, behind
attributes it accepts, it comes to an attribute whose name or value throws. -/
theorem HandleTagStartSpace_refuses {d : List (Str × Str)} (rd : List (Str × Str))
    {c0 : Char} {tail : Str} (h0 : isspace c0 = false) (h1 : c0 ≠ '>') (h2 : c0 ≠ '/')
    (hbad : ∀ (b : Str) (hn hp : Bool) (q : List XMLEvent) (dir : Bool)
      (K : Attribute → XMLEventReader → Result (List Attribute)),
      ∃ what r', ((HandleAttributeName c0 ⟨⟨c0 :: b, tail, false⟩, hn, hp, q, dir, d, rd⟩).bind
          fun pAttributeName r => (HandleAttributeValue r).bind fun pAttributeValue r =>
            K (Attribute.mk pAttributeName pAttributeValue) r) =
        .throw (.runtime_error what) r' ∧ r'.m_aEvents = q)
    (w : Str) (hw : ∀ c ∈ w, isspace c = true) (l : List AttributeSource)
    (hl : ∀ x ∈ l, x.accepted d = true)
    (n : Nat) (b : Str) (hn hp : Bool) (q : List XMLEvent) (dir : Bool)
    (hlt : (renderSources l ++ (w ++ c0 :: tail)).length < n) :
    ∃ what r', HandleTagStartSpace n []
        ⟨⟨b, renderSources l ++ (w ++ c0 :: tail), false⟩, hn, hp, q, dir, d, rd⟩ =
      .throw (.runtime_error what) r' ∧ r'.m_aEvents = q := by
  cases l with
  | nil =>
    obtain ⟨m, rfl⟩ : ∃ m, n = (m + 1) + w.length :=
      ⟨n - 1 - w.length, by simp [renderSources] at hlt; omega⟩
    obtain ⟨what, r', hx, hev⟩ := hbad (w.reverse ++ b) hn hp q dir
      (fun a r => HandleAttributesLoop r.budget ([] ++ [a]) r)
    refine ⟨what, r', ?_, hev⟩
    simp only [renderSources, List.flatMap_nil, List.nil_append]
    rw [HandleTagStartSpace_space w hw]
    conv_lhs => unfold HandleTagStartSpace
    simp only [XMLEventReader.get, IStream.get, XMLEventReader.setStream, Bool.false_eq_true,
      if_false, h1, h2, h0, HandleAttributes]
    exact hx
  | cons x l =>
    have hx := hl x (by simp)
    obtain ⟨-, hsp, hname, -, -⟩ := AttributeSource.accepted_split hx
    obtain ⟨k0, ks, hks, hs0, hgt0, hsl0⟩ := validAttributeName_first hname
    have hlen := AttributeSource.render_length x
    rw [renderSources_cons] at hlt ⊢
    obtain ⟨m, rfl⟩ : ∃ m, n = (m + 1) + x.space.length :=
      ⟨n - 1 - x.space.length, by simp at hlt; omega⟩
    have one := HandleAttribute_source hx hks (x.space.reverse ++ b)
      (renderSources l ++ (w ++ c0 :: tail)) hn hp q dir rd
      (fun a r => HandleAttributesLoop r.budget ([] ++ [a]) r)
    obtain ⟨what, r', hx', hev⟩ := HandleAttributesLoop_refuses rd h0 h1 h2 hbad w hw l
      (fun y hy => hl y (by simp [hy])) ((renderSources l ++ (w ++ c0 :: tail)).length + 1)
      ([] ++ [x.attribute d])
      (x.delimiter :: ((renderPieces x.value).reverse ++ x.delimiter :: '=' ::
        (x.name.reverse ++ (x.space.reverse ++ b)))) hn hp q dir (by omega)
    refine ⟨what, r', ?_, hev⟩
    simp only [AttributeSource.render, List.append_assoc, List.singleton_append,
      List.cons_append, List.nil_append]
    rw [HandleTagStartSpace_space x.space hsp, hks]
    conv_lhs => unfold HandleTagStartSpace
    simp only [XMLEventReader.get, IStream.get, XMLEventReader.setStream, List.cons_append,
      Bool.false_eq_true, if_false, hgt0, hsl0, hs0, HandleAttributes]
    simp only [List.cons_append, List.append_assoc] at one
    rw [one]
    simp only [XMLEventReader.budget, List.nil_append] at hx' ⊢
    exact hx'

/-- Forward `hasNext` in front of a start tag throws, with the queue empty, when, behind
attributes it accepts, the tag has an attribute whose name or value throws. -/
theorem hasNext_refuses_attribute {n : Str} (hn : validName n = true)
    (hloc : (qnameOf n).m_strLocalPart ≠ []) {d : List (Str × Str)} (rd : List (Str × Str))
    {c0 : Char} {tail : Str} (h0 : isspace c0 = false) (h1 : c0 ≠ '>') (h2 : c0 ≠ '/')
    (hbad : ∀ (b : Str) (hn hp : Bool) (q : List XMLEvent) (dir : Bool)
      (K : Attribute → XMLEventReader → Result (List Attribute)),
      ∃ what r', ((HandleAttributeName c0 ⟨⟨c0 :: b, tail, false⟩, hn, hp, q, dir, d, rd⟩).bind
          fun pAttributeName r => (HandleAttributeValue r).bind fun pAttributeValue r =>
            K (Attribute.mk pAttributeName pAttributeValue) r) =
        .throw (.runtime_error what) r' ∧ r'.m_aEvents = q)
    (w : Str) (hw : isSpaceRun w = true) (l : List AttributeSource)
    (hl : ∀ x ∈ l, x.accepted d = true) (b : Str) :
    ∃ what r', hasNext ⟨⟨b, '<' :: n ++ (renderSources l ++ (w ++ c0 :: tail)), false⟩,
        false, false, [], true, d, rd⟩ =
      .throw (.runtime_error what) r' ∧ r'.m_aEvents = [] := by
  obtain ⟨n0, ns, rfl, hn0, -⟩ := validName_split hn
  obtain ⟨p, loc, hq, hscan⟩ := HandleTagStartNext_name hn
  have hloc' : loc ≠ [] := by
    have := congrArg QName.m_strLocalPart hq
    simp only at this
    rw [this]
    exact hloc
  have hlen : ¬ loc.length ≤ 0 := by
    have := List.length_pos.mpr hloc'
    omega
  simp only [isSpaceRun, Bool.and_eq_true, Bool.not_eq_true', List.isEmpty_eq_false,
    List.all_eq_true] at hw
  obtain ⟨hwne, hws⟩ := hw
  obtain ⟨s0, S, hS, hs0⟩ : ∃ s0 S, renderSources l ++ (w ++ c0 :: tail) = s0 :: S ∧
      isspace s0 = true := by
    cases l with
    | nil =>
      obtain ⟨w0, w', rfl⟩ := List.exists_cons_of_ne_nil hwne
      exact ⟨w0, w' ++ c0 :: tail, by simp [renderSources], hws w0 (by simp)⟩
    | cons x l =>
      obtain ⟨c, s, hsp, hc⟩ := AttributeSource.space_cons (hl x (by simp))
      exact ⟨c, _, by simp [renderSources_cons, AttributeSource.render, hsp]; rfl, hc⟩
  obtain ⟨hc1, hc2, hc3⟩ := space_first hs0
  obtain ⟨what, r', hx, hev⟩ := HandleTagStartSpace_refuses rd h0 h1 h2 hbad w hws l hl
    ((S.length + 1) + [s0].length) (ns.reverse ++ n0 :: '<' :: b) true false [] true
    (by rw [hS]; simp)
  rw [hS, show s0 :: S = [s0] ++ S from rfl,
    HandleTagStartSpace_space [s0] (by simpa using hs0)] at hx
  refine ⟨what, r', ?_, hev⟩
  rw [List.cons_append, hasNext_step, if_pos rfl, List.cons_append, HandleTag_nameStart _ hn0,
    HandleTagStart_eq_next, hS]
  rw [show (ns ++ s0 :: S).length = (S.length + 1) + ns.length by simp; omega, hscan]
  simp only [HandleTagStartNext, XMLEventReader.get, IStream.get, XMLEventReader.setStream,
    Bool.false_eq_true, if_false, HandleTagStartLoop, hc1, hc2, hc3, hs0, if_true, hlen,
    XMLEventReader.budget]
  simp only [List.reverse_cons, List.reverse_nil, List.nil_append, List.singleton_append,
    List.append_assoc, List.cons_append] at hx
  rw [hx]
  rfl

/-- C26. In a start tag with a valid element name, behind any attributes the forward
reader accepts and a run of whitespace, an attribute with a valid name makes forward
`hasNext` throw `std::runtime_error`, with the queue empty: when the name is followed,
behind whitespace or none, by a byte other than `=` (one that does not go on with the
name); when the first byte behind `=` that is not whitespace is neither `'` nor `"`;
and when the quote that opens the value does not come again before the end of the
stream. -/
theorem forward_refuses_malformed_attribute (n : Str) (l : List AttributeSource) (w k b : Str)
    (d rd : List (Str × Str)) (hn : validName n = true)
    (hloc : (qnameOf n).m_strLocalPart ≠ []) (hl : ∀ x ∈ l, x.accepted d = true)
    (hw : isSpaceRun w = true) (hk : validAttributeName k = true) :
    (∀ (ws : Str) (c : Char) (rest : Str), (∀ x ∈ ws, isspace x = true) → c ≠ '=' →
      isspace c = false → (ws = [] → isNameByte c = false ∧ c ≠ ':') →
      ∃ what r', hasNext ⟨⟨b, '<' :: n ++ (renderSources l ++ (w ++ (k ++ (ws ++ c :: rest)))),
          false⟩, false, false, [], true, d, rd⟩ =
        .throw (.runtime_error what) r' ∧ r'.m_aEvents = []) ∧
    (∀ (ws1 ws2 : Str) (c : Char) (rest : Str), (∀ x ∈ ws1, isspace x = true) →
      (∀ x ∈ ws2, isspace x = true) → isspace c = false → c ≠ '\'' → c ≠ '"' →
      ∃ what r', hasNext ⟨⟨b, '<' :: n ++ (renderSources l ++ (w ++ (k ++
          (ws1 ++ '=' :: (ws2 ++ c :: rest))))), false⟩, false, false, [], true, d, rd⟩ =
        .throw (.runtime_error what) r' ∧ r'.m_aEvents = []) ∧
    (∀ (ws1 ws2 : Str) (cDelimiter : Char) (v : Str), (∀ x ∈ ws1, isspace x = true) →
      (∀ x ∈ ws2, isspace x = true) → (cDelimiter = '"' ∨ cDelimiter = '\'') →
      (∀ x ∈ v, x ≠ cDelimiter) →
      ∃ what r', hasNext ⟨⟨b, '<' :: n ++ (renderSources l ++ (w ++ (k ++
          (ws1 ++ '=' :: (ws2 ++ cDelimiter :: v))))), false⟩, false, false, [], true, d, rd⟩ =
        .throw (.runtime_error what) r' ∧ r'.m_aEvents = []) := by
  obtain ⟨c0, cs, rfl, h0, h1, h2⟩ := validAttributeName_first hk
  obtain ⟨p, loc, -, hscan⟩ := HandleAttributeName_scan hk
  refine ⟨?_, ?_, ?_⟩
  · intro ws c rest hws hc1 hc2 hc3
    have := @hasNext_refuses_attribute n hn hloc d rd c0 (cs ++ (ws ++ c :: rest)) h0 h1 h2
      (fun b' hn' hp' q' dir' K => by
        obtain ⟨what, r', hx, hev⟩ := HandleAttributeNameLoop_refuses (ws ++ c :: rest).length
          p loc ws hws hc1 hc2 hc3 (cs.reverse ++ c0 :: b') rest hn' hp' q' dir' d rd
        exact ⟨what, r', by rw [hscan, hx]; rfl, hev⟩) w hw l hl b
    simpa using this
  · intro ws1 ws2 c rest hws1 hws2 hc1 hc2 hc3
    have := @hasNext_refuses_attribute n hn hloc d rd c0
      (cs ++ (ws1 ++ '=' :: (ws2 ++ c :: rest))) h0 h1 h2
      (fun b' hn' hp' q' dir' K => by
        have e := HandleAttributeNameLoop_space_equals (ws1.length + (ws2 ++ c :: rest).length)
          p loc ws1 hws1 (cs.reverse ++ c0 :: b') (ws2 ++ c :: rest) hn' hp' q' dir' d rd
        obtain ⟨what, r', hx, hev⟩ := HandleAttributeValue_refuses ws2 hws2 hc1 hc2 hc3
          ('=' :: (ws1.reverse ++ (cs.reverse ++ c0 :: b'))) rest hn' hp' q' dir' d rd
        refine ⟨what, r', ?_, hev⟩
        rw [hscan, show (ws1 ++ '=' :: (ws2 ++ c :: rest)).length + 1 =
          ws1.length + (ws2 ++ c :: rest).length + 2 by simp; omega, e, bind_ok, hx]
        rfl) w hw l hl b
    simpa using this
  · intro ws1 ws2 cDelimiter v hws1 hws2 hd hv
    have := @hasNext_refuses_attribute n hn hloc d rd c0
      (cs ++ (ws1 ++ '=' :: (ws2 ++ cDelimiter :: v))) h0 h1 h2
      (fun b' hn' hp' q' dir' K => by
        have e := HandleAttributeNameLoop_space_equals
          (ws1.length + (ws2 ++ cDelimiter :: v).length)
          p loc ws1 hws1 (cs.reverse ++ c0 :: b') (ws2 ++ cDelimiter :: v) hn' hp' q' dir' d rd
        obtain ⟨what, r', hx, hev⟩ := HandleAttributeValue_open ws2 hws2 hd v hv
          ('=' :: (ws1.reverse ++ (cs.reverse ++ c0 :: b'))) hn' hp' q' dir' d rd
        refine ⟨what, r', ?_, hev⟩
        rw [hscan, show (ws1 ++ '=' :: (ws2 ++ cDelimiter :: v)).length + 1 =
          ws1.length + (ws2 ++ cDelimiter :: v).length + 2 by simp; omega, e, bind_ok, hx]
        rfl) w hw l hl b
    simpa using this

/-- The tags `<r a="1" b>`, `<r a = x>` and `<r a="x>` up to the end of the stream. -/
theorem forward_refuses_malformed_attribute_witness :
    (∃ what r', hasNext ⟨⟨[], "<r a=\"1\" b>".toList, false⟩, false, false, [], true,
        [], []⟩ = .throw (.runtime_error what) r' ∧ r'.m_aEvents = []) ∧
    (∃ what r', hasNext ⟨⟨[], "<r a = x>".toList, false⟩, false, false, [], true,
        [], []⟩ = .throw (.runtime_error what) r' ∧ r'.m_aEvents = []) ∧
    ∃ what r', hasNext ⟨⟨[], "<r a=\"x>".toList, false⟩, false, false, [], true,
        [], []⟩ = .throw (.runtime_error what) r' ∧ r'.m_aEvents = [] :=
  ⟨(forward_refuses_malformed_attribute ['r'] [⟨[' '], ['a'], '"', [Piece.byte '1']⟩] [' ']
      ['b'] [] [] [] (by decide) (by decide) (by decide) (by decide) (by decide)).1 [] '>' []
      (by decide) (by decide) (by decide) (by decide),
   (forward_refuses_malformed_attribute ['r'] [] [' '] ['a'] [] [] [] (by decide) (by decide)
      (by decide) (by decide) (by decide)).2.1 [' '] [' '] 'x' ['>'] (by decide) (by decide)
      (by decide) (by decide) (by decide),
   (forward_refuses_malformed_attribute ['r'] [] [' '] ['a'] [] [] [] (by decide) (by decide)
      (by decide) (by decide) (by decide)).2.2 [] [] '"' ['x', '>'] (by decide) (by decide)
      (by decide) (by decide)⟩

/-! ## Reading backwards one byte at a time -/

/-- C38. `rget` and `runget` on the reader. With the end-of-file flag clear and the get
position `p` behind at least one byte, `rget` delivers the byte at offset `p - 1`,
leaves the get position at `p - 1` and the bytes and the flag as they were. At
position 0 it delivers nothing and leaves the reader as it is. With the flag set it
behaves as on the stream with the flag cleared and the get position behind the last
byte. `runget` after an `rget` that delivered a byte restores the position `p` without
reading, so that the next `rget` delivers the same byte again. -/
theorem rget_steps_back_and_runget_restores (r : XMLEventReader) :
    (r.m_aStream.eof = false → 0 < r.m_aStream.tellg →
      ∃ c, r.m_aStream.data.get? (r.m_aStream.tellg - 1) = some c ∧ r.rget.1 = some c ∧
        r.rget.2.m_aStream.tellg = r.m_aStream.tellg - 1 ∧
        r.rget.2.m_aStream.data = r.m_aStream.data ∧ r.rget.2.m_aStream.eof = false ∧
        r.rget.2.runget = r ∧ r.rget.2.runget.rget = r.rget) ∧
    (r.m_aStream.eof = false → r.m_aStream.tellg = 0 → r.rget = (none, r)) ∧
    (r.m_aStream.eof = true →
      r.rget = (r.setStream r.m_aStream.seekEnd).rget ∧
      r.m_aStream.seekEnd.eof = false ∧
      r.m_aStream.seekEnd.tellg = r.m_aStream.data.length ∧
      r.m_aStream.seekEnd.data = r.m_aStream.data) := by
  obtain ⟨⟨b, a, e⟩, hn, hp, q, dir, d, rd⟩ := r
  refine ⟨?_, ?_, ?_⟩
  · intro he hp0
    simp only at he
    subst he
    cases b with
    | nil => simp [IStream.tellg] at hp0
    | cons c rest =>
      refine ⟨c, ?_, ?_⟩
      · have h : (rest.reverse ++ c :: a).get? rest.length = some c := by
          rw [List.get?_eq_getElem?, List.getElem?_append_right (by simp)]
          simp
        simpa [IStream.data, IStream.tellg] using h
      · simp [XMLEventReader.rget, XMLEventReader.runget, XMLEventReader.setStream,
          IStream.rget, IStream.runget, IStream.tellg, IStream.data]
  · intro he hp0
    simp only at he
    subst he
    cases b with
    | nil => simp [XMLEventReader.rget, XMLEventReader.setStream, IStream.rget]
    | cons c rest => simp [IStream.tellg] at hp0
  · intro he
    simp only at he
    subst he
    simp [XMLEventReader.rget, XMLEventReader.setStream, IStream.rget, IStream.seekEnd,
      IStream.tellg, IStream.data, Nat.add_comm]

theorem rget_steps_back_and_runget_restores_witness :
    ∃ c, (XMLEventReader.new ⟨"ba".toList, "c".toList, false⟩).m_aStream.data.get? 1 = some c ∧
      (XMLEventReader.new ⟨"ba".toList, "c".toList, false⟩).rget.1 = some c ∧ c = 'b' :=
  by
    obtain ⟨c, h1, h2, -⟩ :=
      (rget_steps_back_and_runget_restores
        (XMLEventReader.new ⟨"ba".toList, "c".toList, false⟩)).1 rfl (by decide)
    exact ⟨c, h1, h2, by simpa [XMLEventReader.new, XMLEventReader.rget, IStream.rget] using h2.symm⟩

/-! ## The reverse dictionary as the mirror of the forward one -/

theorem mapFind_map_reverse (d : List (Str × Str)) (k : Str) :
    mapFind (d.map fun kv => (kv.1.reverse, kv.2.reverse)) k.reverse =
      (mapFind d k).map List.reverse := by
  induction d with
  | nil => simp [mapFind]
  | cons x d ih =>
    obtain ⟨k1, v1⟩ := x
    by_cases h : k1 = k
    · simp [mapFind, h]
    · have h' : k1.reverse ≠ k.reverse := fun he => h (List.reverse_injective he)
      simp only [List.map_cons, mapFind, h, h', if_false]
      exact ih

theorem mapAssign_map_reverse (d : List (Str × Str)) (k v : Str) :
    (mapAssign d k v).map (fun kv => (kv.1.reverse, kv.2.reverse)) =
      mapAssign (d.map fun kv => (kv.1.reverse, kv.2.reverse)) k.reverse v.reverse := by
  induction d with
  | nil => simp [mapAssign]
  | cons x d ih =>
    obtain ⟨k1, v1⟩ := x
    by_cases h : k1 = k
    · simp [mapAssign, h]
    · have h' : k1.reverse ≠ k.reverse := fun he => h (List.reverse_injective he)
      simp only [List.map_cons, mapAssign, h, h', if_false, ih]

theorem registerAll_mirror (calls : List (Str × Str)) :
    ∀ r : XMLEventReader,
      r.m_aREntityReplacementDictionary =
        r.m_aEntityReplacementDictionary.map (fun kv => (kv.1.reverse, kv.2.reverse)) →
      (registerAll calls r).m_aREntityReplacementDictionary =
        (registerAll calls r).m_aEntityReplacementDictionary.map
          (fun kv => (kv.1.reverse, kv.2.reverse)) := by
  induction calls with
  | nil => intro r h; exact h
  | cons x calls ih =>
    intro r h
    obtain ⟨strName, strText⟩ := x
    by_cases hb : strName = "amp".toList ∨ strName = "lt".toList ∨ strName = "gt".toList ∨
        strName = "apos".toList ∨ strName = "quot".toList
    · simp only [registerAll, addToEntityReplacementDictionary_builtin strText r hb]
      exact ih r h
    · simp only [registerAll, addToEntityReplacementDictionary_other strText r hb]
      exact ih _ (by simp only [h, mapAssign_map_reverse])

theorem registerAll_append (calls calls' : List (Str × Str)) :
    ∀ r : XMLEventReader,
      registerAll (calls ++ calls') r = registerAll calls' (registerAll calls r) := by
  induction calls with
  | nil => intro r; rfl
  | cons x calls ih =>
    intro r
    obtain ⟨strName, strText⟩ := x
    by_cases hb : strName = "amp".toList ∨ strName = "lt".toList ∨ strName = "gt".toList ∨
        strName = "apos".toList ∨ strName = "quot".toList
    · simp only [List.cons_append, registerAll,
        addToEntityReplacementDictionary_builtin strText r hb]
      exact ih r
    · simp only [List.cons_append, registerAll,
        addToEntityReplacementDictionary_other strText r hb]
      exact ih _

/-- C33. After construction and any sequence of `addToEntityReplacementDictionary` calls,
each taken whether it returns or throws, the reverse dictionary is the mirror of the
forward one: the forward dictionary maps a name to a text exactly when the reverse
dictionary maps the reversed name to the reversed text. A name registered last, whatever
was registered before under this or any other name, its own reversal included, is mapped
to the text of that last call in the forward dictionary and, reversed, in the reverse
dictionary. -/
theorem reverse_dictionary_mirrors_forward (aStream : IStream) (calls : List (Str × Str)) :
    (∀ strName strText : Str,
      mapFind (registerAll calls (XMLEventReader.new aStream)).m_aEntityReplacementDictionary
          strName = some strText ↔
        mapFind (registerAll calls (XMLEventReader.new aStream)).m_aREntityReplacementDictionary
          strName.reverse = some strText.reverse) ∧
    (∀ strName strText : Str,
      ¬ (strName = "amp".toList ∨ strName = "lt".toList ∨ strName = "gt".toList ∨
        strName = "apos".toList ∨ strName = "quot".toList) →
      mapFind (registerAll (calls ++ [(strName, strText)])
          (XMLEventReader.new aStream)).m_aEntityReplacementDictionary strName = some strText ∧
      mapFind (registerAll (calls ++ [(strName, strText)])
          (XMLEventReader.new aStream)).m_aREntityReplacementDictionary strName.reverse =
        some strText.reverse) := by
  have hnew : (XMLEventReader.new aStream).m_aREntityReplacementDictionary =
      (XMLEventReader.new aStream).m_aEntityReplacementDictionary.map
        (fun kv => (kv.1.reverse, kv.2.reverse)) := by
    simp [XMLEventReader.new]
  constructor
  · intro strName strText
    rw [registerAll_mirror calls _ hnew, mapFind_map_reverse]
    cases mapFind (registerAll calls (XMLEventReader.new aStream)).m_aEntityReplacementDictionary
        strName with
    | none => simp
    | some t => simp [List.reverse_inj]
  · intro strName strText hb
    rw [registerAll_append]
    simp only [registerAll, addToEntityReplacementDictionary_other strText _ hb]
    exact ⟨mapFind_mapAssign_self _ _ _, mapFind_mapAssign_self _ _ _⟩

theorem reverse_dictionary_mirrors_forward_witness :
    mapFind (registerAll ([("tl".toList, "a".toList), ("x".toList, "b".toList)] ++
        [("x".toList, "cd".toList)])
        (XMLEventReader.new (IStream.ofData []))).m_aEntityReplacementDictionary "x".toList =
      some "cd".toList ∧
    mapFind (registerAll ([("tl".toList, "a".toList), ("x".toList, "b".toList)] ++
        [("x".toList, "cd".toList)])
        (XMLEventReader.new (IStream.ofData []))).m_aREntityReplacementDictionary
        "x".toList.reverse = some "cd".toList.reverse :=
  (reverse_dictionary_mirrors_forward (IStream.ofData [])
    [("tl".toList, "a".toList), ("x".toList, "b".toList)]).2 "x".toList "cd".toList (by decide)

/-! ## Semicolons that end no entity reference, backwards -/

/-- Reading backwards, a text free of `>` and `&` is read up to the `>` in front of it or
the begin of the stream, its `;` as bytes of the text. -/
theorem HandleRTextLoop_bytes :
    ∀ (n : Nat) (l : Str), (∀ c ∈ l, c ≠ '>' ∧ c ≠ '&') → l.length < n →
      ∀ (pData b a : Str) (hn hp : Bool) (q : List XMLEvent) (dir : Bool)
        (d rd : List (Str × Str)),
        (b = [] ∨ ∃ b', b = '>' :: b') →
        HandleRTextLoop n pData ⟨⟨l ++ b, a, false⟩, hn, hp, q, dir, d, rd⟩ =
          .ok true ⟨⟨b, l.reverse ++ a, false⟩, hn, hp,
            q ++ [charactersEvent (pData ++ l).reverse], dir, d, rd⟩ := by
  intro n
  induction n with
  | zero => intro l _ hlt; omega
  | succ n ih =>
    intro l hl hlt pData b a hn hp q dir d rd hb
    cases l with
    | nil =>
      rcases hb with rfl | ⟨b', rfl⟩
      · simp [HandleRTextLoop, XMLEventReader.rget, IStream.rget, XMLEventReader.setStream,
          XMLEventReader.push]
      · simp [HandleRTextLoop, XMLEventReader.rget, IStream.rget, XMLEventReader.setStream,
          XMLEventReader.push, XMLEventReader.runget, IStream.runget]
    | cons c l =>
      obtain ⟨h1, h2⟩ := hl c (by simp)
      have hl' : ∀ x ∈ l, x ≠ '>' ∧ x ≠ '&' := fun x hx => hl x (by simp [hx])
      by_cases hc : c = ';'
      · subst hc
        obtain ⟨chunk, rest, rfl, hchunk, hrest⟩ := split_at_first (fun x => x = '>' ∨ x = ';') l
        have hchunk' : ∀ x ∈ chunk,
            x ≠ '&' ∧ ¬ (('\x00' : Char) ≠ '\x00' ∧ x = '\x00') ∧ x ≠ '>' ∧ x ≠ ';' := by
          intro x hx
          have hm := hl' x (by simp [hx])
          have hp := hchunk x hx
          exact ⟨hm.2, fun h => h.1 rfl, fun h => hp (Or.inl h), fun h => hp (Or.inr h)⟩
        have hstop : (rest ++ b = [] ∨
            ∃ s b', rest ++ b = s :: b' ∧
              ((('\x00' : Char) ≠ '\x00' ∧ s = '\x00') ∨ s = '>' ∨ s = ';')) := by
          rcases hrest with rfl | ⟨s, t, rfl, hs⟩
          · rcases hb with rfl | ⟨b', rfl⟩
            · exact Or.inl rfl
            · exact Or.inr ⟨'>', b', rfl, Or.inr (Or.inl rfl)⟩
          · exact Or.inr ⟨s, t ++ b, by simp, Or.inr hs⟩
        have e := ResolveREntityLoop_literal '\x00' (by decide) chunk hchunk'
          ((chunk ++ rest ++ b).length + (';' :: a).length + 1) []
          (rest ++ b) (';' :: a) hn hp q dir d rd hstop (by simp; omega)
        have ih' := ih rest (fun x hx => hl' x (by simp [hx])) (by simp at hlt; omega)
          (pData ++ ';' :: chunk) b (chunk.reverse ++ ';' :: a) hn hp q dir d rd hb
        simp only [HandleRTextLoop, XMLEventReader.rget, IStream.rget,
          XMLEventReader.setStream, List.cons_append, Bool.false_eq_true, if_false,
          (by decide : ¬ (';' = '>')), if_true, ResolveREntity, XMLEventReader.rbudget,
          List.append_assoc]
        simp only [List.append_assoc, List.nil_append] at e
        rw [e, bind_ok, ih']
        simp
      · have ih' := ih l hl' (by simp at hlt; omega) (pData ++ [c]) b (c :: a) hn hp q dir d rd hb
        simp [HandleRTextLoop, XMLEventReader.rget, IStream.rget,
          XMLEventReader.setStream, h1, hc]
        simpa using ih'

/-- Backward `hasPrevious` behind a text free of `>` and `&`. -/
theorem hasPrevious_bytes {t : Str} (hne : t ≠ []) (ht : ∀ c ∈ t, c ≠ '>' ∧ c ≠ '&')
    (b a : Str) (hb : b = [] ∨ ∃ b', b = '>' :: b') (d rd : List (Str × Str)) :
    hasPrevious ⟨⟨t.reverse ++ b, a, false⟩, false, false, [], false, d, rd⟩ =
      .ok true ⟨⟨b, t ++ a, false⟩, false, true, [charactersEvent t], false, d, rd⟩ := by
  have ht' : ∀ c ∈ t.reverse, c ≠ '>' ∧ c ≠ '&' := fun c hc => ht c (List.mem_reverse.mp hc)
  have hne' : t.reverse ≠ [] := by simpa using hne
  have hrev : t = t.reverse.reverse := by simp
  rw [hrev]
  generalize t.reverse = l at ht' hne' ⊢
  rw [List.reverse_reverse]
  cases l with
  | nil => exact absurd rfl hne'
  | cons c l =>
    obtain ⟨K, hK⟩ := hasPrevious_step c (l ++ b) a d rd
    have hc := ht' c (by simp)
    have hl : ∀ x ∈ l, x ≠ '>' ∧ x ≠ '&' := fun x hx => ht' x (by simp [hx])
    rw [List.cons_append, hK, if_neg hc.1]
    by_cases hs : c = ';'
    · subst hs
      obtain ⟨chunk, rest, rfl, hchunk, hrest⟩ := split_at_first (fun x => x = '>' ∨ x = ';') l
      have hchunk' : ∀ x ∈ chunk,
          x ≠ '&' ∧ ¬ (('\x00' : Char) ≠ '\x00' ∧ x = '\x00') ∧ x ≠ '>' ∧ x ≠ ';' := by
        intro x hx
        have hm := hl x (by simp [hx])
        have hp := hchunk x hx
        exact ⟨hm.2, fun h => h.1 rfl, fun h => hp (Or.inl h), fun h => hp (Or.inr h)⟩
      have hstop : (rest ++ b = [] ∨
          ∃ s b', rest ++ b = s :: b' ∧
            ((('\x00' : Char) ≠ '\x00' ∧ s = '\x00') ∨ s = '>' ∨ s = ';')) := by
        rcases hrest with rfl | ⟨s, t, rfl, hs⟩
        · rcases hb with rfl | ⟨b', rfl⟩
          · exact Or.inl rfl
          · exact Or.inr ⟨'>', b', rfl, Or.inr (Or.inl rfl)⟩
        · exact Or.inr ⟨s, t ++ b, by simp, Or.inr hs⟩
      have e := ResolveREntityLoop_literal '\x00' (by decide) chunk hchunk'
        ((chunk ++ rest ++ b).length + (';' :: a).length + 1) []
        (rest ++ b) (';' :: a) false true [] false d rd hstop (by simp; omega)
      have e2 := HandleRTextLoop_bytes ((rest ++ b).length + (chunk.reverse ++ ';' :: a).length + 1)
        rest (fun x hx => hl x (by simp [hx])) (by simp; omega)
        (';' :: chunk) b (chunk.reverse ++ ';' :: a) false true [] false d rd hb
      simp only [HandleRText, if_true, ResolveREntity, XMLEventReader.rbudget, List.append_assoc]
      simp only [List.append_assoc, List.nil_append] at e
      rw [e, bind_ok]
      simp only [XMLEventReader.rbudget]
      rw [e2]
      simp
    · have e2 := HandleRTextLoop_bytes ((l ++ b).length + (c :: a).length + 1) l hl
        (by simp; omega) [c] b (c :: a) false true [] false d rd hb
      simp only [HandleRText, hs, if_false, XMLEventReader.rbudget]
      rw [e2]
      simp

/-- C34. A `;` that ends no entity reference, read backwards. A text of at least one byte
with none of `&`, `<` and `>`, whatever `;` it holds, at the begin of the stream or behind
the `>` of a tag, is read by `hasPrevious` as one `Characters` event with the text as its
data. `ResolveREntity`, called behind a `;`, hands back the bytes it passes with the `;`
when it meets no `&` before a `>`, a `;`, the delimiter of the value or the begin of the
stream, and leaves the byte it stops at unread. An attribute value with none of `&` and
its delimiter is read as it is written, its `;` included. -/
theorem backward_literal_semicolon :
    (∀ (t b a : Str) (d rd : List (Str × Str)), t ≠ [] →
      (∀ c ∈ t, c ≠ '&' ∧ c ≠ '<' ∧ c ≠ '>') → (b = [] ∨ ∃ b', b = '>' :: b') →
      hasPrevious ⟨⟨t.reverse ++ b, a, false⟩, false, false, [], false, d, rd⟩ =
        .ok true ⟨⟨b, t ++ a, false⟩, false, true, [charactersEvent t], false, d, rd⟩) ∧
    (∀ (cDelimiter : Char) (l b a : Str) (hn hp : Bool) (q : List XMLEvent) (dir : Bool)
      (d rd : List (Str × Str)), cDelimiter ≠ '&' →
      (∀ c ∈ l, c ≠ '&' ∧ ¬ (cDelimiter ≠ '\x00' ∧ c = cDelimiter) ∧ c ≠ '>' ∧ c ≠ ';') →
      (b = [] ∨ ∃ s b', b = s :: b' ∧
        ((cDelimiter ≠ '\x00' ∧ s = cDelimiter) ∨ s = '>' ∨ s = ';')) →
      ResolveREntity cDelimiter ⟨⟨l ++ b, a, false⟩, hn, hp, q, dir, d, rd⟩ =
        .ok (';' :: l) ⟨⟨b, l.reverse ++ a, false⟩, hn, hp, q, dir, d, rd⟩) ∧
    (∀ (cDelimiter : Char) (v b a : Str) (hn hp : Bool) (q : List XMLEvent) (dir : Bool)
      (d rd : List (Str × Str)), (cDelimiter = '"' ∨ cDelimiter = '\'') →
      (∀ c ∈ v, c ≠ cDelimiter ∧ c ≠ '&') →
      HandleRAttributeValue cDelimiter
          ⟨⟨v.reverse ++ cDelimiter :: '=' :: b, a, false⟩, hn, hp, q, dir, d, rd⟩ =
        .ok v ⟨⟨b, '=' :: cDelimiter :: (v ++ a), false⟩, hn, hp, q, dir, d, rd⟩) := by
  refine ⟨?_, ?_, ?_⟩
  · intro t b a d rd hne ht hb
    exact hasPrevious_bytes hne (fun c hc => ⟨(ht c hc).2.2, (ht c hc).1⟩) b a hb d rd
  · intro cDelimiter l b a hn hp q dir d rd hd hl hb
    have e := ResolveREntityLoop_literal cDelimiter hd l hl
      ((l ++ b).length + a.length + 1) [] b a hn hp q dir d rd hb (by simp; omega)
    simpa [ResolveREntity, XMLEventReader.rbudget] using e
  · intro cDelimiter v b a hn hp q dir d rd hd hv
    have e := HandleRAttributeValueLoop_value hd
      ((v.reverse ++ cDelimiter :: '=' :: b).length + a.length + 1) v.reverse
      (fun c hc => hv c (List.mem_reverse.mp hc)) (by simp; omega) [] b a hn hp q dir d rd
    simpa [HandleRAttributeValue, XMLEventReader.rbudget] using e

theorem backward_literal_semicolon_witness :
    hasPrevious ⟨⟨"a;b;".toList.reverse ++ '>' :: "a<".toList, [], false⟩, false, false, [],
        false, [], []⟩ =
      .ok true ⟨⟨'>' :: "a<".toList, "a;b;".toList ++ [], false⟩, false, true,
        [charactersEvent "a;b;".toList], false, [], []⟩ ∧
    ResolveREntity '"' ⟨⟨"b".toList ++ '"' :: "=k".toList, [';'], false⟩, false, true, [],
        false, [], []⟩ =
      .ok (';' :: "b".toList) ⟨⟨'"' :: "=k".toList, "b".toList.reverse ++ [';'], false⟩,
        false, true, [], false, [], []⟩ ∧
    HandleRAttributeValue '"'
        ⟨⟨"a;b".toList.reverse ++ '"' :: '=' :: "k".toList, ['"'], false⟩, false, true, [],
          false, [], []⟩ =
      .ok "a;b".toList ⟨⟨"k".toList, '=' :: '"' :: ("a;b".toList ++ ['"']), false⟩, false, true,
        [], false, [], []⟩ :=
  ⟨backward_literal_semicolon.1 "a;b;".toList ('>' :: "a<".toList) [] [] [] (by decide)
      (by decide) (Or.inr ⟨_, rfl⟩),
    backward_literal_semicolon.2.1 '"' "b".toList ('"' :: "=k".toList) [';'] false true []
      false [] [] (by decide) (by decide) (Or.inr ⟨'"', _, rfl, Or.inl ⟨by decide, rfl⟩⟩),
    backward_literal_semicolon.2.2 '"' "a;b".toList "k".toList ['"'] false true [] false [] []
      (Or.inl rfl) (by decide)⟩

/-! ## Two forward runs side by side -/

theorem ReadAlike.same {r1 r2 r1' r2' : XMLEventReader} (h : ReadAlike r1 r2 r1' r2') :
    SameAhead r1' r2' := h.1

theorem ReadAlike.start {r1 r2 : XMLEventReader} (h : SameAhead r1 r2) :
    ReadAlike r1 r2 r1 r2 :=
  ⟨h, [], rfl, rfl, rfl⟩

theorem ReadAlike.left_le {r1 r2 r1' r2' : XMLEventReader} (h : ReadAlike r1 r2 r1' r2') :
    r1'.m_aStream.after.length ≤ r1.m_aStream.after.length := by
  obtain ⟨-, l, h1, -, -⟩ := h
  rw [h1]; simp

theorem ReadAlike.before_le {r1 r2 r1' r2' : XMLEventReader} (h : ReadAlike r1 r2 r1' r2') :
    r1.m_aStream.before.length ≤ r1'.m_aStream.before.length ∧
    r2.m_aStream.before.length ≤ r2'.m_aStream.before.length ∧
    r1'.m_aStream.before.length + r2.m_aStream.before.length =
      r2'.m_aStream.before.length + r1.m_aStream.before.length := by
  obtain ⟨-, l, -, h2, h3⟩ := h
  rw [h2, h3]; simp; omega

theorem ReadAlike.followed {r1 r2 m1 m2 r1' r2' : XMLEventReader}
    (h : ReadAlike r1 r2 m1 m2) (h' : ReadAlike m1 m2 r1' r2') : ReadAlike r1 r2 r1' r2' := by
  obtain ⟨-, l, a1, b1, c1⟩ := h
  obtain ⟨hs, l', a2, b2, c2⟩ := h'
  refine ⟨hs, l ++ l', ?_, ?_, ?_⟩
  · rw [a1, a2, List.append_assoc]
  · rw [b2, b1]; simp
  · rw [c2, c1]; simp

theorem ReadAlike.pushed {r1 r2 r1' r2' : XMLEventReader} (h : ReadAlike r1 r2 r1' r2')
    (e : XMLEvent) : ReadAlike r1 r2 (r1'.push e) (r2'.push e) := by
  obtain ⟨hs, l, a, b, c⟩ := h
  refine ⟨⟨hs.after, hs.eof, hs.hasNextCalled, ?_, hs.dictionary, hs.rdictionary, hs.latch1,
    hs.latch2, hs.direction1, hs.direction2⟩, l, a, b, c⟩
  simp only [XMLEventReader.push, hs.events]

/-- The same reading with the has-next latch cleared at its end, as `HandleTag` clears it
before it calls `hasNext` again. -/
theorem ReadAlike.unlatched {r1 r2 r1' r2' : XMLEventReader} (h : ReadAlike r1 r2 r1' r2') :
    ReadAlike r1 r2 { r1' with m_bHasNextCalled := false }
      { r2' with m_bHasNextCalled := false } := by
  obtain ⟨hs, l, a, b, c⟩ := h
  exact ⟨⟨hs.after, hs.eof, rfl, hs.events, hs.dictionary, hs.rdictionary, hs.latch1,
    hs.latch2, hs.direction1, hs.direction2⟩, l, a, b, c⟩

theorem alike_ok {α : Type} {r1 r2 r1' r2' : XMLEventReader} (h : ReadAlike r1 r2 r1' r2')
    (v : α) : (Result.ok v r1').Alike r1 r2 (.ok v r2') :=
  ⟨rfl, h⟩

theorem alike_malformed {α : Type} {r1 r2 r1' r2' : XMLEventReader}
    (h : ReadAlike r1 r2 r1' r2') (what : String) :
    (malformed what r1' : Result α).Alike r1 r2 (malformed what r2') :=
  ⟨rfl, h⟩

/-- Two outcomes alike from a pair of readers reached side by side are alike from the
pair the reading started at. -/
theorem alike_from {α : Type} {r1 r2 m1 m2 : XMLEventReader} {x y : Result α}
    (h : ReadAlike r1 r2 m1 m2) (hx : x.Alike m1 m2 y) : x.Alike r1 r2 y := by
  cases x with
  | ok v1 r1' =>
    cases y with
    | ok v2 r2' => exact ⟨hx.1, h.followed hx.2⟩
    | throw e r2' => exact hx
    | exhausted => exact hx
  | throw e1 r1' =>
    cases y with
    | ok v2 r2' => exact hx
    | throw e2 r2' => exact ⟨hx.1, h.followed hx.2⟩
    | exhausted => exact hx
  | exhausted => exact hx

theorem alike_bind {α β : Type} {r1 r2 : XMLEventReader} {x y : Result α}
    {f : α → XMLEventReader → Result β} (hx : x.Alike r1 r2 y)
    (hf : ∀ v m1 m2, ReadAlike r1 r2 m1 m2 → (f v m1).Alike m1 m2 (f v m2)) :
    (x.bind f).Alike r1 r2 (y.bind f) := by
  cases x with
  | ok v1 m1 =>
    cases y with
    | ok v2 m2 =>
      obtain ⟨rfl, h⟩ := hx
      exact alike_from h (hf v1 m1 m2 h)
    | throw e r2' => exact False.elim hx
    | exhausted => exact False.elim hx
  | throw e1 r1' =>
    cases y with
    | ok v2 r2' => exact False.elim hx
    | throw e2 r2' => exact hx
    | exhausted => exact False.elim hx
  | exhausted => exact False.elim hx

/-- What `get` does on two readers that differ at most in the bytes in front of the get
position: it delivers nothing on both, or the same byte on both, which `unget` gives
back. -/
theorem get_alike {r1 r2 : XMLEventReader} (h : SameAhead r1 r2) :
    (∃ g1 g2, r1.get = (none, g1) ∧ r2.get = (none, g2) ∧ ReadAlike r1 r2 g1 g2) ∨
    ∃ c g1 g2, r1.get = (some c, g1) ∧ r2.get = (some c, g2) ∧ ReadAlike r1 r2 g1 g2 ∧
      g1.unget = r1 ∧ g2.unget = r2 ∧
      g1.m_aStream.after.length < r1.m_aStream.after.length := by
  obtain ⟨⟨b1, a1, e1⟩, hn1, hp1, q1, dir1, d1, rd1⟩ := r1
  obtain ⟨⟨b2, a2, e2⟩, hn2, hp2, q2, dir2, d2, rd2⟩ := r2
  obtain ⟨ha, he, h3, h4, h5, h6, h7, h8, h9, h10⟩ := h
  simp only at ha he h3 h4 h5 h6 h7 h8 h9 h10
  subst ha he h3 h4 h5 h6 h7 h8 h9 h10
  cases e1 with
  | true =>
    exact Or.inl ⟨_, _, rfl, rfl, ⟨rfl, rfl, rfl, rfl, rfl, rfl, rfl, rfl, rfl, rfl⟩, [], rfl,
      rfl, rfl⟩
  | false =>
    cases a1 with
    | nil =>
      exact Or.inl ⟨_, _, rfl, rfl, ⟨rfl, rfl, rfl, rfl, rfl, rfl, rfl, rfl, rfl, rfl⟩, [], rfl,
        rfl, rfl⟩
    | cons c a =>
      exact Or.inr ⟨c, _, _, rfl, rfl,
        ⟨⟨rfl, rfl, rfl, rfl, rfl, rfl, rfl, rfl, rfl, rfl⟩, [c], rfl, rfl, rfl⟩, rfl, rfl,
        by simp [XMLEventReader.get, XMLEventReader.setStream, IStream.get]⟩

theorem alike_ConsumeWhitespaceLoop : ∀ (n : Nat) (r1 r2 : XMLEventReader),
    SameAhead r1 r2 → r1.m_aStream.after.length < n →
      ∃ c m1 m2, ConsumeWhitespaceLoop n r1 = .ok c m1 ∧ ConsumeWhitespaceLoop n r2 = .ok c m2 ∧
        ReadAlike r1 r2 m1 m2 ∧ (c ≠ '\x00' → ReadAlike r1 r2 m1.unget m2.unget) := by
  intro n
  induction n with
  | zero => intro r1 r2 _ hlt; omega
  | succ n ih =>
    intro r1 r2 hs hlt
    simp only [ConsumeWhitespaceLoop]
    rcases get_alike hs with ⟨g1, g2, h1, h2, ho⟩ | ⟨c, g1, g2, h1, h2, ho, hu1, hu2, hlen⟩
    · simp only [h1, h2]
      exact ⟨_, _, _, rfl, rfl, ho, fun h => absurd rfl h⟩
    · simp only [h1, h2]
      by_cases hc : isspace c = false
      · simp only [hc, if_true]
        refine ⟨_, _, _, rfl, rfl, ho, fun _ => ?_⟩
        rw [hu1, hu2]
        exact ReadAlike.start hs
      · simp only [hc, if_false]
        obtain ⟨c', m1, m2, e1, e2, hm, hu⟩ := ih g1 g2 ho.same (by omega)
        exact ⟨c', m1, m2, e1, e2, ho.followed hm, fun h0 => ho.followed (hu h0)⟩

theorem alike_ConsumeWhitespace (r1 r2 : XMLEventReader) (hs : SameAhead r1 r2) :
    ∃ c m1 m2, ConsumeWhitespace r1 = .ok c m1 ∧ ConsumeWhitespace r2 = .ok c m2 ∧
      ReadAlike r1 r2 m1 m2 ∧ (c ≠ '\x00' → ReadAlike r1 r2 m1.unget m2.unget) := by
  have h := alike_ConsumeWhitespaceLoop r1.budget r1 r2 hs (by simp [XMLEventReader.budget])
  simpa [ConsumeWhitespace, XMLEventReader.budget, hs.after] using h

theorem alike_ResolveEntityLoop : ∀ (n : Nat) (pEntityName : Str) (r1 r2 : XMLEventReader),
    SameAhead r1 r2 → r1.m_aStream.after.length < n →
      (ResolveEntityLoop n pEntityName r1).Alike r1 r2 (ResolveEntityLoop n pEntityName r2) := by
  intro n
  induction n with
  | zero => intro _ r1 r2 _ hlt; omega
  | succ n ih =>
    intro pEntityName r1 r2 hs hlt
    simp only [ResolveEntityLoop]
    rcases get_alike hs with ⟨g1, g2, h1, h2, ho⟩ | ⟨c, g1, g2, h1, h2, ho, hu1, hu2, hlen⟩
    · simp only [h1, h2]
      exact alike_malformed ho _
    · simp only [h1, h2]
      split_ifs
      · exact alike_ok ho _
      · exact alike_from ho (ih _ g1 g2 ho.same (by omega))

theorem alike_ResolveEntity (r1 r2 : XMLEventReader) (hs : SameAhead r1 r2) :
    (ResolveEntity r1).Alike r1 r2 (ResolveEntity r2) := by
  simp only [ResolveEntity]
  rcases get_alike hs with ⟨g1, g2, h1, h2, ho⟩ | ⟨c, g1, g2, h1, h2, ho, hu1, hu2, hlen⟩
  · simp only [h1, h2]
    exact alike_malformed ho _
  · simp only [h1, h2]
    split_ifs
    · exact alike_malformed ho _
    · apply alike_from ho
      have hb : g2.budget = g1.budget := by simp [XMLEventReader.budget, ho.same.after]
      rw [hb]
      apply alike_bind (alike_ResolveEntityLoop _ _ g1 g2 ho.same (by simp [XMLEventReader.budget]))
      intro v m1 m2 hm
      rw [hm.same.dictionary]
      cases mapFind m2.m_aEntityReplacementDictionary v with
      | none => exact alike_malformed (ReadAlike.start hm.same) _
      | some s => exact alike_ok (ReadAlike.start hm.same) _

theorem SameAhead.budget_eq {r1 r2 : XMLEventReader} (h : SameAhead r1 r2) :
    r2.budget = r1.budget := by
  simp [XMLEventReader.budget, h.after]

theorem budget_gt (r : XMLEventReader) : r.m_aStream.after.length < r.budget := by
  simp [XMLEventReader.budget]

theorem alike_HandleAttributeValueLoop :
    ∀ (n : Nat) (cDelimiter : Char) (pValue : Str) (r1 r2 : XMLEventReader),
      SameAhead r1 r2 → r1.m_aStream.after.length < n →
      (HandleAttributeValueLoop n cDelimiter pValue r1).Alike r1 r2
        (HandleAttributeValueLoop n cDelimiter pValue r2) := by
  intro n
  induction n with
  | zero => intro _ _ r1 r2 _ hlt; omega
  | succ n ih =>
    intro cDelimiter pValue r1 r2 hs hlt
    simp only [HandleAttributeValueLoop]
    rcases get_alike hs with ⟨g1, g2, h1, h2, ho⟩ | ⟨c, g1, g2, h1, h2, ho, hu1, hu2, hlen⟩
    · simp only [h1, h2]
      exact alike_malformed ho _
    · simp only [h1, h2]
      split_ifs
      · exact alike_ok ho _
      · apply alike_from ho
        apply alike_bind (alike_ResolveEntity g1 g2 ho.same)
        intro v m1 m2 hm
        exact ih _ _ m1 m2 hm.same (by have := hm.left_le; omega)
      · exact alike_from ho (ih _ _ g1 g2 ho.same (by omega))

theorem alike_HandleAttributeValue (r1 r2 : XMLEventReader) (hs : SameAhead r1 r2) :
    (HandleAttributeValue r1).Alike r1 r2 (HandleAttributeValue r2) := by
  obtain ⟨c, m1, m2, e1, e2, hm, -⟩ := alike_ConsumeWhitespace r1 r2 hs
  simp only [HandleAttributeValue, e1, e2, Result.bind]
  split_ifs
  · exact alike_malformed hm _
  · exact alike_malformed hm _
  · rw [hm.same.budget_eq]
    exact alike_from hm (alike_HandleAttributeValueLoop _ _ _ m1 m2 hm.same (budget_gt m1))

theorem alike_HandleAttributeNameLoop :
    ∀ (n : Nat) (pNamePrefix : Option Str) (pNameLocalPart : Str) (r1 r2 : XMLEventReader),
      SameAhead r1 r2 → r1.m_aStream.after.length < n →
      (HandleAttributeNameLoop n pNamePrefix pNameLocalPart r1).Alike r1 r2
        (HandleAttributeNameLoop n pNamePrefix pNameLocalPart r2) := by
  intro n
  induction n with
  | zero => intro _ _ r1 r2 _ hlt; omega
  | succ n ih =>
    intro pNamePrefix pNameLocalPart r1 r2 hs hlt
    simp only [HandleAttributeNameLoop]
    rcases get_alike hs with ⟨g1, g2, h1, h2, ho⟩ | ⟨c, g1, g2, h1, h2, ho, hu1, hu2, hlen⟩
    · simp only [h1, h2]
      exact alike_malformed ho _
    · simp only [h1, h2]
      by_cases hc : c = ':'
      · simp only [hc, if_true]
        cases pNamePrefix with
        | some p => exact alike_malformed ho _
        | none => exact alike_from ho (ih _ _ g1 g2 ho.same (by omega))
      · simp only [hc, if_false]
        by_cases hsp : isspace c = true
        · simp only [hsp, if_true]
          obtain ⟨c', m1, m2, e1, e2, hm, hu⟩ := alike_ConsumeWhitespace g1 g2 ho.same
          simp only [e1, e2, Result.bind]
          by_cases h0 : c' = '\x00'
          · simp only [h0, if_true]
            exact alike_malformed (ho.followed hm) _
          · simp only [h0, if_false]
            split_ifs
            · exact alike_malformed (ho.followed hm) _
            · exact alike_from (ho.followed (hu h0))
                (ih _ _ m1.unget m2.unget (hu h0).same (by have := (hu h0).left_le; omega))
        · simp only [hsp, if_false, Bool.false_eq_true]
          split_ifs
          · exact alike_ok ho _
          · exact alike_from ho (ih _ _ g1 g2 ho.same (by omega))
          · exact alike_malformed ho _

theorem alike_HandleAttributeName (cFirstByte : Char) (r1 r2 : XMLEventReader)
    (hs : SameAhead r1 r2) :
    (HandleAttributeName cFirstByte r1).Alike r1 r2 (HandleAttributeName cFirstByte r2) := by
  simp only [HandleAttributeName]
  split_ifs
  · rw [hs.budget_eq]
    exact alike_HandleAttributeNameLoop _ _ _ r1 r2 hs (budget_gt r1)
  · exact alike_malformed (ReadAlike.start hs) _

theorem alike_HandleAttributesLoop :
    ∀ (n : Nat) (pAttributes : List Attribute) (r1 r2 : XMLEventReader),
      SameAhead r1 r2 → r1.m_aStream.after.length < n →
      (HandleAttributesLoop n pAttributes r1).Alike r1 r2
        (HandleAttributesLoop n pAttributes r2) := by
  intro n
  induction n with
  | zero => intro _ r1 r2 _ hlt; omega
  | succ n ih =>
    intro pAttributes r1 r2 hs hlt
    simp only [HandleAttributesLoop]
    rcases get_alike hs with ⟨g1, g2, h1, h2, ho⟩ | ⟨c, g1, g2, h1, h2, ho, hu1, hu2, hlen⟩
    · simp only [h1, h2]
      exact alike_malformed ho _
    · simp only [h1, h2]
      by_cases hc : c = '>'
      · simp only [hc, if_true, hu1, hu2]
        exact alike_ok (ReadAlike.start hs) _
      · simp only [hc, if_false]
        by_cases hsl : c = '/'
        · simp only [hsl, if_true]
          rcases get_alike ho.same with ⟨k1, k2, h3, h4, hk⟩ |
            ⟨c2, k1, k2, h3, h4, hk, hv1, hv2, hlen2⟩
          · simp only [h3, h4]
            exact alike_malformed (ho.followed hk) _
          · simp only [h3, h4]
            split_ifs
            · exact alike_malformed (ho.followed hk) _
            · rw [hv1, hv2, hu1, hu2]
              exact alike_ok (ReadAlike.start hs) _
        · simp only [hsl, if_false]
          by_cases hsp : isspace c = true
          · simp only [hsp, if_true]
            exact alike_from ho (ih _ g1 g2 ho.same (by omega))
          · simp only [hsp, if_false, Bool.false_eq_true]
            apply alike_from ho
            apply alike_bind (alike_HandleAttributeName c g1 g2 ho.same)
            intro v m1 m2 hm
            apply alike_bind (alike_HandleAttributeValue m1 m2 hm.same)
            intro v' k1 k2 hk
            exact ih _ k1 k2 hk.same (by have := hm.left_le; have := hk.left_le; omega)

theorem alike_HandleAttributes (cFirstByte : Char) (pAttributes : List Attribute)
    (r1 r2 : XMLEventReader) (hs : SameAhead r1 r2) :
    (HandleAttributes cFirstByte pAttributes r1).Alike r1 r2
      (HandleAttributes cFirstByte pAttributes r2) := by
  simp only [HandleAttributes]
  apply alike_bind (alike_HandleAttributeName cFirstByte r1 r2 hs)
  intro v m1 m2 hm
  apply alike_bind (alike_HandleAttributeValue m1 m2 hm.same)
  intro v' k1 k2 hk
  rw [hk.same.budget_eq]
  exact alike_HandleAttributesLoop _ _ k1 k2 hk.same (budget_gt k1)

theorem alike_HandleTagStartSpace :
    ∀ (n : Nat) (pAttributes : List Attribute) (r1 r2 : XMLEventReader),
      SameAhead r1 r2 → r1.m_aStream.after.length < n →
      (HandleTagStartSpace n pAttributes r1).Alike r1 r2
        (HandleTagStartSpace n pAttributes r2) := by
  intro n
  induction n with
  | zero => intro _ r1 r2 _ hlt; omega
  | succ n ih =>
    intro pAttributes r1 r2 hs hlt
    simp only [HandleTagStartSpace]
    rcases get_alike hs with ⟨g1, g2, h1, h2, ho⟩ | ⟨c, g1, g2, h1, h2, ho, hu1, hu2, hlen⟩
    · simp only [h1, h2]
      exact alike_malformed ho _
    · simp only [h1, h2]
      by_cases hc : c = '>'
      · simp only [hc, if_true]
        exact alike_ok ho _
      · simp only [hc, if_false]
        by_cases hsp : isspace c = true
        · simp only [hsp, if_true]
          exact alike_from ho (ih _ g1 g2 ho.same (by omega))
        · simp only [hsp, if_false, Bool.false_eq_true]
          by_cases hsl : c = '/'
          · simp only [hsl, if_true, hu1, hu2]
            exact alike_ok (ReadAlike.start hs) _
          · simp only [hsl, if_false]
            exact alike_from ho (alike_HandleAttributes c _ g1 g2 ho.same)

theorem alike_HandleTagStartLoop :
    ∀ (n : Nat) (cByte : Char) (pNamePrefix : Option Str) (pNameLocalPart : Str)
      (pAttributes : List Attribute) (r1 r2 : XMLEventReader),
      SameAhead r1 r2 → r1.m_aStream.after.length < n →
      (HandleTagStartLoop n cByte pNamePrefix pNameLocalPart pAttributes r1).Alike r1 r2
        (HandleTagStartLoop n cByte pNamePrefix pNameLocalPart pAttributes r2) := by
  intro n
  induction n with
  | zero => intro _ _ _ _ r1 r2 _ hlt; omega
  | succ n ih =>
    intro cByte pNamePrefix pNameLocalPart pAttributes r1 r2 hs hlt
    simp only [HandleTagStartLoop]
    by_cases hc : cByte = ':'
    · simp only [hc, if_true]
      cases pNamePrefix with
      | some p => exact alike_malformed (ReadAlike.start hs) _
      | none =>
        simp only
        rcases get_alike hs with ⟨g1, g2, h1, h2, ho⟩ | ⟨c, g1, g2, h1, h2, ho, hu1, hu2, hlen⟩
        · simp only [h1, h2]
          exact alike_malformed ho _
        · simp only [h1, h2]
          exact alike_from ho (ih _ _ _ _ g1 g2 ho.same (by omega))
    · simp only [hc, if_false]
      by_cases hgt : cByte = '>'
      · simp only [hgt, if_true]
        exact alike_ok ((ReadAlike.start hs).pushed _) _
      · simp only [hgt, if_false]
        by_cases hsl : cByte = '/'
        · simp only [hsl, if_true]
          rcases get_alike hs with ⟨g1, g2, h1, h2, ho⟩ | ⟨c, g1, g2, h1, h2, ho, hu1, hu2, hlen⟩
          · simp only [h1, h2]
            exact alike_malformed ho _
          · simp only [h1, h2]
            split_ifs
            · exact alike_malformed ho _
            · exact alike_ok ((ho.pushed _).pushed _) _
        · simp only [hsl, if_false]
          by_cases hsp : isspace cByte = true
          · simp only [hsp, if_true]
            split_ifs
            · exact alike_malformed (ReadAlike.start hs) _
            · rw [hs.budget_eq]
              apply alike_bind (alike_HandleTagStartSpace _ _ r1 r2 hs (budget_gt r1))
              intro v m1 m2 hm
              rcases get_alike hm.same with ⟨g1, g2, h1, h2, ho⟩ |
                ⟨c, g1, g2, h1, h2, ho, hu1, hu2, hlen⟩
              · simp only [h1, h2]
                exact alike_malformed ho _
              · simp only [h1, h2]
                exact alike_from ho (ih _ _ _ _ g1 g2 ho.same
                  (by have := hm.left_le; omega))
          · simp only [hsp, if_false, Bool.false_eq_true]
            split_ifs
            · rcases get_alike hs with ⟨g1, g2, h1, h2, ho⟩ |
                ⟨c, g1, g2, h1, h2, ho, hu1, hu2, hlen⟩
              · simp only [h1, h2]
                exact alike_malformed ho _
              · simp only [h1, h2]
                exact alike_from ho (ih _ _ _ _ g1 g2 ho.same (by omega))
            · exact alike_malformed (ReadAlike.start hs) _

theorem alike_HandleTagStart (cFirstByte : Char) (r1 r2 : XMLEventReader)
    (hs : SameAhead r1 r2) :
    (HandleTagStart cFirstByte r1).Alike r1 r2 (HandleTagStart cFirstByte r2) := by
  simp only [HandleTagStart]
  rcases get_alike hs with ⟨g1, g2, h1, h2, ho⟩ | ⟨c, g1, g2, h1, h2, ho, hu1, hu2, hlen⟩
  · simp only [h1, h2]
    exact alike_malformed ho _
  · simp only [h1, h2]
    rw [ho.same.budget_eq]
    exact alike_from ho (alike_HandleTagStartLoop _ _ _ _ _ g1 g2 ho.same (budget_gt g1))

theorem alike_HandleTagEndLoop :
    ∀ (n : Nat) (cByte : Char) (pNamePrefix : Option Str) (pNameLocalPart : Str)
      (r1 r2 : XMLEventReader),
      SameAhead r1 r2 → r1.m_aStream.after.length < n →
      (HandleTagEndLoop n cByte pNamePrefix pNameLocalPart r1).Alike r1 r2
        (HandleTagEndLoop n cByte pNamePrefix pNameLocalPart r2) := by
  intro n
  induction n with
  | zero => intro _ _ _ r1 r2 _ hlt; omega
  | succ n ih =>
    intro cByte pNamePrefix pNameLocalPart r1 r2 hs hlt
    simp only [HandleTagEndLoop]
    by_cases hc : cByte = ':'
    · simp only [hc, if_true]
      cases pNamePrefix with
      | some p => exact alike_malformed (ReadAlike.start hs) _
      | none =>
        simp only
        rcases get_alike hs with ⟨g1, g2, h1, h2, ho⟩ | ⟨c, g1, g2, h1, h2, ho, hu1, hu2, hlen⟩
        · simp only [h1, h2]
          exact alike_malformed ho _
        · simp only [h1, h2]
          exact alike_from ho (ih _ _ _ g1 g2 ho.same (by omega))
    · simp only [hc, if_false]
      by_cases hgt : cByte = '>'
      · simp only [hgt, if_true]
        exact alike_ok ((ReadAlike.start hs).pushed _) _
      · simp only [hgt, if_false]
        split_ifs
        · rcases get_alike hs with ⟨g1, g2, h1, h2, ho⟩ |
            ⟨c, g1, g2, h1, h2, ho, hu1, hu2, hlen⟩
          · simp only [h1, h2]
            exact alike_malformed ho _
          · simp only [h1, h2]
            exact alike_from ho (ih _ _ _ g1 g2 ho.same (by omega))
        · exact alike_malformed (ReadAlike.start hs) _

theorem alike_HandleTagEnd (r1 r2 : XMLEventReader) (hs : SameAhead r1 r2) :
    (HandleTagEnd r1).Alike r1 r2 (HandleTagEnd r2) := by
  simp only [HandleTagEnd]
  rcases get_alike hs with ⟨g1, g2, h1, h2, ho⟩ | ⟨c, g1, g2, h1, h2, ho, hu1, hu2, hlen⟩
  · simp only [h1, h2]
    exact alike_malformed ho _
  · simp only [h1, h2]
    rw [ho.same.budget_eq]
    exact alike_from ho (alike_HandleTagEndLoop _ _ _ _ g1 g2 ho.same (budget_gt g1))

theorem alike_HandleTextLoop :
    ∀ (n : Nat) (pData : Str) (r1 r2 : XMLEventReader),
      SameAhead r1 r2 → r1.m_aStream.after.length < n →
      (HandleTextLoop n pData r1).Alike r1 r2 (HandleTextLoop n pData r2) := by
  intro n
  induction n with
  | zero => intro _ r1 r2 _ hlt; omega
  | succ n ih =>
    intro pData r1 r2 hs hlt
    simp only [HandleTextLoop]
    rcases get_alike hs with ⟨g1, g2, h1, h2, ho⟩ | ⟨c, g1, g2, h1, h2, ho, hu1, hu2, hlen⟩
    · simp only [h1, h2]
      exact alike_ok (ho.pushed _) _
    · simp only [h1, h2]
      by_cases hc : c = '<'
      · simp only [hc, if_true, hu1, hu2]
        exact alike_ok ((ReadAlike.start hs).pushed _) _
      · simp only [hc, if_false]
        split_ifs
        · apply alike_from ho
          apply alike_bind (alike_ResolveEntity g1 g2 ho.same)
          intro v m1 m2 hm
          exact ih _ m1 m2 hm.same (by have := hm.left_le; omega)
        · exact alike_from ho (ih _ g1 g2 ho.same (by omega))

theorem alike_HandleText (cFirstByte : Char) (r1 r2 : XMLEventReader) (hs : SameAhead r1 r2) :
    (HandleText cFirstByte r1).Alike r1 r2 (HandleText cFirstByte r2) := by
  simp only [HandleText]
  split_ifs
  · apply alike_bind (alike_ResolveEntity r1 r2 hs)
    intro v m1 m2 hm
    rw [hm.same.budget_eq]
    exact alike_HandleTextLoop _ _ m1 m2 hm.same (budget_gt m1)
  · rw [hs.budget_eq]
    exact alike_HandleTextLoop _ _ r1 r2 hs (budget_gt r1)

theorem alike_HandleProcessingInstructionTargetLoop :
    ∀ (n nMatchCount : Nat) (pName : Option Str) (r1 r2 : XMLEventReader),
      SameAhead r1 r2 → r1.m_aStream.after.length < n →
      (HandleProcessingInstructionTargetLoop n nMatchCount pName r1).Alike r1 r2
        (HandleProcessingInstructionTargetLoop n nMatchCount pName r2) := by
  intro n
  induction n with
  | zero => intro _ _ r1 r2 _ hlt; omega
  | succ n ih =>
    intro nMatchCount pName r1 r2 hs hlt
    simp only [HandleProcessingInstructionTargetLoop]
    by_cases hm : nMatchCount < 2
    · simp only [hm, if_true]
      rcases get_alike hs with ⟨g1, g2, h1, h2, ho⟩ | ⟨c, g1, g2, h1, h2, ho, hu1, hu2, hlen⟩
      · simp only [h1, h2]
        exact alike_malformed ho _
      · simp only [h1, h2]
        by_cases hq : c = '?' ∧ nMatchCount ≤ 0
        · simp only [hq, and_self, if_true]
          exact alike_from ho (ih _ _ g1 g2 ho.same (by omega))
        · simp only [hq, if_false]
          by_cases hgt : c = '>' ∧ nMatchCount ≤ 1
          · simp only [hgt, and_self, if_true]
            exact alike_malformed ho _
          · simp only [hgt, if_false]
            by_cases hsp : isspace c = true
            · simp only [hsp, if_true]
              cases pName with
              | none => exact alike_malformed ho _
              | some s => exact alike_ok ho _
            · simp only [hsp, if_false, Bool.false_eq_true]
              by_cases hp : nMatchCount > 0
              · simp only [hp, if_true]
                exact alike_malformed ho _
              · simp only [hp, if_false]
                cases pName with
                | none =>
                  simp only
                  split_ifs
                  · exact alike_malformed ho _
                  · exact alike_from ho (ih _ _ g1 g2 ho.same (by omega))
                | some s => exact alike_from ho (ih _ _ g1 g2 ho.same (by omega))
    · simp only [hm, if_false]
      exact alike_ok (ReadAlike.start hs) _

theorem alike_HandleProcessingInstructionTarget (r1 r2 : XMLEventReader)
    (hs : SameAhead r1 r2) :
    (HandleProcessingInstructionTarget r1).Alike r1 r2 (HandleProcessingInstructionTarget r2) := by
  simp only [HandleProcessingInstructionTarget]
  rw [hs.budget_eq]
  exact alike_HandleProcessingInstructionTargetLoop _ _ _ r1 r2 hs (budget_gt r1)

theorem alike_HandleXmlDeclarationLoop :
    ∀ (n nMatchCount : Nat) (r1 r2 : XMLEventReader),
      SameAhead r1 r2 → r1.m_aStream.after.length < n →
      (HandleXmlDeclarationLoop n nMatchCount r1).Alike r1 r2
        (HandleXmlDeclarationLoop n nMatchCount r2) := by
  intro n
  induction n with
  | zero => intro _ r1 r2 _ hlt; omega
  | succ n ih =>
    intro nMatchCount r1 r2 hs hlt
    simp only [HandleXmlDeclarationLoop]
    by_cases hm : nMatchCount < 2
    · simp only [hm, if_true]
      rcases get_alike hs with ⟨g1, g2, h1, h2, ho⟩ | ⟨c, g1, g2, h1, h2, ho, hu1, hu2, hlen⟩
      · simp only [h1, h2]
        exact alike_malformed ho _
      · simp only [h1, h2]
        split_ifs
        · exact alike_from ho (ih _ g1 g2 ho.same (by omega))
        · exact alike_ok ho _
        · exact alike_from ho (ih _ g1 g2 ho.same (by omega))
    · simp only [hm, if_false]
      exact alike_ok (ReadAlike.start hs) _

theorem alike_HandleProcessingInstructionLoop :
    ∀ (n nMatchCount : Nat) (pTarget pData : Str) (r1 r2 : XMLEventReader),
      SameAhead r1 r2 → r1.m_aStream.after.length < n →
      (HandleProcessingInstructionLoop n nMatchCount pTarget pData r1).Alike r1 r2
        (HandleProcessingInstructionLoop n nMatchCount pTarget pData r2) := by
  intro n
  induction n with
  | zero => intro _ _ _ r1 r2 _ hlt; omega
  | succ n ih =>
    intro nMatchCount pTarget pData r1 r2 hs hlt
    simp only [HandleProcessingInstructionLoop]
    by_cases hm : nMatchCount < 2
    · simp only [hm, if_true]
      rcases get_alike hs with ⟨g1, g2, h1, h2, ho⟩ | ⟨c, g1, g2, h1, h2, ho, hu1, hu2, hlen⟩
      · simp only [h1, h2]
        exact alike_malformed ho _
      · simp only [h1, h2]
        by_cases hq : c = '?' ∧ nMatchCount ≤ 0
        · simp only [hq, and_self, if_true]
          exact alike_from ho (ih _ _ _ g1 g2 ho.same (by omega))
        · simp only [hq, if_false]
          by_cases hgt : c = '>' ∧ nMatchCount ≤ 1
          · simp only [hgt, and_self, if_true]
            exact alike_ok (ho.pushed _) _
          · simp only [hgt, if_false]
            exact alike_from ho (ih _ _ _ g1 g2 ho.same (by omega))
    · simp only [hm, if_false]
      exact alike_ok (ReadAlike.start hs) _

theorem alike_HandleProcessingInstruction (r1 r2 : XMLEventReader) (hs : SameAhead r1 r2) :
    (HandleProcessingInstruction r1).Alike r1 r2 (HandleProcessingInstruction r2) := by
  simp only [HandleProcessingInstruction]
  apply alike_bind (alike_HandleProcessingInstructionTarget r1 r2 hs)
  intro v m1 m2 hm
  cases v with
  | none => exact alike_malformed (ReadAlike.start hm.same) _
  | some s =>
    simp only
    rw [hm.same.budget_eq]
    split_ifs
    · exact alike_HandleXmlDeclarationLoop _ _ m1 m2 hm.same (budget_gt m1)
    · exact alike_HandleProcessingInstructionLoop _ _ _ _ m1 m2 hm.same (budget_gt m1)

theorem alike_HandleCommentLoop :
    ∀ (n nMatchCount : Nat) (pData : Str) (r1 r2 : XMLEventReader),
      SameAhead r1 r2 → r1.m_aStream.after.length < n →
      (HandleCommentLoop n nMatchCount pData r1).Alike r1 r2
        (HandleCommentLoop n nMatchCount pData r2) := by
  intro n
  induction n with
  | zero => intro _ _ r1 r2 _ hlt; omega
  | succ n ih =>
    intro nMatchCount pData r1 r2 hs hlt
    simp only [HandleCommentLoop]
    rcases get_alike hs with ⟨g1, g2, h1, h2, ho⟩ | ⟨c, g1, g2, h1, h2, ho, hu1, hu2, hlen⟩
    · simp only [h1, h2]
      exact alike_malformed ho _
    · simp only [h1, h2]
      split_ifs
      · exact alike_from ho (ih _ _ g1 g2 ho.same (by omega))
      · exact alike_ok (ho.pushed _) _
      · exact alike_from ho (ih _ _ g1 g2 ho.same (by omega))
      · exact alike_from ho (ih _ _ g1 g2 ho.same (by omega))

theorem alike_HandleComment (r1 r2 : XMLEventReader) (hs : SameAhead r1 r2) :
    (HandleComment r1).Alike r1 r2 (HandleComment r2) := by
  simp only [HandleComment]
  rcases get_alike hs with ⟨g1, g2, h1, h2, ho⟩ | ⟨c, g1, g2, h1, h2, ho, hu1, hu2, hlen⟩
  · simp only [h1, h2]
    exact alike_malformed ho _
  · simp only [h1, h2]
    split_ifs
    · exact alike_malformed ho _
    · rw [ho.same.budget_eq]
      exact alike_from ho (alike_HandleCommentLoop _ _ _ g1 g2 ho.same (budget_gt g1))

theorem alike_HandleMarkupDeclaration (r1 r2 : XMLEventReader) (hs : SameAhead r1 r2) :
    (HandleMarkupDeclaration r1).Alike r1 r2 (HandleMarkupDeclaration r2) := by
  simp only [HandleMarkupDeclaration]
  rcases get_alike hs with ⟨g1, g2, h1, h2, ho⟩ | ⟨c, g1, g2, h1, h2, ho, hu1, hu2, hlen⟩
  · simp only [h1, h2]
    exact alike_malformed ho _
  · simp only [h1, h2]
    split_ifs
    · exact alike_from ho (alike_HandleComment g1 g2 ho.same)
    · exact alike_malformed ho _

/-- `HandleTag` on two readers side by side, when the call of `hasNext` it makes behind
an XML declaration treats readers with fewer bytes left alike. -/
theorem alike_HandleTag {K : XMLEventReader → Result Bool} (r1 r2 : XMLEventReader)
    (hs : SameAhead r1 r2)
    (hK : ∀ m1 m2 : XMLEventReader, SameAhead m1 m2 →
      m1.m_aStream.after.length < r1.m_aStream.after.length → (K m1).Alike m1 m2 (K m2)) :
    (HandleTag K r1).Alike r1 r2 (HandleTag K r2) := by
  simp only [HandleTag]
  rcases get_alike hs with ⟨g1, g2, h1, h2, ho⟩ | ⟨c, g1, g2, h1, h2, ho, hu1, hu2, hlen⟩
  · simp only [h1, h2]
    exact alike_malformed ho _
  · simp only [h1, h2]
    by_cases hq : c = '?'
    · simp only [hq, if_true]
      apply alike_from ho
      apply alike_bind (alike_HandleProcessingInstruction g1 g2 ho.same)
      intro v m1 m2 hm
      cases v with
      | true => exact alike_ok (ReadAlike.start hm.same) _
      | false =>
        simp only [Bool.false_eq_true, if_false]
        exact alike_from (ReadAlike.start hm.same).unlatched
          (hK _ _ (ReadAlike.start hm.same).unlatched.same (by have := hm.left_le; simp; omega))
    · simp only [hq, if_false]
      split_ifs
      · exact alike_from ho (alike_HandleTagEnd g1 g2 ho.same)
      · exact alike_from ho (alike_HandleMarkupDeclaration g1 g2 ho.same)
      · exact alike_from ho (alike_HandleTagStart c g1 g2 ho.same)
      · exact alike_malformed ho _

theorem turnForward_of_forward {r : XMLEventReader} (h1 : r.m_bHasPreviousCalled = false)
    (h2 : r.m_bEventsAreForwardDirection = true) : r.turnForward = r := by
  simp [XMLEventReader.turnForward, h1, h2]

theorem alike_hasNextFuel : ∀ (n : Nat) (r1 r2 : XMLEventReader),
    SameAhead r1 r2 → r1.m_aStream.after.length < n →
      (hasNextFuel n r1).Alike r1 r2 (hasNextFuel n r2) := by
  intro n
  induction n with
  | zero => intro r1 r2 _ hlt; omega
  | succ n ih =>
    intro r1 r2 hs hlt
    simp only [hasNextFuel, turnForward_of_forward hs.latch1 hs.direction1,
      turnForward_of_forward hs.latch2 hs.direction2]
    by_cases hq : r1.m_aEvents.length > 0
    · have hq2 : r2.m_aEvents.length > 0 := by rw [← hs.events]; exact hq
      simp only [hq, hq2, if_true]
      exact alike_ok (ReadAlike.start hs) _
    · have hq2 : ¬ r2.m_aEvents.length > 0 := by rw [← hs.events]; exact hq
      simp only [hq, hq2, if_false]
      by_cases hl : r1.m_bHasNextCalled = true
      · have hl2 : r2.m_bHasNextCalled = true := by rw [← hs.hasNextCalled]; exact hl
        simp only [hl, hl2, if_true]
        exact alike_ok (ReadAlike.start hs) _
      · have hl2 : ¬ r2.m_bHasNextCalled = true := by rw [← hs.hasNextCalled]; exact hl
        simp only [hl, hl2, if_false, Bool.false_eq_true]
        have hs' : SameAhead { r1 with m_bHasNextCalled := true }
            { r2 with m_bHasNextCalled := true } :=
          ⟨hs.after, hs.eof, rfl, hs.events, hs.dictionary, hs.rdictionary, hs.latch1,
            hs.latch2, hs.direction1, hs.direction2⟩
        have hstart : ReadAlike r1 r2 { r1 with m_bHasNextCalled := true }
            { r2 with m_bHasNextCalled := true } := ⟨hs', [], rfl, rfl, rfl⟩
        apply alike_from hstart
        rcases get_alike hs' with ⟨g1, g2, h1, h2, ho⟩ | ⟨c, g1, g2, h1, h2, ho, hu1, hu2, hlen⟩
        · simp only [h1, h2]
          exact alike_ok ho _
        · simp only [h1, h2]
          split_ifs
          · apply alike_from ho
            apply alike_HandleTag g1 g2 ho.same
            intro m1 m2 hm hlt'
            exact ih m1 m2 hm (by simp at hlen; omega)
          · exact alike_from ho (alike_HandleText c g1 g2 ho.same)

/-! ## Two backward runs side by side -/

theorem RReadAlike.rsame {r1 r2 r1' r2' : XMLEventReader} (h : RReadAlike r1 r2 r1' r2') :
    SameBehind r1' r2' := h.1

theorem RReadAlike.rstart {r1 r2 : XMLEventReader} (h : SameBehind r1 r2) :
    RReadAlike r1 r2 r1 r2 :=
  ⟨h, [], rfl, rfl, rfl⟩

theorem RReadAlike.rbefore_le {r1 r2 r1' r2' : XMLEventReader} (h : RReadAlike r1 r2 r1' r2') :
    r1'.m_aStream.before.length ≤ r1.m_aStream.before.length := by
  obtain ⟨-, l, h1, -, -⟩ := h
  rw [h1]; simp

theorem RReadAlike.rfollowed {r1 r2 m1 m2 r1' r2' : XMLEventReader}
    (h : RReadAlike r1 r2 m1 m2) (h' : RReadAlike m1 m2 r1' r2') :
    RReadAlike r1 r2 r1' r2' := by
  obtain ⟨-, l, a1, b1, c1⟩ := h
  obtain ⟨hs, l', a2, b2, c2⟩ := h'
  refine ⟨hs, l ++ l', ?_, ?_, ?_⟩
  · rw [a1, a2, List.append_assoc]
  · rw [b2, b1]; simp
  · rw [c2, c1]; simp

theorem RReadAlike.rpushed {r1 r2 r1' r2' : XMLEventReader} (h : RReadAlike r1 r2 r1' r2')
    (e : XMLEvent) : RReadAlike r1 r2 (r1'.push e) (r2'.push e) := by
  obtain ⟨hs, l, a, b, c⟩ := h
  refine ⟨⟨hs.before, hs.eof1, hs.eof2, hs.hasPreviousCalled, ?_, hs.dictionary, hs.rdictionary,
    hs.latch1, hs.latch2, hs.direction1, hs.direction2⟩, l, a, b, c⟩
  simp only [XMLEventReader.push, hs.events]

/-- The same reading with the has-previous latch cleared at its end, as `HandleRTag`
clears it before it calls `hasPrevious` again. -/
theorem RReadAlike.runlatched {r1 r2 r1' r2' : XMLEventReader} (h : RReadAlike r1 r2 r1' r2') :
    RReadAlike r1 r2 { r1' with m_bHasPreviousCalled := false }
      { r2' with m_bHasPreviousCalled := false } := by
  obtain ⟨hs, l, a, b, c⟩ := h
  exact ⟨⟨hs.before, hs.eof1, hs.eof2, rfl, hs.events, hs.dictionary, hs.rdictionary, hs.latch1,
    hs.latch2, hs.direction1, hs.direction2⟩, l, a, b, c⟩

theorem ralike_ok {α : Type} {r1 r2 r1' r2' : XMLEventReader} (h : RReadAlike r1 r2 r1' r2')
    (v : α) : (Result.ok v r1').RAlike r1 r2 (.ok v r2') :=
  ⟨rfl, h⟩

theorem ralike_malformed {α : Type} {r1 r2 r1' r2' : XMLEventReader}
    (h : RReadAlike r1 r2 r1' r2') (what : String) :
    (malformed what r1' : Result α).RAlike r1 r2 (malformed what r2') :=
  ⟨rfl, h⟩

/-- Two outcomes alike from a pair of readers reached side by side are alike from the
pair the backward reading started at. -/
theorem ralike_from {α : Type} {r1 r2 m1 m2 : XMLEventReader} {x y : Result α}
    (h : RReadAlike r1 r2 m1 m2) (hx : x.RAlike m1 m2 y) : x.RAlike r1 r2 y := by
  cases x with
  | ok v1 r1' =>
    cases y with
    | ok v2 r2' => exact ⟨hx.1, h.rfollowed hx.2⟩
    | throw e r2' => exact False.elim hx
    | exhausted => exact False.elim hx
  | throw e1 r1' =>
    cases y with
    | ok v2 r2' => exact False.elim hx
    | throw e2 r2' => exact ⟨hx.1, h.rfollowed hx.2⟩
    | exhausted => exact False.elim hx
  | exhausted => exact False.elim hx

theorem ralike_bind {α β : Type} {r1 r2 : XMLEventReader} {x y : Result α}
    {f g : α → XMLEventReader → Result β} (hx : x.RAlike r1 r2 y)
    (hf : ∀ v m1 m2, RReadAlike r1 r2 m1 m2 → (f v m1).RAlike m1 m2 (g v m2)) :
    (x.bind f).RAlike r1 r2 (y.bind g) := by
  cases x with
  | ok v1 m1 =>
    cases y with
    | ok v2 m2 =>
      obtain ⟨rfl, h⟩ := hx
      exact ralike_from h (hf v1 m1 m2 h)
    | throw e r2' => exact False.elim hx
    | exhausted => exact False.elim hx
  | throw e1 r1' =>
    cases y with
    | ok v2 r2' => exact False.elim hx
    | throw e2 r2' => exact hx
    | exhausted => exact False.elim hx
  | exhausted => exact False.elim hx

/-- What `rget` does on two readers that differ at most in the bytes from the get
position on: it delivers nothing on both, or the same byte on both, which `runget` steps
over again. -/
theorem rget_ralike {r1 r2 : XMLEventReader} (h : SameBehind r1 r2) :
    (∃ g1 g2, r1.rget = (none, g1) ∧ r2.rget = (none, g2) ∧ RReadAlike r1 r2 g1 g2) ∨
    ∃ c g1 g2, r1.rget = (some c, g1) ∧ r2.rget = (some c, g2) ∧ RReadAlike r1 r2 g1 g2 ∧
      g1.runget = r1 ∧ g2.runget = r2 ∧
      g1.m_aStream.before.length < r1.m_aStream.before.length := by
  obtain ⟨⟨b1, a1, e1⟩, hn1, hp1, q1, dir1, d1, rd1⟩ := r1
  obtain ⟨⟨b2, a2, e2⟩, hn2, hp2, q2, dir2, d2, rd2⟩ := r2
  obtain ⟨hb, he1, he2, h3, h4, h5, h6, h7, h8, h9, h10⟩ := h
  simp only at hb he1 he2 h3 h4 h5 h6 h7 h8 h9 h10
  subst hb he1 he2 h3 h4 h5 h6 h7 h8 h9 h10
  cases b1 with
  | nil =>
    exact Or.inl ⟨_, _, rfl, rfl, ⟨rfl, rfl, rfl, rfl, rfl, rfl, rfl, rfl, rfl, rfl, rfl⟩, [],
      rfl, rfl, rfl⟩
  | cons c b =>
    exact Or.inr ⟨c, _, _, rfl, rfl,
      ⟨⟨rfl, rfl, rfl, rfl, rfl, rfl, rfl, rfl, rfl, rfl, rfl⟩, [c], rfl, rfl, rfl⟩, rfl, rfl,
      by simp [XMLEventReader.rget, XMLEventReader.setStream, IStream.rget]⟩

theorem rbudget_gt (r : XMLEventReader) : r.m_aStream.before.length < r.rbudget := by
  simp [XMLEventReader.rbudget]; omega

theorem SameBehind.rbudget_gt2 {r1 r2 : XMLEventReader} (h : SameBehind r1 r2) :
    r1.m_aStream.before.length < r2.rbudget := by
  rw [h.before]; exact rbudget_gt r2

theorem ralike_ConsumeRWhitespaceLoop : ∀ (n1 n2 : Nat) (r1 r2 : XMLEventReader),
    SameBehind r1 r2 → r1.m_aStream.before.length < n1 → r1.m_aStream.before.length < n2 →
      ∃ c m1 m2, ConsumeRWhitespaceLoop n1 r1 = .ok c m1 ∧
        ConsumeRWhitespaceLoop n2 r2 = .ok c m2 ∧
        RReadAlike r1 r2 m1 m2 ∧ (c ≠ '\x00' → RReadAlike r1 r2 m1.runget m2.runget) := by
  intro n1
  induction n1 with
  | zero => intro _ r1 r2 _ hlt; omega
  | succ n1 ih =>
    intro n2 r1 r2 hs hlt1 hlt2
    obtain ⟨n2, rfl⟩ : ∃ m, n2 = m + 1 := ⟨n2 - 1, by omega⟩
    simp only [ConsumeRWhitespaceLoop]
    rcases rget_ralike hs with ⟨g1, g2, h1, h2, ho⟩ | ⟨c, g1, g2, h1, h2, ho, hu1, hu2, hlen⟩
    · simp only [h1, h2]
      exact ⟨_, _, _, rfl, rfl, ho, fun h => absurd rfl h⟩
    · simp only [h1, h2]
      by_cases hc : isspace c = false
      · simp only [hc, if_true]
        refine ⟨_, _, _, rfl, rfl, ho, fun _ => ?_⟩
        rw [hu1, hu2]
        exact RReadAlike.rstart hs
      · simp only [hc, if_false]
        obtain ⟨c', m1, m2, e1, e2, hm, hu⟩ := ih n2 g1 g2 ho.rsame (by omega) (by omega)
        exact ⟨c', m1, m2, e1, e2, ho.rfollowed hm, fun h0 => ho.rfollowed (hu h0)⟩

theorem ralike_ConsumeRWhitespace (r1 r2 : XMLEventReader) (hs : SameBehind r1 r2) :
    ∃ c m1 m2, ConsumeRWhitespace r1 = .ok c m1 ∧ ConsumeRWhitespace r2 = .ok c m2 ∧
      RReadAlike r1 r2 m1 m2 ∧ (c ≠ '\x00' → RReadAlike r1 r2 m1.runget m2.runget) :=
  ralike_ConsumeRWhitespaceLoop r1.rbudget r2.rbudget r1 r2 hs (rbudget_gt r1) hs.rbudget_gt2

theorem ralike_ResolveREntityLoop :
    ∀ (n1 n2 : Nat) (cDelimiter : Char) (pEntityName : Str) (r1 r2 : XMLEventReader),
      SameBehind r1 r2 → r1.m_aStream.before.length < n1 → r1.m_aStream.before.length < n2 →
      (ResolveREntityLoop n1 cDelimiter pEntityName r1).RAlike r1 r2
        (ResolveREntityLoop n2 cDelimiter pEntityName r2) := by
  intro n1
  induction n1 with
  | zero => intro _ _ _ r1 r2 _ hlt; omega
  | succ n1 ih =>
    intro n2 cDelimiter pEntityName r1 r2 hs hlt1 hlt2
    obtain ⟨n2, rfl⟩ : ∃ m, n2 = m + 1 := ⟨n2 - 1, by omega⟩
    simp only [ResolveREntityLoop]
    rcases rget_ralike hs with ⟨g1, g2, h1, h2, ho⟩ | ⟨c, g1, g2, h1, h2, ho, hu1, hu2, hlen⟩
    · simp only [h1, h2]
      exact ralike_ok ho _
    · simp only [h1, h2, hu1, hu2]
      by_cases hc : c = '&'
      · simp only [hc, if_true]
        split_ifs
        · exact ralike_malformed ho _
        · rw [ho.rsame.rdictionary]
          cases mapFind g2.m_aREntityReplacementDictionary pEntityName with
          | none => exact ralike_malformed ho _
          | some s => exact ralike_ok ho _
      · simp only [hc, if_false]
        split_ifs
        · exact ralike_ok (RReadAlike.rstart hs) _
        · exact ralike_ok (RReadAlike.rstart hs) _
        · exact ralike_from ho (ih n2 _ _ g1 g2 ho.rsame (by omega) (by omega))

theorem ralike_ResolveREntity (cDelimiter : Char) (r1 r2 : XMLEventReader)
    (hs : SameBehind r1 r2) :
    (ResolveREntity cDelimiter r1).RAlike r1 r2 (ResolveREntity cDelimiter r2) :=
  ralike_ResolveREntityLoop _ _ _ _ r1 r2 hs (rbudget_gt r1) hs.rbudget_gt2

theorem ralike_HandleRAttributeValueLoop :
    ∀ (n1 n2 : Nat) (cDelimiter : Char) (pValue : Str) (r1 r2 : XMLEventReader),
      SameBehind r1 r2 → r1.m_aStream.before.length < n1 → r1.m_aStream.before.length < n2 →
      (HandleRAttributeValueLoop n1 cDelimiter pValue r1).RAlike r1 r2
        (HandleRAttributeValueLoop n2 cDelimiter pValue r2) := by
  intro n1
  induction n1 with
  | zero => intro _ _ _ r1 r2 _ hlt; omega
  | succ n1 ih =>
    intro n2 cDelimiter pValue r1 r2 hs hlt1 hlt2
    obtain ⟨n2, rfl⟩ : ∃ m, n2 = m + 1 := ⟨n2 - 1, by omega⟩
    simp only [HandleRAttributeValueLoop]
    rcases rget_ralike hs with ⟨g1, g2, h1, h2, ho⟩ | ⟨c, g1, g2, h1, h2, ho, hu1, hu2, hlen⟩
    · simp only [h1, h2]
      exact ralike_malformed ho _
    · simp only [h1, h2]
      by_cases hc : c = cDelimiter
      · simp only [hc, if_true]
        obtain ⟨c', m1, m2, e1, e2, hm, -⟩ := ralike_ConsumeRWhitespace g1 g2 ho.rsame
        simp only [e1, e2, Result.bind]
        split_ifs
        · exact ralike_malformed (ho.rfollowed hm) _
        · exact ralike_malformed (ho.rfollowed hm) _
        · exact ralike_ok (ho.rfollowed hm) _
      · simp only [hc, if_false]
        split_ifs
        · apply ralike_from ho
          apply ralike_bind (ralike_ResolveREntity _ g1 g2 ho.rsame)
          intro v m1 m2 hm
          exact ih n2 _ _ m1 m2 hm.rsame (by have := hm.rbefore_le; omega)
            (by have := hm.rbefore_le; omega)
        · exact ralike_from ho (ih n2 _ _ g1 g2 ho.rsame (by omega) (by omega))

theorem ralike_HandleRAttributeValue (cDelimiter : Char) (r1 r2 : XMLEventReader)
    (hs : SameBehind r1 r2) :
    (HandleRAttributeValue cDelimiter r1).RAlike r1 r2 (HandleRAttributeValue cDelimiter r2) :=
  ralike_HandleRAttributeValueLoop _ _ _ _ r1 r2 hs (rbudget_gt r1) hs.rbudget_gt2

theorem ralike_HandleRTagNameLoop :
    ∀ (n1 n2 : Nat) (pNamePrefix : Option Str) (pNameLocalPart : Str) (r1 r2 : XMLEventReader),
      SameBehind r1 r2 → r1.m_aStream.before.length < n1 → r1.m_aStream.before.length < n2 →
      (HandleRTagNameLoop n1 pNamePrefix pNameLocalPart r1).RAlike r1 r2
        (HandleRTagNameLoop n2 pNamePrefix pNameLocalPart r2) := by
  intro n1
  induction n1 with
  | zero => intro _ _ _ r1 r2 _ hlt; omega
  | succ n1 ih =>
    intro n2 pNamePrefix pNameLocalPart r1 r2 hs hlt1 hlt2
    obtain ⟨n2, rfl⟩ : ∃ m, n2 = m + 1 := ⟨n2 - 1, by omega⟩
    simp only [HandleRTagNameLoop]
    rcases rget_ralike hs with ⟨g1, g2, h1, h2, ho⟩ | ⟨c, g1, g2, h1, h2, ho, hu1, hu2, hlen⟩
    · simp only [h1, h2]
      exact ralike_malformed ho _
    · simp only [h1, h2, hu1, hu2]
      by_cases hc : c = '<' ∨ c = '/'
      · simp only [hc, if_true]
        split_ifs
        · exact ralike_malformed ho _
        · cases pNamePrefix with
          | none => exact ralike_ok (RReadAlike.rstart hs) _
          | some p =>
            simp only
            split_ifs
            · exact ralike_malformed ho _
            · exact ralike_ok (RReadAlike.rstart hs) _
      · simp only [hc, if_false]
        by_cases hb : isalnum c = true ∨ c = '-' ∨ c = '_' ∨ c = '.'
        · simp only [hb, if_true]
          cases pNamePrefix with
          | none => exact ralike_from ho (ih n2 _ _ g1 g2 ho.rsame (by omega) (by omega))
          | some p => exact ralike_from ho (ih n2 _ _ g1 g2 ho.rsame (by omega) (by omega))
        · simp only [hb, if_false]
          split_ifs
          · cases pNamePrefix with
            | none => exact ralike_from ho (ih n2 _ _ g1 g2 ho.rsame (by omega) (by omega))
            | some p => exact ralike_malformed ho _
          · exact ralike_malformed ho _

theorem ralike_HandleRTagName (cFirstByte : Char) (r1 r2 : XMLEventReader)
    (hs : SameBehind r1 r2) :
    (HandleRTagName cFirstByte r1).RAlike r1 r2 (HandleRTagName cFirstByte r2) := by
  simp only [HandleRTagName]
  split_ifs
  · exact ralike_malformed (RReadAlike.rstart hs) _
  · exact ralike_HandleRTagNameLoop _ _ _ _ r1 r2 hs (rbudget_gt r1) hs.rbudget_gt2

theorem ralike_HandleRAttributeNameLoop :
    ∀ (n1 n2 : Nat) (cByte : Char) (pNamePrefix : Option Str) (pNameLocalPart : Str)
      (r1 r2 : XMLEventReader),
      SameBehind r1 r2 → r1.m_aStream.before.length < n1 → r1.m_aStream.before.length < n2 →
      (HandleRAttributeNameLoop n1 cByte pNamePrefix pNameLocalPart r1).RAlike r1 r2
        (HandleRAttributeNameLoop n2 cByte pNamePrefix pNameLocalPart r2) := by
  intro n1
  induction n1 with
  | zero => intro _ _ _ _ r1 r2 _ hlt; omega
  | succ n1 ih =>
    intro n2 cByte pNamePrefix pNameLocalPart r1 r2 hs hlt1 hlt2
    obtain ⟨n2, rfl⟩ : ∃ m, n2 = m + 1 := ⟨n2 - 1, by omega⟩
    simp only [HandleRAttributeNameLoop]
    by_cases hsp : isspace cByte = true
    · simp only [hsp, if_true]
      obtain ⟨c', m1, m2, e1, e2, hm, hu⟩ := ralike_ConsumeRWhitespace r1 r2 hs
      simp only [e1, e2, Result.bind]
      by_cases h0 : c' = '\x00'
      · simp only [h0, if_true]
        exact ralike_malformed hm _
      · simp only [h0, if_false]
        cases pNamePrefix with
        | none =>
          simp only
          split_ifs
          · exact ralike_malformed (hu h0) _
          · exact ralike_ok (hu h0) _
        | some p =>
          simp only
          split_ifs
          · exact ralike_malformed (hu h0) _
          · exact ralike_malformed (hu h0) _
          · exact ralike_ok (hu h0) _
    · simp only [hsp, if_false, Bool.false_eq_true]
      by_cases hc : cByte = ':'
      · simp only [hc, if_true]
        cases pNamePrefix with
        | some p => exact ralike_malformed (RReadAlike.rstart hs) _
        | none =>
          simp only
          rcases rget_ralike hs with ⟨g1, g2, h1, h2, ho⟩ |
            ⟨c, g1, g2, h1, h2, ho, hu1, hu2, hlen⟩
          · simp only [h1, h2]
            exact ralike_malformed ho _
          · simp only [h1, h2]
            exact ralike_from ho (ih n2 _ _ _ g1 g2 ho.rsame (by omega) (by omega))
      · simp only [hc, if_false]
        split_ifs
        · rcases rget_ralike hs with ⟨g1, g2, h1, h2, ho⟩ |
            ⟨c, g1, g2, h1, h2, ho, hu1, hu2, hlen⟩
          · simp only [h1, h2]
            exact ralike_malformed ho _
          · simp only [h1, h2]
            cases pNamePrefix with
            | none => exact ralike_from ho (ih n2 _ _ _ g1 g2 ho.rsame (by omega) (by omega))
            | some p => exact ralike_from ho (ih n2 _ _ _ g1 g2 ho.rsame (by omega) (by omega))
        · exact ralike_malformed (RReadAlike.rstart hs) _

theorem ralike_HandleRAttributeName (r1 r2 : XMLEventReader) (hs : SameBehind r1 r2) :
    (HandleRAttributeName r1).RAlike r1 r2 (HandleRAttributeName r2) := by
  obtain ⟨c', m1, m2, e1, e2, hm, -⟩ := ralike_ConsumeRWhitespace r1 r2 hs
  simp only [HandleRAttributeName, e1, e2, Result.bind]
  split_ifs
  · exact ralike_malformed hm _
  · exact ralike_malformed hm _
  · exact ralike_from hm
      (ralike_HandleRAttributeNameLoop _ _ _ _ _ m1 m2 hm.rsame (rbudget_gt m1) hm.rsame.rbudget_gt2)

theorem ralike_HandleRAttributesLoop :
    ∀ (n1 n2 : Nat) (pAttributes : List Attribute) (r1 r2 : XMLEventReader),
      SameBehind r1 r2 → r1.m_aStream.before.length < n1 → r1.m_aStream.before.length < n2 →
      (HandleRAttributesLoop n1 pAttributes r1).RAlike r1 r2
        (HandleRAttributesLoop n2 pAttributes r2) := by
  intro n1
  induction n1 with
  | zero => intro _ _ r1 r2 _ hlt; omega
  | succ n1 ih =>
    intro n2 pAttributes r1 r2 hs hlt1 hlt2
    obtain ⟨n2, rfl⟩ : ∃ m, n2 = m + 1 := ⟨n2 - 1, by omega⟩
    simp only [HandleRAttributesLoop]
    rcases rget_ralike hs with ⟨g1, g2, h1, h2, ho⟩ | ⟨c, g1, g2, h1, h2, ho, hu1, hu2, hlen⟩
    · simp only [h1, h2]
      exact ralike_malformed ho _
    · simp only [h1, h2, hu1, hu2]
      by_cases hsp : isspace c = true
      · simp only [hsp, if_true]
        exact ralike_from ho (ih n2 _ g1 g2 ho.rsame (by omega) (by omega))
      · simp only [hsp, if_false, Bool.false_eq_true]
        split_ifs
        · apply ralike_from ho
          apply ralike_bind (ralike_HandleRAttributeValue c g1 g2 ho.rsame)
          intro v m1 m2 hm
          apply ralike_bind (ralike_HandleRAttributeName m1 m2 hm.rsame)
          intro v' k1 k2 hk
          exact ih n2 _ k1 k2 hk.rsame (by have := hm.rbefore_le; have := hk.rbefore_le; omega)
            (by have := hm.rbefore_le; have := hk.rbefore_le; omega)
        · exact ralike_ok (RReadAlike.rstart hs) _

theorem ralike_HandleRAttributes (cFirstByte : Char) (pAttributes : List Attribute)
    (r1 r2 : XMLEventReader) (hs : SameBehind r1 r2) :
    (HandleRAttributes cFirstByte pAttributes r1).RAlike r1 r2
      (HandleRAttributes cFirstByte pAttributes r2) := by
  simp only [HandleRAttributes]
  apply ralike_bind (ralike_HandleRAttributeValue cFirstByte r1 r2 hs)
  intro v m1 m2 hm
  apply ralike_bind (ralike_HandleRAttributeName m1 m2 hm.rsame)
  intro v' k1 k2 hk
  exact ralike_HandleRAttributesLoop _ _ _ k1 k2 hk.rsame (rbudget_gt k1) hk.rsame.rbudget_gt2

theorem ralike_HandleRTagStartName (cByte : Char) (pAttributes : List Attribute)
    (r1 r2 : XMLEventReader) (hs : SameBehind r1 r2) :
    (HandleRTagStartName cByte pAttributes r1).RAlike r1 r2
      (HandleRTagStartName cByte pAttributes r2) := by
  simp only [HandleRTagStartName]
  apply ralike_bind (ralike_HandleRTagName cByte r1 r2 hs)
  intro v m1 m2 hm
  rcases rget_ralike hm.rsame with ⟨g1, g2, h1, h2, ho⟩ | ⟨c, g1, g2, h1, h2, ho, hu1, hu2, hlen⟩
  · simp only [h1, h2]
    exact ralike_malformed ho _
  · simp only [h1, h2]
    split_ifs
    · exact ralike_malformed ho _
    · exact ralike_ok ho _

theorem ralike_HandleRTagStart (cByte : Char) (r1 r2 : XMLEventReader)
    (hs : SameBehind r1 r2) :
    (HandleRTagStart cByte r1).RAlike r1 r2 (HandleRTagStart cByte r2) := by
  simp only [HandleRTagStart]
  split_ifs
  · apply ralike_bind (ralike_HandleRAttributes cByte [] r1 r2 hs)
    intro v m1 m2 hm
    rcases rget_ralike hm.rsame with ⟨g1, g2, h1, h2, ho⟩ | ⟨c, g1, g2, h1, h2, ho, hu1, hu2, hlen⟩
    · simp only [h1, h2]
      exact ralike_malformed ho _
    · simp only [h1, h2]
      exact ralike_from ho (ralike_HandleRTagStartName c v g1 g2 ho.rsame)
  · exact ralike_HandleRTagStartName cByte [] r1 r2 hs

theorem ralike_HandleRTagStartEnd (cFirstByte : Char) (r1 r2 : XMLEventReader)
    (hs : SameBehind r1 r2) :
    (HandleRTagStartEnd cFirstByte r1).RAlike r1 r2 (HandleRTagStartEnd cFirstByte r2) := by
  simp only [HandleRTagStartEnd]
  apply ralike_bind (ralike_HandleRTagName cFirstByte r1 r2 hs)
  intro v m1 m2 hm
  rcases rget_ralike hm.rsame with ⟨g1, g2, h1, h2, ho⟩ | ⟨c, g1, g2, h1, h2, ho, hu1, hu2, hlen⟩
  · simp only [h1, h2]
    exact ralike_malformed ho _
  · simp only [h1, h2]
    by_cases hc : c = '<'
    · simp only [hc, if_true]
      exact ralike_ok (ho.rpushed _) _
    · simp only [hc, if_false]
      by_cases hsl : c = '/'
      · simp only [hsl, if_true]
        rcases rget_ralike ho.rsame with ⟨k1, k2, h3, h4, hk⟩ |
          ⟨c2, k1, k2, h3, h4, hk, hv1, hv2, hlen2⟩
        · simp only [h3, h4]
          exact ralike_malformed (ho.rfollowed hk) _
        · simp only [h3, h4]
          split_ifs
          · exact ralike_malformed (ho.rfollowed hk) _
          · exact ralike_ok ((ho.rfollowed hk).rpushed _) _
      · simp only [hsl, if_false]
        exact ralike_malformed ho _

theorem ralike_HandleRTextLoop :
    ∀ (n1 n2 : Nat) (pData : Str) (r1 r2 : XMLEventReader),
      SameBehind r1 r2 → r1.m_aStream.before.length < n1 → r1.m_aStream.before.length < n2 →
      (HandleRTextLoop n1 pData r1).RAlike r1 r2 (HandleRTextLoop n2 pData r2) := by
  intro n1
  induction n1 with
  | zero => intro _ _ r1 r2 _ hlt; omega
  | succ n1 ih =>
    intro n2 pData r1 r2 hs hlt1 hlt2
    obtain ⟨n2, rfl⟩ : ∃ m, n2 = m + 1 := ⟨n2 - 1, by omega⟩
    simp only [HandleRTextLoop]
    rcases rget_ralike hs with ⟨g1, g2, h1, h2, ho⟩ | ⟨c, g1, g2, h1, h2, ho, hu1, hu2, hlen⟩
    · simp only [h1, h2]
      exact ralike_ok (ho.rpushed _) _
    · simp only [h1, h2, hu1, hu2]
      by_cases hc : c = '>'
      · simp only [hc, if_true]
        exact ralike_ok ((RReadAlike.rstart hs).rpushed _) _
      · simp only [hc, if_false]
        split_ifs
        · apply ralike_from ho
          apply ralike_bind (ralike_ResolveREntity _ g1 g2 ho.rsame)
          intro v m1 m2 hm
          exact ih n2 _ m1 m2 hm.rsame (by have := hm.rbefore_le; omega)
            (by have := hm.rbefore_le; omega)
        · exact ralike_from ho (ih n2 _ g1 g2 ho.rsame (by omega) (by omega))

theorem ralike_HandleRText (cFirstByte : Char) (r1 r2 : XMLEventReader)
    (hs : SameBehind r1 r2) :
    (HandleRText cFirstByte r1).RAlike r1 r2 (HandleRText cFirstByte r2) := by
  simp only [HandleRText]
  split_ifs
  · apply ralike_bind (ralike_ResolveREntity _ r1 r2 hs)
    intro v m1 m2 hm
    exact ralike_HandleRTextLoop _ _ _ m1 m2 hm.rsame (rbudget_gt m1) hm.rsame.rbudget_gt2
  · exact ralike_HandleRTextLoop _ _ _ r1 r2 hs (rbudget_gt r1) hs.rbudget_gt2

theorem ralike_HandleRProcessingInstructionLoop :
    ∀ (n1 n2 nMatchCount nTargetCount nSpaceCount : Nat) (pData : Str)
      (r1 r2 : XMLEventReader),
      SameBehind r1 r2 → r1.m_aStream.before.length < n1 → r1.m_aStream.before.length < n2 →
      (HandleRProcessingInstructionLoop n1 nMatchCount nTargetCount nSpaceCount pData
          r1).RAlike r1 r2
        (HandleRProcessingInstructionLoop n2 nMatchCount nTargetCount nSpaceCount pData r2) := by
  intro n1
  induction n1 with
  | zero => intro _ _ _ _ _ r1 r2 _ hlt; omega
  | succ n1 ih =>
    intro n2 nMatchCount nTargetCount nSpaceCount pData r1 r2 hs hlt1 hlt2
    obtain ⟨n2, rfl⟩ : ∃ m, n2 = m + 1 := ⟨n2 - 1, by omega⟩
    simp only [HandleRProcessingInstructionLoop]
    by_cases hm : nMatchCount < 2
    · simp only [hm, if_true]
      rcases rget_ralike hs with ⟨g1, g2, h1, h2, ho⟩ | ⟨c, g1, g2, h1, h2, ho, hu1, hu2, hlen⟩
      · simp only [h1, h2]
        exact ralike_malformed ho _
      · simp only [h1, h2]
        by_cases hsp : isspace c = true
        · simp only [hsp, if_true]
          exact ralike_from ho (ih n2 _ _ _ _ g1 g2 ho.rsame (by omega) (by omega))
        · simp only [hsp, if_false, Bool.false_eq_true]
          by_cases hq : c = '?' ∧ nMatchCount ≤ 0
          · simp only [hq, and_self, if_true]
            exact ralike_from ho (ih n2 _ _ _ _ g1 g2 ho.rsame (by omega) (by omega))
          · simp only [hq, if_false]
            by_cases hlt : c = '<' ∧ nMatchCount ≤ 1
            · simp only [hlt, and_self, if_true]
              split_ifs
              · exact ralike_malformed ho _
              · exact ralike_malformed ho _
              · exact ralike_ok ho _
              · exact ralike_malformed ho _
              · exact ralike_ok (ho.rpushed _) _
            · simp only [hlt, if_false]
              split_ifs
              · exact ralike_malformed ho _
              · exact ralike_from ho (ih n2 _ _ _ _ g1 g2 ho.rsame (by omega) (by omega))
    · simp only [hm, if_false]
      exact ralike_ok (RReadAlike.rstart hs) _

theorem ralike_HandleRProcessingInstruction (r1 r2 : XMLEventReader) (hs : SameBehind r1 r2) :
    (HandleRProcessingInstruction r1).RAlike r1 r2 (HandleRProcessingInstruction r2) :=
  ralike_HandleRProcessingInstructionLoop _ _ _ _ _ _ r1 r2 hs (rbudget_gt r1) hs.rbudget_gt2

theorem ralike_HandleRCommentLoop :
    ∀ (n1 n2 nMatchCount : Nat) (pData : Str) (r1 r2 : XMLEventReader),
      SameBehind r1 r2 → r1.m_aStream.before.length < n1 → r1.m_aStream.before.length < n2 →
      (HandleRCommentLoop n1 nMatchCount pData r1).RAlike r1 r2
        (HandleRCommentLoop n2 nMatchCount pData r2) := by
  intro n1
  induction n1 with
  | zero => intro _ _ _ r1 r2 _ hlt; omega
  | succ n1 ih =>
    intro n2 nMatchCount pData r1 r2 hs hlt1 hlt2
    obtain ⟨n2, rfl⟩ : ∃ m, n2 = m + 1 := ⟨n2 - 1, by omega⟩
    simp only [HandleRCommentLoop]
    rcases rget_ralike hs with ⟨g1, g2, h1, h2, ho⟩ | ⟨c, g1, g2, h1, h2, ho, hu1, hu2, hlen⟩
    · simp only [h1, h2]
      exact ralike_malformed ho _
    · simp only [h1, h2]
      split_ifs
      · exact ralike_from ho (ih n2 _ _ g1 g2 ho.rsame (by omega) (by omega))
      · exact ralike_ok (ho.rpushed _) _
      · exact ralike_from ho (ih n2 _ _ g1 g2 ho.rsame (by omega) (by omega))
      · exact ralike_from ho (ih n2 _ _ g1 g2 ho.rsame (by omega) (by omega))

theorem ralike_HandleRComment (r1 r2 : XMLEventReader) (hs : SameBehind r1 r2) :
    (HandleRComment r1).RAlike r1 r2 (HandleRComment r2) :=
  ralike_HandleRCommentLoop _ _ _ _ r1 r2 hs (rbudget_gt r1) hs.rbudget_gt2

/-- `HandleRTag` on two readers side by side, when the calls of `hasPrevious` it makes
in front of an XML declaration treat readers with fewer bytes in front alike. -/
theorem ralike_HandleRTag {K1 K2 : XMLEventReader → Result Bool} (r1 r2 : XMLEventReader)
    (hs : SameBehind r1 r2)
    (hK : ∀ m1 m2 : XMLEventReader, SameBehind m1 m2 →
      m1.m_aStream.before.length < r1.m_aStream.before.length → (K1 m1).RAlike m1 m2 (K2 m2)) :
    (HandleRTag K1 r1).RAlike r1 r2 (HandleRTag K2 r2) := by
  simp only [HandleRTag]
  rcases rget_ralike hs with ⟨g1, g2, h1, h2, ho⟩ | ⟨c, g1, g2, h1, h2, ho, hu1, hu2, hlen⟩
  · simp only [h1, h2]
    exact ralike_malformed ho _
  · simp only [h1, h2]
    by_cases hq : c = '?'
    · simp only [hq, if_true]
      apply ralike_from ho
      apply ralike_bind (ralike_HandleRProcessingInstruction g1 g2 ho.rsame)
      intro v m1 m2 hm
      cases v with
      | true => exact ralike_ok (RReadAlike.rstart hm.rsame) _
      | false =>
        simp only [Bool.false_eq_true, if_false]
        exact ralike_from (RReadAlike.rstart hm.rsame).runlatched
          (hK _ _ (RReadAlike.rstart hm.rsame).runlatched.rsame
            (by have := hm.rbefore_le; simp; omega))
    · simp only [hq, if_false]
      by_cases hsp : isspace c = true
      · simp only [hsp, if_true]
        obtain ⟨c', m1, m2, e1, e2, hm, -⟩ := ralike_ConsumeRWhitespace g1 g2 ho.rsame
        simp only [e1, e2, Result.bind]
        split_ifs
        · exact ralike_malformed (ho.rfollowed hm) _
        · exact ralike_malformed (ho.rfollowed hm) _
        · apply ralike_from (ho.rfollowed hm)
          apply ralike_bind (ralike_HandleRTagStart c' m1 m2 hm.rsame)
          intro v k1 k2 hk
          exact ralike_ok ((RReadAlike.rstart hk.rsame).rpushed _) _
      · simp only [hsp, if_false, Bool.false_eq_true]
        by_cases hsl : c = '/'
        · simp only [hsl, if_true]
          obtain ⟨c', m1, m2, e1, e2, hm, -⟩ := ralike_ConsumeRWhitespace g1 g2 ho.rsame
          simp only [e1, e2, Result.bind]
          split_ifs
          · exact ralike_malformed (ho.rfollowed hm) _
          · exact ralike_malformed (ho.rfollowed hm) _
          · apply ralike_from (ho.rfollowed hm)
            apply ralike_bind (ralike_HandleRTagStart c' m1 m2 hm.rsame)
            intro v k1 k2 hk
            exact ralike_ok (((RReadAlike.rstart hk.rsame).rpushed _).rpushed _) _
        · simp only [hsl, if_false]
          by_cases hdq : c = '"' ∨ c = '\''
          · simp only [hdq, if_true]
            apply ralike_from ho
            apply ralike_bind (ralike_HandleRTagStart c g1 g2 ho.rsame)
            intro v k1 k2 hk
            exact ralike_ok ((RReadAlike.rstart hk.rsame).rpushed _) _
          · simp only [hdq, if_false]
            by_cases hd : c = '-'
            · simp only [hd, if_true]
              rcases rget_ralike ho.rsame with ⟨k1, k2, h3, h4, hk⟩ |
                ⟨c2, k1, k2, h3, h4, hk, hv1, hv2, hlen2⟩
              · simp only [h3, h4]
                exact ralike_malformed (ho.rfollowed hk) _
              · simp only [h3, h4, hv1, hv2]
                split_ifs
                · exact ralike_from (ho.rfollowed hk) (ralike_HandleRComment k1 k2 hk.rsame)
                · exact ralike_from ho (ralike_HandleRTagStartEnd '-' g1 g2 ho.rsame)
            · simp only [hd, if_false]
              exact ralike_from ho (ralike_HandleRTagStartEnd c g1 g2 ho.rsame)

theorem turnBackward_of_backward {r : XMLEventReader} (h1 : r.m_bHasNextCalled = false)
    (h2 : r.m_bEventsAreForwardDirection = false) : r.turnBackward = r := by
  simp [XMLEventReader.turnBackward, h1, h2]

theorem ralike_hasPreviousFuel : ∀ (n1 n2 : Nat) (r1 r2 : XMLEventReader),
    SameBehind r1 r2 → r1.m_aStream.before.length < n1 → r1.m_aStream.before.length < n2 →
      (hasPreviousFuel n1 r1).RAlike r1 r2 (hasPreviousFuel n2 r2) := by
  intro n1
  induction n1 with
  | zero => intro _ r1 r2 _ hlt; omega
  | succ n1 ih =>
    intro n2 r1 r2 hs hlt1 hlt2
    obtain ⟨n2, rfl⟩ : ∃ m, n2 = m + 1 := ⟨n2 - 1, by omega⟩
    simp only [hasPreviousFuel, turnBackward_of_backward hs.latch1 hs.direction1,
      turnBackward_of_backward hs.latch2 hs.direction2]
    by_cases hq : r1.m_aEvents.length > 0
    · have hq2 : r2.m_aEvents.length > 0 := by rw [← hs.events]; exact hq
      simp only [hq, hq2, if_true]
      exact ralike_ok (RReadAlike.rstart hs) _
    · have hq2 : ¬ r2.m_aEvents.length > 0 := by rw [← hs.events]; exact hq
      simp only [hq, hq2, if_false]
      by_cases hl : r1.m_bHasPreviousCalled = true
      · have hl2 : r2.m_bHasPreviousCalled = true := by rw [← hs.hasPreviousCalled]; exact hl
        simp only [hl, hl2, if_true]
        exact ralike_ok (RReadAlike.rstart hs) _
      · have hl2 : ¬ r2.m_bHasPreviousCalled = true := by
          rw [← hs.hasPreviousCalled]; exact hl
        simp only [hl, hl2, if_false, Bool.false_eq_true]
        have hs' : SameBehind { r1 with m_bHasPreviousCalled := true }
            { r2 with m_bHasPreviousCalled := true } :=
          ⟨hs.before, hs.eof1, hs.eof2, rfl, hs.events, hs.dictionary, hs.rdictionary,
            hs.latch1, hs.latch2, hs.direction1, hs.direction2⟩
        have hstart : RReadAlike r1 r2 { r1 with m_bHasPreviousCalled := true }
            { r2 with m_bHasPreviousCalled := true } := ⟨hs', [], rfl, rfl, rfl⟩
        apply ralike_from hstart
        rcases rget_ralike hs' with ⟨g1, g2, h1, h2, ho⟩ |
          ⟨c, g1, g2, h1, h2, ho, hu1, hu2, hlen⟩
        · simp only [h1, h2]
          exact ralike_ok ho _
        · simp only [h1, h2]
          split_ifs
          · apply ralike_from ho
            apply ralike_HandleRTag g1 g2 ho.rsame
            intro m1 m2 hm hlt'
            exact ih n2 m1 m2 hm (by simp at hlen; omega) (by simp at hlen; omega)
          · exact ralike_from ho (ralike_HandleRText c g1 g2 ho.rsame)

/-! ## One call of `hasNext` or `hasPrevious` on two readers side by side -/

theorem alike_cases {α : Type} {r1 r2 : XMLEventReader} {x y : Result α}
    (h : x.Alike r1 r2 y) :
    (∃ v r1' r2', x = .ok v r1' ∧ y = .ok v r2' ∧ ReadAlike r1 r2 r1' r2') ∨
    ∃ e r1' r2', x = .throw e r1' ∧ y = .throw e r2' ∧ ReadAlike r1 r2 r1' r2' := by
  cases x with
  | ok v1 r1' =>
    cases y with
    | ok v2 r2' => obtain ⟨rfl, h⟩ := h; exact Or.inl ⟨_, _, _, rfl, rfl, h⟩
    | throw e r2' => exact False.elim h
    | exhausted => exact False.elim h
  | throw e1 r1' =>
    cases y with
    | ok v2 r2' => exact False.elim h
    | throw e2 r2' => obtain ⟨rfl, h⟩ := h; exact Or.inr ⟨_, _, _, rfl, rfl, h⟩
    | exhausted => exact False.elim h
  | exhausted => exact False.elim h

theorem ralike_cases {α : Type} {r1 r2 : XMLEventReader} {x y : Result α}
    (h : x.RAlike r1 r2 y) :
    (∃ v r1' r2', x = .ok v r1' ∧ y = .ok v r2' ∧ RReadAlike r1 r2 r1' r2') ∨
    ∃ e r1' r2', x = .throw e r1' ∧ y = .throw e r2' ∧ RReadAlike r1 r2 r1' r2' := by
  cases x with
  | ok v1 r1' =>
    cases y with
    | ok v2 r2' => obtain ⟨rfl, h⟩ := h; exact Or.inl ⟨_, _, _, rfl, rfl, h⟩
    | throw e r2' => exact False.elim h
    | exhausted => exact False.elim h
  | throw e1 r1' =>
    cases y with
    | ok v2 r2' => exact False.elim h
    | throw e2 r2' => obtain ⟨rfl, h⟩ := h; exact Or.inr ⟨_, _, _, rfl, rfl, h⟩
    | exhausted => exact False.elim h
  | exhausted => exact False.elim h

theorem turnForward_turnForward (r : XMLEventReader) :
    r.turnForward.turnForward = r.turnForward := by
  obtain ⟨h1, h2, -⟩ := turnForward_frame r
  exact turnForward_of_forward h2 h1

theorem turnBackward_turnBackward (r : XMLEventReader) :
    r.turnBackward.turnBackward = r.turnBackward := by
  obtain ⟨h1, h2, -⟩ := turnBackward_frame r
  exact turnBackward_of_backward h2 h1

theorem hasNextFuel_turnForward (n : Nat) (r : XMLEventReader) :
    hasNextFuel n r.turnForward = hasNextFuel n r := by
  cases n with
  | zero => rfl
  | succ n => simp only [hasNextFuel, turnForward_turnForward]

theorem hasPreviousFuel_turnBackward (n : Nat) (r : XMLEventReader) :
    hasPreviousFuel n r.turnBackward = hasPreviousFuel n r := by
  cases n with
  | zero => rfl
  | succ n => simp only [hasPreviousFuel, turnBackward_turnBackward]

/-- Two readers equal but for the bytes in front of the get position are, once `hasNext`
has turned them forward, alike for forward reading. -/
theorem sameAhead_turnForward {r1 r2 : XMLEventReader}
    (ha : r1.m_aStream.after = r2.m_aStream.after) (he : r1.m_aStream.eof = r2.m_aStream.eof)
    (h1 : r1.m_bHasNextCalled = r2.m_bHasNextCalled)
    (h2 : r1.m_bHasPreviousCalled = r2.m_bHasPreviousCalled)
    (h3 : r1.m_aEvents = r2.m_aEvents)
    (h4 : r1.m_bEventsAreForwardDirection = r2.m_bEventsAreForwardDirection)
    (h5 : r1.m_aEntityReplacementDictionary = r2.m_aEntityReplacementDictionary)
    (h6 : r1.m_aREntityReplacementDictionary = r2.m_aREntityReplacementDictionary) :
    SameAhead r1.turnForward r2.turnForward := by
  obtain ⟨a1, a2, a3, a4, a5, a6⟩ := turnForward_frame r1
  obtain ⟨b1, b2, b3, b4, b5, b6⟩ := turnForward_frame r2
  refine ⟨by rw [a6, b6, ha], by rw [a6, b6, he], by rw [a3, b3, h1], ?_, by rw [a4, b4, h5],
    by rw [a5, b5, h6], a2, b2, a1, b1⟩
  simp only [XMLEventReader.turnForward, h2, h4]
  split <;> simp [h3]

/-- Two readers equal but for the bytes from the get position on, on streams not flagged
at their end, are, once `hasPrevious` has turned them backward, alike for backward
reading. -/
theorem sameBehind_turnBackward {r1 r2 : XMLEventReader}
    (hb : r1.m_aStream.before = r2.m_aStream.before)
    (he1 : r1.m_aStream.eof = false) (he2 : r2.m_aStream.eof = false)
    (h1 : r1.m_bHasNextCalled = r2.m_bHasNextCalled)
    (h2 : r1.m_bHasPreviousCalled = r2.m_bHasPreviousCalled)
    (h3 : r1.m_aEvents = r2.m_aEvents)
    (h4 : r1.m_bEventsAreForwardDirection = r2.m_bEventsAreForwardDirection)
    (h5 : r1.m_aEntityReplacementDictionary = r2.m_aEntityReplacementDictionary)
    (h6 : r1.m_aREntityReplacementDictionary = r2.m_aREntityReplacementDictionary) :
    SameBehind r1.turnBackward r2.turnBackward := by
  obtain ⟨a1, a2, a3, a4, a5, a6⟩ := turnBackward_frame r1
  obtain ⟨b1, b2, b3, b4, b5, b6⟩ := turnBackward_frame r2
  refine ⟨by rw [a6, b6, hb], by rw [a6, he1], by rw [b6, he2], by rw [a3, b3, h2], ?_,
    by rw [a4, b4, h5], by rw [a5, b5, h6], a2, b2, a1, b1⟩
  simp only [XMLEventReader.turnBackward, h1, h4]
  split <;> simp [h3]

/-- `hasNext` on two readers equal but for the bytes in front of the get position: the
outcomes are alike, counted from the readers turned forward. -/
theorem alike_hasNext {r1 r2 : XMLEventReader}
    (ha : r1.m_aStream.after = r2.m_aStream.after) (he : r1.m_aStream.eof = r2.m_aStream.eof)
    (h1 : r1.m_bHasNextCalled = r2.m_bHasNextCalled)
    (h2 : r1.m_bHasPreviousCalled = r2.m_bHasPreviousCalled)
    (h3 : r1.m_aEvents = r2.m_aEvents)
    (h4 : r1.m_bEventsAreForwardDirection = r2.m_bEventsAreForwardDirection)
    (h5 : r1.m_aEntityReplacementDictionary = r2.m_aEntityReplacementDictionary)
    (h6 : r1.m_aREntityReplacementDictionary = r2.m_aREntityReplacementDictionary) :
    (hasNext r1).Alike r1.turnForward r2.turnForward (hasNext r2) := by
  have hs := sameAhead_turnForward ha he h1 h2 h3 h4 h5 h6
  have hb : r2.budget = r1.budget := by simp [XMLEventReader.budget, ha]
  have hlt : r1.turnForward.m_aStream.after.length < r1.budget := by
    rw [(turnForward_frame r1).2.2.2.2.2]; exact budget_gt r1
  have := alike_hasNextFuel r1.budget _ _ hs hlt
  rw [hasNextFuel_turnForward, hasNextFuel_turnForward] at this
  simpa [hasNext, hb] using this

/-- What `rget` reads does not change when a stream flagged at its end is positioned behind
its last byte first, as `rget` itself does. -/
theorem rget_norm (r : XMLEventReader) :
    r.rget = (r.setStream (if r.m_aStream.eof then r.m_aStream.seekEnd else r.m_aStream)).rget := by
  obtain ⟨⟨b, a, e⟩, hn, hp, q, dir, d, rd⟩ := r
  cases e with
  | false => rfl
  | true =>
    simp only [XMLEventReader.rget, XMLEventReader.setStream, IStream.rget, IStream.seekEnd,
      if_true, Bool.false_eq_true, if_false]

/-- One call of `hasPrevious` on two readers turned backward that differ at most in the
bytes from the get position on, where a stream flagged at its end counts as positioned
behind its last byte: both calls return at once with the reader as it is, or the outcomes
are alike, counted from the readers with the stream so positioned. When the queue is
empty and the call returns `true`, the get position has moved towards the begin. -/
theorem ralike_hasPreviousFuel_any (n1 n2 : Nat) (r1 r2 : XMLEventReader)
    (hs : SameBehind
      (r1.setStream (if r1.m_aStream.eof then r1.m_aStream.seekEnd else r1.m_aStream))
      (r2.setStream (if r2.m_aStream.eof then r2.m_aStream.seekEnd else r2.m_aStream)))
    (hlt1 : (if r1.m_aStream.eof then r1.m_aStream.seekEnd else r1.m_aStream).before.length < n1)
    (hlt2 : (if r1.m_aStream.eof then r1.m_aStream.seekEnd else r1.m_aStream).before.length < n2) :
    ((∃ b, hasPreviousFuel n1 r1 = .ok b r1 ∧ hasPreviousFuel n2 r2 = .ok b r2) ∨
      (hasPreviousFuel n1 r1).RAlike
        (r1.setStream (if r1.m_aStream.eof then r1.m_aStream.seekEnd else r1.m_aStream))
        (r2.setStream (if r2.m_aStream.eof then r2.m_aStream.seekEnd else r2.m_aStream))
        (hasPreviousFuel n2 r2)) ∧
    (r1.m_aEvents = [] → ∀ r', hasPreviousFuel n1 r1 = .ok true r' →
      r'.m_aStream.before.length <
        (if r1.m_aStream.eof then r1.m_aStream.seekEnd else r1.m_aStream).before.length) := by
  obtain ⟨n1, rfl⟩ : ∃ m, n1 = m + 1 := ⟨n1 - 1, by omega⟩
  obtain ⟨n2, rfl⟩ : ∃ m, n2 = m + 1 := ⟨n2 - 1, by omega⟩
  have hl1 : r1.m_bHasNextCalled = false := hs.latch1
  have hl2 : r2.m_bHasNextCalled = false := hs.latch2
  have hd1 : r1.m_bEventsAreForwardDirection = false := hs.direction1
  have hd2 : r2.m_bEventsAreForwardDirection = false := hs.direction2
  have hev : r1.m_aEvents = r2.m_aEvents := hs.events
  have hhp : r1.m_bHasPreviousCalled = r2.m_bHasPreviousCalled := hs.hasPreviousCalled
  simp only [hasPreviousFuel, turnBackward_of_backward hl1 hd1, turnBackward_of_backward hl2 hd2]
  by_cases hq : r1.m_aEvents.length > 0
  · have hq2 : r2.m_aEvents.length > 0 := by rw [← hev]; exact hq
    simp only [hq, hq2, if_true]
    refine ⟨Or.inl ⟨true, rfl, rfl⟩, fun h0 => ?_⟩
    rw [h0] at hq; simp at hq
  · have hq2 : ¬ r2.m_aEvents.length > 0 := by rw [← hev]; exact hq
    simp only [hq, hq2, if_false]
    by_cases hl : r1.m_bHasPreviousCalled = true
    · have hl' : r2.m_bHasPreviousCalled = true := by rw [← hhp]; exact hl
      simp only [hl, hl', if_true]
      exact ⟨Or.inl ⟨false, rfl, rfl⟩, fun _ r' h => by cases h⟩
    · have hl' : ¬ r2.m_bHasPreviousCalled = true := by rw [← hhp]; exact hl
      simp only [hl, hl', if_false, Bool.false_eq_true]
      rw [rget_norm { r1 with m_bHasPreviousCalled := true },
        rget_norm { r2 with m_bHasPreviousCalled := true }]
      have hu : SameBehind
          (({ r1 with m_bHasPreviousCalled := true } : XMLEventReader).setStream
            (if r1.m_aStream.eof then r1.m_aStream.seekEnd else r1.m_aStream))
          (({ r2 with m_bHasPreviousCalled := true } : XMLEventReader).setStream
            (if r2.m_aStream.eof then r2.m_aStream.seekEnd else r2.m_aStream)) :=
        ⟨hs.before, hs.eof1, hs.eof2, rfl, hs.events, hs.dictionary, hs.rdictionary,
          hs.latch1, hs.latch2, hs.direction1, hs.direction2⟩
      have hstart : RReadAlike
          (r1.setStream (if r1.m_aStream.eof then r1.m_aStream.seekEnd else r1.m_aStream))
          (r2.setStream (if r2.m_aStream.eof then r2.m_aStream.seekEnd else r2.m_aStream))
          _ _ := ⟨hu, [], rfl, rfl, rfl⟩
      rcases rget_ralike hu with ⟨g1, g2, e1, e2, ho⟩ | ⟨c, g1, g2, e1, e2, ho, -, -, hlen⟩
      · simp only [e1, e2]
        exact ⟨Or.inr (ralike_from hstart (ralike_ok ho _)), fun _ r' h => by cases h⟩
      · simp only [e1, e2]
        have hlen' : g1.m_aStream.before.length <
            (if r1.m_aStream.eof then r1.m_aStream.seekEnd else r1.m_aStream).before.length :=
          hlen
        by_cases hc : c = '>'
        · simp only [hc, if_true]
          have hx := @ralike_HandleRTag (hasPreviousFuel n1) (hasPreviousFuel n2) g1 g2 ho.rsame
            (by
              intro m1 m2 hm hlt'
              exact ralike_hasPreviousFuel _ _ m1 m2 hm (by omega) (by omega))
          refine ⟨Or.inr (ralike_from hstart (ralike_from ho hx)), fun _ r' h => ?_⟩
          rw [h] at hx
          rcases ralike_cases hx with ⟨v, r1', r2', e3, -, hfin⟩ | ⟨e, r1', r2', e3, -, -⟩
          · cases e3
            have := hfin.rbefore_le
            omega
          · cases e3
        · simp only [hc, if_false]
          have hx := ralike_HandleRText c g1 g2 ho.rsame
          refine ⟨Or.inr (ralike_from hstart (ralike_from ho hx)), fun _ r' h => ?_⟩
          rw [h] at hx
          rcases ralike_cases hx with ⟨v, r1', r2', e3, -, hfin⟩ | ⟨e, r1', r2', e3, -, -⟩
          · cases e3
            have := hfin.rbefore_le
            omega
          · cases e3

theorem get_some_before {r g : XMLEventReader} {c : Char} (h : r.get = (some c, g)) :
    g.m_aStream.before.length = r.m_aStream.before.length + 1 := by
  obtain ⟨⟨b, a, e⟩, hn, hp, q, dir, d, rd⟩ := r
  cases e with
  | true => simp [XMLEventReader.get, IStream.get] at h
  | false =>
    cases a with
    | nil => simp [XMLEventReader.get, IStream.get] at h
    | cons x a =>
      simp only [XMLEventReader.get, IStream.get, XMLEventReader.setStream, Bool.false_eq_true,
        if_false, Prod.mk.injEq] at h
      rw [← h.2]
      simp

/-- One call of `hasNext` on a reader turned forward with an empty queue: when it returns
`true`, the get position has moved towards the end. -/
theorem hasNextFuel_progress (n : Nat) (r r' : XMLEventReader)
    (h1 : r.m_bHasPreviousCalled = false) (h2 : r.m_bEventsAreForwardDirection = true)
    (hq : r.m_aEvents = []) (hlt : r.m_aStream.after.length < n)
    (h : hasNextFuel n r = .ok true r') :
    r.m_aStream.before.length < r'.m_aStream.before.length ∧
      r'.m_aStream.after.length < r.m_aStream.after.length := by
  obtain ⟨n, rfl⟩ : ∃ m, n = m + 1 := ⟨n - 1, by omega⟩
  have hs : SameAhead { r with m_bHasNextCalled := true } { r with m_bHasNextCalled := true } :=
    ⟨rfl, rfl, rfl, rfl, rfl, rfl, h1, h1, h2, h2⟩
  have hq' : ¬ r.m_aEvents.length > 0 := by simp [hq]
  simp only [hasNextFuel, turnForward_of_forward h1 h2, hq', if_false] at h
  split at h
  · cases h
  · rcases get_alike hs with ⟨g1, g2, e1, e2, ho⟩ | ⟨c, g1, g2, e1, e2, ho, -, -, hlen⟩
    · simp only [e1] at h
      cases h
    · rw [e2] at e1
      cases e1
      simp only [e2] at h
      have hb := ho.before_le
      have hx : (if c = '<' then HandleTag (hasNextFuel n) g1 else HandleText c g1).Alike g1 g1
          (if c = '<' then HandleTag (hasNextFuel n) g1 else HandleText c g1) := by
        split_ifs
        · apply alike_HandleTag g1 g1 ho.same
          intro m1 m2 hm hlt'
          exact alike_hasNextFuel n m1 m2 hm (by simp at hlen; omega)
        · exact alike_HandleText c g1 g1 ho.same
      rw [h] at hx
      have hfin := hx.2
      have h3 := hfin.left_le
      have h4 := hfin.before_le.1
      have h5 := get_some_before e2
      simp at hlen h5
      omega


theorem norm_eof (s : IStream) : (if s.eof then s.seekEnd else s).eof = false := by
  cases h : s.eof with
  | false => simp [h]
  | true => simp [IStream.seekEnd]

theorem norm_before_of_consistent {s : IStream} (hc : s.consistent) :
    (if s.eof then s.seekEnd else s).before = s.before := by
  cases h : s.eof with
  | false => simp
  | true => simp [IStream.seekEnd, hc h]

theorem norm_before_length (s : IStream) :
    (if s.eof then s.seekEnd else s).before.length < s.before.length + s.after.length + 1 := by
  cases h : s.eof with
  | false => simp; omega
  | true => simp [IStream.seekEnd]; omega

/-- `hasNext` on any reader ends: it returns or throws, in both cases with the direction
forward and the has-previous latch clear, and with no more bytes left to read than
before. -/
theorem hasNext_ends (r : XMLEventReader) :
    ∃ r', (hasNext r).leaves r' ∧ r'.m_bHasPreviousCalled = false ∧
      r'.m_bEventsAreForwardDirection = true ∧
      r'.m_aStream.after.length ≤ r.m_aStream.after.length := by
  have h := @alike_hasNext r r rfl rfl rfl rfl rfl rfl rfl rfl
  have ht : r.turnForward.m_aStream = r.m_aStream := (turnForward_frame r).2.2.2.2.2
  rcases alike_cases h with ⟨v, r1', r2', e1, e2, hfin⟩ | ⟨e, r1', r2', e1, e2, hfin⟩
  · refine ⟨r1', Or.inl ⟨v, e1⟩, hfin.same.latch1, hfin.same.direction1, ?_⟩
    have := hfin.left_le
    rwa [ht] at this
  · refine ⟨r1', Or.inr ⟨e, e1⟩, hfin.same.latch1, hfin.same.direction1, ?_⟩
    have := hfin.left_le
    rwa [ht] at this

/-- `hasPrevious` on any reader ends: it returns or throws, in both cases with the
direction backward and the has-next latch clear. -/
theorem hasPrevious_ends (r : XMLEventReader) :
    ∃ r', (hasPrevious r).leaves r' ∧ r'.m_bHasNextCalled = false ∧
      r'.m_bEventsAreForwardDirection = false ∧
      (r.m_aStream.consistent → r'.m_aStream.before.length ≤ r.m_aStream.before.length) := by
  obtain ⟨t1, t2, t3, t4, t5, t6⟩ := turnBackward_frame r
  have hs : SameBehind
      (r.turnBackward.setStream (if r.turnBackward.m_aStream.eof
        then r.turnBackward.m_aStream.seekEnd else r.turnBackward.m_aStream))
      (r.turnBackward.setStream (if r.turnBackward.m_aStream.eof
        then r.turnBackward.m_aStream.seekEnd else r.turnBackward.m_aStream)) :=
    ⟨rfl, norm_eof _, norm_eof _, rfl, rfl, rfl, rfl, t2, t2, t1, t1⟩
  have hlt := norm_before_length r.turnBackward.m_aStream
  have h := (ralike_hasPreviousFuel_any r.rbudget r.rbudget r.turnBackward r.turnBackward hs
    (by rw [t6] at hlt ⊢; exact hlt) (by rw [t6] at hlt ⊢; exact hlt)).1
  rw [hasPreviousFuel_turnBackward] at h
  rcases h with ⟨b, e1, -⟩ | h
  · exact ⟨_, Or.inl ⟨b, e1⟩, t2, t1, fun _ => by rw [t6]⟩
  · have hb : ∀ r1' r2', RReadAlike
        (r.turnBackward.setStream (if r.turnBackward.m_aStream.eof
          then r.turnBackward.m_aStream.seekEnd else r.turnBackward.m_aStream))
        (r.turnBackward.setStream (if r.turnBackward.m_aStream.eof
          then r.turnBackward.m_aStream.seekEnd else r.turnBackward.m_aStream)) r1' r2' →
        r.m_aStream.consistent → r1'.m_aStream.before.length ≤ r.m_aStream.before.length := by
      intro r1' r2' hfin hc
      have := hfin.rbefore_le
      simp only [XMLEventReader.setStream, t6, norm_before_of_consistent hc] at this
      exact this
    rcases ralike_cases h with ⟨v, r1', r2', e1, e2, hfin⟩ | ⟨e, r1', r2', e1, e2, hfin⟩
    · exact ⟨r1', Or.inl ⟨v, e1⟩, hfin.rsame.latch1, hfin.rsame.direction1, hb _ _ hfin⟩
    · exact ⟨r1', Or.inr ⟨e, e1⟩, hfin.rsame.latch1, hfin.rsame.direction1, hb _ _ hfin⟩

theorem leaves_unique {α : Type} {x : Result α} {r1 r2 : XMLEventReader} (h1 : x.leaves r1)
    (h2 : x.leaves r2) : r1 = r2 := by
  rcases h1 with ⟨a, rfl⟩ | ⟨e, rfl⟩
  · rcases h2 with ⟨a', h⟩ | ⟨e', h⟩
    · cases h; rfl
    · cases h
  · rcases h2 with ⟨a', h⟩ | ⟨e', h⟩
    · cases h
    · cases h; rfl

/-- C31. Reading depends on one side of the get position only. Two readers over consistent
streams that are equal but for the bytes from the get position on get the same from
`hasPrevious`: both calls return the same value or both throw the same exception, with
equal queues and equal bytes in front of the get position, so at the same get position,
and that get position is not behind the one the calls started at. Two readers that are
equal but for the bytes in front of the get position, with the get position at the same
offset, get the same from `hasNext`, with equal queues, equal bytes left to read and the
same get position, which is not in front of the one the calls started at. -/
theorem reading_depends_on_one_side (r1 r2 : XMLEventReader)
    (h1 : r1.m_bHasNextCalled = r2.m_bHasNextCalled)
    (h2 : r1.m_bHasPreviousCalled = r2.m_bHasPreviousCalled)
    (h3 : r1.m_aEvents = r2.m_aEvents)
    (h4 : r1.m_bEventsAreForwardDirection = r2.m_bEventsAreForwardDirection)
    (h5 : r1.m_aEntityReplacementDictionary = r2.m_aEntityReplacementDictionary)
    (h6 : r1.m_aREntityReplacementDictionary = r2.m_aREntityReplacementDictionary)
    (he : r1.m_aStream.eof = r2.m_aStream.eof) :
    (r1.m_aStream.before = r2.m_aStream.before → r1.m_aStream.consistent →
      r2.m_aStream.consistent →
      (∃ b r1' r2', hasPrevious r1 = .ok b r1' ∧ hasPrevious r2 = .ok b r2' ∧
        r1'.m_aEvents = r2'.m_aEvents ∧ r1'.m_aStream.before = r2'.m_aStream.before ∧
        r1'.m_aStream.tellg = r2'.m_aStream.tellg ∧
        r1'.m_aStream.tellg ≤ r1.m_aStream.tellg) ∨
      (∃ e r1' r2', hasPrevious r1 = .throw e r1' ∧ hasPrevious r2 = .throw e r2' ∧
        r1'.m_aEvents = r2'.m_aEvents ∧ r1'.m_aStream.before = r2'.m_aStream.before ∧
        r1'.m_aStream.tellg = r2'.m_aStream.tellg ∧
        r1'.m_aStream.tellg ≤ r1.m_aStream.tellg)) ∧
    (r1.m_aStream.after = r2.m_aStream.after → r1.m_aStream.tellg = r2.m_aStream.tellg →
      (∃ b r1' r2', hasNext r1 = .ok b r1' ∧ hasNext r2 = .ok b r2' ∧
        r1'.m_aEvents = r2'.m_aEvents ∧ r1'.m_aStream.after = r2'.m_aStream.after ∧
        r1'.m_aStream.tellg = r2'.m_aStream.tellg ∧
        r1.m_aStream.tellg ≤ r1'.m_aStream.tellg) ∨
      (∃ e r1' r2', hasNext r1 = .throw e r1' ∧ hasNext r2 = .throw e r2' ∧
        r1'.m_aEvents = r2'.m_aEvents ∧ r1'.m_aStream.after = r2'.m_aStream.after ∧
        r1'.m_aStream.tellg = r2'.m_aStream.tellg ∧
        r1.m_aStream.tellg ≤ r1'.m_aStream.tellg)) := by
  constructor
  · intro hb hc1 hc2
    obtain ⟨a1, a2, a3, a4, a5, a6⟩ := turnBackward_frame r1
    obtain ⟨b1, b2, b3, b4, b5, b6⟩ := turnBackward_frame r2
    have hev : r1.turnBackward.m_aEvents = r2.turnBackward.m_aEvents := by
      simp only [XMLEventReader.turnBackward, h1, h4]
      split <;> simp [h3]
    have hs : SameBehind
        (r1.turnBackward.setStream (if r1.turnBackward.m_aStream.eof
          then r1.turnBackward.m_aStream.seekEnd else r1.turnBackward.m_aStream))
        (r2.turnBackward.setStream (if r2.turnBackward.m_aStream.eof
          then r2.turnBackward.m_aStream.seekEnd else r2.turnBackward.m_aStream)) := by
      refine ⟨?_, norm_eof _, norm_eof _, by simp only [XMLEventReader.setStream, a3, b3, h2],
        hev, by simp only [XMLEventReader.setStream, a4, b4, h5],
        by simp only [XMLEventReader.setStream, a5, b5, h6], a2, b2, a1, b1⟩
      simp only [XMLEventReader.setStream, a6, b6, norm_before_of_consistent hc1,
        norm_before_of_consistent hc2, hb]
    have hn1 : (if r1.turnBackward.m_aStream.eof then r1.turnBackward.m_aStream.seekEnd
        else r1.turnBackward.m_aStream).before = r1.m_aStream.before := by
      rw [a6, norm_before_of_consistent hc1]
    have h := (ralike_hasPreviousFuel_any r1.rbudget r2.rbudget r1.turnBackward r2.turnBackward
      hs (by rw [hn1]; exact rbudget_gt r1)
      (by rw [hn1, hb]; exact rbudget_gt r2)).1
    rw [hasPreviousFuel_turnBackward, hasPreviousFuel_turnBackward] at h
    rcases h with ⟨b, e1, e2⟩ | h
    · exact Or.inl ⟨b, _, _, e1, e2, hev, by rw [a6, b6, hb],
        by simp only [IStream.tellg]; rw [a6, b6, hb],
        by simp only [IStream.tellg]; rw [a6]⟩
    · have hfinal : ∀ r1' r2', RReadAlike
          (r1.turnBackward.setStream (if r1.turnBackward.m_aStream.eof
            then r1.turnBackward.m_aStream.seekEnd else r1.turnBackward.m_aStream))
          (r2.turnBackward.setStream (if r2.turnBackward.m_aStream.eof
            then r2.turnBackward.m_aStream.seekEnd else r2.turnBackward.m_aStream)) r1' r2' →
          r1'.m_aEvents = r2'.m_aEvents ∧ r1'.m_aStream.before = r2'.m_aStream.before ∧
          r1'.m_aStream.tellg = r2'.m_aStream.tellg ∧
          r1'.m_aStream.tellg ≤ r1.m_aStream.tellg := by
        intro r1' r2' hfin
        have hle := hfin.rbefore_le
        simp only [XMLEventReader.setStream, hn1] at hle
        exact ⟨hfin.rsame.events, hfin.rsame.before, by simp only [IStream.tellg, hfin.rsame.before],
          hle⟩
      rcases ralike_cases h with ⟨v, r1', r2', e1, e2, hfin⟩ | ⟨e, r1', r2', e1, e2, hfin⟩
      · exact Or.inl ⟨v, r1', r2', e1, e2, hfinal _ _ hfin⟩
      · exact Or.inr ⟨e, r1', r2', e1, e2, hfinal _ _ hfin⟩
  · intro ha hp
    have h := alike_hasNext ha he h1 h2 h3 h4 h5 h6
    have ht1 : r1.turnForward.m_aStream = r1.m_aStream := (turnForward_frame r1).2.2.2.2.2
    have ht2 : r2.turnForward.m_aStream = r2.m_aStream := (turnForward_frame r2).2.2.2.2.2
    have hfinal : ∀ r1' r2', ReadAlike r1.turnForward r2.turnForward r1' r2' →
        r1'.m_aEvents = r2'.m_aEvents ∧ r1'.m_aStream.after = r2'.m_aStream.after ∧
        r1'.m_aStream.tellg = r2'.m_aStream.tellg ∧
        r1.m_aStream.tellg ≤ r1'.m_aStream.tellg := by
      intro r1' r2' hfin
      obtain ⟨x1, x2, x3⟩ := hfin.before_le
      rw [ht1] at x1 x3
      rw [ht2] at x2 x3
      simp only [IStream.tellg] at hp ⊢
      exact ⟨hfin.same.events, hfin.same.after, by omega, x1⟩
    rcases alike_cases h with ⟨v, r1', r2', e1, e2, hfin⟩ | ⟨e, r1', r2', e1, e2, hfin⟩
    · exact Or.inl ⟨v, r1', r2', e1, e2, hfinal _ _ hfin⟩
    · exact Or.inr ⟨e, r1', r2', e1, e2, hfinal _ _ hfin⟩

theorem reading_depends_on_one_side_witness :
    ((∃ b r1' r2',
        hasPrevious ⟨⟨"<a>".toList.reverse, "x".toList, false⟩, false, false, [], false, [], []⟩ =
          .ok b r1' ∧
        hasPrevious ⟨⟨"<a>".toList.reverse, "</b>".toList, false⟩, false, false, [], false, [],
          []⟩ = .ok b r2' ∧
        r1'.m_aEvents = r2'.m_aEvents ∧ r1'.m_aStream.before = r2'.m_aStream.before ∧
        r1'.m_aStream.tellg = r2'.m_aStream.tellg ∧
        r1'.m_aStream.tellg ≤ (IStream.mk "<a>".toList.reverse "x".toList false).tellg) ∨
      (∃ e r1' r2',
        hasPrevious ⟨⟨"<a>".toList.reverse, "x".toList, false⟩, false, false, [], false, [], []⟩ =
          .throw e r1' ∧
        hasPrevious ⟨⟨"<a>".toList.reverse, "</b>".toList, false⟩, false, false, [], false, [],
          []⟩ = .throw e r2' ∧
        r1'.m_aEvents = r2'.m_aEvents ∧ r1'.m_aStream.before = r2'.m_aStream.before ∧
        r1'.m_aStream.tellg = r2'.m_aStream.tellg ∧
        r1'.m_aStream.tellg ≤ (IStream.mk "<a>".toList.reverse "x".toList false).tellg)) :=
  (reading_depends_on_one_side
    ⟨⟨"<a>".toList.reverse, "x".toList, false⟩, false, false, [], false, [], []⟩
    ⟨⟨"<a>".toList.reverse, "</b>".toList, false⟩, false, false, [], false, [], []⟩
    rfl rfl rfl rfl rfl rfl rfl).1 rfl (fun h => by cases h) (fun h => by cases h)

/-! ## Progress and termination -/

theorem nextEvent_pop_stream {r r1 : XMLEventReader} {e : XMLEvent} (hq : r.m_aEvents ≠ [])
    (h : nextEvent r = .ok e r1) : r1.m_aStream = r.m_aStream := by
  unfold nextEvent at h
  split at h
  · cases h
  · split at h
    · rename_i hc
      have : r.m_aEvents = [] := List.eq_nil_of_length_eq_zero (by omega)
      exact absurd this hq
    · unfold popEvent at h
      split at h
      · cases h
      · cases h; rfl

theorem previousEvent_pop_stream {r r1 : XMLEventReader} {e : XMLEvent} (hq : r.m_aEvents ≠ [])
    (h : previousEvent r = .ok e r1) : r1.m_aStream = r.m_aStream := by
  unfold previousEvent at h
  split at h
  · cases h
  · split at h
    · rename_i hc
      have : r.m_aEvents = [] := List.eq_nil_of_length_eq_zero (by omega)
      exact absurd this hq
    · unfold popEvent at h
      split at h
      · cases h
      · cases h; rfl

/-- A `hasNext` call that starts on the empty queue and returns `true` has moved the get
position towards the end. -/
theorem hasNext_progress {r r' : XMLEventReader} (hq : r.turnForward.m_aEvents = [])
    (h : hasNext r = .ok true r') :
    r.m_aStream.before.length < r'.m_aStream.before.length ∧
      r'.m_aStream.after.length < r.m_aStream.after.length := by
  obtain ⟨t1, t2, t3, t4, t5, t6⟩ := turnForward_frame r
  have := hasNextFuel_progress r.budget r.turnForward r' t2 t1 hq
    (by rw [t6]; exact budget_gt r) (by rw [hasNextFuel_turnForward]; exact h)
  rwa [t6] at this

/-- A `hasPrevious` call on a consistent stream that starts on the empty queue and
returns `true` has moved the get position towards the begin. -/
theorem hasPrevious_progress {r r' : XMLEventReader} (hc : r.m_aStream.consistent)
    (hq : r.turnBackward.m_aEvents = []) (h : hasPrevious r = .ok true r') :
    r'.m_aStream.before.length < r.m_aStream.before.length := by
  obtain ⟨t1, t2, t3, t4, t5, t6⟩ := turnBackward_frame r
  have hs : SameBehind
      (r.turnBackward.setStream (if r.turnBackward.m_aStream.eof
        then r.turnBackward.m_aStream.seekEnd else r.turnBackward.m_aStream))
      (r.turnBackward.setStream (if r.turnBackward.m_aStream.eof
        then r.turnBackward.m_aStream.seekEnd else r.turnBackward.m_aStream)) :=
    ⟨rfl, norm_eof _, norm_eof _, rfl, rfl, rfl, rfl, t2, t2, t1, t1⟩
  have hlt := norm_before_length r.turnBackward.m_aStream
  have h' := (ralike_hasPreviousFuel_any r.rbudget r.rbudget r.turnBackward r.turnBackward hs
    (by rw [t6] at hlt ⊢; exact hlt) (by rw [t6] at hlt ⊢; exact hlt)).2 hq r'
    (by rw [hasPreviousFuel_turnBackward]; exact h)
  rwa [t6, norm_before_of_consistent hc] at h'

theorem forwardRuns_bound {k : Nat} {r r' : XMLEventReader} (h : ForwardRuns k r r') :
    k + r'.m_aStream.after.length ≤ r.m_aStream.after.length := by
  induction h with
  | done r => simp
  | run hq h _ ih =>
    have := (hasNext_progress hq h).2
    omega
  | call _ h _ ih =>
    obtain ⟨r', hl, -, -, hle⟩ := hasNext_ends _
    have := leaves_unique hl (Or.inl ⟨_, h⟩)
    subst this
    omega
  | pop hq h _ ih =>
    rw [nextEvent_pop_stream hq h] at ih
    exact ih

theorem backwardRuns_bound {k : Nat} {r r' : XMLEventReader} (h : BackwardRuns k r r') :
    r.m_aStream.consistent → k + r'.m_aStream.before.length ≤ r.m_aStream.before.length := by
  induction h with
  | done r => intro _; simp
  | run hq h _ ih =>
    intro hc
    have := hasPrevious_progress hc hq h
    have hc1 := (hasPreviousFuel_ok _ _ _ _ h).2.2.2.2.1 hc
    have := ih hc1.1
    omega
  | call _ h _ ih =>
    intro hc
    obtain ⟨r', hl, -, -, hle⟩ := hasPrevious_ends _
    have := leaves_unique hl (Or.inl ⟨_, h⟩)
    subst this
    have hc1 := (hasPreviousFuel_ok _ _ _ _ h).2.2.2.2.1 hc
    have := ih hc1.1
    have := hle hc
    omega
  | pop hq h _ ih =>
    intro hc
    rw [previousEvent_pop_stream hq h] at ih
    exact ih hc

/-- C40. Progress and termination. A `hasNext` call that finds the queue empty, or empties
it for the change of direction, and returns `true` leaves the get position strictly behind
the one it started at, with fewer bytes left to read; a `hasPrevious` call of that kind on
a consistent stream leaves the get position strictly in front of the one it started at.
Every call of `hasNext` and of `hasPrevious`, on every reader, returns or throws within
its budget, the calls behind an XML declaration included. Hence among calls of `hasNext`
and `nextEvent` that returned, at most as many ran the tokenizer with success as bytes
were left to read at the start, and among calls of `hasPrevious` and `previousEvent` at
most as many as bytes stood in front of the get position. -/
theorem tokenizer_progress_and_termination (r : XMLEventReader) :
    (∀ r', r.turnForward.m_aEvents = [] → hasNext r = .ok true r' →
      r.m_aStream.tellg < r'.m_aStream.tellg ∧
      r'.m_aStream.after.length < r.m_aStream.after.length) ∧
    (∀ r', r.m_aStream.consistent → r.turnBackward.m_aEvents = [] →
      hasPrevious r = .ok true r' → r'.m_aStream.tellg < r.m_aStream.tellg) ∧
    hasNext r ≠ .exhausted ∧ hasPrevious r ≠ .exhausted ∧
    (∀ k r', ForwardRuns k r r' → k + r'.m_aStream.after.length ≤ r.m_aStream.after.length) ∧
    (∀ k r', r.m_aStream.consistent → BackwardRuns k r r' →
      k + r'.m_aStream.tellg ≤ r.m_aStream.tellg) := by
  refine ⟨fun r' hq h => hasNext_progress hq h, fun r' hc hq h => hasPrevious_progress hc hq h,
    ?_, ?_, fun k r' h => forwardRuns_bound h, fun k r' hc h => backwardRuns_bound h hc⟩
  · obtain ⟨r', hl, -⟩ := hasNext_ends r
    intro he
    rw [he] at hl
    rcases hl with ⟨a, h⟩ | ⟨e, h⟩ <;> cases h
  · obtain ⟨r', hl, -⟩ := hasPrevious_ends r
    intro he
    rw [he] at hl
    rcases hl with ⟨a, h⟩ | ⟨e, h⟩ <;> cases h

theorem tokenizer_progress_and_termination_witness :
    (XMLEventReader.new (IStream.ofData "<?xml ?><a/>".toList)).m_aStream.tellg <
      (IStream.mk "<?xml ?><a/>".toList.reverse [] false).tellg ∧
    (IStream.mk "<?xml ?><a/>".toList.reverse [] false).after.length <
      (XMLEventReader.new (IStream.ofData "<?xml ?><a/>".toList)).m_aStream.after.length :=
  (tokenizer_progress_and_termination
    (XMLEventReader.new (IStream.ofData "<?xml ?><a/>".toList))).1
    ⟨⟨"<?xml ?><a/>".toList.reverse, [], false⟩, true, false,
      [XMLEvent.ofStartElement ⟨QName.mk [] ['a'] [], []⟩,
        XMLEvent.ofEndElement ⟨QName.mk [] ['a'] []⟩], true,
      (XMLEventReader.new (IStream.ofData [])).m_aEntityReplacementDictionary,
      (XMLEventReader.new (IStream.ofData [])).m_aREntityReplacementDictionary⟩
    (by decide) (by decide)

/-! ## The latches and the direction flag -/

theorem popEvent_leaves {what : String} {r r' : XMLEventReader}
    (h : (popEvent what r).leaves r') :
    r'.m_bHasNextCalled = r.m_bHasNextCalled ∧
    r'.m_bHasPreviousCalled = r.m_bHasPreviousCalled ∧
    r'.m_bEventsAreForwardDirection = r.m_bEventsAreForwardDirection := by
  unfold popEvent at h
  split at h
  · rcases h with ⟨a, h⟩ | ⟨e, h⟩
    · cases h
    · simp only [logicError] at h; cases h; exact ⟨rfl, rfl, rfl⟩
  · rcases h with ⟨a, h⟩ | ⟨e, h⟩
    · cases h; exact ⟨rfl, rfl, rfl⟩
    · cases h

/-- What `nextEvent` leaves behind, whether it returns or throws: the latches and the
direction flag as they were, or the has-previous latch clear and the direction forward. -/
theorem nextEvent_leaves {r r' : XMLEventReader} (h : (nextEvent r).leaves r') :
    (r'.m_bHasNextCalled = r.m_bHasNextCalled ∧
      r'.m_bHasPreviousCalled = r.m_bHasPreviousCalled ∧
      r'.m_bEventsAreForwardDirection = r.m_bEventsAreForwardDirection) ∨
    (r'.m_bHasPreviousCalled = false ∧ r'.m_bEventsAreForwardDirection = true) := by
  unfold nextEvent at h
  split at h
  · rcases h with ⟨a, h⟩ | ⟨e, h⟩
    · cases h
    · simp only [logicError] at h; cases h; exact Or.inl ⟨rfl, rfl, rfl⟩
  · rename_i hg
    have hp : r.m_bHasPreviousCalled = false := by
      cases hh : r.m_bHasPreviousCalled with
      | false => rfl
      | true => exact absurd (Or.inl hh) hg
    have hd : r.m_bEventsAreForwardDirection = true := by
      cases hh : r.m_bEventsAreForwardDirection with
      | true => rfl
      | false => exact absurd (Or.inr (by simp [hh])) hg
    split at h
    · obtain ⟨r1, hl, h1, h2, -⟩ := hasNext_ends r
      rcases hl with ⟨b, hb⟩ | ⟨e, hb⟩
      · rw [hb] at h
        simp only [Result.bind] at h
        split at h
        · rcases h with ⟨a, h⟩ | ⟨e, h⟩
          · cases h
          · simp only [logicError] at h; cases h; exact Or.inr ⟨h1, h2⟩
        · obtain ⟨-, x2, x3⟩ := popEvent_leaves h
          exact Or.inr ⟨x2.trans h1, x3.trans h2⟩
      · rw [hb] at h
        simp only [Result.bind] at h
        rcases h with ⟨a, h⟩ | ⟨e', h⟩
        · cases h
        · cases h; exact Or.inr ⟨h1, h2⟩
    · obtain ⟨-, x2, x3⟩ := popEvent_leaves h
      exact Or.inr ⟨x2.trans hp, x3.trans hd⟩

/-- What `previousEvent` leaves behind, whether it returns or throws: the latches and the
direction flag as they were, or the has-next latch clear and the direction backward. -/
theorem previousEvent_leaves {r r' : XMLEventReader} (h : (previousEvent r).leaves r') :
    (r'.m_bHasNextCalled = r.m_bHasNextCalled ∧
      r'.m_bHasPreviousCalled = r.m_bHasPreviousCalled ∧
      r'.m_bEventsAreForwardDirection = r.m_bEventsAreForwardDirection) ∨
    (r'.m_bHasNextCalled = false ∧ r'.m_bEventsAreForwardDirection = false) := by
  unfold previousEvent at h
  split at h
  · rcases h with ⟨a, h⟩ | ⟨e, h⟩
    · cases h
    · simp only [logicError] at h; cases h; exact Or.inl ⟨rfl, rfl, rfl⟩
  · rename_i hg
    have hp : r.m_bHasNextCalled = false := by
      cases hh : r.m_bHasNextCalled with
      | false => rfl
      | true => exact absurd (Or.inl hh) hg
    have hd : r.m_bEventsAreForwardDirection = false := by
      cases hh : r.m_bEventsAreForwardDirection with
      | false => rfl
      | true => exact absurd (Or.inr hh) hg
    split at h
    · obtain ⟨r1, hl, h1, h2, -⟩ := hasPrevious_ends r
      rcases hl with ⟨b, hb⟩ | ⟨e, hb⟩
      · rw [hb] at h
        simp only [Result.bind] at h
        split at h
        · rcases h with ⟨a, h⟩ | ⟨e, h⟩
          · cases h
          · simp only [logicError] at h; cases h; exact Or.inr ⟨h1, h2⟩
        · obtain ⟨x1, -, x3⟩ := popEvent_leaves h
          exact Or.inr ⟨x1.trans h1, x3.trans h2⟩
      · rw [hb] at h
        simp only [Result.bind] at h
        rcases h with ⟨a, h⟩ | ⟨e', h⟩
        · cases h
        · cases h; exact Or.inr ⟨h1, h2⟩
    · obtain ⟨x1, -, x3⟩ := popEvent_leaves h
      exact Or.inr ⟨x1.trans hp, x3.trans hd⟩

/-- C32. In every reader state that construction and public calls lead to, calls that
throw counted in, the has-next latch and the has-previous latch are not both set, the
has-next latch is set only with the direction flag forward, and the has-previous latch
only with the direction flag backward. -/
theorem latches_agree_with_direction (r : XMLEventReader) (hr : ReachableByCalls r) :
    ¬ (r.m_bHasNextCalled = true ∧ r.m_bHasPreviousCalled = true) ∧
    (r.m_bHasNextCalled = true → r.m_bEventsAreForwardDirection = true) ∧
    (r.m_bHasPreviousCalled = true → r.m_bEventsAreForwardDirection = false) := by
  induction hr with
  | new aStream => simp [XMLEventReader.new]
  | hasNext _ h ih =>
    obtain ⟨r1, hl, h1, h2, -⟩ := hasNext_ends _
    have := leaves_unique hl h
    subst this
    simp [h1, h2]
  | nextEvent _ h ih =>
    rcases nextEvent_leaves h with ⟨x1, x2, x3⟩ | ⟨x2, x3⟩
    · rw [x1, x2, x3]; exact ih
    · simp [x2, x3]
  | hasPrevious _ h ih =>
    obtain ⟨r1, hl, h1, h2, -⟩ := hasPrevious_ends _
    have := leaves_unique hl h
    subst this
    simp [h1, h2]
  | previousEvent _ h ih =>
    rcases previousEvent_leaves h with ⟨x1, x2, x3⟩ | ⟨x1, x3⟩
    · rw [x1, x2, x3]; exact ih
    · simp [x1, x3]
  | addToEntityReplacementDictionary _ h ih =>
    rename_i r0 r' strName strText _
    have hx : r'.m_bHasNextCalled = r0.m_bHasNextCalled ∧
        r'.m_bHasPreviousCalled = r0.m_bHasPreviousCalled ∧
        r'.m_bEventsAreForwardDirection = r0.m_bEventsAreForwardDirection := by
      unfold addToEntityReplacementDictionary at h
      split at h
      · rcases h with ⟨a, h⟩ | ⟨e, h⟩
        · cases h
        · cases h; exact ⟨rfl, rfl, rfl⟩
      · rcases h with ⟨a, h⟩ | ⟨e, h⟩
        · cases h; exact ⟨rfl, rfl, rfl⟩
        · cases h
    rw [hx.1, hx.2.1, hx.2.2]
    exact ih

/-- The reader `hasNext` leaves behind when it throws on `<a`: the has-next latch is set,
the direction is forward. -/
theorem latches_agree_with_direction_witness :
    ¬ ((true : Bool) = true ∧ (false : Bool) = true) ∧
    ((true : Bool) = true →
      ({ XMLEventReader.new ⟨['a', '<'], [], true⟩ with
        m_bHasNextCalled := true }).m_bEventsAreForwardDirection = true) ∧
    ((false : Bool) = true →
      ({ XMLEventReader.new ⟨['a', '<'], [], true⟩ with
        m_bHasNextCalled := true }).m_bEventsAreForwardDirection = false) :=
  latches_agree_with_direction
    { XMLEventReader.new ⟨['a', '<'], [], true⟩ with m_bHasNextCalled := true }
    (ReachableByCalls.hasNext (ReachableByCalls.new (IStream.ofData "<a".toList))
      (Or.inr ⟨.runtime_error "Tag start incomplete.", by decide⟩))

/-! ## Comments with any body, backwards -/

/-- The backward comment loop, with `k` bytes of `--!<` read and held back, passes the
bytes `s` when no `--!<` comes about among them: what it has collected and holds back
afterwards is what it had collected and held back before, and `s`. -/
theorem HandleRCommentLoop_scan :
    ∀ (s : Str) (k n : Nat) (pData b a : Str) (hn hp : Bool) (q : List XMLEvent) (dir : Bool)
      (d rd : List (Str × Str)),
      k ≤ 3 → ¬ (['-', '-', '!', '<'] <:+: (['-', '-', '!', '<'].take k ++ s)) →
      ∃ (k' : Nat) (pData' : Str), k' ≤ 3 ∧
        pData' ++ ['-', '-', '!', '<'].take k' = pData ++ ['-', '-', '!', '<'].take k ++ s ∧
        HandleRCommentLoop (n + s.length) k pData
            ⟨⟨s ++ b, a, false⟩, hn, hp, q, dir, d, rd⟩ =
          HandleRCommentLoop n k' pData' ⟨⟨b, s.reverse ++ a, false⟩, hn, hp, q, dir, d, rd⟩ := by
  intro s
  induction s with
  | nil =>
    intro k n pData b a hn hp q dir d rd hk _
    exact ⟨k, pData, hk, by simp, by simp⟩
  | cons c s ih =>
    intro k n pData b a hn hp q dir d rd hk hno
    rw [show n + (c :: s).length = (n + s.length) + 1 by simp; omega]
    by_cases hc : c = ['-', '-', '!', '<'].getD k '\x00'
    · by_cases hk3 : k + 1 < 4
      · have htake : ['-', '-', '!', '<'].take (k + 1) = ['-', '-', '!', '<'].take k ++ [c] := by
          subst hc
          interval_cases k <;> rfl
        obtain ⟨k', pData', hk', heq, e⟩ := ih (k + 1) n pData b (c :: a) hn hp q dir d rd
          (by omega) (by rw [htake]; simpa using hno)
        refine ⟨k', pData', hk', ?_, ?_⟩
        · rw [heq, htake]; simp
        · conv_lhs => unfold HandleRCommentLoop
          simp only [XMLEventReader.rget, IStream.rget, XMLEventReader.setStream,
            List.cons_append, Bool.false_eq_true, if_false, hc, if_true, hk3]
          rw [← hc, e]
          simp
      · exfalso
        have hk' : k = 3 := by omega
        subst hk'
        apply hno
        have hc' : c = '<' := hc
        subst hc'
        exact ⟨[], s, rfl⟩
    · have hno' : ¬ (['-', '-', '!', '<'] <:+: (['-', '-', '!', '<'].take 0 ++ s)) := by
        intro h
        apply hno
        have hsuf : s <:+ (['-', '-', '!', '<'].take k ++ c :: s) :=
          ⟨['-', '-', '!', '<'].take k ++ [c], by simp⟩
        exact (by simpa using h : ['-', '-', '!', '<'] <:+: s).trans hsuf.isInfix
      by_cases hkp : k > 0
      · obtain ⟨k', pData', hk', heq, e⟩ := ih 0 n
          (pData ++ ['-', '-', '!', '<'].take k ++ [c]) b (c :: a) hn hp q dir d rd
          (by omega) hno'
        refine ⟨k', pData', hk', ?_, ?_⟩
        · rw [heq]; simp
        · conv_lhs => unfold HandleRCommentLoop
          simp only [XMLEventReader.rget, IStream.rget, XMLEventReader.setStream,
            List.cons_append, Bool.false_eq_true, if_false, hc, hkp, if_true]
          rw [e]
          simp
      · have hk0 : k = 0 := by omega
        subst hk0
        obtain ⟨k', pData', hk', heq, e⟩ := ih 0 n (pData ++ [c]) b (c :: a) hn hp q dir d rd
          (by omega) hno'
        refine ⟨k', pData', hk', ?_, ?_⟩
        · rw [heq]; simp
        · conv_lhs => unfold HandleRCommentLoop
          simp only [XMLEventReader.rget, IStream.rget, XMLEventReader.setStream,
            List.cons_append, Bool.false_eq_true, if_false, hc, hkp]
          rw [e]
          simp

theorem HandleRCommentLoop_end (n : Nat) (pData b a : Str) (hn hp : Bool)
    (q : List XMLEvent) (dir : Bool) (d rd : List (Str × Str)) :
    HandleRCommentLoop (n + 4) 0 pData
        ⟨⟨'-' :: '-' :: '!' :: '<' :: b, a, false⟩, hn, hp, q, dir, d, rd⟩ =
      .ok true ⟨⟨b, '<' :: '!' :: '-' :: '-' :: a, false⟩, hn, hp,
        q ++ [XMLEvent.ofComment ⟨pData.reverse⟩], dir, d, rd⟩ := by
  simp [HandleRCommentLoop, XMLEventReader.rget, IStream.rget, XMLEventReader.setStream,
    XMLEventReader.push]

/-- Backward `hasPrevious` behind a comment whose body holds no `<!--` and begins neither
with a hyphen nor with `!--`. -/
theorem hasPrevious_comment_body {body : Str} (hfront : body.head? ≠ some '-')
    (hbang : ¬ (['!', '-', '-'] <+: body)) (hno : ¬ (['<', '!', '-', '-'] <:+: body))
    (b a : Str) (d rd : List (Str × Str)) :
    hasPrevious ⟨⟨'>' :: '-' :: '-' :: (body.reverse ++ '-' :: '-' :: '!' :: '<' :: b), a,
        false⟩, false, false, [], false, d, rd⟩ =
      .ok true ⟨⟨b, '<' :: '!' :: '-' :: '-' :: (body ++ '-' :: '-' :: '>' :: a), false⟩,
        false, true, [XMLEvent.ofComment ⟨body⟩], false, d, rd⟩ := by
  have hno' : ¬ (['-', '-', '!', '<'] <:+: (['-', '-', '!', '<'].take 0 ++ body.reverse)) := by
    intro h
    apply hno
    have h' : ['<', '!', '-', '-'].reverse <:+: body.reverse := by simpa using h
    exact List.reverse_infix.mp h'
  obtain ⟨k', pData', hk', heq, e⟩ := HandleRCommentLoop_scan body.reverse 0
    ((b.length + a.length + 4) + 4) [] ('-' :: '-' :: '!' :: '<' :: b)
    ('-' :: '-' :: '>' :: a) false true [] false d rd (by omega) hno'
  have hk0 : k' = 0 := by
    have hlast : body.reverse.getLast? ≠ some '-' := by
      rw [List.getLast?_reverse]; exact hfront
    have hsuf : ¬ (['-', '-', '!'] <:+ body.reverse) := by
      intro h
      apply hbang
      have h' : ['!', '-', '-'].reverse <:+ body.reverse := by simpa using h
      exact List.reverse_suffix.mp h'
    simp only [List.take_zero, List.append_nil, List.nil_append] at heq
    interval_cases k'
    · rfl
    · exfalso
      apply hlast
      rw [← heq]
      simp
    · exfalso
      apply hlast
      rw [← heq]
      simp
    · exfalso
      apply hsuf
      exact ⟨pData', by rw [← heq]; rfl⟩
  subst hk0
  simp only [List.take_zero, List.append_nil, List.nil_append] at heq
  subst heq
  obtain ⟨K, hK⟩ := hasPrevious_step '>'
    ('-' :: '-' :: (body.reverse ++ '-' :: '-' :: '!' :: '<' :: b)) a d rd
  rw [hK, if_pos rfl]
  simp only [HandleRTag, HandleRComment, XMLEventReader.rget, IStream.rget,
    XMLEventReader.setStream, Bool.false_eq_true, if_false, (by decide : ¬ ('-' = '?')),
    (by decide : isspace '-' = false), (by decide : ¬ ('-' = '/')),
    (by decide : ¬ ('-' = '"' ∨ '-' = '\'')), if_true, XMLEventReader.rbudget]
  rw [show (body.reverse ++ '-' :: '-' :: '!' :: '<' :: b).length +
      ('-' :: '-' :: '>' :: a).length + 1 =
      ((b.length + a.length + 4) + 4) + body.reverse.length by simp; omega, e,
    HandleRCommentLoop_end]
  simp

/-- C35. For every comment body that holds no `<!--` and begins neither with a hyphen nor
with `!--`, backward `hasPrevious` with the get position just behind `<!--`, the body and
`-->` queues exactly the event `Comment` with the body as its text, hyphens inside and at
the end of the body included, and leaves the get position on the `<`. When the body does
not end in a hyphen and holds no `-->` either, forward `hasNext` on the same bytes queues
the same event. A body that begins with a hyphen is read otherwise: behind `<!---a-->` at
the begin of the stream `hasPrevious` throws, while `hasNext` reads `Comment("-a")`;
behind `<!--!--a-->` it throws as well, and behind `<!--b--><!---a-->` it reads on to the
`<!--` of the comment in front and queues `Comment("b--><!---a")`. -/
theorem backward_comment_keeps_body (body : Str) (hfront : body.head? ≠ some '-')
    (hbang : ¬ (['!', '-', '-'] <+: body)) (hno : ¬ (['<', '!', '-', '-'] <:+: body))
    (b a : Str) (d rd : List (Str × Str)) :
    hasPrevious ⟨⟨'>' :: '-' :: '-' :: (body.reverse ++ '-' :: '-' :: '!' :: '<' :: b), a,
        false⟩, false, false, [], false, d, rd⟩ =
      .ok true ⟨⟨b, '<' :: '!' :: '-' :: '-' :: (body ++ '-' :: '-' :: '>' :: a), false⟩,
        false, true, [XMLEvent.ofComment ⟨body⟩], false, d, rd⟩ ∧
    (body.getLast? ≠ some '-' →
      firstOccurrence ['-', '-', '>'] (body ++ ['-', '-', '>']) = some body.length →
      hasNext ⟨⟨b, '<' :: '!' :: '-' :: '-' :: (body ++ '-' :: '-' :: '>' :: a), false⟩,
          false, false, [], true, d, rd⟩ =
        .ok true ⟨⟨'>' :: '-' :: '-' :: (body.reverse ++ '-' :: '-' :: '!' :: '<' :: b), a,
          false⟩, true, false, [XMLEvent.ofComment ⟨body⟩], true, d, rd⟩) ∧
    hasPrevious ⟨⟨"<!---a-->".toList.reverse, [], false⟩, false, false, [], false, [], []⟩ =
      .throw (.runtime_error "Comment incomplete.")
        ⟨⟨[], "<!---a-->".toList, false⟩, false, true, [], false, [], []⟩ ∧
    hasNext ⟨⟨[], "<!---a-->".toList, false⟩, false, false, [], true, [], []⟩ =
      .ok true ⟨⟨"<!---a-->".toList.reverse, [], false⟩, true, false,
        [XMLEvent.ofComment ⟨"-a".toList⟩], true, [], []⟩ ∧
    hasPrevious ⟨⟨"<!--!--a-->".toList.reverse, [], false⟩, false, false, [], false, [], []⟩ =
      .throw (.runtime_error "Comment incomplete.")
        ⟨⟨[], "<!--!--a-->".toList, false⟩, false, true, [], false, [], []⟩ ∧
    hasPrevious ⟨⟨"<!--b--><!---a-->".toList.reverse, [], false⟩, false, false, [], false, [],
        []⟩ =
      .ok true ⟨⟨[], "<!--b--><!---a-->".toList, false⟩, false, true,
        [XMLEvent.ofComment ⟨"b--><!---a".toList⟩], false, [], []⟩ :=
  ⟨hasPrevious_comment_body hfront hbang hno b a d rd,
    fun hlast hfirst => hasNext_comment_body hlast hfirst b a d rd,
    by decide, by decide, by decide, by decide⟩

/-- The comment `<!--a--b-c--->` behind `<r/>`: the hyphens of the body stay, the one at
its end too. -/
theorem backward_comment_keeps_body_witness :
    hasPrevious ⟨⟨'>' :: '-' :: '-' :: ("a--b-c-".toList.reverse ++
        '-' :: '-' :: '!' :: '<' :: "<r/>".toList.reverse), [], false⟩, false, false, [],
        false, [], []⟩ =
      .ok true ⟨⟨"<r/>".toList.reverse,
        '<' :: '!' :: '-' :: '-' :: ("a--b-c-".toList ++ '-' :: '-' :: '>' :: []), false⟩,
        false, true, [XMLEvent.ofComment ⟨"a--b-c-".toList⟩], false, [], []⟩ :=
  (backward_comment_keeps_body "a--b-c-".toList (by decide) (by decide) (by decide)
    "<r/>".toList.reverse [] [] []).1

/-! ## Processing instructions and the XML declaration, backwards -/

/-- Two outcomes of backward reading alike from one and the same reader are equal. -/
theorem ralike_self {α : Type} {r : XMLEventReader} {x y : Result α} (h : x.RAlike r r y) :
    x = y := by
  have hst : ∀ r1' r2', RReadAlike r r r1' r2' → r1' = r2' := by
    intro r1' r2' hfin
    obtain ⟨hs, l, -, h2, h3⟩ := hfin
    obtain ⟨⟨b1, a1, e1⟩, hn1, hp1, q1, dir1, d1, rd1⟩ := r1'
    obtain ⟨⟨b2, a2, e2⟩, hn2, hp2, q2, dir2, d2, rd2⟩ := r2'
    obtain ⟨x1, x2, x3, x4, x5, x6, x7, x8, x9, x10, x11⟩ := hs
    simp only at x1 x2 x3 x4 x5 x6 x7 x8 x9 x10 x11 h2 h3
    subst x1 x2 x3 x4 x5 x6 x7 x8 x9 x10 x11
    rw [h2, h3]
  rcases ralike_cases h with ⟨v, r1', r2', rfl, rfl, hfin⟩ | ⟨e, r1', r2', rfl, rfl, hfin⟩
  · rw [hst _ _ hfin]
  · rw [hst _ _ hfin]

/-- The budget of `hasPrevious` does not matter once it exceeds the bytes in front of the
get position. -/
theorem hasPreviousFuel_budget (n m : Nat) (r : XMLEventReader) (hs : SameBehind r r)
    (hn : r.m_aStream.before.length < n) (hm : r.m_aStream.before.length < m) :
    hasPreviousFuel n r = hasPreviousFuel m r :=
  ralike_self (ralike_hasPreviousFuel n m r r hs hn hm)

theorem HandleRProcessingInstructionLoop_finish_xml (m T S : Nat) (t X : Str)
    (hxml : isXmlTarget t = true) (hT : T = t.length) (b a : Str) (hn hp : Bool)
    (q : List XMLEvent) (dir : Bool) (d rd : List (Str × Str)) :
    HandleRProcessingInstructionLoop (m + 2) 0 T S (X ++ t.reverse)
        ⟨⟨'?' :: '<' :: b, a, false⟩, hn, hp, q, dir, d, rd⟩ =
      .ok false ⟨⟨b, '<' :: '?' :: a, false⟩, hn, hp, q, dir, d, rd⟩ := by
  subst hT
  have hlen3 : t.length = 3 := by
    match t, hxml with
    | [_, _, _], _ => rfl
  have hrev : (X ++ t.reverse).reverse = t ++ X.reverse := by simp
  have htake : (t ++ X.reverse).take t.length = t := List.take_left' rfl
  have hlen : ¬ (X ++ t.reverse).length ≤ 0 := by
    rw [List.length_append, List.length_reverse, hlen3]; omega
  have hT0 : ¬ t.length ≤ 0 := by omega
  conv_lhs => unfold HandleRProcessingInstructionLoop
  simp only [XMLEventReader.rget, IStream.rget, XMLEventReader.setStream,
    Bool.false_eq_true, if_false, (by decide : isspace '?' = false), if_true,
    (by decide : (0 : Nat) < 2), Nat.le_refl, and_self]
  conv_lhs => unfold HandleRProcessingInstructionLoop
  simp only [XMLEventReader.rget, IStream.rget, XMLEventReader.setStream,
    Bool.false_eq_true, if_false, (by decide : isspace '<' = false), if_true,
    (by decide : (0 + 1 : Nat) < 2), (by decide : ¬ ('<' = '?')), false_and,
    (by decide : (0 + 1 : Nat) ≤ 1), and_self, hlen, hrev, htake, hxml, hT0]

theorem hasPrevious_step_tag (b a : Str) (d rd : List (Str × Str)) :
    hasPrevious ⟨⟨'>' :: b, a, false⟩, false, false, [], false, d, rd⟩ =
      HandleRTag (hasPreviousFuel (b.length + 1 + a.length))
        ⟨⟨b, '>' :: a, false⟩, false, true, [], false, d, rd⟩ := by
  simp [hasPrevious, XMLEventReader.rbudget, hasPreviousFuel, XMLEventReader.turnBackward,
    XMLEventReader.rget, IStream.rget, XMLEventReader.setStream]

/-- Backward `hasPrevious` behind an XML declaration goes on as `hasPrevious` in front of
it. -/
theorem hasPrevious_xmlDeclaration {t : Str} (hxml : isXmlTarget t = true)
    (ht : ∀ x ∈ t, x ≠ '?' ∧ x ≠ '<' ∧ isspace x = false) (data : Str)
    (hdata : ∀ x ∈ data, x ≠ '?' ∧ x ≠ '<') (b a : Str) (d rd : List (Str × Str)) :
    hasPrevious ⟨⟨'>' :: '?' :: (data.reverse ++ ' ' :: (t.reverse ++ '?' :: '<' :: b)),
        a, false⟩, false, false, [], false, d, rd⟩ =
      hasPrevious ⟨⟨b, '<' :: '?' :: (t ++ ' ' :: (data ++ '?' :: '>' :: a)), false⟩,
        false, false, [], false, d, rd⟩ := by
  obtain ⟨t', s', e1⟩ := HandleRProcessingInstructionLoop_skip_data data.reverse
    (fun x hx => hdata x (List.mem_reverse.mp hx))
    ((b.length + a.length + 3) + 2 + t.reverse.length + 1) 0 0 []
    (' ' :: (t.reverse ++ '?' :: '<' :: b)) ('?' :: '>' :: a) false true [] false d rd
  have e2 := HandleRProcessingInstructionLoop_blank
    ((b.length + a.length + 3) + 2 + t.reverse.length) t' s' ([] ++ data.reverse)
    (t.reverse ++ '?' :: '<' :: b) (data.reverse.reverse ++ '?' :: '>' :: a) false true []
    false d rd
  have e3 := HandleRProcessingInstructionLoop_skip_target t.reverse
    (fun x hx => ht x (List.mem_reverse.mp hx))
    ((b.length + a.length + 3) + 2) 0 (if t' > 0 then 1 else s' + 1)
    ([] ++ data.reverse ++ [' ']) ('?' :: '<' :: b)
    (' ' :: (data.reverse.reverse ++ '?' :: '>' :: a)) false true [] false d rd
  have e4 := HandleRProcessingInstructionLoop_finish_xml (b.length + a.length + 3)
    (0 + t.reverse.length) (if t' > 0 then 1 else s' + 1) t ([] ++ data.reverse ++ [' ']) hxml
    (by simp) b (t.reverse.reverse ++ ' ' :: (data.reverse.reverse ++ '?' :: '>' :: a))
    false true [] false d rd
  rw [hasPrevious_step_tag]
  simp only [HandleRTag, HandleRProcessingInstruction, XMLEventReader.rget, IStream.rget,
    XMLEventReader.setStream, Bool.false_eq_true, if_false, if_true, XMLEventReader.rbudget]
  rw [show (data.reverse ++ ' ' :: (t.reverse ++ '?' :: '<' :: b)).length +
      ('?' :: '>' :: a).length + 1 =
      (b.length + a.length + 3) + 2 + t.reverse.length + 1 + data.reverse.length by
    simp; omega]
  rw [e1, e2, e3, e4, bind_ok]
  simp only [Bool.false_eq_true, if_false, hasPrevious, XMLEventReader.rbudget,
    List.reverse_reverse, List.cons_append, List.append_assoc]
  exact hasPreviousFuel_budget _ _ _
    ⟨rfl, rfl, rfl, rfl, rfl, rfl, rfl, rfl, rfl, rfl, rfl⟩ (by simp; omega) (by simp; omega)

/-- The processing instruction `<?t  d?>`, whose data begins with a blank: backward
`hasPrevious` queues the data `d`, forward `hasNext` the data ` d`. -/
theorem backward_processing_instruction_drops_leading_space :
    hasPrevious ⟨⟨"<?t  d?>".toList.reverse, [], false⟩, false, false, [], false, [], []⟩ =
      .ok true ⟨⟨[], "<?t  d?>".toList, false⟩, false, true,
        [XMLEvent.ofProcessingInstruction ⟨['t'], ['d']⟩], false, [], []⟩ ∧
    hasNext ⟨⟨[], "<?t  d?>".toList, false⟩, false, false, [], true, [], []⟩ =
      .ok true ⟨⟨"<?t  d?>".toList.reverse, [], false⟩, true, false,
        [XMLEvent.ofProcessingInstruction ⟨['t'], [' ', 'd']⟩], true, [], []⟩ := by
  decide

/-- C36, as amended. For every target that begins with a letter and holds no whitespace
and none of `?`, `<`, `>`, and every data string free of `?`, `<` and `>`: when the target
is not `xml` in any letter case and the data does not begin with whitespace, backward
`hasPrevious` with the get position just behind `<?`, the target, a blank, the data and
`?>` queues exactly the event `ProcessingInstruction(target, data)`, whitespace inside and
at the end of the data included, and leaves the get position on the `<`, and forward
`hasNext` on the same bytes queues the same event; when the target is `xml` in some
letter case, `hasPrevious` queues no event for it and goes on as `hasPrevious` called with
the get position on the `<`. -/
theorem backward_processing_instruction (t0 : Char) (ts data : Str) (h0 : isalpha t0 = true)
    (hts : ∀ x ∈ ts, x ≠ '?' ∧ x ≠ '<' ∧ x ≠ '>' ∧ isspace x = false)
    (hdata : ∀ x ∈ data, x ≠ '?' ∧ x ≠ '<' ∧ x ≠ '>') (b a : Str) (d rd : List (Str × Str)) :
    (isXmlTarget (t0 :: ts) = false → (∀ c ∈ data.head?, isspace c = false) →
      hasPrevious ⟨⟨'>' :: '?' :: (data.reverse ++ ' ' :: ((t0 :: ts).reverse ++
          '?' :: '<' :: b)), a, false⟩, false, false, [], false, d, rd⟩ =
        .ok true ⟨⟨b, '<' :: '?' :: t0 :: (ts ++ ' ' :: (data ++ '?' :: '>' :: a)), false⟩,
          false, true, [XMLEvent.ofProcessingInstruction ⟨t0 :: ts, data⟩], false, d, rd⟩ ∧
      hasNext ⟨⟨b, '<' :: '?' :: t0 :: (ts ++ ' ' :: (data ++ '?' :: '>' :: a)), false⟩,
          false, false, [], true, d, rd⟩ =
        .ok true ⟨⟨'>' :: '?' :: (data.reverse ++ ' ' :: (ts.reverse ++ t0 :: '?' :: '<' :: b)),
            a, false⟩, true, false,
          [XMLEvent.ofProcessingInstruction ⟨t0 :: ts, data⟩], true, d, rd⟩) ∧
    (isXmlTarget (t0 :: ts) = true →
      hasPrevious ⟨⟨'>' :: '?' :: (data.reverse ++ ' ' :: ((t0 :: ts).reverse ++
          '?' :: '<' :: b)), a, false⟩, false, false, [], false, d, rd⟩ =
        hasPrevious ⟨⟨b, '<' :: '?' :: ((t0 :: ts) ++ ' ' :: (data ++ '?' :: '>' :: a)), false⟩,
          false, false, [], false, d, rd⟩) := by
  have ht : ∀ x ∈ t0 :: ts, x ≠ '?' ∧ x ≠ '<' ∧ isspace x = false := by
    intro x hx
    rcases List.mem_cons.mp hx with rfl | hx
    · obtain ⟨h1, h2, -, -, -, -, -, -, h9, -⟩ := isalnum_not_special (isalpha_isalnum h0)
      exact ⟨h9, h2, h1⟩
    · exact ⟨(hts x hx).1, (hts x hx).2.1, (hts x hx).2.2.2⟩
  refine ⟨fun hxml hhead => ⟨?_, ?_⟩, fun hxml => ?_⟩
  · exact hasPrevious_processingInstruction h0 ts
      (fun x hx => ⟨(hts x hx).1, (hts x hx).2.1, (hts x hx).2.2.2⟩) hxml data
      (fun x hx => ⟨(hdata x hx).1, (hdata x hx).2.1⟩) hhead b a d rd
  · exact hasNext_processingInstruction h0 ts
      (fun x hx => ⟨(hts x hx).1, (hts x hx).2.2.1, (hts x hx).2.2.2⟩) hxml data
      (fun x hx => ⟨(hdata x hx).1, (hdata x hx).2.2⟩) b a d rd
  · exact hasPrevious_xmlDeclaration hxml ht data
      (fun x hx => ⟨(hdata x hx).1, (hdata x hx).2.1⟩) b a d rd

/-- The processing instruction `<?pi a b ?>` behind `<r>`, and the declaration
`<?xml version="1.0"?>` behind `<r>`, where `hasPrevious` reads the start tag. -/
theorem backward_processing_instruction_witness :
    hasPrevious ⟨⟨'>' :: '?' :: ("a b ".toList.reverse ++ ' ' :: ("pi".toList.reverse ++
        '?' :: '<' :: "<r>".toList.reverse)), [], false⟩, false, false, [], false, [], []⟩ =
      .ok true ⟨⟨"<r>".toList.reverse,
        '<' :: '?' :: 'p' :: ("i".toList ++ ' ' :: ("a b ".toList ++ '?' :: '>' :: [])), false⟩,
        false, true, [XMLEvent.ofProcessingInstruction ⟨"pi".toList, "a b ".toList⟩], false,
        [], []⟩ ∧
    hasPrevious ⟨⟨'>' :: '?' :: ("version=\"1.0\"".toList.reverse ++
        ' ' :: ("xml".toList.reverse ++ '?' :: '<' :: "<r>".toList.reverse)), [], false⟩,
        false, false, [], false, [], []⟩ =
      hasPrevious ⟨⟨"<r>".toList.reverse,
        '<' :: '?' :: ("xml".toList ++ ' ' :: ("version=\"1.0\"".toList ++ '?' :: '>' :: [])),
        false⟩, false, false, [], false, [], []⟩ :=
  ⟨((backward_processing_instruction 'p' "i".toList "a b ".toList (by decide) (by decide)
      (by decide) "<r>".toList.reverse [] [] []).1 (by decide) (by decide)).1,
    (backward_processing_instruction 'x' "ml".toList "version=\"1.0\"".toList (by decide)
      (by decide) (by decide) "<r>".toList.reverse [] [] []).2 (by decide)⟩

/-! ## Tag names, backwards -/

/-- Names of the forward start-tag grammar the backward reader does not read: `p:-x`,
whose local part begins with a hyphen, `p:`, whose local part is empty, and `a--`, whose
end reads as the end of a comment. Forward `hasNext` queues `StartElement` for `<p:-x>`
and `<a-->`, backward `hasPrevious` throws behind them, and behind `</p:-x>` and
`<p:>`. -/
theorem backward_rejects_forward_names :
    validName "p:-x".toList = true ∧ validName "a--".toList = true ∧
    validName "p:".toList = true ∧
    hasNext ⟨⟨[], "<p:-x>".toList, false⟩, false, false, [], true, [], []⟩ =
      .ok true ⟨⟨"<p:-x>".toList.reverse, [], false⟩, true, false,
        [XMLEvent.ofStartElement ⟨QName.mk [] "-x".toList "p".toList, []⟩], true, [], []⟩ ∧
    hasPrevious ⟨⟨"<p:-x>".toList.reverse, [], false⟩, false, false, [], false, [], []⟩ =
      .throw (.runtime_error "Tag name malformed.")
        ⟨⟨[], "<p:-x>".toList, false⟩, false, true, [], false, [], []⟩ ∧
    hasPrevious ⟨⟨"</p:-x>".toList.reverse, [], false⟩, false, false, [], false, [], []⟩ =
      .throw (.runtime_error "Tag name malformed.")
        ⟨⟨['<'], "/p:-x>".toList, false⟩, false, true, [], false, [], []⟩ ∧
    hasNext ⟨⟨[], "<a-->".toList, false⟩, false, false, [], true, [], []⟩ =
      .ok true ⟨⟨"<a-->".toList.reverse, [], false⟩, true, false,
        [XMLEvent.ofStartElement ⟨QName.mk [] "a--".toList [], []⟩], true, [], []⟩ ∧
    hasPrevious ⟨⟨"<a-->".toList.reverse, [], false⟩, false, false, [], false, [], []⟩ =
      .throw (.runtime_error "Comment incomplete.")
        ⟨⟨[], "<a-->".toList, false⟩, false, true, [], false, [], []⟩ ∧
    hasPrevious ⟨⟨"<p:>".toList.reverse, [], false⟩, false, false, [], false, [], []⟩ =
      .throw (.runtime_error "Unknown byte within element name.")
        ⟨⟨"<p".toList.reverse, ":>".toList, false⟩, false, true, [], false, [], []⟩ := by
  decide

/-- C37, as amended. For every element name of the forward start-tag grammar whose local
part is not empty and begins with a letter, a digit or `_`, and which does not end in
`--`: backward `hasPrevious` with the get position just behind `<n>` queues exactly
`StartElement(n)` without attributes, and with the get position just behind `</n>`
exactly `EndElement(n)`, in both cases with prefix and local part as forward `hasNext`
gives them on the same bytes, and leaves the get position on the `<`. -/
theorem backward_tag_names (n : Str) (h : reversibleName n = true) (b a : Str)
    (d rd : List (Str × Str)) :
    hasPrevious ⟨⟨'>' :: n.reverse ++ '<' :: b, a, false⟩, false, false, [], false, d, rd⟩ =
      .ok true ⟨⟨b, '<' :: n ++ '>' :: a, false⟩, false, true,
        [XMLEvent.ofStartElement ⟨qnameOf n, []⟩], false, d, rd⟩ ∧
    hasNext ⟨⟨b, '<' :: n ++ '>' :: a, false⟩, false, false, [], true, d, rd⟩ =
      .ok true ⟨⟨'>' :: n.reverse ++ '<' :: b, a, false⟩, true, false,
        [XMLEvent.ofStartElement ⟨qnameOf n, []⟩], true, d, rd⟩ ∧
    hasPrevious ⟨⟨'>' :: n.reverse ++ '/' :: '<' :: b, a, false⟩, false, false, [], false, d,
        rd⟩ =
      .ok true ⟨⟨b, '<' :: '/' :: n ++ '>' :: a, false⟩, false, true,
        [XMLEvent.ofEndElement ⟨qnameOf n⟩], false, d, rd⟩ ∧
    hasNext ⟨⟨b, '<' :: '/' :: n ++ '>' :: a, false⟩, false, false, [], true, d, rd⟩ =
      .ok true ⟨⟨'>' :: n.reverse ++ '/' :: '<' :: b, a, false⟩, true, false,
        [XMLEvent.ofEndElement ⟨qnameOf n⟩], true, d, rd⟩ := by
  have hv : validName n = true := by
    simp only [reversibleName, Bool.and_eq_true] at h
    exact h.1.1
  exact ⟨hasPrevious_startTag h b a d rd, hasNext_startTag hv b a d rd,
    hasPrevious_endTag h b a d rd, hasNext_endTag hv b a d rd⟩

/-- The tags `<x-1:a.b->` and `</x-1:a.b->` behind `t`. -/
theorem backward_tag_names_witness :
    hasPrevious ⟨⟨'>' :: "x-1:a.b-".toList.reverse ++ '<' :: ['t'], [], false⟩, false, false,
        [], false, [], []⟩ =
      .ok true ⟨⟨['t'], '<' :: "x-1:a.b-".toList ++ '>' :: [], false⟩, false, true,
        [XMLEvent.ofStartElement ⟨qnameOf "x-1:a.b-".toList, []⟩], false, [], []⟩ ∧
    qnameOf "x-1:a.b-".toList = QName.mk [] "a.b-".toList "x-1".toList :=
  ⟨(backward_tag_names "x-1:a.b-".toList (by decide) ['t'] [] [] []).1, by decide⟩

/-! ## How many events one token queues -/

theorem AttributeWritten.reversible_parts {x : AttributeWritten} (h : x.reversible = true) :
    isSpaceRun x.space = true ∧ reversibleAttributeName x.name = true ∧
      (∀ c ∈ x.spaceBeforeEquals, isspace c = true) ∧
      (∀ c ∈ x.spaceAfterEquals, isspace c = true) ∧
      (x.delimiter = '"' ∨ x.delimiter = '\'') ∧
      bytesAll (fun c => decide (c ≠ x.delimiter) && decide (c ≠ '&')) x.value = true := by
  simp only [AttributeWritten.reversible, Bool.and_eq_true, List.all_eq_true, Bool.or_eq_true,
    decide_eq_true_eq] at h
  exact ⟨h.1.1.1.1.1, h.1.1.1.1.2, h.1.1.1.2, h.1.1.2, h.1.2, h.2⟩

/-- The forward value loop reads the pieces of a value up to the closing delimiter. -/
theorem HandleAttributeValueLoop_text {cDelimiter : Char}
    (hdl : cDelimiter = '"' ∨ cDelimiter = '\'') {d rd : List (Str × Str)}
    (hd : knowsEntities d rd) (v : List TextPiece)
    (hv : bytesAll (fun c => decide (c ≠ cDelimiter) && decide (c ≠ '&')) v = true) :
    ∀ (n : Nat) (pValue b rest : Str) (hn hp : Bool) (q : List XMLEvent) (dir : Bool),
      v.length < n →
      HandleAttributeValueLoop n cDelimiter pValue
          ⟨⟨b, renderText v ++ cDelimiter :: rest, false⟩, hn, hp, q, dir, d, rd⟩ =
        .ok (pValue ++ textData v)
          ⟨⟨cDelimiter :: ((renderText v).reverse ++ b), rest, false⟩, hn, hp, q, dir, d, rd⟩ := by
  induction v with
  | nil =>
    intro n pValue b rest hn hp q dir hlt
    cases n with
    | zero => omega
    | succ n =>
      simp [renderText, textData, HandleAttributeValueLoop, XMLEventReader.get,
        IStream.get, XMLEventReader.setStream]
  | cons x v ih =>
    intro n pValue b rest hn hp q dir hlt
    have hv' := bytesAll_cons hv
    cases n with
    | zero => omega
    | succ n =>
      cases x with
      | byte c =>
        have hc := bytesAll_byte hv
        simp only [Bool.and_eq_true, decide_eq_true_eq] at hc
        have ih' := ih hv' n (pValue ++ [c]) (c :: b) rest hn hp q dir
          (by simp at hlt ⊢; omega)
        simp [renderText, textData, TextPiece.render, TextPiece.data, HandleAttributeValueLoop,
          XMLEventReader.get, IStream.get, XMLEventReader.setStream, hc.1, hc.2] at ih' ⊢
        exact ih'
      | reference e =>
        have ih' := ih hv' n (pValue ++ e.replacement)
          (';' :: (e.name.reverse ++ '&' :: b)) rest hn hp q dir (by simp at hlt ⊢; omega)
        have e1 := ResolveEntity_reference e ('&' :: b) (renderText v ++ cDelimiter :: rest)
          hn hp q dir hd
        have hda' : ¬ ('&' = cDelimiter) := by rcases hdl with rfl | rfl <;> decide
        simp only [renderText, textData, TextPiece.render, TextPiece.data, List.flatMap_cons,
          List.cons_append, List.append_assoc, HandleAttributeValueLoop, XMLEventReader.get,
          IStream.get, XMLEventReader.setStream, Bool.false_eq_true, if_false, hda',
          if_true, List.nil_append, List.singleton_append] at ih' e1 ⊢
        rw [e1, bind_ok, ih']
        simp

/-- The forward reader skips the whitespace in front of a value and reads the value
between its delimiters. -/
theorem HandleAttributeValue_text {cDelimiter : Char}
    (hdl : cDelimiter = '"' ∨ cDelimiter = '\'') {d rd : List (Str × Str)}
    (hd : knowsEntities d rd) (s : Str) (hs : ∀ c ∈ s, isspace c = true) (v : List TextPiece)
    (hv : bytesAll (fun c => decide (c ≠ cDelimiter) && decide (c ≠ '&')) v = true)
    (b rest : Str) (hn hp : Bool) (q : List XMLEvent) (dir : Bool) :
    HandleAttributeValue
        ⟨⟨b, s ++ cDelimiter :: (renderText v ++ cDelimiter :: rest), false⟩, hn, hp, q, dir,
          d, rd⟩ =
      .ok (textData v)
        ⟨⟨cDelimiter :: ((renderText v).reverse ++ cDelimiter :: (s.reverse ++ b)), rest,
          false⟩, hn, hp, q, dir, d, rd⟩ := by
  have hsp : isspace cDelimiter = false := by rcases hdl with rfl | rfl <;> decide
  have h0 : cDelimiter ≠ '\x00' := by rcases hdl with rfl | rfl <;> decide
  have hq : ¬ (cDelimiter ≠ '\'' ∧ cDelimiter ≠ '"') := by rcases hdl with rfl | rfl <;> decide
  have hlen := renderText_length_ge v
  have e1 := ConsumeWhitespace_run hsp s hs b (renderText v ++ cDelimiter :: rest) hn hp q dir
    d rd
  have e2 := HandleAttributeValueLoop_text hdl hd v hv
    ((renderText v ++ cDelimiter :: rest).length + 1) []
    (cDelimiter :: (s.reverse ++ b)) rest hn hp q dir (by simp; omega)
  unfold HandleAttributeValue
  rw [e1, bind_ok]
  simp only [h0, if_false, hq, XMLEventReader.budget]
  simpa using e2

/-- Behind the first byte of its name, the forward reader reads an attribute up to the
closing delimiter of its value. -/
theorem HandleAttribute_written {d rd : List (Str × Str)} (hd : knowsEntities d rd)
    {x : AttributeWritten} (h : x.reversible = true) {c0 : Char} {cs : Str}
    (hcs : x.name = c0 :: cs) (b rest : Str) (hn hp : Bool) (q : List XMLEvent) (dir : Bool)
    (K : Attribute → XMLEventReader → Result (List Attribute)) :
    ((HandleAttributeName c0
        ⟨⟨c0 :: b, cs ++ (x.spaceBeforeEquals ++ '=' :: (x.spaceAfterEquals ++
          x.delimiter :: (renderText x.value ++ x.delimiter :: rest))), false⟩,
          hn, hp, q, dir, d, rd⟩).bind fun pAttributeName r =>
        (HandleAttributeValue r).bind fun pAttributeValue r =>
          K (Attribute.mk pAttributeName pAttributeValue) r) =
      K x.attribute
        ⟨⟨x.delimiter :: ((renderText x.value).reverse ++ x.delimiter ::
          (x.spaceAfterEquals.reverse ++ '=' :: (x.spaceBeforeEquals.reverse ++
            (x.name.reverse ++ b)))), rest, false⟩, hn, hp, q, dir, d, rd⟩ := by
  obtain ⟨-, h1, h2, h3, h4, h5⟩ := AttributeWritten.reversible_parts h
  have hv := (reversibleAttributeName_split h1).1
  rw [hcs] at hv
  obtain ⟨p, loc, hq, hscan⟩ := HandleAttributeName_scan hv
  have e1 := HandleAttributeNameLoop_space_equals
    (x.spaceBeforeEquals ++ (x.spaceAfterEquals ++
      x.delimiter :: (renderText x.value ++ x.delimiter :: rest))).length p loc
    x.spaceBeforeEquals h2 (cs.reverse ++ c0 :: b) (x.spaceAfterEquals ++
      x.delimiter :: (renderText x.value ++ x.delimiter :: rest)) hn hp q dir d rd
  have e2 := HandleAttributeValue_text h4 hd x.spaceAfterEquals h3 x.value h5
    ('=' :: (x.spaceBeforeEquals.reverse ++ (cs.reverse ++ c0 :: b))) rest hn hp q dir
  rw [hscan, show (x.spaceBeforeEquals ++ '=' :: (x.spaceAfterEquals ++
      x.delimiter :: (renderText x.value ++ x.delimiter :: rest))).length + 1 =
    (x.spaceBeforeEquals ++ (x.spaceAfterEquals ++
      x.delimiter :: (renderText x.value ++ x.delimiter :: rest))).length + 2 by simp; omega,
    e1, bind_ok, e2, bind_ok, hq]
  simp [AttributeWritten.attribute, hcs]

theorem AttributeWritten.render_step (x : AttributeWritten) :
    x.render = x.space ++ (x.name ++ (x.spaceBeforeEquals ++ '=' :: (x.spaceAfterEquals ++
      x.delimiter :: (renderText x.value ++ [x.delimiter])))) := rfl

theorem AttributeWritten.render_mirror (x : AttributeWritten) :
    x.render.reverse =
      x.delimiter :: ((renderText x.value).reverse ++ x.delimiter ::
        (x.spaceAfterEquals.reverse ++ '=' :: (x.spaceBeforeEquals.reverse ++
          (x.name.reverse ++ x.space.reverse)))) := by
  simp [AttributeWritten.render]

/-- The forward loop over the attributes of a tag reads the whitespace and one
attribute. -/
theorem HandleAttributesLoop_written {d rd : List (Str × Str)} (hd : knowsEntities d rd)
    {x : AttributeWritten} (h : x.reversible = true) (n : Nat)
    (acc : List Attribute) (b rest : Str) (hn hp : Bool) (q : List XMLEvent) (dir : Bool) :
    HandleAttributesLoop (n + 1 + x.space.length) acc
        ⟨⟨b, x.render ++ rest, false⟩, hn, hp, q, dir, d, rd⟩ =
      HandleAttributesLoop n (acc ++ [x.attribute])
        ⟨⟨x.render.reverse ++ b, rest, false⟩, hn, hp, q, dir, d, rd⟩ := by
  obtain ⟨h0, h1, -, -, -, -⟩ := AttributeWritten.reversible_parts h
  have hsp : ∀ c ∈ x.space, isspace c = true := by
    simp only [isSpaceRun, Bool.and_eq_true, List.all_eq_true] at h0
    exact h0.2
  obtain ⟨c0, cs, hcs, hs0, hgt0, hsl0⟩ :=
    validAttributeName_first (reversibleAttributeName_split h1).1
  have one := HandleAttribute_written hd h hcs (x.space.reverse ++ b) rest hn hp q dir
    (fun a r => HandleAttributesLoop n (acc ++ [a]) r)
  rw [AttributeWritten.render_mirror]
  simp only [AttributeWritten.render, List.append_assoc, List.singleton_append,
    List.cons_append, List.nil_append]
  rw [HandleAttributesLoop_space x.space hsp, hcs]
  conv_lhs => unfold HandleAttributesLoop
  simp only [XMLEventReader.get, IStream.get, XMLEventReader.setStream, List.cons_append,
    Bool.false_eq_true, if_false, hgt0, hsl0, hs0, List.nil_append]
  simp only [List.cons_append, List.append_assoc] at one
  rw [one]
  simp [hcs]

theorem renderWritten_cons (x : AttributeWritten) (l : List AttributeWritten) :
    renderWritten (x :: l) = x.render ++ renderWritten l := by
  simp [renderWritten]

theorem renderWritten_append (l1 l2 : List AttributeWritten) :
    renderWritten (l1 ++ l2) = renderWritten l1 ++ renderWritten l2 := by
  simp [renderWritten]

theorem AttributeWritten.render_size (x : AttributeWritten) :
    x.space.length + 3 ≤ x.render.length := by
  simp [AttributeWritten.render]; omega

theorem renderWritten_length_ge (l : List AttributeWritten) :
    l.length ≤ (renderWritten l).length := by
  induction l with
  | nil => simp
  | cons x l ih =>
    have := AttributeWritten.render_size x
    rw [renderWritten_cons, List.length_append, List.length_cons]
    omega

/-- The forward loop over the attributes of a tag reads them all, skips the whitespace
behind the last and stops in front of the `>` or `/>`. -/
theorem HandleAttributesLoop_writtens {d rd : List (Str × Str)} (hd : knowsEntities d rd)
    (l : List AttributeWritten) (hl : ∀ x ∈ l, x.reversible = true) (space : Str)
    (hspace : ∀ c ∈ space, isspace c = true) :
    ∀ (n : Nat) (acc : List Attribute) (b rest : Str) (hn hp : Bool) (q : List XMLEvent)
      (dir : Bool),
      (∃ rest', rest = '>' :: rest' ∨ rest = '/' :: '>' :: rest') →
      (renderWritten l ++ space).length < n →
      HandleAttributesLoop n acc
          ⟨⟨b, renderWritten l ++ (space ++ rest), false⟩, hn, hp, q, dir, d, rd⟩ =
        .ok (acc ++ l.map AttributeWritten.attribute)
          ⟨⟨space.reverse ++ ((renderWritten l).reverse ++ b), rest, false⟩,
            hn, hp, q, dir, d, rd⟩ := by
  induction l with
  | nil =>
    intro n acc b rest hn hp q dir hrest hlt
    obtain ⟨m, rfl⟩ : ∃ m, n = (m + 1) + space.length := ⟨n - 1 - space.length, by
      simp [renderWritten] at hlt; omega⟩
    simp only [renderWritten, List.flatMap_nil, List.nil_append, List.reverse_nil,
      List.map_nil, List.append_nil]
    rw [HandleAttributesLoop_space space hspace]
    obtain ⟨rest', rfl | rfl⟩ := hrest
    · simp [HandleAttributesLoop, XMLEventReader.get, IStream.get,
        XMLEventReader.setStream, XMLEventReader.unget, IStream.unget]
    · simp [HandleAttributesLoop, XMLEventReader.get, IStream.get,
        XMLEventReader.setStream, XMLEventReader.unget, IStream.unget]
  | cons x l ih =>
    intro n acc b rest hn hp q dir hrest hlt
    have hx := hl x (by simp)
    have hlen := AttributeWritten.render_size x
    rw [renderWritten_cons] at hlt ⊢
    obtain ⟨m, rfl⟩ : ∃ m, n = m + 1 + x.space.length :=
      ⟨n - 1 - x.space.length, by simp at hlt; omega⟩
    rw [List.append_assoc, HandleAttributesLoop_written hd hx,
      ih (fun y hy => hl y (by simp [hy])) m _ _ rest hn hp q dir hrest
        (by simp at hlt ⊢; omega)]
    simp

/-- Behind the first whitespace byte that ends the tag name, the forward reader reads the
attributes of the tag and the whitespace behind them up to the `>` or `/>`. -/
theorem HandleTagStartSpace_written {d rd : List (Str × Str)} (hd : knowsEntities d rd)
    (x : AttributeWritten) (l : List AttributeWritten)
    (hl : ∀ y ∈ x :: l, y.reversible = true) {c : Char} {s : Str} (hsp : x.space = c :: s)
    (space : Str) (hspace : ∀ c ∈ space, isspace c = true)
    (n : Nat) (b rest : Str)
    (hrest : ∃ rest', rest = '>' :: rest' ∨ rest = '/' :: '>' :: rest')
    (hn hp : Bool) (q : List XMLEvent) (dir : Bool) :
    HandleTagStartSpace (n + 1 + s.length) []
        ⟨⟨c :: b, s ++ (x.name ++ (x.spaceBeforeEquals ++ '=' :: (x.spaceAfterEquals ++
          x.delimiter :: (renderText x.value ++ x.delimiter ::
            (renderWritten l ++ (space ++ rest)))))), false⟩, hn, hp, q, dir, d, rd⟩ =
      .ok ((x :: l).map AttributeWritten.attribute)
        ⟨⟨space.reverse ++ ((renderWritten (x :: l)).reverse ++ b), rest, false⟩,
          hn, hp, q, dir, d, rd⟩ := by
  have hx := hl x (by simp)
  obtain ⟨h0, h1, -, -, -, -⟩ := AttributeWritten.reversible_parts hx
  have hs : ∀ y ∈ s, isspace y = true := by
    simp only [isSpaceRun, Bool.and_eq_true, List.all_eq_true] at h0
    exact fun y hy => h0.2 y (by rw [hsp]; simp [hy])
  obtain ⟨c0, cs, hcs, hs0, hgt0, hsl0⟩ :=
    validAttributeName_first (reversibleAttributeName_split h1).1
  have one := HandleAttribute_written hd hx hcs (s.reverse ++ c :: b)
    (renderWritten l ++ (space ++ rest))
    hn hp q dir (fun a r => HandleAttributesLoop r.budget ([] ++ [a]) r)
  have e3 := HandleAttributesLoop_writtens hd l (fun y hy => hl y (by simp [hy])) space hspace
    ((renderWritten l ++ (space ++ rest)).length + 1) [x.attribute]
    (x.delimiter :: ((renderText x.value).reverse ++ x.delimiter ::
      (x.spaceAfterEquals.reverse ++ '=' :: (x.spaceBeforeEquals.reverse ++
        (x.name.reverse ++ (s.reverse ++ c :: b))))))
    rest hn hp q dir hrest (by
      obtain ⟨rest', rfl | rfl⟩ := hrest <;> simp <;> omega)
  rw [HandleTagStartSpace_space s hs, hcs]
  conv_lhs => unfold HandleTagStartSpace
  simp only [XMLEventReader.get, IStream.get, XMLEventReader.setStream, List.cons_append,
    Bool.false_eq_true, if_false, hgt0, hsl0, hs0, HandleAttributes]
  simp only [List.cons_append, List.append_assoc] at one
  rw [one]
  simp only [XMLEventReader.budget, List.nil_append]
  rw [e3]
  simp [renderWritten_cons, AttributeWritten.render, hsp, hcs]

theorem AttributeWritten.space_step {x : AttributeWritten} (h : x.reversible = true) :
    ∃ c s, x.space = c :: s ∧ isspace c = true := by
  obtain ⟨h0, -⟩ := AttributeWritten.reversible_parts h
  simp only [isSpaceRun, Bool.and_eq_true, List.all_eq_true, Bool.not_eq_true',
    List.isEmpty_eq_false] at h0
  cases hs : x.space with
  | nil => exact absurd hs (by simpa using h0.1)
  | cons c s => exact ⟨c, s, rfl, h0.2 c (by rw [hs]; simp)⟩

/-- The forward start-tag loop behind a name with attributes: `>` ends a start tag. -/
theorem HandleTagStartNext_written_close {d rd : List (Str × Str)} (hd : knowsEntities d rd)
    (x : AttributeWritten) (l : List AttributeWritten)
    (hl : ∀ y ∈ x :: l, y.reversible = true) (space : Str)
    (hspace : ∀ c ∈ space, isspace c = true) (m : Nat) (p : Option Str) {loc : Str}
    (hloc : loc ≠ []) (b rest : Str) (hn hp : Bool) (q : List XMLEvent) (dir : Bool) :
    HandleTagStartNext (m + 2) p loc []
        ⟨⟨b, renderWritten (x :: l) ++ (space ++ '>' :: rest), false⟩,
          hn, hp, q, dir, d, rd⟩ =
      .ok true ⟨⟨'>' :: (space.reverse ++ ((renderWritten (x :: l)).reverse ++ b)), rest,
          false⟩, hn, hp,
        q ++ [startEvent p loc ((x :: l).map AttributeWritten.attribute)], dir, d, rd⟩ := by
  obtain ⟨c, s, hsp, hc⟩ := AttributeWritten.space_step (hl x (by simp))
  obtain ⟨hc1, hc2, hc3⟩ := space_first hc
  have e := HandleTagStartSpace_written hd x l hl hsp space hspace
    (x.name ++ (x.spaceBeforeEquals ++ '=' :: (x.spaceAfterEquals ++
      x.delimiter :: (renderText x.value ++ x.delimiter ::
        (renderWritten l ++ (space ++ '>' :: rest)))))).length b ('>' :: rest)
    ⟨rest, Or.inl rfl⟩ hn hp q dir
  have hlen : ¬ loc.length ≤ 0 := by
    have := List.length_pos.mpr hloc
    omega
  simp only [HandleTagStartNext, renderWritten_cons, AttributeWritten.render, hsp,
    List.cons_append, List.append_assoc, List.singleton_append, List.nil_append,
    XMLEventReader.get, IStream.get, XMLEventReader.setStream, Bool.false_eq_true, if_false,
    HandleTagStartLoop, hc1, hc2, hc3, hc, if_true, hlen, XMLEventReader.budget]
  rw [show (s ++ (x.name ++ (x.spaceBeforeEquals ++ '=' :: (x.spaceAfterEquals ++
      x.delimiter :: (renderText x.value ++ x.delimiter ::
        (renderWritten l ++ (space ++ '>' :: rest))))))).length + 1 =
      (x.name ++ (x.spaceBeforeEquals ++ '=' :: (x.spaceAfterEquals ++
      x.delimiter :: (renderText x.value ++ x.delimiter ::
        (renderWritten l ++ (space ++ '>' :: rest)))))).length + 1 + s.length by
    simp; omega, e, bind_ok]
  simp [XMLEventReader.get, IStream.get, XMLEventReader.setStream, HandleTagStartLoop,
    XMLEventReader.push, renderWritten_cons, AttributeWritten.render, hsp]

/-- The forward start-tag loop behind a name with attributes: `/>` ends a self-closing
tag. -/
theorem HandleTagStartNext_written_empty {d rd : List (Str × Str)} (hd : knowsEntities d rd)
    (x : AttributeWritten) (l : List AttributeWritten)
    (hl : ∀ y ∈ x :: l, y.reversible = true) (space : Str)
    (hspace : ∀ c ∈ space, isspace c = true) (m : Nat) (p : Option Str) {loc : Str}
    (hloc : loc ≠ []) (b rest : Str) (hn hp : Bool) (q : List XMLEvent) (dir : Bool) :
    HandleTagStartNext (m + 2) p loc []
        ⟨⟨b, renderWritten (x :: l) ++ (space ++ '/' :: '>' :: rest), false⟩,
          hn, hp, q, dir, d, rd⟩ =
      .ok true ⟨⟨'>' :: '/' :: (space.reverse ++ ((renderWritten (x :: l)).reverse ++ b)),
          rest, false⟩, hn, hp,
        q ++ [startEvent p loc ((x :: l).map AttributeWritten.attribute), endEvent p loc],
        dir, d, rd⟩ := by
  obtain ⟨c, s, hsp, hc⟩ := AttributeWritten.space_step (hl x (by simp))
  obtain ⟨hc1, hc2, hc3⟩ := space_first hc
  have e := HandleTagStartSpace_written hd x l hl hsp space hspace
    (x.name ++ (x.spaceBeforeEquals ++ '=' :: (x.spaceAfterEquals ++
      x.delimiter :: (renderText x.value ++ x.delimiter ::
        (renderWritten l ++ (space ++ '/' :: '>' :: rest)))))).length b ('/' :: '>' :: rest)
    ⟨rest, Or.inr rfl⟩ hn hp q dir
  have hlen : ¬ loc.length ≤ 0 := by
    have := List.length_pos.mpr hloc
    omega
  simp only [HandleTagStartNext, renderWritten_cons, AttributeWritten.render, hsp,
    List.cons_append, List.append_assoc, List.singleton_append, List.nil_append,
    XMLEventReader.get, IStream.get, XMLEventReader.setStream, Bool.false_eq_true, if_false,
    HandleTagStartLoop, hc1, hc2, hc3, hc, if_true, hlen, XMLEventReader.budget]
  rw [show (s ++ (x.name ++ (x.spaceBeforeEquals ++ '=' :: (x.spaceAfterEquals ++
      x.delimiter :: (renderText x.value ++ x.delimiter ::
        (renderWritten l ++ (space ++ '/' :: '>' :: rest))))))).length + 1 =
      (x.name ++ (x.spaceBeforeEquals ++ '=' :: (x.spaceAfterEquals ++
      x.delimiter :: (renderText x.value ++ x.delimiter ::
        (renderWritten l ++ (space ++ '/' :: '>' :: rest)))))).length + 1 + s.length by
    simp; omega, e, bind_ok]
  simp [XMLEventReader.get, IStream.get, XMLEventReader.setStream, HandleTagStartLoop,
    XMLEventReader.push, renderWritten_cons, AttributeWritten.render, hsp]

theorem backwardName_localPart {n : Str} (h : backwardName n = true) :
    (qnameOf n).m_strLocalPart ≠ [] := by
  simp only [backwardName, Bool.and_eq_true] at h
  intro h0
  rw [h0] at h
  simp at h

/-- Forward `hasNext` in front of a start tag with attributes, written with all the
whitespace the reader allows. -/
theorem hasNext_startTag_written {d rd : List (Str × Str)} (hd : knowsEntities d rd)
    {n : Str} (h : backwardName n = true)
    (l : List AttributeWritten) (hl : ∀ y ∈ l, y.reversible = true) (hne : l ≠ [])
    (space : Str) (hspace : ∀ c ∈ space, isspace c = true) (b rest : Str) :
    hasNext ⟨⟨b, '<' :: n ++ (renderWritten l ++ (space ++ '>' :: rest)), false⟩,
        false, false, [], true, d, rd⟩ =
      .ok true ⟨⟨'>' :: (space.reverse ++ ((renderWritten l).reverse ++
          (n.reverse ++ '<' :: b))), rest, false⟩, true, false,
        [XMLEvent.ofStartElement ⟨qnameOf n, l.map AttributeWritten.attribute⟩], true,
        d, rd⟩ := by
  have hloc := backwardName_localPart h
  have hv := (backwardName_split h).1
  obtain ⟨x, xs, rfl⟩ : ∃ x xs, l = x :: xs := by
    cases l with
    | nil => exact absurd rfl hne
    | cons x xs => exact ⟨x, xs, rfl⟩
  obtain ⟨c0, cs, rfl, h0, -⟩ := validName_split hv
  obtain ⟨p, loc, hq, hscan⟩ := HandleTagStartNext_name hv
  have hloc' : loc ≠ [] := by
    have := congrArg QName.m_strLocalPart hq
    simp only at this
    rw [this]
    exact hloc
  have hlen := AttributeWritten.render_size x
  rw [List.cons_append, hasNext_step, if_pos rfl, List.cons_append, HandleTag_nameStart _ h0,
    HandleTagStart_eq_next]
  obtain ⟨m, hm⟩ : ∃ m, (cs ++ (renderWritten (x :: xs) ++ (space ++ '>' :: rest))).length =
      (m + 2) + cs.length :=
    ⟨(renderWritten (x :: xs) ++ (space ++ '>' :: rest)).length - 2, by
      simp [renderWritten_cons] at hlen ⊢; omega⟩
  rw [hm, hscan, HandleTagStartNext_written_close hd x xs hl space hspace m p hloc']
  simp [startEvent, hq]

/-- Forward `hasNext` in front of a self-closing tag with attributes, written with all the
whitespace the reader allows. -/
theorem hasNext_emptyTag_written {d rd : List (Str × Str)} (hd : knowsEntities d rd)
    {n : Str} (h : backwardName n = true)
    (l : List AttributeWritten) (hl : ∀ y ∈ l, y.reversible = true) (hne : l ≠ [])
    (space : Str) (hspace : ∀ c ∈ space, isspace c = true) (b rest : Str) :
    hasNext ⟨⟨b, '<' :: n ++ (renderWritten l ++ (space ++ '/' :: '>' :: rest)), false⟩,
        false, false, [], true, d, rd⟩ =
      .ok true ⟨⟨'>' :: '/' :: (space.reverse ++ ((renderWritten l).reverse ++
          (n.reverse ++ '<' :: b))), rest, false⟩, true, false,
        [XMLEvent.ofStartElement ⟨qnameOf n, l.map AttributeWritten.attribute⟩,
          XMLEvent.ofEndElement ⟨qnameOf n⟩], true, d, rd⟩ := by
  have hloc := backwardName_localPart h
  have hv := (backwardName_split h).1
  obtain ⟨x, xs, rfl⟩ : ∃ x xs, l = x :: xs := by
    cases l with
    | nil => exact absurd rfl hne
    | cons x xs => exact ⟨x, xs, rfl⟩
  obtain ⟨c0, cs, rfl, h0, -⟩ := validName_split hv
  obtain ⟨p, loc, hq, hscan⟩ := HandleTagStartNext_name hv
  have hloc' : loc ≠ [] := by
    have := congrArg QName.m_strLocalPart hq
    simp only at this
    rw [this]
    exact hloc
  have hlen := AttributeWritten.render_size x
  rw [List.cons_append, hasNext_step, if_pos rfl, List.cons_append, HandleTag_nameStart _ h0,
    HandleTagStart_eq_next]
  obtain ⟨m, hm⟩ : ∃ m,
      (cs ++ (renderWritten (x :: xs) ++ (space ++ '/' :: '>' :: rest))).length =
      (m + 2) + cs.length :=
    ⟨(renderWritten (x :: xs) ++ (space ++ '/' :: '>' :: rest)).length - 2, by
      simp [renderWritten_cons] at hlen ⊢; omega⟩
  rw [hm, hscan, HandleTagStartNext_written_empty hd x xs hl space hspace m p hloc']
  simp [startEvent, endEvent, hq]

/-! ## Attributes with whitespace on either side of `=`, backwards -/

theorem valueBytes_resolvable {cDelimiter : Char} {rs : List TextPiece}
    (h : bytesAll (fun c => decide (c ≠ cDelimiter) && decide (c ≠ '&')) rs = true) :
    bytesAll (fun c => decide (c ≠ '&') &&
      decide (cDelimiter = '\x00' ∨ c ≠ cDelimiter)) rs = true := by
  simp only [bytesAll, List.all_eq_true] at h ⊢
  intro x hx
  have := h x hx
  cases x with
  | byte c =>
    simp only [Bool.and_eq_true, decide_eq_true_eq] at this ⊢
    exact ⟨this.2, Or.inr this.1⟩
  | reference e => rfl

/-- Reading backwards, the pieces of an attribute value are read up to the opening
delimiter, and the whitespace and the `=` in front of it; `rs` holds the pieces from the
last to the first. A `;` that ends no reference is a byte of the value. -/
theorem HandleRAttributeValueLoop_text {d rd : List (Str × Str)} (hd : knowsEntities d rd)
    {cDelimiter : Char} (hdl : cDelimiter = '"' ∨ cDelimiter = '\'') (s : Str)
    (hs : ∀ c ∈ s, isspace c = true) :
    ∀ (n : Nat) (rs : List TextPiece),
      bytesAll (fun c => decide (c ≠ cDelimiter) && decide (c ≠ '&')) rs = true →
      rs.length < n →
      ∀ (pValue b a : Str) (hn hp : Bool) (q : List XMLEvent) (dir : Bool),
        HandleRAttributeValueLoop n cDelimiter pValue
            ⟨⟨rrenderText rs ++ cDelimiter :: (s.reverse ++ '=' :: b), a, false⟩,
              hn, hp, q, dir, d, rd⟩ =
          .ok (pValue ++ rtextData rs).reverse
            ⟨⟨b, '=' :: (s ++ cDelimiter :: ((rrenderText rs).reverse ++ a)), false⟩,
              hn, hp, q, dir, d, rd⟩ := by
  have hd0 : cDelimiter ≠ '\x00' := by rcases hdl with rfl | rfl <;> decide
  have hds : cDelimiter ≠ ';' := by rcases hdl with rfl | rfl <;> decide
  have hda : cDelimiter ≠ '&' := by rcases hdl with rfl | rfl <;> decide
  intro n
  induction n with
  | zero => intro rs _ hlt; omega
  | succ n ih =>
    intro rs hrs hlt pValue b a hn hp q dir
    cases rs with
    | nil =>
      have e := ConsumeRWhitespace_run (by decide : isspace '=' = false) s.reverse
        (fun c hc => hs c (List.mem_reverse.mp hc)) b (cDelimiter :: a) hn hp q dir d rd
      simp only [rrenderText, rtextData, List.flatMap_nil, List.nil_append, List.append_nil,
        HandleRAttributeValueLoop, XMLEventReader.rget, IStream.rget, XMLEventReader.setStream,
        Bool.false_eq_true, if_false, if_true, List.reverse_nil]
      rw [e, bind_ok]
      simp
    | cons p rs =>
      have hrs' := bytesAll_cons hrs
      cases p with
      | byte c =>
        have hc := bytesAll_byte hrs
        simp only [Bool.and_eq_true, decide_eq_true_eq] at hc
        by_cases hsc : c = ';'
        · subst hsc
          obtain ⟨chunk, rest, hsplit, e⟩ := ResolveREntity_semicolon hda rs
            (valueBytes_resolvable hrs') (cDelimiter :: (s.reverse ++ '=' :: b)) (';' :: a)
            (Or.inr ⟨cDelimiter, s.reverse ++ '=' :: b, rfl, Or.inl ⟨hd0, rfl⟩⟩)
            hn hp q dir d rd
          have ih' := ih rest (bytesAll_append (hsplit ▸ hrs')).2 (by
              have := congrArg List.length hsplit
              simp at this hlt
              omega)
            (pValue ++ ';' :: chunk) b (chunk.reverse ++ ';' :: a) hn hp q dir
          have h1 : rrenderText (TextPiece.byte ';' :: rs) = ';' :: rrenderText rs := rfl
          have h2 : rtextData (TextPiece.byte ';' :: rs) = ';' :: (chunk ++ rtextData rest) := by
            rw [hsplit, show TextPiece.byte ';' :: (chunk.map TextPiece.byte ++ rest) =
              (';' :: chunk).map TextPiece.byte ++ rest from rfl, rtextData_bytes]
            rfl
          have h3 : rrenderText rs = chunk ++ rrenderText rest := by
            rw [hsplit, rrenderText_bytes]
          rw [h1, h2]
          simp only [HandleRAttributeValueLoop, XMLEventReader.rget, IStream.rget,
            XMLEventReader.setStream, List.cons_append, Bool.false_eq_true, if_false,
            hds.symm, if_true]
          rw [e, bind_ok, ih', h3]
          simp
        · have ih' := ih rs hrs' (by simp at hlt; omega) (pValue ++ [c]) b (c :: a) hn hp q dir
          simp [rrenderText, rtextData, TextPiece.render, TextPiece.data,
            HandleRAttributeValueLoop, XMLEventReader.rget, IStream.rget,
            XMLEventReader.setStream, hc.1, hsc] at ih' ⊢
          exact ih'
      | reference e =>
        have e1 := ResolveREntity_reference e (Or.inr hdl)
          (rrenderText rs ++ cDelimiter :: (s.reverse ++ '=' :: b)) (';' :: a) hn hp q dir hd
        have ih' := ih rs hrs' (by simp at hlt; omega) (pValue ++ e.replacement.reverse) b
          ('&' :: (e.name ++ ';' :: a)) hn hp q dir
        simp only [rrenderText, rtextData, TextPiece.render, TextPiece.data, List.flatMap_cons,
          List.reverse_append, List.reverse_cons, List.reverse_nil, List.nil_append,
          List.cons_append, List.append_assoc, HandleRAttributeValueLoop, XMLEventReader.rget,
          IStream.rget, XMLEventReader.setStream, Bool.false_eq_true, if_false,
          hds.symm, if_true, List.singleton_append] at ih' e1 ⊢
        rw [e1, bind_ok, ih']
        simp

/-- The backward reader skips the whitespace between an attribute name and the `=`. -/
theorem HandleRAttributeName_skip (s : Str) (hs : ∀ c ∈ s, isspace c = true) {cl : Char}
    (hcl : isspace cl = false) (r1 a : Str) (hn hp : Bool) (q : List XMLEvent) (dir : Bool)
    (d rd : List (Str × Str)) :
    HandleRAttributeName ⟨⟨s ++ cl :: r1, a, false⟩, hn, hp, q, dir, d, rd⟩ =
      HandleRAttributeName ⟨⟨cl :: r1, s.reverse ++ a, false⟩, hn, hp, q, dir, d, rd⟩ := by
  have e1 := ConsumeRWhitespace_run hcl s hs r1 a hn hp q dir d rd
  have e2 := ConsumeRWhitespace_run hcl [] (by simp) r1 (s.reverse ++ a) hn hp q dir d rd
  simp only [List.nil_append, List.reverse_nil] at e2
  unfold HandleRAttributeName
  rw [e1, e2]

theorem reversibleAttributeName_last {n : Str} (h : reversibleAttributeName n = true) :
    ∃ cl r1, n.reverse = cl :: r1 ∧ isNameByte cl = true := by
  obtain ⟨-, hsplit⟩ := reversibleAttributeName_split h
  rcases hsplit with ⟨c0, cs, rfl, h0, hall⟩ | ⟨c0, pre, c1, l, rfl, h0, hpre, hc1, hl⟩
  · cases hr : cs.reverse with
    | nil => exact ⟨c0, [], by simp [hr], attributeStart_isNameByte h0⟩
    | cons cl r =>
      refine ⟨cl, r ++ [c0], by simp [hr], hall cl ?_⟩
      exact List.mem_reverse.mp (by rw [hr]; simp)
  · cases hr : l.reverse with
    | nil =>
      exact ⟨c1, ':' :: (pre.reverse ++ [c0]), by simp [hr], attributeStart_isNameByte hc1⟩
    | cons cl r =>
      refine ⟨cl, r ++ c1 :: ':' :: (pre.reverse ++ [c0]), by simp [hr], hl cl ?_⟩
      exact List.mem_reverse.mp (by rw [hr]; simp)

/-- Reading backwards behind the closing delimiter of an attribute: value and name are
read, and the get position is left in front of the whitespace before the name. -/
theorem HandleRAttribute_written {d rd : List (Str × Str)} (hd : knowsEntities d rd)
    {x : AttributeWritten} (h : x.reversible = true) {y : Char}
    (hy : isspace y = false) (hy0 : y ≠ '\x00') (b a : Str)
    (hn hp : Bool) (q : List XMLEvent) (dir : Bool)
    (K : Attribute → XMLEventReader → Result (List Attribute)) :
    ((HandleRAttributeValue x.delimiter
        ⟨⟨(renderText x.value).reverse ++ x.delimiter :: (x.spaceAfterEquals.reverse ++
            '=' :: (x.spaceBeforeEquals.reverse ++
              (x.name.reverse ++ (x.space.reverse ++ y :: b)))),
          x.delimiter :: a, false⟩, hn, hp, q, dir, d, rd⟩).bind fun pAttributeValue r =>
        (HandleRAttributeName r).bind fun pAttributeName r =>
          K (Attribute.mk pAttributeName pAttributeValue) r) =
      K x.attribute ⟨⟨y :: b, x.render ++ a, false⟩, hn, hp, q, dir, d, rd⟩ := by
  obtain ⟨h0, h1, h2, h3, h4, h5⟩ := AttributeWritten.reversible_parts h
  obtain ⟨cl, r1, hrev, hcl⟩ := reversibleAttributeName_last h1
  have hcls := (isNameByte_not_special hcl).1
  have hlen := renderText_length_ge x.value
  have hrr : (renderText x.value).reverse = rrenderText x.value.reverse := by
    rw [rrenderText_eq, List.reverse_reverse]
  have hdd : textData x.value = (rtextData x.value.reverse).reverse := by
    rw [rtextData_eq, List.reverse_reverse, List.reverse_reverse]
  have e1 := HandleRAttributeValueLoop_text hd h4 x.spaceAfterEquals h3
    (((renderText x.value).reverse ++ x.delimiter :: (x.spaceAfterEquals.reverse ++
      '=' :: (x.spaceBeforeEquals.reverse ++
        (x.name.reverse ++ (x.space.reverse ++ y :: b))))).length +
      (x.delimiter :: a).length + 1) x.value.reverse (bytesAll_reverse h5)
    (by simp at hlen ⊢; omega) []
    (x.spaceBeforeEquals.reverse ++ (x.name.reverse ++ (x.space.reverse ++ y :: b)))
    (x.delimiter :: a) hn hp q dir
  have e2 := HandleRAttributeName_skip x.spaceBeforeEquals.reverse
    (fun c hc => h2 c (List.mem_reverse.mp hc)) hcls (r1 ++ (x.space.reverse ++ y :: b))
    ('=' :: (x.spaceAfterEquals ++ x.delimiter :: (renderText x.value ++ x.delimiter :: a)))
    hn hp q dir d rd
  have e3 := HandleRAttributeName_run h1 h0 hy hy0 b
    (x.spaceBeforeEquals ++ '=' :: (x.spaceAfterEquals ++
      x.delimiter :: (renderText x.value ++ x.delimiter :: a))) hn hp q dir d rd
  rw [← hrr] at e1
  simp only [List.nil_append, List.reverse_reverse, ← hdd] at e1 e2
  unfold HandleRAttributeValue
  simp only [XMLEventReader.rbudget]
  rw [e1, bind_ok, hrev, List.cons_append, e2, ← List.cons_append, ← hrev, e3, bind_ok]
  simp [AttributeWritten.attribute, AttributeWritten.render]

theorem HandleRAttributesLoop_written {d rd : List (Str × Str)} (hd : knowsEntities d rd)
    {x : AttributeWritten} (h : x.reversible = true) {y : Char}
    (hy : isspace y = false) (hy0 : y ≠ '\x00') (n : Nat) (acc : List Attribute) (b a : Str)
    (hn hp : Bool) (q : List XMLEvent) (dir : Bool) :
    HandleRAttributesLoop (n + 1) acc
        ⟨⟨x.render.reverse ++ y :: b, a, false⟩, hn, hp, q, dir, d, rd⟩ =
      HandleRAttributesLoop n (acc ++ [x.attribute])
        ⟨⟨y :: b, x.render ++ a, false⟩, hn, hp, q, dir, d, rd⟩ := by
  obtain ⟨-, -, -, -, h4, -⟩ := AttributeWritten.reversible_parts h
  have hs : isspace x.delimiter = false := by rcases h4 with h | h <;> rw [h] <;> decide
  have one := HandleRAttribute_written hd h hy hy0 b a hn hp q dir
    (fun e r => HandleRAttributesLoop n (acc ++ [e]) r)
  rw [AttributeWritten.render_mirror]
  simp only [HandleRAttributesLoop, XMLEventReader.rget, IStream.rget, XMLEventReader.setStream,
    List.cons_append, List.append_assoc, Bool.false_eq_true, if_false, hs, h4, if_true,
    List.nil_append]
  exact one

/-- The first byte read backwards behind a run of attributes is the closing delimiter of
the last one, or the byte in front of the run. -/
theorem written_rest_head (xs : List AttributeWritten)
    (hxs : ∀ x ∈ xs, x.reversible = true)
    {y : Char} (hy : isspace y = false) (hy0 : y ≠ '\x00') (t : Str) :
    ∃ y' b', (renderWritten xs.reverse).reverse ++ y :: t = y' :: b' ∧
      isspace y' = false ∧ y' ≠ '\x00' := by
  cases xs with
  | nil => exact ⟨y, t, by simp [renderWritten], hy, hy0⟩
  | cons x xs =>
    obtain ⟨-, -, -, -, h4, -⟩ := AttributeWritten.reversible_parts (hxs x (by simp))
    refine ⟨x.delimiter, (renderText x.value).reverse ++ x.delimiter ::
      (x.spaceAfterEquals.reverse ++ '=' :: (x.spaceBeforeEquals.reverse ++
        (x.name.reverse ++ (x.space.reverse ++
          ((renderWritten xs.reverse).reverse ++ y :: t))))), ?_, ?_, ?_⟩
    · rw [List.reverse_cons, renderWritten_append, List.reverse_append]
      simp [renderWritten, AttributeWritten.render]
    · rcases h4 with h | h <;> rw [h] <;> decide
    · rcases h4 with h | h <;> rw [h] <;> decide

/-- The backward loop over the attributes of a tag reads them from the last to the first
and stops in front of the whitespace behind the tag name. -/
theorem HandleRAttributesLoop_writtens_back {d rd : List (Str × Str)}
    (hd : knowsEntities d rd) {y : Char} (hy : isNameByte y = true) :
    ∀ (xs : List AttributeWritten), (∀ x ∈ xs, x.reversible = true) →
      ∀ (n : Nat) (acc : List Attribute) (b a : Str) (hn hp : Bool) (q : List XMLEvent)
        (dir : Bool), xs.length < n →
        HandleRAttributesLoop n acc
            ⟨⟨(renderWritten xs.reverse).reverse ++ y :: b, a, false⟩,
              hn, hp, q, dir, d, rd⟩ =
          .ok (acc ++ xs.map AttributeWritten.attribute)
            ⟨⟨y :: b, renderWritten xs.reverse ++ a, false⟩, hn, hp, q, dir, d, rd⟩ := by
  obtain ⟨hy1, -, -, -, -, hy6, hy7, hy8, -⟩ := isNameByte_not_special hy
  intro xs
  induction xs with
  | nil =>
    intro _ n acc b a hn hp q dir hlt
    cases n with
    | zero => omega
    | succ n =>
      simp [renderWritten, HandleRAttributesLoop, XMLEventReader.rget, IStream.rget,
        XMLEventReader.setStream, hy1, hy6, hy7, XMLEventReader.runget, IStream.runget]
  | cons x xs ih =>
    intro hxs n acc b a hn hp q dir hlt
    cases n with
    | zero => omega
    | succ n =>
      have hx := hxs x (by simp)
      have hxs' : ∀ z ∈ xs, z.reversible = true := fun z hz => hxs z (by simp [hz])
      have hr : (renderWritten (x :: xs).reverse).reverse =
          x.render.reverse ++ (renderWritten xs.reverse).reverse := by
        simp [renderWritten_append, renderWritten]
      have hr2 : renderWritten (x :: xs).reverse =
          renderWritten xs.reverse ++ x.render := by
        simp [renderWritten_append, renderWritten]
      obtain ⟨y', b', hrest, hy', hy0'⟩ := written_rest_head xs hxs' hy1 hy8 b
      have ih' := ih hxs' n (acc ++ [x.attribute]) b (x.render ++ a) hn hp q dir
        (by simp at hlt ⊢; omega)
      rw [hr, hr2, List.append_assoc, hrest, HandleRAttributesLoop_written hd hx hy' hy0',
        ← hrest, ih']
      simp

/-- Backward `HandleRTagStart` behind the closing delimiter of the last attribute: the
attributes from the last to the first, then the tag name and the `<`. -/
theorem HandleRTagStart_written {d rd : List (Str × Str)} (hd : knowsEntities d rd) {n : Str}
    (h : backwardName n = true) (x : AttributeWritten)
    (xs : List AttributeWritten) (hxs : ∀ z ∈ x :: xs, z.reversible = true) (b a : Str)
    (hn hp : Bool) (q : List XMLEvent) (dir : Bool) :
    HandleRTagStart x.delimiter
        ⟨⟨(renderText x.value).reverse ++ x.delimiter :: (x.spaceAfterEquals.reverse ++
            '=' :: (x.spaceBeforeEquals.reverse ++ (x.name.reverse ++
            (x.space.reverse ++
              ((renderWritten xs.reverse).reverse ++ (n.reverse ++ '<' :: b)))))),
          x.delimiter :: a, false⟩, hn, hp, q, dir, d, rd⟩ =
      .ok ⟨qnameOf n, (x :: xs).map AttributeWritten.attribute⟩
        ⟨⟨b, '<' :: (n ++ (renderWritten (x :: xs).reverse ++ a)), false⟩,
          hn, hp, q, dir, d, rd⟩ := by
  have hx := hxs x (by simp)
  have hxs' : ∀ z ∈ xs, z.reversible = true := fun z hz => hxs z (by simp [hz])
  obtain ⟨-, -, -, -, h4, -⟩ := AttributeWritten.reversible_parts hx
  obtain ⟨cl, r1, hrev, hcl⟩ := backwardName_last h
  obtain ⟨hv, hsplit⟩ := backwardName_split h
  obtain ⟨hcl1, -, -, -, -, -, -, hcl8, -⟩ := isNameByte_not_special hcl
  obtain ⟨y', b', hrest, hy', hy0'⟩ := written_rest_head xs hxs' hcl1 hcl8 (r1 ++ '<' :: b)
  have one := HandleRAttribute_written hd hx hy' hy0' b' a hn hp q dir
    (fun e r => HandleRAttributesLoop r.rbudget ([] ++ [e]) r)
  have loop := HandleRAttributesLoop_writtens_back hd hcl xs hxs'
    (((renderWritten xs.reverse).reverse ++ cl :: (r1 ++ '<' :: b)).length +
      (x.render ++ a).length + 1) [x.attribute] (r1 ++ '<' :: b)
    (x.render ++ a) hn hp q dir (by
      have := renderWritten_length_ge xs.reverse
      simp at this ⊢
      omega)
  have name := HandleRTagName_parts hv hsplit hrev (Or.inl rfl) b (renderWritten xs.reverse ++
    (x.render ++ a)) hn hp q dir d rd
  unfold HandleRTagStart
  rw [if_pos h4]
  unfold HandleRAttributes
  rw [hrev, List.cons_append, hrest, one]
  simp only [XMLEventReader.rbudget, List.nil_append]
  rw [← hrest, loop, bind_ok]
  simp only [XMLEventReader.rget, IStream.rget, XMLEventReader.setStream, Bool.false_eq_true,
    if_false, HandleRTagStartName]
  rw [name, bind_ok]
  simp [XMLEventReader.rget, IStream.rget, XMLEventReader.setStream, renderWritten_append,
    renderWritten]

theorem exists_last_written {l : List AttributeWritten} (hne : l ≠ []) :
    ∃ (x : AttributeWritten) (xs : List AttributeWritten), l = xs.reverse ++ [x] := by
  cases hr : l.reverse with
  | nil => simp at hr; exact absurd hr hne
  | cons x xs =>
    refine ⟨x, xs, ?_⟩
    have := congrArg List.reverse hr
    simpa using this

theorem written_reverse_head (x : AttributeWritten) (xs : List AttributeWritten) (t : Str) :
    (renderWritten (xs.reverse ++ [x])).reverse ++ t =
      x.delimiter :: ((renderText x.value).reverse ++ x.delimiter ::
        (x.spaceAfterEquals.reverse ++ '=' :: (x.spaceBeforeEquals.reverse ++
          (x.name.reverse ++ (x.space.reverse ++
            ((renderWritten xs.reverse).reverse ++ t)))))) := by
  simp [renderWritten_append, renderWritten, AttributeWritten.render]

/-- Backward `hasPrevious` behind a start tag with attributes, written with all the
whitespace the reader allows: the attributes come in reverse order. -/
theorem hasPrevious_startTag_written {d rd : List (Str × Str)} (hd : knowsEntities d rd)
    {n : Str} (h : backwardName n = true)
    (l : List AttributeWritten) (hl : ∀ z ∈ l, z.reversible = true) (hne : l ≠ [])
    (space : Str) (hspace : ∀ c ∈ space, isspace c = true) (b a : Str) :
    hasPrevious ⟨⟨'>' :: (space.reverse ++ ((renderWritten l).reverse ++
        (n.reverse ++ '<' :: b))), a, false⟩, false, false, [], false, d, rd⟩ =
      .ok true ⟨⟨b, '<' :: (n ++ (renderWritten l ++ (space ++ '>' :: a))), false⟩,
        false, true,
        [XMLEvent.ofStartElement ⟨qnameOf n, (l.map AttributeWritten.attribute).reverse⟩],
        false, d, rd⟩ := by
  obtain ⟨x, xs, rfl⟩ := exists_last_written hne
  have hxs : ∀ z ∈ x :: xs, z.reversible = true := by
    intro z hz
    apply hl
    rcases List.mem_cons.mp hz with rfl | hz
    · simp
    · simp [hz]
  obtain ⟨-, -, -, -, h4, -⟩ := AttributeWritten.reversible_parts (hxs x (by simp))
  have hs : isspace x.delimiter = false := by rcases h4 with h | h <;> rw [h] <;> decide
  have hq : x.delimiter ≠ '?' := by rcases h4 with h | h <;> rw [h] <;> decide
  have hsl : x.delimiter ≠ '/' := by rcases h4 with h | h <;> rw [h] <;> decide
  have h0 : x.delimiter ≠ '\x00' := by rcases h4 with h | h <;> rw [h] <;> decide
  have h4' : ¬ (x.delimiter ≠ '"' ∧ x.delimiter ≠ '\'') := by
    rcases h4 with h | h <;> rw [h] <;> decide
  obtain ⟨K, hK⟩ := hasPrevious_step '>'
    (space.reverse ++ ((renderWritten (xs.reverse ++ [x])).reverse ++ (n.reverse ++ '<' :: b)))
    a d rd
  have e := HandleRTagStart_written hd h x xs hxs b (space ++ '>' :: a) false true [] false
  rw [hK, if_pos rfl, written_reverse_head]
  cases hsr : space.reverse with
  | nil =>
    have hsn : space = [] := by simpa using hsr
    subst hsn
    simp only [List.nil_append] at e
    simp only [List.nil_append, HandleRTag, XMLEventReader.rget, IStream.rget,
      XMLEventReader.setStream, Bool.false_eq_true, if_false, hq, hs, hsl, h4, if_true]
    rw [e, bind_ok]
    simp [XMLEventReader.push]
  | cons w t =>
    have hw : isspace w = true := hspace w (List.mem_reverse.mp (by rw [hsr]; simp))
    have ht : ∀ c ∈ t, isspace c = true :=
      fun c hc => hspace c (List.mem_reverse.mp (by rw [hsr]; simp [hc]))
    have hwq : w ≠ '?' := by rintro rfl; revert hw; decide
    have hsp : space = t.reverse ++ [w] := by
      have := congrArg List.reverse hsr
      simpa using this
    have e2 := ConsumeRWhitespace_run hs t ht
      ((renderText x.value).reverse ++ x.delimiter ::
        (x.spaceAfterEquals.reverse ++ '=' :: (x.spaceBeforeEquals.reverse ++
          (x.name.reverse ++ (x.space.reverse ++
            ((renderWritten xs.reverse).reverse ++ (n.reverse ++ '<' :: b)))))))
      (w :: '>' :: a) false true [] false d rd
    rw [hsp] at e
    simp only [List.append_assoc, List.singleton_append] at e
    simp only [List.cons_append, HandleRTag, XMLEventReader.rget, IStream.rget,
      XMLEventReader.setStream, Bool.false_eq_true, if_false, hwq, hw, if_true]
    rw [e2, bind_ok]
    simp only [h0, if_false, h4']
    rw [e, bind_ok]
    simp [XMLEventReader.push, hsp]

/-- Backward `hasPrevious` behind a self-closing tag with attributes, written with all the
whitespace the reader allows: the `EndElement` comes first, then the `StartElement` with
the attributes in reverse order. -/
theorem hasPrevious_emptyTag_written {d rd : List (Str × Str)} (hd : knowsEntities d rd)
    {n : Str} (h : backwardName n = true)
    (l : List AttributeWritten) (hl : ∀ z ∈ l, z.reversible = true) (hne : l ≠ [])
    (space : Str) (hspace : ∀ c ∈ space, isspace c = true) (b a : Str) :
    hasPrevious ⟨⟨'>' :: '/' :: (space.reverse ++ ((renderWritten l).reverse ++
        (n.reverse ++ '<' :: b))), a, false⟩, false, false, [], false, d, rd⟩ =
      .ok true ⟨⟨b, '<' :: (n ++ (renderWritten l ++ (space ++ '/' :: '>' :: a))), false⟩,
        false, true,
        [XMLEvent.ofEndElement ⟨qnameOf n⟩,
          XMLEvent.ofStartElement ⟨qnameOf n, (l.map AttributeWritten.attribute).reverse⟩],
        false, d, rd⟩ := by
  obtain ⟨x, xs, rfl⟩ := exists_last_written hne
  have hxs : ∀ z ∈ x :: xs, z.reversible = true := by
    intro z hz
    apply hl
    rcases List.mem_cons.mp hz with rfl | hz
    · simp
    · simp [hz]
  obtain ⟨-, -, -, -, h4, -⟩ := AttributeWritten.reversible_parts (hxs x (by simp))
  have hs : isspace x.delimiter = false := by rcases h4 with h | h <;> rw [h] <;> decide
  have h0 : x.delimiter ≠ '\x00' := by rcases h4 with h | h <;> rw [h] <;> decide
  have h4' : ¬ (x.delimiter ≠ '"' ∧ x.delimiter ≠ '\'') := by
    rcases h4 with h | h <;> rw [h] <;> decide
  obtain ⟨K, hK⟩ := hasPrevious_step '>'
    ('/' :: (space.reverse ++ ((renderWritten (xs.reverse ++ [x])).reverse ++
      (n.reverse ++ '<' :: b)))) a d rd
  have e := HandleRTagStart_written hd h x xs hxs b (space ++ '/' :: '>' :: a) false true []
    false
  have e2 := ConsumeRWhitespace_run hs space.reverse
    (fun c hc => hspace c (List.mem_reverse.mp hc))
    ((renderText x.value).reverse ++ x.delimiter ::
      (x.spaceAfterEquals.reverse ++ '=' :: (x.spaceBeforeEquals.reverse ++
        (x.name.reverse ++ (x.space.reverse ++
          ((renderWritten xs.reverse).reverse ++ (n.reverse ++ '<' :: b)))))))
    ('/' :: '>' :: a) false true [] false d rd
  rw [hK, if_pos rfl, written_reverse_head]
  simp only [HandleRTag, XMLEventReader.rget, IStream.rget, XMLEventReader.setStream,
    Bool.false_eq_true, if_false, (by decide : ¬ ('/' = '?')),
    (by decide : isspace '/' = false), if_true]
  rw [e2, bind_ok]
  simp only [h0, if_false, h4', List.reverse_reverse]
  rw [e, bind_ok]
  simp [XMLEventReader.push]

/-! ## End tags with any name both directions read alike -/

theorem reversibleEndName_split {n : Str} (h : reversibleEndName n = true) :
    ¬ (['-', '-'].isPrefixOf n.reverse = true) ∧
    ((∃ c1 l, n = c1 :: l ∧ (isalnum c1 = true ∨ c1 = '_') ∧
        ∀ x ∈ l, isNameByte x = true) ∨
      ∃ pre c1 l, n = pre ++ ':' :: (c1 :: l) ∧ (∀ x ∈ pre, isNameByte x = true) ∧
        (∀ c0 ∈ pre.head?, isalnum c0 = true ∨ c0 = '_') ∧ (isalnum c1 = true ∨ c1 = '_') ∧
        (∀ x ∈ l, isNameByte x = true)) := by
  simp only [reversibleEndName, Bool.and_eq_true, List.all_eq_true, Bool.or_eq_true,
    decide_eq_true_eq, Bool.not_eq_true'] at h
  obtain ⟨⟨⟨⟨hmem, hcount⟩, hloc⟩, hpre⟩, hdash⟩ := h
  refine ⟨by simp [hdash], ?_⟩
  rcases nameTail_split hmem hcount with hall | ⟨pre, l, rfl, hp, hl⟩
  · left
    rw [qnameOf_plain hall] at hloc
    cases n with
    | nil => simp at hloc
    | cons c1 l =>
      simp only [Bool.or_eq_true, decide_eq_true_eq] at hloc
      exact ⟨c1, l, rfl, hloc, fun x hx => hall x (by simp [hx])⟩
  · right
    rw [qnameOf_colon l hp] at hloc hpre
    cases l with
    | nil => simp at hloc
    | cons c1 l =>
      simp only [Bool.or_eq_true, decide_eq_true_eq] at hloc
      refine ⟨pre, c1, l, rfl, hp, ?_, hloc, fun x hx => hl x (by simp [hx])⟩
      intro c0 hc0
      cases pre with
      | nil => simp at hc0
      | cons c pre' =>
        simp only [List.head?_cons, Option.mem_def, Option.some.injEq] at hc0
        subst hc0
        simpa using hpre

/-- Forward `hasNext` in front of an end tag `</n>`. -/
theorem hasNext_endTag_wide {n : Str} (h : reversibleEndName n = true) (b rest : Str)
    (d rd : List (Str × Str)) :
    hasNext ⟨⟨b, '<' :: '/' :: n ++ '>' :: rest, false⟩, false, false, [], true, d, rd⟩ =
      .ok true ⟨⟨'>' :: n.reverse ++ '/' :: '<' :: b, rest, false⟩, true, false,
        [XMLEvent.ofEndElement ⟨qnameOf n⟩], true, d, rd⟩ := by
  obtain ⟨-, hsplit⟩ := reversibleEndName_split h
  obtain ⟨x, xs, hxs⟩ : ∃ x xs, n ++ '>' :: rest = x :: xs := by
    cases n with
    | nil => exact ⟨'>', rest, rfl⟩
    | cons x xs => exact ⟨x, xs ++ '>' :: rest, rfl⟩
  have hlen : xs.length + 1 = (rest.length + 1) + n.length := by
    have := congrArg List.length hxs
    simp at this
    omega
  rw [List.cons_append, List.cons_append, hasNext_step, if_pos rfl, HandleTag_slash, hxs,
    HandleTagEnd_eq_next, ← hxs, hlen]
  rcases hsplit with ⟨c1, l, rfl, h1, hl⟩ | ⟨pre, c1, l, rfl, hp, -, h1, hl⟩
  · have hall : ∀ y ∈ c1 :: l, isNameByte y = true := by
      intro y hy
      rcases List.mem_cons.mp hy with rfl | hy
      · exact attributeStart_isNameByte h1
      · exact hl y hy
    rw [HandleTagEndNext_skip (c1 :: l) hall, HandleTagEndNext_close, qnameOf_plain hall]
    simp [endEvent]
  · have hL : ∀ y ∈ c1 :: l, isNameByte y = true := by
      intro y hy
      rcases List.mem_cons.mp hy with rfl | hy
      · exact attributeStart_isNameByte h1
      · exact hl y hy
    rw [show rest.length + 1 + (pre ++ ':' :: c1 :: l).length =
        ((rest.length + 1) + (c1 :: l).length + 1) + pre.length by simp; omega,
      show pre ++ ':' :: c1 :: l ++ '>' :: rest = pre ++ (':' :: ((c1 :: l) ++ '>' :: rest)) by
        simp,
      HandleTagEndNext_skip pre hp, HandleTagEndNext_colon, HandleTagEndNext_skip (c1 :: l) hL,
      HandleTagEndNext_close, qnameOf_colon (c1 :: l) hp]
    simp [endEvent]

theorem HandleRTagNameLoop_finish_any (m : Nat) {x : Char} (hx : x = '<' ∨ x = '/')
    (loc : Str) (c : Char) (hc : isalnum c = true ∨ c = '_') (p : Str)
    (hp : ∀ c0 ∈ p.reverse.head?, isalnum c0 = true ∨ c0 = '_') (b a : Str) (hn hp' : Bool)
    (q : List XMLEvent) (dir : Bool) (d rd : List (Str × Str)) :
    HandleRTagNameLoop (m + 1) (some p) (loc ++ [c])
        ⟨⟨x :: b, a, false⟩, hn, hp', q, dir, d, rd⟩ =
      .ok (QName.mk [] (c :: loc.reverse) p.reverse)
        ⟨⟨x :: b, a, false⟩, hn, hp', q, dir, d, rd⟩ := by
  have hc' : ¬(isalnum c ≠ true ∧ c ≠ '_') := by
    rcases hc with h | h <;> simp [h]
  have hp2 : ¬(p.reverse.length > 0 ∧ isalnum (p.reverse.headD '\x00') ≠ true ∧
      p.reverse.headD '\x00' ≠ '_') := by
    cases hr : p.reverse with
    | nil => simp
    | cons c0 t =>
      have := hp c0 (by rw [hr]; simp)
      rcases this with h | h <;> simp [h]
  simp only [HandleRTagNameLoop, XMLEventReader.rget, IStream.rget, XMLEventReader.setStream,
    Bool.false_eq_true, if_false, hx, if_true, List.getLastD_concat, hc', hp2]
  simp [XMLEventReader.runget, IStream.runget, XMLEventReader.setStream]

/-- Backward `HandleRTagName` over the name of an end tag, from its last byte `cl`: the
name `qnameOf` gives, with the get position behind the `/` in front of the name. -/
theorem HandleRTagName_wide {n : Str}
    (hsplit : (∃ c1 l, n = c1 :: l ∧ (isalnum c1 = true ∨ c1 = '_') ∧
        ∀ x ∈ l, isNameByte x = true) ∨
      ∃ pre c1 l, n = pre ++ ':' :: (c1 :: l) ∧ (∀ x ∈ pre, isNameByte x = true) ∧
        (∀ c0 ∈ pre.head?, isalnum c0 = true ∨ c0 = '_') ∧ (isalnum c1 = true ∨ c1 = '_') ∧
        (∀ x ∈ l, isNameByte x = true)) {cl : Char} {r1 : Str}
    (hrev : n.reverse = cl :: r1) {x : Char} (hx : x = '<' ∨ x = '/') (b a : Str)
    (hn hp : Bool) (q : List XMLEvent) (dir : Bool) (d rd : List (Str × Str)) :
    HandleRTagName cl ⟨⟨r1 ++ x :: b, cl :: a, false⟩, hn, hp, q, dir, d, rd⟩ =
      .ok (qnameOf n) ⟨⟨x :: b, n ++ a, false⟩, hn, hp, q, dir, d, rd⟩ := by
  have hn_eq : n = r1.reverse ++ [cl] := by
    have := congrArg List.reverse hrev
    simpa using this
  rcases hsplit with ⟨c0, cs, rfl, h0, hall⟩ | ⟨pre, c1, l, rfl, hpre, hhead, hc1, hl⟩
  · have hall' : ∀ y ∈ c0 :: cs, isNameByte y = true := by
      intro y hy
      rcases List.mem_cons.mp hy with rfl | hy
      · exact attributeStart_isNameByte h0
      · exact hall y hy
    have hcl : isNameByte cl = true := hall' cl (by
      have : cl ∈ (c0 :: cs).reverse := by rw [hrev]; simp
      exact List.mem_reverse.mp this)
    have hr1 : ∀ y ∈ r1, isNameByte y = true := by
      intro y hy
      apply hall'
      have : y ∈ (c0 :: cs).reverse := by rw [hrev]; simp [hy]
      exact List.mem_reverse.mp this
    have hcl' : ¬(isalnum cl ≠ true ∧ cl ≠ '-' ∧ cl ≠ '_' ∧ cl ≠ '.') := by
      rcases isNameByte_cases hcl with h | h | h | h <;> simp [h]
    have hshape : [cl] ++ r1 = cs.reverse ++ [c0] := by
      have : (c0 :: cs).reverse = cs.reverse ++ [c0] := by simp
      rw [← this, hrev]; rfl
    simp only [HandleRTagName, hcl', if_false, XMLEventReader.rbudget, List.length_append,
      List.length_cons]
    rw [show r1.length + (b.length + 1) + (a.length + 1) + 1 =
        (b.length + a.length + 2 + 1) + r1.length by omega,
      HandleRTagNameLoop_skip_local r1 hr1, hshape,
      HandleRTagNameLoop_finish_local _ hx _ _ h0, qnameOf_plain hall']
    simp [hn_eq]
  · have hP : ∀ y ∈ pre.reverse, isNameByte y = true :=
      fun y hy => hpre y (List.mem_reverse.mp hy)
    have hc1' : isNameByte c1 = true := attributeStart_isNameByte hc1
    have hL : ∀ y ∈ l.reverse ++ [c1], isNameByte y = true := by
      intro y hy
      rcases List.mem_append.mp hy with hy | hy
      · exact hl y (List.mem_reverse.mp hy)
      · rw [List.mem_singleton.mp hy]; exact hc1'
    have hrev' : (l.reverse ++ [c1]) ++ ':' :: pre.reverse = cl :: r1 := by
      rw [← hrev]; simp
    obtain ⟨L', hLeq, hr1⟩ : ∃ L', l.reverse ++ [c1] = cl :: L' ∧
        r1 = L' ++ ':' :: pre.reverse := by
      cases hl' : l.reverse ++ [c1] with
      | nil => simp at hl'
      | cons y L' =>
        rw [hl'] at hrev'
        simp only [List.cons_append, List.cons.injEq] at hrev'
        exact ⟨L', by rw [hrev'.1], hrev'.2.symm⟩
    have hcl : isNameByte cl = true := hL cl (by rw [hLeq]; simp)
    have hL' : ∀ y ∈ L', isNameByte y = true := fun y hy => hL y (by rw [hLeq]; simp [hy])
    have hcl' : ¬(isalnum cl ≠ true ∧ cl ≠ '-' ∧ cl ≠ '_' ∧ cl ≠ '.') := by
      rcases isNameByte_cases hcl with h | h | h | h <;> simp [h]
    have hq := @qnameOf_colon pre (c1 :: l) hpre
    subst hr1
    unfold HandleRTagName
    rw [if_neg hcl']
    obtain ⟨m, hm⟩ : ∃ m, XMLEventReader.rbudget
        ⟨⟨(L' ++ ':' :: pre.reverse) ++ x :: b, cl :: a, false⟩, hn, hp, q, dir, d, rd⟩ =
        ((m + 1) + pre.reverse.length + 1) + L'.length :=
      ⟨b.length + a.length + 2, by simp [XMLEventReader.rbudget]; omega⟩
    rw [hm, show (L' ++ ':' :: pre.reverse) ++ x :: b =
      L' ++ (':' :: (pre.reverse ++ x :: b)) by simp]
    rw [HandleRTagNameLoop_skip_local L' hL', HandleRTagNameLoop_colon,
      HandleRTagNameLoop_skip_prefix pre.reverse hP]
    rw [show [cl] ++ L' = l.reverse ++ [c1] by rw [hLeq]; rfl, List.nil_append,
      HandleRTagNameLoop_finish_any _ hx _ _ hc1 _ (by simpa using hhead), hq]
    have e1 : L'.reverse ++ [cl] = c1 :: l := by
      have := congrArg List.reverse hLeq
      simpa using this.symm
    simp [← e1]

theorem reversibleEndName_last {n : Str} (h : reversibleEndName n = true) :
    ∃ cl r1, n.reverse = cl :: r1 ∧ isNameByte cl = true ∧
      (cl = '-' → ∃ c2 r2, r1 = c2 :: r2 ∧ c2 ≠ '-') := by
  obtain ⟨hdash, hsplit⟩ := reversibleEndName_split h
  have key : ∃ cl r1, n.reverse = cl :: r1 ∧ isNameByte cl = true ∧ (r1 = [] → cl ≠ '-') := by
    rcases hsplit with ⟨c0, cs, rfl, h0, hall⟩ | ⟨pre, c1, l, rfl, hpre, -, hc1, hl⟩
    · cases hr : cs.reverse with
      | nil =>
        refine ⟨c0, [], by simp [hr], attributeStart_isNameByte h0, fun _ => ?_⟩
        rcases h0 with h0 | h0
        · rintro rfl; revert h0; decide
        · rw [h0]; decide
      | cons cl r =>
        refine ⟨cl, r ++ [c0], by simp [hr], hall cl ?_, by simp⟩
        exact List.mem_reverse.mp (by rw [hr]; simp)
    · cases hr : l.reverse with
      | nil =>
        exact ⟨c1, ':' :: pre.reverse, by simp [hr], attributeStart_isNameByte hc1, by simp⟩
      | cons cl r =>
        refine ⟨cl, r ++ c1 :: ':' :: pre.reverse, by simp [hr], hl cl ?_, by simp⟩
        exact List.mem_reverse.mp (by rw [hr]; simp)
  obtain ⟨cl, r1, hrev, hcl, hone⟩ := key
  refine ⟨cl, r1, hrev, hcl, fun hd => ?_⟩
  cases r1 with
  | nil => exact absurd hd (hone rfl)
  | cons c2 r2 =>
    refine ⟨c2, r2, rfl, fun hc2 => hdash ?_⟩
    rw [hrev, hd, hc2]
    simp [List.isPrefixOf]

/-- Backward `hasPrevious` behind an end tag `</n>`. -/
theorem hasPrevious_endTag_wide {n : Str} (h : reversibleEndName n = true) (b a : Str)
    (d rd : List (Str × Str)) :
    hasPrevious ⟨⟨'>' :: n.reverse ++ '/' :: '<' :: b, a, false⟩, false, false, [], false, d,
        rd⟩ =
      .ok true ⟨⟨b, '<' :: '/' :: n ++ '>' :: a, false⟩, false, true,
        [XMLEvent.ofEndElement ⟨qnameOf n⟩], false, d, rd⟩ := by
  obtain ⟨cl, r1, hrev, hcl, hdash⟩ := reversibleEndName_last h
  obtain ⟨K, hK⟩ := hasPrevious_step '>' (n.reverse ++ '/' :: '<' :: b) a d rd
  rw [List.cons_append, hK, if_pos rfl, hrev, List.cons_append,
    HandleRTag_nameByte K hcl _ _ (by
      intro hd
      obtain ⟨c2, r2, rfl, hc2⟩ := hdash hd
      exact ⟨c2, r2 ++ '/' :: '<' :: b, rfl, hc2⟩)]
  unfold HandleRTagStartEnd
  rw [HandleRTagName_wide (reversibleEndName_split h).2 hrev (Or.inr rfl)]
  simp [Result.bind, XMLEventReader.rget, IStream.rget, XMLEventReader.setStream,
    XMLEventReader.push]

/-! ## Processing instructions and XML declarations behind any whitespace byte -/

/-- Forward `hasNext` in front of a processing instruction whose target ends at the
whitespace byte `w`. -/
theorem hasNext_processingInstruction_sep {t0 : Char} (h0 : isalpha t0 = true) (ts : Str)
    (hts : ∀ x ∈ ts, x ≠ '?' ∧ x ≠ '>' ∧ isspace x = false)
    (hxml : isXmlTarget (t0 :: ts) = false) {w : Char} (hw : isspace w = true) (data : Str)
    (hdata : ∀ x ∈ data, x ≠ '?' ∧ x ≠ '>') (b rest : Str) (d rd : List (Str × Str)) :
    hasNext ⟨⟨b, '<' :: '?' :: t0 :: (ts ++ w :: (data ++ '?' :: '>' :: rest)), false⟩,
        false, false, [], true, d, rd⟩ =
      .ok true ⟨⟨'>' :: '?' :: (data.reverse ++ w :: (ts.reverse ++ t0 :: '?' :: '<' :: b)),
          rest, false⟩, true, false,
        [XMLEvent.ofProcessingInstruction ⟨t0 :: ts, data⟩], true, d, rd⟩ := by
  have e1 := HandleProcessingInstructionTarget_space h0 ts hts hw ('?' :: '<' :: b)
    (data ++ '?' :: '>' :: rest) true false [] true d rd
  have e2 := HandleProcessingInstructionLoop_data data hdata
    ((data ++ '?' :: '>' :: rest).length + 1) (t0 :: ts) []
    (w :: (ts.reverse ++ t0 :: '?' :: '<' :: b)) rest true false [] true d rd (by simp)
  rw [hasNext_step, if_pos rfl]
  simp only [HandleTag, XMLEventReader.get, IStream.get, XMLEventReader.setStream,
    Bool.false_eq_true, if_false, if_true, HandleProcessingInstruction]
  rw [e1, bind_ok]
  simp only [hxml, Bool.false_eq_true, if_false, XMLEventReader.budget]
  rw [e2, bind_ok]
  simp

/-- Forward `hasNext` in front of an XML declaration goes on as `hasNext` behind it. -/
theorem hasNext_xmlDeclaration {pTarget : Str} (ht : isXmlTarget pTarget = true) {w : Char}
    (hw : isspace w = true) (body : Str) (hbody : ∀ c ∈ body, c ≠ '>') (b rest : Str)
    (d rd : List (Str × Str)) :
    hasNext ⟨⟨b, '<' :: '?' :: (pTarget ++ w :: (body ++ '?' :: '>' :: rest)), false⟩,
        false, false, [], true, d, rd⟩ =
      hasNext ⟨⟨'>' :: '?' :: (body.reverse ++ w :: (pTarget.reverse ++ '?' :: '<' :: b)),
        rest, false⟩, false, false, [], true, d, rd⟩ := by
  obtain ⟨t0, t1, t2, rfl, h0, hts⟩ := isXmlTarget_split ht
  have e1 := HandleProcessingInstructionTarget_space h0 [t1, t2] hts hw ('?' :: '<' :: b)
    (body ++ '?' :: '>' :: rest) true false [] true d rd
  have e2 := HandleXmlDeclarationLoop_body (body ++ ['?']) (by
      intro c hc
      rcases List.mem_append.mp hc with hc | hc
      · exact hbody c hc
      · rw [List.mem_singleton] at hc; subst hc; decide)
    ((body ++ '?' :: '>' :: rest).length + 1) 0 (w :: t2 :: t1 :: t0 :: '?' :: '<' :: b) rest
    true false [] true d rd (by omega) (by simp)
  rw [hasNext_step, if_pos rfl]
  simp only [HandleTag, XMLEventReader.get, IStream.get, XMLEventReader.setStream,
    Bool.false_eq_true, if_false, if_true, HandleProcessingInstruction, List.cons_append,
    List.nil_append]
  simp only [List.cons_append, List.nil_append, List.reverse_cons, List.reverse_nil,
    List.append_assoc, List.singleton_append] at e1 e2
  rw [e1, bind_ok]
  simp only [ht, if_true, XMLEventReader.budget]
  rw [e2, bind_ok]
  simp only [Bool.false_eq_true, if_false]
  rw [hasNextFuel_budget _ (rest.length + 1) _ (by simp; omega) (by simp)]
  simp [hasNext, XMLEventReader.budget]

theorem HandleRProcessingInstructionLoop_space {w : Char} (hw : isspace w = true)
    (m t s : Nat) (pData b a : Str) (hn hp : Bool)
    (q : List XMLEvent) (dir : Bool) (d rd : List (Str × Str)) :
    HandleRProcessingInstructionLoop (m + 1) 0 t s pData
        ⟨⟨w :: b, a, false⟩, hn, hp, q, dir, d, rd⟩ =
      HandleRProcessingInstructionLoop m 0 0 (if t > 0 then 1 else s + 1) (pData ++ [w])
        ⟨⟨b, w :: a, false⟩, hn, hp, q, dir, d, rd⟩ := by
  conv_lhs => unfold HandleRProcessingInstructionLoop
  simp only [XMLEventReader.rget, IStream.rget, XMLEventReader.setStream,
    Bool.false_eq_true, if_false, hw, if_true, (by decide : (0 : Nat) < 2)]

/-- Reading backwards from the `?>`, the data of a processing instruction and the
whitespace byte in front of it are read; one byte of whitespace is counted. -/
theorem HandleRProcessingInstructionLoop_data_sep {w : Char} (hw : isspace w = true)
    (data : Str) (hdata : ∀ x ∈ data, x ≠ '?' ∧ x ≠ '<')
    (hhead : ∀ c ∈ data.head?, isspace c = false) (m : Nat) (b a : Str) (hn hp : Bool)
    (q : List XMLEvent) (dir : Bool) (d rd : List (Str × Str)) :
    HandleRProcessingInstructionLoop (m + 1 + data.length) 0 0 0 []
        ⟨⟨data.reverse ++ w :: b, a, false⟩, hn, hp, q, dir, d, rd⟩ =
      HandleRProcessingInstructionLoop m 0 0 1 (data.reverse ++ [w])
        ⟨⟨b, w :: (data ++ a), false⟩, hn, hp, q, dir, d, rd⟩ := by
  cases data with
  | nil =>
    simp only [List.reverse_nil, List.nil_append, List.length_nil, Nat.add_zero]
    rw [HandleRProcessingInstructionLoop_space hw]
    simp
  | cons d0 ds =>
    have h0 : isspace d0 = false := hhead d0 (by simp)
    obtain ⟨h1, h2⟩ := hdata d0 (by simp)
    obtain ⟨t', s', e⟩ := HandleRProcessingInstructionLoop_skip_data ds.reverse
      (fun x hx => hdata x (by simp [List.mem_reverse.mp hx])) (m + 1 + 1) 0 0 []
      (d0 :: w :: b) a hn hp q dir d rd
    have e2 := HandleRProcessingInstructionLoop_skip_target [d0] (by simpa using ⟨h1, h2, h0⟩)
      (m + 1) t' s' ([] ++ ds.reverse) (w :: b) (ds.reverse.reverse ++ a) hn hp q dir d rd
    rw [show m + 1 + (d0 :: ds).length = (m + 1 + 1) + ds.reverse.length by simp; omega,
      show (d0 :: ds).reverse ++ w :: b = ds.reverse ++ (d0 :: w :: b) by simp, e]
    rw [show m + 1 + 1 = (m + 1) + [d0].length from rfl,
      show d0 :: w :: b = [d0] ++ w :: b from rfl, e2,
      HandleRProcessingInstructionLoop_space hw]
    simp

theorem HandleRProcessingInstructionLoop_finish_sep (w : Char) (m : Nat) {t0 : Char}
    (h0 : isalpha t0 = true)
    (ts data : Str) (hxml : isXmlTarget (t0 :: ts) = false) (b a : Str) (hn hp : Bool)
    (q : List XMLEvent) (dir : Bool) (d rd : List (Str × Str)) :
    HandleRProcessingInstructionLoop (m + 2) 0 (t0 :: ts).length 1
        (data.reverse ++ [w] ++ (t0 :: ts).reverse)
        ⟨⟨'?' :: '<' :: b, a, false⟩, hn, hp, q, dir, d, rd⟩ =
      .ok true ⟨⟨b, '<' :: '?' :: a, false⟩, hn, hp,
        q ++ [XMLEvent.ofProcessingInstruction ⟨t0 :: ts, data⟩], dir, d, rd⟩ := by
  have hrev : (data.reverse ++ [w] ++ (t0 :: ts).reverse).reverse = (t0 :: ts) ++ w :: data := by
    simp
  have htake : ((t0 :: ts) ++ w :: data).take (t0 :: ts).length = t0 :: ts :=
    List.take_left' rfl
  have hdrop : ((t0 :: ts) ++ w :: data).drop ((t0 :: ts).length + 1) = data := by
    rw [← List.drop_drop, List.drop_left' rfl]
    rfl
  have hlen : ¬ (data.reverse ++ [w] ++ (t0 :: ts).reverse).length ≤ 0 := by simp
  conv_lhs => unfold HandleRProcessingInstructionLoop
  simp only [XMLEventReader.rget, IStream.rget, XMLEventReader.setStream,
    Bool.false_eq_true, if_false, (by decide : isspace '?' = false), if_true,
    (by decide : (0 : Nat) < 2), Nat.le_refl, and_self]
  conv_lhs => unfold HandleRProcessingInstructionLoop
  simp only [XMLEventReader.rget, IStream.rget, XMLEventReader.setStream,
    Bool.false_eq_true, if_false, (by decide : isspace '<' = false), if_true,
    (by decide : (0 + 1 : Nat) < 2), (by decide : ¬ ('<' = '?')), false_and,
    (by decide : (0 + 1 : Nat) ≤ 1), and_self, hlen, hrev, htake, hdrop, hxml]
  simp [h0, XMLEventReader.push]

/-- Backward `hasPrevious` behind a processing instruction whose target ends at the
whitespace byte `w`. -/
theorem hasPrevious_processingInstruction_sep {t0 : Char} (h0 : isalpha t0 = true) (ts : Str)
    (hts : ∀ x ∈ ts, x ≠ '?' ∧ x ≠ '<' ∧ isspace x = false)
    (hxml : isXmlTarget (t0 :: ts) = false) {w : Char} (hw : isspace w = true) (data : Str)
    (hdata : ∀ x ∈ data, x ≠ '?' ∧ x ≠ '<')
    (hhead : ∀ c ∈ data.head?, isspace c = false) (b a : Str) (d rd : List (Str × Str)) :
    hasPrevious ⟨⟨'>' :: '?' :: (data.reverse ++ w :: ((t0 :: ts).reverse ++ '?' :: '<' :: b)),
        a, false⟩, false, false, [], false, d, rd⟩ =
      .ok true ⟨⟨b, '<' :: '?' :: t0 :: (ts ++ w :: (data ++ '?' :: '>' :: a)), false⟩,
        false, true, [XMLEvent.ofProcessingInstruction ⟨t0 :: ts, data⟩], false, d, rd⟩ := by
  have ht : ∀ x ∈ (t0 :: ts).reverse, x ≠ '?' ∧ x ≠ '<' ∧ isspace x = false := by
    intro x hx
    rcases List.mem_cons.mp (List.mem_reverse.mp hx) with rfl | hx
    · obtain ⟨h1, h2, -, -, -, -, -, -, h9, -⟩ := isalnum_not_special (isalpha_isalnum h0)
      exact ⟨h9, h2, h1⟩
    · exact hts x hx
  have e1 := HandleRProcessingInstructionLoop_data_sep hw data hdata hhead
    ((b.length + a.length + 3) + 2 + (t0 :: ts).reverse.length)
    ((t0 :: ts).reverse ++ '?' :: '<' :: b) ('?' :: '>' :: a) false true [] false d rd
  have e2 := HandleRProcessingInstructionLoop_skip_target (t0 :: ts).reverse ht
    ((b.length + a.length + 3) + 2) 0 1 (data.reverse ++ [w]) ('?' :: '<' :: b)
    (w :: (data ++ '?' :: '>' :: a)) false true [] false d rd
  have e3 := HandleRProcessingInstructionLoop_finish_sep w (b.length + a.length + 3) h0 ts data
    hxml b ((t0 :: ts).reverse.reverse ++ w :: (data ++ '?' :: '>' :: a)) false true [] false
    d rd
  obtain ⟨K, hK⟩ := hasPrevious_step '>'
    ('?' :: (data.reverse ++ w :: ((t0 :: ts).reverse ++ '?' :: '<' :: b))) a d rd
  rw [hK, if_pos rfl]
  simp only [HandleRTag, HandleRProcessingInstruction, XMLEventReader.rget, IStream.rget,
    XMLEventReader.setStream, Bool.false_eq_true, if_false, if_true, XMLEventReader.rbudget]
  rw [show (data.reverse ++ w :: ((t0 :: ts).reverse ++ '?' :: '<' :: b)).length +
      ('?' :: '>' :: a).length + 1 =
      (b.length + a.length + 3) + 2 + (t0 :: ts).reverse.length + 1 + data.length by
    simp; omega]
  rw [e1, e2]
  rw [show 0 + (t0 :: ts).reverse.length = (t0 :: ts).length by simp, e3, bind_ok]
  simp

/-- Backward `hasPrevious` behind an XML declaration goes on as `hasPrevious` in front of
it. -/
theorem hasPrevious_xmlDeclaration_sep {t : Str} (hxml : isXmlTarget t = true) {w : Char}
    (hw : isspace w = true) (data : Str)
    (hdata : ∀ x ∈ data, x ≠ '?' ∧ x ≠ '<') (b a : Str) (d rd : List (Str × Str)) :
    hasPrevious ⟨⟨'>' :: '?' :: (data.reverse ++ w :: (t.reverse ++ '?' :: '<' :: b)),
        a, false⟩, false, false, [], false, d, rd⟩ =
      hasPrevious ⟨⟨b, '<' :: '?' :: (t ++ w :: (data ++ '?' :: '>' :: a)), false⟩,
        false, false, [], false, d, rd⟩ := by
  have ht : ∀ x ∈ t, x ≠ '?' ∧ x ≠ '<' ∧ isspace x = false := by
    match t, hxml with
    | [t0, t1, t2], h =>
      simp only [isXmlTarget, Bool.and_eq_true, Bool.or_eq_true, decide_eq_true_eq] at h
      intro x hx
      simp only [List.mem_cons, List.mem_singleton, List.not_mem_nil, or_false] at hx
      rcases hx with rfl | rfl | rfl
      · rcases h.1.1 with rfl | rfl <;> decide
      · rcases h.1.2 with rfl | rfl <;> decide
      · rcases h.2 with rfl | rfl <;> decide
  obtain ⟨t', s', e1⟩ := HandleRProcessingInstructionLoop_skip_data data.reverse
    (fun x hx => hdata x (List.mem_reverse.mp hx))
    ((b.length + a.length + 3) + 2 + t.reverse.length + 1) 0 0 []
    (w :: (t.reverse ++ '?' :: '<' :: b)) ('?' :: '>' :: a) false true [] false d rd
  have e2 := HandleRProcessingInstructionLoop_space hw
    ((b.length + a.length + 3) + 2 + t.reverse.length) t' s' ([] ++ data.reverse)
    (t.reverse ++ '?' :: '<' :: b) (data.reverse.reverse ++ '?' :: '>' :: a) false true []
    false d rd
  have e3 := HandleRProcessingInstructionLoop_skip_target t.reverse
    (fun x hx => ht x (List.mem_reverse.mp hx))
    ((b.length + a.length + 3) + 2) 0 (if t' > 0 then 1 else s' + 1)
    ([] ++ data.reverse ++ [w]) ('?' :: '<' :: b)
    (w :: (data.reverse.reverse ++ '?' :: '>' :: a)) false true [] false d rd
  have e4 := HandleRProcessingInstructionLoop_finish_xml (b.length + a.length + 3)
    (0 + t.reverse.length) (if t' > 0 then 1 else s' + 1) t ([] ++ data.reverse ++ [w]) hxml
    (by simp) b (t.reverse.reverse ++ w :: (data.reverse.reverse ++ '?' :: '>' :: a))
    false true [] false d rd
  rw [hasPrevious_step_tag]
  simp only [HandleRTag, HandleRProcessingInstruction, XMLEventReader.rget, IStream.rget,
    XMLEventReader.setStream, Bool.false_eq_true, if_false, if_true, XMLEventReader.rbudget]
  rw [show (data.reverse ++ w :: (t.reverse ++ '?' :: '<' :: b)).length +
      ('?' :: '>' :: a).length + 1 =
      (b.length + a.length + 3) + 2 + t.reverse.length + 1 + data.reverse.length by
    simp; omega]
  rw [e1, e2, e3, e4, bind_ok]
  simp only [Bool.false_eq_true, if_false, hasPrevious, XMLEventReader.rbudget,
    List.reverse_reverse, List.cons_append, List.append_assoc]
  exact hasPreviousFuel_budget _ _ _
    ⟨rfl, rfl, rfl, rfl, rfl, rfl, rfl, rfl, rfl, rfl, rfl⟩ (by simp; omega) (by simp; omega)

theorem firstOccurrence_none {pat : Str} :
    ∀ (s : Str), firstOccurrence pat s = none → ¬ (pat <:+: s) := by
  intro s
  induction s with
  | nil =>
    intro h hin
    have : pat = [] := List.eq_nil_of_infix_nil hin
    simp [firstOccurrence, this] at h
  | cons c s ih =>
    intro h hin
    simp only [firstOccurrence] at h
    split at h
    · simp at h
    · rename_i hpre
      have hs : firstOccurrence pat s = none := by
        cases hf : firstOccurrence pat s with
        | none => rfl
        | some k => rw [hf] at h; simp at h
      rcases List.infix_cons_iff.mp hin with hp | hi
      · exact hpre (List.isPrefixOf_iff_prefix.mpr hp)
      · exact ih hs hi

/-! ## Both traversals of an input both directions read alike -/

theorem Lexeme.reversible_tag {n : Str} {l : List AttributeWritten} {space : Str}
    (h : (backwardName n && l.all AttributeWritten.reversible && space.all isspace) = true) :
    backwardName n = true ∧ (∀ y ∈ l, y.reversible = true) ∧
      ∀ c ∈ space, isspace c = true := by
  simp only [Bool.and_eq_true, List.all_eq_true] at h
  exact ⟨h.1.1, h.1.2, h.2⟩

theorem Lexeme.reversible_comment {t : Str}
    (h : (Lexeme.comment t).reversible = true) :
    t.getLast? ≠ some '-' ∧
      firstOccurrence ['-', '-', '>'] (t ++ ['-', '-', '>']) = some t.length ∧
      t.head? ≠ some '-' ∧ ¬ (['!', '-', '-'] <+: t) ∧ ¬ (['<', '!', '-', '-'] <:+: t) := by
  simp only [Lexeme.reversible, Bool.and_eq_true, decide_eq_true_eq, Bool.not_eq_true'] at h
  obtain ⟨⟨⟨⟨h1, h2⟩, h3⟩, h4⟩, h5⟩ := h
  refine ⟨h1, h2, h3, ?_, firstOccurrence_none t h5⟩
  intro hp
  have := List.isPrefixOf_iff_prefix.mpr hp
  rw [h4] at this
  exact absurd this (by simp)

theorem Lexeme.reversible_instruction {pTarget : Str} {w : Char} {pData : Str}
    (h : (Lexeme.processingInstruction pTarget w pData).reversible = true) :
    ∃ t0 ts, pTarget = t0 :: ts ∧ isalpha t0 = true ∧
      (∀ x ∈ ts, x ≠ '?' ∧ x ≠ '>' ∧ isspace x = false) ∧ (∀ x ∈ ts, x ≠ '<') ∧
      isXmlTarget (t0 :: ts) = false ∧ isspace w = true ∧
      (∀ x ∈ pData, x ≠ '?' ∧ x ≠ '>' ∧ x ≠ '<') ∧ ∀ c ∈ pData.head?, isspace c = false := by
  simp only [Lexeme.reversible, Bool.and_eq_true, List.all_eq_true, decide_eq_true_eq] at h
  obtain ⟨⟨⟨⟨h1, h2⟩, h3⟩, h4⟩, h5⟩ := h
  obtain ⟨t0, ts, rfl, h0, hts, hxml⟩ := validTarget_split h1
  refine ⟨t0, ts, rfl, h0, hts, fun x hx => h2 x (by simp [hx]), hxml, h3,
    fun x hx => ⟨(h4 x hx).1.1, (h4 x hx).1.2, (h4 x hx).2⟩, ?_⟩
  cases pData with
  | nil => simp
  | cons c0 cs => simpa using h5

theorem Lexeme.reversible_declaration {pTarget : Str} {w : Char} {pBody : Str}
    (h : (Lexeme.xmlDeclaration pTarget w pBody).reversible = true) :
    isXmlTarget pTarget = true ∧ isspace w = true ∧
      ∀ x ∈ pBody, x ≠ '?' ∧ x ≠ '>' ∧ x ≠ '<' := by
  simp only [Lexeme.reversible, Bool.and_eq_true, List.all_eq_true, decide_eq_true_eq] at h
  exact ⟨h.1.1, h.1.2, fun x hx => ⟨(h.2 x hx).1.1, (h.2 x hx).1.2, (h.2 x hx).2⟩⟩

theorem textBytes_forward {l : List TextPiece}
    (h : bytesAll (fun c => decide (c ≠ '<') && decide (c ≠ '>') && decide (c ≠ '&')) l =
      true) :
    bytesAll (fun c => decide (c ≠ '<') && decide (c ≠ '&')) l = true ∧
      bytesAll (fun c => decide (c ≠ '>') && decide (c ≠ '&')) l = true := by
  simp only [bytesAll, List.all_eq_true] at h ⊢
  constructor <;>
  · intro x hx
    have := h x hx
    cases x with
    | byte c =>
      simp only [Bool.and_eq_true, decide_eq_true_eq] at this ⊢
      first | exact ⟨this.1.1, this.2⟩ | exact ⟨this.1.2, this.2⟩
    | reference e => rfl

/-- Forward `hasNext` in front of a lexeme that stands for events. -/
theorem hasNext_lexeme {d rd : List (Str × Str)} (hd : knowsEntities d rd) {t : Lexeme}
    (ht : t.reversible = true) (hev : t.events ≠ []) (b rest : Str)
    (hrest : t.isText = true → rest = [] ∨ ∃ rest', rest = '<' :: rest') :
    hasNext ⟨⟨b, t.render ++ rest, false⟩, false, false, [], true, d, rd⟩ =
      .ok true ⟨⟨t.render.reverse ++ b, rest, t.isText && rest.isEmpty⟩, true, false,
        t.events, true, d, rd⟩ := by
  cases t with
  | startTag n l space =>
    by_cases hl : l = []
    · subst hl
      simp only [Lexeme.reversible, List.isEmpty_nil, if_true, Bool.and_eq_true,
        List.isEmpty_iff] at ht
      obtain ⟨h1, rfl⟩ := ht
      have := hasNext_startTag (n := n) (reversibleName_split h1).1 b rest d rd
      simpa [Lexeme.render, Lexeme.events, Lexeme.isText, renderWritten] using this
    · have hle : l.isEmpty = false := by simpa using hl
      simp only [Lexeme.reversible, hle, Bool.false_eq_true, if_false] at ht
      obtain ⟨h1, h2, h3⟩ := Lexeme.reversible_tag ht
      have := hasNext_startTag_written hd h1 l h2 hl space h3 b rest
      simpa [Lexeme.render, Lexeme.events, Lexeme.isText] using this
  | endTag n =>
    have := hasNext_endTag_wide (n := n) ht b rest d rd
    simpa [Lexeme.render, Lexeme.events, Lexeme.isText] using this
  | emptyTag n l space =>
    simp only [Lexeme.reversible, Bool.and_eq_true, Bool.not_eq_true', List.isEmpty_eq_false,
      List.all_eq_true] at ht
    obtain ⟨⟨⟨hl, h1⟩, h2⟩, h3⟩ := ht
    have := hasNext_emptyTag_written hd h1 l h2 (by simpa using hl) space h3 b rest
    simpa [Lexeme.render, Lexeme.events, Lexeme.isText] using this
  | text l =>
    simp only [Lexeme.reversible, Bool.and_eq_true, Bool.not_eq_true', List.isEmpty_eq_false]
      at ht
    have := hasNext_pieces hd (by simpa using ht.1) (textBytes_forward ht.2).1 b rest
      (hrest rfl)
    simpa [Lexeme.render, Lexeme.events, Lexeme.isText] using this
  | comment c =>
    obtain ⟨h1, h2, -, -, -⟩ := Lexeme.reversible_comment ht
    have := @hasNext_comment_body c h1 h2 b rest d rd
    simpa [Lexeme.render, Lexeme.events, Lexeme.isText] using this
  | processingInstruction pTarget w pData =>
    obtain ⟨t0, ts, rfl, h0, hts, -, hxml, hw, hdata, -⟩ := Lexeme.reversible_instruction ht
    have := hasNext_processingInstruction_sep h0 ts hts hxml hw pData
      (fun x hx => ⟨(hdata x hx).1, (hdata x hx).2.1⟩) b rest d rd
    simpa [Lexeme.render, Lexeme.events, Lexeme.isText] using this
  | xmlDeclaration pTarget w pBody => exact absurd rfl hev

/-- Forward `hasNext` in front of an XML declaration goes on behind it. -/
theorem hasNext_declaration {d rd : List (Str × Str)} {t : Lexeme}
    (ht : t.reversible = true) (hev : t.events = []) (b rest : Str) :
    hasNext ⟨⟨b, t.render ++ rest, false⟩, false, false, [], true, d, rd⟩ =
      hasNext ⟨⟨t.render.reverse ++ b, rest, false⟩, false, false, [], true, d, rd⟩ := by
  cases t with
  | xmlDeclaration pTarget w pBody =>
    obtain ⟨h1, h2, h3⟩ := Lexeme.reversible_declaration ht
    have := hasNext_xmlDeclaration h1 h2 pBody (fun x hx => (h3 x hx).2.1) b rest d rd
    simpa [Lexeme.render] using this
  | _ => simp [Lexeme.events] at hev

theorem Lexeme.render_nonempty {t : Lexeme} (ht : t.reversible = true) : t.render ≠ [] := by
  cases t with
  | text l =>
    simp only [Lexeme.reversible, Bool.and_eq_true, Bool.not_eq_true', List.isEmpty_eq_false]
      at ht
    intro h
    have := renderText_length_ge l
    rw [show Lexeme.render (.text l) = renderText l from rfl] at h
    rw [h] at this
    exact absurd (List.length_eq_zero.mp (Nat.le_zero.mp this)) (by simpa using ht.1)
  | _ => simp [Lexeme.render]

theorem Lexeme.render_head {t : Lexeme} (ht : t.isText = false) :
    ∃ rest', t.render = '<' :: rest' := by
  cases t with
  | text l => simp [Lexeme.isText] at ht
  | _ => exact ⟨_, by simp [Lexeme.render]; rfl⟩

theorem Lexeme.render_last {t : Lexeme} (ht : t.isText = false) :
    ∃ b', t.render.reverse = '>' :: b' := by
  cases t with
  | text l => simp [Lexeme.isText] at ht
  | _ => exact ⟨_, by simp [Lexeme.render]; rfl⟩

theorem renderLexemes_cons (t : Lexeme) (doc : List Lexeme) :
    renderLexemes (t :: doc) = t.render ++ renderLexemes doc := by
  simp [renderLexemes]

theorem eventsOfLexemes_cons (t : Lexeme) (doc : List Lexeme) :
    eventsOfLexemes (t :: doc) = t.events ++ eventsOfLexemes doc := by
  simp [eventsOfLexemes]

theorem renderLexemes_eq_nil {doc : List Lexeme} (hwf : ∀ t ∈ doc, t.reversible = true)
    (h : renderLexemes doc = []) : doc = [] := by
  cases doc with
  | nil => rfl
  | cons t doc =>
    rw [renderLexemes_cons] at h
    exact absurd (List.append_eq_nil.mp h).1 (Lexeme.render_nonempty (hwf t (by simp)))

theorem textApart_tail {t : Lexeme} {doc : List Lexeme}
    (h : textApart (t :: doc) = true) : textApart doc = true := by
  cases doc with
  | nil => rfl
  | cons u doc =>
    simp only [textApart, Bool.and_eq_true] at h
    exact h.2

theorem textApart_next {t u : Lexeme} {doc : List Lexeme}
    (h : textApart (t :: u :: doc) = true) (ht : t.isText = true) : u.isText = false := by
  simp only [textApart, ht, Bool.true_and, Bool.and_eq_true, Bool.not_eq_true'] at h
  exact h.1

theorem renderLexemes_after_text {t : Lexeme} {doc : List Lexeme}
    (htb : textApart (t :: doc) = true) (ht : t.isText = true) :
    renderLexemes doc = [] ∨ ∃ rest', renderLexemes doc = '<' :: rest' := by
  cases doc with
  | nil => left; rfl
  | cons u doc =>
    right
    obtain ⟨r, hr⟩ := Lexeme.render_head (textApart_next htb ht)
    exact ⟨r ++ renderLexemes doc, by rw [renderLexemes_cons, hr]; rfl⟩

/-- The forward traversal of an input both directions read alike hands out the events of
its lexemes in order and ends at the end of the stream. -/
theorem RunForwardLoop_lexemes {d rd : List (Str × Str)} (hd : knowsEntities d rd)
    (doc : List Lexeme) :
    (∀ t ∈ doc, t.reversible = true) → textApart doc = true →
    ∀ (n : Nat) (acc : List XMLEvent) (b : Str) (e : Bool),
      (e = true → doc = []) → (eventsOfLexemes doc).length < n →
      RunForwardLoop n acc ⟨⟨b, renderLexemes doc, e⟩, false, false, [], true, d, rd⟩ =
        .ok (acc ++ eventsOfLexemes doc)
          ⟨⟨(renderLexemes doc).reverse ++ b, [], true⟩, true, false, [], true, d, rd⟩ := by
  induction doc with
  | nil =>
    intro _ _ n acc b e _ hlt
    cases n with
    | zero => omega
    | succ n =>
      cases e <;>
        simp [RunForwardLoop, renderLexemes, eventsOfLexemes, hasNext, XMLEventReader.budget,
          hasNextFuel, XMLEventReader.turnForward, XMLEventReader.get, IStream.get,
          XMLEventReader.setStream, Result.bind]
  | cons t doc ih =>
    intro hwf htb n acc b e he hlt
    have he' : e = false := by
      cases e
      · rfl
      · exact absurd (he rfl) (by simp)
    subst he'
    have hwt := hwf t (by simp)
    have hwd : ∀ x ∈ doc, x.reversible = true := fun x hx => hwf x (by simp [hx])
    cases hq : t.events with
    | nil =>
      have hstep := @hasNext_declaration d rd t hwt hq b (renderLexemes doc)
      rw [eventsOfLexemes_cons, hq] at hlt ⊢
      have := ih hwd (textApart_tail htb) n acc (t.render.reverse ++ b) false (by simp)
        (by simpa using hlt)
      cases n with
      | zero => omega
      | succ n =>
        rw [renderLexemes_cons, RunForwardLoop, hstep, ← RunForwardLoop, this]
        simp
    | cons ev q =>
      have hstep := hasNext_lexeme hd hwt (by rw [hq]; simp) b (renderLexemes doc)
        (fun htx => renderLexemes_after_text htb htx)
      rw [eventsOfLexemes_cons, hq] at hlt
      obtain ⟨m, rfl⟩ : ∃ m, n = (m + 1) + (ev :: q).length := ⟨n - q.length - 2, by
        simp at hlt ⊢; omega⟩
      rw [renderLexemes_cons, eventsOfLexemes_cons, hq]
      rw [hq] at hstep
      rw [RunForwardLoop_token hstep]
      have := ih hwd (textApart_tail htb) (m + 1) (acc ++ ev :: q) (t.render.reverse ++ b)
        (t.isText && (renderLexemes doc).isEmpty) (by
          intro h
          simp only [Bool.and_eq_true, List.isEmpty_iff] at h
          exact renderLexemes_eq_nil hwd h.2) (by simp at hlt ⊢; omega)
      rw [this]
      simp

/-- Backward `hasPrevious` behind a lexeme that stands for events. -/
theorem hasPrevious_lexeme {d rd : List (Str × Str)} (hd : knowsEntities d rd) {t : Lexeme}
    (ht : t.reversible = true) (hev : t.revents ≠ []) (b a : Str)
    (hb : t.isText = true → b = [] ∨ ∃ b', b = '>' :: b') :
    hasPrevious ⟨⟨t.render.reverse ++ b, a, false⟩, false, false, [], false, d, rd⟩ =
      .ok true ⟨⟨b, t.render ++ a, false⟩, false, true, t.revents, false, d, rd⟩ := by
  cases t with
  | startTag n l space =>
    by_cases hl : l = []
    · subst hl
      simp only [Lexeme.reversible, List.isEmpty_nil, if_true, Bool.and_eq_true,
        List.isEmpty_iff] at ht
      obtain ⟨h1, rfl⟩ := ht
      have := hasPrevious_startTag (n := n) h1 b a d rd
      simpa [Lexeme.render, Lexeme.revents, renderWritten] using this
    · have hle : l.isEmpty = false := by simpa using hl
      simp only [Lexeme.reversible, hle, Bool.false_eq_true, if_false] at ht
      obtain ⟨h1, h2, h3⟩ := Lexeme.reversible_tag ht
      have := hasPrevious_startTag_written hd h1 l h2 hl space h3 b a
      simpa [Lexeme.render, Lexeme.revents] using this
  | endTag n =>
    have := hasPrevious_endTag_wide (n := n) ht b a d rd
    simpa [Lexeme.render, Lexeme.revents] using this
  | emptyTag n l space =>
    simp only [Lexeme.reversible, Bool.and_eq_true, Bool.not_eq_true', List.isEmpty_eq_false,
      List.all_eq_true] at ht
    obtain ⟨⟨⟨hl, h1⟩, h2⟩, h3⟩ := ht
    have := hasPrevious_emptyTag_written hd h1 l h2 (by simpa using hl) space h3 b a
    simpa [Lexeme.render, Lexeme.revents] using this
  | text l =>
    simp only [Lexeme.reversible, Bool.and_eq_true, Bool.not_eq_true', List.isEmpty_eq_false]
      at ht
    have := hasPrevious_pieces hd (by simpa using ht.1) (textBytes_forward ht.2).2 b a (hb rfl)
    simpa [Lexeme.render, Lexeme.revents] using this
  | comment c =>
    obtain ⟨-, -, h3, h4, h5⟩ := Lexeme.reversible_comment ht
    have := @hasPrevious_comment_body c h3 h4 h5 b a d rd
    simpa [Lexeme.render, Lexeme.revents] using this
  | processingInstruction pTarget w pData =>
    obtain ⟨t0, ts, rfl, h0, hts, hlt, hxml, hw, hdata, hhead⟩ :=
      Lexeme.reversible_instruction ht
    have := hasPrevious_processingInstruction_sep h0 ts
      (fun x hx => ⟨(hts x hx).1, hlt x hx, (hts x hx).2.2⟩) hxml hw pData
      (fun x hx => ⟨(hdata x hx).1, (hdata x hx).2.2⟩) hhead b a d rd
    simpa [Lexeme.render, Lexeme.revents] using this
  | xmlDeclaration pTarget w pBody => exact absurd rfl hev

/-- Backward `hasPrevious` behind an XML declaration goes on in front of it. -/
theorem hasPrevious_declaration {d rd : List (Str × Str)} {t : Lexeme}
    (ht : t.reversible = true) (hev : t.revents = []) (b a : Str) :
    hasPrevious ⟨⟨t.render.reverse ++ b, a, false⟩, false, false, [], false, d, rd⟩ =
      hasPrevious ⟨⟨b, t.render ++ a, false⟩, false, false, [], false, d, rd⟩ := by
  cases t with
  | xmlDeclaration pTarget w pBody =>
    obtain ⟨h1, h2, h3⟩ := Lexeme.reversible_declaration ht
    have := hasPrevious_xmlDeclaration_sep h1 h2 pBody
      (fun x hx => ⟨(h3 x hx).1, (h3 x hx).2.2⟩) b a d rd
    simpa [Lexeme.render] using this
  | _ => simp [Lexeme.revents] at hev

theorem textApart_iff_chain (doc : List Lexeme) :
    textApart doc = true ↔
      List.Chain' (fun a b => ¬(a.isText = true ∧ b.isText = true)) doc := by
  induction doc with
  | nil => simp [textApart]
  | cons t doc ih =>
    cases doc with
    | nil => simp [textApart]
    | cons u doc =>
      rw [List.chain'_cons, ← ih]
      simp only [textApart, Bool.and_eq_true, Bool.not_eq_true', Bool.and_eq_false_imp,
        not_and, Bool.not_eq_true]

theorem textApart_reverse {doc : List Lexeme} (h : textApart doc = true) :
    textApart doc.reverse = true := by
  rw [textApart_iff_chain] at h ⊢
  rw [List.chain'_reverse]
  refine h.imp ?_
  intro a b hab hba
  exact hab ⟨hba.2, hba.1⟩

theorem rrenderLexemes_before_text {t : Lexeme} {rdoc : List Lexeme}
    (htb : textApart (t :: rdoc) = true) (ht : t.isText = true) :
    rdoc.flatMap (fun u => u.render.reverse) = [] ∨
      ∃ b', rdoc.flatMap (fun u => u.render.reverse) = '>' :: b' := by
  cases rdoc with
  | nil => left; rfl
  | cons u rdoc =>
    right
    obtain ⟨r, hr⟩ := Lexeme.render_last (textApart_next htb ht)
    exact ⟨r ++ rdoc.flatMap (fun u => u.render.reverse), by
      rw [List.flatMap_cons, hr]; rfl⟩

/-- The backward traversal over lexemes both directions read alike, given in the order
read, hands out their events in that order and ends at the begin of the stream. -/
theorem RunBackwardLoop_lexemes {d rd : List (Str × Str)} (hd : knowsEntities d rd)
    (rdoc : List Lexeme) :
    (∀ t ∈ rdoc, t.reversible = true) → textApart rdoc = true →
    ∀ (n : Nat) (acc : List XMLEvent) (a : Str),
      (rdoc.flatMap Lexeme.revents).length < n →
      RunBackwardLoop n acc
          ⟨⟨rdoc.flatMap (fun u => u.render.reverse), a, false⟩, false, false, [], false, d,
            rd⟩ =
        .ok (acc ++ rdoc.flatMap Lexeme.revents)
          ⟨⟨[], renderLexemes rdoc.reverse ++ a, false⟩, false, true, [], false, d, rd⟩ := by
  induction rdoc with
  | nil =>
    intro _ _ n acc a hlt
    cases n with
    | zero => omega
    | succ n =>
      simp [RunBackwardLoop, renderLexemes, hasPrevious, XMLEventReader.rbudget,
        hasPreviousFuel, XMLEventReader.turnBackward, XMLEventReader.rget, IStream.rget,
        XMLEventReader.setStream, Result.bind]
  | cons t rdoc ih =>
    intro hrev htb n acc a hlt
    have hrt := hrev t (by simp)
    have hrd : ∀ x ∈ rdoc, x.reversible = true := fun x hx => hrev x (by simp [hx])
    cases hq : t.revents with
    | nil =>
      have hstep := @hasPrevious_declaration d rd t hrt hq
        (rdoc.flatMap (fun u => u.render.reverse)) a
      rw [List.flatMap_cons, hq] at hlt
      have := ih hrd (textApart_tail htb) n acc (t.render ++ a) (by simpa using hlt)
      cases n with
      | zero => omega
      | succ n =>
        rw [List.flatMap_cons, List.flatMap_cons, hq, RunBackwardLoop, hstep,
          ← RunBackwardLoop, this]
        simp [renderLexemes]
    | cons ev q =>
      have hstep := hasPrevious_lexeme hd hrt (by rw [hq]; simp)
        (rdoc.flatMap (fun u => u.render.reverse)) a
        (fun htx => rrenderLexemes_before_text htb htx)
      rw [List.flatMap_cons, hq] at hlt
      obtain ⟨m, rfl⟩ : ∃ m, n = (m + 1) + (ev :: q).length := ⟨n - q.length - 2, by
        simp at hlt ⊢; omega⟩
      rw [List.flatMap_cons, List.flatMap_cons, hq]
      rw [hq] at hstep
      rw [RunBackwardLoop_token hstep]
      have := ih hrd (textApart_tail htb) (m + 1) (acc ++ ev :: q) (t.render ++ a)
        (by simp at hlt ⊢; omega)
      rw [this]
      simp [renderLexemes]

theorem Lexeme.revents_eq (t : Lexeme) :
    t.revents = t.events.reverse.map XMLEvent.reverseAttributes := by
  cases t <;>
    simp [Lexeme.revents, Lexeme.events, XMLEvent.reverseAttributes, XMLEvent.ofStartElement,
      XMLEvent.ofEndElement, charactersEvent, XMLEvent.ofCharacters, XMLEvent.ofComment,
      XMLEvent.ofProcessingInstruction]

theorem eventsOfLexemes_reverse (doc : List Lexeme) :
    doc.reverse.flatMap Lexeme.revents =
      (eventsOfLexemes doc).reverse.map XMLEvent.reverseAttributes := by
  induction doc with
  | nil => simp [eventsOfLexemes]
  | cons t doc ih =>
    simp only [eventsOfLexemes_cons, List.reverse_append, List.map_append, List.reverse_cons,
      List.flatMap_append, List.flatMap_cons, List.flatMap_nil, List.append_nil, ih,
      Lexeme.revents_eq]

theorem eventsOfLexemes_length_le {doc : List Lexeme} (hwf : ∀ t ∈ doc, t.reversible = true) :
    (eventsOfLexemes doc).length ≤ 2 * (renderLexemes doc).length := by
  induction doc with
  | nil => simp [eventsOfLexemes, renderLexemes]
  | cons t doc ih =>
    have h1 := ih (fun x hx => hwf x (by simp [hx]))
    have h2 : t.events.length ≤ 2 := by cases t <;> simp [Lexeme.events]
    have h3 : 1 ≤ t.render.length := by
      have := Lexeme.render_nonempty (hwf t (by simp))
      cases h : t.render with
      | nil => exact absurd h this
      | cons c l => simp
    rw [eventsOfLexemes_cons, renderLexemes_cons, List.length_append, List.length_append]
    omega

/-- C1, as amended. For every input that is a sequence of tags, text runs, comments,
processing instructions and XML declarations which the forward reader accepts and the
backward reader reads alike, that is to say where
* every attribute has whitespace in front of it, and is written `name="value"` or
  `name='value'` with any whitespace on either side of the `=`, the value made of bytes
  other than its delimiter and `&` and of references to the built-in entities;
* every element name and attribute name is one the forward reader accepts (an end tag
  name: any name bytes with at most one `:`), its local part is not empty, and neither
  the local part nor the prefix begins with `-` or `.`;
* a start tag with attributes and a self-closing tag, which has at least one, may have
  whitespace in front of the `>` or `/>`; a start tag without attributes and an end tag
  have neither whitespace nor `--` in front of the `>`;
* a text is made of bytes other than `<`, `>` and `&` and of references to the built-in
  entities;
* the body of a comment holds neither `-->` nor `<!--`, does not end in a hyphen and
  begins neither with a hyphen nor with `!--`;
* a processing instruction has a target that begins with a letter and holds none of `?`,
  `<`, `>` and whitespace, one whitespace byte behind it, and data that holds none of
  `?`, `<` and `>` and does not begin with whitespace; an XML declaration has the target
  `xml` in any letter case, one whitespace byte behind it, and a body that holds none of
  `?`, `<` and `>`:

the full forward traversal of a new reader over the input completes, with the events of
the input in document order (an XML declaration gives none) and the get position at the
end of the stream, and the full reverse traversal that follows completes as well, with
exactly those events in reverse order, each with the attribute list of its `StartElement`
reversed and everything else, the whitespace flag of `Characters` included, as it was,
and leaves the get position at the begin of the stream. -/
theorem reverse_traversal_mirrors_forward (doc : List Lexeme)
    (h : reversibleLexemes doc = true) :
    forwardTraversal (XMLEventReader.new (IStream.ofData (renderLexemes doc))) =
      .ok (eventsOfLexemes doc)
        { XMLEventReader.new ⟨(renderLexemes doc).reverse, [], true⟩ with
          m_bHasNextCalled := true } ∧
    backwardTraversal
        { XMLEventReader.new ⟨(renderLexemes doc).reverse, [], true⟩ with
          m_bHasNextCalled := true } =
      .ok ((eventsOfLexemes doc).reverse.map XMLEvent.reverseAttributes)
        { XMLEventReader.new ⟨[], renderLexemes doc, false⟩ with
          m_bHasPreviousCalled := true, m_bEventsAreForwardDirection := false } := by
  simp only [reversibleLexemes, Bool.and_eq_true, List.all_eq_true] at h
  obtain ⟨hrev, htb⟩ := h
  have hlen := eventsOfLexemes_length_le hrev
  constructor
  · have := RunForwardLoop_lexemes new_knowsEntities doc hrev htb
      (2 * (renderLexemes doc).length + 2) [] [] false (by simp) (by omega)
    simpa [forwardTraversal, XMLEventReader.new, IStream.ofData] using this
  · have hlen' : (doc.reverse.flatMap Lexeme.revents).length <
        2 * (renderLexemes doc).length + 1 + 1 := by
      rw [eventsOfLexemes_reverse, List.length_map, List.length_reverse]; omega
    have := RunBackwardLoop_lexemes new_knowsEntities doc.reverse
      (fun t ht => hrev t (List.mem_reverse.mp ht))
      (textApart_reverse htb) (2 * (renderLexemes doc).length + 1 + 1) [] [] hlen'
    have hrr : doc.reverse.flatMap (fun u => u.render.reverse) =
        (renderLexemes doc).reverse := by
      rw [renderLexemes, List.reverse_flatMap]; rfl
    rw [hrr, List.reverse_reverse, eventsOfLexemes_reverse] at this
    simp only [backwardTraversal, XMLEventReader.new, List.length_reverse, List.length_nil,
      Nat.add_zero]
    rw [show 2 * (renderLexemes doc).length + 2 = 2 * (renderLexemes doc).length + 1 + 1 by
      omega, RunBackwardLoop, hasPrevious_after_forward]
    rw [RunBackwardLoop] at this
    simpa [XMLEventReader.new] using this

/-- The input `<p:x attr="1&amp;2">hi</p:x>`, with the events of both traversals written
out, and the input
`<?xml version="1.0"?><p:x attr =\t"1&amp;;2"\n b='<' >hi&lt;;<!--a--b--><?t\nd e?><r a="x" b='y'/></p:x>`:
an XML declaration, attributes with whitespace around `=` and in front of `>`, references
to entities and bare `;` in a value and in text, a comment with two hyphens inside, a
processing instruction behind a line feed, and a self-closing tag with attributes. -/
theorem reverse_traversal_mirrors_forward_witness :
    (forwardTraversal (XMLEventReader.new (IStream.ofData
        "<p:x attr=\"1&amp;2\">hi</p:x>".toList)) =
      .ok [XMLEvent.ofStartElement ⟨QName.mk [] ['x'] ['p'],
            [⟨QName.mk [] "attr".toList [], "1&2".toList⟩]⟩,
          charactersEvent "hi".toList, XMLEvent.ofEndElement ⟨QName.mk [] ['x'] ['p']⟩]
        { XMLEventReader.new ⟨"<p:x attr=\"1&amp;2\">hi</p:x>".toList.reverse, [], true⟩ with
          m_bHasNextCalled := true } ∧
    backwardTraversal
        { XMLEventReader.new ⟨"<p:x attr=\"1&amp;2\">hi</p:x>".toList.reverse, [], true⟩ with
          m_bHasNextCalled := true } =
      .ok [XMLEvent.ofEndElement ⟨QName.mk [] ['x'] ['p']⟩, charactersEvent "hi".toList,
          XMLEvent.ofStartElement ⟨QName.mk [] ['x'] ['p'],
            [⟨QName.mk [] "attr".toList [], "1&2".toList⟩]⟩]
        { XMLEventReader.new ⟨[], "<p:x attr=\"1&amp;2\">hi</p:x>".toList, false⟩ with
          m_bHasPreviousCalled := true, m_bEventsAreForwardDirection := false }) ∧
    reversibleLexemes
        [.xmlDeclaration "xml".toList ' ' "version=\"1.0\"".toList,
          .startTag "p:x".toList
            [⟨[' '], "attr".toList, [' '], ['\t'], '"',
                [.byte '1', .reference .amp, .byte ';', .byte '2']⟩,
              ⟨['\n', ' '], ['b'], [], [], '\'', [.byte '<']⟩] [' '],
          .text [.byte 'h', .byte 'i', .reference .lt, .byte ';'],
          .comment "a--b".toList,
          .processingInstruction ['t'] '\n' "d e".toList,
          .emptyTag ['r'] [⟨[' '], ['a'], [], [], '"', [.byte 'x']⟩,
            ⟨[' '], ['b'], [], [], '\'', [.byte 'y']⟩] [],
          .endTag "p:x".toList] = true ∧
    renderLexemes
        [.xmlDeclaration "xml".toList ' ' "version=\"1.0\"".toList,
          .startTag "p:x".toList
            [⟨[' '], "attr".toList, [' '], ['\t'], '"',
                [.byte '1', .reference .amp, .byte ';', .byte '2']⟩,
              ⟨['\n', ' '], ['b'], [], [], '\'', [.byte '<']⟩] [' '],
          .text [.byte 'h', .byte 'i', .reference .lt, .byte ';'],
          .comment "a--b".toList,
          .processingInstruction ['t'] '\n' "d e".toList,
          .emptyTag ['r'] [⟨[' '], ['a'], [], [], '"', [.byte 'x']⟩,
            ⟨[' '], ['b'], [], [], '\'', [.byte 'y']⟩] [],
          .endTag "p:x".toList] =
      ("<?xml version=\"1.0\"?><p:x attr =\t\"1&amp;;2\"\n b='<' >hi&lt;;<!--a--b-->" ++
        "<?t\nd e?><r a=\"x\" b='y'/></p:x>").toList ∧
    forwardTraversal (XMLEventReader.new (IStream.ofData (renderLexemes
        [.xmlDeclaration "xml".toList ' ' "version=\"1.0\"".toList,
          .startTag "p:x".toList
            [⟨[' '], "attr".toList, [' '], ['\t'], '"',
                [.byte '1', .reference .amp, .byte ';', .byte '2']⟩,
              ⟨['\n', ' '], ['b'], [], [], '\'', [.byte '<']⟩] [' '],
          .text [.byte 'h', .byte 'i', .reference .lt, .byte ';'],
          .comment "a--b".toList,
          .processingInstruction ['t'] '\n' "d e".toList,
          .emptyTag ['r'] [⟨[' '], ['a'], [], [], '"', [.byte 'x']⟩,
            ⟨[' '], ['b'], [], [], '\'', [.byte 'y']⟩] [],
          .endTag "p:x".toList]))) =
      .ok (eventsOfLexemes
        [.xmlDeclaration "xml".toList ' ' "version=\"1.0\"".toList,
          .startTag "p:x".toList
            [⟨[' '], "attr".toList, [' '], ['\t'], '"',
                [.byte '1', .reference .amp, .byte ';', .byte '2']⟩,
              ⟨['\n', ' '], ['b'], [], [], '\'', [.byte '<']⟩] [' '],
          .text [.byte 'h', .byte 'i', .reference .lt, .byte ';'],
          .comment "a--b".toList,
          .processingInstruction ['t'] '\n' "d e".toList,
          .emptyTag ['r'] [⟨[' '], ['a'], [], [], '"', [.byte 'x']⟩,
            ⟨[' '], ['b'], [], [], '\'', [.byte 'y']⟩] [],
          .endTag "p:x".toList])
        { XMLEventReader.new ⟨(renderLexemes
        [.xmlDeclaration "xml".toList ' ' "version=\"1.0\"".toList,
          .startTag "p:x".toList
            [⟨[' '], "attr".toList, [' '], ['\t'], '"',
                [.byte '1', .reference .amp, .byte ';', .byte '2']⟩,
              ⟨['\n', ' '], ['b'], [], [], '\'', [.byte '<']⟩] [' '],
          .text [.byte 'h', .byte 'i', .reference .lt, .byte ';'],
          .comment "a--b".toList,
          .processingInstruction ['t'] '\n' "d e".toList,
          .emptyTag ['r'] [⟨[' '], ['a'], [], [], '"', [.byte 'x']⟩,
            ⟨[' '], ['b'], [], [], '\'', [.byte 'y']⟩] [],
          .endTag "p:x".toList]).reverse, [], true⟩ with m_bHasNextCalled := true } ∧
    backwardTraversal
        { XMLEventReader.new
            ⟨(renderLexemes
              [.xmlDeclaration "xml".toList ' ' "version=\"1.0\"".toList,
                .startTag "p:x".toList
                  [⟨[' '], "attr".toList, [' '], ['\t'], '"',
                      [.byte '1', .reference .amp, .byte ';', .byte '2']⟩,
                    ⟨['\n', ' '], ['b'], [], [], '\'', [.byte '<']⟩] [' '],
                .text [.byte 'h', .byte 'i', .reference .lt, .byte ';'],
                .comment "a--b".toList,
                .processingInstruction ['t'] '\n' "d e".toList,
                .emptyTag ['r'] [⟨[' '], ['a'], [], [], '"', [.byte 'x']⟩,
                  ⟨[' '], ['b'], [], [], '\'', [.byte 'y']⟩] [],
                .endTag "p:x".toList]).reverse, [], true⟩ with m_bHasNextCalled := true } =
      .ok ((eventsOfLexemes
          [.xmlDeclaration "xml".toList ' ' "version=\"1.0\"".toList,
            .startTag "p:x".toList
              [⟨[' '], "attr".toList, [' '], ['\t'], '"',
                  [.byte '1', .reference .amp, .byte ';', .byte '2']⟩,
                ⟨['\n', ' '], ['b'], [], [], '\'', [.byte '<']⟩] [' '],
            .text [.byte 'h', .byte 'i', .reference .lt, .byte ';'],
            .comment "a--b".toList,
            .processingInstruction ['t'] '\n' "d e".toList,
            .emptyTag ['r'] [⟨[' '], ['a'], [], [], '"', [.byte 'x']⟩,
              ⟨[' '], ['b'], [], [], '\'', [.byte 'y']⟩] [],
            .endTag "p:x".toList]).reverse.map XMLEvent.reverseAttributes)
        { XMLEventReader.new
            ⟨[], renderLexemes
              [.xmlDeclaration "xml".toList ' ' "version=\"1.0\"".toList,
                .startTag "p:x".toList
                  [⟨[' '], "attr".toList, [' '], ['\t'], '"',
                      [.byte '1', .reference .amp, .byte ';', .byte '2']⟩,
                    ⟨['\n', ' '], ['b'], [], [], '\'', [.byte '<']⟩] [' '],
                .text [.byte 'h', .byte 'i', .reference .lt, .byte ';'],
                .comment "a--b".toList,
                .processingInstruction ['t'] '\n' "d e".toList,
                .emptyTag ['r'] [⟨[' '], ['a'], [], [], '"', [.byte 'x']⟩,
                  ⟨[' '], ['b'], [], [], '\'', [.byte 'y']⟩] [],
                .endTag "p:x".toList], false⟩ with
          m_bHasPreviousCalled := true, m_bEventsAreForwardDirection := false } :=
  ⟨reverse_traversal_mirrors_forward
      [.startTag "p:x".toList
          [⟨[' '], "attr".toList, [], [], '"', [.byte '1', .reference .amp, .byte '2']⟩] [],
        .text [.byte 'h', .byte 'i'], .endTag "p:x".toList] (by decide),
    by decide, by decide, reverse_traversal_mirrors_forward _ (by decide)⟩

/-- C1, counterexample. Inputs the full forward traversal completes on and the following
reverse traversal does not mirror. On `<a>x>y</a>` the forward traversal hands out
`StartElement(a)`, `Characters("x>y")`, `EndElement(a)`, and the reverse traversal hands
out `EndElement(a)` and `Characters("y")` only and then throws `std::runtime_error`: read
backwards, the `>` inside the text ends a tag. On `<a b="c"d="e">`, two attributes
without whitespace between them, and on `<?t a?b?>`, a processing instruction with `?`
in its data, the reverse traversal throws as well. On `<?t a<b?>` it completes, with
`ProcessingInstruction(b)` and `Characters("<?t a")` where the forward traversal gives
`ProcessingInstruction(t, "a<b")`. -/
theorem reverse_traversal_fails_on_accepted_input :
    forwardTraversal
        (XMLEventReader.new (IStream.ofData ['<', 'a', '>', 'x', '>', 'y', '<', '/', 'a', '>'])) =
      .ok [XMLEvent.ofStartElement ⟨⟨[], ['a'], []⟩, []⟩, charactersEvent ['x', '>', 'y'],
          XMLEvent.ofEndElement ⟨⟨[], ['a'], []⟩⟩]
        { XMLEventReader.new ⟨['>', 'a', '/', '<', 'y', '>', 'x', '>', 'a', '<'], [], true⟩ with
          m_bHasNextCalled := true } ∧
    backwardTraversal
        { XMLEventReader.new ⟨['>', 'a', '/', '<', 'y', '>', 'x', '>', 'a', '<'], [], true⟩ with
          m_bHasNextCalled := true } =
      .throw (.runtime_error "Character not supported in element name.")
        { XMLEventReader.new ⟨['a', '<'], ['>', 'x', '>', 'y', '<', '/', 'a', '>'], false⟩ with
          m_bHasPreviousCalled := true, m_bEventsAreForwardDirection := false } ∧
    forwardTraversal (XMLEventReader.new (IStream.ofData "<a b=\"c\"d=\"e\">".toList)) =
      .ok [XMLEvent.ofStartElement ⟨⟨[], ['a'], []⟩,
          [⟨⟨[], ['b'], []⟩, ['c']⟩, ⟨⟨[], ['d'], []⟩, ['e']⟩]⟩]
        { XMLEventReader.new ⟨"<a b=\"c\"d=\"e\">".toList.reverse, [], true⟩ with
          m_bHasNextCalled := true } ∧
    backwardTraversal
        { XMLEventReader.new ⟨"<a b=\"c\"d=\"e\">".toList.reverse, [], true⟩ with
          m_bHasNextCalled := true } =
      .throw (.runtime_error "Character not supported in an attribute name.")
        { XMLEventReader.new ⟨"<a b=\"c".toList.reverse, "\"d=\"e\">".toList, false⟩ with
          m_bHasPreviousCalled := true, m_bEventsAreForwardDirection := false } ∧
    forwardTraversal (XMLEventReader.new (IStream.ofData "<?t a?b?>".toList)) =
      .ok [XMLEvent.ofProcessingInstruction ⟨['t'], "a?b".toList⟩]
        { XMLEventReader.new ⟨"<?t a?b?>".toList.reverse, [], true⟩ with
          m_bHasNextCalled := true } ∧
    backwardTraversal
        { XMLEventReader.new ⟨"<?t a?b?>".toList.reverse, [], true⟩ with
          m_bHasNextCalled := true } =
      .throw (.runtime_error "Processing instruction target name interrupted by '?'.")
        { XMLEventReader.new ⟨"<?t ".toList.reverse, "a?b?>".toList, false⟩ with
          m_bHasPreviousCalled := true, m_bEventsAreForwardDirection := false } ∧
    forwardTraversal (XMLEventReader.new (IStream.ofData "<?t a<b?>".toList)) =
      .ok [XMLEvent.ofProcessingInstruction ⟨['t'], "a<b".toList⟩]
        { XMLEventReader.new ⟨"<?t a<b?>".toList.reverse, [], true⟩ with
          m_bHasNextCalled := true } ∧
    backwardTraversal
        { XMLEventReader.new ⟨"<?t a<b?>".toList.reverse, [], true⟩ with
          m_bHasNextCalled := true } =
      .ok [XMLEvent.ofProcessingInstruction ⟨['b'], []⟩, charactersEvent "<?t a".toList]
        { XMLEventReader.new ⟨[], "<?t a<b?>".toList, false⟩ with
          m_bHasPreviousCalled := true, m_bEventsAreForwardDirection := false } := by
  refine ⟨?_, ?_, ?_, ?_, ?_, ?_, ?_, ?_⟩ <;> decide

end cpprstax
